import Mathlib

/-!
# A generational copying collector: embedding and verification

The collector of `src/heap.cpp` is embedded as pure functions over an explicit
machine state.  Addresses are byte addresses (`Nat`); the memory maps an address
to the machine word stored there.  The word size in bytes, `B`, is a parameter
(4 or 8).  Values of C type `unsigned` are 32 bits wide; arithmetic on them
wraps where the source computes with caller-supplied values.
-/

namespace Heap

/-! ## Target constants and helpers of the common header -/

/-- Modelled from the spec: `BitsPerWord = 8 * BytesPerWord` (the common header
is not part of the sources); `B` is `BytesPerWord`. -/
def BitsPerWord (B : Nat) : Nat := 8 * B

/-- Modelled from the spec: wrap-around of the 32 bit C type `unsigned`. -/
def u32 (n : Nat) : Nat := n % 2 ^ 32

/-- Modelled from the spec: subtraction on the C type `unsigned` (wraps). -/
def usub (a b : Nat) : Nat := (a + 2 ^ 32 - b % 2 ^ 32) % 2 ^ 32

/-- Modelled from the spec: index of the word holding bit `i` of a bit vector
(helper `wordOf` of the missing common header). -/
def wordOf (B i : Nat) : Nat := i / BitsPerWord B

/-- Modelled from the spec: position of bit `i` inside its word (helper `bitOf`
of the missing common header). -/
def bitOf (B i : Nat) : Nat := i % BitsPerWord B

/-- Modelled from the spec: bit index of bit `bit` of word `word` (helper
`indexOf` of the missing common header). -/
def indexOf (B word bit : Nat) : Nat := word * BitsPerWord B + bit

/-- Modelled from the spec: bitwise complement of a machine word. -/
def wnot (B x : Nat) : Nat := 2 ^ BitsPerWord B - (x + 1)

/-- `TenureThreshold` of the source. -/
def TenureThreshold : Nat := 3

/-- `Top` of the source: the largest `unsigned`. -/
def Top : Nat := 2 ^ 32 - 1

/-- `BitsetExtensionBit` of the source: the highest bit of a word. -/
def BitsetExtensionBit (B : Nat) : Nat := 1 <<< (BitsPerWord B - 1)

/-! ## Memory -/

/-- The memory: the word stored at each byte address. -/
abbrev Mem := Nat → Nat

/-- Store of one word. -/
def Mem.write (m : Mem) (a v : Nat) : Mem := fun x => if x = a then v else m x

/-- Effect of `memset(a, 0, n * BytesPerWord)`: the `n` words from address `a`
are zero. -/
def Mem.zeroWords (B : Nat) (m : Mem) (a n : Nat) : Mem :=
  fun x => if a ≤ x ∧ x < a + n * B then 0 else m x

/-- The word `p[k]` of a word array at address `p`. -/
def wordAt (B : Nat) (m : Mem) (p k : Nat) : Nat := m (p + k * B)

/-- Store into `p[k]`. -/
def setWordAt (B : Nat) (m : Mem) (p k v : Nat) : Mem := m.write (p + k * B) v

/-! ## The traversal bitset (`bitsetInit` .. `bitsetNext`) -/

/-- `bitsetInit` of the source: zero the first word. -/
def bitsetInit (B : Nat) (m : Mem) (p : Nat) : Mem := m.zeroWords B p 1

/-- `bitsetClear` of the source. -/
def bitsetClear (B : Nat) (m : Mem) (p start «end» : Nat) : Mem :=
  if «end» < BitsPerWord B - 1 then m
  else if start < BitsPerWord B - 1 then
    m.zeroWords B (p + B) (wordOf B (u32 («end» + (BitsPerWord B * 2) + 1)))
  else
    let startWord := wordOf B (u32 (start + (BitsPerWord B * 2) + 1))
    let endWord := wordOf B (u32 («end» + (BitsPerWord B * 2) + 1))
    if endWord > startWord then
      m.zeroWords B (p + (startWord + 1) * B) (endWord - startWord)
    else m

/-- `bitsetSet` of the source. -/
def bitsetSet (B : Nat) (m : Mem) (p i : Nat) (v : Bool) : Mem :=
  let big := decide (i ≥ BitsPerWord B - 1)
  let i1 := if big then u32 (i + (BitsPerWord B * 2) + 1) else i
  let m1 :=
    if big && v then
      let m0 := setWordAt B m p 0 (wordAt B m p 0 ||| BitsetExtensionBit B)
      if wordAt B m0 p 2 ≤ usub (wordOf B i1) 3 then
        setWordAt B m0 p 2 (usub (wordOf B i1) 2)
      else m0
    else m
  if v then
    setWordAt B m1 p (wordOf B i1) (wordAt B m1 p (wordOf B i1) ||| (1 <<< bitOf B i1))
  else
    setWordAt B m1 p (wordOf B i1)
      (wordAt B m1 p (wordOf B i1) &&& wnot B (1 <<< bitOf B i1))

/-- The `for (; word < length; ++word)` loop of `bitsetHasMore`; the first
argument counts the iterations left. -/
def bitsetHasMoreLoop (B : Nat) (m : Mem) (p length : Nat) : Nat → Nat → Bool × Mem
  | 0, word => (false, setWordAt B m p 1 (indexOf B word 0))
  | n + 1, word =>
    if word < length then
      if wordAt B m p (word + 3) ≠ 0 then (true, setWordAt B m p 1 (indexOf B word 0))
      else bitsetHasMoreLoop B m p length n (word + 1)
    else (false, setWordAt B m p 1 (indexOf B word 0))

/-- `bitsetHasMore` of the source: the answer and the memory (the scan index
`p[1]` is advanced). -/
def bitsetHasMore (B : Nat) (m : Mem) (p : Nat) : Bool × Mem :=
  if wordAt B m p 0 = 0 then (false, m)
  else if wordAt B m p 0 = BitsetExtensionBit B then
    let length := wordAt B m p 2
    let word := wordOf B (wordAt B m p 1)
    bitsetHasMoreLoop B m p length (length - word) word
  else (true, m)

/-- The `for (bit = bitOf(i); bit < BitsPerWord; ++bit)` loop of `bitsetNext`
in the extension case; `none` is `abort`. -/
def bitsetNextSpill (B : Nat) (m : Mem) (p word : Nat) : Nat → Nat → Option (Nat × Mem)
  | 0, _ => none
  | n + 1, bit =>
    if bit < BitsPerWord B then
      if wordAt B m p (word + 3) &&& (1 <<< bit) ≠ 0 then
        let m1 := setWordAt B m p 1 (indexOf B word bit + 1)
        let r := u32 (wordAt B m1 p 1 + BitsPerWord B - 2)
        some (r, bitsetSet B m1 p r false)
      else bitsetNextSpill B m p word n (bit + 1)
    else none

/-- The `for (i = 0; i < BitsPerWord - 1; ++i)` loop of `bitsetNext` in the
default case; `none` is `abort`. -/
def bitsetNextLow (B : Nat) (m : Mem) (p : Nat) : Nat → Nat → Option (Nat × Mem)
  | 0, _ => none
  | n + 1, i =>
    if i < BitsPerWord B - 1 then
      if wordAt B m p 0 &&& (1 <<< i) ≠ 0 then some (i, bitsetSet B m p i false)
      else bitsetNextLow B m p n (i + 1)
    else none

/-- `bitsetNext` of the source: the offset returned and the memory, or `none`
when the source aborts (also when the assertion `more` fails). -/
def bitsetNext (B : Nat) (m : Mem) (p : Nat) : Option (Nat × Mem) :=
  let r := bitsetHasMore B m p
  let m1 := r.2
  if r.1 = false then none
  else if wordAt B m1 p 0 = 0 then none
  else if wordAt B m1 p 0 = BitsetExtensionBit B then
    let i := wordAt B m1 p 1
    let word := wordOf B i
    if word < wordAt B m1 p 2 then
      bitsetNextSpill B m1 p word (BitsPerWord B - bitOf B i) (bitOf B i)
    else none
  else bitsetNextLow B m1 p (BitsPerWord B - 1) 0

/-- Repeated `bitsetNext`: the offsets returned by `n` successive calls. -/
def bitsetDrain (B : Nat) (p : Nat) : Nat → Mem → Option (List Nat × Mem)
  | 0, m => some ([], m)
  | n + 1, m =>
    match bitsetNext B m p with
    | none => none
    | some (i, m1) =>
      match bitsetDrain B p n m1 with
      | none => none
      | some (l, m2) => some (i :: l, m2)

/-- A sequence of `bitsetSet(p, i, true)` calls. -/
def bitsetSetAll (B : Nat) (p : Nat) (m : Mem) (l : List Nat) : Mem :=
  l.foldl (fun m i => bitsetSet B m p i true) m

end Heap

namespace Heap

/-! ## Slot access (`get`, `getp`, `set`) -/

/-- Modelled from the spec: `mask` clears the tag bits below `PointerMask`
(the common header is not part of the sources). -/
def mask (B x : Nat) : Nat := x / B * B

/-- `get` of the source: the masked word at a word offset of an object. -/
def get (B : Nat) (m : Mem) (o offsetInWords : Nat) : Nat :=
  mask B (m (o + offsetInWords * B))

/-- `getp` of the source: the address of a word of an object. -/
def getp (B : Nat) (o offsetInWords : Nat) : Nat := o + offsetInWords * B

/-- `set` of the source: store a pointer and keep the tag bits of the slot;
`*o & ~PointerMask` is the remainder modulo the word size. -/
def set (B : Nat) (m : Mem) (o value : Nat) : Mem := m.write o (value ||| (m o % B))

/-- `set(o, offsetInWords, value)` of the source. -/
def setAt (B : Nat) (m : Mem) (o offsetInWords value : Nat) : Mem :=
  set B m (getp B o offsetInWords) value

/-! ## Arithmetic helpers of the common header -/

/-- Modelled from the spec: `ceiling(n, d)`, the quotient rounded up. -/
def ceiling (n d : Nat) : Nat := (n + d - 1) / d

/-- Modelled from the spec: `avg(a, b)`, the average of two capacities. -/
def avg (a b : Nat) : Nat := (a + b) / 2

/-- The doubling loop of `log`. -/
def logLoop (n : Nat) : Nat → Nat → Nat → Nat
  | 0, _, r => r
  | k + 1, i, r => if i < n then logLoop n k (i * 2) (r + 1) else r

/-- Modelled from the spec: `log(n)`, the base two logarithm rounded up. -/
def log (n : Nat) : Nat := logLoop n n 1 0

/-- The halving loop of `powerOfTwo`. -/
def powerOfTwoLoop : Nat → Nat → Bool
  | 0, _ => true
  | k + 1, n => if n > 2 then (if n % 2 = 1 then false else powerOfTwoLoop k (n / 2)) else true

/-- Modelled from the spec: `powerOfTwo(n)`. -/
def powerOfTwo (n : Nat) : Bool := powerOfTwoLoop n n

/-! ## Maps and segments -/

/-- A `Segment::Map`: its record width, its scale and its optional child.  The
segment a map belongs to is passed to the operations. -/
inductive Map where
  | leaf (bitsPerRecord scale : Nat) (clearNewData : Bool)
  | node (bitsPerRecord scale : Nat) (clearNewData : Bool) (child : Map)
  deriving Repr, DecidableEq

/-- Field `bitsPerRecord`. -/
def Map.bitsPerRecord : Map → Nat
  | leaf b _ _ => b
  | node b _ _ _ => b

/-- Field `scale`. -/
def Map.scale : Map → Nat
  | leaf _ s _ => s
  | node _ s _ _ => s

/-- Field `clearNewData`. -/
def Map.clearNewData : Map → Bool
  | leaf _ _ c => c
  | node _ _ c _ => c

/-- Field `child`. -/
def Map.child : Map → Option Map
  | leaf _ _ _ => none
  | node _ _ _ ch => some ch

/-- A `Segment`: address of the storage, position, capacity (both in words) and
the attached map. -/
structure Segment where
  data : Nat
  position : Nat
  capacity : Nat
  map : Option Map
  deriving Repr, DecidableEq

/-- `Segment::remaining`. -/
def Segment.remaining (s : Segment) : Nat := usub s.capacity s.position

/-- `Segment::contains`. -/
def Segment.contains (B : Nat) (s : Segment) (p : Nat) : Bool :=
  decide (s.position ≠ 0) && decide (p ≥ s.data) && decide (p < s.data + s.position * B)

/-- `Segment::almostContains`. -/
def Segment.almostContains (B : Nat) (s : Segment) (p : Nat) : Bool :=
  s.contains B p || decide (p = s.data + s.position * B)

/-- `Segment::get`: the address of a word; `none` when the assertion fails. -/
def Segment.get (B : Nat) (s : Segment) (offset : Nat) : Option Nat :=
  if offset ≤ s.position then some (s.data + offset * B) else none

/-- `Segment::indexOf`: the word index of an address; `none` when the assertion
fails. -/
def Segment.indexOf (B : Nat) (s : Segment) (p : Nat) : Option Nat :=
  if s.almostContains B p then some ((p - s.data) / B) else none

/-- `Segment::allocate`: the address returned and the segment; `none` when an
assertion fails. -/
def Segment.allocate (B : Nat) (s : Segment) (size : Nat) : Option (Nat × Segment) :=
  if size ≠ 0 ∧ u32 (s.position + size) ≤ s.capacity then
    some (s.data + s.position * B, { s with position := u32 (s.position + size) })
  else none

/-- `Map::size(capacity)` for a product that fits the type `unsigned` and a
result other than 0, as the assertion demands: the number of backing words of a
level, on natural numbers.  `Exact.size` is the function on the type `unsigned`
with its assertion. -/
def Map.size (B : Nat) (mp : Map) (capacity : Nat) : Nat :=
  ceiling (ceiling capacity mp.scale * mp.bitsPerRecord) (BitsPerWord B)

/-- `Map::footprint` for level sizes other than 0 and a sum that fits the type
`unsigned`: the number of backing words of a hierarchy, on natural numbers.
`Exact.footprint` is the function on the type `unsigned` with the assertions of
`Map::size`. -/
def Map.footprint (B : Nat) : Map → Nat → Nat
  | leaf b s c, capacity => (leaf b s c).size B capacity
  | node b s c ch, capacity => (node b s c ch).size B capacity + ch.footprint B capacity

/-- `Map::offset(capacity)` for level sizes other than 0 and a sum that fits
the type `unsigned`, on natural numbers; `Exact.offset` is the function on the
type `unsigned` with the assertions of `Map::size`. -/
def Map.offset (B : Nat) (mp : Map) (capacity : Nat) : Nat :=
  match mp.child with
  | none => 0
  | some ch => ch.footprint B capacity

/-- `Map::data()`: the address of the backing words of a map of segment `s`. -/
def Map.data (B : Nat) (s : Segment) (mp : Map) : Nat :=
  s.data + (s.capacity + mp.offset B s.capacity) * B

/-- `Map::size()`. -/
def Map.sizeNow (B : Nat) (s : Segment) (mp : Map) : Nat :=
  mp.size B (max s.capacity 1)

/-- `Map::indexOf(unsigned segmentIndex)` for a product that fits the type
`unsigned`, on natural numbers; `Exact.indexOfIndex` is the function on the
type `unsigned`. -/
def Map.indexOfIndex (mp : Map) (segmentIndex : Nat) : Nat :=
  (segmentIndex / mp.scale) * mp.bitsPerRecord

/-- `Map::indexOf(void* p)`; `none` when an assertion fails. -/
def Map.indexOf (B : Nat) (s : Segment) (mp : Map) (p : Nat) : Option Nat :=
  if s.almostContains B p ∧ s.capacity ≠ 0 then
    (s.indexOf B p).map mp.indexOfIndex
  else none

/-- `Map::clearBit`; `none` when the assertion fails. -/
def Map.clearBit (B : Nat) (s : Segment) (mp : Map) (m : Mem) (i : Nat) : Option Mem :=
  if wordOf B i < mp.sizeNow B s then
    some (setWordAt B m (mp.data B s) (wordOf B i)
      (wordAt B m (mp.data B s) (wordOf B i) &&& wnot B (1 <<< bitOf B i)))
  else none

/-- `Map::setBit`; `none` when the assertion fails. -/
def Map.setBit (B : Nat) (s : Segment) (mp : Map) (m : Mem) (i : Nat) : Option Mem :=
  if wordOf B i < mp.sizeNow B s then
    some (setWordAt B m (mp.data B s) (wordOf B i)
      (wordAt B m (mp.data B s) (wordOf B i) ||| (1 <<< bitOf B i)))
  else none

/-- The loop of `Map::clearOnlyIndex`: clear `n` bits from bit `i` upwards. -/
def Map.clearBits (B : Nat) (s : Segment) (mp : Map) : Nat → Mem → Nat → Option Mem
  | 0, m, _ => some m
  | n + 1, m, i =>
    match mp.clearBit B s m i with
    | none => none
    | some m1 => Map.clearBits B s mp n m1 (i + 1)

/-- `Map::clearOnlyIndex`. -/
def Map.clearOnlyIndex (B : Nat) (s : Segment) (mp : Map) (m : Mem) (index : Nat) :
    Option Mem :=
  mp.clearBits B s mp.bitsPerRecord m index

/-- `Map::clearOnly(unsigned segmentIndex)`. -/
def Map.clearOnlyAt (B : Nat) (s : Segment) (mp : Map) (m : Mem) (segmentIndex : Nat) :
    Option Mem :=
  mp.clearOnlyIndex B s m (mp.indexOfIndex segmentIndex)

/-- `Map::clearOnly(void* p)`. -/
def Map.clearOnly (B : Nat) (s : Segment) (mp : Map) (m : Mem) (p : Nat) : Option Mem :=
  match mp.indexOf B s p with
  | none => none
  | some index => mp.clearOnlyIndex B s m index

/-- `Map::clear(void* p)`: clear the record of `p` at this level and below. -/
def Map.clear (B : Nat) (s : Segment) : Map → Mem → Nat → Option Mem
  | leaf b sc c, m, p => (leaf b sc c).clearOnly B s m p
  | node b sc c ch, m, p =>
    match (node b sc c ch).clearOnly B s m p with
    | none => none
    | some m1 => ch.clear B s m1 p

/-- The loop of `Map::setOnlyIndex`: write the bits of `v`, lowest bit at the
highest index, from bit `i` down to bit `index`; the first argument counts the
iterations left (`none` when they run out, which needs `bitsPerRecord = 0`). -/
def Map.setBits (B : Nat) (s : Segment) (mp : Map) (index : Nat) :
    Nat → Mem → Nat → Nat → Option Mem
  | 0, _, _, _ => none
  | n + 1, m, i, v =>
    match (if v % 2 = 1 then mp.setBit B s m i else mp.clearBit B s m i) with
    | none => none
    | some m1 => if i = index then some m1 else Map.setBits B s mp index n m1 (i - 1) (v / 2)

/-- `Map::setOnlyIndex`. -/
def Map.setOnlyIndex (B : Nat) (s : Segment) (mp : Map) (m : Mem) (index v : Nat) :
    Option Mem :=
  mp.setBits B s index mp.bitsPerRecord m (usub (u32 (index + mp.bitsPerRecord)) 1) v

/-- `Map::setOnly(unsigned segmentIndex, v)`. -/
def Map.setOnlyAt (B : Nat) (s : Segment) (mp : Map) (m : Mem) (segmentIndex v : Nat) :
    Option Mem :=
  mp.setOnlyIndex B s m (mp.indexOfIndex segmentIndex) v

/-- `Map::setOnly(void* p, v)`. -/
def Map.setOnly (B : Nat) (s : Segment) (mp : Map) (m : Mem) (p v : Nat) : Option Mem :=
  match mp.indexOf B s p with
  | none => none
  | some index => mp.setOnlyIndex B s m index v

/-- The loop of `Map::get`: shift in `n` bits from bit `i` upwards. -/
def Map.getBits (B : Nat) (s : Segment) (mp : Map) (m : Mem) : Nat → Nat → Nat → Nat
  | 0, _, v => v
  | n + 1, i, v =>
    Map.getBits B s mp m n (i + 1)
      (u32 ((u32 (v <<< 1)) |||
        ((wordAt B m (mp.data B s) (wordOf B i) &&& (1 <<< bitOf B i)) >>> bitOf B i)))

/-- `Map::get`; `none` when an assertion fails. -/
def Map.get (B : Nat) (s : Segment) (mp : Map) (m : Mem) (p : Nat) : Option Nat :=
  (mp.indexOf B s p).map fun index => mp.getBits B s m mp.bitsPerRecord index 0

/-- `Map::set(void* p, v)`: write the record of `p` at this level and below;
`none` when an assertion fails. -/
def Map.set (B : Nat) (s : Segment) : Map → Mem → Nat → Nat → Option Mem
  | leaf b sc c, m, p, v =>
    match (leaf b sc c).setOnly B s m p v with
    | none => none
    | some m1 => if (leaf b sc c).get B s m1 p = some v then some m1 else none
  | node b sc c ch, m, p, v =>
    match (node b sc c ch).setOnly B s m p v with
    | none => none
    | some m1 =>
      if (node b sc c ch).get B s m1 p = some v then ch.set B s m1 p v else none

end Heap

namespace Heap

/-! ## The maps on the type `unsigned`

The functions of `Segment::Map` with the arithmetic of the type `unsigned` and
with every assertion: `none` is a failed assertion.  The functions `Map.size`,
`Map.footprint`, `Map.offset`, `Map.data` and the operations built on them
compute on natural numbers; they agree with the functions below for the maps
whose products and sums fit the type `unsigned` and whose levels have a size
other than 0 (`Exact.size_nat`, `Exact.footprint_nat`, `Exact.offset_nat`,
`Exact.setOnly_nat`, `Exact.clearOnly_nat`, `Exact.get_nat`). -/

namespace Exact

/-- `Map::size(unsigned capacity)`: the product is computed on the type
`unsigned`; `none` when the assertion on the result fails. -/
def size (B : Nat) (mp : Map) (capacity : Nat) : Option Nat :=
  let result := ceiling (u32 (ceiling capacity mp.scale * mp.bitsPerRecord)) (BitsPerWord B)
  if result ≠ 0 then some result else none

/-- `Map::footprint`: the sum is computed on the type `unsigned`. -/
def footprint (B : Nat) : Map → Nat → Option Nat
  | Map.leaf b s c, capacity => size B (Map.leaf b s c) capacity
  | Map.node b s c ch, capacity =>
    match size B (Map.node b s c ch) capacity with
    | none => none
    | some n =>
      match footprint B ch capacity with
      | none => none
      | some f => some (u32 (n + f))

/-- `Map::offset(unsigned capacity)`. -/
def offset (B : Nat) (mp : Map) (capacity : Nat) : Option Nat :=
  match mp.child with
  | none => some 0
  | some ch => (footprint B ch capacity).map fun f => u32 (0 + f)

/-- `Map::data()`: the address of the backing words of a map of segment `s`. -/
def data (B : Nat) (s : Segment) (mp : Map) : Option Nat :=
  (offset B mp s.capacity).map fun off => s.data + (s.capacity + off) * B

/-- `Map::size()`. -/
def sizeNow (B : Nat) (s : Segment) (mp : Map) : Option Nat :=
  size B mp (max s.capacity 1)

/-- `Map::indexOf(unsigned segmentIndex)`: the product is computed on the type
`unsigned`. -/
def indexOfIndex (mp : Map) (segmentIndex : Nat) : Nat :=
  u32 ((segmentIndex / mp.scale) * mp.bitsPerRecord)

/-- `Map::indexOf(void* p)`. -/
def indexOf (B : Nat) (s : Segment) (mp : Map) (p : Nat) : Option Nat :=
  if s.almostContains B p ∧ s.capacity ≠ 0 then
    (s.indexOf B p).map (indexOfIndex mp)
  else none

/-- `Map::clearBit`. -/
def clearBit (B : Nat) (s : Segment) (mp : Map) (m : Mem) (i : Nat) : Option Mem :=
  match sizeNow B s mp with
  | none => none
  | some sz =>
    if wordOf B i < sz then
      match data B s mp with
      | none => none
      | some d =>
        some (setWordAt B m d (wordOf B i) (wordAt B m d (wordOf B i) &&& wnot B (1 <<< bitOf B i)))
    else none

/-- `Map::setBit`. -/
def setBit (B : Nat) (s : Segment) (mp : Map) (m : Mem) (i : Nat) : Option Mem :=
  match sizeNow B s mp with
  | none => none
  | some sz =>
    if wordOf B i < sz then
      match data B s mp with
      | none => none
      | some d =>
        some (setWordAt B m d (wordOf B i) (wordAt B m d (wordOf B i) ||| (1 <<< bitOf B i)))
    else none

/-- The loop `for (i = index; i < limit; ++i) clearBit(i)` of
`Map::clearOnlyIndex`; the first argument counts the iterations left. -/
def clearBits (B : Nat) (s : Segment) (mp : Map) (limit : Nat) : Nat → Mem → Nat → Option Mem
  | 0, m, _ => some m
  | n + 1, m, i =>
    if i < limit then
      match clearBit B s mp m i with
      | none => none
      | some m1 => clearBits B s mp limit n m1 (i + 1)
    else some m

/-- `Map::clearOnlyIndex`: the limit `index + bitsPerRecord` is computed on
the type `unsigned`. -/
def clearOnlyIndex (B : Nat) (s : Segment) (mp : Map) (m : Mem) (index : Nat) : Option Mem :=
  clearBits B s mp (u32 (index + mp.bitsPerRecord)) (u32 (index + mp.bitsPerRecord) - index) m
    index

/-- `Map::clearOnly(void* p)`. -/
def clearOnly (B : Nat) (s : Segment) (mp : Map) (m : Mem) (p : Nat) : Option Mem :=
  match indexOf B s mp p with
  | none => none
  | some index => clearOnlyIndex B s mp m index

/-- The loop of `Map::setOnlyIndex`: the bits of `v` are written from bit `i`
down to bit `index`, `--i` being computed on the type `unsigned`; the first
argument counts the iterations left. -/
def setBits (B : Nat) (s : Segment) (mp : Map) (index : Nat) :
    Nat → Mem → Nat → Nat → Option Mem
  | 0, _, _, _ => none
  | n + 1, m, i, v =>
    match (if v % 2 = 1 then setBit B s mp m i else clearBit B s mp m i) with
    | none => none
    | some m1 => if i = index then some m1 else setBits B s mp index n m1 (usub i 1) (v / 2)

/-- `Map::setOnlyIndex`: the first bit written, `index + bitsPerRecord - 1`, is
computed on the type `unsigned`; the loop ends when it reaches `index`. -/
def setOnlyIndex (B : Nat) (s : Segment) (mp : Map) (m : Mem) (index v : Nat) : Option Mem :=
  setBits B s mp index (usub (usub (u32 (index + mp.bitsPerRecord)) 1) index + 1) m
    (usub (u32 (index + mp.bitsPerRecord)) 1) v

/-- `Map::setOnly(void* p, v)`. -/
def setOnly (B : Nat) (s : Segment) (mp : Map) (m : Mem) (p v : Nat) : Option Mem :=
  match indexOf B s mp p with
  | none => none
  | some index => setOnlyIndex B s mp m index v

/-- The loop of `Map::get`, which calls `data()` for every bit; the first
argument counts the iterations left. -/
def getBits (B : Nat) (s : Segment) (mp : Map) (m : Mem) (limit : Nat) :
    Nat → Nat → Nat → Option Nat
  | 0, _, v => some v
  | n + 1, i, v =>
    if i < limit then
      match data B s mp with
      | none => none
      | some d =>
        getBits B s mp m limit n (i + 1)
          (u32 ((u32 (v <<< 1)) |||
            ((wordAt B m d (wordOf B i) &&& (1 <<< bitOf B i)) >>> bitOf B i)))
    else some v

/-- `Map::get`. -/
def get (B : Nat) (s : Segment) (mp : Map) (m : Mem) (p : Nat) : Option Nat :=
  match indexOf B s mp p with
  | none => none
  | some index =>
    getBits B s mp m (u32 (index + mp.bitsPerRecord)) (u32 (index + mp.bitsPerRecord) - index)
      index 0

/-- `Map::init`: the three assertions, the `memset` of the backing words (of
`size() * BytesPerWord` bytes, a product below 2^32) and the call for the
child. -/
def init (B : Nat) (s : Segment) : Map → Mem → Option Mem
  | Map.leaf b sc c, m =>
    if b ≠ 0 ∧ sc ≠ 0 ∧ powerOfTwo sc = true then
      if c then
        match data B s (Map.leaf b sc c), sizeNow B s (Map.leaf b sc c) with
        | some d, some sz => some (m.zeroWords B d sz)
        | _, _ => none
      else some m
    else none
  | Map.node b sc c ch, m =>
    if b ≠ 0 ∧ sc ≠ 0 ∧ powerOfTwo sc = true then
      if c then
        match data B s (Map.node b sc c ch), sizeNow B s (Map.node b sc c ch) with
        | some d, some sz => init B s ch (m.zeroWords B d sz)
        | _, _ => none
      else init B s ch m
    else none

end Exact

end Heap

namespace Heap

/-! ## Map iterator -/

/-- A `Segment::Map::Iterator`: the bit index reached and the limit. -/
structure Iterator where
  index : Nat
  limit : Nat
  deriving Repr, DecidableEq

/-- The constructor of `Iterator`; `none` when an assertion fails. -/
def Iterator.new (s : Segment) (mp : Map) (start «end» : Nat) : Option Iterator :=
  if mp.bitsPerRecord = 1 ∧ start ≤ s.position then
    let end1 := if «end» > s.position then s.position else «end»
    let limit := mp.indexOfIndex end1
    some { index := mp.indexOfIndex start
           limit := if usub end1 start % mp.scale ≠ 0 then u32 (limit + 1) else limit }
  else none

/-- The inner loop of `Iterator::hasMore`: scan the bits of one word from `bit`
upwards; the result is the bit found. -/
def Iterator.scanWord (B : Nat) (w word wordLimit bitLimit : Nat) : Nat → Nat → Option Nat
  | 0, _ => none
  | n + 1, bit =>
    if bit < BitsPerWord B ∧ (word < wordLimit ∨ bit < bitLimit) then
      if w &&& (1 <<< bit) ≠ 0 then some bit
      else Iterator.scanWord B w word wordLimit bitLimit n (bit + 1)
    else none

/-- The outer loop of `Iterator::hasMore`: the index of the next set bit below
the limit, if any. -/
def Iterator.scan (B : Nat) (s : Segment) (mp : Map) (m : Mem) (wordLimit bitLimit : Nat) :
    Nat → Nat → Nat → Option Nat
  | 0, _, _ => none
  | n + 1, word, bit =>
    if word ≤ wordLimit ∧ (word < wordLimit ∨ bit < bitLimit) then
      match (if wordAt B m (mp.data B s) word ≠ 0 then
          Iterator.scanWord B (wordAt B m (mp.data B s) word) word wordLimit bitLimit
            (BitsPerWord B - bit) bit
        else none) with
      | some b => some (indexOf B word b)
      | none => Iterator.scan B s mp m wordLimit bitLimit n (word + 1) 0
    else none

/-- `Iterator::hasMore`: the answer and the iterator (the index moves to the
bit found, or to the limit). -/
def Iterator.hasMore (B : Nat) (s : Segment) (mp : Map) (m : Mem) (it : Iterator) :
    Bool × Iterator :=
  match Iterator.scan B s mp m (wordOf B it.limit) (bitOf B it.limit)
      (wordOf B it.limit + 1 - wordOf B it.index) (wordOf B it.index) (bitOf B it.index) with
  | some i => (true, { it with index := i })
  | none => (false, { it with index := it.limit })

/-- `Iterator::next`: the segment word index of the record found and the
iterator; `none` when the assertion fails. -/
def Iterator.next (B : Nat) (s : Segment) (mp : Map) (m : Mem) (it : Iterator) :
    Option (Nat × Iterator) :=
  let r := it.hasMore B s mp m
  if r.1 then some (u32 (r.2.index * mp.scale), { r.2 with index := u32 (r.2.index + 1) })
  else none

/-! ## The client and the system -/

/-- What the runtime knows of an object: the size of its copy in words and the
word offsets of its reference slots, in the order the walker visits them. -/
structure Layout where
  size : Nat
  slots : List Nat
  deriving Repr, DecidableEq

/-- Modelled from the spec: the capability set `Heap::Client` (its interface
header and its implementation are not part of the sources).  The runtime keeps
the layout of the object at each address and the addresses of the root slots;
`copy` transfers the payload word by word. -/
structure Client where
  layout : Nat → Layout
  roots : List Nat

/-- Modelled from the spec: `copiedSizeInWords(obj)`, the size the destination
needs. -/
def Client.copiedSizeInWords (cl : Client) (o : Nat) : Nat := (cl.layout o).size

/-- Modelled from the spec: `walk(obj, walker)` visits the reference slot
offsets of `obj` in this order. -/
def Client.walk (cl : Client) (o : Nat) : List Nat := (cl.layout o).slots

/-- Copy of `n` words from `src` to `dst`. -/
def copyWords (B : Nat) (m : Mem) (src dst : Nat) : Nat → Mem
  | 0 => m
  | n + 1 => (copyWords B m src dst n).write (dst + n * B) (m (src + n * B))

/-- Modelled from the spec: `copy(src, dst)` copies the payload of the object
and the runtime now knows the layout of the copy. -/
def Client.copy (B : Nat) (cl : Client) (m : Mem) (src dst : Nat) : Client × Mem :=
  ({ cl with layout := fun a => if a = dst then cl.layout src else cl.layout a },
   copyWords B m src dst (cl.layout src).size)

/-- Modelled from the spec: the platform allocator `tryAllocate` of `System`
(its header is not part of the sources).  The result of the `k`-th request, for
a size in bytes, is given by a table; 0 is failure. -/
structure System where
  tryAllocate : Nat → Nat → Nat
  calls : Nat

/-- The two kinds of collection. -/
inductive CollectionType where
  | MinorCollection
  | MajorCollection
  deriving Repr, DecidableEq

/-- The four answers of `status`. -/
inductive Status where
  | Null
  | Reachable
  | Tenured
  | Unreachable
  deriving Repr, DecidableEq

/-- The `Context`: memory, system, client, the four segments with their maps
and the scalar collection state. -/
structure Context where
  mem : Mem
  sys : System
  client : Client
  ageMap : Map
  gen1 : Segment
  nextAgeMap : Map
  nextGen1 : Segment
  pointerMap : Map
  pageMap : Map
  heapMap : Map
  gen2 : Segment
  nextPointerMap : Map
  nextPageMap : Map
  nextHeapMap : Map
  nextGen2 : Segment
  gen2Base : Nat
  tenureFootprint : Nat
  gen1padding : Nat
  gen2padding : Nat
  mode : CollectionType

/-! ## Segment construction -/

/-- The allocation loop of the `Segment` constructor: data address, capacity
and number of allocator requests made so far; `none` is `abort` or a failed
assertion of `map->footprint(capacity_)`. -/
def Segment.allocLoop (B : Nat) (tryAllocate : Nat → Nat → Nat) (mp : Map) (minimum : Nat) :
    Nat → Nat → Nat → Option (Nat × Nat × Nat)
  | 0, _, _ => none
  | n + 1, calls, capacity =>
    match Exact.footprint B mp capacity with
    | none => none
    | some f =>
      let data := tryAllocate calls (u32 (u32 (capacity + f) * B))
      if data = 0 then
        if capacity > minimum then
          if avg minimum capacity = 0 then some (0, 0, calls + 1)
          else Segment.allocLoop B tryAllocate mp minimum n (calls + 1) (avg minimum capacity)
        else none
      else some (data, capacity, calls + 1)

/-- The constructor `Segment(context, map, desired, minimum)`: the segment,
the system and the memory (the map is initialised); `none` when the
constructor aborts or an assertion fails. -/
def Segment.new (B : Nat) (sys : System) (m : Mem) (mp : Map) (desired minimum : Nat) :
    Option (Segment × System × Mem) :=
  if desired ≠ 0 then
    if desired ≥ minimum then
      match Segment.allocLoop B sys.tryAllocate mp minimum (desired + 1) sys.calls desired with
      | none => none
      | some (data, capacity, calls) =>
        let s : Segment := { data := data, position := 0, capacity := capacity, map := some mp }
        match Exact.init B s mp m with
        | none => none
        | some m1 => some (s, { sys with calls := calls }, m1)
    else none
  else some ({ data := 0, position := 0, capacity := 0, map := some mp }, sys, m)

/-- `Map::replaceWith`: only the two assertions matter here, the map being
found through the segment; `false` when an assertion fails. -/
def Map.replaceWith : Map → Map → Bool
  | leaf b s _, m => decide (b = m.bitsPerRecord) && decide (s = m.scale)
  | node b s _ ch, m =>
    decide (b = m.bitsPerRecord) && decide (s = m.scale) &&
      (match m.child with
       | some mc => ch.replaceWith mc
       | none => false)

/-- `Segment::replaceWith`: the receiver and the emptied argument; `none` is
`abort` or a failed assertion. -/
def Segment.replaceWith (t s : Segment) : Option (Segment × Segment) :=
  match s.map with
  | some sm =>
    match t.map with
    | some tm =>
      if tm.replaceWith sm then
        some ({ data := s.data, position := s.position, capacity := s.capacity, map := some tm },
              { data := 0, position := 0, capacity := 0, map := none })
      else none
    | none => none
  | none =>
    some ({ data := s.data, position := s.position, capacity := s.capacity, map := none },
          { data := 0, position := 0, capacity := 0, map := none })

/-- The constructor of `Context`, for word size `B` and page size `P` (in
bytes). -/
def Context.new (B P : Nat) (sys : System) (m : Mem) (cl : Client) : Context :=
  { mem := m, sys := sys, client := cl
    ageMap := Map.leaf (log TenureThreshold) 1 false
    gen1 := { data := 0, position := 0, capacity := 0, map := some (Map.leaf (log TenureThreshold) 1 false) }
    nextAgeMap := Map.leaf (log TenureThreshold) 1 false
    nextGen1 := { data := 0, position := 0, capacity := 0, map := some (Map.leaf (log TenureThreshold) 1 false) }
    pointerMap := Map.leaf 1 1 true
    pageMap := Map.node 1 (P / B) true (Map.leaf 1 1 true)
    heapMap := Map.node 1 (P / B * 1024) true (Map.node 1 (P / B) true (Map.leaf 1 1 true))
    gen2 := { data := 0, position := 0, capacity := 0,
              map := some (Map.node 1 (P / B * 1024) true (Map.node 1 (P / B) true (Map.leaf 1 1 true))) }
    nextPointerMap := Map.leaf 1 1 true
    nextPageMap := Map.node 1 (P / B) true (Map.leaf 1 1 true)
    nextHeapMap := Map.node 1 (P / B * 1024) true (Map.node 1 (P / B) true (Map.leaf 1 1 true))
    nextGen2 := { data := 0, position := 0, capacity := 0,
                  map := some (Map.node 1 (P / B * 1024) true (Map.node 1 (P / B) true (Map.leaf 1 1 true))) }
    gen2Base := 0, tenureFootprint := 0, gen1padding := 0, gen2padding := 0
    mode := CollectionType.MinorCollection }

/-- Modelled from the spec: `InitialGen2CapacityInBytes`, 4 MiB. -/
def InitialGen2CapacityInBytes : Nat := 4 * 1024 * 1024

/-- `initNextGen1`; `none` when the segment constructor aborts. -/
def initNextGen1 (B : Nat) (c : Context) (footprint : Nat) : Option Context :=
  let nextAgeMap := Map.leaf (log TenureThreshold) 1 false
  let minimum := u32 (u32 (usub c.gen1.position c.tenureFootprint + footprint) + c.gen1padding)
  let desired := minimum
  match Segment.new B c.sys c.mem nextAgeMap desired minimum with
  | none => none
  | some (s, sys, m) =>
    some { c with nextAgeMap := nextAgeMap, nextGen1 := s, sys := sys, mem := m }

/-- `initNextGen2`; `none` when the segment constructor aborts. -/
def initNextGen2 (B P : Nat) (c : Context) : Option Context :=
  let nextPointerMap := Map.leaf 1 1 true
  let nextPageMap := Map.node 1 (P / B) true nextPointerMap
  let nextHeapMap := Map.node 1 (u32 (c.pageMap.scale * 1024)) true nextPageMap
  let minimum := u32 (u32 (c.gen2.position + c.tenureFootprint) + c.gen2padding)
  let desired := max (u32 (minimum * 2)) (InitialGen2CapacityInBytes / B)
  match Segment.new B c.sys c.mem nextHeapMap desired minimum with
  | none => none
  | some (s, sys, m) =>
    some { c with nextPointerMap := nextPointerMap, nextPageMap := nextPageMap,
                  nextHeapMap := nextHeapMap, nextGen2 := s, sys := sys, mem := m }

end Heap

namespace Heap

open CollectionType

/-! ## Forwarding and copying -/

/-- `fresh` of the source. -/
def fresh (B : Nat) (c : Context) (o : Nat) : Bool :=
  c.nextGen1.contains B o || c.nextGen2.contains B o ||
    (c.gen2.contains B o &&
      (match c.gen2.indexOf B o with
       | some i => decide (i ≥ c.gen2Base)
       | none => false))

/-- `wasCollected` of the source. -/
def wasCollected (B : Nat) (c : Context) (o : Nat) : Bool :=
  decide (o ≠ 0) && !fresh B c o && fresh B c (get B c.mem o 0)

/-- `follow(Context*, object)` of the source: the first word of `o`; `none`
when the assertion fails. -/
def follow (B : Nat) (c : Context) (o : Nat) : Option Nat :=
  if wasCollected B c o then some (c.mem o) else none

/-- `parent` of the source: the address of the second word of `o`; `none` when
the assertion fails. -/
def parent (B : Nat) (c : Context) (o : Nat) : Option Nat :=
  if wasCollected B c o then some (o + B) else none

/-- `bitset` of the source: the address of the third word of `o`; `none` when
the assertion fails. -/
def bitset (B : Nat) (c : Context) (o : Nat) : Option Nat :=
  if wasCollected B c o then some (o + B * 2) else none

/-- The four segments, to name the destination of a copy. -/
inductive Gen where
  | gen1
  | nextGen1
  | gen2
  | nextGen2
  deriving Repr, DecidableEq

/-- The segment of the context that a `Gen` names. -/
def Context.seg (c : Context) : Gen → Segment
  | Gen.gen1 => c.gen1
  | Gen.nextGen1 => c.nextGen1
  | Gen.gen2 => c.gen2
  | Gen.nextGen2 => c.nextGen2

/-- Store a segment into the context. -/
def Context.setSeg (c : Context) : Gen → Segment → Context
  | Gen.gen1, s => { c with gen1 := s }
  | Gen.nextGen1, s => { c with nextGen1 := s }
  | Gen.gen2, s => { c with gen2 := s }
  | Gen.nextGen2, s => { c with nextGen2 := s }

/-- `copyTo` of the source: the copy and the context; `none` when an assertion
fails. -/
def copyTo (B : Nat) (c : Context) (g : Gen) (o size : Nat) : Option (Nat × Context) :=
  if (c.seg g).remaining ≥ size then
    match (c.seg g).allocate B size with
    | none => none
    | some (dst, s) =>
      let r := c.client.copy B c.mem o dst
      some (dst, { c.setSeg g s with client := r.1, mem := r.2 })
  else none

/-- `copy2` of the source; `none` when an assertion fails. -/
def copy2 (B : Nat) (c : Context) (o : Nat) : Option (Nat × Context) :=
  let size := c.client.copiedSizeInWords o
  if c.gen2.contains B o then
    if c.mode = MajorCollection then copyTo B c Gen.nextGen2 o size else none
  else if c.gen1.contains B o then
    match c.ageMap.get B c.gen1 c.mem o with
    | none => none
    | some age =>
      if age = TenureThreshold then
        if c.mode = MinorCollection then
          if c.gen2.remaining ≥ size then
            let c1 := if c.gen2Base = Top then { c with gen2Base := c.gen2.position } else c
            copyTo B c1 Gen.gen2 o size
          else none
        else copyTo B c Gen.nextGen2 o size
      else
        match copyTo B c Gen.nextGen1 o size with
        | none => none
        | some (o1, c1) =>
          match c1.nextAgeMap.setOnly B c1.nextGen1 c1.mem o1 (age + 1) with
          | none => none
          | some m =>
            some (o1, { c1 with
              mem := m
              tenureFootprint :=
                if age + 1 = TenureThreshold then u32 (c1.tenureFootprint + size)
                else c1.tenureFootprint })
  else
    if !c.nextGen1.contains B o && !c.nextGen2.contains B o then
      match copyTo B c Gen.nextGen1 o size with
      | none => none
      | some (o1, c1) =>
        match c1.nextAgeMap.clear B c1.nextGen1 c1.mem o1 with
        | none => none
        | some m => some (o1, { c1 with mem := m })
    else none

/-- `copy` of the source: copy and leave the forwarding pointer in the first
word of the original. -/
def copy (B : Nat) (c : Context) (o : Nat) : Option (Nat × Context) :=
  match copy2 B c o with
  | none => none
  | some (r, c1) => some (r, { c1 with mem := c1.mem.write o r })

/-- `update3` of the source: the new referent, `needsVisit`, and the context. -/
def update3 (B : Nat) (c : Context) (o : Nat) : Option (Nat × Bool × Context) :=
  if wasCollected B c o then
    (follow B c o).map fun r => (r, false, c)
  else
    (copy B c o).map fun rc => (rc.1, true, rc.2)

/-- `update2` of the source. -/
def update2 (B : Nat) (c : Context) (o : Nat) : Option (Nat × Bool × Context) :=
  if c.mode = MinorCollection ∧ c.gen2.contains B o = true then some (o, false, c)
  else update3 B c o

/-- `update` of the source: the new referent of the slot at `p`, `needsVisit`,
and the context (the slot itself is not written). -/
def update (B : Nat) (c : Context) (p : Nat) : Option (Nat × Bool × Context) :=
  if mask B (c.mem p) = 0 then some (0, false, c)
  else
    match update2 B c (mask B (c.mem p)) with
    | none => none
    | some (r, needsVisit, c1) =>
      if r ≠ 0 then
        if c1.mode = MinorCollection then
          if c1.gen2.contains B p = true ∧ c1.gen2.contains B r = false then
            (c1.heapMap.set B c1.gen2 c1.mem p 1).map fun m =>
              (r, needsVisit, { c1 with mem := m })
          else some (r, needsVisit, c1)
        else
          if c1.nextGen2.contains B p = true ∧ c1.nextGen2.contains B r = false then
            (c1.nextHeapMap.set B c1.nextGen2 c1.mem p 1).map fun m =>
              (r, needsVisit, { c1 with mem := m })
          else some (r, needsVisit, c1)
      else some (r, needsVisit, c1)

/-! ## Graph traversal (`collect(Context*, object*)`) -/

/-- The state of the descending `Walker`. -/
structure Walker where
  first : Nat
  second : Nat
  last : Nat
  visits : Nat
  total : Nat
  deriving Repr, DecidableEq

/-- The part of `Walker::visit` after the call of `update`: the counters, the
store into the slot and the bitset of the original; `m` is the memory, `bs` the
address of the bitset. -/
def Walker.record (B : Nat) (copy bs : Nat) (m : Mem) (w : Walker) (offset childCopy : Nat)
    (needsVisit : Bool) : Mem × Walker :=
  let total := w.total + 1
  let m1 := if total = 3 then bitsetInit B m bs else m
  let visits := if needsVisit then w.visits + 1 else w.visits
  let first := if needsVisit ∧ visits = 1 then offset else w.first
  let second := if needsVisit ∧ visits = 2 then offset else w.second
  let m2 := if needsVisit then m1 else setAt B m1 copy offset childCopy
  if visits > 1 ∧ total > 2 ∧ (second ≠ 0 ∨ needsVisit = true) then
    let m3 := bitsetClear B m2 bs w.last offset
    let m4 := if second ≠ 0 then bitsetSet B m3 bs second true else m3
    let m5 := if needsVisit then bitsetSet B m4 bs offset true else m4
    (m5, { first := first, second := 0, last := offset, visits := visits, total := total })
  else
    (m2, { first := first, second := second, last := w.last, visits := visits, total := total })

/-- `Walker::visit` of the descending walk of the object `copy`, with the
bitset at address `bs`. -/
def Walker.visit (B : Nat) (copy bs : Nat) (c : Context) (w : Walker) (offset : Nat) :
    Option (Context × Walker) :=
  match update B c (getp B copy offset) with
  | none => none
  | some (childCopy, needsVisit, c1) =>
    some ({ c1 with mem := (Walker.record B copy bs c1.mem w offset childCopy needsVisit).1 },
          (Walker.record B copy bs c1.mem w offset childCopy needsVisit).2)

/-- The descending walk: the client calls `visit` for each reference slot. -/
def walkDown (B : Nat) (copy bs : Nat) : List Nat → Context → Walker → Option (Context × Walker)
  | [], c, w => some (c, w)
  | offset :: rest, c, w =>
    match Walker.visit B copy bs c w offset with
    | none => none
    | some (c1, w1) => walkDown B copy bs rest c1 w1

/-- The ascending walk: `total`, `next` and the memory after the walker has seen
the slots of the parent (the walk stops at the third slot). -/
def walkUp (B : Nat) (m : Mem) (bs : Nat) (slots : List Nat) : Option (Nat × Nat × Mem) :=
  match slots with
  | [] => some (0, 0, m)
  | [_] => some (1, 0, m)
  | [_, o2] => some (2, o2, m)
  | _ :: _ :: _ :: _ =>
    match bitsetNext B m bs with
    | none => none
    | some (next, m1) => some (3, next, m1)

/-- The loop at label `visit` of `collect(Context*, object*)`: `original` has
been copied and its copy is to be walked; `parent` is the top of the stack kept
in the originals.  The first argument bounds the number of objects walked;
`none` when it runs out or when the source aborts. -/
def collectVisit (B : Nat) : Nat → Context → Nat → Nat → Option Context
  | 0, _, _, _ => none
  | n + 1, c, original, par =>
    match follow B c original, bitset B c original with
    | some copy, some bs =>
      match walkDown B copy bs (c.client.walk copy) c
          { first := 0, second := 0, last := 0, visits := 0, total := 0 } with
      | none => none
      | some (c1, w) =>
        if w.visits ≠ 0 then
          -- descend
          match (if w.visits > 1 then
                  (parent B c1 original).map fun pp =>
                    ({ c1 with mem := c1.mem.write pp par }, original)
                 else some (c1, par)) with
          | none => none
          | some (c2, par2) =>
            let original2 := get B c2.mem copy w.first
            match follow B c2 original2 with
            | none => none
            | some f =>
              collectVisit B n { c2 with mem := setAt B c2.mem copy w.first f } original2 par2
        else
          -- ascend
          if par ≠ 0 then
            match follow B c1 par, bitset B c1 par with
            | some pcopy, some pbs =>
              match walkUp B c1.mem pbs (c1.client.walk pcopy) with
              | none => none
              | some (total, next, m2) =>
                if total > 1 then
                  match (if total = 3 then
                          (bitset B { c1 with mem := m2 } par).map fun bs2 => bitsetHasMore B m2 bs2
                         else some (false, m2)) with
                  | none => none
                  | some r =>
                    let c3 := { c1 with mem := r.2 }
                    match (if r.1 then some par
                           else (parent B c3 par).map fun pp => c3.mem pp) with
                    | none => none
                    | some par2 =>
                      let original2 := get B c3.mem pcopy next
                      match follow B c3 original2 with
                      | none => none
                      | some f =>
                        collectVisit B n { c3 with mem := setAt B c3.mem pcopy next f }
                          original2 par2
                else none
            | _, _ => none
          else some c1
    | _, _ => none

/-- `collect(Context*, object*)` of the source: update the slot at `p` and
traverse what it refers to. -/
def collectSlot (B : Nat) (fuel : Nat) (c : Context) (p : Nat) : Option Context :=
  let original := mask B (c.mem p)
  match update B c (mask B p) with
  | none => none
  | some (r, needsVisit, c1) =>
    let c2 := { c1 with mem := set B c1.mem p r }
    if needsVisit then collectVisit B fuel c2 original 0 else some c2

end Heap

namespace Heap

open CollectionType

/-! ## Card table scan and the collection driver -/

/-- The `for` loop of `collect(Context*, Segment::Map*, start, end, dirty,
expectDirty)` for one map of gen2.  `child` is the scan of the child map, if the
map has one; the state of the loop is the context, the iterator, `wasDirty` and
`*dirty`.  The first argument bounds the iterations, `fuel` the objects walked
by each traversal; `none` when a bound runs out or the source aborts. -/
def collectMapLoop (B fuel : Nat) (mp : Map)
    (child : Option (Context → Nat → Nat → Option (Context × Bool))) (expectDirty : Bool) :
    Nat → Context → Iterator → Bool → Bool → Option (Context × Bool)
  | 0, _, _, _, _ => none
  | n + 1, c, it, wasDirty, dirty =>
    let r := it.hasMore B c.gen2 mp c.mem
    if r.1 then
      match r.2.next B c.gen2 mp c.mem with
      | none => none
      | some (s, it1) =>
        match child with
        | some scan =>
          if mp.scale > 1 then
            match mp.clearOnlyAt B c.gen2 c.mem s with
            | none => none
            | some m1 =>
              match scan { c with mem := m1 } s (u32 (s + mp.scale)) with
              | none => none
              | some (c2, childDirty) =>
                if childDirty then
                  match mp.setOnlyAt B c2.gen2 c2.mem s 1 with
                  | none => none
                  | some m3 =>
                    collectMapLoop B fuel mp child expectDirty n { c2 with mem := m3 } it1 true true
                else collectMapLoop B fuel mp child expectDirty n c2 it1 true dirty
          else none
        | none =>
          if mp.scale = 1 then
            match c.gen2.get B s with
            | none => none
            | some p =>
              match mp.clearOnly B c.gen2 c.mem p with
              | none => none
              | some m1 =>
                if c.nextGen1.contains B (m1 p) then
                  match mp.setOnly B c.gen2 m1 p 1 with
                  | none => none
                  | some m2 =>
                    collectMapLoop B fuel mp child expectDirty n { c with mem := m2 } it1 true true
                else
                  match collectSlot B fuel { c with mem := m1 } p with
                  | none => none
                  | some c2 =>
                    if c2.gen2.contains B (c2.mem p) = false then
                      match mp.setOnly B c2.gen2 c2.mem p 1 with
                      | none => none
                      | some m3 =>
                        collectMapLoop B fuel mp child expectDirty n { c2 with mem := m3 } it1
                          true true
                    else collectMapLoop B fuel mp child expectDirty n c2 it1 true dirty
          else none
    else if wasDirty ∨ expectDirty = false then some (c, dirty) else none

/-- One call of `collect(Context*, Segment::Map*, ...)` on a map of gen2, given
the scan of its child: build the iterator and run the loop. -/
def collectMapWith (B fuel : Nat) (mp : Map)
    (child : Option (Context → Nat → Nat → Option (Context × Bool))) (expectDirty : Bool)
    (c : Context) (start «end» : Nat) (dirty : Bool) : Option (Context × Bool) :=
  match Iterator.new c.gen2 mp start «end» with
  | none => none
  | some it =>
    collectMapLoop B fuel mp child expectDirty (it.limit + 1 - it.index) c it false dirty

/-- `collect(Context*, Segment::Map*, start, end, dirty, expectDirty)` of the
source, for the maps of gen2: the context and `*dirty`. -/
def collectMap (B fuel : Nat) : Map → Bool → Context → Nat → Nat → Bool → Option (Context × Bool)
  | Map.leaf b s cl, expectDirty, c, start, e, dirty =>
    collectMapWith B fuel (Map.leaf b s cl) none expectDirty c start e dirty
  | Map.node b s cl ch, expectDirty, c, start, e, dirty =>
    collectMapWith B fuel (Map.node b s cl ch)
      (some fun c1 s1 e1 => collectMap B fuel ch true c1 s1 e1 false) expectDirty c start e dirty

/-- The root visit of `collect2`: the client calls `collect(c, p)` for every
root slot. -/
def visitRoots (B fuel : Nat) : List Nat → Context → Option Context
  | [], c => some c
  | p :: rest, c =>
    match collectSlot B fuel c p with
    | none => none
    | some c1 => visitRoots B fuel rest c1

/-- `collect2` of the source. -/
def collect2 (B fuel : Nat) (c : Context) : Option Context :=
  let c1 := { c with gen2Base := Top, tenureFootprint := 0, gen1padding := 0, gen2padding := 0 }
  match (if c1.mode = MinorCollection ∧ c1.gen2.position ≠ 0 then
          (collectMap B fuel c1.heapMap false c1 0 (u32 (0 + c1.gen2.position)) false).map
            fun r => r.1
         else some c1) with
  | none => none
  | some c2 => visitRoots B fuel c2.client.roots c2

/-- `collect(Context*, unsigned footprint)` of the source, for word size `B`
and page size `P`; `fuel` bounds the objects walked by one traversal. -/
def collect (B P fuel : Nat) (c : Context) (footprint : Nat) : Option Context :=
  let c0 := if c.tenureFootprint > c.gen2.remaining then { c with mode := MajorCollection } else c
  match initNextGen1 B c0 footprint with
  | none => none
  | some c1 =>
    match (if c1.mode = MajorCollection then initNextGen2 B P c1 else some c1) with
    | none => none
    | some c2 =>
      match collect2 B fuel c2 with
      | none => none
      | some c3 =>
        match c3.gen1.replaceWith c3.nextGen1 with
        | none => none
        | some (g1, ng1) =>
          let c4 := { c3 with gen1 := g1, nextGen1 := ng1 }
          if c4.mode = MajorCollection then
            match c4.gen2.replaceWith c4.nextGen2 with
            | none => none
            | some (g2, ng2) => some { c4 with gen2 := g2, nextGen2 := ng2 }
          else some c4

/-! ## The public interface (`MyHeap`) -/

/-- `MyHeap::collect`. -/
def MyHeap.collect (B P fuel : Nat) (c : Context) (type : CollectionType) (client : Client)
    (footprint : Nat) : Option Context :=
  Heap.collect B P fuel { c with mode := type, client := client } footprint

/-- `MyHeap::needsMark`. -/
def MyHeap.needsMark (B : Nat) (c : Context) (p : Nat) : Bool :=
  decide (c.mem p ≠ 0) && c.gen2.contains B p && !c.gen2.contains B (c.mem p)

/-- `MyHeap::mark`; `none` when an assertion fails. -/
def MyHeap.mark (B : Nat) (c : Context) (p : Nat) : Option Context :=
  (c.heapMap.set B c.gen2 c.mem p 1).map fun m => { c with mem := m }

/-- `MyHeap::follow`. -/
def MyHeap.follow (B : Nat) (c : Context) (p : Nat) : Nat :=
  if wasCollected B c p then
    match Heap.follow B c p with
    | some r => r
    | none => p
  else p

/-- `MyHeap::status`. -/
def MyHeap.status (B : Nat) (c : Context) (p0 : Nat) : Status :=
  let p := mask B p0
  if p = 0 then Status.Null
  else if c.nextGen1.contains B p then Status.Reachable
  else if c.nextGen2.contains B p ||
      (c.gen2.contains B p &&
        (decide (c.mode = MinorCollection) ||
          (match c.gen2.indexOf B p with
           | some i => decide (i ≥ c.gen2Base)
           | none => false))) then Status.Tenured
  else if wasCollected B c p then Status.Reachable
  else Status.Unreachable

/-- `MyHeap::collectionType`. -/
def MyHeap.collectionType (c : Context) : CollectionType := c.mode

end Heap

namespace Heap

open CollectionType

/-! ## A small concrete heap

One object of four words without reference slots at address 1000, held by the
root slot at address 500, on a 32 bit target with 4 KiB pages; the allocator
hands out storage at multiples of 16 MiB. -/

/-- The allocator of the example. -/
def exampleSystem : System := { tryAllocate := fun k _ => 16777216 * (k + 1), calls := 0 }

/-- The memory of the example: the root slot and the first word of the object. -/
def exampleMem : Mem := fun a => if a = 500 then 1000 else if a = 1000 then 77 else 0

/-- The client of the example. -/
def exampleClient : Client :=
  { layout := fun a => if a = 1000 then ⟨4, []⟩ else ⟨0, []⟩, roots := [500] }

/-- The context of the example before the first collection. -/
def exampleContext : Context := Context.new 4 4096 exampleSystem exampleMem exampleClient

/-- The example after one collection with footprint 4 followed by `k` further
collections, all requested as Minor. -/
def exampleRun : Nat → Option Context
  | 0 => MyHeap.collect 4 4096 10 exampleContext MinorCollection exampleClient 4
  | k + 1 =>
    match exampleRun k with
    | none => none
    | some c => MyHeap.collect 4 4096 10 c MinorCollection c.client 0

/-- A context whose gen2 holds ten words at address 1000, for the examples on
slots. -/
def exampleGen2 (m : Mem) : Context :=
  { exampleContext with
    mem := m
    gen2 := { exampleContext.gen2 with data := 1000, position := 10, capacity := 16 } }

/-- A context with unaligned storage, for the examples on alignment. -/
def exampleNextGen1 (m : Mem) : Context :=
  { exampleContext with
    mem := m
    nextGen1 := { exampleContext.nextGen1 with data := 1000, position := 10, capacity := 16 } }

end Heap

namespace Heap

open CollectionType

/-! # Specification predicates -/

/-! ## Alignment of the segment storage -/

/-- The storage of the four segments is word aligned (the platform allocator
returns word aligned storage). -/
def Context.Aligned (B : Nat) (c : Context) : Prop :=
  c.gen1.data % B = 0 ∧ c.nextGen1.data % B = 0 ∧ c.gen2.data % B = 0 ∧ c.nextGen2.data % B = 0

/-! ## What a bitset in memory denotes -/

/-- Bit `k` of the spill words `p[3..]` of the bitset at `p`. -/
def spillBit (B : Nat) (m : Mem) (p k : Nat) : Bool :=
  (wordAt B m p (k / BitsPerWord B + 3)).testBit (k % BitsPerWord B)

/-- The bitset at `p` holds exactly the offsets `S` and is ready for
`bitsetHasMore` and `bitsetNext`: the low offsets are the bits of `p[0]`, the
others are spill bits below the length `p[2]`, none below the scan index
`p[1]`. -/
structure BitsetRep (B : Nat) (m : Mem) (p : Nat) (S : Finset Nat) : Prop where
  w0 : wordAt B m p 0 < 2 ^ BitsPerWord B
  low : ∀ i, i < BitsPerWord B - 1 → ((wordAt B m p 0).testBit i = true ↔ i ∈ S)
  ext : ∀ j ∈ S, BitsPerWord B - 1 ≤ j → (wordAt B m p 0).testBit (BitsPerWord B - 1) = true
  bound : ∀ j ∈ S, j + BitsPerWord B * 2 + 1 < 2 ^ 32
  idxb : (wordAt B m p 0).testBit (BitsPerWord B - 1) = true →
    wordAt B m p 1 ≤ wordAt B m p 2 * BitsPerWord B
  spill : (wordAt B m p 0).testBit (BitsPerWord B - 1) = true →
    ∀ k, k < wordAt B m p 2 * BitsPerWord B →
      (spillBit B m p k = true ↔ k + (BitsPerWord B - 1) ∈ S)
  big : ∀ j ∈ S, BitsPerWord B - 1 ≤ j →
    j - (BitsPerWord B - 1) < wordAt B m p 2 * BitsPerWord B ∧
      wordAt B m p 1 ≤ j - (BitsPerWord B - 1)
  words : (wordAt B m p 0).testBit (BitsPerWord B - 1) = true →
    ∀ k, k < wordAt B m p 2 → wordAt B m p (k + 3) < 2 ^ BitsPerWord B

/-- The bitset at `p` has been built from an all-zero region by setting the
offsets `S`. -/
structure BitsetBuilt (B : Nat) (m : Mem) (p : Nat) (S : Finset Nat) : Prop where
  w0 : wordAt B m p 0 < 2 ^ BitsPerWord B
  low : ∀ i, i < BitsPerWord B - 1 → ((wordAt B m p 0).testBit i = true ↔ i ∈ S)
  ext : (wordAt B m p 0).testBit (BitsPerWord B - 1) = true ↔ ∃ j ∈ S, BitsPerWord B - 1 ≤ j
  idx : wordAt B m p 1 = 0
  spill : ∀ k, spillBit B m p k = true ↔ k + (BitsPerWord B - 1) ∈ S
  len : ∀ j ∈ S, BitsPerWord B - 1 ≤ j → (j - (BitsPerWord B - 1)) / BitsPerWord B < wordAt B m p 2
  lenb : wordAt B m p 2 = 0 ∨
    ∃ j ∈ S, BitsPerWord B - 1 ≤ j ∧ wordAt B m p 2 = (j - (BitsPerWord B - 1)) / BitsPerWord B + 1
  words : ∀ k, wordAt B m p (k + 3) < 2 ^ BitsPerWord B
  bound : ∀ j ∈ S, j + BitsPerWord B * 2 + 1 < 2 ^ 32

/-! ## What a traversal never changes -/

/-- The part of the context that `collect2` leaves alone: the mode, the system,
the maps, the whole of gen1, and of the other segments everything but the
position. -/
structure Shape where
  mode : CollectionType
  sys : System
  roots : List Nat
  ageMap : Map
  nextAgeMap : Map
  pointerMap : Map
  pageMap : Map
  heapMap : Map
  nextPointerMap : Map
  nextPageMap : Map
  nextHeapMap : Map
  gen1 : Segment
  nextGen1 : Nat × Nat × Option Map
  gen2 : Nat × Nat × Option Map
  nextGen2 : Nat × Nat × Option Map

/-- The shape of a context. -/
def Context.shape (c : Context) : Shape :=
  { mode := c.mode, sys := c.sys, roots := c.client.roots
    ageMap := c.ageMap, nextAgeMap := c.nextAgeMap, pointerMap := c.pointerMap
    pageMap := c.pageMap, heapMap := c.heapMap, nextPointerMap := c.nextPointerMap
    nextPageMap := c.nextPageMap, nextHeapMap := c.nextHeapMap
    gen1 := c.gen1
    nextGen1 := (c.nextGen1.data, c.nextGen1.capacity, c.nextGen1.map)
    gen2 := (c.gen2.data, c.gen2.capacity, c.gen2.map)
    nextGen2 := (c.nextGen2.data, c.nextGen2.capacity, c.nextGen2.map) }

/-- The mode `collect` executes: Major exactly when Major was requested or the
tenure footprint exceeds the room left in gen2. -/
def executedMode (c : Context) (type : CollectionType) : CollectionType :=
  if type = MajorCollection ∨ c.tenureFootprint > c.gen2.remaining then MajorCollection
  else MinorCollection

/-! ## Bits of a map -/

/-- Bit `k` of the backing words of a map of segment `s`. -/
def Map.bit (B : Nat) (s : Segment) (mp : Map) (m : Mem) (k : Nat) : Bool :=
  (wordAt B m (mp.data B s) (wordOf B k)).testBit (bitOf B k)

/-- The address `a` lies in the backing words of this level of a map. -/
def Map.inArea (B : Nat) (s : Segment) (mp : Map) (a : Nat) : Prop :=
  mp.data B s ≤ a ∧ a < mp.data B s + mp.sizeNow B s * B

/-- The value of `n` bits of a map read from bit `i` upwards, the first bit
being the highest; `v` is the value shifted in so far. -/
def Map.readBits (B : Nat) (s : Segment) (mp : Map) (m : Mem) : Nat → Nat → Nat → Nat
  | 0, _, v => v
  | n + 1, i, v => Map.readBits B s mp m n (i + 1) (2 * v + (if mp.bit B s m i then 1 else 0))

/-- The address `a` lies in the backing words of a map hierarchy of segment
`s`, which follow the data area. -/
def Map.inFootprint (B : Nat) (s : Segment) (mp : Map) (a : Nat) : Prop :=
  s.data + s.capacity * B ≤ a ∧ a < s.data + (s.capacity + mp.footprint B s.capacity) * B

/-- A property of every level of a map hierarchy. -/
def Map.AllLevels (Q : Map → Prop) : Map → Prop
  | Map.leaf b sc c => Q (Map.leaf b sc c)
  | Map.node b sc c ch => Q (Map.node b sc c ch) ∧ Map.AllLevels Q ch

/-- A level of a map that the record operations handle without overflow: at
least one and at most 32 bits per record, a positive scale, and bit indices that
fit the type `unsigned`. -/
def Map.LevelOK (s : Segment) (mp : Map) : Prop :=
  1 ≤ mp.bitsPerRecord ∧ mp.bitsPerRecord ≤ 32 ∧ 1 ≤ mp.scale ∧
    s.capacity * mp.bitsPerRecord < 2 ^ 32

/-- The first bit of the record of the address `p` in a map of segment `s`. -/
def Map.recordIndex (B : Nat) (s : Segment) (mp : Map) (p : Nat) : Nat :=
  mp.indexOfIndex ((p - s.data) / B)

/-- What writing the record of `p` with `v` does to the bits of one level. -/
def Map.RecordWritten (B : Nat) (s : Segment) (m m1 : Mem) (p v : Nat) (l : Map) : Prop :=
  ∀ k, wordOf B k < l.sizeNow B s → l.bit B s m1 k =
    if l.recordIndex B s p ≤ k ∧ k < l.recordIndex B s p + l.bitsPerRecord then
      decide (v / 2 ^ (l.recordIndex B s p + l.bitsPerRecord - 1 - k) % 2 = 1)
    else l.bit B s m k

end Heap

namespace Heap

open CollectionType

/-! # The heap during a collection

The predicates below describe the object graph a collection works on and what
the traversal keeps true while it runs.  `c0` is the context when `collect2`
starts its traversals, `c` the context reached, `cp` the objects copied so far
and `wk` the objects whose copy has been walked. -/

/-- The object graph when the traversals start: the addresses of the objects,
their layouts, and the memory. -/
structure Graph where
  objs : List Nat
  lay : Nat → Layout
  m0 : Mem

/-- The map attached to each segment. -/
def Context.mapOf (c : Context) : Gen → Map
  | Gen.gen1 => c.ageMap
  | Gen.nextGen1 => c.nextAgeMap
  | Gen.gen2 => c.heapMap
  | Gen.nextGen2 => c.nextHeapMap

/-- The address `a` lies in the storage of segment `g`: its data words followed
by the backing words of its map. -/
def Context.inStorage (B : Nat) (c : Context) (g : Gen) (a : Nat) : Prop :=
  (c.seg g).data ≤ a ∧
    a < (c.seg g).data + ((c.seg g).capacity + (c.mapOf g).footprint B (c.seg g).capacity) * B

/-- The address `a` lies in destination space: the data words of nextGen1 or
nextGen2, or the free words of gen2. -/
def Context.inToSpace (B : Nat) (c : Context) (a : Nat) : Prop :=
  (c.nextGen1.data ≤ a ∧ a < c.nextGen1.data + c.nextGen1.capacity * B) ∨
  (c.nextGen2.data ≤ a ∧ a < c.nextGen2.data + c.nextGen2.capacity * B) ∨
  (c.gen2.data + c.gen2.position * B ≤ a ∧ a < c.gen2.data + c.gen2.capacity * B)

/-- The object at `o` with `size` words lies in the allocated words of segment
`g`. -/
def Context.holds (B : Nat) (c : Context) (g : Gen) (o size : Nat) : Prop :=
  (c.seg g).data ≤ o ∧ o + size * B ≤ (c.seg g).data + (c.seg g).position * B

/-- The object at `o` with `size` words lies outside the storage of all
segments. -/
def Context.outside (B : Nat) (c : Context) (o size : Nat) : Prop :=
  ∀ g a, o ≤ a → a < o + size * B → ¬ c.inStorage B g a

/-- An object the collection moves: every object in a Major collection, every
object not in gen2 in a Minor one. -/
def movable (B : Nat) (c0 : Context) (o : Nat) : Prop :=
  c0.mode = MajorCollection ∨ c0.gen2.contains B o = false

/-- An object a Minor collection leaves in place. -/
def isOld (B : Nat) (c0 : Context) (o : Nat) : Prop :=
  c0.mode = MinorCollection ∧ c0.gen2.contains B o = true

/-- The segment `copy2` copies the object `o` into. -/
def dest (B : Nat) (c0 : Context) (G : Graph) (o : Nat) : Gen :=
  if c0.gen2.contains B o then Gen.nextGen2
  else if c0.gen1.contains B o then
    if c0.ageMap.get B c0.gen1 G.m0 o = some TenureThreshold then
      (if c0.mode = MinorCollection then Gen.gen2 else Gen.nextGen2)
    else Gen.nextGen1
  else Gen.nextGen1

/-- The words the objects not yet copied will need in segment `g`. -/
def need (B : Nat) (c0 : Context) (G : Graph) (cp : List Nat) (g : Gen) : Nat :=
  ((G.objs.filter fun o =>
      decide (c0.mode = MajorCollection ∨ c0.gen2.contains B o = false) &&
        decide (o ∉ cp) && decide (dest B c0 G o = g)).map fun o => (G.lay o).size).sum

/-- The address `a` lies in the backing words of a map the collection writes:
the age map of nextGen1 or the card maps of gen2 and nextGen2. -/
def Context.inMaps (B : Nat) (c : Context) (a : Nat) : Prop :=
  c.nextAgeMap.inFootprint B c.nextGen1 a ∨ c.heapMap.inFootprint B c.gen2 a ∨
    c.nextHeapMap.inFootprint B c.nextGen2 a

/-- The address `a` lies in the backing words of the card maps of gen2 or
nextGen2. -/
def Context.inCards (B : Nat) (c : Context) (a : Nat) : Prop :=
  c.heapMap.inFootprint B c.gen2 a ∨ c.nextHeapMap.inFootprint B c.nextGen2 a

/-- The age the copy of the object `o` gets in nextGen1: one more than the age
recorded in gen1, or 0 for an object outside gen1. -/
def nextAge (B : Nat) (c0 : Context) (G : Graph) (o : Nat) : Nat :=
  if c0.gen1.contains B o then
    match c0.ageMap.get B c0.gen1 G.m0 o with
    | some a => a + 1
    | none => 0
  else 0

/-- What the tenure footprint grows by when `o` is copied. -/
def tenureGrowth (B : Nat) (c0 : Context) (G : Graph) (o : Nat) : Nat :=
  if dest B c0 G o = Gen.nextGen1 ∧ c0.gen1.contains B o = true ∧
      nextAge B c0 G o = TenureThreshold then (G.lay o).size else 0

/-- What is assumed of the heap when the traversals start. -/
structure Start (B : Nat) (c0 : Context) (G : Graph) : Prop where
  hB : B = 4 ∨ B = 8
  ageMap_eq : c0.ageMap = Map.leaf 2 1 false
  nextAgeMap_eq : c0.nextAgeMap = Map.leaf 2 1 false
  heapMap_ok : c0.heapMap.AllLevels fun l => 1 ≤ l.scale ∧ l.bitsPerRecord = 1
  nextHeapMap_ok : c0.nextHeapMap.AllLevels fun l => 1 ≤ l.scale ∧ l.bitsPerRecord = 1
  seg_ok : ∀ g, (c0.seg g).data % B = 0 ∧ (c0.seg g).position ≤ (c0.seg g).capacity ∧
    (c0.seg g).capacity * 2 < 2 ^ 32
  next_empty : c0.nextGen1.position = 0 ∧ c0.nextGen2.position = 0
  base_top : c0.gen2Base = Top
  stor_disj : ∀ g g1, g ≠ g1 → ∀ a, c0.inStorage B g a → ¬ c0.inStorage B g1 a
  objs_nodup : G.objs.Nodup
  obj_ok : ∀ o ∈ G.objs, o ≠ 0 ∧ o % B = 0 ∧ 1 ≤ (G.lay o).size ∧ (G.lay o).size < 2 ^ 31 ∧
    (G.lay o).slots.Sorted (· < ·) ∧ ∀ k ∈ (G.lay o).slots, k < (G.lay o).size
  obj_loc : ∀ o ∈ G.objs, c0.holds B Gen.gen1 o (G.lay o).size ∨
    c0.holds B Gen.gen2 o (G.lay o).size ∨ c0.outside B o (G.lay o).size
  obj_disj : ∀ o ∈ G.objs, ∀ o1 ∈ G.objs, o ≠ o1 →
    o + (G.lay o).size * B ≤ o1 ∨ o1 + (G.lay o1).size * B ≤ o
  valid : ∀ o ∈ G.objs, ∀ k ∈ (G.lay o).slots,
    mask B (G.m0 (o + k * B)) = 0 ∨ mask B (G.m0 (o + k * B)) ∈ G.objs
  first_word : ∀ o ∈ G.objs, movable B c0 o → ¬ c0.inToSpace B (mask B (G.m0 o))

/-- The address `r` is a copy of `size` words made in segment `g` since the
traversals started. -/
def IsCopy (B : Nat) (c0 c : Context) (g : Gen) (r size : Nat) : Prop :=
  ∃ i, r = (c.seg g).data + i * B ∧ (c0.seg g).position ≤ i ∧ i + size ≤ (c.seg g).position

/-- What the traversal keeps true of the context and of the objects copied. -/
structure Inv (B : Nat) (c0 : Context) (G : Graph) (c : Context) (cp : List Nat) : Prop where
  shape : c.shape = c0.shape
  pos : ∀ g, (c0.seg g).position ≤ (c.seg g).position ∧ (c.seg g).position ≤ (c.seg g).capacity
  lay_obj : ∀ o ∈ G.objs, c.client.layout o = G.lay o
  white : ∀ o ∈ G.objs, o ∉ cp → movable B c0 o → ∀ k, k < (G.lay o).size →
    c.mem (o + k * B) = G.m0 (o + k * B)
  cp_nodup : cp.Nodup
  cp_sub : ∀ o ∈ cp, o ∈ G.objs ∧ movable B c0 o
  fwd : ∀ o ∈ cp, IsCopy B c0 c (dest B c0 G o) (c.mem o) (G.lay o).size ∧
    c.client.layout (c.mem o) = G.lay o
  disj : ∀ o ∈ cp, ∀ o1 ∈ cp, o ≠ o1 →
    c.mem o + (G.lay o).size * B ≤ c.mem o1 ∨ c.mem o1 + (G.lay o1).size * B ≤ c.mem o
  base : (c.gen2Base = Top ∧ c.gen2.position = c0.gen2.position) ∨
    (c.mode = MinorCollection ∧ c.gen2Base = c0.gen2.position)
  age_frame : ∀ a, c0.ageMap.inFootprint B c0.gen1 a → c.mem a = G.m0 a
  room : ∀ g, g ≠ Gen.gen1 → (c.seg g).position + need B c0 G cp g ≤ (c.seg g).capacity
  ages : ∀ o ∈ cp, dest B c0 G o = Gen.nextGen1 →
    c.nextAgeMap.get B c.nextGen1 c.mem (c.mem o) = some (nextAge B c0 G o)
  tenure : c.tenureFootprint = u32 (c0.tenureFootprint + (cp.map (tenureGrowth B c0 G)).sum)
  used : ∀ g, (c.seg g).position = (c0.seg g).position +
    ((cp.filter fun o => decide (dest B c0 G o = g)).map fun o => (G.lay o).size).sum

/-- The addresses the traversal must leave alone for `Inv` to stay: the words
of the objects not yet copied, the forwarding words, and the age maps. -/
def Protected (B : Nat) (c0 : Context) (G : Graph) (cp : List Nat) (a : Nat) : Prop :=
  (∃ o ∈ G.objs, o ∉ cp ∧ movable B c0 o ∧ o ≤ a ∧ a < o + (G.lay o).size * B) ∨ a ∈ cp ∨
    c0.ageMap.inFootprint B c0.gen1 a ∨ c0.nextAgeMap.inFootprint B c0.nextGen1 a

/-- The bitset at `p` while the descending walker builds it: it holds the
offsets `S`, all at most `last`; the words after the one of `last` may hold
anything. -/
structure BitsetPartial (B : Nat) (m : Mem) (p : Nat) (S : Finset Nat) (last : Nat) : Prop where
  w0 : wordAt B m p 0 < 2 ^ BitsPerWord B
  low : ∀ i, i < BitsPerWord B - 1 → ((wordAt B m p 0).testBit i = true ↔ i ∈ S)
  ext : (wordAt B m p 0).testBit (BitsPerWord B - 1) = true ↔ ∃ j ∈ S, BitsPerWord B - 1 ≤ j
  le : ∀ j ∈ S, j ≤ last
  bound : last + BitsPerWord B * 2 + 1 < 2 ^ 32
  idx : BitsPerWord B - 1 ≤ last → wordAt B m p 1 = 0
  spill : BitsPerWord B - 1 ≤ last →
    ∀ k, k / BitsPerWord B ≤ (last - (BitsPerWord B - 1)) / BitsPerWord B →
      (spillBit B m p k = true ↔ k + (BitsPerWord B - 1) ∈ S)
  len : ∀ j ∈ S, BitsPerWord B - 1 ≤ j →
    (j - (BitsPerWord B - 1)) / BitsPerWord B < wordAt B m p 2
  lenb : BitsPerWord B - 1 ≤ last →
    wordAt B m p 2 ≤ (last - (BitsPerWord B - 1)) / BitsPerWord B + 1
  words : BitsPerWord B - 1 ≤ last →
    ∀ k, k ≤ (last - (BitsPerWord B - 1)) / BitsPerWord B →
      wordAt B m p (k + 3) < 2 ^ BitsPerWord B

/-- The number of words of the bitset that hold the offsets up to `last`. -/
def bitsetWords (B : Nat) (last : Nat) : Nat :=
  if last < BitsPerWord B - 1 then 1 else (last - (BitsPerWord B - 1)) / BitsPerWord B + 4

/-- The bitset kept in the words of the original object `o` (of `size` words)
after the first two holds the offsets `S` and is ready for `bitsetHasMore` and
`bitsetNext`; all its words in use lie inside the object. -/
structure BitsetIn (B : Nat) (m : Mem) (o size : Nat) (S : Finset Nat) : Prop where
  rep : BitsetRep B m (o + B * 2) S
  lt : ∀ j ∈ S, j < size
  three : 3 ≤ size
  fit : (wordAt B m (o + B * 2) 0).testBit (BitsPerWord B - 1) = true →
    wordAt B m (o + B * 2) 2 + 5 ≤ size

/-- The old generation of the collection running: gen2 in a Minor collection,
nextGen2 in a Major one. -/
def Context.oldGen (c : Context) : Gen :=
  if c.mode = MinorCollection then Gen.gen2 else Gen.nextGen2

/-- The slot at `p` lies in the old generation and its new referent `r` is not
null and does not: `update` marks the slot. -/
def cardCond (B : Nat) (c : Context) (p r : Nat) : Prop :=
  r ≠ 0 ∧ (c.seg c.oldGen).contains B p = true ∧ (c.seg c.oldGen).contains B r = false

/-- The slot value `v` is the update of the original slot value `v0`: the tag
bits are kept, and the referent is null, an object left in place, or the copy of
the object the original referred to. -/
def Updated (B : Nat) (c0 c : Context) (cp : List Nat) (v v0 : Nat) : Prop :=
  v % B = v0 % B ∧
    ((mask B v0 = 0 ∧ mask B v = 0) ∨
     (isOld B c0 (mask B v0) ∧ mask B v = mask B v0) ∨
     (mask B v0 ∈ cp ∧ mask B v = c.mem (mask B v0)))

/-- The state of the words of the copies: the slots of a copy not yet walked
hold the original values; the slots of a walked copy are updated, except the
pending ones, which still hold the original values; the words that are not
reference slots hold the original values. -/
structure Slots (B : Nat) (c0 : Context) (G : Graph) (c : Context) (cp wk : List Nat)
    (pend : Nat → List Nat) : Prop where
  wk_sub : ∀ o ∈ wk, o ∈ cp
  unwalked : ∀ o ∈ cp, o ∉ wk → ∀ k ∈ (G.lay o).slots,
    c.mem (c.mem o + k * B) = G.m0 (o + k * B)
  walked : ∀ o ∈ wk, ∀ k ∈ (G.lay o).slots, k ∉ pend o →
    Updated B c0 c cp (c.mem (c.mem o + k * B)) (G.m0 (o + k * B))
  pending : ∀ o ∈ wk, ∀ k ∈ pend o, k ∈ (G.lay o).slots ∧
    c.mem (c.mem o + k * B) = G.m0 (o + k * B)
  body : ∀ o ∈ cp, ∀ k, k < (G.lay o).size → k ∉ (G.lay o).slots →
    c.mem (c.mem o + k * B) = G.m0 (o + k * B)

/-- The context after `copyTo` has copied the `size` words of `o` into the
segment `g`. -/
def Context.afterCopyTo (B : Nat) (c : Context) (g : Gen) (o size : Nat) : Context :=
  { c.setSeg g { c.seg g with position := (c.seg g).position + size } with
    client := (c.client.copy B c.mem o ((c.seg g).data + (c.seg g).position * B)).1
    mem := (c.client.copy B c.mem o ((c.seg g).data + (c.seg g).position * B)).2 }

/-- The context `c1` is the context `c` after the object `o` has been copied to
`r`. -/
structure Copied (B : Nat) (c0 : Context) (G : Graph) (c c1 : Context) (o r : Nat) : Prop where
  shape : c1.shape = c.shape
  r_eq : r = (c.seg (dest B c0 G o)).data + (c.seg (dest B c0 G o)).position * B
  pos : (c1.seg (dest B c0 G o)).position = (c.seg (dest B c0 G o)).position + (G.lay o).size
  pos_other : ∀ g, g ≠ dest B c0 G o → (c1.seg g).position = (c.seg g).position
  layout : ∀ a, c1.client.layout a = if a = r then G.lay o else c.client.layout a
  body : ∀ k, k < (G.lay o).size → c1.mem (r + k * B) = c.mem (o + k * B)
  fwd : c1.mem o = r
  frame : ∀ a, a ≠ o → (a < r ∨ r + (G.lay o).size * B ≤ a) →
    ¬ c0.nextAgeMap.inFootprint B c0.nextGen1 a → c1.mem a = c.mem a
  base : (c1.gen2Base = c.gen2Base ∧ (dest B c0 G o = Gen.gen2 → c.gen2Base ≠ Top)) ∨
    (c.gen2Base = Top ∧ dest B c0 G o = Gen.gen2 ∧ c1.gen2Base = c.gen2.position)
  age : dest B c0 G o = Gen.nextGen1 →
    c1.nextAgeMap.get B c1.nextGen1 c1.mem r = some (nextAge B c0 G o)
  age_frame : ∀ q, c.nextGen1.contains B q = true →
    c1.nextAgeMap.get B c1.nextGen1 c1.mem q = c.nextAgeMap.get B c.nextGen1 c.mem q
  tenure : c1.tenureFootprint = u32 (c.tenureFootprint + tenureGrowth B c0 G o)

/-! ## The parent stack of a traversal

`collect(Context*, object*)` keeps its stack in the originals of the objects it
has copied: the second word of an original links to the original below it, and
the offsets of the slots still to be descended into are kept in a bitset that
starts at the third word (or are the second slot, for an object with two
slots). -/

/-- The object the slot `k` of the object `o` referred to when the traversals
started. -/
def child (B : Nat) (G : Graph) (o k : Nat) : Nat := mask B (G.m0 (o + k * B))

/-- The pending offsets of the object `o` in a stack of frames. -/
def pendOf (st : List (Nat × List Nat)) (o : Nat) : List Nat := (st.lookup o).getD []

/-- The objects the frames of a stack still have to descend into. -/
def todoOf (B : Nat) (G : Graph) (st : List (Nat × List Nat)) : List Nat :=
  st.bind fun f => f.2.map (child B G f.1)

/-- The original `o` holds the pending offsets `pend` the way the ascending
walk reads them. -/
structure FrameRep (B : Nat) (G : Graph) (m : Mem) (o : Nat) (pend : List Nat) : Prop where
  ne : pend ≠ []
  sorted : pend.Sorted (· < ·)
  sub : ∀ k ∈ pend, k ∈ (G.lay o).slots
  two : 2 ≤ (G.lay o).slots.length
  pair : (G.lay o).slots.length = 2 → pend = (G.lay o).slots.tail
  bits : 3 ≤ (G.lay o).slots.length → BitsetIn B m o (G.lay o).size pend.toFinset

/-- The state of the descending `Walker` after it has visited the slots `done`
of an object, of which the slots `N` need a visit: the counters, and the bitset
at `bs`, which holds all of `N` but the first once three slots have been
seen. -/
structure WalkRep (B : Nat) (m : Mem) (bs : Nat) (done N : List Nat) (w : Walker) : Prop where
  total : w.total = done.length
  visits : w.visits = N.length
  first : ∀ x, N.head? = some x → w.first = x
  sub : N.Sublist done
  sorted : done.Sorted (· < ·)
  small : done.length ≤ 2 → w.last = 0 ∧ w.second = (N.tail.head?).getD 0
  big : 3 ≤ done.length → w.second = 0 ∧ BitsetPartial B m bs N.tail.toFinset w.last
  last : w.last = 0 ∨ w.last ∈ done

/-- The memory holds the stack `st` with top `par`. -/
def StackRep (B : Nat) (G : Graph) (m : Mem) : Nat → List (Nat × List Nat) → Prop
  | par, [] => par = 0
  | par, f :: rest => par = f.1 ∧ FrameRep B G m f.1 f.2 ∧ StackRep B G m (m (f.1 + B)) rest

/-- The state of a traversal: the invariant of the collection, the state of
the slots, and the objects copied but not yet walked (`todo`). -/
structure Trav (B : Nat) (c0 : Context) (G : Graph) (c : Context) (cp wk : List Nat)
    (pend : Nat → List Nat) (todo : List Nat) : Prop where
  inv : Inv B c0 G c cp
  slots : Slots B c0 G c cp wk pend
  wk_nodup : wk.Nodup
  todo_nodup : todo.Nodup
  todo_cp : ∀ x ∈ todo, x ∈ cp ∧ x ∉ wk
  cover : ∀ x ∈ cp, x ∈ wk ∨ x ∈ todo

/-- The context `c1` with the objects `cp1` copied comes after the context `c`
with the objects `cp` copied: the objects copied stay copied, to the same
place, and the segments only grow. -/
structure Grows (c : Context) (cp : List Nat) (c1 : Context) (cp1 : List Nat) : Prop where
  sub : ∀ y ∈ cp, y ∈ cp1
  fwd : ∀ y ∈ cp, c1.mem y = c.mem y
  pos : ∀ g, (c.seg g).position ≤ (c1.seg g).position

/-! ## Card marks and the frame of a traversal -/

/-- The referent a slot gets whose value was `v0` when the traversals started:
null, the object itself if it stays in place, or the forwarding pointer. -/
def referent (B : Nat) (c0 c : Context) (v0 : Nat) : Nat :=
  if mask B v0 = 0 then 0
  else if c0.mode = MinorCollection ∧ c0.gen2.contains B (mask B v0) = true then mask B v0
  else c.mem (mask B v0)

/-- The card bits of the memory `m1` are those of `m` and the bits, at every
level, of the records of the addresses in `P`; the card map of the other
generation is as in `m`. -/
def CardsSet (B : Nat) (c0 : Context) (m m1 : Mem) (P : Nat → Prop) : Prop :=
  (c0.mapOf c0.oldGen).AllLevels (fun l => ∀ k, wordOf B k < l.size B (c0.seg c0.oldGen).capacity →
    (l.bit B (c0.seg c0.oldGen) m1 k = true ↔
      (l.bit B (c0.seg c0.oldGen) m k = true ∨
        ∃ p, P p ∧ k = l.recordIndex B (c0.seg c0.oldGen) p))) ∧
  ∀ a, c0.inCards B a → ¬ (c0.mapOf c0.oldGen).inFootprint B (c0.seg c0.oldGen) a → m1 a = m a

/-- The card marks of one traversal: `ms` is the memory and `wks` the objects
walked when it started, `p0` the slot it was called for, `unv` the slots the
walker has not visited yet and `mk` the slots marked. -/
structure Marks (B : Nat) (c0 : Context) (G : Graph) (ms : Mem) (wks : List Nat) (p0 : Nat)
    (c : Context) (wk : List Nat) (unv : Nat → List Nat) (mk : List Nat) : Prop where
  set : CardsSet B c0 ms c.mem (· ∈ mk)
  src : ∀ q ∈ mk, (c.seg c.oldGen).contains B q = true ∧
    (q = p0 ∨ ∃ y ∈ wk, y ∉ wks ∧ ∃ j ∈ (G.lay y).slots, q = c.mem y + j * B ∧
      child B G y j ∈ G.objs ∧ movable B c0 (child B G y j) ∧
      dest B c0 G (child B G y j) ≠ c0.oldGen)
  all : ∀ y ∈ wk, y ∉ wks → ∀ j ∈ (G.lay y).slots, j ∉ unv y →
    cardCond B c (c.mem y + j * B) (referent B c0 c (G.m0 (y + j * B))) →
    c.mem y + j * B ∈ mk

/-- An address the traversals may write: a word of destination space, of a map,
or of an object copied. -/
def Touched (B : Nat) (c0 : Context) (G : Graph) (cp : List Nat) (a : Nat) : Prop :=
  c0.inToSpace B a ∨ c0.inMaps B a ∨ ∃ x ∈ cp, x ≤ a ∧ a < x + (G.lay x).size * B

/-- The traversal at the head of its loop: the object `o` has been copied and
its copy is to be walked. -/
structure AtVisit (B : Nat) (c0 : Context) (G : Graph) (ms : Mem) (wks : List Nat) (p0 : Nat)
    (c : Context) (cp wk : List Nat) (st : List (Nat × List Nat)) (par o : Nat)
    (mk : List Nat) : Prop where
  trav : Trav B c0 G c cp wk (pendOf st) (o :: todoOf B G st)
  stack : StackRep B G c.mem par st
  st_nodup : (st.map Prod.fst).Nodup
  st_wk : ∀ f ∈ st, f.1 ∈ wk
  marks : Marks B c0 G ms wks p0 c wk (fun _ => []) mk
  ext : ∀ a, ¬ Touched B c0 G cp a → c.mem a = ms a
  wks_sub : ∀ y ∈ wks, y ∈ wk

/-- The traversal while the copy of `o` is walked: the walker has visited the
slots `done`, of which the slots `N` need a visit, and has the slots `rest`
before it; `T` are the slots of `o` whose referent has been copied and is still
to be walked (`N`, and the slot being visited once its referent is copied). -/
structure Walking (B : Nat) (c0 : Context) (G : Graph) (ms : Mem) (wks : List Nat) (p0 : Nat)
    (c : Context) (cp wk : List Nat) (st : List (Nat × List Nat)) (par o : Nat)
    (mk : List Nat) (done rest N T : List Nat) (w : Walker) : Prop where
  trav : Trav B c0 G c cp (o :: wk) (Function.update (pendOf st) o (N ++ rest))
    (T.map (child B G o) ++ todoOf B G st)
  sub_T : ∀ j ∈ N, j ∈ T
  walk : WalkRep B c.mem (o + B * 2) done N w
  stack : StackRep B G c.mem par st
  st_nodup : (st.map Prod.fst).Nodup
  st_wk : ∀ f ∈ st, f.1 ∈ wk
  slots_eq : (G.lay o).slots = done ++ rest
  o_new : o ∉ wks
  marks : Marks B c0 G ms wks p0 c (o :: wk) (Function.update (fun _ => []) o rest) mk
  ext : ∀ a, ¬ Touched B c0 G cp a → c.mem a = ms a
  wks_sub : ∀ y ∈ wks, y ∈ wk

/-- A slot a traversal may be called for: a word outside destination space, the
maps and the objects the collection moves. -/
structure Settable (B : Nat) (c0 : Context) (G : Graph) (p : Nat) : Prop where
  aligned : p % B = 0
  not_toSpace : ¬ c0.inToSpace B p
  not_maps : ¬ c0.inMaps B p
  not_ages : ¬ c0.ageMap.inFootprint B c0.gen1 p
  not_moved : ∀ y ∈ G.objs, movable B c0 y → ¬ (y ≤ p ∧ p < y + (G.lay y).size * B)

/-- The heap is ready for the traversals of a collection: the graph describes
the memory and the layouts, and the destination segments have room for the
objects the collection moves. -/
structure Ready (B : Nat) (c0 : Context) (G : Graph) : Prop where
  start : Start B c0 G
  mem_eq : ∀ a, c0.mem a = G.m0 a
  lay_eq : ∀ o ∈ G.objs, c0.client.layout o = G.lay o
  room : ∀ g, g ≠ Gen.gen1 → (c0.seg g).position + need B c0 G [] g ≤ (c0.seg g).capacity
  tenure : c0.tenureFootprint < 2 ^ 32

/-- The traversal between two walks: every slot of a walked copy has been
visited, and the pending ones lead to the objects still to be walked. -/
structure Resting (B : Nat) (c0 : Context) (G : Graph) (ms : Mem) (wks : List Nat) (p0 : Nat)
    (c : Context) (cp wk : List Nat) (pend : Nat → List Nat) (todo mk : List Nat) : Prop where
  trav : Trav B c0 G c cp wk pend todo
  marks : Marks B c0 G ms wks p0 c wk (fun _ => []) mk
  ext : ∀ a, ¬ Touched B c0 G cp a → c.mem a = ms a
  wks_sub : ∀ y ∈ wks, y ∈ wk
  pend_todo : ∀ y j, j ∈ pend y → child B G y j ∈ todo

/-- Push the frame of the object `y` with the pending offsets `l`, if there are
any. -/
def pushFrame (y : Nat) (l : List Nat) (st : List (Nat × List Nat)) : List (Nat × List Nat) :=
  if l = [] then st else (y, l) :: st

end Heap

namespace Heap

open CollectionType

/-! ## A cyclic heap

Two objects of two words outside the segments, at the addresses 1000 and 1040;
the second word of each refers to the other.  The root slot at address 500
holds the first.  The context is the one a Minor collection with footprint 4
starts its traversals with: nextGen1 has four words at 16 MiB. -/

/-- The memory of the cyclic heap. -/
def cycleMem : Mem :=
  fun a => if a = 500 then 1000 else if a = 1004 then 1040 else if a = 1044 then 1000 else 0

/-- The layouts of the cyclic heap. -/
def cycleLayout : Nat → Layout :=
  fun a => if a = 1000 then ⟨2, [1]⟩ else if a = 1040 then ⟨2, [1]⟩ else ⟨0, []⟩

/-- The client of the cyclic heap. -/
def cycleClient : Client := { layout := cycleLayout, roots := [500] }

/-- The context of the cyclic heap when the traversals start. -/
def cycleContext : Context :=
  { Context.new 4 4096 exampleSystem cycleMem cycleClient with
    nextGen1 := { data := 16777216, position := 0, capacity := 4,
                  map := some (Map.leaf 2 1 false) }
    gen2Base := Top }

/-- The graph of the cyclic heap. -/
def cycleGraph : Graph := { objs := [1000, 1040], lay := cycleLayout, m0 := cycleMem }

/-- A heap with one object in gen2, at the address 1000, held by the root slot
at address 500, when a Minor collection starts its traversals. -/
def oldContext : Context :=
  { Context.new 4 4096 exampleSystem exampleMem exampleClient with
    gen2 := { data := 1000, position := 4, capacity := 16,
              map := some (Map.node 1 (4096 / 4 * 1024) true
                (Map.node 1 (4096 / 4) true (Map.leaf 1 1 true))) }
    nextGen1 := { data := 16777216, position := 0, capacity := 4,
                  map := some (Map.leaf 2 1 false) }
    gen2Base := Top }

end Heap

namespace Heap

open CollectionType

/-! ## The card hierarchy -/

/-- The scale of every map of a hierarchy is a multiple of the scale of its
child. -/
def Map.Nested : Map → Prop
  | Map.leaf _ _ _ => True
  | Map.node _ sc _ ch => ch.scale ∣ sc ∧ Map.Nested ch

/-- The hierarchy invariant of maps with one bit per record: if the bit of a
child map for the segment word `W` is set, the bit of its parent covering `W`
is set. -/
def Map.Covered (B : Nat) (s : Segment) (m : Mem) : Map → Prop
  | Map.leaf _ _ _ => True
  | Map.node b sc c ch =>
    (∀ W, W < s.capacity → ch.bit B s m (W / ch.scale) = true →
      (Map.node b sc c ch).bit B s m (W / sc) = true) ∧ Map.Covered B s m ch

/-! ## Successive allocations -/

/-- Allocate the sizes of a list one after the other: the address and the
size of each allocation, and the segment. -/
def Segment.allocAll (B : Nat) : Segment → List Nat → Option (List (Nat × Nat) × Segment)
  | s, [] => some ([], s)
  | s, n :: rest =>
    match s.allocate B n with
    | none => none
    | some (a, s1) =>
      match Segment.allocAll B s1 rest with
      | none => none
      | some (l, s2) => some ((a, n) :: l, s2)

/-! ## The capacities the segment constructor tries -/

/-- The capacity of the `k`-th request of the constructor: `desired`, then the
average of `minimum` and the capacity before. -/
def capSeq (minimum desired : Nat) : Nat → Nat
  | 0 => desired
  | k + 1 => avg minimum (capSeq minimum desired k)

/-- The loop `for (Iterator it(map, start, end); it.hasMore();) it.next()` on a
memory that does not change: the values `next` returns.  The first argument
bounds the number of calls of `hasMore`; `none` when it runs out or an assertion
fails. -/
def Iterator.run (B : Nat) (s : Segment) (mp : Map) (m : Mem) : Nat → Iterator → Option (List Nat)
  | 0, _ => none
  | n + 1, it =>
    if (it.hasMore B s mp m).1 then
      match (it.hasMore B s mp m).2.next B s mp m with
      | none => none
      | some (x, it1) => (Iterator.run B s mp m n it1).map fun l => x :: l
    else some []

/-- A segment of eight words at address 1000 with a map of scale 4, whose
backing word (at address 1064) has the bits of the records 0 and 1 set. -/
def iterSegment : Segment := { data := 1000, position := 8, capacity := 16, map := none }

/-- The map of `iterSegment`: one bit for every four words. -/
def iterMap : Map := Map.leaf 1 4 false

/-- The memory of `iterSegment`: the records 0 and 1 are set. -/
def iterMem : Mem := fun a => if a = 1064 then 3 else 0

/-- The heap of `oldContext` after the runtime has marked the slot at 1004, the
second word of the object of gen2; the slot holds null. -/
def markedNull : Option Context := MyHeap.mark 4 oldContext 1004

end Heap

namespace Heap

open CollectionType

/-! # The card scan of a Minor collection

The predicates below describe the card hierarchy of gen2 while
`collect(Context*, Segment::Map*, ...)` scans it.  A record of a map is named by
its level and its index; the record `i` of a level with scale `sc` covers the
words `i * sc` to `(i + 1) * sc - 1` of the segment. -/

/-- The levels of a map hierarchy, the root first. -/
def Map.levels : Map → List Map
  | Map.leaf b s c => [Map.leaf b s c]
  | Map.node b s c ch => Map.node b s c ch :: ch.levels

/-- The levels of a map hierarchy that have a child, the root first. -/
def Map.nodeLevels : Map → List Map
  | Map.leaf _ _ _ => []
  | Map.node b s c ch => Map.node b s c ch :: ch.nodeLevels

/-- The last level of a map hierarchy. -/
def Map.leafLevel : Map → Map
  | Map.leaf b s c => Map.leaf b s c
  | Map.node _ _ _ ch => ch.leafLevel

/-- The bit of the record `i` of the level `l`, for the records that cover words
of the segment. -/
def cardBit (B : Nat) (s : Segment) (m : Mem) (l : Map) (i : Nat) : Bool :=
  decide (i * l.scale < s.capacity) && l.bit B s m i

/-- The shape of a card hierarchy the scan accepts: one bit per record, a leaf
of scale 1 under levels of larger scale, each scale a multiple of the scale
below. -/
structure CardShape (top : Map) : Prop where
  bits : ∀ l ∈ top.levels, l.bitsPerRecord = 1
  node_scale : ∀ a ∈ top.nodeLevels, 1 < a.scale ∧ a.scale < 2 ^ 31
  leaf_scale : top.leafLevel.scale = 1
  nested : top.Nested

/-- The state of the card bits `bt` while the scan runs.  The levels `A` are
those whose scan is under way, on the record that covers the word `s`; `w` is
the first word not yet scanned, `P0` the position of the segment when the scan
started and `P` its position now.  Outside the records under way every set leaf
bit has its covering bits set (`cov`); every set bit has a set leaf bit in the
words it covers, and for a record under way one that the scan will not clear for
good (`wc`); a set leaf bit lies below the position (`below`). -/
structure CardInv (nodes : List Map) (lf : Map) (bt : Map → Nat → Bool) (A : List Map)
    (s w P0 P : Nat) : Prop where
  cov : ∀ a ∈ nodes, ∀ k, bt lf k = true → ¬ (a ∈ A ∧ k / a.scale = s / a.scale) →
    bt a (k / a.scale) = true
  wc : ∀ a ∈ nodes, ∀ i, bt a i = true →
    ∃ k, bt lf k = true ∧ k / a.scale = i ∧ (a ∈ A → i = s / a.scale → k < w ∨ P0 ≤ k)
  below : ∀ k, bt lf k = true → k < P

/-- Card completeness of a hierarchy: every set bit of a level with a child
has a set bit of the child among the records of the child that it covers. -/
def Map.Complete (B : Nat) (s : Segment) (m : Mem) : Map → Prop
  | Map.leaf _ _ _ => True
  | Map.node b sc c ch =>
    (∀ i, cardBit B s m (Map.node b sc c ch) i = true →
      ∃ j, cardBit B s m ch j = true ∧ i * sc ≤ j * ch.scale ∧ j * ch.scale < (i + 1) * sc) ∧
    Map.Complete B s m ch

/-- The word `k` of gen2 is a reference slot of the copy of a walked object, and
the object it referred to has been copied into nextGen1. -/
def YoungSlot (B : Nat) (c0 : Context) (G : Graph) (c : Context) (wk : List Nat) (k : Nat) :
    Prop :=
  ∃ y ∈ wk, ∃ j ∈ (G.lay y).slots, c0.gen2.data + k * B = c.mem y + j * B ∧
    child B G y j ∈ G.objs ∧ movable B c0 (child B G y j) ∧
    dest B c0 G (child B G y j) = Gen.nextGen1

/-- What a Minor collection knows of the words of gen2 that were there when it
started: a word either is unchanged and has kept its leaf bit, or has been
updated and has its leaf bit set unless it refers into gen2. -/
def OldSound (B : Nat) (c0 c : Context) (cp : List Nat) : Prop :=
  ∀ k, k < c0.gen2.position →
    (c.mem (c0.gen2.data + k * B) = c0.mem (c0.gen2.data + k * B) ∧
      (cardBit B c0.gen2 c0.mem c0.heapMap.leafLevel k = true →
        cardBit B c0.gen2 c.mem c0.heapMap.leafLevel k = true)) ∨
    (Updated B c0 c cp (c.mem (c0.gen2.data + k * B)) (c0.mem (c0.gen2.data + k * B)) ∧
      (c.gen2.contains B (c.mem (c0.gen2.data + k * B)) = false →
        cardBit B c0.gen2 c.mem c0.heapMap.leafLevel k = true))

/-- What the scan knows of the words of gen2 before the word `w` that were there
when it started: a word whose leaf bit was set has been updated. -/
def OldSeen (B : Nat) (c0 c : Context) (cp : List Nat) (w : Nat) : Prop :=
  ∀ k, k < w → k < c0.gen2.position →
    cardBit B c0.gen2 c0.mem c0.heapMap.leafLevel k = true →
    Updated B c0 c cp (c.mem (c0.gen2.data + k * B)) (c0.mem (c0.gen2.data + k * B))

/-- What a Minor collection knows of the slots of the copies walked: a slot
that lies in gen2 and whose referent is not null and does not has its leaf bit
set. -/
def NewSound (B : Nat) (c0 : Context) (G : Graph) (c : Context) (wk : List Nat) : Prop :=
  ∀ y ∈ wk, ∀ j ∈ (G.lay y).slots,
    cardCond B c (c.mem y + j * B) (referent B c0 c (G.m0 (y + j * B))) →
    cardBit B c0.gen2 c.mem c0.heapMap.leafLevel ((c.mem y + j * B - c0.gen2.data) / B) = true

/-- What the scan keeps true: the traversals are closed, the slots of gen2 from
the word `w` on that were there when the scan started are untouched, and so are
the slots outside gen2 that a traversal may be called for; a word of gen2 that
was there either is unchanged and has kept its leaf bit, or has been updated and
has its leaf bit set unless it refers into gen2 (`olds`); a slot of a walked
copy in gen2 whose referent is not null and not in gen2 has its leaf bit set
(`news`); a set leaf bit beyond the words that were there belongs to a slot that
refers to nextGen1, and the card bits are as `CardInv` says. -/
structure ScanInv (B : Nat) (c0 : Context) (G : Graph) (c : Context) (cp wk : List Nat)
    (A : List Map) (s w : Nat) : Prop where
  trav : Trav B c0 G c cp wk (fun _ => []) []
  oldmem : ∀ k, w ≤ k → k < c0.gen2.position →
    c.mem (c0.gen2.data + k * B) = c0.mem (c0.gen2.data + k * B) ∧
    cardBit B c0.gen2 c.mem c0.heapMap.leafLevel k =
      cardBit B c0.gen2 c0.mem c0.heapMap.leafLevel k
  outside : ∀ a, Settable B c0 G a → ¬ c0.inStorage B Gen.gen2 a → c.mem a = c0.mem a
  olds : OldSound B c0 c cp
  seen : OldSeen B c0 c cp w
  news : NewSound B c0 G c wk
  newbits : ∀ k, c0.gen2.position ≤ k → cardBit B c0.gen2 c.mem c0.heapMap.leafLevel k = true →
    YoungSlot B c0 G c wk k
  cards : CardInv c0.heapMap.nodeLevels c0.heapMap.leafLevel (cardBit B c0.gen2 c.mem) A s w
    c0.gen2.position c.gen2.position

/-- What is assumed of the cards when a Minor collection starts its scan: the
shape of the hierarchy, the state of the bits, and that a slot whose leaf bit is
set holds null or a reference to an object. -/
structure CardsReady (B : Nat) (c0 : Context) (G : Graph) : Prop where
  minor : c0.mode = MinorCollection
  shape : CardShape c0.heapMap
  cards : CardInv c0.heapMap.nodeLevels c0.heapMap.leafLevel (cardBit B c0.gen2 c0.mem) [] 0 0
    c0.gen2.position c0.gen2.position
  valid : ∀ k, k < c0.gen2.position →
    cardBit B c0.gen2 c0.mem c0.heapMap.leafLevel k = true →
    mask B (c0.mem (c0.gen2.data + k * B)) = 0 ∨
      mask B (c0.mem (c0.gen2.data + k * B)) ∈ G.objs

/-- How the cards of the context `c1` relate to those of an earlier context `c`
of the same scan, `w` being the first word not yet scanned at `c` and `A` the
levels whose scan was under way: the segment has grown, the bits of the levels
`A` and the leaf bits of the words before `w` that were set are set, and a leaf
bit that is set was set or has its covering bits of the levels `A` set. -/
structure ScanRel (B : Nat) (c0 : Context) (A : List Map) (w : Nat) (c c1 : Context) : Prop where
  pos : c.gen2.position ≤ c1.gen2.position
  anc : ∀ a ∈ A, ∀ i, cardBit B c0.gen2 c.mem a i = true → cardBit B c0.gen2 c1.mem a i = true
  leaf_new : ∀ k, cardBit B c0.gen2 c1.mem c0.heapMap.leafLevel k = true →
    cardBit B c0.gen2 c.mem c0.heapMap.leafLevel k = true ∨
      ∀ a ∈ A, cardBit B c0.gen2 c1.mem a (k / a.scale) = true
  leaf_keep : ∀ k, k < w → cardBit B c0.gen2 c.mem c0.heapMap.leafLevel k = true →
    cardBit B c0.gen2 c1.mem c0.heapMap.leafLevel k = true

/-- What one turn of the loop of the scan does, from the context `c` with the
first word not yet scanned `w` to the context `c1`: the record found starts at
the word `lo` and ends before the word `w1`; no leaf bit was set in between; if
the turn reports dirty (`d1`) a leaf bit of the record is set, and a set leaf
bit of the record has its covering bits of the levels `A` set unless the turn
reports dirty. -/
structure StepOut (B : Nat) (c0 : Context) (A : List Map) (w lo w1 : Nat) (c c1 : Context)
    (d1 : Bool) : Prop where
  rel : ScanRel B c0 A w c c1
  skip : ∀ k, w ≤ k → k < lo → cardBit B c0.gen2 c.mem c0.heapMap.leafLevel k = false
  wit : d1 = true → ∃ k, lo ≤ k ∧ k < w1 ∧ cardBit B c0.gen2 c1.mem c0.heapMap.leafLevel k = true
  d2 : ∀ k, lo ≤ k → k < w1 → cardBit B c0.gen2 c1.mem c0.heapMap.leafLevel k = true →
    d1 = true ∨ ∀ a ∈ A, cardBit B c0.gen2 c1.mem a (k / a.scale) = true

end Heap

namespace Heap

open CollectionType

/-- What a call of `collect(Context*, Segment::Map*, start, end, dirty,
expectDirty)` on the level `mp` does during the scan, the levels `A` above it
being under way on the record that covers the word `sA`: given enough fuel it
returns, unless it expects a set bit and finds none; it reports dirty as
`StepOut` says, and the state of the scan holds again with the words up to `E`
scanned, where `E` is the end of the range or beyond it. -/
def ScanCall (B : Nat) (c0 : Context) (G : Graph) (mp : Map) (A : List Map) : Prop :=
  ∀ (c : Context) (cp wk : List Nat) (sA start e : Nat),
    ScanInv B c0 G c cp wk A sA start → start % mp.scale = 0 → start ≤ c.gen2.position →
    start ≤ e →
    (∀ a ∈ A, ∀ x, start ≤ x → x / mp.scale * mp.scale < e → x / a.scale = sA / a.scale) →
    ∃ N c1 cp1 wk1 d1 E, e ≤ E ∧ (e % mp.scale = 0 → E = e) ∧
      (∀ fuel, N ≤ fuel → ∀ ex d,
        (ex = false ∨ ∃ i, start ≤ i * mp.scale ∧ i * mp.scale < min e c.gen2.position ∧
          mp.bit B c.gen2 c.mem i = true) →
        collectMap B fuel mp ex c start e d = some (c1, d || d1)) ∧
      ScanInv B c0 G c1 cp1 wk1 A sA E ∧ StepOut B c0 A start start E c c1 d1

end Heap

namespace Heap

open CollectionType

/-! ## A heap with a marked card

One object of two words outside the segments, at the address 1000, whose second
word is a reference slot that holds null.  gen2 has sixteen words at the
address 2000, four of them in use; its second word, at 2004, is a slot that
holds the object, and the bits of that word are set in the pointerMap (bit 1 of
the word at 2064), the pageMap (bit 0 of the word at 2068) and the heapMap
(bit 0 of the word at 2072).  The root slot at address 500 holds the object too.
The context is the one a Minor collection with footprint 4 starts its
traversals with: nextGen1 has four words at 16 MiB. -/

/-- The memory of the heap with a marked card. -/
def cardMem : Mem :=
  fun a => if a = 500 then 1000 else if a = 2004 then 1000 else if a = 2064 then 2
    else if a = 2068 then 1 else if a = 2072 then 1 else 0

/-- The layouts of the heap with a marked card. -/
def cardLayout : Nat → Layout :=
  fun a => if a = 1000 then ⟨2, [1]⟩ else ⟨0, []⟩

/-- The client of the heap with a marked card. -/
def cardClient : Client := { layout := cardLayout, roots := [500] }

/-- The context of the heap with a marked card when the traversals start. -/
def cardContext : Context :=
  { Context.new 4 4096 exampleSystem cardMem cardClient with
    gen2 := { data := 2000, position := 4, capacity := 16,
              map := some (Map.node 1 (4096 / 4 * 1024) true
                (Map.node 1 (4096 / 4) true (Map.leaf 1 1 true))) }
    nextGen1 := { data := 16777216, position := 0, capacity := 4,
                  map := some (Map.leaf 2 1 false) }
    gen2Base := Top }

/-- The graph of the heap with a marked card. -/
def cardGraph : Graph := { objs := [1000], lay := cardLayout, m0 := cardMem }

end Heap

namespace Heap

open CollectionType

/-- The records that cover the address `p` are set, in the memory `m`, at
every level of the card hierarchy of the old generation of the context `c`
(gen2 in a Minor collection, nextGen2 in a Major one). -/
def Marked (B : Nat) (c : Context) (m : Mem) (p : Nat) : Prop :=
  ∀ l ∈ (c.mapOf c.oldGen).levels,
    l.bit B (c.seg c.oldGen) m (l.recordIndex B (c.seg c.oldGen) p) = true

instance Marked.decidable (B : Nat) (c : Context) (m : Mem) (p : Nat) :
    Decidable (Marked B c m p) := by
  unfold Marked
  infer_instance

/-- The slot value `v` refers to young space: its referent is not null and
does not lie in the old generation of `c`. -/
def Young (B : Nat) (c : Context) (v : Nat) : Prop :=
  mask B v ≠ 0 ∧ (c.seg c.oldGen).contains B (mask B v) = false

instance Young.decidable (B : Nat) (c : Context) (v : Nat) : Decidable (Young B c v) := by
  unfold Young
  infer_instance

/-- What a collection knows of the slots of the copies walked, at every level
of the card hierarchy: a slot that lies in the old generation and whose
referent is not null and does not has the records that cover it set. -/
def NewAll (B : Nat) (c0 : Context) (G : Graph) (c : Context) (wk : List Nat) : Prop :=
  ∀ y ∈ wk, ∀ j ∈ (G.lay y).slots,
    cardCond B c (c.mem y + j * B) (referent B c0 c (G.m0 (y + j * B))) →
    Marked B c0 c.mem (c.mem y + j * B)

end Heap

namespace Heap

open CollectionType

/-! ## Reachability -/

/-- The objects reached from the root slots `roots` in the memory `m`, with the
layouts `lay`: the referent of a root slot that does not hold null, and the
referent of a reference slot, not null either, of an object reached. -/
inductive Reach (B : Nat) (lay : Nat → Layout) (m : Mem) (roots : List Nat) : Nat → Prop where
  | root (p : Nat) : p ∈ roots → mask B (m p) ≠ 0 → Reach B lay m roots (mask B (m p))
  | step (y j : Nat) : Reach B lay m roots y → j ∈ (lay y).slots →
      mask B (m (y + j * B)) ≠ 0 → Reach B lay m roots (mask B (m (y + j * B)))

/-- The slot value `v` is what a collection leaves in a slot that held `v0` when
the traversals started at the context `c0`, `c1` being the context they end
with: the tag bits are kept, the referent is that of `referent` (null, the
object itself when a Minor collection leaves it in gen2, the forwarding address
otherwise), and it lies neither in the storage of gen1 nor, in a Major
collection, in the storage of gen2. -/
def Forwarded (B : Nat) (c0 c1 : Context) (v v0 : Nat) : Prop :=
  v % B = v0 % B ∧ mask B v = referent B c0 c1 v0 ∧ ¬ c0.inStorage B Gen.gen1 (mask B v) ∧
    (c0.mode = MajorCollection → ¬ c0.inStorage B Gen.gen2 (mask B v))

end Heap

namespace Heap

open CollectionType

/-! ## A heap with an old and a young object

The heap with a marked card, with the four words of gen2 in use described: the
first two are an object at the address 2000 whose second word, at 2004, is a
reference slot that holds the young object at 1000; the second word of the
young object, at 1004, is a reference slot that holds the object at 2000.  The
root slot at the address 500 holds the young object. -/

/-- The memory of the heap with an old and a young object. -/
def linkMem : Mem :=
  fun a => if a = 500 then 1000 else if a = 1004 then 2000 else if a = 2004 then 1000
    else if a = 2064 then 2 else if a = 2068 then 1 else if a = 2072 then 1 else 0

/-- The layouts of the heap with an old and a young object. -/
def linkLayout : Nat → Layout :=
  fun a => if a = 1000 then ⟨2, [1]⟩ else if a = 2000 then ⟨2, [1]⟩ else ⟨0, []⟩

/-- The client of the heap with an old and a young object. -/
def linkClient : Client := { layout := linkLayout, roots := [500] }

/-- The context of the heap with an old and a young object when `collect` is
entered. -/
def linkEntry : Context :=
  { Context.new 4 4096 exampleSystem linkMem linkClient with
    gen2 := { data := 2000, position := 4, capacity := 16,
              map := some (Map.node 1 (4096 / 4 * 1024) true
                (Map.node 1 (4096 / 4) true (Map.leaf 1 1 true))) }
    gen2Base := Top }

/-- The context of the heap with an old and a young object when the traversals
of a Minor collection with footprint 4 start: nextGen1 has four words at
16 MiB. -/
def linkContext : Context :=
  { linkEntry with
    sys := { exampleSystem with calls := 1 }
    nextGen1 := { data := 16777216, position := 0, capacity := 4,
                  map := some (Map.leaf 2 1 false) } }

/-- The graph of the heap with an old and a young object. -/
def linkGraph : Graph := { objs := [1000, 2000], lay := linkLayout, m0 := linkMem }

end Heap

namespace Heap

open CollectionType

/-! ## The parts of `collect(Context*, unsigned)` -/

/-- The statements of `collect(Context*, unsigned footprint)` before the call
of `collect2`: the mode and the construction of the destination segments;
`none` when a constructor aborts. -/
def collectInit (B P : Nat) (c : Context) (footprint : Nat) : Option Context :=
  let c0 := if c.tenureFootprint > c.gen2.remaining then { c with mode := MajorCollection } else c
  match initNextGen1 B c0 footprint with
  | none => none
  | some c1 => if c1.mode = MajorCollection then initNextGen2 B P c1 else some c1

/-- The statements of `collect(Context*, unsigned footprint)` after the call of
`collect2`: the destination segments replace the old ones; `none` when an
assertion fails. -/
def collectFinish (c3 : Context) : Option Context :=
  match c3.gen1.replaceWith c3.nextGen1 with
  | none => none
  | some (g1, ng1) =>
    let c4 := { c3 with gen1 := g1, nextGen1 := ng1 }
    if c4.mode = MajorCollection then
      match c4.gen2.replaceWith c4.nextGen2 with
      | none => none
      | some (g2, ng2) => some { c4 with gen2 := g2, nextGen2 := ng2 }
    else some c4

/-- The context `collect2` starts its traversals with, given the context it is
called with: its first four assignments. -/
def Context.enter (c : Context) : Context :=
  { c with gen2Base := Top, tenureFootprint := 0, gen1padding := 0, gen2padding := 0 }

/-- The example after its first collection, entered for a Minor collection
with a footprint of 2^32 - 4 words: the context `collect2` is called with. -/
def wrapContext : Option Context :=
  (exampleRun 0).bind fun c =>
    collectInit 4 4096 { c with mode := MinorCollection, client := c.client } 4294967292

/-- What the sizing of the destination segments relies on, at the context `e`
that `collect` is entered with for the footprint given: `X` are the objects
that lie in gen1, in disjoint ranges of their sizes, the objects of the graph
among them; the tenure footprint is the total size of those whose recorded age
is `TenureThreshold`; the objects of the graph outside gen1 and gen2 have a
total size of at most the footprint; and the sums that size the segments do not
exceed what the C type `unsigned` holds. -/
structure Sized (B : Nat) (e : Context) (G : Graph) (X : List Nat) (footprint : Nat) : Prop where
  nodup : X.Nodup
  inside : ∀ x ∈ X, e.holds B Gen.gen1 x (e.client.layout x).size
  disj : ∀ x ∈ X, ∀ y ∈ X, x ≠ y →
    x + (e.client.layout x).size * B ≤ y ∨ y + (e.client.layout y).size * B ≤ x
  all : ∀ o ∈ G.objs, e.gen1.contains B o = true → o ∈ X
  tenure : e.tenureFootprint =
    ((X.filter fun x => decide (e.ageMap.get B e.gen1 G.m0 x = some TenureThreshold)).map
      fun x => (e.client.layout x).size).sum
  outside : ((G.objs.filter fun o => !e.gen1.contains B o && !e.gen2.contains B o).map
    fun o => (G.lay o).size).sum ≤ footprint
  no_wrap1 : e.gen1.position - e.tenureFootprint + footprint + e.gen1padding < 2 ^ 32
  no_wrap2 : e.mode = MajorCollection ∨ e.tenureFootprint > e.gen2.remaining →
    e.gen2.position + e.tenureFootprint + e.gen2padding < 2 ^ 32

end Heap

namespace Heap

open CollectionType

/-! ## Collections in a row -/

/-- Where the object at `o` stands on its way to gen2: 0 when it lies neither in
gen1 nor in gen2, its recorded age plus one when it lies in gen1, and
`TenureThreshold + 2` when it lies in gen2. -/
def stageOf (B : Nat) (c : Context) (o : Nat) : Nat :=
  if c.gen2.contains B o then TenureThreshold + 2
  else if c.gen1.contains B o then
    match c.ageMap.get B c.gen1 c.mem o with
    | some a => a + 1
    | none => TenureThreshold + 3
  else 0

/-- What the collector assumes of the heap when `collect2` starts its
traversals at the context `c0`: the heap is ready for the traversals, the root
slots are named once and hold null or a reference to an object, no segment has
the address 0 in its storage, and in a Minor collection the cards are in the
state the scan accepts, the root slots lie outside gen2 and every reference slot
of an object of gen2 that refers to young space is marked. -/
structure Pre (B : Nat) (c0 : Context) (G : Graph) : Prop where
  ready : Ready B c0 G
  roots_nodup : c0.client.roots.Nodup
  roots_ok : ∀ p ∈ c0.client.roots, Settable B c0 G p ∧
    (mask B (c0.mem p) = 0 ∨ mask B (c0.mem p) ∈ G.objs)
  no_null : ∀ g, ¬ c0.inStorage B g 0
  minor : c0.mode = MinorCollection → CardsReady B c0 G ∧
    (∀ p ∈ c0.client.roots, ¬ c0.inStorage B Gen.gen2 p) ∧
    (∀ y ∈ G.objs, c0.gen2.contains B y = true → ∀ j ∈ (G.lay y).slots,
      Young B c0 (c0.mem (y + j * B)) → Marked B c0 c0.mem (y + j * B))

/-- One collection that the object at `o` survives.  `collect` is entered with
some context and footprint; the construction of the destination segments gives
the context `c` that `collect2` is called with, which satisfies what the
collector assumes; when the traversals start the object is reached from the
roots and stands at the stage `s`; with enough fuel `collect` returns the
context `c4`, and `o1` is the image of the object. -/
def Collected (B P : Nat) (o s : Nat) (c4 : Context) (o1 : Nat) : Prop :=
  ∃ (e c : Context) (footprint : Nat) (G : Graph),
    collectInit B P e footprint = some c ∧ Pre B c.enter G ∧
    Reach B c.enter.client.layout c.enter.mem c.enter.client.roots o ∧
    stageOf B c.enter o = s ∧
    (∃ N, ∀ fuel, N ≤ fuel → collect B P fuel e footprint = some c4) ∧
    o1 = referent B c.enter c4 o

/-- Some collections in a row that an object survives: `Run B P n s c o` says
that the object stood at the stage `s` when the first of the `n` collections
started its traversals, and that the last one returned the context `c`, with
the object at `o`.  Between two collections the heap may change, but the object
stays where it is, at the same stage. -/
inductive Run (B P : Nat) : Nat → Nat → Context → Nat → Prop where
  | first (o s : Nat) (c : Context) (o1 : Nat) : Collected B P o s c o1 → Run B P 1 s c o1
  | next (n s : Nat) (c : Context) (o : Nat) (c1 : Context) (o1 : Nat) :
      Run B P n s c o → Collected B P o (stageOf B c o) c1 o1 → Run B P (n + 1) s c1 o1

end Heap

namespace Heap

open CollectionType

/-! ## The example on its way to gen2

The object of four words of the example, held by the root slot at 500, before
each of its first five collections.  Before the first it lies at 1000, outside
the segments; before the collection number `k + 1` it lies in gen1, which is
the segment of four words that the collection number `k` had the allocator
place at `k` times 16 MiB, with the recorded age `k - 1`.  gen2 has sixteen
words at the address 2000, none in use. -/

/-- The address of the object before the collection number `k + 1`. -/
def tourObject (k : Nat) : Nat := if k = 0 then 1000 else 16777216 * k

/-- The word of the age map of gen1 that records the age `a` for the first
word of the segment: the higher bit of the age is bit 0. -/
def ageWord (a : Nat) : Nat := a / 2 % 2 + 2 * (a % 2)

/-- The memory before the collection number `k + 1`: the root slot, the first
word of the object and the word of the age map. -/
def tourMem (k : Nat) : Mem :=
  fun x => if x = 500 then tourObject k else if x = tourObject k then 77
    else if x = tourObject k + 16 then ageWord (k - 1) else 0

/-- The client before the collection number `k + 1`. -/
def tourClient (k : Nat) : Client :=
  { layout := fun x => if x = tourObject k then ⟨4, []⟩ else ⟨0, []⟩, roots := [500] }

/-- The footprint the collection number `k + 1` is called with. -/
def tourFootprint (k : Nat) : Nat := if k = 0 ∨ k = 4 then 4 else 0

/-- The context `collect` is entered with for the collection number `k + 1`. -/
def tourEntry (k : Nat) : Context :=
  { Context.new 4 4096 { exampleSystem with calls := k } (tourMem k) (tourClient k) with
    gen1 := if k = 0 then { data := 0, position := 0, capacity := 0,
                            map := some (Map.leaf 2 1 false) }
            else { data := 16777216 * k, position := 4, capacity := 4,
                   map := some (Map.leaf 2 1 false) }
    gen2 := { data := 2000, position := 0, capacity := 16,
              map := some (Map.node 1 (4096 / 4 * 1024) true
                (Map.node 1 (4096 / 4) true (Map.leaf 1 1 true))) }
    tenureFootprint := if k = 4 then 4 else 0 }

/-- The context `collect2` is called with in the collection number `k + 1`:
nextGen1 has four words at `k + 1` times 16 MiB. -/
def tourContext (k : Nat) : Context :=
  { tourEntry k with
    sys := { exampleSystem with calls := k + 1 }
    nextGen1 := { data := 16777216 * (k + 1), position := 0, capacity := 4,
                  map := some (Map.leaf 2 1 false) } }

/-- The graph before the collection number `k + 1`. -/
def tourGraph (k : Nat) : Graph :=
  { objs := [tourObject k], lay := (tourClient k).layout, m0 := tourMem k }

end Heap

namespace Heap

open CollectionType

/-! ## The calls of `collect` over the life of a heap -/

/-- The statements of the descending `Walker` that record the offset of a slot
to come back to: `bitsetClear(bitset, last, offset); last = offset;
bitsetSet(bitset, offset, true)`.  The state is the memory and `last`. -/
def bitsetRecord (B : Nat) (p : Nat) (st : Mem × Nat) (offset : Nat) : Mem × Nat :=
  (bitsetSet B (bitsetClear B st.1 p st.2 offset) p offset true, offset)

/-- The call of `bitsetInit` followed by the recording of the offsets `l` in
turn; `last` is 0 at first, as the constructor of the `Walker` leaves it. -/
def bitsetRecordAll (B : Nat) (p : Nat) (m : Mem) (l : List Nat) : Mem :=
  (l.foldl (bitsetRecord B p) (bitsetInit B m p, 0)).1

end Heap

namespace Heap

open CollectionType

/-! ## The heap with an old and a young object in a Major collection -/

end Heap

namespace Heap

open CollectionType

theorem mask_le (B x : Nat) : mask B x ≤ x := Nat.div_mul_le_self x B

theorem lt_mask_add (B x : Nat) (hB : 0 < B) : x < mask B x + B := by
  unfold mask
  have h := Nat.div_add_mod x B
  have h2 := Nat.mod_lt x hB
  rw [Nat.mul_comm] at h
  omega

theorem mask_mod (B x : Nat) : mask B x % B = 0 := by
  unfold mask
  exact Nat.mul_mod_left _ _

/-- For word aligned storage an address lies in a segment exactly when its
masked form does. -/
theorem Segment.contains_mask (B : Nat) (hB : 0 < B) (s : Segment) (hs : s.data % B = 0)
    (x : Nat) : s.contains B (mask B x) = s.contains B x := by
  obtain ⟨d, hd⟩ : ∃ d, s.data = d * B := ⟨s.data / B, by
    have := Nat.div_add_mod s.data B; rw [hs, Nat.mul_comm] at this; omega⟩
  have h1 : mask B x = x / B * B := rfl
  have hle : mask B x ≤ x := mask_le B x
  have hlt : x < mask B x + B := lt_mask_add B x hB
  have e1 : (d * B ≤ x / B * B) ↔ d * B ≤ x := by
    constructor
    · intro h; rw [← h1] at h; omega
    · intro h
      exact Nat.mul_le_mul_right B ((Nat.le_div_iff_mul_le hB).2 h)
  have e2 : (x / B * B < d * B + s.position * B) ↔ x < d * B + s.position * B := by
    rw [← Nat.add_mul]
    constructor
    · intro h
      have h3 : x / B < d + s.position := Nat.lt_of_mul_lt_mul_right h
      have : x / B + 1 ≤ d + s.position := h3
      have := Nat.mul_le_mul_right B this
      rw [Nat.add_mul, ← h1] at this
      omega
    · intro h
      have : x / B < d + s.position := (Nat.div_lt_iff_lt_mul hB).2 h
      exact Nat.mul_lt_mul_of_pos_right this hB
  unfold Segment.contains
  rw [hd, h1]
  simp only [ge_iff_le, e1, e2]

theorem sub_div_eq (B d x : Nat) (hB : 0 < B) : (x / B * B - d * B) / B = (x - d * B) / B := by
  rw [← Nat.sub_mul, Nat.mul_div_cancel _ hB]
  by_cases h : d * B ≤ x
  · rw [Nat.mul_comm d B, Nat.sub_mul_div _ _ _ (by rw [Nat.mul_comm]; exact h)]
  · have h1 : x - d * B = 0 := by omega
    have h2 : x / B < d := (Nat.div_lt_iff_lt_mul hB).2 (by omega)
    rw [h1, Nat.zero_div]
    omega

/-- For word aligned storage an address is fresh exactly when its masked form
is. -/
theorem fresh_mask (B : Nat) (hB : 0 < B) (c : Context) (hc : c.Aligned B) (x : Nat) :
    fresh B c (mask B x) = fresh B c x := by
  obtain ⟨-, h1, h2, h3⟩ := hc
  obtain ⟨d, hd⟩ : ∃ d, c.gen2.data = d * B := ⟨c.gen2.data / B, by
    have := Nat.div_add_mod c.gen2.data B; rw [h2, Nat.mul_comm] at this; omega⟩
  unfold fresh
  rw [Segment.contains_mask B hB _ h1, Segment.contains_mask B hB _ h3,
    Segment.contains_mask B hB _ h2]
  cases hg : c.gen2.contains B x
  · simp
  · have hg' : c.gen2.contains B (mask B x) = true := by
      rw [Segment.contains_mask B hB _ h2]; exact hg
    simp only [Segment.indexOf, Segment.almostContains, hg, hg', Bool.true_or, if_true,
      Bool.true_and]
    have : (mask B x - c.gen2.data) / B = (x - c.gen2.data) / B := by
      rw [hd]; exact sub_div_eq B d x hB
    rw [this]

/-- C4 (forwarding idempotence): for every collector state with word aligned
segment storage and every pointer `p`, the public `follow` satisfies
`follow(follow(p)) = follow(p)`: the value returned for a forwarded object is
fresh, so it fails the not-fresh test of `wasCollected`. -/
theorem follow_idempotent (B : Nat) (hB : 0 < B) (c : Context) (hc : c.Aligned B) (p : Nat) :
    MyHeap.follow B c (MyHeap.follow B c p) = MyHeap.follow B c p := by
  by_cases hw : wasCollected B c p = true
  · have hf : MyHeap.follow B c p = c.mem p := by
      simp [MyHeap.follow, Heap.follow, hw]
    have hfresh : fresh B c (c.mem p) = true := by
      have : fresh B c (get B c.mem p 0) = true := by
        unfold wasCollected at hw
        simp only [Bool.and_eq_true] at hw
        exact hw.2
      unfold get at this
      simp only [Nat.zero_mul, Nat.add_zero] at this
      rw [fresh_mask B hB c hc] at this
      exact this
    have hnot : wasCollected B c (c.mem p) = false := by
      unfold wasCollected
      simp [hfresh]
    rw [hf]
    simp [MyHeap.follow, hnot]
  · have hf : MyHeap.follow B c p = p := by
      simp [MyHeap.follow, hw]
    rw [hf, hf]

/-- C10 (amended): with word aligned gen2 storage, `needsMark(p)` is true
exactly when the word of the slot is non-zero (pointer part or tag bits), `p`
lies in gen2 and the masked referent does not lie in gen2. -/
theorem needsMark_iff (B : Nat) (hB : 0 < B) (c : Context) (hc : c.gen2.data % B = 0)
    (p : Nat) :
    MyHeap.needsMark B c p = true ↔
      (c.mem p ≠ 0 ∧ c.gen2.contains B p = true ∧
        c.gen2.contains B (mask B (c.mem p)) = false) := by
  unfold MyHeap.needsMark
  rw [Segment.contains_mask B hB _ hc]
  simp [Bool.and_eq_true]
  tauto

end Heap

namespace Heap

/-! ## Word arrays and single bits -/

theorem wordAt_setWordAt (B : Nat) (hB : 0 < B) (m : Mem) (p k v k1 : Nat) :
    wordAt B (setWordAt B m p k v) p k1 = if k1 = k then v else wordAt B m p k1 := by
  unfold wordAt setWordAt Mem.write
  by_cases h : k1 = k
  · simp [h]
  · have : p + k1 * B ≠ p + k * B := by
      intro e
      have := Nat.add_left_cancel e
      exact h (Nat.eq_of_mul_eq_mul_right hB this)
    simp [h, this]

theorem wordAt_setWordAt_self (B : Nat) (m : Mem) (p k v : Nat) :
    wordAt B (setWordAt B m p k v) p k = v := by
  simp [wordAt, setWordAt, Mem.write]

theorem wordAt_setWordAt_ne (B : Nat) (hB : 0 < B) (m : Mem) (p k v k1 : Nat) (h : k1 ≠ k) :
    wordAt B (setWordAt B m p k v) p k1 = wordAt B m p k1 := by
  rw [wordAt_setWordAt B hB]; simp [h]

theorem and_one_shiftLeft_ne_zero (x i : Nat) : x &&& (1 <<< i) ≠ 0 ↔ x.testBit i = true := by
  rw [Nat.one_shiftLeft]
  constructor
  · intro h
    obtain ⟨j, hj⟩ := Nat.ne_zero_implies_bit_true h
    rw [Nat.testBit_and, Nat.testBit_two_pow] at hj
    simp only [Bool.and_eq_true, decide_eq_true_eq] at hj
    rw [hj.2]; exact hj.1
  · intro h e
    have : (x &&& 2 ^ i).testBit i = true := by
      rw [Nat.testBit_and, Nat.testBit_two_pow_self, h]; rfl
    rw [e] at this
    simp at this

theorem testBit_or_one_shiftLeft (x i j : Nat) :
    (x ||| (1 <<< i)).testBit j = (x.testBit j || decide (i = j)) := by
  rw [Nat.one_shiftLeft, Nat.testBit_or, Nat.testBit_two_pow]

theorem testBit_and_wnot (B x i j : Nat) (hi : i < BitsPerWord B) :
    (x &&& wnot B (1 <<< i)).testBit j =
      (x.testBit j && (decide (j < BitsPerWord B) && !decide (i = j))) := by
  unfold wnot
  rw [Nat.one_shiftLeft, Nat.testBit_and,
    Nat.testBit_two_pow_sub_succ (Nat.pow_lt_pow_right (by decide) hi), Nat.testBit_two_pow]

theorem or_one_shiftLeft_lt (B x i : Nat) (hx : x < 2 ^ BitsPerWord B) (hi : i < BitsPerWord B) :
    x ||| (1 <<< i) < 2 ^ BitsPerWord B := by
  rw [Nat.one_shiftLeft]
  exact Nat.or_lt_two_pow hx (Nat.pow_lt_pow_right (by decide) hi)

theorem and_wnot_lt (B x y : Nat) (hx : x < 2 ^ BitsPerWord B) : x &&& y < 2 ^ BitsPerWord B :=
  Nat.lt_of_le_of_lt Nat.and_le_left hx

theorem testBit_false_of_lt (B x j : Nat) (hx : x < 2 ^ BitsPerWord B) (hj : BitsPerWord B ≤ j) :
    x.testBit j = false :=
  Nat.testBit_lt_two_pow (Nat.lt_of_lt_of_le hx (Nat.pow_le_pow_right (by decide) hj))

theorem BitsetBuilt.zero (B : Nat) (m : Mem) (p : Nat) (hz : ∀ k, wordAt B m p k = 0) :
    BitsetBuilt B m p ∅ where
  w0 := by rw [hz]; exact Nat.two_pow_pos _
  low := by intro i _; rw [hz]; simp
  ext := by rw [hz]; simp
  idx := hz 1
  spill := by intro k; unfold spillBit; rw [hz]; simp
  len := by intro j hj; simp at hj
  lenb := Or.inl (hz 2)
  words := by intro k; rw [hz]; exact Nat.two_pow_pos _
  bound := by intro j hj; simp at hj

theorem BitsetBuilt.rep (B : Nat) (hB : B = 4 ∨ B = 8) (m : Mem) (p : Nat) (S : Finset Nat)
    (h : BitsetBuilt B m p S) : BitsetRep B m p S where
  w0 := h.w0
  low := h.low
  ext := fun j hj hb => h.ext.2 ⟨j, hj, hb⟩
  bound := h.bound
  idxb := by intro _; rw [h.idx]; exact Nat.zero_le _
  spill := fun _ k _ => h.spill k
  big := by
    intro j hj hb
    have h1 := h.len j hj hb
    rw [h.idx]
    refine ⟨?_, Nat.zero_le _⟩
    have hW : 0 < BitsPerWord B := by rcases hB with rfl | rfl <;> simp [BitsPerWord]
    exact (Nat.div_lt_iff_lt_mul hW).1 h1
  words := fun _ k _ => h.words k

/-! ## `bitsetSet` on a well-formed bitset -/

theorem BitsPerWord_cases (B : Nat) (hB : B = 4 ∨ B = 8) :
    BitsPerWord B = 32 ∨ BitsPerWord B = 64 := by
  rcases hB with rfl | rfl <;> simp [BitsPerWord]

theorem big_index (B : Nat) (hB : B = 4 ∨ B = 8) (i : Nat) (h1 : BitsPerWord B - 1 ≤ i)
    (h2 : i + BitsPerWord B * 2 + 1 < 2 ^ 32) :
    u32 (i + BitsPerWord B * 2 + 1) = i + BitsPerWord B * 2 + 1 ∧
    wordOf B (i + BitsPerWord B * 2 + 1) = (i - (BitsPerWord B - 1)) / BitsPerWord B + 3 ∧
    bitOf B (i + BitsPerWord B * 2 + 1) = (i - (BitsPerWord B - 1)) % BitsPerWord B := by
  rcases hB with rfl | rfl <;> simp only [u32, wordOf, bitOf, BitsPerWord] at * <;> omega

theorem usub_small (a b : Nat) (hb : b ≤ a) (ha : a < 2 ^ 32) : usub a b = a - b := by
  unfold usub
  have hb2 : b % 2 ^ 32 = b := Nat.mod_eq_of_lt (by omega)
  rw [hb2]
  have : a + 2 ^ 32 - b = (a - b) + 2 ^ 32 := by omega
  rw [this, Nat.add_mod_right]
  exact Nat.mod_eq_of_lt (by omega)

theorem bitsetSet_low (B : Nat) (m : Mem) (p i : Nat) (v : Bool)
    (hi : i < BitsPerWord B - 1) :
    bitsetSet B m p i v =
      if v then setWordAt B m p 0 (wordAt B m p 0 ||| (1 <<< i))
      else setWordAt B m p 0 (wordAt B m p 0 &&& wnot B (1 <<< i)) := by
  have h1 : ¬ (i ≥ BitsPerWord B - 1) := by omega
  have h2 : wordOf B i = 0 := by
    unfold wordOf; exact Nat.div_eq_of_lt (by omega)
  have h3 : bitOf B i = i := by
    unfold bitOf; exact Nat.mod_eq_of_lt (by omega)
  unfold bitsetSet
  simp only [h1, decide_False, Bool.false_and, if_false, h2, h3, Bool.false_eq_true]

theorem bitsetSet_big_true (B : Nat) (hB : B = 4 ∨ B = 8) (m : Mem) (p i : Nat)
    (hi : BitsPerWord B - 1 ≤ i) (hb : i + BitsPerWord B * 2 + 1 < 2 ^ 32) :
    bitsetSet B m p i true =
      setWordAt B
        (if wordAt B m p 2 ≤ (i - (BitsPerWord B - 1)) / BitsPerWord B then
          setWordAt B (setWordAt B m p 0 (wordAt B m p 0 ||| BitsetExtensionBit B)) p 2
            ((i - (BitsPerWord B - 1)) / BitsPerWord B + 1)
         else setWordAt B m p 0 (wordAt B m p 0 ||| BitsetExtensionBit B)) p
        ((i - (BitsPerWord B - 1)) / BitsPerWord B + 3)
        (wordAt B
          (if wordAt B m p 2 ≤ (i - (BitsPerWord B - 1)) / BitsPerWord B then
            setWordAt B (setWordAt B m p 0 (wordAt B m p 0 ||| BitsetExtensionBit B)) p 2
              ((i - (BitsPerWord B - 1)) / BitsPerWord B + 1)
           else setWordAt B m p 0 (wordAt B m p 0 ||| BitsetExtensionBit B)) p
          ((i - (BitsPerWord B - 1)) / BitsPerWord B + 3) |||
          (1 <<< ((i - (BitsPerWord B - 1)) % BitsPerWord B))) := by
  have hB0 : 0 < B := by rcases hB with rfl | rfl <;> decide
  obtain ⟨e1, e2, e3⟩ := big_index B hB i hi hb
  have hq : (i - (BitsPerWord B - 1)) / BitsPerWord B + 3 < 2 ^ 32 := by
    rcases BitsPerWord_cases B hB with h | h <;> rw [h] at hb ⊢ <;> omega
  have u3 : usub ((i - (BitsPerWord B - 1)) / BitsPerWord B + 3) 3
      = (i - (BitsPerWord B - 1)) / BitsPerWord B := by
    rw [usub_small _ _ (Nat.le_add_left 3 _) hq, Nat.add_sub_cancel]
  have u2 : usub ((i - (BitsPerWord B - 1)) / BitsPerWord B + 3) 2
      = (i - (BitsPerWord B - 1)) / BitsPerWord B + 1 := by
    rw [usub_small _ _ (Nat.le_add_left 2 _) hq]
    generalize (i - (BitsPerWord B - 1)) / BitsPerWord B = q
    omega
  have h20 : wordAt B (setWordAt B m p 0 (wordAt B m p 0 ||| BitsetExtensionBit B)) p 2
      = wordAt B m p 2 := wordAt_setWordAt_ne B hB0 _ _ _ _ _ (by decide)
  unfold bitsetSet
  simp only [ge_iff_le, hi, decide_True, Bool.and_self, if_true, e1, e2, e3, u3, u2, h20]

theorem bitsetSet_big_false (B : Nat) (hB : B = 4 ∨ B = 8) (m : Mem) (p i : Nat)
    (hi : BitsPerWord B - 1 ≤ i) (hb : i + BitsPerWord B * 2 + 1 < 2 ^ 32) :
    bitsetSet B m p i false =
      setWordAt B m p ((i - (BitsPerWord B - 1)) / BitsPerWord B + 3)
        (wordAt B m p ((i - (BitsPerWord B - 1)) / BitsPerWord B + 3) &&&
          wnot B (1 <<< ((i - (BitsPerWord B - 1)) % BitsPerWord B))) := by
  obtain ⟨e1, e2, e3⟩ := big_index B hB i hi hb
  unfold bitsetSet
  simp only [ge_iff_le, hi, decide_True, Bool.and_false, if_true, e1, e2, e3,
    Bool.false_eq_true, if_false]

theorem div_mod_eq_iff (W k q : Nat) : (k / W = q / W ∧ k % W = q % W) ↔ k = q := by
  constructor
  · rintro ⟨h1, h2⟩
    rw [← Nat.div_add_mod k W, ← Nat.div_add_mod q W, h1, h2]
  · rintro rfl; exact ⟨rfl, rfl⟩

theorem BitsetBuilt.set_low (B : Nat) (hB : B = 4 ∨ B = 8) (m : Mem) (p : Nat) (S : Finset Nat)
    (i : Nat) (h : BitsetBuilt B m p S) (hi : i < BitsPerWord B - 1) :
    BitsetBuilt B (bitsetSet B m p i true) p (insert i S) := by
  have hB0 : 0 < B := by rcases hB with rfl | rfl <;> decide
  have hW : 8 ≤ BitsPerWord B := by rcases BitsPerWord_cases B hB with e | e <;> rw [e] <;> decide
  rw [bitsetSet_low B m p i true hi]
  simp only [if_true]
  have r0 : wordAt B (setWordAt B m p 0 (wordAt B m p 0 ||| 1 <<< i)) p 0
      = wordAt B m p 0 ||| 1 <<< i := wordAt_setWordAt_self B m p 0 _
  have rk : ∀ k, k ≠ 0 → wordAt B (setWordAt B m p 0 (wordAt B m p 0 ||| 1 <<< i)) p k
      = wordAt B m p k := fun k hk => wordAt_setWordAt_ne B hB0 _ _ _ _ _ hk
  refine ⟨?_, ?_, ?_, ?_, ?_, ?_, ?_, ?_, ?_⟩
  · rw [r0]; exact or_one_shiftLeft_lt B _ _ h.w0 (by omega)
  · intro j hj
    rw [r0, testBit_or_one_shiftLeft, Finset.mem_insert, ← h.low j hj]
    simp only [Bool.or_eq_true, decide_eq_true_eq]
    constructor
    · rintro (h1 | h1)
      · exact Or.inr h1
      · exact Or.inl h1.symm
    · rintro (h1 | h1)
      · exact Or.inr h1.symm
      · exact Or.inl h1
  · rw [r0, testBit_or_one_shiftLeft]
    have hne : decide (i = BitsPerWord B - 1) = false := by
      simp only [decide_eq_false_iff_not]; omega
    rw [hne, Bool.or_false, h.ext]
    constructor
    · rintro ⟨j, hj, hb⟩; exact ⟨j, Finset.mem_insert_of_mem hj, hb⟩
    · rintro ⟨j, hj, hb⟩
      rcases Finset.mem_insert.1 hj with e | e
      · omega
      · exact ⟨j, e, hb⟩
  · rw [rk 1 (by decide)]; exact h.idx
  · intro k
    unfold spillBit
    rw [rk _ (Nat.succ_ne_zero _)]
    have := h.spill k
    unfold spillBit at this
    rw [this, Finset.mem_insert]
    constructor
    · exact Or.inr
    · rintro (e | e)
      · omega
      · exact e
  · intro j hj hb
    rw [rk 2 (by decide)]
    rcases Finset.mem_insert.1 hj with e | e
    · omega
    · exact h.len j e hb
  · rw [rk 2 (by decide)]
    rcases h.lenb with e | ⟨j, hj, hb, e⟩
    · exact Or.inl e
    · exact Or.inr ⟨j, Finset.mem_insert_of_mem hj, hb, e⟩
  · intro k; rw [rk _ (Nat.succ_ne_zero _)]; exact h.words k
  · intro j hj
    rcases Finset.mem_insert.1 hj with e | e
    · rw [e]
      rcases BitsPerWord_cases B hB with e2 | e2 <;> rw [e2] at hi ⊢ <;> omega
    · exact h.bound j e

theorem BitsetExtensionBit_eq (B : Nat) : BitsetExtensionBit B = 2 ^ (BitsPerWord B - 1) := by
  unfold BitsetExtensionBit; exact Nat.one_shiftLeft _

theorem BitsetBuilt.set_big (B : Nat) (hB : B = 4 ∨ B = 8) (m : Mem) (p : Nat) (S : Finset Nat)
    (i : Nat) (h : BitsetBuilt B m p S) (hi : BitsPerWord B - 1 ≤ i)
    (hb : i + BitsPerWord B * 2 + 1 < 2 ^ 32) :
    BitsetBuilt B (bitsetSet B m p i true) p (insert i S) := by
  have hB0 : 0 < B := by rcases hB with rfl | rfl <;> decide
  have hW : 8 ≤ BitsPerWord B := by rcases BitsPerWord_cases B hB with e | e <;> rw [e] <;> decide
  rw [bitsetSet_big_true B hB m p i hi hb]
  generalize hq : i - (BitsPerWord B - 1) = q
  have hiq : i = q + (BitsPerWord B - 1) := by omega
  generalize hm0 : setWordAt B m p 0 (wordAt B m p 0 ||| BitsetExtensionBit B) = m0
  generalize hm1 : (if wordAt B m p 2 ≤ q / BitsPerWord B then
      setWordAt B m0 p 2 (q / BitsPerWord B + 1) else m0) = m1
  have a0 : wordAt B m0 p 0 = wordAt B m p 0 ||| BitsetExtensionBit B := by
    rw [← hm0]; exact wordAt_setWordAt_self B m p 0 _
  have ak : ∀ k, k ≠ 0 → wordAt B m0 p k = wordAt B m p k := by
    intro k hk; rw [← hm0]; exact wordAt_setWordAt_ne B hB0 _ _ _ _ _ hk
  have b2 : wordAt B m1 p 2 =
      if wordAt B m p 2 ≤ q / BitsPerWord B then q / BitsPerWord B + 1 else wordAt B m p 2 := by
    rw [← hm1]
    split
    · exact wordAt_setWordAt_self B m0 p 2 _
    · exact ak 2 (by decide)
  have bk : ∀ k, k ≠ 2 → wordAt B m1 p k = wordAt B m0 p k := by
    intro k hk; rw [← hm1]
    split
    · exact wordAt_setWordAt_ne B hB0 _ _ _ _ _ hk
    · rfl
  generalize hm2 : setWordAt B m1 p (q / BitsPerWord B + 3)
      (wordAt B m1 p (q / BitsPerWord B + 3) ||| 1 <<< (q % BitsPerWord B)) = m2
  have c3 : ∀ k, wordAt B m2 p (k + 3) =
      if k = q / BitsPerWord B then wordAt B m p (k + 3) ||| 1 <<< (q % BitsPerWord B)
      else wordAt B m p (k + 3) := by
    intro k
    rw [← hm2, wordAt_setWordAt B hB0]
    by_cases e : k = q / BitsPerWord B
    · rw [if_pos (by rw [e]), if_pos e, bk _ (by omega), ak _ (Nat.succ_ne_zero _), e]
    · rw [if_neg (by omega), if_neg e, bk _ (by omega), ak _ (Nat.succ_ne_zero _)]
  have ck : ∀ k, k < 3 → wordAt B m2 p k = wordAt B m1 p k := by
    intro k hk; rw [← hm2]
    have h3 : 3 ≤ q / BitsPerWord B + 3 := Nat.le_add_left _ _
    exact wordAt_setWordAt_ne B hB0 _ _ _ _ _ (by omega)
  have c0 : wordAt B m2 p 0 = wordAt B m p 0 ||| BitsetExtensionBit B := by
    rw [ck 0 (by decide), bk 0 (by decide), a0]
  have c1 : wordAt B m2 p 1 = wordAt B m p 1 := by
    rw [ck 1 (by decide), bk 1 (by decide), ak 1 (by decide)]
  have c2 : wordAt B m2 p 2 =
      if wordAt B m p 2 ≤ q / BitsPerWord B then q / BitsPerWord B + 1 else wordAt B m p 2 := by
    rw [ck 2 (by decide), b2]
  have hqW : q % BitsPerWord B < BitsPerWord B := Nat.mod_lt _ (by omega)
  refine ⟨?_, ?_, ?_, ?_, ?_, ?_, ?_, ?_, ?_⟩
  · rw [c0, BitsetExtensionBit_eq]
    exact Nat.or_lt_two_pow h.w0 (Nat.pow_lt_pow_right (by decide) (by omega))
  · intro j hj
    rw [c0, BitsetExtensionBit_eq, Nat.testBit_or, Nat.testBit_two_pow, Finset.mem_insert,
      ← h.low j hj]
    have hne : decide (BitsPerWord B - 1 = j) = false := by
      simp only [decide_eq_false_iff_not]; omega
    rw [hne, Bool.or_false]
    constructor
    · exact Or.inr
    · rintro (e | e)
      · omega
      · exact e
  · rw [c0, BitsetExtensionBit_eq, Nat.testBit_or, Nat.testBit_two_pow_self, Bool.or_true]
    simp only [true_iff]
    exact ⟨i, Finset.mem_insert_self _ _, hi⟩
  · rw [c1]; exact h.idx
  · intro k
    unfold spillBit
    rw [c3, Finset.mem_insert]
    have hs := h.spill k
    unfold spillBit at hs
    by_cases e : k / BitsPerWord B = q / BitsPerWord B
    · rw [if_pos e, testBit_or_one_shiftLeft, Bool.or_eq_true, hs, decide_eq_true_eq]
      constructor
      · rintro (h1 | h1)
        · exact Or.inr h1
        · left
          have : k = q := (div_mod_eq_iff _ _ _).1 ⟨e, h1.symm⟩
          omega
      · rintro (h1 | h1)
        · right
          have : k = q := by omega
          rw [this]
        · exact Or.inl h1
    · rw [if_neg e, hs]
      constructor
      · exact Or.inr
      · rintro (h1 | h1)
        · exfalso; apply e
          have : k = q := by omega
          rw [this]
        · exact h1
  · intro j hj hjb
    rw [c2]
    rcases Finset.mem_insert.1 hj with e | e
    · have : j - (BitsPerWord B - 1) = q := by omega
      rw [this]
      split <;> omega
    · have := h.len j e hjb
      split <;> omega
  · rw [c2]
    split
    · right
      exact ⟨i, Finset.mem_insert_self _ _, hi, by rw [hq]⟩
    · rcases h.lenb with e | ⟨j, hj, hjb, e⟩
      · omega
      · exact Or.inr ⟨j, Finset.mem_insert_of_mem hj, hjb, e⟩
  · intro k
    rw [c3]
    split
    · exact or_one_shiftLeft_lt B _ _ (h.words k) hqW
    · exact h.words k
  · intro j hj
    rcases Finset.mem_insert.1 hj with e | e
    · rw [e]; exact hb
    · exact h.bound j e

theorem BitsetBuilt.set (B : Nat) (hB : B = 4 ∨ B = 8) (m : Mem) (p : Nat) (S : Finset Nat)
    (i : Nat) (h : BitsetBuilt B m p S) (hb : i + BitsPerWord B * 2 + 1 < 2 ^ 32) :
    BitsetBuilt B (bitsetSet B m p i true) p (insert i S) := by
  by_cases hi : i < BitsPerWord B - 1
  · exact h.set_low B hB m p S i hi
  · exact h.set_big B hB m p S i (by omega) hb

theorem BitsetBuilt.setAll (B : Nat) (hB : B = 4 ∨ B = 8) (p : Nat) (l : List Nat) :
    ∀ (m : Mem) (S : Finset Nat), BitsetBuilt B m p S →
      (∀ i ∈ l, i + BitsPerWord B * 2 + 1 < 2 ^ 32) →
      BitsetBuilt B (bitsetSetAll B p m l) p (S ∪ l.toFinset) := by
  induction l with
  | nil => intro m S h _; simpa [bitsetSetAll] using h
  | cons i l ih =>
    intro m S h hb
    have h1 := h.set B hB m p S i (hb i (List.mem_cons_self _ _))
    have h2 := ih _ _ h1 (fun j hj => hb j (List.mem_cons_of_mem _ hj))
    have e : S ∪ (i :: l).toFinset = insert i S ∪ l.toFinset := by
      ext x; simp only [List.toFinset_cons, Finset.mem_union, Finset.mem_insert]; tauto
    rw [e]
    exact h2

/-! ## `bitsetHasMore` and `bitsetNext` on a well-formed bitset -/

theorem bitsetHasMoreLoop_spec (B : Nat) (m : Mem) (p len : Nat) :
    ∀ (n word : Nat), n = len - word →
      ((bitsetHasMoreLoop B m p len n word).1 = true →
        ∃ w, word ≤ w ∧ w < len ∧ wordAt B m p (w + 3) ≠ 0 ∧
          (∀ w1, word ≤ w1 → w1 < w → wordAt B m p (w1 + 3) = 0) ∧
          (bitsetHasMoreLoop B m p len n word).2 = setWordAt B m p 1 (indexOf B w 0)) ∧
      ((bitsetHasMoreLoop B m p len n word).1 = false →
        (∀ w1, word ≤ w1 → w1 < len → wordAt B m p (w1 + 3) = 0) ∧
          ∃ w, (word ≤ len → w = len) ∧
            (bitsetHasMoreLoop B m p len n word).2 = setWordAt B m p 1 (indexOf B w 0)) := by
  intro n
  induction n with
  | zero =>
    intro word hn
    simp only [bitsetHasMoreLoop]
    constructor
    · intro h; cases h
    · intro _
      exact ⟨fun w1 h1 h2 => absurd h2 (by omega), word, fun h => (by omega), rfl⟩
  | succ n ih =>
    intro word hn
    have hlt : word < len := by omega
    simp only [bitsetHasMoreLoop, hlt, if_true]
    by_cases hz : wordAt B m p (word + 3) = 0
    · simp only [hz, ne_eq, not_true_eq_false, if_false]
      obtain ⟨i1, i2⟩ := ih (word + 1) (by omega)
      constructor
      · intro h
        obtain ⟨w, a1, a2, a3, a4, a5⟩ := i1 h
        refine ⟨w, by omega, a2, a3, ?_, a5⟩
        intro w1 b1 b2
        by_cases e : w1 = word
        · rw [e]; exact hz
        · exact a4 w1 (by omega) b2
      · intro h
        obtain ⟨a1, w, a2, a3⟩ := i2 h
        refine ⟨?_, w, fun _ => a2 (by omega), a3⟩
        intro w1 b1 b2
        by_cases e : w1 = word
        · rw [e]; exact hz
        · exact a1 w1 (by omega) b2
    · simp only [hz, ne_eq, not_false_eq_true, if_true]
      constructor
      · intro _
        exact ⟨word, Nat.le_refl _, hlt, hz, fun w1 h1 h2 => absurd h1 (by omega), rfl⟩
      · intro h; cases h

theorem bitsetNextSpill_spec (B : Nat) (m : Mem) (p word : Nat) :
    ∀ (n bit : Nat), n = BitsPerWord B - bit →
      (∃ b, bit ≤ b ∧ b < BitsPerWord B ∧ (wordAt B m p (word + 3)).testBit b = true) →
      ∃ b, bit ≤ b ∧ b < BitsPerWord B ∧ (wordAt B m p (word + 3)).testBit b = true ∧
        (∀ b1, bit ≤ b1 → b1 < b → (wordAt B m p (word + 3)).testBit b1 = false) ∧
        bitsetNextSpill B m p word n bit =
          some (u32 (wordAt B (setWordAt B m p 1 (indexOf B word b + 1)) p 1 + BitsPerWord B - 2),
            bitsetSet B (setWordAt B m p 1 (indexOf B word b + 1)) p
              (u32 (wordAt B (setWordAt B m p 1 (indexOf B word b + 1)) p 1 + BitsPerWord B - 2))
              false) := by
  intro n
  induction n with
  | zero =>
    intro bit hn ⟨b, h1, h2, _⟩
    omega
  | succ n ih =>
    intro bit hn hex
    have hlt : bit < BitsPerWord B := by omega
    simp only [bitsetNextSpill, hlt, if_true]
    by_cases ht : (wordAt B m p (word + 3)).testBit bit = true
    · have : wordAt B m p (word + 3) &&& 1 <<< bit ≠ 0 := (and_one_shiftLeft_ne_zero _ _).2 ht
      simp only [this, ne_eq, not_false_eq_true, if_true]
      exact ⟨bit, Nat.le_refl _, hlt, ht, fun b1 h1 h2 => by omega, rfl⟩
    · have : ¬ (wordAt B m p (word + 3) &&& 1 <<< bit ≠ 0) := by
        rw [and_one_shiftLeft_ne_zero]; exact ht
      simp only [this, if_false]
      obtain ⟨b, h1, h2, h3⟩ := hex
      have hne : b ≠ bit := by
        intro e; rw [e] at h3; exact ht h3
      obtain ⟨b2, a1, a2, a3, a4, a5⟩ := ih (bit + 1) (by omega) ⟨b, by omega, h2, h3⟩
      refine ⟨b2, by omega, a2, a3, ?_, a5⟩
      intro b1 c1 c2
      by_cases e : b1 = bit
      · rw [e]; simpa using ht
      · exact a4 b1 (by omega) c2

theorem bitsetNextLow_spec (B : Nat) (m : Mem) (p : Nat) :
    ∀ (n i : Nat), n = BitsPerWord B - 1 - i →
      (∃ b, i ≤ b ∧ b < BitsPerWord B - 1 ∧ (wordAt B m p 0).testBit b = true) →
      ∃ b, i ≤ b ∧ b < BitsPerWord B - 1 ∧ (wordAt B m p 0).testBit b = true ∧
        (∀ b1, i ≤ b1 → b1 < b → (wordAt B m p 0).testBit b1 = false) ∧
        bitsetNextLow B m p n i = some (b, bitsetSet B m p b false) := by
  intro n
  induction n with
  | zero =>
    intro i hn ⟨b, h1, h2, _⟩
    omega
  | succ n ih =>
    intro i hn hex
    have hlt : i < BitsPerWord B - 1 := by omega
    simp only [bitsetNextLow, hlt, if_true]
    by_cases ht : (wordAt B m p 0).testBit i = true
    · have : wordAt B m p 0 &&& 1 <<< i ≠ 0 := (and_one_shiftLeft_ne_zero _ _).2 ht
      simp only [this, ne_eq, not_false_eq_true, if_true]
      exact ⟨i, Nat.le_refl _, hlt, ht, fun b1 h1 h2 => by omega, rfl⟩
    · have : ¬ (wordAt B m p 0 &&& 1 <<< i ≠ 0) := by
        rw [and_one_shiftLeft_ne_zero]; exact ht
      simp only [this, if_false]
      obtain ⟨b, h1, h2, h3⟩ := hex
      have hne : b ≠ i := by
        intro e; rw [e] at h3; exact ht h3
      obtain ⟨b2, a1, a2, a3, a4, a5⟩ := ih (i + 1) (by omega) ⟨b, by omega, h2, h3⟩
      refine ⟨b2, by omega, a2, a3, ?_, a5⟩
      intro b1 c1 c2
      by_cases e : b1 = i
      · rw [e]; simpa using ht
      · exact a4 b1 (by omega) c2

/-- A word below `2 ^ BitsPerWord` with no low bit is zero or the extension
bit. -/
theorem word_no_low (B x : Nat) (hW : 0 < BitsPerWord B) (hx : x < 2 ^ BitsPerWord B)
    (h : ∀ i, i < BitsPerWord B - 1 → x.testBit i = false) :
    x = 0 ∨ x = BitsetExtensionBit B := by
  by_cases ht : x.testBit (BitsPerWord B - 1) = true
  · right
    rw [BitsetExtensionBit_eq]
    apply Nat.eq_of_testBit_eq
    intro i
    rw [Nat.testBit_two_pow]
    by_cases e : BitsPerWord B - 1 = i
    · rw [← e, ht]; simp
    · rw [decide_eq_false e]
      by_cases hi : i < BitsPerWord B - 1
      · exact h i hi
      · exact testBit_false_of_lt B x i hx (by omega)
  · left
    apply Nat.eq_of_testBit_eq
    intro i
    rw [Nat.zero_testBit]
    by_cases hi : i < BitsPerWord B - 1
    · exact h i hi
    · by_cases e : i = BitsPerWord B - 1
      · rw [e]; simpa using ht
      · exact testBit_false_of_lt B x i hx (by omega)

theorem mul_add_div_eq (W w b : Nat) (hb : b < W) : (w * W + b) / W = w := by
  have hW : 0 < W := by omega
  rw [Nat.mul_comm, Nat.mul_add_div hW, Nat.div_eq_of_lt hb, Nat.add_zero]

theorem mul_add_mod_eq (W w b : Nat) (hb : b < W) : (w * W + b) % W = b := by
  rw [Nat.mul_comm, Nat.mul_add_mod, Nat.mod_eq_of_lt hb]

/-- A bit set in a spill word is a spill bit below the length. -/
theorem spillBit_of_word (B : Nat) (m : Mem) (p w b : Nat) (hb : b < BitsPerWord B)
    (ht : (wordAt B m p (w + 3)).testBit b = true) :
    spillBit B m p (w * BitsPerWord B + b) = true := by
  unfold spillBit
  rw [mul_add_div_eq _ _ _ hb, mul_add_mod_eq _ _ _ hb]
  exact ht

theorem spillBit_zero_word (B : Nat) (m : Mem) (p k : Nat)
    (hz : wordAt B m p (k / BitsPerWord B + 3) = 0) : spillBit B m p k = false := by
  unfold spillBit; rw [hz]; simp

theorem BitsetRep.mono_mem (B : Nat) (hB0 : 0 < B) (m m1 : Mem) (p : Nat) (S : Finset Nat)
    (h : BitsetRep B m p S) (v : Nat) (hm : m1 = setWordAt B m p 1 v)
    (hv : (wordAt B m p 0).testBit (BitsPerWord B - 1) = true → v ≤ wordAt B m p 2 * BitsPerWord B)
    (hbig : ∀ j ∈ S, BitsPerWord B - 1 ≤ j → v ≤ j - (BitsPerWord B - 1)) :
    BitsetRep B m1 p S := by
  have rk : ∀ k, k ≠ 1 → wordAt B m1 p k = wordAt B m p k := by
    intro k hk; rw [hm]; exact wordAt_setWordAt_ne B hB0 _ _ _ _ _ hk
  have r1 : wordAt B m1 p 1 = v := by rw [hm]; exact wordAt_setWordAt_self B m p 1 v
  have hs : ∀ k, spillBit B m1 p k = spillBit B m p k := by
    intro k; unfold spillBit
    rw [rk (k / BitsPerWord B + 3) (by have := Nat.le_add_left 3 (k / BitsPerWord B); omega)]
  refine ⟨?_, ?_, ?_, ?_, ?_, ?_, ?_, ?_⟩
  · rw [rk 0 (by decide)]; exact h.w0
  · intro i hi; rw [rk 0 (by decide)]; exact h.low i hi
  · intro j hj hb; rw [rk 0 (by decide)]; exact h.ext j hj hb
  · exact h.bound
  · rw [rk 0 (by decide), rk 2 (by decide), r1]; exact hv
  · rw [rk 0 (by decide), rk 2 (by decide)]
    intro he k hk; rw [hs]; exact h.spill he k hk
  · intro j hj hb
    rw [rk 2 (by decide), r1]
    exact ⟨(h.big j hj hb).1, hbig j hj hb⟩
  · rw [rk 0 (by decide), rk 2 (by decide)]
    intro he k hk; rw [rk (k + 3) (by omega)]; exact h.words he k hk

/-- `bitsetHasMore` answers whether an offset is left; in the extension case a
positive answer leaves the scan index at the start of a non-zero spill word. -/
theorem BitsetRep.hasMore (B : Nat) (hB : B = 4 ∨ B = 8) (m : Mem) (p : Nat) (S : Finset Nat)
    (h : BitsetRep B m p S) :
    ((bitsetHasMore B m p).1 = true ↔ S.Nonempty) ∧
    BitsetRep B (bitsetHasMore B m p).2 p S ∧
    wordAt B (bitsetHasMore B m p).2 p 0 = wordAt B m p 0 ∧
    ((bitsetHasMore B m p).1 = true → wordAt B m p 0 = BitsetExtensionBit B →
      wordAt B (bitsetHasMore B m p).2 p 1 % BitsPerWord B = 0 ∧
      wordAt B (bitsetHasMore B m p).2 p 1 / BitsPerWord B < wordAt B (bitsetHasMore B m p).2 p 2 ∧
      wordAt B (bitsetHasMore B m p).2 p
        (wordAt B (bitsetHasMore B m p).2 p 1 / BitsPerWord B + 3) ≠ 0) := by
  have hB0 : 0 < B := by rcases hB with rfl | rfl <;> decide
  have hW : 8 ≤ BitsPerWord B := by rcases BitsPerWord_cases B hB with e | e <;> rw [e] <;> decide
  have hW0 : 0 < BitsPerWord B := by omega
  by_cases h0 : wordAt B m p 0 = 0
  · have e : bitsetHasMore B m p = (false, m) := by
      unfold bitsetHasMore; rw [if_pos h0]
    rw [e]
    refine ⟨?_, h, rfl, fun hc => by cases hc⟩
    constructor
    · intro hc; cases hc
    · rintro ⟨j, hj⟩
      exfalso
      by_cases hb : j < BitsPerWord B - 1
      · have := (h.low j hb).2 hj
        rw [h0] at this; simp at this
      · have := h.ext j hj (by omega)
        rw [h0] at this; simp at this
  · by_cases hE : wordAt B m p 0 = BitsetExtensionBit B
    · have e : bitsetHasMore B m p = bitsetHasMoreLoop B m p (wordAt B m p 2)
          (wordAt B m p 2 - wordOf B (wordAt B m p 1)) (wordOf B (wordAt B m p 1)) := by
        unfold bitsetHasMore; rw [if_neg h0, if_pos hE]
      rw [e]
      have he : (wordAt B m p 0).testBit (BitsPerWord B - 1) = true := by
        rw [hE, BitsetExtensionBit_eq]; exact Nat.testBit_two_pow_self
      have hnolow : ∀ j ∈ S, BitsPerWord B - 1 ≤ j := by
        intro j hj
        by_contra hc
        have := (h.low j (by omega)).2 hj
        rw [hE, BitsetExtensionBit_eq, Nat.testBit_two_pow] at this
        simp only [decide_eq_true_eq] at this
        omega
      obtain ⟨l1, l2⟩ := bitsetHasMoreLoop_spec B m p (wordAt B m p 2)
        (wordAt B m p 2 - wordOf B (wordAt B m p 1)) (wordOf B (wordAt B m p 1)) rfl
      generalize hr : bitsetHasMoreLoop B m p (wordAt B m p 2)
        (wordAt B m p 2 - wordOf B (wordAt B m p 1)) (wordOf B (wordAt B m p 1)) = r at l1 l2
      cases hr1 : r.1
      · -- nothing left
        obtain ⟨z, w, hw, hm⟩ := l2 hr1
        have hempty : ¬ S.Nonempty := by
          rintro ⟨j, hj⟩
          have hb := hnolow j hj
          obtain ⟨b1, b2⟩ := h.big j hj hb
          have hs := (h.spill he _ b1).2 (by
            have : j - (BitsPerWord B - 1) + (BitsPerWord B - 1) = j := by omega
            rw [this]; exact hj)
          have hz := z ((j - (BitsPerWord B - 1)) / BitsPerWord B)
            (by unfold wordOf; exact Nat.div_le_div_right b2)
            ((Nat.div_lt_iff_lt_mul hW0).2 b1)
          rw [spillBit_zero_word B m p _ hz] at hs
          cases hs
        have hidx : wordOf B (wordAt B m p 1) ≤ wordAt B m p 2 := by
          unfold wordOf
          have := h.idxb he
          exact Nat.div_le_of_le_mul (by rw [Nat.mul_comm]; exact this)
        have hwl := hw hidx
        have hrep : BitsetRep B r.2 p S := by
          apply h.mono_mem B hB0 m r.2 p S (indexOf B w 0) hm
          · intro _; rw [hwl]; unfold indexOf; omega
          · intro j hj _; exact absurd ⟨j, hj⟩ hempty
        refine ⟨?_, hrep, ?_, fun hc => by cases hc⟩
        · constructor
          · intro hc; cases hc
          · intro hc; exact absurd hc hempty
        · rw [hm]; exact wordAt_setWordAt_ne B hB0 _ _ _ _ _ (by decide)
      · obtain ⟨w, w1, w2, w3, w4, hm⟩ := l1 hr1
        have hwlt := h.words he w w2
        obtain ⟨b, hb⟩ := Nat.ne_zero_implies_bit_true w3
        have hbW : b < BitsPerWord B := by
          by_contra hc
          rw [testBit_false_of_lt B _ b hwlt (by omega)] at hb
          cases hb
        have hk : w * BitsPerWord B + b < wordAt B m p 2 * BitsPerWord B := by
          have : (w + 1) * BitsPerWord B ≤ wordAt B m p 2 * BitsPerWord B :=
            Nat.mul_le_mul_right _ w2
          rw [Nat.add_mul] at this
          omega
        have hin := (h.spill he _ hk).1 (spillBit_of_word B m p w b hbW hb)
        have hrep : BitsetRep B r.2 p S := by
          apply h.mono_mem B hB0 m r.2 p S (indexOf B w 0) hm
          · intro _; unfold indexOf
            have := Nat.mul_le_mul_right (BitsPerWord B) (Nat.le_of_lt w2)
            omega
          · intro j hj hjb
            obtain ⟨b1, b2⟩ := h.big j hj hjb
            unfold indexOf
            by_contra hc
            have hlt : (j - (BitsPerWord B - 1)) / BitsPerWord B < w :=
              (Nat.div_lt_iff_lt_mul hW0).2 (by omega)
            have hz := w4 _ (by unfold wordOf; exact Nat.div_le_div_right b2) hlt
            have hs := (h.spill he _ b1).2 (by
              have : j - (BitsPerWord B - 1) + (BitsPerWord B - 1) = j := by omega
              rw [this]; exact hj)
            rw [spillBit_zero_word B m p _ hz] at hs
            cases hs
        have r1 : wordAt B r.2 p 1 = w * BitsPerWord B := by
          rw [hm, wordAt_setWordAt_self]; unfold indexOf; omega
        have rk : ∀ k, k ≠ 1 → wordAt B r.2 p k = wordAt B m p k := by
          intro k hk; rw [hm]; exact wordAt_setWordAt_ne B hB0 _ _ _ _ _ hk
        refine ⟨?_, hrep, rk 0 (by decide), ?_⟩
        · constructor
          · intro _; exact ⟨_, hin⟩
          · intro _; rfl
        · intro _ _
          rw [r1, Nat.mul_mod_left, Nat.mul_div_cancel _ hW0, rk 2 (by decide),
            rk _ (by omega)]
          exact ⟨rfl, w2, w3⟩
    · have e : bitsetHasMore B m p = (true, m) := by
        unfold bitsetHasMore; rw [if_neg h0, if_neg hE]
      rw [e]
      refine ⟨?_, h, rfl, fun _ hc => absurd hc hE⟩
      constructor
      · intro _
        by_contra hc
        have hno : ∀ i, i < BitsPerWord B - 1 → (wordAt B m p 0).testBit i = false := by
          intro i hi
          by_contra ht
          exact hc ⟨i, (h.low i hi).1 (by simpa using ht)⟩
        rcases word_no_low B _ hW0 h.w0 hno with e | e
        · exact h0 e
        · exact hE e
      · intro _; rfl

theorem min'_eq_of (S : Finset Nat) (hne : S.Nonempty) (j : Nat) (hj : j ∈ S)
    (hmin : ∀ y ∈ S, j ≤ y) : S.min' hne = j :=
  le_antisymm (Finset.min'_le S j hj) (Finset.le_min' S hne j hmin)

/-- `bitsetNext` in the default case: the lowest bit of `p[0]` is returned and
cleared. -/
theorem BitsetRep.next_low (B : Nat) (hB : B = 4 ∨ B = 8) (m : Mem) (p : Nat) (S : Finset Nat)
    (h : BitsetRep B m p S) (hne : S.Nonempty) (h0 : wordAt B m p 0 ≠ 0)
    (hE : wordAt B m p 0 ≠ BitsetExtensionBit B) :
    ∃ m1, bitsetNextLow B m p (BitsPerWord B - 1) 0 = some (S.min' hne, m1) ∧
      BitsetRep B m1 p (S.erase (S.min' hne)) := by
  have hB0 : 0 < B := by rcases hB with rfl | rfl <;> decide
  have hW : 8 ≤ BitsPerWord B := by rcases BitsPerWord_cases B hB with e | e <;> rw [e] <;> decide
  have hW0 : 0 < BitsPerWord B := by omega
  have hex : ∃ b, 0 ≤ b ∧ b < BitsPerWord B - 1 ∧ (wordAt B m p 0).testBit b = true := by
    by_contra hc
    have hno : ∀ i, i < BitsPerWord B - 1 → (wordAt B m p 0).testBit i = false := by
      intro i hi
      by_contra ht
      exact hc ⟨i, Nat.zero_le _, hi, by simpa using ht⟩
    rcases word_no_low B _ hW0 h.w0 hno with e | e
    · exact h0 e
    · exact hE e
  obtain ⟨b, -, hb, ht, hmin, hres⟩ := bitsetNextLow_spec B m p (BitsPerWord B - 1) 0 rfl hex
  have hbS : b ∈ S := (h.low b hb).1 ht
  have hbmin : S.min' hne = b := by
    apply min'_eq_of S hne b hbS
    intro y hy
    by_contra hc
    have hy1 : y < b := by omega
    have := hmin y (Nat.zero_le _) hy1
    rw [(h.low y (by omega)).2 hy] at this
    cases this
  rw [hbmin]
  refine ⟨_, hres, ?_⟩
  rw [bitsetSet_low B m p b false hb]
  simp only [Bool.false_eq_true, if_false]
  have r0 : wordAt B (setWordAt B m p 0 (wordAt B m p 0 &&& wnot B (1 <<< b))) p 0
      = wordAt B m p 0 &&& wnot B (1 <<< b) := wordAt_setWordAt_self B m p 0 _
  have rk : ∀ k, k ≠ 0 → wordAt B (setWordAt B m p 0 (wordAt B m p 0 &&& wnot B (1 <<< b))) p k
      = wordAt B m p k := fun k hk => wordAt_setWordAt_ne B hB0 _ _ _ _ _ hk
  have hext : (wordAt B m p 0 &&& wnot B (1 <<< b)).testBit (BitsPerWord B - 1)
      = (wordAt B m p 0).testBit (BitsPerWord B - 1) := by
    rw [testBit_and_wnot B _ _ _ (by omega)]
    have e1 : decide (BitsPerWord B - 1 < BitsPerWord B) = true := by
      simp only [decide_eq_true_eq]; omega
    have e2 : decide (b = BitsPerWord B - 1) = false := by
      simp only [decide_eq_false_iff_not]; omega
    rw [e1, e2]; simp
  have hs : ∀ k, spillBit B (setWordAt B m p 0 (wordAt B m p 0 &&& wnot B (1 <<< b))) p k
      = spillBit B m p k := by
    intro k; unfold spillBit; rw [rk _ (Nat.succ_ne_zero _)]
  refine ⟨?_, ?_, ?_, ?_, ?_, ?_, ?_, ?_⟩
  · rw [r0]; exact and_wnot_lt B _ _ h.w0
  · intro i hi
    rw [r0, testBit_and_wnot B _ _ _ (by omega), Finset.mem_erase, ← h.low i hi]
    have e1 : decide (i < BitsPerWord B) = true := by
      simp only [decide_eq_true_eq]; omega
    rw [e1]
    simp only [Bool.true_and, Bool.and_eq_true, Bool.not_eq_true', decide_eq_false_iff_not]
    constructor
    · rintro ⟨a1, a2⟩; exact ⟨fun e => a2 e.symm, a1⟩
    · rintro ⟨a1, a2⟩; exact ⟨a2, fun e => a1 e.symm⟩
  · intro j hj hjb
    rw [r0, hext]; exact h.ext j (Finset.mem_of_mem_erase hj) hjb
  · intro j hj; exact h.bound j (Finset.mem_of_mem_erase hj)
  · rw [r0, hext, rk 1 (by decide), rk 2 (by decide)]; exact h.idxb
  · rw [r0, hext, rk 2 (by decide)]
    intro he k hk
    rw [hs, h.spill he k hk, Finset.mem_erase]
    constructor
    · intro a; exact ⟨by omega, a⟩
    · intro a; exact a.2
  · intro j hj hjb
    rw [rk 1 (by decide), rk 2 (by decide)]
    exact h.big j (Finset.mem_of_mem_erase hj) hjb
  · rw [r0, hext, rk 2 (by decide)]
    intro he k hk; rw [rk _ (Nat.succ_ne_zero _)]; exact h.words he k hk

/-- `bitsetNext` in the extension case: the lowest spill bit is returned and
cleared, and the scan index moves behind it. -/
theorem BitsetRep.next_spill (B : Nat) (hB : B = 4 ∨ B = 8) (m : Mem) (p : Nat) (S : Finset Nat)
    (h : BitsetRep B m p S) (hne : S.Nonempty) (hE : wordAt B m p 0 = BitsetExtensionBit B)
    (hi0 : wordAt B m p 1 % BitsPerWord B = 0)
    (hnz : wordAt B m p (wordAt B m p 1 / BitsPerWord B + 3) ≠ 0)
    (hlen : wordAt B m p 1 / BitsPerWord B < wordAt B m p 2) :
    ∃ m1, bitsetNextSpill B m p (wordOf B (wordAt B m p 1))
        (BitsPerWord B - bitOf B (wordAt B m p 1)) (bitOf B (wordAt B m p 1))
        = some (S.min' hne, m1) ∧
      BitsetRep B m1 p (S.erase (S.min' hne)) := by
  have hB0 : 0 < B := by rcases hB with rfl | rfl <;> decide
  have hW : 8 ≤ BitsPerWord B := by rcases BitsPerWord_cases B hB with e | e <;> rw [e] <;> decide
  have hW0 : 0 < BitsPerWord B := by omega
  have he : (wordAt B m p 0).testBit (BitsPerWord B - 1) = true := by
    rw [hE, BitsetExtensionBit_eq]; exact Nat.testBit_two_pow_self
  have hnolow : ∀ j ∈ S, BitsPerWord B - 1 ≤ j := by
    intro j hj
    by_contra hc
    have := (h.low j (by omega)).2 hj
    rw [hE, BitsetExtensionBit_eq, Nat.testBit_two_pow] at this
    simp only [decide_eq_true_eq] at this
    omega
  generalize hw : wordAt B m p 1 / BitsPerWord B = w at hnz hlen
  have hidx : wordAt B m p 1 = w * BitsPerWord B := by
    have := Nat.div_add_mod (wordAt B m p 1) (BitsPerWord B)
    rw [hi0, hw, Nat.mul_comm] at this
    omega
  have e1 : wordOf B (wordAt B m p 1) = w := hw
  have e2 : bitOf B (wordAt B m p 1) = 0 := hi0
  rw [e1, e2]
  have hwlt := h.words he w hlen
  have hex : ∃ b, 0 ≤ b ∧ b < BitsPerWord B ∧ (wordAt B m p (w + 3)).testBit b = true := by
    obtain ⟨b, hb⟩ := Nat.ne_zero_implies_bit_true hnz
    refine ⟨b, Nat.zero_le _, ?_, hb⟩
    by_contra hc
    rw [testBit_false_of_lt B _ b hwlt (by omega)] at hb
    cases hb
  obtain ⟨b, -, hb, ht, hmin, hres⟩ := bitsetNextSpill_spec B m p w (BitsPerWord B - 0) 0 rfl hex
  have hk : w * BitsPerWord B + b < wordAt B m p 2 * BitsPerWord B := by
    have : (w + 1) * BitsPerWord B ≤ wordAt B m p 2 * BitsPerWord B :=
      Nat.mul_le_mul_right _ hlen
    rw [Nat.add_mul] at this
    omega
  have hjS : w * BitsPerWord B + b + (BitsPerWord B - 1) ∈ S :=
    (h.spill he _ hk).1 (spillBit_of_word B m p w b hb ht)
  have hjb := h.bound _ hjS
  have hkmin : ∀ y ∈ S, w * BitsPerWord B + b ≤ y - (BitsPerWord B - 1) := by
    intro y hy
    have hyb := hnolow y hy
    obtain ⟨b1, b2⟩ := h.big y hy hyb
    by_contra hc
    have hs := (h.spill he _ b1).2 (by
      have : y - (BitsPerWord B - 1) + (BitsPerWord B - 1) = y := by omega
      rw [this]; exact hy)
    generalize hk1 : y - (BitsPerWord B - 1) = k1 at b1 b2 hc hs
    rw [hidx] at b2
    have hd : k1 / BitsPerWord B = w := by
      apply Nat.div_eq_of_lt_le
      · exact b2
      · rw [Nat.add_mul]; omega
    have hmm : k1 % BitsPerWord B < b := by
      have := Nat.div_add_mod k1 (BitsPerWord B)
      rw [hd, Nat.mul_comm] at this
      omega
    unfold spillBit at hs
    rw [hd, hmin _ (Nat.zero_le _) hmm] at hs
    cases hs
  have hjmin : S.min' hne = w * BitsPerWord B + b + (BitsPerWord B - 1) := by
    apply min'_eq_of S hne _ hjS
    intro y hy
    have := hkmin y hy
    have := hnolow y hy
    omega
  have r1 : wordAt B (setWordAt B m p 1 (indexOf B w b + 1)) p 1 = indexOf B w b + 1 :=
    wordAt_setWordAt_self _ _ _ _ _
  have hret : u32 (wordAt B (setWordAt B m p 1 (indexOf B w b + 1)) p 1 + BitsPerWord B - 2)
      = w * BitsPerWord B + b + (BitsPerWord B - 1) := by
    rw [r1]; unfold indexOf u32
    have : w * BitsPerWord B + b + 1 + BitsPerWord B - 2
        = w * BitsPerWord B + b + (BitsPerWord B - 1) := by omega
    rw [this]
    exact Nat.mod_eq_of_lt (by omega)
  rw [hret] at hres
  rw [hjmin]
  refine ⟨_, hres, ?_⟩
  rw [bitsetSet_big_false B hB _ p _ (by omega) hjb]
  have hkk : w * BitsPerWord B + b + (BitsPerWord B - 1) - (BitsPerWord B - 1)
      = w * BitsPerWord B + b := by omega
  rw [hkk, mul_add_div_eq _ _ _ hb, mul_add_mod_eq _ _ _ hb]
  generalize hm2 : setWordAt B m p 1 (indexOf B w b + 1) = m2
  have a1 : wordAt B m2 p 1 = w * BitsPerWord B + b + 1 := by
    rw [← hm2, wordAt_setWordAt_self]; rfl
  have ak : ∀ k, k ≠ 1 → wordAt B m2 p k = wordAt B m p k := by
    intro k hk; rw [← hm2]; exact wordAt_setWordAt_ne B hB0 _ _ _ _ _ hk
  generalize hm3 : setWordAt B m2 p (w + 3) (wordAt B m2 p (w + 3) &&& wnot B (1 <<< b)) = m3
  have c3 : ∀ k, wordAt B m3 p (k + 3) =
      if k = w then wordAt B m p (k + 3) &&& wnot B (1 <<< b) else wordAt B m p (k + 3) := by
    intro k
    rw [← hm3, wordAt_setWordAt B hB0]
    by_cases e : k = w
    · rw [if_pos (by rw [e]), if_pos e, ak _ (by omega), e]
    · rw [if_neg (by omega), if_neg e, ak _ (by omega)]
  have ck : ∀ k, k < 3 → wordAt B m3 p k = wordAt B m2 p k := by
    intro k hk; rw [← hm3]
    exact wordAt_setWordAt_ne B hB0 _ _ _ _ _ (by omega)
  have c0 : wordAt B m3 p 0 = wordAt B m p 0 := by rw [ck 0 (by decide), ak 0 (by decide)]
  have c1 : wordAt B m3 p 1 = w * BitsPerWord B + b + 1 := by rw [ck 1 (by decide), a1]
  have c2 : wordAt B m3 p 2 = wordAt B m p 2 := by rw [ck 2 (by decide), ak 2 (by decide)]
  refine ⟨?_, ?_, ?_, ?_, ?_, ?_, ?_, ?_⟩
  · rw [c0]; exact h.w0
  · intro i hi
    rw [c0, h.low i hi, Finset.mem_erase]
    constructor
    · intro a; exact ⟨by omega, a⟩
    · intro a; exact a.2
  · intro j hj hjb2
    rw [c0]; exact h.ext j (Finset.mem_of_mem_erase hj) hjb2
  · intro j hj; exact h.bound j (Finset.mem_of_mem_erase hj)
  · rw [c1, c2]; intro _; omega
  · rw [c0, c2]
    intro _ k hk
    unfold spillBit
    rw [c3, Finset.mem_erase]
    have hs := h.spill he k hk
    unfold spillBit at hs
    by_cases e : k / BitsPerWord B = w
    · rw [if_pos e, testBit_and_wnot B _ _ _ hb, Bool.and_eq_true, hs]
      have e1 : decide (k % BitsPerWord B < BitsPerWord B) = true := by
        simp only [decide_eq_true_eq]; exact Nat.mod_lt _ hW0
      rw [e1]
      simp only [Bool.true_and, Bool.not_eq_true', decide_eq_false_iff_not]
      have hkd := Nat.div_add_mod k (BitsPerWord B)
      rw [e, Nat.mul_comm] at hkd
      constructor
      · rintro ⟨a1, a2⟩; exact ⟨by omega, a1⟩
      · rintro ⟨a1, a2⟩; exact ⟨a2, by omega⟩
    · rw [if_neg e, hs]
      constructor
      · intro a
        refine ⟨?_, a⟩
        intro e3
        apply e
        have : k = w * BitsPerWord B + b := by omega
        rw [this]; exact mul_add_div_eq _ _ _ hb
      · intro a; exact a.2
  · intro j hj hjb2
    rw [c1, c2]
    have hj1 := Finset.mem_of_mem_erase hj
    have hj2 := Finset.ne_of_mem_erase hj
    refine ⟨(h.big j hj1 hjb2).1, ?_⟩
    have := hkmin j hj1
    omega
  · rw [c0, c2]
    intro _ k hk
    rw [c3]
    split
    · exact and_wnot_lt B _ _ (h.words he k hk)
    · exact h.words he k hk

/-- `bitsetNext` returns the least offset left and removes it. -/
theorem BitsetRep.next (B : Nat) (hB : B = 4 ∨ B = 8) (m : Mem) (p : Nat) (S : Finset Nat)
    (h : BitsetRep B m p S) (hne : S.Nonempty) :
    ∃ m1, bitsetNext B m p = some (S.min' hne, m1) ∧
      BitsetRep B m1 p (S.erase (S.min' hne)) := by
  obtain ⟨a1, a2, a3, a4⟩ := h.hasMore B hB m p S
  have hr : (bitsetHasMore B m p).1 = true := a1.2 hne
  unfold bitsetNext
  simp only []
  generalize bitsetHasMore B m p = r at a1 a2 a3 a4 hr ⊢
  have h0 : wordAt B r.2 p 0 ≠ 0 := by
    intro e
    have := (a2.hasMore B hB r.2 p S).1
    have e2 : bitsetHasMore B r.2 p = (false, r.2) := by
      unfold bitsetHasMore; rw [if_pos e]
    rw [e2] at this
    have := this.2 hne
    cases this
  simp only [hr, Bool.true_eq_false, if_false, h0]
  by_cases hE : wordAt B r.2 p 0 = BitsetExtensionBit B
  · obtain ⟨b1, b2, b3⟩ := a4 hr (by rw [← a3]; exact hE)
    have hlt : wordOf B (wordAt B r.2 p 1) < wordAt B r.2 p 2 := b2
    rw [if_pos hE, if_pos hlt]
    exact a2.next_spill B hB r.2 p S hne hE b1 b3 b2
  · rw [if_neg hE]
    exact a2.next_low B hB r.2 p S hne h0 hE

theorem BitsetRep.drain (B : Nat) (hB : B = 4 ∨ B = 8) (p : Nat) :
    ∀ (n : Nat) (S : Finset Nat) (m : Mem), S.card = n → BitsetRep B m p S →
      ∃ m1, bitsetDrain B p n m = some (S.sort (· ≤ ·), m1) ∧ BitsetRep B m1 p ∅ := by
  intro n
  induction n with
  | zero =>
    intro S m hc h
    have : S = ∅ := Finset.card_eq_zero.1 hc
    subst this
    exact ⟨m, by simp [bitsetDrain], h⟩
  | succ n ih =>
    intro S m hc h
    have hne : S.Nonempty := Finset.card_pos.1 (by omega)
    obtain ⟨m1, h1, h2⟩ := h.next B hB m p S hne
    have hc2 : (S.erase (S.min' hne)).card = n := by
      rw [Finset.card_erase_of_mem (Finset.min'_mem S hne)]; omega
    obtain ⟨m2, h3, h4⟩ := ih _ m1 hc2 h2
    refine ⟨m2, ?_, h4⟩
    have hs : S.sort (· ≤ ·) = S.min' hne :: (S.erase (S.min' hne)).sort (· ≤ ·) := by
      have e : S = insert (S.min' hne) (S.erase (S.min' hne)) :=
        (Finset.insert_erase (Finset.min'_mem S hne)).symm
      conv_lhs => rw [e]
      exact Finset.sort_insert _ (fun b hb => Finset.min'_le S b (Finset.mem_of_mem_erase hb))
        (Finset.not_mem_erase _ _)
    simp only [bitsetDrain, h1, h3, hs]

/-- C8 (amended): starting from an all-zero bitset region, for every sequence
of `bitsetSet(p, i, true)` calls with distinct offsets `i`, in any order, such
that `i + 2 * BitsPerWord + 1` fits the type `unsigned`, repeated `bitsetNext`
returns each offset exactly once, in ascending order, and after the last one
`bitsetHasMore` returns false; the extension bit of word 0 is set exactly when
an offset of at least `BitsPerWord - 1` has been inserted. -/
theorem bitset_round_trip (B : Nat) (hB : B = 4 ∨ B = 8) (m : Mem) (p : Nat) (l : List Nat)
    (hz : ∀ k, wordAt B m p k = 0) (hd : l.Nodup)
    (hb : ∀ i ∈ l, i + BitsPerWord B * 2 + 1 < 2 ^ 32) :
    (∃ out m1, bitsetDrain B p l.length (bitsetSetAll B p m l) = some (out, m1) ∧
      out.Sorted (· < ·) ∧ (∀ i, i ∈ out ↔ i ∈ l) ∧ (bitsetHasMore B m1 p).1 = false) ∧
    ((wordAt B (bitsetSetAll B p m l) p 0).testBit (BitsPerWord B - 1) = true ↔
      ∃ i ∈ l, BitsPerWord B - 1 ≤ i) := by
  have hbuilt := BitsetBuilt.setAll B hB p l m ∅ (BitsetBuilt.zero B m p hz) hb
  rw [Finset.empty_union] at hbuilt
  have hrep := BitsetBuilt.rep B hB _ _ _ hbuilt
  have hcard : l.toFinset.card = l.length := List.toFinset_card_of_nodup hd
  obtain ⟨m1, h1, h2⟩ := BitsetRep.drain B hB p l.length l.toFinset _ hcard hrep
  constructor
  · refine ⟨_, m1, h1, Finset.sort_sorted_lt _, ?_, ?_⟩
    · intro i; rw [Finset.mem_sort, List.mem_toFinset]
    · have := (h2.hasMore B hB m1 p ∅).1
      cases hc : (bitsetHasMore B m1 p).1
      · rfl
      · have := this.1 hc
        simp at this
  · rw [hbuilt.ext]
    constructor
    · rintro ⟨j, hj, h3⟩; exact ⟨j, List.mem_toFinset.1 hj, h3⟩
    · rintro ⟨j, hj, h3⟩; exact ⟨j, List.mem_toFinset.2 hj, h3⟩

/-- Witness of C8: the offsets 0, 5, 40, 100 on a 32 bit target are returned as
0, 5, 40, 100; the extension bit of word 0 is clear after the insertions of 0 and
5 and set from the insertion of 40 onwards. -/
theorem bitset_round_trip_witness :
    ((∃ out m1, bitsetDrain 4 1000 4 (bitsetSetAll 4 1000 (fun _ => 0) [0, 5, 40, 100])
        = some (out, m1) ∧
      out.Sorted (· < ·) ∧ (∀ i, i ∈ out ↔ i ∈ [0, 5, 40, 100]) ∧
      (bitsetHasMore 4 m1 1000).1 = false) ∧
    ((wordAt 4 (bitsetSetAll 4 1000 (fun _ => 0) [0, 5, 40, 100]) 1000 0).testBit
        (BitsPerWord 4 - 1) = true ↔ ∃ i ∈ [0, 5, 40, 100], BitsPerWord 4 - 1 ≤ i)) ∧
    (bitsetDrain 4 1000 4 (bitsetSetAll 4 1000 (fun _ => 0) [0, 5, 40, 100])).map Prod.fst
      = some [0, 5, 40, 100] ∧
    (wordAt 4 (bitsetSetAll 4 1000 (fun _ => 0) [0]) 1000 0).testBit 31 = false ∧
    (wordAt 4 (bitsetSetAll 4 1000 (fun _ => 0) [0, 5]) 1000 0).testBit 31 = false ∧
    (wordAt 4 (bitsetSetAll 4 1000 (fun _ => 0) [0, 5, 40]) 1000 0).testBit 31 = true ∧
    (wordAt 4 (bitsetSetAll 4 1000 (fun _ => 0) [0, 5, 40, 100]) 1000 0).testBit 31 = true :=
  ⟨bitset_round_trip 4 (Or.inl rfl) (fun _ => 0) 1000 [0, 5, 40, 100] (fun _ => rfl)
      (by decide) (by decide),
    by decide, by decide, by decide, by decide, by decide⟩

/-- Counterexample to C8 as stated (every `N`): on a 32 bit target the offset
`2 ^ 32 - 65` wraps around in `bitsetSet`, and `bitsetNext` returns 0. -/
theorem bitset_round_trip_wraps :
    (bitsetDrain 4 1000 1 (bitsetSetAll 4 1000 (fun _ => 0) [4294967231])).map Prod.fst
      = some [0] := by decide

end Heap

namespace Heap

open CollectionType

@[simp] theorem shape_mem (c : Context) (m : Mem) : ({ c with mem := m }).shape = c.shape := rfl

@[simp] theorem shape_gen2Base (c : Context) (b : Nat) :
    ({ c with gen2Base := b }).shape = c.shape := rfl

@[simp] theorem shape_mem_tenure (c : Context) (m : Mem) (t : Nat) :
    ({ c with mem := m, tenureFootprint := t }).shape = c.shape := rfl

theorem allocate_shape (B : Nat) (s s1 : Segment) (size dst : Nat)
    (h : s.allocate B size = some (dst, s1)) :
    s1.data = s.data ∧ s1.capacity = s.capacity ∧ s1.map = s.map := by
  unfold Segment.allocate at h
  split at h
  · simp only [Option.some.injEq, Prod.mk.injEq] at h
    obtain ⟨-, rfl⟩ := h
    exact ⟨rfl, rfl, rfl⟩
  · cases h

theorem copyTo_shape (B : Nat) (c c1 : Context) (g : Gen) (o size r : Nat) (hg : g ≠ Gen.gen1)
    (h : copyTo B c g o size = some (r, c1)) : c1.shape = c.shape := by
  unfold copyTo at h
  split at h
  · split at h
    · cases h
    · rename_i dst s hs
      simp only [Option.some.injEq, Prod.mk.injEq] at h
      obtain ⟨-, rfl⟩ := h
      obtain ⟨h1, h2, h3⟩ := allocate_shape B _ _ _ _ hs
      cases g
      · exact absurd rfl hg
      all_goals
        simp only [Context.seg] at h1 h2 h3
        simp only [Context.shape, Context.setSeg, Client.copy, h1, h2, h3]
  · cases h

theorem copy2_shape (B : Nat) (c c1 : Context) (o r : Nat) (h : copy2 B c o = some (r, c1)) :
    c1.shape = c.shape := by
  unfold copy2 at h
  simp only at h
  split at h
  · split at h
    · exact copyTo_shape B _ _ _ _ _ _ (by decide) h
    · cases h
  · split at h
    · split at h
      · cases h
      · split at h
        · split at h
          · split at h
            · have := copyTo_shape B _ _ _ _ _ _ (by decide) h
              rw [this]
              split <;> rfl
            · cases h
          · exact copyTo_shape B _ _ _ _ _ _ (by decide) h
        · split at h
          · cases h
          · rename_i o1 c2 hc
            split at h
            · cases h
            · simp only [Option.some.injEq, Prod.mk.injEq] at h
              obtain ⟨-, rfl⟩ := h
              have := copyTo_shape B _ _ _ _ _ _ (by decide) hc
              rw [← this]; rfl
    · split at h
      · split at h
        · cases h
        · rename_i o1 c2 hc
          split at h
          · cases h
          · simp only [Option.some.injEq, Prod.mk.injEq] at h
            obtain ⟨-, rfl⟩ := h
            have := copyTo_shape B _ _ _ _ _ _ (by decide) hc
            rw [← this]; rfl
      · cases h

theorem copy_shape (B : Nat) (c c1 : Context) (o r : Nat) (h : copy B c o = some (r, c1)) :
    c1.shape = c.shape := by
  unfold copy at h
  split at h
  · cases h
  · rename_i r1 c2 hc
    simp only [Option.some.injEq, Prod.mk.injEq] at h
    obtain ⟨-, rfl⟩ := h
    rw [shape_mem]; exact copy2_shape B _ _ _ _ hc

theorem update3_shape (B : Nat) (c c1 : Context) (o r : Nat) (nv : Bool)
    (h : update3 B c o = some (r, nv, c1)) : c1.shape = c.shape := by
  unfold update3 at h
  split at h
  · simp only [Option.map_eq_some'] at h
    obtain ⟨a, -, h2⟩ := h
    simp only [Prod.mk.injEq] at h2
    rw [← h2.2.2]
  · simp only [Option.map_eq_some'] at h
    obtain ⟨⟨a, b⟩, h1, h2⟩ := h
    simp only [Prod.mk.injEq] at h2
    rw [← h2.2.2]; exact copy_shape B _ _ _ _ h1

theorem update2_shape (B : Nat) (c c1 : Context) (o r : Nat) (nv : Bool)
    (h : update2 B c o = some (r, nv, c1)) : c1.shape = c.shape := by
  unfold update2 at h
  split at h
  · simp only [Option.some.injEq, Prod.mk.injEq] at h
    rw [← h.2.2]
  · exact update3_shape B _ _ _ _ _ h

theorem update_shape (B : Nat) (c c1 : Context) (p r : Nat) (nv : Bool)
    (h : update B c p = some (r, nv, c1)) : c1.shape = c.shape := by
  unfold update at h
  split at h
  · simp only [Option.some.injEq, Prod.mk.injEq] at h
    rw [← h.2.2]
  · split at h
    · cases h
    · rename_i r1 nv1 c2 hu
      have h2 := update2_shape B _ _ _ _ _ hu
      split at h
      · split at h
        · split at h
          · simp only [Option.map_eq_some'] at h
            obtain ⟨m, -, e⟩ := h
            simp only [Prod.mk.injEq] at e
            rw [← e.2.2, shape_mem, h2]
          · simp only [Option.some.injEq, Prod.mk.injEq] at h
            rw [← h.2.2, h2]
        · split at h
          · simp only [Option.map_eq_some'] at h
            obtain ⟨m, -, e⟩ := h
            simp only [Prod.mk.injEq] at e
            rw [← e.2.2, shape_mem, h2]
          · simp only [Option.some.injEq, Prod.mk.injEq] at h
            rw [← h.2.2, h2]
      · simp only [Option.some.injEq, Prod.mk.injEq] at h
        rw [← h.2.2, h2]

theorem visit_shape (B : Nat) (copy bs : Nat) (c c1 : Context) (w w1 : Walker) (offset : Nat)
    (h : Walker.visit B copy bs c w offset = some (c1, w1)) : c1.shape = c.shape := by
  unfold Walker.visit at h
  split at h
  · cases h
  · rename_i childCopy nv c2 hu
    have h2 := update_shape B _ _ _ _ _ hu
    simp only [Option.some.injEq, Prod.mk.injEq] at h
    rw [← h.1, shape_mem, h2]

theorem walkDown_shape (B : Nat) (copy bs : Nat) (l : List Nat) :
    ∀ (c c1 : Context) (w w1 : Walker), walkDown B copy bs l c w = some (c1, w1) →
      c1.shape = c.shape := by
  induction l with
  | nil =>
    intro c c1 w w1 h
    simp only [walkDown, Option.some.injEq, Prod.mk.injEq] at h
    rw [h.1]
  | cons a l ih =>
    intro c c1 w w1 h
    simp only [walkDown] at h
    split at h
    · cases h
    · rename_i c2 w2 hv
      rw [ih _ _ _ _ h, visit_shape B _ _ _ _ _ _ _ hv]

theorem collectVisit_shape (B : Nat) :
    ∀ (n : Nat) (c c1 : Context) (original par : Nat),
      collectVisit B n c original par = some c1 → c1.shape = c.shape := by
  intro n
  induction n with
  | zero => intro c c1 original par h; cases h
  | succ n ih =>
    intro c c1 original par h
    unfold collectVisit at h
    split at h
    · rename_i copy bs hf hb
      split at h
      · cases h
      · rename_i c2 w hw
        have h2 := walkDown_shape B _ _ _ _ _ _ _ hw
        split at h
        · split at h
          · cases h
          · rename_i c3 par2 hp
            have h3 : c3.shape = c2.shape := by
              split at hp
              · simp only [Option.map_eq_some'] at hp
                obtain ⟨pp, -, e⟩ := hp
                simp only [Prod.mk.injEq] at e
                rw [← e.1]; rfl
              · simp only [Option.some.injEq, Prod.mk.injEq] at hp
                rw [← hp.1]
            simp only at h
            split at h
            · cases h
            · rw [ih _ _ _ _ h, shape_mem, h3, h2]
        · split at h
          · split at h
            · rename_i pcopy pbs hpf hpb
              split at h
              · cases h
              · rename_i total next m2 hup
                split at h
                · split at h
                  · cases h
                  · rename_i r hr
                    simp only at h
                    split at h
                    · cases h
                    · split at h
                      · cases h
                      · rw [ih _ _ _ _ h, shape_mem, shape_mem, h2]
                · cases h
            · cases h
          · simp only [Option.some.injEq] at h
            rw [← h, h2]
    · cases h

theorem collectSlot_shape (B fuel : Nat) (c c1 : Context) (p : Nat)
    (h : collectSlot B fuel c p = some c1) : c1.shape = c.shape := by
  unfold collectSlot at h
  simp only at h
  split at h
  · cases h
  · rename_i r nv c2 hu
    have h2 := update_shape B _ _ _ _ _ hu
    split at h
    · rw [collectVisit_shape B _ _ _ _ _ h, shape_mem, h2]
    · simp only [Option.some.injEq] at h
      rw [← h, shape_mem, h2]

theorem collectMapLoop_shape (B fuel : Nat) (mp : Map)
    (child : Option (Context → Nat → Nat → Option (Context × Bool))) (expectDirty : Bool)
    (hch : ∀ scan, child = some scan → ∀ c s e c1 d, scan c s e = some (c1, d) →
      c1.shape = c.shape) :
    ∀ (n : Nat) (c : Context) (it : Iterator) (wasDirty dirty : Bool) (c1 : Context) (d : Bool),
      collectMapLoop B fuel mp child expectDirty n c it wasDirty dirty = some (c1, d) →
      c1.shape = c.shape := by
  intro n
  induction n with
  | zero => intro c it wd d c1 d1 h; cases h
  | succ n ih =>
    intro c it wd d c1 d1 h
    unfold collectMapLoop at h
    simp only at h
    split at h
    · split at h
      · cases h
      · rename_i s it1 hn
        split at h
        · rename_i scan
          split at h
          · split at h
            · cases h
            · rename_i m1 hm1
              split at h
              · cases h
              · rename_i c2 childDirty hs
                have h2 := hch scan rfl _ _ _ _ _ hs
                split at h
                · split at h
                  · cases h
                  · rw [ih _ _ _ _ _ _ h, shape_mem, h2, shape_mem]
                · rw [ih _ _ _ _ _ _ h, h2, shape_mem]
          · cases h
        · split at h
          · split at h
            · cases h
            · rename_i p hp
              split at h
              · cases h
              · rename_i m1 hm1
                split at h
                · split at h
                  · cases h
                  · rw [ih _ _ _ _ _ _ h, shape_mem]
                · split at h
                  · cases h
                  · rename_i c2 hs
                    have h2 := collectSlot_shape B _ _ _ _ hs
                    split at h
                    · split at h
                      · cases h
                      · rw [ih _ _ _ _ _ _ h, shape_mem, h2, shape_mem]
                    · rw [ih _ _ _ _ _ _ h, h2, shape_mem]
          · cases h
    · split at h
      · simp only [Option.some.injEq, Prod.mk.injEq] at h
        rw [← h.1]
      · cases h

theorem collectMap_shape (B fuel : Nat) (mp : Map) :
    ∀ (expectDirty : Bool) (c : Context) (start e : Nat) (dirty : Bool) (c1 : Context) (d : Bool),
      collectMap B fuel mp expectDirty c start e dirty = some (c1, d) → c1.shape = c.shape := by
  induction mp with
  | leaf b s cl =>
    intro ed c start e dirty c1 d h
    unfold collectMap collectMapWith at h
    split at h
    · cases h
    · exact collectMapLoop_shape B fuel _ _ _ (fun scan hs => by cases hs) _ _ _ _ _ _ _ h
  | node b s cl ch ih =>
    intro ed c start e dirty c1 d h
    unfold collectMap collectMapWith at h
    split at h
    · cases h
    · refine collectMapLoop_shape B fuel _ _ _ ?_ _ _ _ _ _ _ _ h
      intro scan hs c2 s2 e2 c3 d3 h3
      simp only [Option.some.injEq] at hs
      rw [← hs] at h3
      exact ih _ _ _ _ _ _ _ h3

theorem visitRoots_shape (B fuel : Nat) (l : List Nat) :
    ∀ (c c1 : Context), visitRoots B fuel l c = some c1 → c1.shape = c.shape := by
  induction l with
  | nil =>
    intro c c1 h
    simp only [visitRoots, Option.some.injEq] at h
    rw [h]
  | cons a l ih =>
    intro c c1 h
    simp only [visitRoots] at h
    split at h
    · cases h
    · rename_i c2 hs
      rw [ih _ _ h, collectSlot_shape B _ _ _ _ hs]

theorem collect2_shape (B fuel : Nat) (c c1 : Context) (h : collect2 B fuel c = some c1) :
    c1.shape = c.shape := by
  unfold collect2 at h
  simp only at h
  split at h
  · cases h
  · rename_i c2 hc
    rw [visitRoots_shape B _ _ _ _ h]
    split at hc
    · simp only [Option.map_eq_some'] at hc
      obtain ⟨⟨c3, d⟩, h1, h2⟩ := hc
      simp only at h2
      rw [← h2, collectMap_shape B _ _ _ _ _ _ _ _ _ h1]
      rfl
    · simp only [Option.some.injEq] at hc
      rw [← hc]; rfl

/-! ## Mode selection of `collect` -/

theorem initNextGen1_frame (B : Nat) (c c1 : Context) (footprint : Nat)
    (h : initNextGen1 B c footprint = some c1) :
    c1.mode = c.mode ∧ c1.gen1 = c.gen1 ∧ c1.gen2 = c.gen2 ∧ c1.nextGen2 = c.nextGen2 ∧
      c1.client = c.client := by
  unfold initNextGen1 at h
  simp only at h
  split at h
  · cases h
  · simp only [Option.some.injEq] at h
    rw [← h]
    exact ⟨rfl, rfl, rfl, rfl, rfl⟩

theorem initNextGen2_frame (B P : Nat) (c c1 : Context) (h : initNextGen2 B P c = some c1) :
    c1.mode = c.mode ∧ c1.gen1 = c.gen1 ∧ c1.gen2 = c.gen2 ∧ c1.nextGen1 = c.nextGen1 ∧
      c1.client = c.client := by
  unfold initNextGen2 at h
  simp only at h
  split at h
  · cases h
  · simp only [Option.some.injEq] at h
    rw [← h]
    exact ⟨rfl, rfl, rfl, rfl, rfl⟩

theorem replaceWith_storage (t s t1 s1 : Segment) (h : t.replaceWith s = some (t1, s1)) :
    t1.data = s.data ∧ t1.position = s.position ∧ t1.capacity = s.capacity ∧
      s1.data = 0 ∧ s1.position = 0 ∧ s1.capacity = 0 := by
  unfold Segment.replaceWith at h
  split at h
  · split at h
    · split at h
      · simp only [Option.some.injEq, Prod.mk.injEq] at h
        obtain ⟨rfl, rfl⟩ := h
        exact ⟨rfl, rfl, rfl, rfl, rfl, rfl⟩
      · cases h
    · cases h
  · simp only [Option.some.injEq, Prod.mk.injEq] at h
    obtain ⟨rfl, rfl⟩ := h
    exact ⟨rfl, rfl, rfl, rfl, rfl, rfl⟩

/-- C7 (mode escalation): when `collect(kind, client, footprint)` returns, the
mode executed, which is the mode `collect2` ran in and the value
`collectionType()` returns afterwards, is Major if and only if `kind` is Major
or `tenureFootprint > gen2.remaining` held at entry.  gen1 is replaced by the
segment `initNextGen1` built; in a Major execution gen2 is replaced by the
segment `initNextGen2` built, in a Minor execution the storage of gen2 stays in
place. -/
theorem collect_mode_escalation (B P fuel : Nat) (c : Context) (type : CollectionType)
    (client : Client) (footprint : Nat) (c1 : Context)
    (h : MyHeap.collect B P fuel c type client footprint = some c1) :
    (MyHeap.collectionType c1 = MajorCollection ↔
      (type = MajorCollection ∨ c.tenureFootprint > c.gen2.remaining)) ∧
    ∃ a b d, initNextGen1 B { c with mode := executedMode c type, client := client } footprint
        = some a ∧
      (executedMode c type = MajorCollection → initNextGen2 B P a = some b) ∧
      (executedMode c type = MinorCollection → b = a) ∧
      collect2 B fuel b = some d ∧
      b.mode = executedMode c type ∧ d.mode = executedMode c type ∧
      MyHeap.collectionType c1 = executedMode c type ∧
      c1.gen1.data = a.nextGen1.data ∧ c1.gen1.capacity = a.nextGen1.capacity ∧
      c1.gen1.position = d.nextGen1.position ∧
      (executedMode c type = MajorCollection →
        c1.gen2.data = b.nextGen2.data ∧ c1.gen2.capacity = b.nextGen2.capacity ∧
        c1.gen2.position = d.nextGen2.position) ∧
      (executedMode c type = MinorCollection →
        c1.gen2.data = c.gen2.data ∧ c1.gen2.capacity = c.gen2.capacity) := by
  have hstart : (if ({ c with mode := type, client := client } : Context).tenureFootprint >
        ({ c with mode := type, client := client } : Context).gen2.remaining then
        { ({ c with mode := type, client := client } : Context) with mode := MajorCollection }
      else ({ c with mode := type, client := client } : Context))
      = { c with mode := executedMode c type, client := client } := by
    unfold executedMode
    by_cases h1 : c.tenureFootprint > c.gen2.remaining
    · simp [h1]
    · cases type <;> simp [h1]
  unfold MyHeap.collect Heap.collect at h
  rw [hstart] at h
  dsimp only at h
  split at h
  · cases h
  · rename_i a ha
    obtain ⟨a1, a2, a3, a4, a5⟩ := initNextGen1_frame B _ _ _ ha
    replace a1 : a.mode = executedMode c type := a1
    replace a3 : a.gen2 = c.gen2 := a3
    split at h
    · cases h
    · rename_i b hb
      have hbm : b.mode = executedMode c type ∧ b.gen2 = c.gen2 ∧ b.nextGen1 = a.nextGen1 := by
        split at hb
        · obtain ⟨b1, b2, b3, b4, b5⟩ := initNextGen2_frame B P _ _ hb
          exact ⟨by rw [b1, a1], by rw [b3, a3], b4⟩
        · simp only [Option.some.injEq] at hb
          rw [← hb]; exact ⟨a1, a3, rfl⟩
      split at h
      · cases h
      · rename_i d hd
        have hs := collect2_shape B fuel _ _ hd
        have hdm : d.mode = b.mode := congrArg Shape.mode hs
        have hd1 : (d.nextGen1.data, d.nextGen1.capacity, d.nextGen1.map)
            = (b.nextGen1.data, b.nextGen1.capacity, b.nextGen1.map) := congrArg Shape.nextGen1 hs
        have hd2 : (d.nextGen2.data, d.nextGen2.capacity, d.nextGen2.map)
            = (b.nextGen2.data, b.nextGen2.capacity, b.nextGen2.map) := congrArg Shape.nextGen2 hs
        have hd3 : (d.gen2.data, d.gen2.capacity, d.gen2.map)
            = (b.gen2.data, b.gen2.capacity, b.gen2.map) := congrArg Shape.gen2 hs
        simp only [Prod.mk.injEq] at hd1 hd2 hd3
        split at h
        · cases h
        · rename_i g1 ng1 hr1
          obtain ⟨r1, r2, r3, -, -, -⟩ := replaceWith_storage _ _ _ _ hr1
          have hexec : (executedMode c type = MajorCollection ↔
              (type = MajorCollection ∨ c.tenureFootprint > c.gen2.remaining)) := by
            unfold executedMode
            split
            · simp_all
            · simp_all
          have hmaj : a.mode = MajorCollection → initNextGen2 B P a = some b := by
            intro hm; simpa [hm] using hb
          have hmin : executedMode c type = MinorCollection → b = a := by
            intro hm
            have : ¬ a.mode = MajorCollection := by rw [a1, hm]; decide
            simp only [this, if_false, Option.some.injEq] at hb
            exact hb.symm
          split at h
          · rename_i hmode
            have hmode2 : executedMode c type = MajorCollection := by
              rw [← hbm.1, ← hdm]; exact hmode
            split at h
            · cases h
            · rename_i g2 ng2 hr2
              obtain ⟨q1, q2, q3, -, -, -⟩ := replaceWith_storage _ _ _ _ hr2
              simp only [Option.some.injEq] at h
              rw [← h]
              refine ⟨?_, a, b, d, ha, fun _ => hmaj (by rw [a1, hmode2]), hmin, hd, hbm.1,
                (by rw [hdm, hbm.1]), ?_, ?_, ?_, ?_, ?_, ?_⟩
              · simp only [MyHeap.collectionType]
                rw [← hexec, ← hbm.1, ← hdm]
              · simp only [MyHeap.collectionType]; rw [hdm, hbm.1]
              · simp only; rw [r1, hd1.1, hbm.2.2]
              · simp only; rw [r3, hd1.2.1, hbm.2.2]
              · simp only; rw [r2]
              · intro _
                simp only
                exact ⟨by rw [q1, hd2.1], by rw [q3, hd2.2.1], q2⟩
              · intro hm; rw [hmode2] at hm; cases hm
          · rename_i hmode
            have hmode2 : executedMode c type = MinorCollection := by
              have : d.mode ≠ MajorCollection := hmode
              rw [hdm, hbm.1] at this
              cases hx : executedMode c type
              · rfl
              · exact absurd hx this
            simp only [Option.some.injEq] at h
            rw [← h]
            refine ⟨?_, a, b, d, ha, (fun hm => by rw [hmode2] at hm; cases hm), hmin, hd, hbm.1,
              (by rw [hdm, hbm.1]), ?_, ?_, ?_, ?_, ?_, ?_⟩
            · simp only [MyHeap.collectionType]
              rw [← hexec, hdm, hbm.1]
            · simp only [MyHeap.collectionType]; rw [hdm, hbm.1]
            · simp only; rw [r1, hd1.1, hbm.2.2]
            · simp only; rw [r3, hd1.2.1, hbm.2.2]
            · simp only; rw [r2]
            · intro hm; rw [hmode2] at hm; cases hm
            · intro _
              simp only
              exact ⟨by rw [hd3.1, hbm.2.1], by rw [hd3.2.1, hbm.2.1]⟩

end Heap

namespace Heap

open CollectionType

/-- Witness of C4: a forwarded object whose first word holds the address of a
copy in nextGen1. -/
theorem follow_idempotent_witness :
    (exampleNextGen1 (fun a => if a = 2000 then 1008 else 0)).Aligned 4 ∧
    MyHeap.follow 4 (exampleNextGen1 (fun a => if a = 2000 then 1008 else 0)) 2000 = 1008 ∧
    MyHeap.follow 4 (exampleNextGen1 (fun a => if a = 2000 then 1008 else 0))
      (MyHeap.follow 4 (exampleNextGen1 (fun a => if a = 2000 then 1008 else 0)) 2000)
      = MyHeap.follow 4 (exampleNextGen1 (fun a => if a = 2000 then 1008 else 0)) 2000 :=
  ⟨⟨by decide, by decide, by decide, by decide⟩, by decide,
    follow_idempotent 4 (by decide) (exampleNextGen1 (fun a => if a = 2000 then 1008 else 0))
      ⟨by decide, by decide, by decide, by decide⟩ 2000⟩

/-- Counterexample to C10 as stated: the slot at address 1000 lies in gen2 and
holds the word 1, a null pointer with tag bit 1; `needsMark` returns true. -/
theorem needsMark_tagged_null :
    mask 4 ((exampleGen2 (fun a => if a = 1000 then 1 else 0)).mem 1000) = 0 ∧
    MyHeap.needsMark 4 (exampleGen2 (fun a => if a = 1000 then 1 else 0)) 1000 = true := by
  decide

/-- Witness of C10 (amended): a slot of gen2 holding a pointer out of gen2. -/
theorem needsMark_iff_witness :
    MyHeap.needsMark 4 (exampleGen2 (fun a => if a = 1000 then 5000 else 0)) 1000 = true ∧
    ((exampleGen2 (fun a => if a = 1000 then 5000 else 0)).mem 1000 ≠ 0 ∧
      (exampleGen2 (fun a => if a = 1000 then 5000 else 0)).gen2.contains 4 1000 = true ∧
      (exampleGen2 (fun a => if a = 1000 then 5000 else 0)).gen2.contains 4
        (mask 4 ((exampleGen2 (fun a => if a = 1000 then 5000 else 0)).mem 1000)) = false) :=
  ⟨by decide,
    (needsMark_iff 4 (by decide) (exampleGen2 (fun a => if a = 1000 then 5000 else 0))
      (by decide) 1000).1 (by decide)⟩

theorem exampleRun_succ (k : Nat) :
    exampleRun (k + 1) =
      match exampleRun k with
      | none => none
      | some c => MyHeap.collect 4 4096 10 c MinorCollection c.client 0 := rfl

set_option maxRecDepth 100000 in
/-- Witness of C7: the first collection of the example stays Minor; the fifth,
requested as Minor with `tenureFootprint = 4` and no room in gen2, executes as
Major. -/
theorem collect_mode_escalation_witness :
    (∃ c1, MyHeap.collect 4 4096 10 exampleContext MinorCollection exampleClient 4 = some c1 ∧
      MyHeap.collectionType c1 = MinorCollection) ∧
    (∃ c c1, exampleRun 3 = some c ∧ c.tenureFootprint > c.gen2.remaining ∧
      MyHeap.collect 4 4096 10 c MinorCollection c.client 0 = some c1 ∧
      MyHeap.collectionType c1 = MajorCollection) := by
  constructor
  · obtain ⟨c1, h⟩ := Option.isSome_iff_exists.1
      (by decide : (MyHeap.collect 4 4096 10 exampleContext MinorCollection exampleClient 4).isSome
        = true)
    refine ⟨c1, h, ?_⟩
    have := (collect_mode_escalation 4 4096 10 exampleContext MinorCollection exampleClient 4 c1 h).1
    cases hm : MyHeap.collectionType c1
    · rfl
    · have h2 := this.1 hm
      revert h2
      decide
  · obtain ⟨c, h⟩ := Option.isSome_iff_exists.1 (by decide! : (exampleRun 3).isSome = true)
    have h4 : (exampleRun 4).isSome = true := by decide!
    have ht : ((exampleRun 3).map fun c => decide (c.tenureFootprint > c.gen2.remaining))
        = some true := by decide!
    rw [h] at ht
    simp only [Option.map_some', Option.some.injEq, decide_eq_true_eq] at ht
    have e4 : exampleRun 4 = MyHeap.collect 4 4096 10 c MinorCollection c.client 0 := by
      rw [exampleRun_succ 3, h]
    rw [e4] at h4
    obtain ⟨c1, h1⟩ := Option.isSome_iff_exists.1 h4
    exact ⟨c, c1, h, ht, h1,
      (collect_mode_escalation 4 4096 10 c MinorCollection c.client 0 c1 h1).1.2 (Or.inr ht)⟩

end Heap

namespace Heap

/-! ## Single bits of a map -/

theorem word_bit_eq_iff (B : Nat) (k i : Nat) :
    (wordOf B k = wordOf B i ∧ bitOf B k = bitOf B i) ↔ k = i :=
  div_mod_eq_iff (BitsPerWord B) k i

theorem bitOf_lt (B : Nat) (hB : 0 < B) (k : Nat) : bitOf B k < BitsPerWord B :=
  Nat.mod_lt _ (by unfold BitsPerWord; omega)

theorem Map.setBit_eq (B : Nat) (s : Segment) (mp : Map) (m : Mem) (i : Nat)
    (h : wordOf B i < mp.sizeNow B s) :
    mp.setBit B s m i = some (setWordAt B m (mp.data B s) (wordOf B i)
      (wordAt B m (mp.data B s) (wordOf B i) ||| (1 <<< bitOf B i))) := by
  unfold Map.setBit; rw [if_pos h]

theorem Map.clearBit_eq (B : Nat) (s : Segment) (mp : Map) (m : Mem) (i : Nat)
    (h : wordOf B i < mp.sizeNow B s) :
    mp.clearBit B s m i = some (setWordAt B m (mp.data B s) (wordOf B i)
      (wordAt B m (mp.data B s) (wordOf B i) &&& wnot B (1 <<< bitOf B i))) := by
  unfold Map.clearBit; rw [if_pos h]

theorem setWordAt_frame (B : Nat) (m : Mem) (p k v a : Nat) (h : a ≠ p + k * B) :
    setWordAt B m p k v a = m a := by
  unfold setWordAt Mem.write; rw [if_neg h]

theorem Map.bit_setWord_or (B : Nat) (hB : 0 < B) (s : Segment) (mp : Map) (m : Mem) (i k : Nat) :
    mp.bit B s (setWordAt B m (mp.data B s) (wordOf B i)
      (wordAt B m (mp.data B s) (wordOf B i) ||| (1 <<< bitOf B i))) k
      = (decide (k = i) || mp.bit B s m k) := by
  unfold Map.bit
  rw [wordAt_setWordAt B hB]
  by_cases hw : wordOf B k = wordOf B i
  · rw [if_pos hw, testBit_or_one_shiftLeft, hw, Bool.or_comm]
    congr 1
    by_cases hb : bitOf B i = bitOf B k
    · have : k = i := (word_bit_eq_iff B k i).1 ⟨hw, hb.symm⟩
      simp [hb, this]
    · have : k ≠ i := fun e => hb (by rw [e])
      simp [hb, this]
  · rw [if_neg hw]
    have : k ≠ i := fun e => hw (by rw [e])
    simp [this]

theorem Map.bit_setWord_and (B : Nat) (hB : 0 < B) (s : Segment) (mp : Map) (m : Mem) (i k : Nat) :
    mp.bit B s (setWordAt B m (mp.data B s) (wordOf B i)
      (wordAt B m (mp.data B s) (wordOf B i) &&& wnot B (1 <<< bitOf B i))) k
      = (!decide (k = i) && mp.bit B s m k) := by
  unfold Map.bit
  rw [wordAt_setWordAt B hB]
  by_cases hw : wordOf B k = wordOf B i
  · rw [if_pos hw, testBit_and_wnot B _ _ _ (bitOf_lt B hB i), hw]
    have hlt : decide (bitOf B k < BitsPerWord B) = true := by
      simp only [decide_eq_true_eq]; exact bitOf_lt B hB k
    rw [hlt, Bool.true_and, Bool.and_comm]
    congr 1
    by_cases hb : bitOf B i = bitOf B k
    · have : k = i := (word_bit_eq_iff B k i).1 ⟨hw, hb.symm⟩
      simp [hb, this]
    · have : k ≠ i := fun e => hb (by rw [e])
      simp [hb, this]
  · rw [if_neg hw]
    have : k ≠ i := fun e => hw (by rw [e])
    simp [this]

theorem Map.inArea_word (B : Nat) (s : Segment) (mp : Map) (w : Nat) (h : w < mp.sizeNow B s)
    (hB : 0 < B) : mp.inArea B s (mp.data B s + w * B) := by
  unfold Map.inArea
  refine ⟨Nat.le_add_right _ _, ?_⟩
  have : (w + 1) * B ≤ mp.sizeNow B s * B := Nat.mul_le_mul_right B h
  rw [Nat.add_mul] at this
  omega

/-- Writing one bit of a map: the bit written, the other bits, and the memory
outside the backing words of the map. -/
theorem Map.writeBit_spec (B : Nat) (hB : 0 < B) (s : Segment) (mp : Map) (m : Mem) (i : Nat)
    (b : Bool) (h : wordOf B i < mp.sizeNow B s) :
    ∃ m1, (if b then mp.setBit B s m i else mp.clearBit B s m i) = some m1 ∧
      (∀ a, ¬ mp.inArea B s a → m1 a = m a) ∧
      (∀ k, mp.bit B s m1 k = if k = i then b else mp.bit B s m k) := by
  cases b
  · refine ⟨_, by simp only [Bool.false_eq_true, if_false]; exact Map.clearBit_eq B s mp m i h, ?_, ?_⟩
    · intro a ha
      apply setWordAt_frame
      intro e; apply ha; rw [e]; exact Map.inArea_word B s mp _ h hB
    · intro k
      rw [Map.bit_setWord_and B hB]
      by_cases e : k = i <;> simp [e]
  · refine ⟨_, by simp only [if_true]; exact Map.setBit_eq B s mp m i h, ?_, ?_⟩
    · intro a ha
      apply setWordAt_frame
      intro e; apply ha; rw [e]; exact Map.inArea_word B s mp _ h hB
    · intro k
      rw [Map.bit_setWord_or B hB]
      by_cases e : k = i <;> simp [e]

/-- The loop of `setOnlyIndex` writes the bits `index .. i` with the binary
digits of `v`, the lowest digit at `i`. -/
theorem Map.setBits_spec (B : Nat) (hB : 0 < B) (s : Segment) (mp : Map) (index : Nat) :
    ∀ (n : Nat) (m : Mem) (i v : Nat), index ≤ i → i < index + n →
      (∀ j, index ≤ j → j ≤ i → wordOf B j < mp.sizeNow B s) →
      ∃ m1, mp.setBits B s index n m i v = some m1 ∧
        (∀ a, ¬ mp.inArea B s a → m1 a = m a) ∧
        (∀ k, mp.bit B s m1 k =
          if index ≤ k ∧ k ≤ i then decide (v / 2 ^ (i - k) % 2 = 1) else mp.bit B s m k) := by
  intro n
  induction n with
  | zero => intro m i v h1 h2; omega
  | succ n ih =>
    intro m i v h1 h2 hr
    obtain ⟨m1, e1, f1, b1⟩ := Map.writeBit_spec B hB s mp m i (decide (v % 2 = 1))
      (hr i h1 (Nat.le_refl _))
    have e1' : (if v % 2 = 1 then mp.setBit B s m i else mp.clearBit B s m i) = some m1 := by
      by_cases hv : v % 2 = 1
      · simpa [hv] using e1
      · simpa [hv] using e1
    unfold Map.setBits
    rw [e1']
    by_cases hi : i = index
    · simp only [hi, if_true]
      refine ⟨m1, rfl, f1, ?_⟩
      intro k
      rw [b1]
      by_cases hk : k = i
      · subst hi; subst hk; simp
      · have : ¬ (index ≤ k ∧ k ≤ index) := by omega
        rw [if_neg hk, if_neg this]
    · simp only [hi, if_false]
      obtain ⟨m2, e2, f2, b2⟩ := ih m1 (i - 1) (v / 2) (by omega) (by omega)
        (fun j h3 h4 => hr j h3 (by omega))
      refine ⟨m2, e2, fun a ha => by rw [f2 a ha, f1 a ha], ?_⟩
      intro k
      rw [b2, b1]
      by_cases hk : k = i
      · have : ¬ (index ≤ k ∧ k ≤ i - 1) := by omega
        rw [if_neg this, if_pos hk, if_pos (by omega)]
        subst hk; simp
      · by_cases hk2 : index ≤ k ∧ k ≤ i
        · rw [if_pos (by omega), if_pos hk2]
          have : i - k = (i - 1 - k) + 1 := by omega
          rw [this, Nat.pow_succ, Nat.mul_comm, ← Nat.div_div_eq_div_mul]
        · rw [if_neg (by omega), if_neg hk, if_neg hk2]

/-- The loop of `clearOnlyIndex` clears the bits `i .. i + n - 1`. -/
theorem Map.clearBits_spec (B : Nat) (hB : 0 < B) (s : Segment) (mp : Map) :
    ∀ (n : Nat) (m : Mem) (i : Nat),
      (∀ j, i ≤ j → j < i + n → wordOf B j < mp.sizeNow B s) →
      ∃ m1, mp.clearBits B s n m i = some m1 ∧
        (∀ a, ¬ mp.inArea B s a → m1 a = m a) ∧
        (∀ k, mp.bit B s m1 k = if i ≤ k ∧ k < i + n then false else mp.bit B s m k) := by
  intro n
  induction n with
  | zero =>
    intro m i _
    refine ⟨m, rfl, fun _ _ => rfl, fun k => ?_⟩
    rw [if_neg (by omega)]
  | succ n ih =>
    intro m i hr
    obtain ⟨m1, e1, f1, b1⟩ := Map.writeBit_spec B hB s mp m i false (hr i (Nat.le_refl _) (by omega))
    simp only [Bool.false_eq_true, if_false] at e1
    obtain ⟨m2, e2, f2, b2⟩ := ih m1 (i + 1) (fun j h1 h2 => hr j (by omega) (by omega))
    unfold Map.clearBits
    rw [e1]
    refine ⟨m2, e2, fun a ha => by rw [f2 a ha, f1 a ha], ?_⟩
    intro k
    rw [b2, b1]
    by_cases h1 : i + 1 ≤ k ∧ k < i + 1 + n
    · rw [if_pos h1, if_pos (by omega)]
    · rw [if_neg h1]
      by_cases h2 : k = i
      · rw [if_pos h2, if_pos (by omega)]
      · rw [if_neg h2, if_neg (by omega)]

theorem and_shift_bit (x b : Nat) :
    (x &&& (1 <<< b)) >>> b = if x.testBit b then 1 else 0 := by
  apply Nat.eq_of_testBit_eq
  intro j
  rw [Nat.testBit_shiftRight, Nat.testBit_and, Nat.one_shiftLeft, Nat.testBit_two_pow]
  by_cases hj : j = 0
  · subst hj
    simp only [Nat.add_zero, decide_True, Bool.and_true]
    cases hx : x.testBit b <;> simp
  · have : ¬ (b = b + j) := by omega
    simp only [this, decide_False, Bool.and_false]
    cases hx : x.testBit b
    · simp
    · simp only [if_true]
      rw [Nat.testBit_one_eq_true_iff_self_eq_zero.not.2 hj |> Bool.eq_false_iff.2]

theorem shl_or_bit (v : Nat) (b : Bool) :
    (v <<< 1) ||| (if b then 1 else 0) = 2 * v + (if b then 1 else 0) := by
  rw [Nat.shiftLeft_eq, Nat.pow_one, Nat.mul_comm]
  cases b
  · simp
  · simp only [if_true]
    have := Nat.mul_add_lt_is_or (i := 1) (b := 1) (by decide) v
    rw [Nat.pow_one] at this
    exact this.symm

/-- The loop of `Map::get` reads the bits as a binary number, as long as the
value fits the type `unsigned`. -/
theorem Map.getBits_eq_readBits (B : Nat) (s : Segment) (mp : Map) (m : Mem) :
    ∀ (n i v : Nat), (v + 1) * 2 ^ n ≤ 2 ^ 32 →
      mp.getBits B s m n i v = mp.readBits B s m n i v := by
  intro n
  induction n with
  | zero => intro i v _; rfl
  | succ n ih =>
    intro i v hv
    unfold Map.getBits Map.readBits
    have hbit : (wordAt B m (mp.data B s) (wordOf B i) &&& (1 <<< bitOf B i)) >>> bitOf B i
        = if mp.bit B s m i then 1 else 0 := and_shift_bit _ _
    rw [hbit]
    have h2 : 2 ^ (n + 1) = 2 * 2 ^ n := by rw [Nat.pow_succ, Nat.mul_comm]
    have hp : 0 < 2 ^ n := Nat.two_pow_pos n
    have hv1 : 2 * v + 2 ≤ 2 ^ 32 := by
      have h3 : (v + 1) * 2 ^ (n + 1) = (2 * v + 2) * 2 ^ n := by rw [h2]; ring
      have h4 : (2 * v + 2) * 1 ≤ (2 * v + 2) * 2 ^ n := Nat.mul_le_mul_left _ hp
      omega
    have e1 : u32 (v <<< 1) = v <<< 1 := by
      unfold u32
      apply Nat.mod_eq_of_lt
      rw [Nat.shiftLeft_eq, Nat.pow_one]; omega
    rw [e1, shl_or_bit]
    have hb : (if mp.bit B s m i then 1 else 0) ≤ 1 := by split <;> omega
    have e2 : u32 (2 * v + (if mp.bit B s m i then 1 else 0))
        = 2 * v + (if mp.bit B s m i then 1 else 0) := by
      unfold u32
      apply Nat.mod_eq_of_lt
      omega
    rw [e2]
    apply ih
    have : (2 * v + (if mp.bit B s m i then 1 else 0) + 1) ≤ 2 * (v + 1) := by omega
    calc (2 * v + (if mp.bit B s m i then 1 else 0) + 1) * 2 ^ n
        ≤ (2 * (v + 1)) * 2 ^ n := Nat.mul_le_mul_right _ this
      _ = (v + 1) * 2 ^ (n + 1) := by rw [h2]; ring
      _ ≤ 2 ^ 32 := hv

/-- Reading back the binary digits of `v`. -/
theorem Map.readBits_digits (B : Nat) (s : Segment) (mp : Map) (m : Mem) (v : Nat) :
    ∀ (n i acc : Nat),
      (∀ t, t < n → mp.bit B s m (i + t) = decide (v / 2 ^ (n - 1 - t) % 2 = 1)) →
      mp.readBits B s m n i acc = acc * 2 ^ n + v % 2 ^ n := by
  intro n
  induction n with
  | zero => intro i acc _; simp [Map.readBits, Nat.mod_one]
  | succ n ih =>
    intro i acc hb
    unfold Map.readBits
    have h0 := hb 0 (by omega)
    simp only [Nat.add_zero, Nat.add_sub_cancel, Nat.sub_zero] at h0
    rw [ih (i + 1) _ (fun t ht => by
      have := hb (t + 1) (by omega)
      have e : i + (t + 1) = i + 1 + t := by omega
      have e2 : n + 1 - 1 - (t + 1) = n - 1 - t := by omega
      rw [e, e2] at this
      exact this)]
    rw [h0, Nat.mod_pow_succ, Nat.pow_succ]
    by_cases hd : v / 2 ^ n % 2 = 1
    · simp only [hd, decide_True, if_true]; ring
    · have : v / 2 ^ n % 2 = 0 := by omega
      simp only [this, decide_False, Bool.false_eq_true, if_false]
      simp; ring

/-! ## Records of a map -/

theorem Segment.contains_iff (B : Nat) (s : Segment) (p : Nat) :
    s.contains B p = true ↔ s.position ≠ 0 ∧ s.data ≤ p ∧ p < s.data + s.position * B := by
  unfold Segment.contains
  simp only [Bool.and_eq_true, decide_eq_true_eq, ge_iff_le, and_assoc]

theorem Segment.index_lt (B : Nat) (hB : 0 < B) (s : Segment) (p : Nat)
    (h : s.contains B p = true) : (p - s.data) / B < s.position := by
  obtain ⟨-, h1, h2⟩ := (Segment.contains_iff B s p).1 h
  apply (Nat.div_lt_iff_lt_mul hB).2
  omega

theorem Segment.seg_indexOf_contains (B : Nat) (s : Segment) (p : Nat)
    (h : s.contains B p = true) : s.indexOf B p = some ((p - s.data) / B) := by
  unfold Segment.indexOf Segment.almostContains
  simp [h]

theorem Map.map_indexOf_contains (B : Nat) (s : Segment) (mp : Map) (p : Nat)
    (h : s.contains B p = true) (hc : s.position ≤ s.capacity) :
    mp.indexOf B s p = some (mp.recordIndex B s p) := by
  have hpos : s.position ≠ 0 := ((Segment.contains_iff B s p).1 h).1
  unfold Map.indexOf
  rw [if_pos ⟨by unfold Segment.almostContains; simp [h], by omega⟩,
    Segment.seg_indexOf_contains B s p h]
  rfl

theorem lt_ceiling (x n d : Nat) (hd : 0 < d) (h : x < n) : x / d < ceiling n d := by
  unfold ceiling
  have h1 : (x + d) / d ≤ (n + d - 1) / d := Nat.div_le_div_right (by omega)
  rw [Nat.add_div_right _ hd] at h1
  omega

/-- The bits of the record of an address in the segment lie in the backing
words of the map. -/
theorem Map.record_in_range (B : Nat) (hB : 0 < B) (s : Segment) (mp : Map) (p : Nat)
    (h : s.contains B p = true) (hc : s.position ≤ s.capacity) (hok : mp.LevelOK s) (j : Nat)
    (hj : j < mp.recordIndex B s p + mp.bitsPerRecord) :
    wordOf B j < mp.sizeNow B s ∧ mp.recordIndex B s p + mp.bitsPerRecord < 2 ^ 32 := by
  obtain ⟨hb1, hb2, hs1, hcap⟩ := hok
  have hidx := Segment.index_lt B hB s p h
  have hpos : s.position ≠ 0 := ((Segment.contains_iff B s p).1 h).1
  have hmax : max s.capacity 1 = s.capacity := by omega
  have h1 : (p - s.data) / B / mp.scale < ceiling s.capacity mp.scale :=
    lt_ceiling _ _ _ hs1 (by omega)
  have h2 : mp.recordIndex B s p + mp.bitsPerRecord
      ≤ ceiling s.capacity mp.scale * mp.bitsPerRecord := by
    unfold Map.recordIndex Map.indexOfIndex
    have := Nat.mul_le_mul_right mp.bitsPerRecord h1
    rw [Nat.succ_mul] at this
    exact this
  have h3 : ceiling s.capacity mp.scale ≤ s.capacity := by
    unfold ceiling
    apply Nat.div_le_of_le_mul
    obtain ⟨t, ht⟩ : ∃ t, mp.scale = t + 1 := ⟨mp.scale - 1, by omega⟩
    have hc1 : 1 ≤ s.capacity := by omega
    have : t * 1 ≤ t * s.capacity := Nat.mul_le_mul_left _ hc1
    rw [ht, Nat.add_mul]
    omega
  have h4 : ceiling s.capacity mp.scale * mp.bitsPerRecord ≤ s.capacity * mp.bitsPerRecord :=
    Nat.mul_le_mul_right _ h3
  constructor
  · unfold Map.sizeNow Map.size wordOf
    rw [hmax]
    exact lt_ceiling _ _ _ (by unfold BitsPerWord; omega) (by omega)
  · omega

/-- `setOnly` on an address of the segment: the bits of the record are the
binary digits of `v`, every other bit and the memory outside the backing words
of the map stay. -/
theorem Map.setOnly_spec (B : Nat) (hB : 0 < B) (s : Segment) (mp : Map) (m : Mem) (p v : Nat)
    (h : s.contains B p = true) (hc : s.position ≤ s.capacity) (hok : mp.LevelOK s) :
    ∃ m1, mp.setOnly B s m p v = some m1 ∧
      (∀ a, ¬ mp.inArea B s a → m1 a = m a) ∧
      (∀ k, mp.bit B s m1 k =
        if mp.recordIndex B s p ≤ k ∧ k < mp.recordIndex B s p + mp.bitsPerRecord then
          decide (v / 2 ^ (mp.recordIndex B s p + mp.bitsPerRecord - 1 - k) % 2 = 1)
        else mp.bit B s m k) := by
  have hb1 : 1 ≤ mp.bitsPerRecord := hok.1
  have hr := fun j hj => Map.record_in_range B hB s mp p h hc hok j hj
  have hlt := (hr (mp.recordIndex B s p) (by omega)).2
  have e1 : usub (u32 (mp.recordIndex B s p + mp.bitsPerRecord)) 1
      = mp.recordIndex B s p + mp.bitsPerRecord - 1 := by
    have : u32 (mp.recordIndex B s p + mp.bitsPerRecord)
        = mp.recordIndex B s p + mp.bitsPerRecord := Nat.mod_eq_of_lt hlt
    rw [this, usub_small _ _ (by omega) hlt]
  obtain ⟨m1, e, f, b⟩ := Map.setBits_spec B hB s mp (mp.recordIndex B s p) mp.bitsPerRecord m
    (mp.recordIndex B s p + mp.bitsPerRecord - 1) v (by omega) (by omega)
    (fun j _ h2 => (hr j (by omega)).1)
  refine ⟨m1, ?_, f, ?_⟩
  · unfold Map.setOnly Map.setOnlyIndex
    rw [Map.map_indexOf_contains B s mp p h hc]
    simp only [e1, e]
  · intro k
    rw [b]
    by_cases hk : mp.recordIndex B s p ≤ k ∧ k < mp.recordIndex B s p + mp.bitsPerRecord
    · rw [if_pos (by omega), if_pos hk]
    · rw [if_neg (by omega), if_neg hk]

/-- `clearOnly` on an address of the segment. -/
theorem Map.clearOnly_spec (B : Nat) (hB : 0 < B) (s : Segment) (mp : Map) (m : Mem) (p : Nat)
    (h : s.contains B p = true) (hc : s.position ≤ s.capacity) (hok : mp.LevelOK s) :
    ∃ m1, mp.clearOnly B s m p = some m1 ∧
      (∀ a, ¬ mp.inArea B s a → m1 a = m a) ∧
      (∀ k, mp.bit B s m1 k =
        if mp.recordIndex B s p ≤ k ∧ k < mp.recordIndex B s p + mp.bitsPerRecord then false
        else mp.bit B s m k) := by
  have hr := fun j hj => Map.record_in_range B hB s mp p h hc hok j hj
  obtain ⟨m1, e, f, b⟩ := Map.clearBits_spec B hB s mp mp.bitsPerRecord m (mp.recordIndex B s p)
    (fun j _ h2 => (hr j h2).1)
  refine ⟨m1, ?_, f, b⟩
  unfold Map.clearOnly Map.clearOnlyIndex
  rw [Map.map_indexOf_contains B s mp p h hc]
  simp only [e]

/-- `get` on an address of the segment reads the record as a binary number. -/
theorem Map.get_eq (B : Nat) (s : Segment) (mp : Map) (m : Mem) (p : Nat)
    (h : s.contains B p = true) (hc : s.position ≤ s.capacity) (hok : mp.LevelOK s) :
    mp.get B s m p = some (mp.readBits B s m mp.bitsPerRecord (mp.recordIndex B s p) 0) := by
  unfold Map.get
  rw [Map.map_indexOf_contains B s mp p h hc]
  simp only [Option.map_some', Option.some.injEq]
  apply Map.getBits_eq_readBits
  have : 2 ^ mp.bitsPerRecord ≤ 2 ^ 32 := Nat.pow_le_pow_right (by decide) hok.2.1
  omega

/-- Map record round trip: `get` after `setOnly` returns the value written,
reduced to the width of the record. -/
theorem Map.get_setOnly (B : Nat) (hB : 0 < B) (s : Segment) (mp : Map) (m m1 : Mem) (p v : Nat)
    (h : s.contains B p = true) (hc : s.position ≤ s.capacity) (hok : mp.LevelOK s)
    (hs : mp.setOnly B s m p v = some m1) :
    mp.get B s m1 p = some (v % 2 ^ mp.bitsPerRecord) := by
  obtain ⟨m2, e, -, b⟩ := Map.setOnly_spec B hB s mp m p v h hc hok
  rw [hs] at e
  simp only [Option.some.injEq] at e
  subst e
  rw [Map.get_eq B s mp m1 p h hc hok]
  have := Map.readBits_digits B s mp m1 v mp.bitsPerRecord (mp.recordIndex B s p) 0
    (fun t ht => by
      rw [b, if_pos (by omega)]
      have : mp.recordIndex B s p + mp.bitsPerRecord - 1 - (mp.recordIndex B s p + t)
          = mp.bitsPerRecord - 1 - t := by omega
      rw [this])
  rw [this]; simp

/-! ## Map hierarchies -/

theorem Map.footprint_eq (B : Nat) (mp : Map) (capacity : Nat) :
    mp.footprint B capacity = mp.size B capacity + mp.offset B capacity := by
  cases mp with
  | leaf b sc c => simp [Map.footprint, Map.offset, Map.child]
  | node b sc c ch => simp [Map.footprint, Map.offset, Map.child]

theorem Map.inArea_inFootprint (B : Nat) (s : Segment) (mp : Map) (a : Nat)
    (hcap : 1 ≤ s.capacity) (h : mp.inArea B s a) : mp.inFootprint B s a := by
  unfold Map.inArea Map.data Map.sizeNow at h
  unfold Map.inFootprint
  have hmax : max s.capacity 1 = s.capacity := by omega
  rw [hmax] at h
  rw [Map.footprint_eq]
  simp only [Nat.add_mul] at h ⊢
  omega

theorem Map.inFootprint_child (B : Nat) (s : Segment) (b sc : Nat) (c : Bool) (ch : Map) (a : Nat)
    (h : ch.inFootprint B s a) : (Map.node b sc c ch).inFootprint B s a := by
  unfold Map.inFootprint at h ⊢
  simp only [Map.footprint, Nat.add_mul] at h ⊢
  omega

/-- The backing words of a map lie above the backing words of its child
hierarchy. -/
theorem Map.inArea_not_child (B : Nat) (s : Segment) (b sc : Nat) (c : Bool) (ch : Map) (a : Nat)
    (h : (Map.node b sc c ch).inArea B s a) : ¬ ch.inFootprint B s a := by
  unfold Map.inArea Map.data at h
  unfold Map.inFootprint
  simp only [Map.offset, Map.child, Nat.add_mul] at h ⊢
  omega

theorem Map.bit_congr (B : Nat) (hB : 0 < B) (s : Segment) (mp : Map) (m m1 : Mem)
    (h : ∀ a, mp.inArea B s a → m1 a = m a) (k : Nat) (hk : wordOf B k < mp.sizeNow B s) :
    mp.bit B s m1 k = mp.bit B s m k := by
  unfold Map.bit wordAt
  rw [h _ (Map.inArea_word B s mp _ hk hB)]

theorem Map.AllLevels_mono (Q R : Map → Prop) (mp : Map) (h : ∀ l, Q l → R l)
    (hq : mp.AllLevels Q) : mp.AllLevels R := by
  induction mp with
  | leaf b sc c => exact h _ hq
  | node b sc c ch ih => exact ⟨h _ hq.1, ih hq.2⟩

/-- A level whose backing words are untouched keeps its bits. -/
theorem Map.RecordWritten_frame (B : Nat) (hB : 0 < B) (s : Segment) (m m1 m2 : Mem) (p v : Nat)
    (l : Map) (h : l.RecordWritten B s m m1 p v) (hf : ∀ a, l.inArea B s a → m2 a = m1 a) :
    l.RecordWritten B s m m2 p v := by
  intro k hk
  rw [Map.bit_congr B hB s l m1 m2 hf k hk]
  exact h k hk

/-- `Map::set` on an address of the segment writes the record of every level;
the memory outside the backing words of the hierarchy stays. -/
theorem Map.map_set_spec (B : Nat) (hB : 0 < B) (s : Segment) (p v : Nat)
    (h : s.contains B p = true) (hc : s.position ≤ s.capacity) :
    ∀ (mp : Map) (m : Mem), mp.AllLevels (Map.LevelOK s) →
      mp.AllLevels (fun l => v < 2 ^ l.bitsPerRecord) →
      ∃ m1, mp.set B s m p v = some m1 ∧
        (∀ a, ¬ mp.inFootprint B s a → m1 a = m a) ∧
        mp.AllLevels (fun l => l.RecordWritten B s m m1 p v ∧
          (∀ a, l.inArea B s a → mp.inFootprint B s a)) := by
  have hcap : 1 ≤ s.capacity := by
    have := ((Segment.contains_iff B s p).1 h).1
    omega
  intro mp
  induction mp with
  | leaf b sc c =>
    intro m hok hv
    obtain ⟨m1, e, f, bb⟩ := Map.setOnly_spec B hB s (Map.leaf b sc c) m p v h hc hok
    have hg := Map.get_setOnly B hB s _ m m1 p v h hc hok e
    rw [Nat.mod_eq_of_lt hv] at hg
    refine ⟨m1, ?_, ?_, ?_, ?_⟩
    · unfold Map.set; rw [e]; simp only [hg, if_true]
    · intro a ha; exact f a (fun h2 => ha (Map.inArea_inFootprint B s _ a hcap h2))
    · intro k _; exact bb k
    · intro a ha; exact Map.inArea_inFootprint B s _ a hcap ha
  | node b sc c ch ih =>
    intro m hok hv
    obtain ⟨m1, e, f, bb⟩ := Map.setOnly_spec B hB s (Map.node b sc c ch) m p v h hc hok.1
    have hg := Map.get_setOnly B hB s _ m m1 p v h hc hok.1 e
    rw [Nat.mod_eq_of_lt hv.1] at hg
    obtain ⟨m2, e2, f2, a2⟩ := ih m1 hok.2 hv.2
    refine ⟨m2, ?_, ?_, ⟨?_, ?_⟩, ?_⟩
    · unfold Map.set; rw [e]; simp only [hg, if_true]; exact e2
    · intro a ha
      rw [f2 a (fun h2 => ha (Map.inFootprint_child B s b sc c ch a h2))]
      exact f a (fun h2 => ha (Map.inArea_inFootprint B s _ a hcap h2))
    · apply Map.RecordWritten_frame B hB s m m1 m2 p v _ (fun k _ => bb k)
      intro a ha
      exact f2 a (Map.inArea_not_child B s b sc c ch a ha)
    · intro a ha; exact Map.inArea_inFootprint B s _ a hcap ha
    · refine Map.AllLevels_mono _ _ ch ?_ a2
      rintro l ⟨h1, h2⟩
      refine ⟨?_, fun a ha => Map.inFootprint_child B s b sc c ch a (h2 a ha)⟩
      intro k hk
      rw [h1 k hk]
      split
      · rfl
      · apply Map.bit_congr B hB s l m m1 _ k hk
        intro a ha
        exact f a (fun h3 => Map.inArea_not_child B s b sc c ch a h3 (h2 a ha))

/-- `Map::clear` on an address of the segment clears the record of every level
(used on the age map, which has one level). -/
theorem Map.clear_leaf_spec (B : Nat) (hB : 0 < B) (s : Segment) (m : Mem) (p : Nat)
    (b sc : Nat) (c : Bool)
    (h : s.contains B p = true) (hc : s.position ≤ s.capacity)
    (hok : (Map.leaf b sc c).LevelOK s) :
    ∃ m1, (Map.leaf b sc c).clear B s m p = some m1 ∧
      (∀ a, ¬ (Map.leaf b sc c).inFootprint B s a → m1 a = m a) ∧
      (Map.leaf b sc c).get B s m1 p = some 0 := by
  have hcap : 1 ≤ s.capacity := by
    have := ((Segment.contains_iff B s p).1 h).1
    omega
  obtain ⟨m1, e, f, bb⟩ := Map.clearOnly_spec B hB s (Map.leaf b sc c) m p h hc hok
  refine ⟨m1, by unfold Map.clear; exact e, ?_, ?_⟩
  · intro a ha; exact f a (fun h2 => ha (Map.inArea_inFootprint B s _ a hcap h2))
  · rw [Map.get_eq B s _ m1 p h hc hok]
    have := Map.readBits_digits B s (Map.leaf b sc c) m1 0 (Map.leaf b sc c).bitsPerRecord
      ((Map.leaf b sc c).recordIndex B s p) 0
      (fun t ht => by rw [bb, if_pos (by omega)]; simp)
    rw [this]; simp

end Heap

namespace Heap

open CollectionType

/-! ## Geometry of the heap during a collection -/

section Geometry

variable {B : Nat} {c0 c : Context} {G : Graph} {cp : List Nat}

theorem Start.B_pos (hs : Start B c0 G) : 0 < B := by
  rcases hs.hB with rfl | rfl <;> decide

theorem Inv.gen1_eq (hi : Inv B c0 G c cp) : c.gen1 = c0.gen1 :=
  congrArg Shape.gen1 hi.shape

theorem Inv.mode_eq (hi : Inv B c0 G c cp) : c.mode = c0.mode :=
  congrArg Shape.mode hi.shape

theorem Inv.seg_data (hi : Inv B c0 G c cp) (g : Gen) : (c.seg g).data = (c0.seg g).data := by
  have h1 := congrArg Shape.nextGen1 hi.shape
  have h2 := congrArg Shape.gen2 hi.shape
  have h3 := congrArg Shape.nextGen2 hi.shape
  have h4 := congrArg Shape.gen1 hi.shape
  simp only [Context.shape, Prod.mk.injEq] at h1 h2 h3 h4
  cases g
  · simp only [Context.seg]; rw [h4]
  · exact h1.1
  · exact h2.1
  · exact h3.1

theorem Inv.seg_capacity (hi : Inv B c0 G c cp) (g : Gen) :
    (c.seg g).capacity = (c0.seg g).capacity := by
  have h1 := congrArg Shape.nextGen1 hi.shape
  have h2 := congrArg Shape.gen2 hi.shape
  have h3 := congrArg Shape.nextGen2 hi.shape
  have h4 := congrArg Shape.gen1 hi.shape
  simp only [Context.shape, Prod.mk.injEq] at h1 h2 h3 h4
  cases g
  · simp only [Context.seg]; rw [h4]
  · exact h1.2.1
  · exact h2.2.1
  · exact h3.2.1

theorem Inv.mapOf_eq (hi : Inv B c0 G c cp) (g : Gen) : c.mapOf g = c0.mapOf g := by
  cases g
  · exact congrArg Shape.ageMap hi.shape
  · exact congrArg Shape.nextAgeMap hi.shape
  · exact congrArg Shape.heapMap hi.shape
  · exact congrArg Shape.nextHeapMap hi.shape

theorem Inv.inStorage_iff (hi : Inv B c0 G c cp) (g : Gen) (a : Nat) :
    c.inStorage B g a ↔ c0.inStorage B g a := by
  unfold Context.inStorage
  rw [hi.seg_data, hi.seg_capacity, hi.mapOf_eq]

/-- An address in destination space lies in the storage of nextGen1, nextGen2 or
gen2, and, in gen2, not in the words allocated when the traversals started. -/
theorem inToSpace_storage (a : Nat) (h : c0.inToSpace B a) :
    (c0.inStorage B Gen.nextGen1 a ∨ c0.inStorage B Gen.nextGen2 a ∨
      (c0.inStorage B Gen.gen2 a ∧ c0.gen2.data + c0.gen2.position * B ≤ a)) := by
  unfold Context.inToSpace at h
  unfold Context.inStorage
  simp only [Context.seg, Nat.add_mul]
  rcases h with h | h | h
  · left; omega
  · right; left; omega
  · right; right; omega

/-- No word of an object lies in destination space. -/
theorem Start.obj_not_toSpace (hs : Start B c0 G) (o : Nat) (ho : o ∈ G.objs) (a : Nat)
    (h1 : o ≤ a) (h2 : a < o + (G.lay o).size * B) : ¬ c0.inToSpace B a := by
  intro h
  have hseg := hs.seg_ok
  have hst := inToSpace_storage a h
  rcases hs.obj_loc o ho with hl | hl | hl
  · have hin : c0.inStorage B Gen.gen1 a := by
      unfold Context.holds at hl
      unfold Context.inStorage
      have := (hseg Gen.gen1).2.1
      have h3 : (c0.seg Gen.gen1).position * B ≤ (c0.seg Gen.gen1).capacity * B :=
        Nat.mul_le_mul_right B this
      simp only [Nat.add_mul]
      omega
    rcases hst with h3 | h3 | h3
    · exact hs.stor_disj Gen.gen1 Gen.nextGen1 (by decide) a hin h3
    · exact hs.stor_disj Gen.gen1 Gen.nextGen2 (by decide) a hin h3
    · exact hs.stor_disj Gen.gen1 Gen.gen2 (by decide) a hin h3.1
  · unfold Context.holds at hl
    have hin : c0.inStorage B Gen.gen2 a := by
      unfold Context.inStorage
      have := (hseg Gen.gen2).2.1
      have h3 : (c0.seg Gen.gen2).position * B ≤ (c0.seg Gen.gen2).capacity * B :=
        Nat.mul_le_mul_right B this
      simp only [Nat.add_mul]
      omega
    rcases hst with h3 | h3 | h3
    · exact hs.stor_disj Gen.gen2 Gen.nextGen1 (by decide) a hin h3
    · exact hs.stor_disj Gen.gen2 Gen.nextGen2 (by decide) a hin h3
    · simp only [Context.seg] at hl; omega
  · rcases hst with h3 | h3 | h3
    · exact hl _ a h1 h2 h3
    · exact hl _ a h1 h2 h3
    · exact hl _ a h1 h2 h3.1

/-- A copy lies in destination space. -/
theorem IsCopy.copy_toSpace (hi : Inv B c0 G c cp) (g : Gen) (hg : g ≠ Gen.gen1)
    (r size : Nat) (h : IsCopy B c0 c g r size) (a : Nat) (h1 : r ≤ a) (h2 : a < r + size * B) :
    c0.inToSpace B a := by
  obtain ⟨i, e, p1, p2⟩ := h
  have hp := (hi.pos g).2
  have hd := hi.seg_data g
  have hc := hi.seg_capacity g
  rw [hd] at e
  rw [hc] at hp
  have h3 : (i + size) * B ≤ (c0.seg g).capacity * B := Nat.mul_le_mul_right B (by omega)
  have h4 : (c0.seg g).position * B ≤ i * B := Nat.mul_le_mul_right B p1
  rw [Nat.add_mul] at h3
  unfold Context.inToSpace
  cases g
  · exact absurd rfl hg
  · left; simp only [Context.seg] at e h3; omega
  · right; right; simp only [Context.seg] at e h3 h4; omega
  · right; left; simp only [Context.seg] at e h3; omega

theorem mask_of_aligned (B x : Nat) (h : x % B = 0) : mask B x = x := by
  unfold mask
  have := Nat.div_add_mod x B
  rw [h, Nat.mul_comm] at this
  omega

theorem IsCopy.aligned (hs : Start B c0 G) (hi : Inv B c0 G c cp) (g : Gen) (r size : Nat)
    (h : IsCopy B c0 c g r size) : r % B = 0 := by
  obtain ⟨i, e, -, -⟩ := h
  rw [e, hi.seg_data, Nat.add_mul_mod_self_right]
  exact (hs.seg_ok g).1

/-- An address outside destination space is not fresh. -/
theorem Inv.not_fresh (hs : Start B c0 G) (hi : Inv B c0 G c cp) (a : Nat)
    (h : ¬ c0.inToSpace B a) : fresh B c a = false := by
  have hB := hs.B_pos
  unfold Context.inToSpace at h
  have p1 := hi.pos Gen.nextGen1
  have p2 := hi.pos Gen.nextGen2
  have p3 := hi.pos Gen.gen2
  have d1 := hi.seg_data Gen.nextGen1
  have d2 := hi.seg_data Gen.nextGen2
  have d3 := hi.seg_data Gen.gen2
  have k1 := hi.seg_capacity Gen.nextGen1
  have k2 := hi.seg_capacity Gen.nextGen2
  have k3 := hi.seg_capacity Gen.gen2
  have hcap := (hs.seg_ok Gen.gen2).2.2
  simp only [Context.seg] at p1 p2 p3 d1 d2 d3 k1 k2 k3 hcap
  have q1 : c.nextGen1.position * B ≤ c0.nextGen1.capacity * B :=
    Nat.mul_le_mul_right B (by omega)
  have q2 : c.nextGen2.position * B ≤ c0.nextGen2.capacity * B :=
    Nat.mul_le_mul_right B (by omega)
  have q3 : c.gen2.position * B ≤ c0.gen2.capacity * B :=
    Nat.mul_le_mul_right B (by omega)
  unfold fresh
  have e1 : c.nextGen1.contains B a = false := by
    by_contra hc
    have := (Segment.contains_iff B _ a).1 (by simpa using hc)
    omega
  have e2 : c.nextGen2.contains B a = false := by
    by_contra hc
    have := (Segment.contains_iff B _ a).1 (by simpa using hc)
    omega
  rw [e1, e2]
  simp only [Bool.false_or, Bool.and_eq_false_imp]
  intro hc
  rw [Segment.seg_indexOf_contains B _ a hc]
  simp only [decide_eq_false_iff_not, ge_iff_le, Nat.not_le]
  have hidx := Segment.index_lt B hB _ a hc
  have hcc := (Segment.contains_iff B _ a).1 hc
  rcases hi.base with ⟨b1, b2⟩ | ⟨b1, b2⟩
  · rw [b1]; unfold Top; omega
  · rw [b2]
    by_contra hge
    have h5 : c0.gen2.position * B ≤ a - c.gen2.data :=
      (Nat.le_div_iff_mul_le hB).1 (by omega)
    omega

/-- A copy is fresh. -/
theorem IsCopy.is_fresh (hs : Start B c0 G) (hi : Inv B c0 G c cp) (g : Gen) (hg : g ≠ Gen.gen1)
    (r size : Nat) (hsz : 1 ≤ size) (h : IsCopy B c0 c g r size) : fresh B c r = true := by
  have hB := hs.B_pos
  obtain ⟨i, e, p1, p2⟩ := h
  have hlt : i * B < (c.seg g).position * B := Nat.mul_lt_mul_of_pos_right (by omega) hB
  have hcont : (c.seg g).contains B r = true := by
    rw [Segment.contains_iff]
    exact ⟨by omega, by omega, by omega⟩
  unfold fresh
  cases g
  · exact absurd rfl hg
  · simp only [Context.seg] at hcont; simp [hcont]
  · simp only [Context.seg] at hcont e p1 p2
    rw [hcont, Segment.seg_indexOf_contains B _ r hcont]
    have hidx : (r - c.gen2.data) / B = i := by
      rw [e, Nat.add_sub_cancel_left, Nat.mul_div_cancel _ hB]
    rw [hidx]
    rcases hi.base with ⟨b1, b2⟩ | ⟨b1, b2⟩
    · omega
    · rw [b2]; simp [p1]
  · simp only [Context.seg] at hcont; simp [hcont]

/-- A copied object is forwarded. -/
theorem Inv.copied_wasCollected (hs : Start B c0 G) (hi : Inv B c0 G c cp) (o : Nat)
    (ho : o ∈ cp) : wasCollected B c o = true ∧ follow B c o = some (c.mem o) := by
  obtain ⟨h1, h2⟩ := hi.cp_sub o ho
  obtain ⟨o1, o2, o3, o4, o5, o6⟩ := hs.obj_ok o h1
  obtain ⟨f1, f2⟩ := hi.fwd o ho
  have hdest : dest B c0 G o ≠ Gen.gen1 := by
    unfold dest; split
    · decide
    · split
      · split
        · split <;> decide
        · decide
      · decide
  have hw : wasCollected B c o = true := by
    unfold wasCollected
    have e1 : fresh B c o = false :=
      hi.not_fresh hs o (hs.obj_not_toSpace o h1 o (Nat.le_refl _) (by
        have := Nat.mul_pos (show 0 < (G.lay o).size from o3) hs.B_pos
        omega))
    have e2 : get B c.mem o 0 = c.mem o := by
      unfold get
      rw [Nat.zero_mul, Nat.add_zero]
      exact mask_of_aligned B _ (f1.aligned hs hi)
    rw [e1, e2, f1.is_fresh hs hi _ hdest _ _ o3]
    simp [o1]
  exact ⟨hw, by unfold follow; rw [if_pos hw]⟩

/-- An object not yet copied is not forwarded. -/
theorem Inv.white_not_collected (hs : Start B c0 G) (hi : Inv B c0 G c cp) (o : Nat)
    (ho : o ∈ G.objs) (hm : movable B c0 o) (hw : o ∉ cp) : wasCollected B c o = false := by
  obtain ⟨o1, o2, o3, o4, o5, o6⟩ := hs.obj_ok o ho
  unfold wasCollected
  have e2 : get B c.mem o 0 = mask B (G.m0 o) := by
    unfold get
    have := hi.white o ho hw hm 0 (by omega)
    rw [Nat.zero_mul, Nat.add_zero] at this ⊢
    rw [this]
  rw [e2, hi.not_fresh hs _ (hs.first_word o ho hm)]
  simp

end Geometry

end Heap

namespace Heap

open CollectionType

/-! ## Copying an object -/

theorem copyWords_out (B : Nat) (hB : 0 < B) (m : Mem) (src dst : Nat) (n a : Nat)
    (h : a < dst ∨ dst + n * B ≤ a) : copyWords B m src dst n a = m a := by
  induction n with
  | zero => rfl
  | succ n ih =>
    unfold copyWords Mem.write
    have : a ≠ dst + n * B := by
      rw [Nat.succ_mul] at h
      omega
    rw [if_neg this]
    apply ih
    rw [Nat.succ_mul] at h
    omega

theorem copyWords_in (B : Nat) (hB : 0 < B) (m : Mem) (src dst : Nat) (n k : Nat) (hk : k < n) :
    copyWords B m src dst n (dst + k * B) = m (src + k * B) := by
  induction n with
  | zero => omega
  | succ n ih =>
    unfold copyWords Mem.write
    by_cases e : k = n
    · subst e; rw [if_pos rfl]
    · have hne : dst + k * B ≠ dst + n * B := by
        intro h2
        have : k * B = n * B := by omega
        exact e (Nat.eq_of_mul_eq_mul_right hB this)
      rw [if_neg hne]
      exact ih (by omega)

theorem Map.readBits_congr (B : Nat) (s : Segment) (mp : Map) (m m1 : Mem) :
    ∀ (n i v : Nat), (∀ t, t < n → mp.bit B s m1 (i + t) = mp.bit B s m (i + t)) →
      mp.readBits B s m1 n i v = mp.readBits B s m n i v := by
  intro n
  induction n with
  | zero => intro i v _; rfl
  | succ n ih =>
    intro i v h
    unfold Map.readBits
    have h0 := h 0 (by omega)
    rw [Nat.add_zero] at h0
    rw [h0]
    apply ih
    intro t ht
    have := h (t + 1) (by omega)
    rwa [show i + (t + 1) = i + 1 + t by omega] at this

/-- The record of an address depends on the backing words of the map only. -/
theorem Map.get_congr (B : Nat) (hB : 0 < B) (s : Segment) (mp : Map) (m m1 : Mem) (p : Nat)
    (h : s.contains B p = true) (hc : s.position ≤ s.capacity) (hok : mp.LevelOK s)
    (hm : ∀ a, mp.inArea B s a → m1 a = m a) :
    mp.get B s m1 p = mp.get B s m p := by
  rw [Map.get_eq B s mp m1 p h hc hok, Map.get_eq B s mp m p h hc hok]
  congr 1
  apply Map.readBits_congr
  intro t ht
  apply Map.bit_congr B hB s mp m m1 hm
  exact (Map.record_in_range B hB s mp p h hc hok _ (by omega)).1

theorem usub_le (a b : Nat) (h : b ≤ a) (ha : a < 2 ^ 32) : usub a b = a - b :=
  usub_small a b h ha

theorem copyTo_eq (B : Nat) (c : Context) (g : Gen) (o size : Nat) (h3 : size ≠ 0)
    (h1 : (c.seg g).position + size ≤ (c.seg g).capacity) (h2 : (c.seg g).capacity < 2 ^ 32) :
    copyTo B c g o size = some ((c.seg g).data + (c.seg g).position * B,
      c.afterCopyTo B g o size) := by
  unfold copyTo
  have hr : (c.seg g).remaining = (c.seg g).capacity - (c.seg g).position := by
    unfold Segment.remaining
    exact usub_small _ _ (by omega) h2
  have hu : u32 ((c.seg g).position + size) = (c.seg g).position + size :=
    Nat.mod_eq_of_lt (by omega)
  rw [if_pos (by rw [hr]; omega)]
  unfold Segment.allocate
  rw [if_pos ⟨h3, by rw [hu]; exact h1⟩, hu]
  rfl

theorem afterCopyTo_mem (B : Nat) (c : Context) (g : Gen) (o size : Nat) :
    (c.afterCopyTo B g o size).mem =
      copyWords B c.mem o ((c.seg g).data + (c.seg g).position * B) (c.client.layout o).size :=
  rfl

theorem afterCopyTo_layout (B : Nat) (c : Context) (g : Gen) (o size a : Nat) :
    (c.afterCopyTo B g o size).client.layout a =
      if a = (c.seg g).data + (c.seg g).position * B then c.client.layout o
      else c.client.layout a :=
  rfl

theorem afterCopyTo_seg (B : Nat) (c : Context) (g : Gen) (o size : Nat) :
    ((c.afterCopyTo B g o size).seg g).position = (c.seg g).position + size ∧
    ∀ g1, g1 ≠ g → (c.afterCopyTo B g o size).seg g1 = c.seg g1 := by
  cases g
  · exact ⟨rfl, fun g1 h => by cases g1 <;> first | rfl | exact absurd rfl h⟩
  · exact ⟨rfl, fun g1 h => by cases g1 <;> first | rfl | exact absurd rfl h⟩
  · exact ⟨rfl, fun g1 h => by cases g1 <;> first | rfl | exact absurd rfl h⟩
  · exact ⟨rfl, fun g1 h => by cases g1 <;> first | rfl | exact absurd rfl h⟩

/-! ## Regions of the heap -/

section Regions

variable {B : Nat} {c0 c : Context} {G : Graph} {cp : List Nat}

theorem inFootprint_storage (g : Gen) (a : Nat)
    (h : (c0.mapOf g).inFootprint B (c0.seg g) a) :
    c0.inStorage B g a ∧ (c0.seg g).data + (c0.seg g).capacity * B ≤ a := by
  unfold Map.inFootprint at h
  unfold Context.inStorage
  simp only [Nat.add_mul] at h ⊢
  omega

theorem inToSpace_data (a : Nat) (h : c0.inToSpace B a) :
    ∃ g, g ≠ Gen.gen1 ∧ c0.inStorage B g a ∧ a < (c0.seg g).data + (c0.seg g).capacity * B := by
  unfold Context.inToSpace at h
  unfold Context.inStorage
  rcases h with h | h | h
  · exact ⟨Gen.nextGen1, by decide, by simp only [Context.seg, Nat.add_mul]; omega, h.2⟩
  · exact ⟨Gen.nextGen2, by decide, by simp only [Context.seg, Nat.add_mul]; omega, h.2⟩
  · exact ⟨Gen.gen2, by decide, by simp only [Context.seg, Nat.add_mul]; omega, h.2⟩

theorem Start.not_footprint (hs : Start B c0 G) (g g1 : Gen) (a : Nat)
    (h1 : c0.inStorage B g a) (h2 : a < (c0.seg g).data + (c0.seg g).capacity * B) :
    ¬ (c0.mapOf g1).inFootprint B (c0.seg g1) a := by
  intro f
  have hf := inFootprint_storage g1 a f
  by_cases e : g = g1
  · subst e; omega
  · exact hs.stor_disj g g1 e a h1 hf.1

/-- An address in destination space lies in no map. -/
theorem Start.toSpace_not_maps (hs : Start B c0 G) (a : Nat) (h : c0.inToSpace B a) :
    ¬ c0.inMaps B a ∧ ¬ c0.ageMap.inFootprint B c0.gen1 a := by
  obtain ⟨g, -, h1, h2⟩ := inToSpace_data a h
  unfold Context.inMaps
  exact ⟨fun f => f.elim (hs.not_footprint g Gen.nextGen1 a h1 h2)
      (fun f => f.elim (hs.not_footprint g Gen.gen2 a h1 h2)
        (hs.not_footprint g Gen.nextGen2 a h1 h2)),
    hs.not_footprint g Gen.gen1 a h1 h2⟩

/-- No word of an object lies in a map. -/
theorem Start.obj_not_maps (hs : Start B c0 G) (o : Nat) (ho : o ∈ G.objs) (a : Nat)
    (h1 : o ≤ a) (h2 : a < o + (G.lay o).size * B) :
    ¬ c0.inMaps B a ∧ ¬ c0.ageMap.inFootprint B c0.gen1 a := by
  have hseg := hs.seg_ok
  have key : ∀ g1, ¬ (c0.mapOf g1).inFootprint B (c0.seg g1) a := by
    intro g1
    rcases hs.obj_loc o ho with hl | hl | hl
    · unfold Context.holds at hl
      have h3 : (c0.seg Gen.gen1).position * B ≤ (c0.seg Gen.gen1).capacity * B :=
        Nat.mul_le_mul_right B (hseg Gen.gen1).2.1
      exact hs.not_footprint Gen.gen1 g1 a
        (by unfold Context.inStorage; simp only [Nat.add_mul]; omega) (by omega)
    · unfold Context.holds at hl
      have h3 : (c0.seg Gen.gen2).position * B ≤ (c0.seg Gen.gen2).capacity * B :=
        Nat.mul_le_mul_right B (hseg Gen.gen2).2.1
      exact hs.not_footprint Gen.gen2 g1 a
        (by unfold Context.inStorage; simp only [Nat.add_mul]; omega) (by omega)
    · intro f
      exact hl _ a h1 h2 (inFootprint_storage g1 a f).1
  unfold Context.inMaps
  exact ⟨fun f => f.elim (key Gen.nextGen1) (fun f => f.elim (key Gen.gen2) (key Gen.nextGen2)),
    key Gen.gen1⟩

/-- Two ranges of words without a common address lie one after the other. -/
theorem ranges_apart (x n y k : Nat) (hn : 0 < n) (hk : 0 < k)
    (h : ∀ a, x ≤ a → a < x + n → y ≤ a → a < y + k → False) : x + n ≤ y ∨ y + k ≤ x := by
  by_contra hc
  by_cases hxy : x ≤ y
  · exact h y hxy (by omega) (Nat.le_refl _) (by omega)
  · exact h x (Nat.le_refl _) (by omega) (by omega) (by omega)

/-- For an address outside destination space, gen2 contains it now exactly when
it did at the start. -/
theorem Inv.gen2_contains (hi : Inv B c0 G c cp) (a : Nat)
    (h : ¬ c0.inToSpace B a) : c.gen2.contains B a = c0.gen2.contains B a := by
  have p3 := hi.pos Gen.gen2
  have d3 := hi.seg_data Gen.gen2
  have k3 := hi.seg_capacity Gen.gen2
  simp only [Context.seg] at p3 d3 k3
  have q3 : c.gen2.position * B ≤ c0.gen2.capacity * B := Nat.mul_le_mul_right B (by omega)
  have q4 : c0.gen2.position * B ≤ c.gen2.position * B := Nat.mul_le_mul_right B p3.1
  unfold Context.inToSpace at h
  rw [Bool.eq_iff_iff, Segment.contains_iff, Segment.contains_iff, d3]
  constructor
  · rintro ⟨h1, h2, h3⟩
    have : a < c0.gen2.data + c0.gen2.position * B := by omega
    refine ⟨?_, h2, this⟩
    intro h0
    rw [h0] at this
    omega
  · rintro ⟨h1, h2, h3⟩
    exact ⟨by omega, h2, by omega⟩

theorem sum_filter_remove (f : Nat → Nat) (P Q : Nat → Bool) (o : Nat)
    (hQ : ∀ x, x ≠ o → Q x = P x) (hQo : Q o = false) :
    ∀ l : List Nat, l.Nodup →
      ((l.filter P).map f).sum =
        ((l.filter Q).map f).sum + (if o ∈ l ∧ P o = true then f o else 0) := by
  intro l
  induction l with
  | nil => intro _; simp
  | cons x l ih =>
    intro hn
    have hx : x ∉ l := (List.nodup_cons.1 hn).1
    have ih1 := ih (List.nodup_cons.1 hn).2
    by_cases e : x = o
    · subst e
      have e2 : (if x ∈ l ∧ P x = true then f x else 0) = 0 := by
        rw [if_neg (fun h => hx h.1)]
      rw [e2] at ih1
      by_cases hp : P x = true
      · simp only [List.filter_cons, hp, hQo, if_true, List.map_cons, List.sum_cons,
          List.mem_cons, true_or, and_self, Bool.false_eq_true, if_false]
        omega
      · simp only [List.filter_cons, hp, hQo, if_false, Bool.false_eq_true, List.mem_cons,
          true_or, true_and]
        omega
    · have e3 : (o ∈ x :: l ∧ P o = true) ↔ (o ∈ l ∧ P o = true) := by
        simp only [List.mem_cons]
        constructor
        · rintro ⟨h1 | h1, h2⟩
          · exact absurd h1.symm e
          · exact ⟨h1, h2⟩
        · rintro ⟨h1, h2⟩; exact ⟨Or.inr h1, h2⟩
      simp only [List.filter_cons, hQ x e, e3]
      by_cases hp : P x = true
      · simp only [hp, if_true, List.map_cons, List.sum_cons]
        omega
      · simp only [hp, Bool.false_eq_true, if_false]
        exact ih1

/-- The words still needed in a segment, when one more object is copied. -/
theorem need_cons (hs : Start B c0 G) (o : Nat) (ho : o ∈ G.objs) (hm : movable B c0 o)
    (hw : o ∉ cp) (g : Gen) :
    need B c0 G cp g =
      need B c0 G (o :: cp) g + (if dest B c0 G o = g then (G.lay o).size else 0) := by
  unfold need
  rw [sum_filter_remove (fun x => (G.lay x).size) _
    (fun x => decide (c0.mode = MajorCollection ∨ c0.gen2.contains B x = false) &&
        decide (x ∉ o :: cp) && decide (dest B c0 G x = g)) o ?_ ?_ G.objs hs.objs_nodup]
  · congr 1
    unfold movable at hm
    by_cases hd : dest B c0 G o = g
    · rw [if_pos hd, if_pos]
      exact ⟨ho, by simp [hm, hw, hd]⟩
    · rw [if_neg hd, if_neg]
      rintro ⟨-, h2⟩
      simp [hd] at h2
  · intro x hx
    simp only [List.mem_cons, not_or]
    simp [hx]
  · simp

theorem dest_ne_gen1 (o : Nat) : dest B c0 G o ≠ Gen.gen1 := by
  unfold dest; split
  · decide
  · split
    · split
      · split <;> decide
      · decide
    · decide

theorem dest_gen2_minor (o : Nat) (h : dest B c0 G o = Gen.gen2) : c0.mode = MinorCollection := by
  unfold dest at h
  split at h
  · exact absurd h (by decide)
  · split at h
    · split at h
      · split at h
        · assumption
        · exact absurd h (by decide)
      · exact absurd h (by decide)
    · exact absurd h (by decide)

theorem IsCopy.copy_mono {c1 : Context} (g : Gen) (r size : Nat) (h : IsCopy B c0 c g r size)
    (hd : (c1.seg g).data = (c.seg g).data) (hp : (c.seg g).position ≤ (c1.seg g).position) :
    IsCopy B c0 c1 g r size := by
  obtain ⟨i, e, p1, p2⟩ := h
  exact ⟨i, by rw [hd]; exact e, p1, by omega⟩

/-- The copies lie in the storage of their segments, below the capacity. -/
theorem IsCopy.storage (hi : Inv B c0 G c cp) (g : Gen)
    (r size : Nat) (h : IsCopy B c0 c g r size) (a : Nat) (h1 : r ≤ a) (h2 : a < r + size * B) :
    c0.inStorage B g a ∧ a < (c0.seg g).data + (c0.seg g).capacity * B := by
  obtain ⟨i, e, p1, p2⟩ := h
  have hp := (hi.pos g).2
  have hd := hi.seg_data g
  have hc := hi.seg_capacity g
  rw [hd] at e
  rw [hc] at hp
  have h3 : (i + size) * B ≤ (c0.seg g).capacity * B := Nat.mul_le_mul_right B (by omega)
  rw [Nat.add_mul] at h3
  unfold Context.inStorage
  simp only [Nat.add_mul]
  omega

end Regions

end Heap

namespace Heap

open CollectionType

section CopyStep

variable {B : Nat} {c0 c : Context} {G : Graph} {cp : List Nat}

theorem seg_data_of_shape {c1 c : Context} (h : c1.shape = c.shape) (g : Gen) :
    (c1.seg g).data = (c.seg g).data := by
  have h1 := congrArg Shape.nextGen1 h
  have h2 := congrArg Shape.gen2 h
  have h3 := congrArg Shape.nextGen2 h
  have h4 := congrArg Shape.gen1 h
  simp only [Context.shape, Prod.mk.injEq] at h1 h2 h3 h4
  cases g
  · simp only [Context.seg]; rw [h4]
  · exact h1.1
  · exact h2.1
  · exact h3.1

theorem seg_capacity_of_shape {c1 c : Context} (h : c1.shape = c.shape) (g : Gen) :
    (c1.seg g).capacity = (c.seg g).capacity := by
  have h1 := congrArg Shape.nextGen1 h
  have h2 := congrArg Shape.gen2 h
  have h3 := congrArg Shape.nextGen2 h
  have h4 := congrArg Shape.gen1 h
  simp only [Context.shape, Prod.mk.injEq] at h1 h2 h3 h4
  cases g
  · simp only [Context.seg]; rw [h4]
  · exact h1.2.1
  · exact h2.2.1
  · exact h3.2.1

/-- A range of words allocated in a destination segment lies in destination
space. -/
theorem alloc_toSpace (g : Gen) (hg : g ≠ Gen.gen1) (i size : Nat)
    (h1 : (c0.seg g).position ≤ i) (h2 : i + size ≤ (c0.seg g).capacity) (a : Nat)
    (h3 : (c0.seg g).data + i * B ≤ a) (h4 : a < (c0.seg g).data + i * B + size * B) :
    c0.inToSpace B a ∧ c0.inStorage B g a ∧ a < (c0.seg g).data + (c0.seg g).capacity * B := by
  have h5 : (i + size) * B ≤ (c0.seg g).capacity * B := Nat.mul_le_mul_right B h2
  have h6 : (c0.seg g).position * B ≤ i * B := Nat.mul_le_mul_right B h1
  rw [Nat.add_mul] at h5
  unfold Context.inToSpace Context.inStorage
  simp only [Nat.add_mul]
  cases g
  · exact absurd rfl hg
  · simp only [Context.seg] at *; exact ⟨Or.inl (by omega), by omega, by omega⟩
  · simp only [Context.seg] at *; exact ⟨Or.inr (Or.inr (by omega)), by omega, by omega⟩
  · simp only [Context.seg] at *; exact ⟨Or.inr (Or.inl (by omega)), by omega, by omega⟩

theorem IsCopy.contains (hB : 0 < B) (g : Gen) (r size : Nat) (hsz : 1 ≤ size)
    (h : IsCopy B c0 c g r size) : (c.seg g).contains B r = true := by
  obtain ⟨i, e, p1, p2⟩ := h
  have hlt : i * B < (c.seg g).position * B := Nat.mul_lt_mul_of_pos_right (by omega) hB
  rw [Segment.contains_iff]
  exact ⟨by omega, by omega, by omega⟩

/-- Copying one more object keeps the invariant of the traversal. -/
theorem Inv.copy_step (hs : Start B c0 G) (hi : Inv B c0 G c cp) (o r : Nat) (c1 : Context)
    (ho : o ∈ G.objs) (hm : movable B c0 o) (hw : o ∉ cp) (hc : Copied B c0 G c c1 o r) :
    Inv B c0 G c1 (o :: cp) := by
  have hB := hs.B_pos
  obtain ⟨o1, o2, o3, o4, o5, o6⟩ := hs.obj_ok o ho
  have hg := @dest_ne_gen1 B c0 G o
  have hneed := @need_cons B c0 G cp hs o ho hm hw (dest B c0 G o)
  rw [if_pos rfl] at hneed
  have hroom := hi.room _ hg
  have hd1 := seg_data_of_shape hc.shape
  have hk1 := seg_capacity_of_shape hc.shape
  have hd := hi.seg_data
  have hk := hi.seg_capacity
  have hpos := hi.pos
  have hsz : 0 < (G.lay o).size * B := Nat.mul_pos o3 hB
  -- the new copy
  have hr := hc.r_eq
  rw [hd] at hr
  have hext : ∀ a, r ≤ a → a < r + (G.lay o).size * B →
      c0.inToSpace B a ∧ c0.inStorage B (dest B c0 G o) a ∧
        a < (c0.seg (dest B c0 G o)).data + (c0.seg (dest B c0 G o)).capacity * B := by
    intro a h1 h2
    rw [hr] at h1 h2
    exact alloc_toSpace _ hg _ _ (hpos _).1 (by rw [← hk]; omega) a h1 h2
  have hnew : IsCopy B c0 c1 (dest B c0 G o) r (G.lay o).size :=
    ⟨(c.seg (dest B c0 G o)).position, by rw [hd1, hd]; exact hr, (hpos _).1, by rw [hc.pos]⟩
  -- the objects are away from what the copy writes
  have hobj : ∀ x ∈ G.objs, ∀ a, x ≤ a → a < x + (G.lay x).size * B →
      (a < r ∨ r + (G.lay o).size * B ≤ a) ∧ ¬ c0.nextAgeMap.inFootprint B c0.nextGen1 a := by
    intro x hx a h1 h2
    constructor
    · by_contra hcon
      exact hs.obj_not_toSpace x hx a h1 h2 (hext a (by omega) (by omega)).1
    · intro f
      exact (hs.obj_not_maps x hx a h1 h2).1 (Or.inl f)
  have hself : ∀ x ∈ G.objs, x < x + (G.lay x).size * B := by
    intro x hx
    have := Nat.mul_pos (hs.obj_ok x hx).2.2.1 hB
    omega
  -- the old copies stay
  have hold : ∀ x ∈ cp, c1.mem x = c.mem x := by
    intro x hx
    have hxo := (hi.cp_sub x hx).1
    have := hobj x hxo x (Nat.le_refl _) (hself x hxo)
    exact hc.frame x (fun e => hw (e ▸ hx)) this.1 this.2
  have hapart : ∀ x ∈ cp, c.mem x + (G.lay x).size * B ≤ r ∨ r + (G.lay o).size * B ≤ c.mem x := by
    intro x hx
    obtain ⟨⟨i, e, p1, p2⟩, -⟩ := hi.fwd x hx
    have hxs := (hs.obj_ok x (hi.cp_sub x hx).1).2.2.1
    by_cases hgx : dest B c0 G x = dest B c0 G o
    · left
      rw [hgx] at e p1 p2
      rw [e, hr, hd]
      have := Nat.mul_le_mul_right B p2
      rw [Nat.add_mul] at this
      omega
    · apply ranges_apart _ _ _ _ (Nat.mul_pos hxs hB) hsz
      intro a h1 h2 h3 h4
      have hx1 := IsCopy.storage hi _ _ _ ⟨i, e, p1, p2⟩ a h1 h2
      exact hs.stor_disj _ _ hgx a hx1.1 (hext a h3 h4).2.1
  refine
    { shape := hc.shape.trans hi.shape
      pos := ?_
      lay_obj := ?_
      white := ?_
      cp_nodup := List.nodup_cons.2 ⟨hw, hi.cp_nodup⟩
      cp_sub := ?_
      fwd := ?_
      disj := ?_
      base := ?_
      age_frame := ?_
      room := ?_
      ages := ?_
      tenure := ?_
      used := ?_ }
  · intro g
    by_cases e : g = dest B c0 G o
    · subst e
      rw [hc.pos, hk1]
      have := hpos (dest B c0 G o)
      omega
    · rw [hc.pos_other g e, hk1]
      exact hpos g
  · intro x hx
    rw [hc.layout, if_neg, hi.lay_obj x hx]
    intro e
    exact hs.obj_not_toSpace x hx x (Nat.le_refl _) (hself x hx)
      (hext x (by omega) (by omega)).1
  · intro x hx hxw hxm k hk2
    have hne : x ≠ o := fun e => hxw (e ▸ List.mem_cons_self _ _)
    have hxw1 : x ∉ cp := fun e => hxw (List.mem_cons_of_mem _ e)
    have h1 : x ≤ x + k * B := Nat.le_add_right _ _
    have h2 : x + k * B < x + (G.lay x).size * B := by
      have := Nat.mul_lt_mul_of_pos_right hk2 hB
      omega
    have := hobj x hx _ h1 h2
    rw [hc.frame _ ?_ this.1 this.2]
    · exact hi.white x hx hxw1 hxm k hk2
    · intro e
      rcases hs.obj_disj x hx o ho hne with h | h <;> omega
  · intro x hx
    rcases List.mem_cons.1 hx with e | e
    · subst e; exact ⟨ho, hm⟩
    · exact hi.cp_sub x e
  · intro x hx
    rcases List.mem_cons.1 hx with e | e
    · subst e
      rw [hc.fwd, hc.layout, if_pos rfl]
      exact ⟨hnew, rfl⟩
    · rw [hold x e]
      obtain ⟨f1, f2⟩ := hi.fwd x e
      refine ⟨f1.copy_mono _ _ _ (hd1 _) ?_, ?_⟩
      · by_cases e2 : dest B c0 G x = dest B c0 G o
        · rw [e2, hc.pos]; omega
        · rw [hc.pos_other _ e2]
      · rw [hc.layout, if_neg, f2]
        intro e3
        have hxs := Nat.mul_pos (hs.obj_ok x (hi.cp_sub x e).1).2.2.1 hB
        rcases hapart x e with h | h <;> omega
  · intro x hx y hy hxy
    rcases List.mem_cons.1 hx with e | e <;> rcases List.mem_cons.1 hy with e1 | e1
    · exact absurd (e.trans e1.symm) hxy
    · subst e
      rw [hc.fwd, hold y e1]
      rcases hapart y e1 with h | h
      · right; exact h
      · left; exact h
    · subst e1
      rw [hc.fwd, hold x e]
      exact hapart x e
    · rw [hold x e, hold y e1]
      exact hi.disj x e y e1 hxy
  · have hm1 : c1.mode = c.mode := congrArg Shape.mode hc.shape
    have hcap := (hs.seg_ok Gen.gen2).2
    simp only [Context.seg] at hcap
    rcases hc.base with ⟨b1, b2⟩ | ⟨b1, b2, b3⟩
    · rcases hi.base with ⟨a1, a2⟩ | ⟨a1, a2⟩
      · left
        refine ⟨by rw [b1]; exact a1, ?_⟩
        have := hc.pos_other Gen.gen2 (fun e => b2 e.symm a1)
        simp only [Context.seg] at this
        rw [this]; exact a2
      · right
        exact ⟨by rw [hm1]; exact a1, by rw [b1]; exact a2⟩
    · right
      refine ⟨by rw [hm1, hi.mode_eq]; exact dest_gen2_minor o b2, ?_⟩
      rcases hi.base with ⟨a1, a2⟩ | ⟨a1, a2⟩
      · rw [b3]; exact a2
      · rw [b1] at a2
        unfold Top at a2
        omega
  · intro a ha
    have hfs := @inFootprint_storage B c0 Gen.gen1 a ha
    rw [hc.frame a ?_ ?_ ?_]
    · exact hi.age_frame a ha
    · intro e
      subst e
      exact (hs.obj_not_maps a ho a (Nat.le_refl _) (hself a ho)).2 ha
    · by_contra hcon
      exact (hs.toSpace_not_maps a (hext a (by omega) (by omega)).1).2 ha
    · intro f
      exact hs.stor_disj Gen.gen1 Gen.nextGen1 (by decide) a hfs.1
        (@inFootprint_storage B c0 Gen.nextGen1 a f).1
  · intro g hgg
    have hn := @need_cons B c0 G cp hs o ho hm hw g
    have hr2 := hi.room g hgg
    by_cases e : g = dest B c0 G o
    · subst e
      rw [if_pos rfl] at hn
      rw [hc.pos, hk1]
      omega
    · rw [if_neg (fun h => e h.symm)] at hn
      rw [hc.pos_other g e, hk1]
      omega
  · intro x hx hdx
    rcases List.mem_cons.1 hx with e | e
    · subst e
      rw [hc.fwd]
      exact hc.age hdx
    · rw [hold x e]
      obtain ⟨f1, -⟩ := hi.fwd x e
      have hxs := (hs.obj_ok x (hi.cp_sub x e).1).2.2.1
      have hcon := f1.contains hB _ _ _ hxs
      rw [hdx] at hcon
      rw [hc.age_frame _ hcon]
      exact hi.ages x e hdx
  · rw [hc.tenure, hi.tenure]
    unfold u32
    simp only [List.map_cons, List.sum_cons]
    rw [Nat.mod_add_mod]
    congr 1
    omega
  · intro g
    by_cases e : g = dest B c0 G o
    · subst e
      rw [hc.pos, hi.used, List.filter_cons_of_pos (by simp)]
      simp only [List.map_cons, List.sum_cons]
      omega
    · rw [hc.pos_other g e, hi.used, List.filter_cons_of_neg (by simpa using fun h => e h.symm)]

end CopyStep

end Heap

namespace Heap

open CollectionType

section CopySpec

variable {B : Nat} {c0 c : Context} {G : Graph} {cp : List Nat}

theorem Map.readBits_lt (B : Nat) (s : Segment) (mp : Map) (m : Mem) :
    ∀ (n i v : Nat), mp.readBits B s m n i v < (v + 1) * 2 ^ n := by
  intro n
  induction n with
  | zero => intro i v; simp [Map.readBits]
  | succ n ih =>
    intro i v
    unfold Map.readBits
    have := ih (i + 1) (2 * v + (if mp.bit B s m i then 1 else 0))
    have h2 : (2 * v + (if mp.bit B s m i then 1 else 0) + 1) * 2 ^ n ≤ (v + 1) * 2 ^ (n + 1) := by
      rw [Nat.pow_succ, Nat.mul_comm (2 ^ n) 2, ← Nat.mul_assoc]
      apply Nat.mul_le_mul_right
      split <;> omega
    omega

theorem ageMap_ok (hs : Start B c0 G) (g : Gen) : (Map.leaf 2 1 false).LevelOK (c0.seg g) := by
  have := (hs.seg_ok g).2.2
  exact ⟨by decide, by decide, by decide, by simpa [Map.bitsPerRecord] using this⟩

/-- The age `copy2` reads for an object of gen1 is the age recorded at the
start; it is at most `TenureThreshold`. -/
theorem Inv.age_eq (hs : Start B c0 G) (hi : Inv B c0 G c cp) (o : Nat)
    (h : c0.gen1.contains B o = true) :
    ∃ a, a ≤ TenureThreshold ∧ c0.ageMap.get B c0.gen1 G.m0 o = some a ∧
      c.ageMap.get B c.gen1 c.mem o = some a := by
  have hB := hs.B_pos
  have hok := ageMap_ok hs Gen.gen1
  have hc := (hs.seg_ok Gen.gen1).2.1
  simp only [Context.seg] at hok hc
  have e1 : c.ageMap = c0.ageMap := congrArg Shape.ageMap hi.shape
  rw [e1, hi.gen1_eq, hs.ageMap_eq]
  refine ⟨_, ?_, Map.get_eq B _ _ _ o h hc hok, ?_⟩
  · have := Map.readBits_lt B c0.gen1 (Map.leaf 2 1 false) G.m0 2 
      ((Map.leaf 2 1 false).recordIndex B c0.gen1 o) 0
    simp only [Map.bitsPerRecord]
    unfold TenureThreshold
    omega
  · rw [← Map.get_eq B _ _ _ o h hc hok]
    apply Map.get_congr B hB _ _ _ _ o h hc hok
    intro a ha
    apply hi.age_frame
    rw [hs.ageMap_eq]
    have hcap : 1 ≤ c0.gen1.capacity := by
      have := ((Segment.contains_iff B _ o).1 h).1
      omega
    exact Map.inArea_inFootprint B _ _ a hcap ha

theorem Inv.next_not_contains (hs : Start B c0 G) (hi : Inv B c0 G c cp) (a : Nat)
    (h : ¬ c0.inToSpace B a) :
    c.nextGen1.contains B a = false ∧ c.nextGen2.contains B a = false := by
  have := hi.not_fresh hs a h
  unfold fresh at this
  simp only [Bool.or_eq_false_iff] at this
  exact this.1

theorem copy_mem (hB : 0 < B) (m mA : Mem) (o r n : Nat) (F : Nat → Prop)
    (hA : ∀ a, ¬ F a → mA a = copyWords B m o r n a)
    (hF : ∀ a, r ≤ a → a < r + n * B → ¬ F a)
    (ho : o < r ∨ r + n * B ≤ o) :
    (∀ k, k < n → (mA.write o r) (r + k * B) = m (o + k * B)) ∧ (mA.write o r) o = r ∧
    (∀ a, a ≠ o → (a < r ∨ r + n * B ≤ a) → ¬ F a → (mA.write o r) a = m a) := by
  refine ⟨?_, ?_, ?_⟩
  · intro k hk
    have h1 : k * B < n * B := Nat.mul_lt_mul_of_pos_right hk hB
    unfold Mem.write
    rw [if_neg (by omega), hA _ (hF _ (by omega) (by omega)), copyWords_in B hB m o r n k hk]
  · unfold Mem.write; rw [if_pos rfl]
  · intro a h1 h2 h3
    unfold Mem.write
    rw [if_neg h1, hA a h3, copyWords_out B hB m o r n a h2]

/-- What the invariant gives for an object about to be copied. -/
theorem Inv.copy_pre (hs : Start B c0 G) (hi : Inv B c0 G c cp) (o : Nat)
    (ho : o ∈ G.objs) (hm : movable B c0 o) (hw : o ∉ cp) :
    c.client.copiedSizeInWords o = (G.lay o).size ∧
    (c.seg (dest B c0 G o)).position + (G.lay o).size ≤ (c.seg (dest B c0 G o)).capacity ∧
    (c.seg (dest B c0 G o)).capacity < 2 ^ 32 ∧ (G.lay o).size ≠ 0 ∧
    c.gen2.contains B o = c0.gen2.contains B o ∧ c.nextGen1.contains B o = false ∧
    c.nextGen2.contains B o = false ∧
    (o < (c.seg (dest B c0 G o)).data + (c.seg (dest B c0 G o)).position * B ∨
      (c.seg (dest B c0 G o)).data + (c.seg (dest B c0 G o)).position * B + (G.lay o).size * B
        ≤ o) ∧
    (∀ a, (c.seg (dest B c0 G o)).data + (c.seg (dest B c0 G o)).position * B ≤ a →
      a < (c.seg (dest B c0 G o)).data + (c.seg (dest B c0 G o)).position * B
        + (G.lay o).size * B → ¬ c0.nextAgeMap.inFootprint B c0.nextGen1 a) := by
  have hB := hs.B_pos
  obtain ⟨o1, o2, o3, o4, o5, o6⟩ := hs.obj_ok o ho
  have hg := @dest_ne_gen1 B c0 G o
  have hneed := @need_cons B c0 G cp hs o ho hm hw (dest B c0 G o)
  rw [if_pos rfl] at hneed
  have hroom := hi.room _ hg
  have hnt : ¬ c0.inToSpace B o := hs.obj_not_toSpace o ho o (Nat.le_refl _)
    (by have := Nat.mul_pos o3 hB; omega)
  have hk := hi.seg_capacity (dest B c0 G o)
  have hcap := (hs.seg_ok (dest B c0 G o)).2.2
  have hext : ∀ a, (c.seg (dest B c0 G o)).data + (c.seg (dest B c0 G o)).position * B ≤ a →
      a < (c.seg (dest B c0 G o)).data + (c.seg (dest B c0 G o)).position * B
        + (G.lay o).size * B → c0.inToSpace B a := by
    intro a h1 h2
    rw [hi.seg_data] at h1 h2
    exact (alloc_toSpace _ hg _ _ (hi.pos _).1 (by rw [← hk]; omega) a h1 h2).1
  refine ⟨?_, by omega, by omega, by omega, hi.gen2_contains o hnt,
    (hi.next_not_contains hs o hnt).1, (hi.next_not_contains hs o hnt).2, ?_, ?_⟩
  · unfold Client.copiedSizeInWords; rw [hi.lay_obj o ho]
  · by_contra hcon
    exact hnt (hext o (by omega) (by omega))
  · intro a h1 h2 f
    exact (hs.toSpace_not_maps a (hext a h1 h2)).1 (Or.inl f)

/-- A memory that agrees on the age map of nextGen1 gives the same ages. -/
theorem Inv.next_age_frame (hs : Start B c0 G) (hi : Inv B c0 G c cp) (m1 : Mem) (q : Nat)
    (hq : c.nextGen1.contains B q = true)
    (hfr : ∀ a, c0.nextAgeMap.inFootprint B c0.nextGen1 a → m1 a = c.mem a) :
    c.nextAgeMap.get B c.nextGen1 m1 q = c.nextAgeMap.get B c.nextGen1 c.mem q := by
  have hB := hs.B_pos
  have hok := ageMap_ok hs Gen.nextGen1
  have e1 : c.nextAgeMap = c0.nextAgeMap := congrArg Shape.nextAgeMap hi.shape
  have hd := hi.seg_data Gen.nextGen1
  have hk := hi.seg_capacity Gen.nextGen1
  have hp := (hi.pos Gen.nextGen1).2
  simp only [Context.seg] at hok hd hk hp
  have hok1 : (Map.leaf 2 1 false).LevelOK c.nextGen1 := by
    unfold Map.LevelOK at hok ⊢
    rw [hk]; exact hok
  rw [e1, hs.nextAgeMap_eq]
  apply Map.get_congr B hB _ _ _ _ q hq hp hok1
  intro a ha
  apply hfr
  rw [hs.nextAgeMap_eq]
  have hcap : 1 ≤ c.nextGen1.capacity := by
    have := ((Segment.contains_iff B _ q).1 hq).1
    omega
  have := Map.inArea_inFootprint B _ _ a hcap ha
  unfold Map.inFootprint at this ⊢
  rw [hd, hk] at this
  exact this

theorem Inv.tenure_same (hi : Inv B c0 G c cp) (o : Nat) (h : tenureGrowth B c0 G o = 0) :
    c.tenureFootprint = u32 (c.tenureFootprint + tenureGrowth B c0 G o) := by
  rw [h, Nat.add_zero, hi.tenure]
  unfold u32
  rw [Nat.mod_mod]

theorem tenureGrowth_zero (o : Nat) (h : dest B c0 G o ≠ Gen.nextGen1) :
    tenureGrowth B c0 G o = 0 := by
  unfold tenureGrowth
  rw [if_neg (fun h1 => h h1.1)]

end CopySpec

end Heap

namespace Heap

open CollectionType

section CopySpec

variable {B : Nat} {c0 c : Context} {G : Graph} {cp : List Nat}

/-- The context after a copy into gen2 or nextGen2 is `Copied`. -/
theorem copied_plain (hs : Start B c0 G) (hi : Inv B c0 G c cp) (o : Nat)
    (ho : o ∈ G.objs) (hm : movable B c0 o) (hw : o ∉ cp) (g : Gen)
    (hd : dest B c0 G o = g) (hg1 : g ≠ Gen.nextGen1)
    (c1 : Context) (k1 : c1.mem = c.mem) (k2 : c1.client = c.client)
    (k3 : ∀ g, c1.seg g = c.seg g) (k4 : c1.nextAgeMap = c.nextAgeMap)
    (k5 : c1.tenureFootprint = c.tenureFootprint)
    (k6 : (c1.gen2Base = c.gen2Base ∧ (g = Gen.gen2 → c.gen2Base ≠ Top)) ∨
      (c.gen2Base = Top ∧ g = Gen.gen2 ∧ c1.gen2Base = c.gen2.position))
    (hshape : (c1.afterCopyTo B g o (G.lay o).size).shape = c.shape) :
    Copied B c0 G c
      { c1.afterCopyTo B g o (G.lay o).size with
        mem := (c1.afterCopyTo B g o (G.lay o).size).mem.write o
          ((c.seg g).data + (c.seg g).position * B) }
      o ((c.seg g).data + (c.seg g).position * B) := by
  have hB := hs.B_pos
  obtain ⟨p1, p2, p3, p4, p5, p6, p7, p8, p9⟩ := hi.copy_pre hs o ho hm hw
  rw [hd] at p2 p3 p8 p9
  have hmem := copy_mem hB c.mem (copyWords B c.mem o
    ((c.seg g).data + (c.seg g).position * B) (G.lay o).size) o
    ((c.seg g).data + (c.seg g).position * B) (G.lay o).size
    (fun _ => False) (fun a _ => rfl) (fun _ _ _ h => h) p8
  have hlay := hi.lay_obj o ho
  have hm1 : (c1.afterCopyTo B g o (G.lay o).size).mem = copyWords B c.mem o
      ((c.seg g).data + (c.seg g).position * B) (G.lay o).size := by
    rw [afterCopyTo_mem, k1, k2, k3, hlay]
  have hseg := afterCopyTo_seg B c1 g o (G.lay o).size
  have hg0 := @dest_ne_gen1 B c0 G o
  rw [hd] at hg0
  refine
    { shape := hshape
      r_eq := by rw [hd]
      pos := ?_
      pos_other := ?_
      layout := ?_
      body := ?_
      fwd := ?_
      frame := ?_
      base := ?_
      age := ?_
      age_frame := ?_
      tenure := ?_ }
  · rw [hd]
    have := hseg.1
    rw [k3] at this
    rw [← this]
    cases g <;> rfl
  · intro g1 hg
    rw [hd] at hg
    have := hseg.2 g1 hg
    rw [k3] at this
    rw [← this]
    cases g1 <;> rfl
  · intro a
    show (c1.afterCopyTo B g o (G.lay o).size).client.layout a = _
    rw [afterCopyTo_layout, k2, k3, hlay]
  · show ∀ k, k < _ → ((c1.afterCopyTo B g o (G.lay o).size).mem.write o _) _ = _
    rw [hm1]
    exact hmem.1
  · show ((c1.afterCopyTo B g o (G.lay o).size).mem.write o _) _ = _
    rw [hm1]
    exact hmem.2.1
  · show ∀ a, _ → _ → _ → ((c1.afterCopyTo B g o (G.lay o).size).mem.write o _) _ = _
    rw [hm1]
    exact fun a h1 h2 _ => hmem.2.2 a h1 h2 (fun h => h)
  · rw [hd]
    have e : ({ c1.afterCopyTo B g o (G.lay o).size with
        mem := (c1.afterCopyTo B g o (G.lay o).size).mem.write o
          ((c.seg g).data + (c.seg g).position * B) } : Context).gen2Base = c1.gen2Base := by
      cases g <;> rfl
    rw [e]
    exact k6
  · intro h; rw [hd] at h; exact absurd h hg1
  · intro q hq
    have e1 : ({ c1.afterCopyTo B g o (G.lay o).size with
        mem := (c1.afterCopyTo B g o (G.lay o).size).mem.write o
          ((c.seg g).data + (c.seg g).position * B) } : Context).nextAgeMap = c.nextAgeMap := by
      rw [← k4]; cases g <;> rfl
    have e2 : ({ c1.afterCopyTo B g o (G.lay o).size with
        mem := (c1.afterCopyTo B g o (G.lay o).size).mem.write o
          ((c.seg g).data + (c.seg g).position * B) } : Context).nextGen1 = c.nextGen1 := by
      have := hseg.2 Gen.nextGen1 (fun h => hg1 h.symm)
      rw [k3] at this
      exact this
    rw [e1, e2]
    show c.nextAgeMap.get B c.nextGen1
      ((c1.afterCopyTo B g o (G.lay o).size).mem.write o _) q = _
    rw [hm1]
    apply hi.next_age_frame hs _ q hq
    intro a ha
    have hself : o < o + (G.lay o).size * B := by
      have := Nat.mul_pos (Nat.pos_of_ne_zero p4) hB
      omega
    apply hmem.2.2 a _ _ (fun h => h)
    · intro e
      subst e
      exact (hs.obj_not_maps a ho a (Nat.le_refl _) hself).1 (Or.inl ha)
    · by_contra hcon
      exact p9 a (by omega) (by omega) ha
  · have e : ({ c1.afterCopyTo B g o (G.lay o).size with
        mem := (c1.afterCopyTo B g o (G.lay o).size).mem.write o
          ((c.seg g).data + (c.seg g).position * B) } : Context).tenureFootprint
        = c.tenureFootprint := by
      rw [← k5]; cases g <;> rfl
    rw [e]
    exact hi.tenure_same o (tenureGrowth_zero o (by rw [hd]; exact hg1))

end CopySpec

end Heap

namespace Heap

open CollectionType

section CopySpec

variable {B : Nat} {c0 c : Context} {G : Graph} {cp : List Nat}

theorem Map.bit_seg (B : Nat) (s s1 : Segment) (mp : Map) (m : Mem) (k : Nat)
    (hd : s1.data = s.data) (hk : s1.capacity = s.capacity) :
    mp.bit B s1 m k = mp.bit B s m k := by
  unfold Map.bit Map.data
  rw [hd, hk]

theorem Map.readBits_seg (B : Nat) (s s1 : Segment) (mp : Map) (m : Mem)
    (hd : s1.data = s.data) (hk : s1.capacity = s.capacity) :
    ∀ (n i v : Nat), mp.readBits B s1 m n i v = mp.readBits B s m n i v := by
  intro n
  induction n with
  | zero => intro i v; rfl
  | succ n ih =>
    intro i v
    unfold Map.readBits
    rw [Map.bit_seg B s s1 mp m i hd hk, ih]

/-- The record of an address already in the segment does not depend on the
position of the segment. -/
theorem Map.get_seg (B : Nat) (s s1 : Segment) (mp : Map) (m : Mem) (q : Nat)
    (hd : s1.data = s.data) (hk : s1.capacity = s.capacity)
    (hq : s.contains B q = true) (hq1 : s1.contains B q = true)
    (hp : s.position ≤ s.capacity) (hp1 : s1.position ≤ s1.capacity) (hok : mp.LevelOK s) :
    mp.get B s1 m q = mp.get B s m q := by
  have hok1 : mp.LevelOK s1 := by
    unfold Map.LevelOK at hok ⊢
    rw [hk]; exact hok
  rw [Map.get_eq B s1 mp m q hq1 hp1 hok1, Map.get_eq B s mp m q hq hp hok,
    Map.readBits_seg B s s1 mp m hd hk]
  unfold Map.recordIndex
  rw [hd]

/-- Writing the record of one address of the age map leaves the age of every
other address. -/
theorem age_other (hB : 0 < B) (s : Segment) (m m1 : Mem) (p q : Nat) (X : Nat → Bool)
    (hp : s.contains B p = true) (hq : s.contains B q = true) (hc : s.position ≤ s.capacity)
    (hok : (Map.leaf 2 1 false).LevelOK s)
    (hne : (p - s.data) / B ≠ (q - s.data) / B)
    (hb : ∀ k, (Map.leaf 2 1 false).bit B s m1 k =
      if (Map.leaf 2 1 false).recordIndex B s p ≤ k ∧
          k < (Map.leaf 2 1 false).recordIndex B s p + (Map.leaf 2 1 false).bitsPerRecord
      then X k else (Map.leaf 2 1 false).bit B s m k) :
    (Map.leaf 2 1 false).get B s m1 q = (Map.leaf 2 1 false).get B s m q := by
  rw [Map.get_eq B s _ m1 q hq hc hok, Map.get_eq B s _ m q hq hc hok]
  congr 1
  apply Map.readBits_congr
  intro t ht
  rw [hb, if_neg]
  simp only [Map.recordIndex, Map.indexOfIndex, Map.scale, Map.bitsPerRecord, Nat.div_one] at ht ⊢
  omega

/-- The age map of nextGen1 read through a segment with the storage of
nextGen1. -/
theorem next_age_congr (hs : Start B c0 G) (s : Segment) (hd : s.data = c0.nextGen1.data)
    (hk : s.capacity = c0.nextGen1.capacity) (hp : s.position ≤ s.capacity) (m m1 : Mem) (q : Nat)
    (hq : s.contains B q = true)
    (hfr : ∀ a, c0.nextAgeMap.inFootprint B c0.nextGen1 a → m1 a = m a) :
    (Map.leaf 2 1 false).get B s m1 q = (Map.leaf 2 1 false).get B s m q := by
  have hB := hs.B_pos
  have hok := ageMap_ok hs Gen.nextGen1
  simp only [Context.seg] at hok
  have hok1 : (Map.leaf 2 1 false).LevelOK s := by
    unfold Map.LevelOK at hok ⊢
    rw [hk]; exact hok
  apply Map.get_congr B hB _ _ _ _ q hq hp hok1
  intro a ha
  apply hfr
  rw [hs.nextAgeMap_eq]
  have hcap : 1 ≤ s.capacity := by
    have := ((Segment.contains_iff B _ q).1 hq).1
    omega
  have := Map.inArea_inFootprint B _ _ a hcap ha
  unfold Map.inFootprint at this ⊢
  rw [hd, hk] at this
  exact this

/-- The context after a copy into nextGen1 is `Copied`. -/
theorem copied_aged (hs : Start B c0 G) (hi : Inv B c0 G c cp) (o : Nat)
    (ho : o ∈ G.objs) (hm : movable B c0 o) (hw : o ∉ cp)
    (hd : dest B c0 G o = Gen.nextGen1) (mA : Mem) (tf : Nat)
    (hA : ∀ a, ¬ c0.nextAgeMap.inFootprint B c0.nextGen1 a →
      mA a = (c.afterCopyTo B Gen.nextGen1 o (G.lay o).size).mem a)
    (hage : (Map.leaf 2 1 false).get B (c.afterCopyTo B Gen.nextGen1 o (G.lay o).size).nextGen1 mA
      (c.nextGen1.data + c.nextGen1.position * B) = some (nextAge B c0 G o))
    (hfr : ∀ q, c.nextGen1.contains B q = true →
      (Map.leaf 2 1 false).get B (c.afterCopyTo B Gen.nextGen1 o (G.lay o).size).nextGen1 mA q
        = (Map.leaf 2 1 false).get B c.nextGen1 c.mem q)
    (htf : tf = u32 (c.tenureFootprint + tenureGrowth B c0 G o))
    (hshape : (c.afterCopyTo B Gen.nextGen1 o (G.lay o).size).shape = c.shape) :
    Copied B c0 G c
      { c.afterCopyTo B Gen.nextGen1 o (G.lay o).size with
        mem := mA.write o (c.nextGen1.data + c.nextGen1.position * B)
        tenureFootprint := tf }
      o (c.nextGen1.data + c.nextGen1.position * B) := by
  have hB := hs.B_pos
  obtain ⟨p1, p2, p3, p4, p5, p6, p7, p8, p9⟩ := hi.copy_pre hs o ho hm hw
  rw [hd] at p2 p3 p8 p9
  simp only [Context.seg] at p2 p3 p8 p9
  have hlay := hi.lay_obj o ho
  have hm1 : (c.afterCopyTo B Gen.nextGen1 o (G.lay o).size).mem = copyWords B c.mem o
      (c.nextGen1.data + c.nextGen1.position * B) (G.lay o).size := by
    rw [afterCopyTo_mem, hlay]; rfl
  rw [hm1] at hA
  have hmem := copy_mem hB c.mem mA o
    (c.nextGen1.data + c.nextGen1.position * B) (G.lay o).size
    (fun a => c0.nextAgeMap.inFootprint B c0.nextGen1 a) hA p9 p8
  have hself : o < o + (G.lay o).size * B := by
    have := Nat.mul_pos (Nat.pos_of_ne_zero p4) hB
    omega
  have e1 : c.nextAgeMap = Map.leaf 2 1 false := by
    rw [← hs.nextAgeMap_eq]; exact congrArg Shape.nextAgeMap hi.shape
  have hd1 := hi.seg_data Gen.nextGen1
  have hk1 := hi.seg_capacity Gen.nextGen1
  simp only [Context.seg] at hd1 hk1
  have hwr : ∀ q, (c.afterCopyTo B Gen.nextGen1 o (G.lay o).size).nextGen1.contains B q = true →
      (Map.leaf 2 1 false).get B (c.afterCopyTo B Gen.nextGen1 o (G.lay o).size).nextGen1
        (mA.write o (c.nextGen1.data + c.nextGen1.position * B)) q =
      (Map.leaf 2 1 false).get B (c.afterCopyTo B Gen.nextGen1 o (G.lay o).size).nextGen1 mA q := by
    intro q hq
    apply next_age_congr hs (c.afterCopyTo B Gen.nextGen1 o (G.lay o).size).nextGen1
      hd1 hk1 p2 _ _ q hq
    intro a ha
    unfold Mem.write
    rw [if_neg]
    intro e
    subst e
    exact (hs.obj_not_maps a ho a (Nat.le_refl _) hself).1 (Or.inl ha)
  refine
    { shape := hshape
      r_eq := by rw [hd]; rfl
      pos := by rw [hd]; rfl
      pos_other := ?_
      layout := ?_
      body := hmem.1
      fwd := hmem.2.1
      frame := hmem.2.2
      base := ?_
      age := ?_
      age_frame := ?_
      tenure := htf }
  · intro g1 hg
    rw [hd] at hg
    cases g1 <;> first | rfl | exact absurd rfl hg
  · intro a
    show (c.afterCopyTo B Gen.nextGen1 o (G.lay o).size).client.layout a = _
    rw [afterCopyTo_layout, hlay]; rfl
  · left
    exact ⟨rfl, fun h => by rw [hd] at h; exact absurd h (by decide)⟩
  · intro _
    show c.nextAgeMap.get B (c.afterCopyTo B Gen.nextGen1 o (G.lay o).size).nextGen1
      (mA.write o (c.nextGen1.data + c.nextGen1.position * B)) _ = _
    rw [e1, hwr, hage]
    rw [Segment.contains_iff]
    have := Nat.mul_pos (Nat.pos_of_ne_zero p4) hB
    refine ⟨?_, Nat.le_add_right _ _, ?_⟩
    · show c.nextGen1.position + (G.lay o).size ≠ 0
      omega
    · show _ < c.nextGen1.data + (c.nextGen1.position + (G.lay o).size) * B
      rw [Nat.add_mul]; omega
  · intro q hq
    show c.nextAgeMap.get B (c.afterCopyTo B Gen.nextGen1 o (G.lay o).size).nextGen1
      (mA.write o (c.nextGen1.data + c.nextGen1.position * B)) _ = _
    rw [e1, hwr, hfr q hq]
    obtain ⟨q1, q2, q3⟩ := (Segment.contains_iff B _ q).1 hq
    rw [Segment.contains_iff]
    refine ⟨?_, q2, ?_⟩
    · show c.nextGen1.position + (G.lay o).size ≠ 0
      omega
    · show _ < c.nextGen1.data + (c.nextGen1.position + (G.lay o).size) * B
      rw [Nat.add_mul]; omega

end CopySpec

end Heap

namespace Heap

open CollectionType

section CopySpec

variable {B : Nat} {c0 c : Context} {G : Graph} {cp : List Nat}

/-- What writing the age of a new copy in nextGen1 gives. -/
theorem aged_facts (hs : Start B c0 G) (hi : Inv B c0 G c cp) (o : Nat)
    (ho : o ∈ G.objs) (hm : movable B c0 o) (hw : o ∉ cp)
    (hd : dest B c0 G o = Gen.nextGen1) :
    (c.afterCopyTo B Gen.nextGen1 o (G.lay o).size).nextGen1.contains B
      (c.nextGen1.data + c.nextGen1.position * B) = true ∧
    (c.afterCopyTo B Gen.nextGen1 o (G.lay o).size).nextGen1.position ≤
      (c.afterCopyTo B Gen.nextGen1 o (G.lay o).size).nextGen1.capacity ∧
    (Map.leaf 2 1 false).LevelOK (c.afterCopyTo B Gen.nextGen1 o (G.lay o).size).nextGen1 ∧
    ∀ (mA : Mem) (X : Nat → Bool),
      (∀ a, ¬ (Map.leaf 2 1 false).inArea B
        (c.afterCopyTo B Gen.nextGen1 o (G.lay o).size).nextGen1 a →
        mA a = (c.afterCopyTo B Gen.nextGen1 o (G.lay o).size).mem a) →
      (∀ k, (Map.leaf 2 1 false).bit B (c.afterCopyTo B Gen.nextGen1 o (G.lay o).size).nextGen1 mA k
        = if (Map.leaf 2 1 false).recordIndex B
              (c.afterCopyTo B Gen.nextGen1 o (G.lay o).size).nextGen1
              (c.nextGen1.data + c.nextGen1.position * B) ≤ k ∧
            k < (Map.leaf 2 1 false).recordIndex B
              (c.afterCopyTo B Gen.nextGen1 o (G.lay o).size).nextGen1
              (c.nextGen1.data + c.nextGen1.position * B) + (Map.leaf 2 1 false).bitsPerRecord
          then X k
          else (Map.leaf 2 1 false).bit B (c.afterCopyTo B Gen.nextGen1 o (G.lay o).size).nextGen1
            (c.afterCopyTo B Gen.nextGen1 o (G.lay o).size).mem k) →
      (∀ a, ¬ c0.nextAgeMap.inFootprint B c0.nextGen1 a →
        mA a = (c.afterCopyTo B Gen.nextGen1 o (G.lay o).size).mem a) ∧
      (∀ q, c.nextGen1.contains B q = true →
        (Map.leaf 2 1 false).get B (c.afterCopyTo B Gen.nextGen1 o (G.lay o).size).nextGen1 mA q
          = (Map.leaf 2 1 false).get B c.nextGen1 c.mem q) := by
  have hB := hs.B_pos
  obtain ⟨p1, p2, p3, p4, p5, p6, p7, p8, p9⟩ := hi.copy_pre hs o ho hm hw
  rw [hd] at p2 p3 p8 p9
  simp only [Context.seg] at p2 p3 p8 p9
  have hd1 := hi.seg_data Gen.nextGen1
  have hk1 := hi.seg_capacity Gen.nextGen1
  simp only [Context.seg] at hd1 hk1
  have hok := ageMap_ok hs Gen.nextGen1
  simp only [Context.seg] at hok
  have hszB := Nat.mul_pos (Nat.pos_of_ne_zero p4) hB
  have hpc := (hi.pos Gen.nextGen1).2
  simp only [Context.seg] at hpc
  have hokc : (Map.leaf 2 1 false).LevelOK c.nextGen1 := by
    unfold Map.LevelOK at hok ⊢
    rw [hk1]; exact hok
  have hcon : (c.afterCopyTo B Gen.nextGen1 o (G.lay o).size).nextGen1.contains B
      (c.nextGen1.data + c.nextGen1.position * B) = true := by
    rw [Segment.contains_iff]
    refine ⟨?_, Nat.le_add_right _ _, ?_⟩
    · show c.nextGen1.position + (G.lay o).size ≠ 0
      omega
    · show _ < c.nextGen1.data + (c.nextGen1.position + (G.lay o).size) * B
      rw [Nat.add_mul]; omega
  have hok1 : (Map.leaf 2 1 false).LevelOK
      (c.afterCopyTo B Gen.nextGen1 o (G.lay o).size).nextGen1 := by
    unfold Map.LevelOK at hok ⊢
    show _ ∧ _ ∧ _ ∧ c.nextGen1.capacity * _ < _
    rw [hk1]; exact hok
  refine ⟨hcon, p2, hok1, ?_⟩
  intro mA X hfr hb
  have hA : ∀ a, ¬ c0.nextAgeMap.inFootprint B c0.nextGen1 a →
      mA a = (c.afterCopyTo B Gen.nextGen1 o (G.lay o).size).mem a := by
    intro a ha
    apply hfr
    intro h
    apply ha
    rw [hs.nextAgeMap_eq]
    have hcap : 1 ≤ c.nextGen1.capacity := by omega
    have := Map.inArea_inFootprint B _ _ a hcap h
    unfold Map.inFootprint at this ⊢
    rw [← hd1, ← hk1]
    exact this
  refine ⟨hA, ?_⟩
  intro q hq
  obtain ⟨q1, q2, q3⟩ := (Segment.contains_iff B _ q).1 hq
  have hq1 : (c.afterCopyTo B Gen.nextGen1 o (G.lay o).size).nextGen1.contains B q = true := by
    rw [Segment.contains_iff]
    refine ⟨?_, q2, ?_⟩
    · show c.nextGen1.position + (G.lay o).size ≠ 0
      omega
    · show _ < c.nextGen1.data + (c.nextGen1.position + (G.lay o).size) * B
      rw [Nat.add_mul]; omega
  have hidx := Segment.index_lt B hB _ q hq
  rw [age_other hB _ _ mA _ q X hcon hq1 p2 hok1 ?_ hb]
  · rw [Map.get_seg B c.nextGen1 (c.afterCopyTo B Gen.nextGen1 o (G.lay o).size).nextGen1
      _ _ q rfl rfl hq hq1 hpc p2 hokc]
    apply next_age_congr hs _ hd1 hk1 hpc _ _ q hq
    intro a ha
    rw [afterCopyTo_mem]
    apply copyWords_out B hB
    rw [hi.lay_obj o ho]
    by_contra hcon2
    exact p9 a (by simp only [Context.seg] at hcon2 ⊢; omega)
      (by simp only [Context.seg] at hcon2 ⊢; omega) ha
  · show (c.nextGen1.data + c.nextGen1.position * B - c.nextGen1.data) / B
      ≠ (q - c.nextGen1.data) / B
    rw [Nat.add_sub_cancel_left, Nat.mul_div_cancel _ hB]
    omega

/-- `copy` of an object not yet copied succeeds, and the context after it is
`Copied`. -/
theorem copy_spec (hs : Start B c0 G) (hi : Inv B c0 G c cp) (o : Nat)
    (ho : o ∈ G.objs) (hm : movable B c0 o) (hw : o ∉ cp) :
    ∃ r c1, copy B c o = some (r, c1) ∧ Copied B c0 G c c1 o r := by
  have hB := hs.B_pos
  obtain ⟨p1, p2, p3, p4, p5, p6, p7, p8, p9⟩ := hi.copy_pre hs o ho hm hw
  by_cases h2 : c0.gen2.contains B o = true
  · -- an object of gen2, Major collection
    have hd : dest B c0 G o = Gen.nextGen2 := by unfold dest; rw [if_pos h2]
    have hmode : c.mode = MajorCollection := by
      rw [hi.mode_eq]
      rcases hm with h | h
      · exact h
      · rw [h2] at h; exact absurd h (by decide)
    rw [hd] at p2 p3
    have e := copyTo_eq B c Gen.nextGen2 o (G.lay o).size p4 p2 p3
    refine ⟨_, _, ?_, copied_plain hs hi o ho hm hw Gen.nextGen2 hd (by decide) c rfl rfl
      (fun _ => rfl) rfl rfl (Or.inl ⟨rfl, fun h => absurd h (by decide)⟩)
      (copyTo_shape B c _ _ o _ _ (by decide) e)⟩
    unfold copy copy2
    simp only [p1, p5, h2, if_true, hmode, e]
  · have h2f : c0.gen2.contains B o = false := by simpa using h2
    have h2c : c.gen2.contains B o = false := by rw [p5]; exact h2f
    by_cases h1 : c0.gen1.contains B o = true
    · obtain ⟨a, ha1, ha2, ha3⟩ := hi.age_eq hs o h1
      have h1c : c.gen1.contains B o = true := by rw [hi.gen1_eq]; exact h1
      by_cases hat : a = TenureThreshold
      · subst hat
        by_cases hmode : c.mode = MinorCollection
        · -- tenured into gen2
          have hd : dest B c0 G o = Gen.gen2 := by
            unfold dest
            rw [if_neg h2, if_pos h1, if_pos ha2, if_pos (by rw [← hi.mode_eq]; exact hmode)]
          rw [hd] at p2 p3
          have hrem : c.gen2.remaining ≥ (G.lay o).size := by
            unfold Segment.remaining
            simp only [Context.seg] at p2 p3
            rw [usub_small _ _ (by omega) p3]
            omega
          by_cases hb : c.gen2Base = Top
          · have e := copyTo_eq B { c with gen2Base := c.gen2.position } Gen.gen2 o
              (G.lay o).size p4 p2 p3
            refine ⟨_, _, ?_, copied_plain hs hi o ho hm hw Gen.gen2 hd (by decide)
              { c with gen2Base := c.gen2.position } rfl rfl
              (fun g => by cases g <;> rfl) rfl rfl (Or.inr ⟨hb, rfl, rfl⟩)
              ((copyTo_shape B _ _ Gen.gen2 o _ _ (by decide) e).trans rfl)⟩
            unfold copy copy2
            simp only [p1, h2c, h1c, ha3, if_true, if_false, Bool.false_eq_true]
            rw [if_pos hmode, if_pos hrem, if_pos hb, e]
            rfl
          · have e := copyTo_eq B c Gen.gen2 o (G.lay o).size p4 p2 p3
            refine ⟨_, _, ?_, copied_plain hs hi o ho hm hw Gen.gen2 hd (by decide) c rfl rfl
              (fun _ => rfl) rfl rfl (Or.inl ⟨rfl, fun _ => hb⟩)
              (copyTo_shape B _ _ Gen.gen2 o _ _ (by decide) e)⟩
            unfold copy copy2
            simp only [p1, h2c, h1c, ha3, if_true, if_false, Bool.false_eq_true]
            rw [if_pos hmode, if_pos hrem, if_neg hb, e]
        · -- tenured into nextGen2
          have hd : dest B c0 G o = Gen.nextGen2 := by
            unfold dest
            rw [if_neg h2, if_pos h1, if_pos ha2, if_neg (by rw [← hi.mode_eq]; exact hmode)]
          rw [hd] at p2 p3
          have e := copyTo_eq B c Gen.nextGen2 o (G.lay o).size p4 p2 p3
          refine ⟨_, _, ?_, copied_plain hs hi o ho hm hw Gen.nextGen2 hd (by decide) c rfl rfl
            (fun _ => rfl) rfl rfl (Or.inl ⟨rfl, fun h => absurd h (by decide)⟩)
            (copyTo_shape B _ _ Gen.nextGen2 o _ _ (by decide) e)⟩
          unfold copy copy2
          simp only [p1, h2c, h1c, ha3, if_true, if_false, Bool.false_eq_true]
          rw [if_neg hmode, e]
      · -- aged in nextGen1
        have hd : dest B c0 G o = Gen.nextGen1 := by
          unfold dest
          rw [if_neg h2, if_pos h1, if_neg (by rw [ha2]; simpa using hat)]
        rw [hd] at p2 p3
        have e := copyTo_eq B c Gen.nextGen1 o (G.lay o).size p4 p2 p3
        obtain ⟨f1, f2, f3, f4⟩ := aged_facts hs hi o ho hm hw hd
        obtain ⟨mA, s1, s2, s3⟩ := Map.setOnly_spec B hB _ (Map.leaf 2 1 false)
          (c.afterCopyTo B Gen.nextGen1 o (G.lay o).size).mem _ (a + 1) f1 f2 f3
        obtain ⟨g1, g2⟩ := f4 mA _ s2 s3
        have hna : nextAge B c0 G o = a + 1 := by
          unfold nextAge
          rw [if_pos h1, ha2]
        have e1 : c.nextAgeMap = Map.leaf 2 1 false := by
          rw [← hs.nextAgeMap_eq]; exact congrArg Shape.nextAgeMap hi.shape
        have hage := Map.get_setOnly B hB _ _ _ mA _ (a + 1) f1 f2 f3 s1
        have hmod : (a + 1) % 2 ^ (Map.leaf 2 1 false).bitsPerRecord = a + 1 := by
          apply Nat.mod_eq_of_lt
          simp only [Map.bitsPerRecord]
          unfold TenureThreshold at ha1 hat
          omega
        rw [hmod, ← hna] at hage
        refine ⟨_, _, ?_, copied_aged hs hi o ho hm hw hd mA
          (if a + 1 = TenureThreshold then u32 (c.tenureFootprint + (G.lay o).size)
           else c.tenureFootprint) g1 hage g2 ?_
          (copyTo_shape B _ _ Gen.nextGen1 o _ _ (by decide) e)⟩
        · unfold copy copy2
          simp only [p1, h2c, h1c, ha3, if_true, if_false, Bool.false_eq_true]
          rw [if_neg hat, e]
          simp only []
          have s1c : (c.afterCopyTo B Gen.nextGen1 o (G.lay o).size).nextAgeMap.setOnly B
              (c.afterCopyTo B Gen.nextGen1 o (G.lay o).size).nextGen1
              (c.afterCopyTo B Gen.nextGen1 o (G.lay o).size).mem
              ((c.seg Gen.nextGen1).data + (c.seg Gen.nextGen1).position * B) (a + 1)
              = some mA := by
            rw [← s1]
            show c.nextAgeMap.setOnly B _ _ _ _ = _
            rw [e1]
            rfl
          rw [s1c]
          rfl
        · by_cases h3 : a + 1 = TenureThreshold
          · rw [if_pos h3]
            unfold tenureGrowth
            rw [if_pos ⟨hd, h1, by rw [hna]; exact h3⟩]
          · rw [if_neg h3]
            apply hi.tenure_same
            unfold tenureGrowth
            rw [if_neg]
            rintro ⟨-, -, h4⟩
            rw [hna] at h4
            exact h3 h4
    · -- an object outside the segments
      have h1f : c0.gen1.contains B o = false := by simpa using h1
      have h1c : c.gen1.contains B o = false := by rw [hi.gen1_eq]; exact h1f
      have hd : dest B c0 G o = Gen.nextGen1 := by
        unfold dest
        rw [if_neg h2, if_neg h1]
      rw [hd] at p2 p3
      have e := copyTo_eq B c Gen.nextGen1 o (G.lay o).size p4 p2 p3
      obtain ⟨f1, f2, f3, f4⟩ := aged_facts hs hi o ho hm hw hd
      obtain ⟨mA, s1, s2, s3⟩ := Map.clearOnly_spec B hB _ (Map.leaf 2 1 false)
        (c.afterCopyTo B Gen.nextGen1 o (G.lay o).size).mem _ f1 f2 f3
      obtain ⟨g1, g2⟩ := f4 mA (fun _ => false) s2 s3
      have hna : nextAge B c0 G o = 0 := by
        unfold nextAge
        rw [if_neg h1]
      have e1 : c.nextAgeMap = Map.leaf 2 1 false := by
        rw [← hs.nextAgeMap_eq]; exact congrArg Shape.nextAgeMap hi.shape
      have hage : (Map.leaf 2 1 false).get B
          (c.afterCopyTo B Gen.nextGen1 o (G.lay o).size).nextGen1 mA
          (c.nextGen1.data + c.nextGen1.position * B) = some (nextAge B c0 G o) := by
        rw [Map.get_eq B _ _ mA _ f1 f2 f3, hna]
        have := Map.readBits_digits B (c.afterCopyTo B Gen.nextGen1 o (G.lay o).size).nextGen1
          (Map.leaf 2 1 false) mA 0 (Map.leaf 2 1 false).bitsPerRecord
          ((Map.leaf 2 1 false).recordIndex B _ (c.nextGen1.data + c.nextGen1.position * B)) 0
          (fun t ht => by
            rw [s3, if_pos ⟨Nat.le_add_right _ _, Nat.add_lt_add_left ht _⟩]; simp)
        rw [this]; simp
      refine ⟨_, _, ?_, copied_aged hs hi o ho hm hw hd mA c.tenureFootprint g1 hage g2 ?_
        (copyTo_shape B _ _ Gen.nextGen1 o _ _ (by decide) e)⟩
      · unfold copy copy2
        simp only [p1, h2c, h1c, p6, p7, if_true, if_false, Bool.false_eq_true, Bool.not_false,
          Bool.and_self]
        rw [e]
        simp only []
        have s1c : (c.afterCopyTo B Gen.nextGen1 o (G.lay o).size).nextAgeMap.clear B
            (c.afterCopyTo B Gen.nextGen1 o (G.lay o).size).nextGen1
            (c.afterCopyTo B Gen.nextGen1 o (G.lay o).size).mem
            ((c.seg Gen.nextGen1).data + (c.seg Gen.nextGen1).position * B)
            = some mA := by
          rw [← s1]
          show c.nextAgeMap.clear B _ _ _ = _
          rw [e1]
          rfl
        rw [s1c]
        rfl
      · apply hi.tenure_same
        unfold tenureGrowth
        rw [if_neg]
        rintro ⟨-, h4, -⟩
        rw [h1f] at h4
        exact absurd h4 (by decide)

end CopySpec

end Heap

namespace Heap

open CollectionType

section UpdateSpec

variable {B : Nat} {c0 c : Context} {G : Graph} {cp : List Nat}

/-- Writes outside the protected addresses keep the invariant. -/
theorem Inv.inv_frame (hs : Start B c0 G) (hi : Inv B c0 G c cp) (m1 : Mem)
    (h : ∀ a, Protected B c0 G cp a → m1 a = c.mem a) : Inv B c0 G { c with mem := m1 } cp := by
  have hB := hs.B_pos
  have hf : ∀ o ∈ cp, m1 o = c.mem o := fun o ho => h o (Or.inr (Or.inl ho))
  refine
    { shape := hi.shape
      pos := hi.pos
      lay_obj := hi.lay_obj
      white := ?_
      cp_nodup := hi.cp_nodup
      cp_sub := hi.cp_sub
      fwd := ?_
      disj := ?_
      base := hi.base
      age_frame := ?_
      room := hi.room
      ages := ?_
      tenure := hi.tenure
      used := hi.used }
  · intro o ho hw hm k hk
    show m1 _ = _
    rw [h _ (Or.inl ⟨o, ho, hw, hm, Nat.le_add_right _ _, by
      have := Nat.mul_lt_mul_of_pos_right hk hB
      omega⟩)]
    exact hi.white o ho hw hm k hk
  · intro o ho
    show IsCopy B c0 _ _ (m1 o) _ ∧ c.client.layout (m1 o) = _
    rw [hf o ho]
    exact hi.fwd o ho
  · intro o ho o1 ho1 hne
    show m1 o + _ ≤ m1 o1 ∨ m1 o1 + _ ≤ m1 o
    rw [hf o ho, hf o1 ho1]
    exact hi.disj o ho o1 ho1 hne
  · intro a ha
    show m1 a = _
    rw [h a (Or.inr (Or.inr (Or.inl ha)))]
    exact hi.age_frame a ha
  · intro o ho hd
    show c.nextAgeMap.get B c.nextGen1 m1 (m1 o) = _
    rw [hf o ho]
    obtain ⟨f1, -⟩ := hi.fwd o ho
    have hcon := f1.contains hB _ _ _ (hs.obj_ok o (hi.cp_sub o ho).1).2.2.1
    rw [hd] at hcon
    rw [hi.next_age_frame hs m1 _ hcon (fun a ha => h a (Or.inr (Or.inr (Or.inr ha))))]
    exact hi.ages o ho hd

/-- `update2` on an object of the graph. -/
theorem update2_spec (hs : Start B c0 G) (hi : Inv B c0 G c cp) (o : Nat) (ho : o ∈ G.objs) :
    ∃ r nv c1, update2 B c o = some (r, nv, c1) ∧
      ((nv = false ∧ c1 = c ∧ ((isOld B c0 o ∧ r = o) ∨ (o ∈ cp ∧ r = c.mem o))) ∨
       (nv = true ∧ movable B c0 o ∧ o ∉ cp ∧ Copied B c0 G c c1 o r)) := by
  have hB := hs.B_pos
  obtain ⟨o1, o2, o3, o4, o5, o6⟩ := hs.obj_ok o ho
  have hnt : ¬ c0.inToSpace B o := hs.obj_not_toSpace o ho o (Nat.le_refl _)
    (by have := Nat.mul_pos o3 hB; omega)
  have hg2 := hi.gen2_contains o hnt
  unfold update2
  by_cases hold : c.mode = MinorCollection ∧ c.gen2.contains B o = true
  · rw [if_pos hold]
    refine ⟨o, false, c, rfl, Or.inl ⟨rfl, rfl, Or.inl ⟨⟨?_, ?_⟩, rfl⟩⟩⟩
    · rw [← hi.mode_eq]; exact hold.1
    · rw [← hg2]; exact hold.2
  · rw [if_neg hold]
    have hm : movable B c0 o := by
      unfold movable
      rw [← hi.mode_eq, ← hg2]
      by_cases h1 : c.mode = MajorCollection
      · exact Or.inl h1
      · right
        have : c.mode = MinorCollection := by
          cases hmm : c.mode
          · rfl
          · exact absurd hmm h1
        by_contra h2
        exact hold ⟨this, by simpa using h2⟩
    unfold update3
    by_cases hcp : o ∈ cp
    · obtain ⟨w1, w2⟩ := hi.copied_wasCollected hs o hcp
      rw [if_pos w1, w2]
      exact ⟨c.mem o, false, c, rfl, Or.inl ⟨rfl, rfl, Or.inr ⟨hcp, rfl⟩⟩⟩
    · have w1 := hi.white_not_collected hs o ho hm hcp
      rw [w1]
      obtain ⟨r, c1, e, hc⟩ := copy_spec hs hi o ho hm hcp
      rw [e]
      exact ⟨r, true, c1, by simp, Or.inr ⟨rfl, hm, hcp, hc⟩⟩

theorem Inv.heapMap_ok (hs : Start B c0 G) (hi : Inv B c0 G c cp) :
    (c.mapOf c.oldGen).AllLevels (Map.LevelOK (c.seg c.oldGen)) ∧
    (c.mapOf c.oldGen).AllLevels (fun l => 1 < 2 ^ l.bitsPerRecord) ∧
    (c.seg c.oldGen).position ≤ (c.seg c.oldGen).capacity ∧
    (∀ a, (c.mapOf c.oldGen).inFootprint B (c.seg c.oldGen) a → c0.inCards B a) := by
  have key : ∀ g, g = Gen.gen2 ∨ g = Gen.nextGen2 →
      (c.mapOf g).AllLevels (Map.LevelOK (c.seg g)) ∧
      (c.mapOf g).AllLevels (fun l => 1 < 2 ^ l.bitsPerRecord) ∧
      (c.seg g).position ≤ (c.seg g).capacity ∧
      (∀ a, (c.mapOf g).inFootprint B (c.seg g) a → c0.inCards B a) := by
    intro g hg
    have hm := hi.mapOf_eq g
    have hk := hi.seg_capacity g
    have hd := hi.seg_data g
    have hcap := (hs.seg_ok g).2.2
    have hok : (c0.mapOf g).AllLevels fun l => 1 ≤ l.scale ∧ l.bitsPerRecord = 1 := by
      rcases hg with rfl | rfl
      · exact hs.heapMap_ok
      · exact hs.nextHeapMap_ok
    rw [hm]
    refine ⟨?_, ?_, (hi.pos g).2, ?_⟩
    · apply Map.AllLevels_mono _ _ _ _ hok
      rintro l ⟨h1, h2⟩
      unfold Map.LevelOK
      rw [h2, hk]
      exact ⟨by omega, by omega, h1, by omega⟩
    · apply Map.AllLevels_mono _ _ _ _ hok
      rintro l ⟨h1, h2⟩
      rw [h2]; decide
    · intro a ha
      unfold Map.inFootprint at ha
      rw [hd, hk] at ha
      unfold Context.inCards
      rcases hg with rfl | rfl
      · left; exact ha
      · right; exact ha
  unfold Context.oldGen
  split
  · exact key _ (Or.inl rfl)
  · exact key _ (Or.inr rfl)

theorem update_eq (B : Nat) (c : Context) (p : Nat) (h : mask B (c.mem p) ≠ 0) :
    update B c p =
      match update2 B c (mask B (c.mem p)) with
      | none => none
      | some (r, nv, c1) =>
        if r ≠ 0 ∧ (c1.seg c1.oldGen).contains B p = true ∧
            (c1.seg c1.oldGen).contains B r = false then
          ((c1.mapOf c1.oldGen).set B (c1.seg c1.oldGen) c1.mem p 1).map fun m =>
            (r, nv, { c1 with mem := m })
        else some (r, nv, c1) := by
  unfold update
  rw [if_neg h]
  cases hu : update2 B c (mask B (c.mem p)) with
  | none => rfl
  | some x =>
    obtain ⟨r, nv, c1⟩ := x
    simp only []
    by_cases hr : r = 0
    · simp [hr]
    · unfold Context.oldGen
      by_cases hm : c1.mode = MinorCollection
      · simp only [hr, hm, ne_eq, not_false_eq_true, if_true, true_and, Context.seg,
          Context.mapOf]
      · simp only [hr, hm, ne_eq, not_false_eq_true, if_true, if_false, true_and, Context.seg,
          Context.mapOf]

/-- The card mark of `update`: the map of the old generation is written when
the condition holds, and only then. -/
theorem card_spec (hs : Start B c0 G) {cp1 : List Nat} {c1 : Context} (hi : Inv B c0 G c1 cp1)
    (p r : Nat) (nv : Bool) :
    ∃ m2, (if r ≠ 0 ∧ (c1.seg c1.oldGen).contains B p = true ∧
            (c1.seg c1.oldGen).contains B r = false then
          ((c1.mapOf c1.oldGen).set B (c1.seg c1.oldGen) c1.mem p 1).map fun m =>
            (r, nv, { c1 with mem := m })
        else some (r, nv, c1)) = some (r, nv, { c1 with mem := m2 }) ∧
      (∀ a, ¬ (c1.mapOf c1.oldGen).inFootprint B (c1.seg c1.oldGen) a → m2 a = c1.mem a) ∧
      ((¬ cardCond B c1 p r ∧ m2 = c1.mem) ∨
       (cardCond B c1 p r ∧ (c1.mapOf c1.oldGen).AllLevels
          (fun l => l.RecordWritten B (c1.seg c1.oldGen) c1.mem m2 p 1))) := by
  have hB := hs.B_pos
  by_cases hc : cardCond B c1 p r
  · obtain ⟨k1, k2, k3, k4⟩ := hi.heapMap_ok hs
    obtain ⟨m2, e, f, a2⟩ := Map.map_set_spec B hB (c1.seg c1.oldGen) p 1 hc.2.1 k3 _ c1.mem k1 k2
    refine ⟨m2, ?_, ?_, Or.inr ⟨hc, ?_⟩⟩
    · have hc1 : r ≠ 0 ∧ (c1.seg c1.oldGen).contains B p = true ∧
          (c1.seg c1.oldGen).contains B r = false := hc
      rw [if_pos hc1, e]; rfl
    · exact f
    · exact Map.AllLevels_mono _ _ _ (fun l h => h.1) a2
  · have hc1 : ¬ (r ≠ 0 ∧ (c1.seg c1.oldGen).contains B p = true ∧
          (c1.seg c1.oldGen).contains B r = false) := hc
    exact ⟨c1.mem, by rw [if_neg hc1], fun _ _ => rfl, Or.inl ⟨hc, rfl⟩⟩

/-- `update` of a slot holding null or a reference to an object of the graph. -/
theorem update_spec (hs : Start B c0 G) (hi : Inv B c0 G c cp) (p : Nat)
    (hv : mask B (c.mem p) = 0 ∨ mask B (c.mem p) ∈ G.objs) :
    ∃ r nv c1 m2, update B c p = some (r, nv, { c1 with mem := m2 }) ∧
      (∀ a, ¬ (c1.mapOf c1.oldGen).inFootprint B (c1.seg c1.oldGen) a → m2 a = c1.mem a) ∧
      ((nv = false ∧ c1 = c ∧
          ((mask B (c.mem p) = 0 ∧ r = 0) ∨
           (isOld B c0 (mask B (c.mem p)) ∧ r = mask B (c.mem p)) ∨
           (mask B (c.mem p) ∈ cp ∧ r = c.mem (mask B (c.mem p))))) ∨
       (nv = true ∧ mask B (c.mem p) ∈ G.objs ∧ movable B c0 (mask B (c.mem p)) ∧
          mask B (c.mem p) ∉ cp ∧ Copied B c0 G c c1 (mask B (c.mem p)) r)) ∧
      ((¬ cardCond B c1 p r ∧ m2 = c1.mem) ∨
       (cardCond B c1 p r ∧ (c1.mapOf c1.oldGen).AllLevels
          (fun l => l.RecordWritten B (c1.seg c1.oldGen) c1.mem m2 p 1))) := by
  by_cases h0 : mask B (c.mem p) = 0
  · refine ⟨0, false, c, c.mem, ?_, fun _ _ => rfl, Or.inl ⟨rfl, rfl, Or.inl ⟨h0, rfl⟩⟩,
      Or.inl ⟨fun h => h.1 rfl, rfl⟩⟩
    unfold update
    rw [if_pos h0]
  · have ho : mask B (c.mem p) ∈ G.objs := hv.resolve_left h0
    obtain ⟨r, nv, c1, e, hr⟩ := update2_spec hs hi _ ho
    rw [update_eq B c p h0, e]
    simp only []
    rcases hr with ⟨h1, h2, h3⟩ | ⟨h1, h2, h3, h4⟩
    · subst h2
      obtain ⟨m2, e2, f2, g2⟩ := card_spec hs hi p r nv
      exact ⟨r, nv, c1, m2, e2, f2, Or.inl ⟨h1, rfl, Or.inr h3⟩, g2⟩
    · obtain ⟨m2, e2, f2, g2⟩ := card_spec hs (hi.copy_step hs _ r c1 ho h2 h3 h4) p r nv
      exact ⟨r, nv, c1, m2, e2, f2, Or.inr ⟨h1, ho, h2, h3, h4⟩, g2⟩

end UpdateSpec

end Heap

namespace Heap

/-! ## The bitset of the walker on stale memory -/

theorem wordAt_zeroWords (B : Nat) (hB : 0 < B) (m : Mem) (p a n k : Nat) :
    wordAt B (m.zeroWords B (p + a * B) n) p k =
      if a ≤ k ∧ k < a + n then 0 else wordAt B m p k := by
  unfold wordAt Mem.zeroWords
  have h1 : (p + a * B ≤ p + k * B) ↔ a ≤ k := by
    rw [Nat.add_le_add_iff_left]
    exact ⟨fun h => Nat.le_of_mul_le_mul_right h hB, fun h => Nat.mul_le_mul_right B h⟩
  have h2 : (p + k * B < p + a * B + n * B) ↔ k < a + n := by
    rw [Nat.add_assoc, Nat.add_lt_add_iff_left, ← Nat.add_mul]
    exact ⟨fun h => Nat.lt_of_mul_lt_mul_right h, fun h => Nat.mul_lt_mul_of_pos_right h hB⟩
  simp only [h1, h2]

theorem zeroWords_frame (B : Nat) (m : Mem) (a n x : Nat) (h : x < a ∨ a + n * B ≤ x) :
    (m.zeroWords B a n) x = m x := by
  unfold Mem.zeroWords
  rw [if_neg (by omega)]

theorem W_ge (B : Nat) (hB : B = 4 ∨ B = 8) : 32 ≤ BitsPerWord B := by
  rcases BitsPerWord_cases B hB with e | e <;> rw [e] <;> decide

/-- After `bitsetInit` the bitset is empty. -/
theorem BitsetPartial.grow_init (B : Nat) (hB : B = 4 ∨ B = 8) (m : Mem) (p : Nat) :
    BitsetPartial B (bitsetInit B m p) p ∅ 0 := by
  have hB0 : 0 < B := by rcases hB with rfl | rfl <;> decide
  have hW := W_ge B hB
  have e0 : wordAt B (bitsetInit B m p) p 0 = 0 := by
    unfold bitsetInit
    have := wordAt_zeroWords B hB0 m p 0 1 0
    rw [Nat.zero_mul, Nat.add_zero] at this
    rw [this, if_pos (by omega)]
  refine ⟨?_, ?_, ?_, ?_, ?_, ?_, ?_, ?_, ?_, ?_⟩
  · rw [e0]; exact Nat.two_pow_pos _
  · intro i _; rw [e0]; simp
  · rw [e0]; simp
  · intro j hj; simp at hj
  · rcases BitsPerWord_cases B hB with e | e <;> rw [e] <;> decide
  · intro h; omega
  · intro h; omega
  · intro j hj; simp at hj
  · intro h; omega
  · intro h; omega

/-- `bitsetClear(p, last, e)` readies the words up to the one of the offset
`e`. -/
theorem BitsetPartial.clear (B : Nat) (hB : B = 4 ∨ B = 8) (m : Mem) (p : Nat) (S : Finset Nat)
    (last e : Nat) (h : BitsetPartial B m p S last) (hle : last ≤ e)
    (hb : e + BitsPerWord B * 2 + 1 < 2 ^ 32) :
    BitsetPartial B (bitsetClear B m p last e) p S e := by
  have hB0 : 0 < B := by rcases hB with rfl | rfl <;> decide
  have hW := W_ge B hB
  have hW0 : 0 < BitsPerWord B := by omega
  unfold bitsetClear
  by_cases h1 : e < BitsPerWord B - 1
  · rw [if_pos h1]
    exact ⟨h.w0, h.low, h.ext, fun j hj => Nat.le_trans (h.le j hj) hle, hb,
      fun h2 => by omega, fun h2 => by omega, h.len, fun h2 => by omega, fun h2 => by omega⟩
  · rw [if_neg h1]
    have h1' : BitsPerWord B - 1 ≤ e := by omega
    obtain ⟨e1, e2, e3⟩ := big_index B hB e h1' hb
    by_cases h2 : last < BitsPerWord B - 1
    · rw [if_pos h2, e1, e2]
      have hq0 := Nat.zero_le ((e - (BitsPerWord B - 1)) / BitsPerWord B)
      have hnb : ∀ j ∈ S, ¬ BitsPerWord B - 1 ≤ j := fun j hj hc => by
        have := h.le j hj; omega
      have hz : ∀ k, wordAt B (m.zeroWords B (p + B)
          ((e - (BitsPerWord B - 1)) / BitsPerWord B + 3)) p k =
          if 1 ≤ k ∧ k < 1 + ((e - (BitsPerWord B - 1)) / BitsPerWord B + 3) then 0
          else wordAt B m p k := by
        intro k
        have := wordAt_zeroWords B hB0 m p 1 ((e - (BitsPerWord B - 1)) / BitsPerWord B + 3) k
        rw [Nat.one_mul] at this
        exact this
      have z0 : wordAt B (m.zeroWords B (p + B)
          ((e - (BitsPerWord B - 1)) / BitsPerWord B + 3)) p 0 = wordAt B m p 0 := by
        rw [hz, if_neg (by omega)]
      refine ⟨?_, ?_, ?_, fun j hj => Nat.le_trans (h.le j hj) hle, hb, ?_, ?_, ?_, ?_, ?_⟩
      · rw [z0]; exact h.w0
      · rw [z0]; exact h.low
      · rw [z0]; exact h.ext
      · intro _; rw [hz, if_pos (by omega)]
      · intro _ k hk
        unfold spillBit
        have hk0 := Nat.zero_le (k / BitsPerWord B)
        rw [hz, if_pos (by omega)]
        simp only [Nat.zero_testBit, Bool.false_eq_true, false_iff]
        intro hc
        have := h.le _ hc
        omega
      · intro j hj hjb; exact absurd hjb (hnb j hj)
      · intro _; rw [hz, if_pos (by omega)]; omega
      · intro _ k hk
        rw [hz, if_pos (by omega)]
        exact Nat.two_pow_pos _
    · rw [if_neg h2]
      have h2' : BitsPerWord B - 1 ≤ last := by omega
      obtain ⟨s1, s2, s3⟩ := big_index B hB last h2' (by omega)
      simp only [e1, e2, s1, s2]
      have hmono : (last - (BitsPerWord B - 1)) / BitsPerWord B
          ≤ (e - (BitsPerWord B - 1)) / BitsPerWord B :=
        Nat.div_le_div_right (by omega)
      by_cases h3 : (e - (BitsPerWord B - 1)) / BitsPerWord B + 3 >
          (last - (BitsPerWord B - 1)) / BitsPerWord B + 3
      · rw [if_pos h3]
        obtain ⟨sw, hsw⟩ : ∃ sw, (last - (BitsPerWord B - 1)) / BitsPerWord B = sw := ⟨_, rfl⟩
        obtain ⟨ew, hew⟩ : ∃ ew, (e - (BitsPerWord B - 1)) / BitsPerWord B = ew := ⟨_, rfl⟩
        simp only [hsw, hew] at h3 hmono ⊢
        have hz : ∀ k, wordAt B (m.zeroWords B (p + (sw + 3 + 1) * B) (ew + 3 - (sw + 3))) p k =
            if sw + 3 + 1 ≤ k ∧ k < sw + 3 + 1 + (ew + 3 - (sw + 3)) then 0
            else wordAt B m p k := fun k => wordAt_zeroWords B hB0 m p _ _ k
        have zl : ∀ k, k ≤ sw + 3 → wordAt B (m.zeroWords B (p + (sw + 3 + 1) * B)
            (ew + 3 - (sw + 3))) p k = wordAt B m p k := by
          intro k hk; rw [hz, if_neg (by omega)]
        refine ⟨?_, ?_, ?_, fun j hj => Nat.le_trans (h.le j hj) hle, hb, ?_, ?_, ?_, ?_, ?_⟩
        · rw [zl 0 (by omega)]; exact h.w0
        · rw [zl 0 (by omega)]; exact h.low
        · rw [zl 0 (by omega)]; exact h.ext
        · intro _; rw [zl 1 (by omega)]; exact h.idx h2'
        · intro _ k hk
          have hk0 := Nat.zero_le (k / BitsPerWord B)
          by_cases hk2 : k / BitsPerWord B ≤ sw
          · unfold spillBit
            rw [zl _ (by omega)]
            exact h.spill h2' k (by rw [hsw]; exact hk2)
          · unfold spillBit
            rw [hz, if_pos (by omega)]
            simp only [Nat.zero_testBit, Bool.false_eq_true, false_iff]
            intro hc
            have hkl := h.le _ hc
            have : k / BitsPerWord B ≤ (last - (BitsPerWord B - 1)) / BitsPerWord B :=
              Nat.div_le_div_right (by omega)
            rw [hsw] at this
            omega
        · intro j hj hjb; rw [zl 2 (by omega)]; exact h.len j hj hjb
        · intro _; rw [zl 2 (by omega)]; have := h.lenb h2'; rw [hsw] at this; omega
        · intro _ k hk
          by_cases hk2 : k ≤ sw
          · rw [zl _ (by omega)]; exact h.words h2' k (by rw [hsw]; exact hk2)
          · rw [hz, if_pos (by omega)]; exact Nat.two_pow_pos _
      · rw [if_neg h3]
        have heq : (e - (BitsPerWord B - 1)) / BitsPerWord B
            = (last - (BitsPerWord B - 1)) / BitsPerWord B := by omega
        refine ⟨h.w0, h.low, h.ext, fun j hj => Nat.le_trans (h.le j hj) hle, hb,
          fun _ => h.idx h2', ?_, h.len, ?_, ?_⟩
        · intro _ k hk; rw [heq] at hk; exact h.spill h2' k hk
        · intro _; rw [heq]; exact h.lenb h2'
        · intro _ k hk; rw [heq] at hk; exact h.words h2' k hk

theorem BitsetPartial.grow_set_low (B : Nat) (hB : B = 4 ∨ B = 8) (m : Mem) (p : Nat) (S : Finset Nat)
    (last i : Nat) (h : BitsetPartial B m p S last) (hi : i < BitsPerWord B - 1)
    (hil : i ≤ last) :
    BitsetPartial B (bitsetSet B m p i true) p (insert i S) last := by
  have hB0 : 0 < B := by rcases hB with rfl | rfl <;> decide
  have hW := W_ge B hB
  rw [bitsetSet_low B m p i true hi]
  simp only [if_true]
  have r0 : wordAt B (setWordAt B m p 0 (wordAt B m p 0 ||| 1 <<< i)) p 0
      = wordAt B m p 0 ||| 1 <<< i := wordAt_setWordAt_self B m p 0 _
  have rk : ∀ k, k ≠ 0 → wordAt B (setWordAt B m p 0 (wordAt B m p 0 ||| 1 <<< i)) p k
      = wordAt B m p k := fun k hk => wordAt_setWordAt_ne B hB0 _ _ _ _ _ hk
  refine ⟨?_, ?_, ?_, ?_, h.bound, ?_, ?_, ?_, ?_, ?_⟩
  · rw [r0]; exact or_one_shiftLeft_lt B _ _ h.w0 (by omega)
  · intro j hj
    rw [r0, testBit_or_one_shiftLeft, Finset.mem_insert, ← h.low j hj]
    simp only [Bool.or_eq_true, decide_eq_true_eq]
    constructor
    · rintro (h1 | h1)
      · exact Or.inr h1
      · exact Or.inl h1.symm
    · rintro (h1 | h1)
      · exact Or.inr h1.symm
      · exact Or.inl h1
  · rw [r0, testBit_or_one_shiftLeft]
    have hne : decide (i = BitsPerWord B - 1) = false := by
      simp only [decide_eq_false_iff_not]; omega
    rw [hne, Bool.or_false, h.ext]
    constructor
    · rintro ⟨j, hj, hb⟩; exact ⟨j, Finset.mem_insert_of_mem hj, hb⟩
    · rintro ⟨j, hj, hb⟩
      rcases Finset.mem_insert.1 hj with e | e
      · omega
      · exact ⟨j, e, hb⟩
  · intro j hj
    rcases Finset.mem_insert.1 hj with e | e
    · omega
    · exact h.le j e
  · intro hl; rw [rk 1 (by decide)]; exact h.idx hl
  · intro hl k hk
    unfold spillBit
    rw [rk _ (Nat.succ_ne_zero _)]
    have := h.spill hl k hk
    unfold spillBit at this
    rw [this, Finset.mem_insert]
    constructor
    · exact Or.inr
    · rintro (e | e)
      · omega
      · exact e
  · intro j hj hb
    rw [rk 2 (by decide)]
    rcases Finset.mem_insert.1 hj with e | e
    · omega
    · exact h.len j e hb
  · intro hl; rw [rk 2 (by decide)]; exact h.lenb hl
  · intro hl k hk; rw [rk _ (Nat.succ_ne_zero _)]; exact h.words hl k hk

theorem BitsetPartial.grow_set_big (B : Nat) (hB : B = 4 ∨ B = 8) (m : Mem) (p : Nat) (S : Finset Nat)
    (last i : Nat) (h : BitsetPartial B m p S last) (hi : BitsPerWord B - 1 ≤ i)
    (hil : i ≤ last) :
    BitsetPartial B (bitsetSet B m p i true) p (insert i S) last := by
  have hB0 : 0 < B := by rcases hB with rfl | rfl <;> decide
  have hW := W_ge B hB
  have hb : i + BitsPerWord B * 2 + 1 < 2 ^ 32 := by have := h.bound; omega
  have hl : BitsPerWord B - 1 ≤ last := by omega
  rw [bitsetSet_big_true B hB m p i hi hb]
  generalize hq : i - (BitsPerWord B - 1) = q
  have hiq : i = q + (BitsPerWord B - 1) := by omega
  have hql : q / BitsPerWord B ≤ (last - (BitsPerWord B - 1)) / BitsPerWord B :=
    Nat.div_le_div_right (by omega)
  generalize hm0 : setWordAt B m p 0 (wordAt B m p 0 ||| BitsetExtensionBit B) = m0
  generalize hm1 : (if wordAt B m p 2 ≤ q / BitsPerWord B then
      setWordAt B m0 p 2 (q / BitsPerWord B + 1) else m0) = m1
  have a0 : wordAt B m0 p 0 = wordAt B m p 0 ||| BitsetExtensionBit B := by
    rw [← hm0]; exact wordAt_setWordAt_self B m p 0 _
  have ak : ∀ k, k ≠ 0 → wordAt B m0 p k = wordAt B m p k := by
    intro k hk; rw [← hm0]; exact wordAt_setWordAt_ne B hB0 _ _ _ _ _ hk
  have b2 : wordAt B m1 p 2 =
      if wordAt B m p 2 ≤ q / BitsPerWord B then q / BitsPerWord B + 1 else wordAt B m p 2 := by
    rw [← hm1]
    split
    · exact wordAt_setWordAt_self B m0 p 2 _
    · exact ak 2 (by decide)
  have bk : ∀ k, k ≠ 2 → wordAt B m1 p k = wordAt B m0 p k := by
    intro k hk; rw [← hm1]
    split
    · exact wordAt_setWordAt_ne B hB0 _ _ _ _ _ hk
    · rfl
  generalize hm2 : setWordAt B m1 p (q / BitsPerWord B + 3)
      (wordAt B m1 p (q / BitsPerWord B + 3) ||| 1 <<< (q % BitsPerWord B)) = m2
  have c3 : ∀ k, wordAt B m2 p (k + 3) =
      if k = q / BitsPerWord B then wordAt B m p (k + 3) ||| 1 <<< (q % BitsPerWord B)
      else wordAt B m p (k + 3) := by
    intro k
    rw [← hm2, wordAt_setWordAt B hB0]
    by_cases e : k = q / BitsPerWord B
    · rw [if_pos (by rw [e]), if_pos e, bk _ (by omega), ak _ (Nat.succ_ne_zero _), e]
    · rw [if_neg (by omega), if_neg e, bk _ (by omega), ak _ (Nat.succ_ne_zero _)]
  have ck : ∀ k, k < 3 → wordAt B m2 p k = wordAt B m1 p k := by
    intro k hk; rw [← hm2]
    have h3 : 3 ≤ q / BitsPerWord B + 3 := Nat.le_add_left _ _
    exact wordAt_setWordAt_ne B hB0 _ _ _ _ _ (by omega)
  have c0 : wordAt B m2 p 0 = wordAt B m p 0 ||| BitsetExtensionBit B := by
    rw [ck 0 (by decide), bk 0 (by decide), a0]
  have c1 : wordAt B m2 p 1 = wordAt B m p 1 := by
    rw [ck 1 (by decide), bk 1 (by decide), ak 1 (by decide)]
  have c2 : wordAt B m2 p 2 =
      if wordAt B m p 2 ≤ q / BitsPerWord B then q / BitsPerWord B + 1 else wordAt B m p 2 := by
    rw [ck 2 (by decide), b2]
  have hqW : q % BitsPerWord B < BitsPerWord B := Nat.mod_lt _ (by omega)
  refine ⟨?_, ?_, ?_, ?_, h.bound, ?_, ?_, ?_, ?_, ?_⟩
  · rw [c0, BitsetExtensionBit_eq]
    exact Nat.or_lt_two_pow h.w0 (Nat.pow_lt_pow_right (by decide) (by omega))
  · intro j hj
    rw [c0, BitsetExtensionBit_eq, Nat.testBit_or, Nat.testBit_two_pow, Finset.mem_insert,
      ← h.low j hj]
    have hne : decide (BitsPerWord B - 1 = j) = false := by
      simp only [decide_eq_false_iff_not]; omega
    rw [hne, Bool.or_false]
    constructor
    · exact Or.inr
    · rintro (e | e)
      · omega
      · exact e
  · rw [c0, BitsetExtensionBit_eq, Nat.testBit_or, Nat.testBit_two_pow_self, Bool.or_true]
    simp only [true_iff]
    exact ⟨i, Finset.mem_insert_self _ _, hi⟩
  · intro j hj
    rcases Finset.mem_insert.1 hj with e | e
    · omega
    · exact h.le j e
  · intro _; rw [c1]; exact h.idx hl
  · intro _ k hk
    unfold spillBit
    rw [c3, Finset.mem_insert]
    have hs := h.spill hl k hk
    unfold spillBit at hs
    by_cases e : k / BitsPerWord B = q / BitsPerWord B
    · rw [if_pos e, testBit_or_one_shiftLeft, Bool.or_eq_true, hs, decide_eq_true_eq]
      constructor
      · rintro (h1 | h1)
        · exact Or.inr h1
        · left
          have : k = q := (div_mod_eq_iff _ _ _).1 ⟨e, h1.symm⟩
          omega
      · rintro (h1 | h1)
        · right
          have : k = q := by omega
          rw [this]
        · exact Or.inl h1
    · rw [if_neg e, hs]
      constructor
      · exact Or.inr
      · rintro (h1 | h1)
        · exfalso; apply e
          have : k = q := by omega
          rw [this]
        · exact h1
  · intro j hj hjb
    rw [c2]
    rcases Finset.mem_insert.1 hj with e | e
    · have : j - (BitsPerWord B - 1) = q := by omega
      rw [this]
      split <;> omega
    · have := h.len j e hjb
      split <;> omega
  · intro _
    rw [c2]
    have := h.lenb hl
    split <;> omega
  · intro _ k hk
    rw [c3]
    split
    · exact or_one_shiftLeft_lt B _ _ (h.words hl k hk) hqW
    · exact h.words hl k hk

/-- Setting an offset not above `last` adds it to the bitset. -/
theorem BitsetPartial.grow_set (B : Nat) (hB : B = 4 ∨ B = 8) (m : Mem) (p : Nat) (S : Finset Nat)
    (last i : Nat) (h : BitsetPartial B m p S last) (hil : i ≤ last) :
    BitsetPartial B (bitsetSet B m p i true) p (insert i S) last := by
  by_cases hi : i < BitsPerWord B - 1
  · exact h.grow_set_low B hB m p S last i hi hil
  · exact h.grow_set_big B hB m p S last i (by omega) hil

/-- A bitset built by the walker is ready for `bitsetHasMore` and
`bitsetNext`. -/
theorem BitsetPartial.grow_rep (B : Nat) (hB : B = 4 ∨ B = 8) (m : Mem) (p : Nat) (S : Finset Nat)
    (last : Nat) (h : BitsetPartial B m p S last) : BitsetRep B m p S := by
  have hW := W_ge B hB
  have hW0 : 0 < BitsPerWord B := by omega
  have hlast : (wordAt B m p 0).testBit (BitsPerWord B - 1) = true → BitsPerWord B - 1 ≤ last := by
    intro he
    obtain ⟨j, hj, hb⟩ := h.ext.1 he
    have := h.le j hj
    omega
  refine ⟨h.w0, h.low, fun j hj hb => h.ext.2 ⟨j, hj, hb⟩, ?_, ?_, ?_, ?_, ?_⟩
  · intro j hj
    have := h.le j hj
    have := h.bound
    omega
  · intro he; rw [h.idx (hlast he)]; exact Nat.zero_le _
  · intro he k hk
    apply h.spill (hlast he)
    have h1 : k / BitsPerWord B < wordAt B m p 2 := (Nat.div_lt_iff_lt_mul hW0).2 hk
    have := h.lenb (hlast he)
    omega
  · intro j hj hb
    have hl : BitsPerWord B - 1 ≤ last := by have := h.le j hj; omega
    refine ⟨(Nat.div_lt_iff_lt_mul hW0).1 (h.len j hj hb), ?_⟩
    rw [h.idx hl]; exact Nat.zero_le _
  · intro he k hk
    apply h.words (hlast he)
    have := h.lenb (hlast he)
    omega

/-! ### The words the bitset operations write -/

theorem setWordAt_outside (B : Nat) (hB : 0 < B) (m : Mem) (p k v n x : Nat) (hk : k < n)
    (hx : x < p ∨ p + n * B ≤ x) : setWordAt B m p k v x = m x := by
  unfold setWordAt Mem.write
  rw [if_neg]
  have := Nat.mul_le_mul_right B (Nat.succ_le_of_lt hk)
  rw [Nat.succ_mul] at this
  intro e
  omega

theorem bitsetWords_mono (B : Nat) (i j : Nat) (h : i ≤ j) :
    bitsetWords B i ≤ bitsetWords B j := by
  unfold bitsetWords
  have h0 := Nat.zero_le ((j - (BitsPerWord B - 1)) / BitsPerWord B)
  have hm : (i - (BitsPerWord B - 1)) / BitsPerWord B ≤ (j - (BitsPerWord B - 1)) / BitsPerWord B :=
    Nat.div_le_div_right (by omega)
  split <;> split <;> omega

theorem bitsetInit_frame (B : Nat) (m : Mem) (p x : Nat) (hx : x < p ∨ p + B ≤ x) :
    bitsetInit B m p x = m x := by
  unfold bitsetInit
  exact zeroWords_frame B m p 1 x (by rw [Nat.one_mul]; exact hx)

theorem bitsetClear_frame (B : Nat) (hB : B = 4 ∨ B = 8) (m : Mem) (p last e x : Nat)
    (hle : last ≤ e) (hb : e + BitsPerWord B * 2 + 1 < 2 ^ 32)
    (hx : x < p + B ∨ p + bitsetWords B e * B ≤ x) : bitsetClear B m p last e x = m x := by
  have hW := W_ge B hB
  unfold bitsetClear
  by_cases h1 : e < BitsPerWord B - 1
  · rw [if_pos h1]
  · rw [if_neg h1]
    have h1' : BitsPerWord B - 1 ≤ e := by omega
    obtain ⟨e1, e2, e3⟩ := big_index B hB e h1' hb
    unfold bitsetWords at hx
    rw [if_neg h1] at hx
    by_cases h2 : last < BitsPerWord B - 1
    · rw [if_pos h2, e1, e2]
      apply zeroWords_frame
      rcases hx with h | h
      · exact Or.inl h
      · right
        have : p + B + ((e - (BitsPerWord B - 1)) / BitsPerWord B + 3) * B
            = p + ((e - (BitsPerWord B - 1)) / BitsPerWord B + 4) * B := by ring
        rw [this]; exact h
    · rw [if_neg h2]
      have h2' : BitsPerWord B - 1 ≤ last := by omega
      obtain ⟨s1, s2, s3⟩ := big_index B hB last h2' (by omega)
      simp only [e1, e2, s1, s2]
      split
      · rename_i h3
        apply zeroWords_frame
        rcases hx with h | h
        · left
          have : p + B ≤ p + ((last - (BitsPerWord B - 1)) / BitsPerWord B + 3 + 1) * B := by
            rw [Nat.add_le_add_iff_left]
            exact Nat.le_mul_of_pos_left B (Nat.succ_pos _)
          omega
        · right
          obtain ⟨sw, hsw⟩ : ∃ sw, (last - (BitsPerWord B - 1)) / BitsPerWord B = sw := ⟨_, rfl⟩
          obtain ⟨ew, hew⟩ : ∃ ew, (e - (BitsPerWord B - 1)) / BitsPerWord B = ew := ⟨_, rfl⟩
          simp only [hsw, hew] at h3 h ⊢
          have : p + (sw + 3 + 1) * B + (ew + 3 - (sw + 3)) * B = p + (ew + 4) * B := by
            rw [Nat.add_assoc, ← Nat.add_mul]
            congr 2
            omega
          rw [this]; exact h
      · rfl

theorem bitsetSet_true_frame (B : Nat) (hB : B = 4 ∨ B = 8) (m : Mem) (p i x : Nat)
    (hb : i + BitsPerWord B * 2 + 1 < 2 ^ 32)
    (hx : x < p ∨ p + bitsetWords B i * B ≤ x) : bitsetSet B m p i true x = m x := by
  have hW := W_ge B hB
  have hB0 : 0 < B := by rcases hB with rfl | rfl <;> decide
  unfold bitsetWords at hx
  by_cases hi : i < BitsPerWord B - 1
  · rw [if_pos hi] at hx
    rw [bitsetSet_low B m p i true hi]
    simp only [if_true]
    exact setWordAt_outside B hB0 m p 0 _ 1 x (by decide) hx
  · rw [if_neg hi] at hx
    rw [bitsetSet_big_true B hB m p i (by omega) hb]
    have h3 := Nat.zero_le ((i - (BitsPerWord B - 1)) / BitsPerWord B)
    rw [setWordAt_outside B hB0 _ p _ _ _ x (show (i - (BitsPerWord B - 1)) / BitsPerWord B + 3 <
      (i - (BitsPerWord B - 1)) / BitsPerWord B + 4 by omega) hx]
    split
    · rw [setWordAt_outside B hB0 _ p 2 _ _ x (by omega) hx,
        setWordAt_outside B hB0 _ p 0 _ _ x (by omega) hx]
    · rw [setWordAt_outside B hB0 _ p 0 _ _ x (by omega) hx]

/-- The bitset for the offsets of an object with at least three words fits
into the words of the object after the first two. -/
theorem bitsetWords_fit (B : Nat) (hB : B = 4 ∨ B = 8) (k size : Nat) (hk : k < size)
    (h3 : 3 ≤ size) : bitsetWords B k + 2 ≤ size := by
  unfold bitsetWords
  rcases BitsPerWord_cases B hB with e | e <;> rw [e] <;> split <;> omega

end Heap

namespace Heap

/-! ### What `bitsetHasMore` and `bitsetNext` write -/

theorem bitsetHasMoreLoop_mem (B : Nat) (m : Mem) (p len : Nat) :
    ∀ (n word : Nat), ∃ X, (bitsetHasMoreLoop B m p len n word).2 = setWordAt B m p 1 X := by
  intro n
  induction n with
  | zero => intro word; exact ⟨_, rfl⟩
  | succ n ih =>
    intro word
    unfold bitsetHasMoreLoop
    split
    · split
      · exact ⟨_, rfl⟩
      · exact ih _
    · exact ⟨_, rfl⟩

theorem bitsetHasMore_mem (B : Nat) (m : Mem) (p : Nat) :
    (bitsetHasMore B m p).2 = m ∨
      (wordAt B m p 0 = BitsetExtensionBit B ∧
        ∃ X, (bitsetHasMore B m p).2 = setWordAt B m p 1 X) := by
  unfold bitsetHasMore
  split
  · exact Or.inl rfl
  · split
    · rename_i h
      exact Or.inr ⟨h, bitsetHasMoreLoop_mem B m p _ _ _⟩
    · exact Or.inl rfl

theorem bitsetNextLow_mem (B : Nat) (m : Mem) (p : Nat) :
    ∀ (n i j : Nat) (m1 : Mem), bitsetNextLow B m p n i = some (j, m1) →
      j < BitsPerWord B - 1 ∧ m1 = bitsetSet B m p j false := by
  intro n
  induction n with
  | zero => intro i j m1 h; simp [bitsetNextLow] at h
  | succ n ih =>
    intro i j m1 h
    unfold bitsetNextLow at h
    split at h
    · rename_i hi
      split at h
      · simp only [Option.some.injEq, Prod.mk.injEq] at h
        obtain ⟨rfl, rfl⟩ := h
        exact ⟨hi, rfl⟩
      · exact ih _ _ _ h
    · cases h

theorem bitsetNextSpill_mem (B : Nat) (m : Mem) (p word : Nat) :
    ∀ (n bit r : Nat) (m1 : Mem), bitsetNextSpill B m p word n bit = some (r, m1) →
      ∃ X, m1 = bitsetSet B (setWordAt B m p 1 X) p r false := by
  intro n
  induction n with
  | zero => intro bit r m1 h; simp [bitsetNextSpill] at h
  | succ n ih =>
    intro bit r m1 h
    unfold bitsetNextSpill at h
    split at h
    · split at h
      · simp only [Option.some.injEq, Prod.mk.injEq] at h
        obtain ⟨rfl, rfl⟩ := h
        exact ⟨_, rfl⟩
      · exact ih _ _ _ h
    · cases h

/-- `bitsetSet(p, j, false)` writes one word. -/
theorem bitsetSet_false_eq (B : Nat) (hB : B = 4 ∨ B = 8) (m : Mem) (p j : Nat)
    (hb : j + BitsPerWord B * 2 + 1 < 2 ^ 32) :
    ∃ V, bitsetSet B m p j false = setWordAt B m p (bitsetWords B j - 1) V ∧
      (j < BitsPerWord B - 1 → V = wordAt B m p 0 &&& wnot B (1 <<< j)) := by
  have hW := W_ge B hB
  unfold bitsetWords
  by_cases hj : j < BitsPerWord B - 1
  · rw [if_pos hj, bitsetSet_low B m p j false hj]
    exact ⟨_, by simp, fun _ => rfl⟩
  · rw [if_neg hj, bitsetSet_big_false B hB m p j (by omega) hb]
    exact ⟨_, rfl, fun h => absurd h hj⟩

theorem ext_testBit (B : Nat) : (BitsetExtensionBit B).testBit (BitsPerWord B - 1) = true := by
  rw [BitsetExtensionBit_eq]; exact Nat.testBit_two_pow_self

/-- What `bitsetHasMore` writes. -/
theorem bitsetHasMore_effect (B : Nat) (hB : B = 4 ∨ B = 8) (m : Mem) (p : Nat) :
    (∀ n x, ((wordAt B m p 0).testBit (BitsPerWord B - 1) = true → 2 ≤ n) →
      (x < p ∨ p + n * B ≤ x) → (bitsetHasMore B m p).2 x = m x) ∧
    wordAt B (bitsetHasMore B m p).2 p 2 = wordAt B m p 2 ∧
    wordAt B (bitsetHasMore B m p).2 p 0 = wordAt B m p 0 := by
  have hB0 : 0 < B := by rcases hB with rfl | rfl <;> decide
  rcases bitsetHasMore_mem B m p with e | ⟨he, X, e⟩
  · rw [e]; exact ⟨fun _ _ _ _ => rfl, rfl, rfl⟩
  · rw [e]
    refine ⟨?_, wordAt_setWordAt_ne B hB0 _ _ _ _ _ (by decide),
      wordAt_setWordAt_ne B hB0 _ _ _ _ _ (by decide)⟩
    intro n x hn hx
    have := hn (by rw [he]; exact ext_testBit B)
    exact setWordAt_outside B hB0 m p 1 _ n x (by omega) hx

/-- What `bitsetNext` writes. -/
theorem bitsetNext_effect (B : Nat) (hB : B = 4 ∨ B = 8) (m : Mem) (p j : Nat) (m1 : Mem)
    (h : bitsetNext B m p = some (j, m1)) (hb : j + BitsPerWord B * 2 + 1 < 2 ^ 32) :
    (∀ n x, bitsetWords B j ≤ n →
      ((wordAt B m p 0).testBit (BitsPerWord B - 1) = true → 2 ≤ n) →
      (x < p ∨ p + n * B ≤ x) → m1 x = m x) ∧
    wordAt B m1 p 2 = wordAt B m p 2 ∧
    (wordAt B m1 p 0).testBit (BitsPerWord B - 1)
      = (wordAt B m p 0).testBit (BitsPerWord B - 1) := by
  have hB0 : 0 < B := by rcases hB with rfl | rfl <;> decide
  have hW := W_ge B hB
  obtain ⟨f1, f2, f3⟩ := bitsetHasMore_effect B hB m p
  have hq0 := Nat.zero_le ((j - (BitsPerWord B - 1)) / BitsPerWord B)
  have hwords : 1 ≤ bitsetWords B j := by
    unfold bitsetWords; split <;> omega
  have hK2 : bitsetWords B j - 1 ≠ 2 := by
    unfold bitsetWords; split <;> omega
  -- the effect of clearing the bit in a memory `m2` that differs from `m` in `p[1]` at most
  have key : ∀ m2 : Mem, (∀ n x, ((wordAt B m p 0).testBit (BitsPerWord B - 1) = true → 2 ≤ n) →
        (x < p ∨ p + n * B ≤ x) → m2 x = m x) → wordAt B m2 p 2 = wordAt B m p 2 →
      wordAt B m2 p 0 = wordAt B m p 0 → m1 = bitsetSet B m2 p j false →
      (∀ n x, bitsetWords B j ≤ n →
        ((wordAt B m p 0).testBit (BitsPerWord B - 1) = true → 2 ≤ n) →
        (x < p ∨ p + n * B ≤ x) → m1 x = m x) ∧
      wordAt B m1 p 2 = wordAt B m p 2 ∧
      (wordAt B m1 p 0).testBit (BitsPerWord B - 1)
        = (wordAt B m p 0).testBit (BitsPerWord B - 1) := by
    intro m2 g1 g2 g3 e
    obtain ⟨V, eV, hV⟩ := bitsetSet_false_eq B hB m2 p j hb
    rw [e, eV]
    refine ⟨?_, ?_, ?_⟩
    · intro n x hn1 hn2 hx
      rw [setWordAt_outside B hB0 m2 p _ _ n x (by omega) hx]
      exact g1 n x hn2 hx
    · rw [wordAt_setWordAt_ne B hB0 _ _ _ _ _ (fun h => hK2 h.symm)]
      exact g2
    · by_cases hj : j < BitsPerWord B - 1
      · have hk0 : bitsetWords B j - 1 = 0 := by
          unfold bitsetWords; rw [if_pos hj]
        rw [hk0, wordAt_setWordAt_self, hV hj, testBit_and_wnot B _ _ _ (by omega), g3]
        have h1 : decide (BitsPerWord B - 1 < BitsPerWord B) = true := by
          simp only [decide_eq_true_eq]; omega
        have h2 : decide (j = BitsPerWord B - 1) = false := by
          simp only [decide_eq_false_iff_not]; omega
        rw [h1, h2]; simp
      · have hk0 : bitsetWords B j - 1 ≠ 0 := by
          unfold bitsetWords; rw [if_neg hj]
          have := Nat.zero_le ((j - (BitsPerWord B - 1)) / BitsPerWord B)
          omega
        rw [wordAt_setWordAt_ne B hB0 _ _ _ _ _ (fun h => hk0 h.symm), g3]
  unfold bitsetNext at h
  simp only [] at h
  split at h
  · cases h
  · split at h
    · cases h
    · split at h
      · rename_i hE
        split at h
        · obtain ⟨X, e⟩ := bitsetNextSpill_mem B _ p _ _ _ _ _ h
          apply key (setWordAt B (bitsetHasMore B m p).2 p 1 X) _ _ _ e
          · intro n x hn hx
            have hext : (wordAt B m p 0).testBit (BitsPerWord B - 1) = true := by
              rw [← f3, hE]; exact ext_testBit B
            rw [setWordAt_outside B hB0 _ p 1 _ n x (by have := hn hext; omega) hx]
            exact f1 n x hn hx
          · rw [wordAt_setWordAt_ne B hB0 _ _ _ _ _ (by decide)]; exact f2
          · rw [wordAt_setWordAt_ne B hB0 _ _ _ _ _ (by decide)]; exact f3
        · cases h
      · obtain ⟨-, e⟩ := bitsetNextLow_mem B _ p _ _ _ _ h
        exact key (bitsetHasMore B m p).2 f1 f2 f3 e

/-! ### The bitset inside the original object -/

/-- A bitset that agrees on the words in use denotes the same offsets. -/
theorem BitsetRep.congr (B : Nat) (m m1 : Mem) (p : Nat) (S : Finset Nat) (n : Nat)
    (h : BitsetRep B m p S) (h1 : 1 ≤ n)
    (hn : (wordAt B m p 0).testBit (BitsPerWord B - 1) = true → wordAt B m p 2 + 3 ≤ n)
    (hm : ∀ k, k < n → wordAt B m1 p k = wordAt B m p k) : BitsetRep B m1 p S := by
  have e0 : wordAt B m1 p 0 = wordAt B m p 0 := hm 0 (by omega)
  by_cases he : (wordAt B m p 0).testBit (BitsPerWord B - 1) = true
  · have hn1 := hn he
    have e1 : wordAt B m1 p 1 = wordAt B m p 1 := hm 1 (by omega)
    have e2 : wordAt B m1 p 2 = wordAt B m p 2 := hm 2 (by omega)
    refine ⟨by rw [e0]; exact h.w0, by rw [e0]; exact h.low, by rw [e0]; exact h.ext, h.bound,
      by rw [e0, e1, e2]; exact h.idxb, ?_, by rw [e1, e2]; exact h.big, ?_⟩
    · rw [e0, e2]
      intro _ k hk
      unfold spillBit
      by_cases hW : BitsPerWord B = 0
      · rw [hW] at hk; omega
      · have : k / BitsPerWord B < wordAt B m p 2 :=
          (Nat.div_lt_iff_lt_mul (by omega)).2 hk
        rw [hm _ (by omega)]
        exact h.spill he k hk
    · rw [e0, e2]
      intro _ k hk
      rw [hm _ (by omega)]
      exact h.words he k hk
  · have hnb : ∀ j ∈ S, ¬ BitsPerWord B - 1 ≤ j := fun j hj hb => he (h.ext j hj hb)
    refine ⟨by rw [e0]; exact h.w0, by rw [e0]; exact h.low, by rw [e0]; exact h.ext, h.bound,
      ?_, ?_, ?_, ?_⟩
    · rw [e0]; intro h2; exact absurd h2 he
    · rw [e0]; intro h2; exact absurd h2 he
    · intro j hj hb; exact absurd hb (hnb j hj)
    · rw [e0]; intro h2; exact absurd h2 he

theorem wordAt_congr (B : Nat) (hB : 0 < B) (m m1 : Mem) (p n : Nat)
    (h : ∀ x, p ≤ x → x < p + n * B → m1 x = m x) (k : Nat) (hk : k < n) :
    wordAt B m1 p k = wordAt B m p k := by
  unfold wordAt
  apply h
  · exact Nat.le_add_right _ _
  · have := Nat.mul_le_mul_right B (Nat.succ_le_of_lt hk)
    rw [Nat.succ_mul] at this
    omega

theorem BitsetIn.of_growing (B : Nat) (hB : B = 4 ∨ B = 8) (m : Mem) (o size : Nat)
    (S : Finset Nat) (last : Nat) (h : BitsetPartial B m (o + B * 2) S last)
    (hl : last < size) (h3 : 3 ≤ size) : BitsetIn B m o size S := by
  refine ⟨h.grow_rep B hB, fun j hj => Nat.lt_of_le_of_lt (h.le j hj) hl, h3, ?_⟩
  intro he
  obtain ⟨j, hj, hb⟩ := h.ext.1 he
  have hjl := h.le j hj
  have := h.lenb (by omega)
  rcases BitsPerWord_cases B hB with e | e <;> rw [e] at this hb <;> omega

theorem BitsetIn.in_frame (B : Nat) (hB : 0 < B) (m m1 : Mem) (o size : Nat) (S : Finset Nat)
    (h : BitsetIn B m o size S)
    (hm : ∀ x, o + B * 2 ≤ x → x < o + size * B → m1 x = m x) : BitsetIn B m1 o size S := by
  have h3 := h.three
  have hreg : o + B * 2 + (size - 2) * B = o + size * B := by
    have : size = (size - 2) + 2 := by omega
    rw [Nat.add_assoc, Nat.mul_comm B 2, ← Nat.add_mul]
    congr 2
    omega
  have hw : ∀ k, k < size - 2 → wordAt B m1 (o + B * 2) k = wordAt B m (o + B * 2) k :=
    wordAt_congr B hB m m1 _ _ (fun x h1 h2 => hm x h1 (by rw [← hreg]; exact h2))
  refine ⟨BitsetRep.congr B m m1 _ S (size - 2) h.rep (by omega) ?_ hw, h.lt, h3, ?_⟩
  · intro he; have := h.fit he; omega
  · rw [hw 0 (by omega)]
    intro he
    have := h.fit he
    rw [hw 2 (by omega)]
    exact this

/-- `bitsetNext` on the bitset of an original returns the least offset and
writes inside the object only. -/
theorem BitsetIn.in_next (B : Nat) (hB : B = 4 ∨ B = 8) (m : Mem) (o size : Nat) (S : Finset Nat)
    (h : BitsetIn B m o size S) (hne : S.Nonempty) :
    ∃ m1, bitsetNext B m (o + B * 2) = some (S.min' hne, m1) ∧
      BitsetIn B m1 o size (S.erase (S.min' hne)) ∧
      ∀ x, (x < o + B * 2 ∨ o + size * B ≤ x) → m1 x = m x := by
  have h3 := h.three
  obtain ⟨m1, e, hr⟩ := h.rep.next B hB m _ S hne
  have hmin := Finset.min'_mem S hne
  obtain ⟨f1, f2, f3⟩ := bitsetNext_effect B hB m _ _ m1 e (h.rep.bound _ hmin)
  have hreg : o + B * 2 + (size - 2) * B = o + size * B := by
    rw [Nat.add_assoc, Nat.mul_comm B 2, ← Nat.add_mul]
    congr 2
    omega
  refine ⟨m1, e, ⟨hr, ?_, h3, ?_⟩, ?_⟩
  · intro j hj; exact h.lt j (Finset.mem_of_mem_erase hj)
  · rw [f3, f2]; exact h.fit
  · intro x hx
    apply f1 (size - 2) x
    · have := bitsetWords_fit B hB _ size (h.lt _ hmin) h3
      omega
    · intro he; have := h.fit he; omega
    · rw [hreg]; exact hx

/-- `bitsetHasMore` on the bitset of an original. -/
theorem BitsetIn.in_hasMore (B : Nat) (hB : B = 4 ∨ B = 8) (m : Mem) (o size : Nat) (S : Finset Nat)
    (h : BitsetIn B m o size S) :
    ((bitsetHasMore B m (o + B * 2)).1 = true ↔ S.Nonempty) ∧
      BitsetIn B (bitsetHasMore B m (o + B * 2)).2 o size S ∧
      ∀ x, (x < o + B * 2 ∨ o + size * B ≤ x) → (bitsetHasMore B m (o + B * 2)).2 x = m x := by
  have h3 := h.three
  obtain ⟨a1, a2, a3, -⟩ := h.rep.hasMore B hB m _ S
  obtain ⟨f1, f2, f3⟩ := bitsetHasMore_effect B hB m (o + B * 2)
  have hreg : o + B * 2 + (size - 2) * B = o + size * B := by
    rw [Nat.add_assoc, Nat.mul_comm B 2, ← Nat.add_mul]
    congr 2
    omega
  refine ⟨a1, ⟨a2, h.lt, h3, ?_⟩, ?_⟩
  · rw [f3, f2]; exact h.fit
  · intro x hx
    apply f1 (size - 2) x
    · intro he; have := h.fit he; omega
    · rw [hreg]; exact hx

end Heap

namespace Heap

/-! ## The descending walker -/

theorem BitsetPartial.grow_frame (B : Nat) (m m1 : Mem) (p : Nat) (S : Finset Nat) (last : Nat)
    (h : BitsetPartial B m p S last)
    (hm : ∀ k, k < bitsetWords B last → wordAt B m1 p k = wordAt B m p k) :
    BitsetPartial B m1 p S last := by
  have hq0 := Nat.zero_le ((last - (BitsPerWord B - 1)) / BitsPerWord B)
  have e0 : wordAt B m1 p 0 = wordAt B m p 0 := hm 0 (by unfold bitsetWords; split <;> omega)
  have hbig : BitsPerWord B - 1 ≤ last →
      ∀ k, k < (last - (BitsPerWord B - 1)) / BitsPerWord B + 4 →
        wordAt B m1 p k = wordAt B m p k := by
    intro hl k hk
    apply hm
    unfold bitsetWords
    rw [if_neg (by omega)]
    exact hk
  refine ⟨by rw [e0]; exact h.w0, by rw [e0]; exact h.low, by rw [e0]; exact h.ext, h.le,
    h.bound, ?_, ?_, ?_, ?_, ?_⟩
  · intro hl; rw [hbig hl 1 (by omega)]; exact h.idx hl
  · intro hl k hk
    unfold spillBit
    have hk0 := Nat.zero_le (k / BitsPerWord B)
    rw [hbig hl _ (by omega)]
    exact h.spill hl k hk
  · intro j hj hb
    have hl : BitsPerWord B - 1 ≤ last := by have := h.le j hj; omega
    rw [hbig hl 2 (by omega)]
    exact h.len j hj hb
  · intro hl; rw [hbig hl 2 (by omega)]; exact h.lenb hl
  · intro hl k hk
    rw [hbig hl _ (by omega)]
    exact h.words hl k hk

theorem BitsetPartial.frame_mem (B : Nat) (hB : 0 < B) (m m1 : Mem) (p : Nat) (S : Finset Nat)
    (last : Nat) (h : BitsetPartial B m p S last)
    (hm : ∀ x, p ≤ x → x < p + bitsetWords B last * B → m1 x = m x) :
    BitsetPartial B m1 p S last :=
  h.grow_frame B m m1 p S last (wordAt_congr B hB m m1 p _ hm)

/-- `set` stores the pointer and keeps the tag bits. -/
theorem set_spec (B : Nat) (hB : B = 4 ∨ B = 8) (m : Mem) (p r : Nat) (hr : r % B = 0) :
    set B m p r p = r + m p % B ∧ mask B (set B m p r p) = r ∧ set B m p r p % B = m p % B ∧
      ∀ x, x ≠ p → set B m p r x = m x := by
  have hB0 : 0 < B := by rcases hB with rfl | rfl <;> decide
  have ht : m p % B < B := Nat.mod_lt _ hB0
  have key : r ||| (m p % B) = r + m p % B := by
    obtain ⟨a, ha⟩ : ∃ a, r = B * a := ⟨r / B, by
      have := Nat.div_add_mod r B
      omega⟩
    rcases hB with rfl | rfl
    · have := Nat.mul_add_lt_is_or (i := 2) (b := m p % 4) (by simpa using ht) a
      rw [ha]; simpa using this.symm
    · have := Nat.mul_add_lt_is_or (i := 3) (b := m p % 8) (by simpa using ht) a
      rw [ha]; simpa using this.symm
  have e : set B m p r p = r + m p % B := by
    unfold set Mem.write
    rw [if_pos rfl, key]
  refine ⟨e, ?_, ?_, ?_⟩
  · rw [e]
    unfold mask
    have := Nat.div_add_mod r B
    rw [hr, Nat.add_zero] at this
    have h2 : (r + m p % B) / B = r / B := by
      conv_lhs => rw [← this]
      rw [Nat.mul_add_div hB0, Nat.div_eq_of_lt ht, Nat.add_zero]
    rw [h2, Nat.mul_comm]; exact this
  · rw [e, Nat.add_mod, hr, Nat.zero_add, Nat.mod_mod, Nat.mod_mod]
  · intro x hx
    unfold set Mem.write
    rw [if_neg hx]

theorem WalkRep.lt_of_mem (B : Nat) (m : Mem) (bs : Nat) (done N : List Nat) (w : Walker)
    (hw : WalkRep B m bs done N w) (k : Nat) (hk : ∀ d ∈ done, d < k) : ∀ x ∈ N, x < k :=
  fun x hx => hk x (hw.sub.subset hx)

theorem WalkRep.length_le (B : Nat) (m : Mem) (bs : Nat) (done N : List Nat) (w : Walker)
    (hw : WalkRep B m bs done N w) : N.length ≤ done.length :=
  hw.sub.length_le

theorem WalkRep.second_le (B : Nat) (m : Mem) (bs : Nat) (done N : List Nat) (w : Walker)
    (hw : WalkRep B m bs done N w) (k : Nat) (hk : ∀ d ∈ done, d < k) : w.second ≤ k := by
  by_cases h3 : 3 ≤ done.length
  · rw [(hw.big h3).1]; exact Nat.zero_le _
  · rw [(hw.small (by omega)).2]
    cases hN : N.tail.head? with
    | none => exact Nat.zero_le _
    | some x =>
      have hx : x ∈ N.tail := List.mem_of_mem_head? hN
      exact Nat.le_of_lt (hw.lt_of_mem B m bs done N w k hk x (List.mem_of_mem_tail hx))

theorem WalkRep.last_le (B : Nat) (m : Mem) (bs : Nat) (done N : List Nat) (w : Walker)
    (hw : WalkRep B m bs done N w) (k : Nat) (hk : ∀ d ∈ done, d < k) : w.last ≤ k := by
  rcases hw.last with h | h
  · rw [h]; exact Nat.zero_le _
  · exact Nat.le_of_lt (hk _ h)

/-- What `Walker::visit` writes after the call of `update`: the slot, when the
referent needs no visit, and words of the bitset, once three slots have been
seen. -/
theorem Walker.record_frame (B : Nat) (hB : B = 4 ∨ B = 8) (m : Mem) (copy bs : Nat)
    (done N : List Nat) (w : Walker) (k childCopy : Nat) (nv : Bool)
    (hw : WalkRep B m bs done N w) (hk : ∀ d ∈ done, d < k)
    (hb : k + BitsPerWord B * 2 + 1 < 2 ^ 32)
    (hsep : 3 ≤ done.length + 1 →
      (copy + k * B < bs ∨ bs + bitsetWords B k * B ≤ copy + k * B)) :
    (∀ x, x ≠ copy + k * B → (done.length + 1 < 3 ∨ x < bs ∨ bs + bitsetWords B k * B ≤ x) →
        (Walker.record B copy bs m w k childCopy nv).1 x = m x) ∧
    (Walker.record B copy bs m w k childCopy nv).1 (copy + k * B) =
      if nv then m (copy + k * B) else childCopy ||| (m (copy + k * B) % B) := by
  have hB0 : 0 < B := by rcases hB with rfl | rfl <;> decide
  have hsec := hw.second_le B m bs done N w k hk
  have hlast := hw.last_le B m bs done N w k hk
  have hwk : 1 ≤ bitsetWords B k := by
    have := Nat.zero_le ((k - (BitsPerWord B - 1)) / BitsPerWord B)
    unfold bitsetWords; split <;> omega
  have hreg : bs + B ≤ bs + bitsetWords B k * B := by
    have := Nat.mul_le_mul_right B hwk
    omega
  -- every step keeps an address `x` outside the bitset
  have out_init : ∀ (m0 : Mem) x, (x < bs ∨ bs + bitsetWords B k * B ≤ x) →
      bitsetInit B m0 bs x = m0 x := fun m0 x hx => bitsetInit_frame B m0 bs x (by omega)
  have out_clear : ∀ (m0 : Mem) x, (x < bs ∨ bs + bitsetWords B k * B ≤ x) →
      bitsetClear B m0 bs w.last k x = m0 x :=
    fun m0 x hx => bitsetClear_frame B hB m0 bs w.last k x hlast hb (by omega)
  have out_set : ∀ (m0 : Mem) i x, i ≤ k → (x < bs ∨ bs + bitsetWords B k * B ≤ x) →
      bitsetSet B m0 bs i true x = m0 x := by
    intro m0 i x hi hx
    apply bitsetSet_true_frame B hB m0 bs i x (by omega)
    have := Nat.mul_le_mul_right B (bitsetWords_mono B i k hi)
    omega
  have key : ∀ x, (done.length + 1 < 3 ∨ x < bs ∨ bs + bitsetWords B k * B ≤ x) →
      (Walker.record B copy bs m w k childCopy nv).1 x =
        (if nv then m else setAt B m copy k childCopy) x := by
    intro x hx
    unfold Walker.record
    simp only [hw.total]
    rcases hx with hx | hx
    · have h3 : ¬ (done.length + 1 = 3) := by omega
      have h4 : ¬ (done.length + 1 > 2) := by omega
      simp only [h3, h4, if_false, false_and, and_false]
    · have os_k : ∀ m0 : Mem, bitsetSet B m0 bs k true x = m0 x :=
        fun m0 => out_set m0 k x (Nat.le_refl _) hx
      have os_s : ∀ m0 : Mem, bitsetSet B m0 bs w.second true x = m0 x :=
        fun m0 => out_set m0 w.second x hsec hx
      have oc : ∀ m0 : Mem, bitsetClear B m0 bs w.last k x = m0 x := fun m0 => out_clear m0 x hx
      by_cases h3 : done.length + 1 = 3
      · have hm2 : (setAt B (bitsetInit B m bs) copy k childCopy) x
            = (setAt B m copy k childCopy) x := by
          unfold setAt set getp Mem.write
          by_cases hxp : x = copy + k * B
          · rw [if_pos hxp, if_pos hxp, out_init m _ (hsep (by omega))]
          · rw [if_neg hxp, if_neg hxp]; exact out_init m x hx
        simp only [h3, if_true]
        cases nv
        · simp only [Bool.false_eq_true, if_false, false_and, or_false]
          split_ifs <;> simp only [os_k, os_s, oc, hm2]
        · simp only [if_true, true_and, or_true, and_true]
          split_ifs <;> simp only [os_k, os_s, oc, out_init m x hx]
      · simp only [h3, if_false]
        cases nv
        · simp only [Bool.false_eq_true, if_false, false_and, or_false]
          split_ifs <;> simp only [os_k, os_s, oc]
        · simp only [if_true, true_and, or_true, and_true]
          split_ifs <;> simp only [os_k, os_s, oc]
  constructor
  · intro x hx1 hx2
    rw [key x hx2]
    cases nv
    · simp only [Bool.false_eq_true, if_false]
      unfold setAt set getp Mem.write
      rw [if_neg hx1]
    · rfl
  · by_cases h3 : done.length + 1 < 3
    · rw [key _ (Or.inl h3)]
      cases nv
      · simp only [Bool.false_eq_true, if_false]
        unfold setAt set getp Mem.write
        rw [if_pos rfl]
      · rfl
    · rw [key _ (Or.inr (hsep (by omega)))]
      cases nv
      · simp only [Bool.false_eq_true, if_false]
        unfold setAt set getp Mem.write
        rw [if_pos rfl]
      · rfl

end Heap

namespace Heap

theorem sorted_append_singleton (done : List Nat) (k : Nat) (h : done.Sorted (· < ·))
    (hk : ∀ d ∈ done, d < k) : (done ++ [k]).Sorted (· < ·) := by
  unfold List.Sorted at h ⊢
  rw [List.pairwise_append]
  refine ⟨h, List.pairwise_singleton _ _, ?_⟩
  intro a ha b hb
  rw [List.mem_singleton] at hb
  rw [hb]; exact hk a ha

/-- The walker after one more slot: the common fields. -/
theorem WalkRep.step_basic (B : Nat) (m m1 : Mem) (bs : Nat) (done N N1 : List Nat)
    (w w1 : Walker) (k : Nat) (hw : WalkRep B m bs done N w) (hk : ∀ d ∈ done, d < k)
    (hN : N1 = N ∨ N1 = N ++ [k])
    (h1 : w1.total = w.total + 1) (h2 : w1.visits = N1.length)
    (h3 : ∀ x, N1.head? = some x → w1.first = x)
    (h4 : done.length + 1 ≤ 2 → w1.last = 0 ∧ w1.second = (N1.tail.head?).getD 0)
    (h5 : 3 ≤ done.length + 1 → w1.second = 0 ∧ BitsetPartial B m1 bs N1.tail.toFinset w1.last)
    (h6 : w1.last = w.last ∨ w1.last = k) :
    WalkRep B m1 bs (done ++ [k]) N1 w1 := by
  refine ⟨by rw [h1, hw.total, List.length_append]; rfl, h2, h3, ?_,
    sorted_append_singleton done k hw.sorted hk, ?_, ?_, ?_⟩
  · rcases hN with e | e
    · rw [e]; exact hw.sub.trans (List.sublist_append_left _ _)
    · rw [e]; exact List.Sublist.append hw.sub (List.Sublist.refl _)
  · intro h; rw [List.length_append] at h; exact h4 h
  · intro h; rw [List.length_append] at h; exact h5 h
  · rcases h6 with e | e
    · rcases hw.last with h | h
      · left; rw [e, h]
      · right; rw [e]; exact List.mem_append_left _ h
    · right; rw [e]; simp

theorem record_total (B : Nat) (copy bs : Nat) (m : Mem) (w : Walker) (k cc : Nat) (nv : Bool) :
    (Walker.record B copy bs m w k cc nv).2.total = w.total + 1 := by
  unfold Walker.record; simp only []; split_ifs <;> rfl

theorem record_visits (B : Nat) (copy bs : Nat) (m : Mem) (w : Walker) (k cc : Nat) (nv : Bool) :
    (Walker.record B copy bs m w k cc nv).2.visits = if nv then w.visits + 1 else w.visits := by
  unfold Walker.record; simp only []; split_ifs <;> rfl

theorem record_first (B : Nat) (copy bs : Nat) (m : Mem) (w : Walker) (k cc : Nat) (nv : Bool) :
    (Walker.record B copy bs m w k cc nv).2.first =
      if nv = true ∧ (if nv then w.visits + 1 else w.visits) = 1 then k else w.first := by
  unfold Walker.record; simp only []; split_ifs <;> rfl

/-- `Walker::visit` with a referent that needs no visit. -/
theorem record_false (B : Nat) (copy bs : Nat) (m : Mem) (w : Walker) (k cc : Nat) :
    Walker.record B copy bs m w k cc false =
      if w.visits > 1 ∧ w.total + 1 > 2 ∧ w.second ≠ 0 then
        (bitsetSet B (bitsetClear B
            (setAt B (if w.total + 1 = 3 then bitsetInit B m bs else m) copy k cc) bs w.last k)
            bs w.second true,
          { first := w.first, second := 0, last := k, visits := w.visits, total := w.total + 1 })
      else
        (setAt B (if w.total + 1 = 3 then bitsetInit B m bs else m) copy k cc,
          { first := w.first, second := w.second, last := w.last, visits := w.visits,
            total := w.total + 1 }) := by
  unfold Walker.record
  simp only [Bool.false_eq_true, if_false, false_and, or_false]
  by_cases h1 : w.visits > 1 ∧ w.total + 1 > 2 ∧ w.second ≠ 0
  · rw [if_pos h1, if_pos h1, if_pos h1.2.2]
  · rw [if_neg h1, if_neg h1]

/-- `Walker::visit` with a referent that needs a visit. -/
theorem record_true (B : Nat) (copy bs : Nat) (m : Mem) (w : Walker) (k cc : Nat) :
    Walker.record B copy bs m w k cc true =
      if w.visits + 1 > 1 ∧ w.total + 1 > 2 then
        (bitsetSet B
            (if (if w.visits + 1 = 2 then k else w.second) ≠ 0 then
              bitsetSet B (bitsetClear B (if w.total + 1 = 3 then bitsetInit B m bs else m)
                bs w.last k) bs (if w.visits + 1 = 2 then k else w.second) true
             else bitsetClear B (if w.total + 1 = 3 then bitsetInit B m bs else m) bs w.last k)
            bs k true,
          { first := if w.visits + 1 = 1 then k else w.first, second := 0, last := k,
            visits := w.visits + 1, total := w.total + 1 })
      else
        (if w.total + 1 = 3 then bitsetInit B m bs else m,
          { first := if w.visits + 1 = 1 then k else w.first,
            second := if w.visits + 1 = 2 then k else w.second, last := w.last,
            visits := w.visits + 1, total := w.total + 1 }) := by
  unfold Walker.record
  simp only [if_true, true_and, or_true, and_true]

theorem WalkRep.second_pos (B : Nat) (m : Mem) (bs : Nat) (done N : List Nat) (w : Walker)
    (hw : WalkRep B m bs done N w) (b : Nat) (h : N.tail.head? = some b) : b ≠ 0 := by
  have hs : N.Sorted (· < ·) := hw.sorted.sublist hw.sub
  match N, h, hs with
  | a :: b1 :: _, h, hs =>
    simp only [List.tail_cons, List.head?_cons, Option.some.injEq] at h
    subst h
    have := List.rel_of_sorted_cons hs b1 (List.mem_cons_self _ _)
    omega

theorem WalkRep.tail_short (B : Nat) (m : Mem) (bs : Nat) (done N : List Nat) (w : Walker)
    (hw : WalkRep B m bs done N w) (h : w.visits ≤ 1) : N.tail = [] := by
  have := hw.visits
  match N, this with
  | [], _ => rfl
  | [_], _ => rfl
  | _ :: _ :: _, hv => simp only [List.length_cons] at hv; omega

/-- The bitset at the third slot: `bitsetInit` has just run. -/
theorem WalkRep.bitset_base (B : Nat) (hB : B = 4 ∨ B = 8) (m : Mem) (bs : Nat)
    (done N : List Nat) (w : Walker) (hw : WalkRep B m bs done N w) (h2 : 2 ≤ done.length) :
    ∃ S, BitsetPartial B (if w.total + 1 = 3 then bitsetInit B m bs else m) bs S w.last ∧
      (3 ≤ done.length → S = N.tail.toFinset) ∧ (done.length = 2 → S = ∅) := by
  by_cases h3 : done.length = 2
  · refine ⟨∅, ?_, fun h => by omega, fun _ => rfl⟩
    rw [if_pos (by rw [hw.total, h3]), (hw.small (by omega)).1]
    exact BitsetPartial.grow_init B hB m bs
  · refine ⟨N.tail.toFinset, ?_, fun _ => rfl, fun h => absurd h h3⟩
    rw [if_neg (by rw [hw.total]; omega)]
    exact (hw.big (by omega)).2

theorem tail_append_singleton (N : List Nat) (k : Nat) (h : N ≠ []) :
    (N ++ [k]).tail = N.tail ++ [k] := by
  cases N with
  | nil => exact absurd rfl h
  | cons a t => rfl

/-- The walker after a slot whose referent needs a visit. -/
theorem Walker.record_rep_true (B : Nat) (hB : B = 4 ∨ B = 8) (m : Mem) (copy bs : Nat)
    (done N : List Nat) (w : Walker) (k cc : Nat)
    (hw : WalkRep B m bs done N w) (hk : ∀ d ∈ done, d < k)
    (hb : k + BitsPerWord B * 2 + 1 < 2 ^ 32) :
    WalkRep B (Walker.record B copy bs m w k cc true).1 bs (done ++ [k]) (N ++ [k])
      (Walker.record B copy bs m w k cc true).2 := by
  have hlen := hw.length_le
  have hvis := hw.visits
  have htot := hw.total
  have hlast := hw.last_le B m bs done N w k hk
  have hsec := hw.second_le B m bs done N w k hk
  have hfirst : ∀ x, (N ++ [k]).head? = some x →
      (if w.visits + 1 = 1 then k else w.first) = x := by
    intro x hx
    cases hN : N with
    | nil =>
      rw [hN] at hx hvis
      simp only [List.nil_append, List.head?_cons, Option.some.injEq] at hx
      rw [if_pos (by rw [hvis]; rfl)]; exact hx
    | cons a t =>
      rw [hN] at hx hvis
      simp only [List.cons_append, List.head?_cons, Option.some.injEq] at hx
      rw [if_neg (by rw [hvis]; simp), ← hx]
      exact hw.first a (by rw [hN]; rfl)
  rw [record_true]
  by_cases hc : w.visits + 1 > 1 ∧ w.total + 1 > 2
  · rw [if_pos hc]
    have hN : N ≠ [] := by
      intro e; rw [e] at hvis; simp at hvis; omega
    have h2 : 2 ≤ done.length := by omega
    obtain ⟨S, hS, hS3, hS2⟩ := hw.bitset_base B hB m bs done N w h2
    have hC := hS.clear B hB _ bs S w.last k hlast hb
    apply hw.step_basic B m _ bs done N (N ++ [k]) w _ k hk (Or.inr rfl) rfl
      (by simp [hvis]) hfirst (fun h => by omega) _ (Or.inr rfl)
    intro _
    refine ⟨rfl, ?_⟩
    show BitsetPartial B _ bs (N ++ [k]).tail.toFinset k
    rw [tail_append_singleton N k hN, List.toFinset_append]
    have hfin : ∀ T : Finset Nat, insert k T = T ∪ [k].toFinset := by
      intro T; ext x; simp [or_comm]
    by_cases hv2 : w.visits + 1 = 2
    · -- the second slot that needs a visit is `k` itself
      have hk0 : k ≠ 0 := by
        have : done ≠ [] := by intro e; rw [e] at h2; simp at h2
        obtain ⟨d, hd⟩ := List.exists_mem_of_ne_nil done this
        have := hk d hd; omega
      have hNt : N.tail = [] := hw.tail_short B m bs done N w (by omega)
      have hSe : S = ∅ := by
        by_cases h3 : 3 ≤ done.length
        · rw [hS3 h3, hNt]; rfl
        · exact hS2 (by omega)
      simp only [hv2, if_true, hk0, ne_eq, not_false_eq_true]
      have h1 := (hC.grow_set B hB _ bs S k k (Nat.le_refl _)).grow_set B hB _ bs _ k k (Nat.le_refl _)
      rw [hNt]
      simp only [List.toFinset_nil, Finset.empty_union]
      rw [hSe] at h1
      have e : insert k (insert k (∅ : Finset Nat)) = [k].toFinset := by ext x; simp
      rw [e] at h1
      exact h1
    · simp only [hv2, if_false]
      by_cases h3 : 3 ≤ done.length
      · -- the bitset is in use already
        have hs0 := (hw.big h3).1
        rw [hs0]
        simp only [ne_eq, not_true_eq_false, if_false]
        have h1 := hC.grow_set B hB _ bs S k k (Nat.le_refl _)
        rw [hS3 h3, hfin] at h1
        exact h1
      · -- third slot, two earlier slots need a visit
        have hd2 : done.length = 2 := by omega
        have hN2 : N.length = 2 := by omega
        obtain ⟨a, b, hab⟩ : ∃ a b, N = [a, b] := by
          match N, hN2 with
          | [a, b], _ => exact ⟨a, b, rfl⟩
        have hb0 : b ≠ 0 := hw.second_pos B m bs done N w b (by rw [hab]; rfl)
        have hsb : w.second = b := by
          rw [(hw.small (by omega)).2, hab]; rfl
        rw [hsb]
        simp only [hb0, ne_eq, not_false_eq_true, if_true]
        have hbk : b ≤ k := by rw [← hsb]; exact hsec
        have h1 := (hC.grow_set B hB _ bs S k b hbk).grow_set B hB _ bs _ k k (Nat.le_refl _)
        rw [hS2 hd2] at h1
        rw [hab]
        have e : insert k (insert b (∅ : Finset Nat)) = [a, b].tail.toFinset ∪ [k].toFinset := by
          ext x; simp [or_comm]
        rw [e] at h1
        exact h1
  · rw [if_neg hc]
    refine hw.step_basic B m _ bs done N (N ++ [k]) w _ k hk (Or.inr rfl) rfl
      (by simp [hvis]) hfirst ?_ ?_ (Or.inl (by rfl))
    · intro hl
      refine ⟨(hw.small (by omega)).1, ?_⟩
      show (if w.visits + 1 = 2 then k else w.second) = _
      cases hN : N with
      | nil =>
        rw [hN] at hvis
        rw [if_neg (by rw [hvis]; simp), (hw.small (by omega)).2, hN]
        rfl
      | cons a t =>
        have ht : t = [] := by
          rw [hN] at hlen; simp at hlen
          cases t with
          | nil => rfl
          | cons _ _ => simp at hlen; omega
        rw [hN, ht] at hvis
        rw [ht, if_pos (by rw [hvis]; rfl)]
        rfl
    · intro hl
      have hN : N = [] := by
        cases hN : N with
        | nil => rfl
        | cons a t =>
          rw [hN] at hvis; simp at hvis
          exfalso; apply hc
          constructor <;> omega
      have h2 : 2 ≤ done.length := by omega
      obtain ⟨S, hS, hS3, hS2⟩ := hw.bitset_base B hB m bs done N w h2
      have hSe : S = ∅ := by
        by_cases h3 : 3 ≤ done.length
        · rw [hS3 h3, hN]; rfl
        · exact hS2 (by omega)
      rw [hN] at hvis
      refine ⟨?_, ?_⟩
      · show (if w.visits + 1 = 2 then k else w.second) = 0
        rw [if_neg (by rw [hvis]; simp)]
        by_cases h3 : 3 ≤ done.length
        · exact (hw.big h3).1
        · rw [(hw.small (by omega)).2, hN]; rfl
      · rw [hN]
        show BitsetPartial B _ bs ([] ++ [k]).tail.toFinset w.last
        rw [hSe] at hS
        exact hS

/-- The walker after a slot whose referent needs no visit. -/
theorem Walker.record_rep_false (B : Nat) (hB : B = 4 ∨ B = 8) (m : Mem) (copy bs : Nat)
    (done N : List Nat) (w : Walker) (k cc : Nat)
    (hw : WalkRep B m bs done N w) (hk : ∀ d ∈ done, d < k)
    (hb : k + BitsPerWord B * 2 + 1 < 2 ^ 32)
    (hsep : 3 ≤ done.length + 1 →
      (copy + k * B < bs ∨ bs + bitsetWords B k * B ≤ copy + k * B)) :
    WalkRep B (Walker.record B copy bs m w k cc false).1 bs (done ++ [k]) N
      (Walker.record B copy bs m w k cc false).2 := by
  have hB0 : 0 < B := by rcases hB with rfl | rfl <;> decide
  have hlen := hw.length_le
  have hvis := hw.visits
  have htot := hw.total
  have hlast := hw.last_le B m bs done N w k hk
  have hsec := hw.second_le B m bs done N w k hk
  -- the slot write keeps the bitset
  have hslot : ∀ (m0 : Mem) S, 2 ≤ done.length → BitsetPartial B m0 bs S w.last →
      BitsetPartial B (setAt B m0 copy k cc) bs S w.last := by
    intro m0 S h2 hS
    apply hS.frame_mem B hB0 m0 _ bs S w.last
    intro x hx1 hx2
    unfold setAt set getp Mem.write
    rw [if_neg]
    intro e
    have := Nat.mul_le_mul_right B (bitsetWords_mono B w.last k hlast)
    rcases hsep (by omega) with h | h <;> omega
  rw [record_false]
  by_cases hc : w.visits > 1 ∧ w.total + 1 > 2 ∧ w.second ≠ 0
  · rw [if_pos hc]
    have hd2 : done.length = 2 := by
      by_contra h
      have := (hw.big (by omega)).1
      exact hc.2.2 this
    have hN2 : N.length = 2 := by omega
    obtain ⟨a, b, hab⟩ : ∃ a b, N = [a, b] := by
      match N, hN2 with
      | [a, b], _ => exact ⟨a, b, rfl⟩
    have hsb : w.second = b := by
      rw [(hw.small (by omega)).2, hab]; rfl
    obtain ⟨S, hS, hS3, hS2⟩ := hw.bitset_base B hB m bs done N w (by omega)
    have h1 := ((hslot _ S (by omega) hS).clear B hB _ bs S w.last k hlast hb).grow_set B hB _ bs S k
      w.second hsec
    refine hw.step_basic B m _ bs done N N w _ k hk (Or.inl rfl) rfl hvis hw.first
      (fun h => by omega) ?_ (Or.inr rfl)
    intro _
    refine ⟨rfl, ?_⟩
    show BitsetPartial B _ bs N.tail.toFinset k
    rw [hab]
    have e : insert w.second S = [a, b].tail.toFinset := by
      rw [hS2 hd2, hsb]; ext x; simp
    rw [e] at h1
    exact h1
  · rw [if_neg hc]
    refine hw.step_basic B m _ bs done N N w _ k hk (Or.inl rfl) rfl hvis hw.first
      ?_ ?_ (Or.inl (by rfl))
    · intro hl
      exact hw.small (by omega)
    · intro hl
      obtain ⟨S, hS, hS3, hS2⟩ := hw.bitset_base B hB m bs done N w (by omega)
      have h1 := hslot _ S (by omega) hS
      by_cases h3 : 3 ≤ done.length
      · refine ⟨(hw.big h3).1, ?_⟩
        rw [hS3 h3] at h1
        exact h1
      · have hd2 : done.length = 2 := by omega
        have hs := (hw.small (by omega)).2
        have hNt : N.tail = [] := by
          cases hN : N.tail.head? with
          | none =>
            cases ht : N.tail with
            | nil => rfl
            | cons x t => rw [ht] at hN; simp at hN
          | some b =>
            exfalso
            have hb0 := hw.second_pos B m bs done N w b hN
            rw [hN] at hs
            apply hc
            refine ⟨?_, by omega, by rw [hs]; exact hb0⟩
            rw [hvis]
            match N, hN with
            | _ :: _ :: _, _ => simp
        refine ⟨by rw [hs, hNt]; rfl, ?_⟩
        rw [hS2 hd2] at h1
        rw [hNt]
        exact h1

/-- The walker after one more slot. -/
theorem Walker.record_rep (B : Nat) (hB : B = 4 ∨ B = 8) (m : Mem) (copy bs : Nat)
    (done N : List Nat) (w : Walker) (k cc : Nat) (nv : Bool)
    (hw : WalkRep B m bs done N w) (hk : ∀ d ∈ done, d < k)
    (hb : k + BitsPerWord B * 2 + 1 < 2 ^ 32)
    (hsep : 3 ≤ done.length + 1 →
      (copy + k * B < bs ∨ bs + bitsetWords B k * B ≤ copy + k * B)) :
    WalkRep B (Walker.record B copy bs m w k cc nv).1 bs (done ++ [k])
      (if nv then N ++ [k] else N) (Walker.record B copy bs m w k cc nv).2 := by
  cases nv
  · exact Walker.record_rep_false B hB m copy bs done N w k cc hw hk hb hsep
  · exact Walker.record_rep_true B hB m copy bs done N w k cc hw hk hb

end Heap

namespace Heap

open CollectionType

section Frames

variable {B : Nat} {c0 c : Context} {G : Graph} {cp : List Nat}

theorem sorted_lt_length (l : List Nat) (n : Nat) (h : l.Sorted (· < ·)) (hn : ∀ k ∈ l, k < n) :
    l.length ≤ n := by
  have hnd : l.Nodup := h.nodup
  have hsub : l.toFinset ⊆ Finset.range n := by
    intro x hx
    rw [List.mem_toFinset] at hx
    exact Finset.mem_range.2 (hn x hx)
  have := Finset.card_le_card hsub
  rw [List.toFinset_card_of_nodup hnd, Finset.card_range] at this
  exact this

/-- The slots of an object are fewer than its words. -/
theorem Start.slots_length (hs : Start B c0 G) (o : Nat) (ho : o ∈ G.objs) :
    (G.lay o).slots.length ≤ (G.lay o).size :=
  sorted_lt_length _ _ (hs.obj_ok o ho).2.2.2.2.1 (hs.obj_ok o ho).2.2.2.2.2

/-- An address in destination space is not protected. -/
theorem Start.toSpace_not_protected (hs : Start B c0 G) (hsub : ∀ o ∈ cp, o ∈ G.objs)
    (a : Nat) (h : c0.inToSpace B a) : ¬ Protected B c0 G cp a := by
  have hB := hs.B_pos
  rintro (⟨o, ho, -, -, h1, h2⟩ | h1 | h1 | h1)
  · exact hs.obj_not_toSpace o ho a h1 h2 h
  · have := (hs.obj_ok a (hsub a h1)).2.2.1
    exact hs.obj_not_toSpace a (hsub a h1) a (Nat.le_refl _)
      (by have := Nat.mul_pos this hB; omega) h
  · exact (hs.toSpace_not_maps a h).2 h1
  · exact (hs.toSpace_not_maps a h).1 (Or.inl h1)

/-- The words of a copied original after the first are not protected. -/
theorem Start.scratch_not_protected (hs : Start B c0 G) (hsub : ∀ o ∈ cp, o ∈ G.objs)
    (o : Nat) (ho : o ∈ cp) (a : Nat) (h1 : o + B ≤ a) (h2 : a < o + (G.lay o).size * B) :
    ¬ Protected B c0 G cp a := by
  have hB := hs.B_pos
  have hoo := hsub o ho
  rintro (⟨x, hx, hxw, -, g1, g2⟩ | g1 | g1 | g1)
  · have hne : x ≠ o := fun e => hxw (e ▸ ho)
    rcases hs.obj_disj x hx o hoo hne with h | h <;> omega
  · have hxo := hsub a g1
    have hne : a ≠ o := by omega
    have := Nat.mul_pos (hs.obj_ok a hxo).2.2.1 hB
    rcases hs.obj_disj a hxo o hoo hne with h | h <;> omega
  · exact (hs.obj_not_maps o hoo a (by omega) h2).2 g1
  · exact (hs.obj_not_maps o hoo a (by omega) h2).1 (Or.inl g1)

/-- A word of a card map is not protected. -/
theorem Start.cards_not_protected (hs : Start B c0 G) (hsub : ∀ o ∈ cp, o ∈ G.objs)
    (a : Nat) (h : c0.inCards B a) : ¬ Protected B c0 G cp a := by
  have hB := hs.B_pos
  have hm : c0.inMaps B a := by
    unfold Context.inMaps; unfold Context.inCards at h
    exact Or.inr h
  have hst : ∃ g, (g = Gen.gen2 ∨ g = Gen.nextGen2) ∧ c0.inStorage B g a := by
    rcases h with h | h
    · exact ⟨Gen.gen2, Or.inl rfl, (inFootprint_storage Gen.gen2 a h).1⟩
    · exact ⟨Gen.nextGen2, Or.inr rfl, (inFootprint_storage Gen.nextGen2 a h).1⟩
  obtain ⟨g, hg, hst⟩ := hst
  rintro (⟨o, ho, -, -, h1, h2⟩ | h1 | h1 | h1)
  · exact (hs.obj_not_maps o ho a h1 h2).1 hm
  · have := (hs.obj_ok a (hsub a h1)).2.2.1
    exact (hs.obj_not_maps a (hsub a h1) a (Nat.le_refl _)
      (by have := Nat.mul_pos this hB; omega)).1 hm
  · have := (@inFootprint_storage B c0 Gen.gen1 a h1).1
    rcases hg with rfl | rfl
    · exact hs.stor_disj _ _ (by decide) a this hst
    · exact hs.stor_disj _ _ (by decide) a this hst
  · have := (@inFootprint_storage B c0 Gen.nextGen1 a h1).1
    rcases hg with rfl | rfl
    · exact hs.stor_disj _ _ (by decide) a this hst
    · exact hs.stor_disj _ _ (by decide) a this hst

theorem Updated.upd_mono {c1 : Context} {cp1 : List Nat} (v v0 : Nat)
    (h : Updated B c0 c cp v v0) (hsub : ∀ y ∈ cp, y ∈ cp1)
    (hm : ∀ y ∈ cp, c1.mem y = c.mem y) : Updated B c0 c1 cp1 v v0 := by
  obtain ⟨h1, h2⟩ := h
  refine ⟨h1, ?_⟩
  rcases h2 with h | h | ⟨h3, h4⟩
  · exact Or.inl h
  · exact Or.inr (Or.inl h)
  · exact Or.inr (Or.inr ⟨hsub _ h3, by rw [hm _ h3]; exact h4⟩)

/-- Writes that leave the forwarding words and the slots of the copies keep the
state of the slots. -/
theorem Slots.slots_frame {wk : List Nat} {pend : Nat → List Nat} {c1 : Context}
    (h : Slots B c0 G c cp wk pend) (hf : ∀ y ∈ cp, c1.mem y = c.mem y)
    (hsl : ∀ y ∈ cp, ∀ j ∈ (G.lay y).slots, c1.mem (c.mem y + j * B) = c.mem (c.mem y + j * B))
    (hbd : ∀ y ∈ cp, ∀ k, k < (G.lay y).size → k ∉ (G.lay y).slots →
      c1.mem (c.mem y + k * B) = c.mem (c.mem y + k * B)) :
    Slots B c0 G c1 cp wk pend := by
  refine ⟨h.wk_sub, ?_, ?_, ?_, ?_⟩
  rotate_left 3
  · intro o ho k hk hks
    rw [hf o ho, hbd o ho k hk hks]
    exact h.body o ho k hk hks
  · intro o ho hw k hk
    rw [hf o ho, hsl o ho k hk]
    exact h.unwalked o ho hw k hk
  · intro o ho k hk hp
    have hoc := h.wk_sub o ho
    rw [hf o hoc, hsl o hoc k hk]
    exact (h.walked o ho k hk hp).upd_mono _ _ (fun _ hy => hy) hf
  · intro o ho k hk
    have hoc := h.wk_sub o ho
    obtain ⟨p1, p2⟩ := h.pending o ho k hk
    refine ⟨p1, ?_⟩
    rw [hf o hoc, hsl o hoc k p1]
    exact p2

theorem FrameRep.rep_frame (hB : 0 < B) (m m1 : Mem) (o : Nat) (pend : List Nat)
    (h : FrameRep B G m o pend)
    (hm : ∀ a, o + B * 2 ≤ a → a < o + (G.lay o).size * B → m1 a = m a) :
    FrameRep B G m1 o pend := by
  refine ⟨h.ne, h.sorted, h.sub, h.two, h.pair, ?_⟩
  intro h3
  exact (h.bits h3).in_frame B hB m m1 _ _ _ hm

/-- Writes outside the originals on the stack keep the stack. -/
theorem StackRep.stack_frame (hs : Start B c0 G) (m m1 : Mem) :
    ∀ (st : List (Nat × List Nat)) (par : Nat), StackRep B G m par st →
      (∀ f ∈ st, f.1 ∈ G.objs) →
      (∀ f ∈ st, ∀ a, f.1 + B ≤ a → a < f.1 + (G.lay f.1).size * B → m1 a = m a) →
      StackRep B G m1 par st := by
  have hB := hs.B_pos
  intro st
  induction st with
  | nil => intro par h _ _; exact h
  | cons f rest ih =>
    intro par h hobj hm
    obtain ⟨h1, h2, h3⟩ := h
    have hf := hm f (List.mem_cons_self _ _)
    refine ⟨h1, h2.rep_frame hB m m1 f.1 f.2 (fun a q1 q2 => hf a (by omega) q2), ?_⟩
    have hsz : 2 ≤ (G.lay f.1).size :=
      Nat.le_trans h2.two (hs.slots_length f.1 (hobj f (List.mem_cons_self _ _)))
    have hlink : m1 (f.1 + B) = m (f.1 + B) := by
      apply hf _ (Nat.le_refl _)
      have := Nat.mul_le_mul_right B hsz
      omega
    rw [hlink]
    exact ih _ h3 (fun g hg => hobj g (List.mem_cons_of_mem _ hg))
      (fun g hg => hm g (List.mem_cons_of_mem _ hg))

theorem WalkRep.walk_frame (hB : 0 < B) (m m1 : Mem) (bs : Nat) (done N : List Nat) (w : Walker)
    (h : WalkRep B m bs done N w)
    (hm : 3 ≤ done.length → ∀ x, bs ≤ x → x < bs + bitsetWords B w.last * B → m1 x = m x) :
    WalkRep B m1 bs done N w := by
  refine ⟨h.total, h.visits, h.first, h.sub, h.sorted, h.small, ?_, h.last⟩
  intro h3
  exact ⟨(h.big h3).1, (h.big h3).2.frame_mem B hB m m1 bs _ _ (hm h3)⟩

end Frames

end Heap

namespace Heap

open CollectionType

section Steps

variable {B : Nat} {c0 c : Context} {G : Graph} {cp : List Nat}

/-- A copy leaves every word of the objects, but the forwarding word of the
object copied, and every word of the copies made before. -/
theorem Copied.frames (hs : Start B c0 G) (hi : Inv B c0 G c cp) {c1 : Context} {x r : Nat}
    (hx : x ∈ G.objs) (hm : movable B c0 x) (hw : x ∉ cp) (hc : Copied B c0 G c c1 x r) :
    (∀ y ∈ G.objs, ∀ a, y ≤ a → a < y + (G.lay y).size * B → a ≠ x → c1.mem a = c.mem a) ∧
    (∀ y ∈ cp, ∀ a, c.mem y ≤ a → a < c.mem y + (G.lay y).size * B → c1.mem a = c.mem a) ∧
    (∀ a, c0.inCards B a → c1.mem a = c.mem a) := by
  have hB := hs.B_pos
  have hi1 := hi.copy_step hs x r c1 hx hm hw hc
  have hg := @dest_ne_gen1 B c0 G x
  have hnew : ∀ a, r ≤ a → a < r + (G.lay x).size * B → c0.inToSpace B a := by
    have f := hi1.fwd x (List.mem_cons_self _ _)
    rw [hc.fwd] at f
    exact fun a h1 h2 => IsCopy.copy_toSpace hi1 _ hg _ _ f.1 a h1 h2
  have hxs := Nat.mul_pos (hs.obj_ok x hx).2.2.1 hB
  refine ⟨?_, ?_, ?_⟩
  · intro y hy a h1 h2 hne
    apply hc.frame a hne
    · by_contra hcon
      exact hs.obj_not_toSpace y hy a h1 h2 (hnew a (by omega) (by omega))
    · intro f; exact (hs.obj_not_maps y hy a h1 h2).1 (Or.inl f)
  · intro y hy a h1 h2
    have hyo := (hi.cp_sub y hy).1
    have hts := IsCopy.copy_toSpace hi _ (dest_ne_gen1 y) _ _ (hi.fwd y hy).1 a h1 h2
    apply hc.frame a
    · intro e
      exact hs.obj_not_toSpace x hx x (Nat.le_refl _) (by omega) (e ▸ hts)
    · have hd := hi1.disj y (List.mem_cons_of_mem _ hy) x (List.mem_cons_self _ _)
        (fun e => hw (e ▸ hy))
      have hfy : c1.mem y = c.mem y := by
        have hys := Nat.mul_pos (hs.obj_ok y hyo).2.2.1 hB
        apply hc.frame y (fun e => hw (e ▸ hy))
        · by_contra hcon
          exact hs.obj_not_toSpace y hyo y (Nat.le_refl _) (by omega)
            (hnew y (by omega) (by omega))
        · intro f
          exact (hs.obj_not_maps y hyo y (Nat.le_refl _) (by omega)).1 (Or.inl f)
      rw [hfy, hc.fwd] at hd
      omega
    · intro f; exact (hs.toSpace_not_maps a hts).1 (Or.inl f)
  · intro a ha
    have hm : c0.inMaps B a := Or.inr ha
    apply hc.frame a
    · intro e
      exact (hs.obj_not_maps x hx x (Nat.le_refl _) (by omega)).1 (e ▸ hm)
    · by_contra hcon
      exact (hs.toSpace_not_maps a (hnew a (by omega) (by omega))).1 hm
    · intro f
      unfold Context.inCards at ha
      have f1 := (@inFootprint_storage B c0 Gen.nextGen1 a f).1
      rcases ha with h | h
      · exact hs.stor_disj _ _ (by decide) a f1
          (@inFootprint_storage B c0 Gen.gen2 a h).1
      · exact hs.stor_disj _ _ (by decide) a f1
          (@inFootprint_storage B c0 Gen.nextGen2 a h).1

theorem Start.slot_lt (hs : Start B c0 G) (y : Nat) (hy : y ∈ G.objs) (j : Nat)
    (hj : j ∈ (G.lay y).slots) : j * B < (G.lay y).size * B :=
  Nat.mul_lt_mul_of_pos_right ((hs.obj_ok y hy).2.2.2.2.2 j hj) hs.B_pos

/-- The slots of the copies are words of destination space. -/
theorem Inv.slot_toSpace (hs : Start B c0 G) (hi : Inv B c0 G c cp) (y : Nat) (hy : y ∈ cp)
    (j : Nat) (hj : j ∈ (G.lay y).slots) : c0.inToSpace B (c.mem y + j * B) := by
  have := hs.slot_lt y (hi.cp_sub y hy).1 j hj
  exact IsCopy.copy_toSpace hi _ (dest_ne_gen1 y) _ _ (hi.fwd y hy).1 _ (Nat.le_add_right _ _)
    (by omega)

/-- The words of the copies are words of destination space. -/
theorem Inv.word_toSpace (hs : Start B c0 G) (hi : Inv B c0 G c cp) (y : Nat) (hy : y ∈ cp)
    (j : Nat) (hj : j < (G.lay y).size) : c0.inToSpace B (c.mem y + j * B) := by
  have := Nat.mul_lt_mul_of_pos_right hj hs.B_pos
  exact IsCopy.copy_toSpace hi _ (dest_ne_gen1 y) _ _ (hi.fwd y hy).1 _ (Nat.le_add_right _ _)
    (by omega)

/-- Distinct words of the copies have distinct addresses. -/
theorem Inv.word_inj (hs : Start B c0 G) (hi : Inv B c0 G c cp) (y z : Nat) (hy : y ∈ cp)
    (hz : z ∈ cp) (i j : Nat) (hi1 : i < (G.lay z).size) (hj : j < (G.lay y).size)
    (h : c.mem z + i * B = c.mem y + j * B) : z = y ∧ i = j := by
  have hB := hs.B_pos
  have h1 := Nat.mul_lt_mul_of_pos_right hj hB
  have h2 := Nat.mul_lt_mul_of_pos_right hi1 hB
  by_cases e : z = y
  · subst e
    refine ⟨rfl, ?_⟩
    have : i * B = j * B := by omega
    exact Nat.eq_of_mul_eq_mul_right hB this
  · rcases hi.disj z hz y hy e with h3 | h3 <;> omega

/-- Distinct slots of the copies have distinct addresses. -/
theorem Inv.slot_inj (hs : Start B c0 G) (hi : Inv B c0 G c cp) (y z : Nat) (hy : y ∈ cp)
    (hz : z ∈ cp) (i j : Nat) (hi1 : i ∈ (G.lay z).slots) (hj : j ∈ (G.lay y).slots)
    (h : c.mem z + i * B = c.mem y + j * B) : z = y ∧ i = j := by
  have hB := hs.B_pos
  have h1 := hs.slot_lt y (hi.cp_sub y hy).1 j hj
  have h2 := hs.slot_lt z (hi.cp_sub z hz).1 i hi1
  by_cases e : z = y
  · subst e
    refine ⟨rfl, ?_⟩
    have : i * B = j * B := by omega
    exact Nat.eq_of_mul_eq_mul_right hB this
  · rcases hi.disj z hz y hy e with h3 | h3 <;> omega

theorem Slots.slots_copied {wk : List Nat} {pend : Nat → List Nat} (hs : Start B c0 G)
    (hi : Inv B c0 G c cp) (h : Slots B c0 G c cp wk pend) {c1 : Context} {x r : Nat}
    (hx : x ∈ G.objs) (hm : movable B c0 x) (hw : x ∉ cp) (hc : Copied B c0 G c c1 x r) :
    Slots B c0 G c1 (x :: cp) wk pend := by
  have hB := hs.B_pos
  obtain ⟨f1, f2, -⟩ := hc.frames hs hi hx hm hw
  have hfw : ∀ y ∈ cp, c1.mem y = c.mem y := by
    intro y hy
    have hyo := (hi.cp_sub y hy).1
    have := Nat.mul_pos (hs.obj_ok y hyo).2.2.1 hB
    exact f1 y hyo y (Nat.le_refl _) (by omega) (fun e => hw (e ▸ hy))
  have hsl : ∀ y ∈ cp, ∀ j ∈ (G.lay y).slots,
      c1.mem (c.mem y + j * B) = c.mem (c.mem y + j * B) := by
    intro y hy j hj
    have := hs.slot_lt y (hi.cp_sub y hy).1 j hj
    exact f2 y hy _ (Nat.le_add_right _ _) (by omega)
  refine ⟨fun o ho => List.mem_cons_of_mem _ (h.wk_sub o ho), ?_, ?_, ?_, ?_⟩
  rotate_left 3
  · intro y hy k hk hks
    rcases List.mem_cons.1 hy with e | e
    · subst e
      rw [hc.fwd, hc.body k hk]
      exact hi.white y hx hw hm k hk
    · have hlt : k * B < (G.lay y).size * B := Nat.mul_lt_mul_of_pos_right hk hB
      rw [hfw y e, f2 y e _ (Nat.le_add_right _ _) (by omega)]
      exact h.body y e k hk hks
  · intro y hy hyw j hj
    rcases List.mem_cons.1 hy with e | e
    · subst e
      rw [hc.fwd, hc.body j ((hs.obj_ok y hx).2.2.2.2.2 j hj)]
      exact hi.white y hx hw hm j ((hs.obj_ok y hx).2.2.2.2.2 j hj)
    · rw [hfw y e, hsl y e j hj]
      exact h.unwalked y e hyw j hj
  · intro y hy j hj hp
    have hyc := h.wk_sub y hy
    rw [hfw y hyc, hsl y hyc j hj]
    exact (h.walked y hy j hj hp).upd_mono _ _ (fun _ hz => List.mem_cons_of_mem _ hz) hfw
  · intro y hy j hj
    have hyc := h.wk_sub y hy
    obtain ⟨p1, p2⟩ := h.pending y hy j hj
    refine ⟨p1, ?_⟩
    rw [hfw y hyc, hsl y hyc j p1]
    exact p2

/-- Writing the updated value into a pending slot of a walked copy. -/
theorem Slots.slot_write {wk : List Nat} {pend pend1 : Nat → List Nat} (hs : Start B c0 G)
    (hi : Inv B c0 G c cp) (h : Slots B c0 G c cp wk pend) (y j v : Nat) (hy : y ∈ wk)
    (hj : j ∈ (G.lay y).slots) (hv : Updated B c0 c cp v (G.m0 (y + j * B)))
    (hp1 : ∀ i ∈ pend1 y, i ∈ pend y ∧ i ≠ j) (hp2 : ∀ z, z ≠ y → pend1 z = pend z)
    (hp3 : ∀ i ∈ (G.lay y).slots, i ∉ pend1 y → i = j ∨ i ∉ pend y) (m1 : Mem)
    (hm1 : m1 (c.mem y + j * B) = v) (hfw : ∀ z ∈ cp, m1 z = c.mem z)
    (hsl : ∀ z ∈ cp, ∀ i, i < (G.lay z).size → (z = y → i ≠ j) →
      m1 (c.mem z + i * B) = c.mem (c.mem z + i * B)) :
    Slots B c0 G { c with mem := m1 } cp wk pend1 := by
  have hyc := h.wk_sub y hy
  have hlt : ∀ z ∈ cp, ∀ i ∈ (G.lay z).slots, i < (G.lay z).size :=
    fun z hz i hi1 => (hs.obj_ok z (hi.cp_sub z hz).1).2.2.2.2.2 i hi1
  refine ⟨h.wk_sub, ?_, ?_, ?_, ?_⟩
  rotate_left 3
  · intro z hz i hi1 hi2
    show m1 (m1 z + i * B) = _
    rw [hfw z hz, hsl z hz i hi1 (fun e1 e2 => hi2 (by rw [e1, e2]; exact hj))]
    exact h.body z hz i hi1 hi2
  · intro z hz hzw i hi1
    show m1 (m1 z + i * B) = _
    rw [hfw z hz, hsl z hz i (hlt z hz i hi1) (fun e => absurd (e ▸ hy) hzw)]
    exact h.unwalked z hz hzw i hi1
  · intro z hz i hi1 hp
    have hzc := h.wk_sub z hz
    show Updated B c0 _ cp (m1 (m1 z + i * B)) _
    rw [hfw z hzc]
    by_cases e : z = y ∧ i = j
    · obtain ⟨rfl, rfl⟩ := e
      rw [hm1]
      exact hv.upd_mono _ _ (fun _ hz => hz) hfw
    · rw [hsl z hzc i (hlt z hzc i hi1) (fun e1 e2 => e ⟨e1, e2⟩)]
      refine (h.walked z hz i hi1 ?_).upd_mono _ _ (fun _ hz => hz) hfw
      by_cases e1 : z = y
      · subst e1
        rcases hp3 i hi1 hp with e2 | e2
        · exact absurd ⟨rfl, e2⟩ e
        · exact e2
      · rw [← hp2 z e1]; exact hp
  · intro z hz i hi1
    have hzc := h.wk_sub z hz
    show i ∈ (G.lay z).slots ∧ m1 (m1 z + i * B) = _
    rw [hfw z hzc]
    by_cases e1 : z = y
    · subst e1
      obtain ⟨q1, q2⟩ := hp1 i hi1
      obtain ⟨p1, p2⟩ := h.pending z hz i q1
      exact ⟨p1, by rw [hsl z hzc i (hlt z hzc i p1) (fun _ => q2)]; exact p2⟩
    · rw [hp2 z e1] at hi1
      obtain ⟨p1, p2⟩ := h.pending z hz i hi1
      exact ⟨p1, by rw [hsl z hzc i (hlt z hzc i p1) (fun e => absurd e e1)]; exact p2⟩

end Steps

end Heap

namespace Heap

open CollectionType

section CardMarks

variable {B : Nat} {c0 c : Context} {G : Graph} {cp : List Nat}

theorem Map.AllLevels_and (Q R : Map → Prop) (mp : Map) (hq : mp.AllLevels Q)
    (hr : mp.AllLevels R) : mp.AllLevels (fun l => Q l ∧ R l) := by
  induction mp with
  | leaf b sc c => exact ⟨hq, hr⟩
  | node b sc c ch ih => exact ⟨⟨hq.1, hr.1⟩, ih hq.2 hr.2⟩

/-- The backing words of every level lie in the backing words of the hierarchy. -/
theorem Map.levels_inFootprint (B : Nat) (s : Segment) (hcap : 1 ≤ s.capacity) :
    ∀ mp : Map, mp.AllLevels (fun l => ∀ a, l.inArea B s a → mp.inFootprint B s a) := by
  intro mp
  induction mp with
  | leaf b sc c => exact fun a ha => Map.inArea_inFootprint B s _ a hcap ha
  | node b sc c ch ih =>
    exact ⟨fun a ha => Map.inArea_inFootprint B s _ a hcap ha,
      Map.AllLevels_mono _ _ ch
        (fun l h a ha => Map.inFootprint_child B s b sc c ch a (h a ha)) ih⟩

theorem Map.size_lt_sizeNow (B : Nat) (s : Segment) (l : Map) (k : Nat)
    (h : k < l.size B s.capacity) : k < l.sizeNow B s ∧ 1 ≤ s.capacity := by
  have hcap : 1 ≤ s.capacity := by
    by_contra hc
    have h0 : s.capacity = 0 := by omega
    rw [h0] at h
    unfold Map.size ceiling at h
    have h1 : (0 + l.scale - 1) / l.scale = 0 := by
      by_cases hsc : l.scale = 0
      · rw [hsc]
      · exact Nat.div_eq_of_lt (by omega)
    rw [h1, Nat.zero_mul, Nat.zero_add] at h
    have : (BitsPerWord B - 1) / BitsPerWord B = 0 := by
      by_cases hW : BitsPerWord B = 0
      · rw [hW]
      · exact Nat.div_eq_of_lt (by omega)
    rw [this] at h
    omega
  refine ⟨?_, hcap⟩
  unfold Map.sizeNow
  rw [Nat.max_eq_left hcap]
  exact h

theorem Map.AllLevels_of_forall (Q : Map → Prop) (h : ∀ l, Q l) : ∀ mp : Map, mp.AllLevels Q := by
  intro mp
  induction mp with
  | leaf b sc c => exact h _
  | node b sc c ch ih => exact ⟨h _, ih⟩

theorem oldGen_cases (c : Context) : c.oldGen = Gen.gen2 ∨ c.oldGen = Gen.nextGen2 := by
  unfold Context.oldGen; split
  · exact Or.inl rfl
  · exact Or.inr rfl

theorem oldGen_inCards (a : Nat)
    (h : (c0.mapOf c0.oldGen).inFootprint B (c0.seg c0.oldGen) a) : c0.inCards B a := by
  unfold Context.inCards
  rcases oldGen_cases c0 with e | e <;> rw [e] at h
  · exact Or.inl h
  · exact Or.inr h

theorem Start.cards_ok (hs : Start B c0 G) :
    (c0.mapOf c0.oldGen).AllLevels fun l => 1 ≤ l.scale ∧ l.bitsPerRecord = 1 := by
  rcases oldGen_cases c0 with e | e <;> rw [e]
  · exact hs.heapMap_ok
  · exact hs.nextHeapMap_ok

/-- The card bits depend on the words of the card maps only. -/
theorem CardsSet.cards_congr (hs : Start B c0 G) {ms m m1 : Mem} {P : Nat → Prop}
    (h : CardsSet B c0 ms m P) (hm : ∀ a, c0.inCards B a → m1 a = m a) :
    CardsSet B c0 ms m1 P := by
  have hB := hs.B_pos
  refine ⟨?_, fun a h1 h2 => by rw [hm a h1]; exact h.2 a h1 h2⟩
  by_cases hcap : 1 ≤ (c0.seg c0.oldGen).capacity
  · have h2 := Map.levels_inFootprint B (c0.seg c0.oldGen) hcap (c0.mapOf c0.oldGen)
    refine Map.AllLevels_mono _ _ _ ?_ (Map.AllLevels_and _ _ _ h.1 h2)
    rintro l ⟨q1, q2⟩ k hk
    rw [← q1 k hk]
    have hk2 := (Map.size_lt_sizeNow B _ l _ hk).1
    rw [Map.bit_congr B hB _ l m m1 (fun a ha => hm a (oldGen_inCards a (q2 a ha))) k hk2]
  · refine Map.AllLevels_mono _ _ _ ?_ h.1
    intro l _ k hk
    exact absurd (Map.size_lt_sizeNow B _ l _ hk).2 hcap

theorem CardsSet.cards_init (hs : Start B c0 G) (m m1 : Mem) (hm : ∀ a, c0.inCards B a → m1 a = m a) :
    CardsSet B c0 m m1 (· ∈ ([] : List Nat)) := by
  have h0 : CardsSet B c0 m m (· ∈ ([] : List Nat)) := by
    refine ⟨Map.AllLevels_of_forall _ ?_ _, fun _ _ _ => rfl⟩
    intro l k _
    simp
  exact h0.cards_congr hs hm

theorem CardsSet.imp {ms m : Mem} {P Q : Nat → Prop}
    (h : CardsSet B c0 ms m P) (hpq : ∀ p, P p ↔ Q p) : CardsSet B c0 ms m Q := by
  have : P = Q := funext fun p => propext (hpq p)
  rw [← this]; exact h

/-- A card mark adds the address marked. -/
theorem CardsSet.mark (hs : Start B c0 G) {cp1 : List Nat} {c1 : Context}
    (hi : Inv B c0 G c1 cp1) {ms m2 : Mem} {mk : List Nat} (p : Nat)
    (h : CardsSet B c0 ms c1.mem (· ∈ mk))
    (hw : (c1.mapOf c1.oldGen).AllLevels
      (fun l => l.RecordWritten B (c1.seg c1.oldGen) c1.mem m2 p 1))
    (hf2 : ∀ a, ¬ (c1.mapOf c1.oldGen).inFootprint B (c1.seg c1.oldGen) a → m2 a = c1.mem a) :
    CardsSet B c0 ms m2 (· ∈ p :: mk) := by
  have hB := hs.B_pos
  have ho : c1.oldGen = c0.oldGen := by
    unfold Context.oldGen; rw [hi.mode_eq]
  rw [ho, hi.mapOf_eq] at hw hf2
  have hd := hi.seg_data c0.oldGen
  have hk := hi.seg_capacity c0.oldGen
  constructor
  · refine Map.AllLevels_mono _ _ _ ?_
      (Map.AllLevels_and _ _ _ h.1 (Map.AllLevels_and _ _ _ hw hs.cards_ok))
    rintro l ⟨q1, q2, q3, q4⟩ k hk1
    have hk2 := (Map.size_lt_sizeNow B _ l _ hk1).1
    have hk3 : wordOf B k < l.sizeNow B (c1.seg c0.oldGen) := by
      unfold Map.sizeNow at hk2 ⊢
      rw [hk]; exact hk2
    have e := q2 k hk3
    rw [Map.bit_seg B (c0.seg c0.oldGen) (c1.seg c0.oldGen) l m2 k hd hk,
      Map.bit_seg B (c0.seg c0.oldGen) (c1.seg c0.oldGen) l c1.mem k hd hk] at e
    have hri : l.recordIndex B (c1.seg c0.oldGen) p = l.recordIndex B (c0.seg c0.oldGen) p := by
      unfold Map.recordIndex; rw [hd]
    rw [hri, q4] at e
    rw [e]
    by_cases hkp : k = l.recordIndex B (c0.seg c0.oldGen) p
    · rw [if_pos (by omega)]
      simp only [decide_eq_true_eq, true_iff]
      have : l.recordIndex B (c0.seg c0.oldGen) p + 1 - 1 - k = 0 := by omega
      rw [this]
      exact ⟨fun _ => Or.inr ⟨p, List.mem_cons_self _ _, hkp⟩, fun _ => by norm_num⟩
    · rw [if_neg (by omega), q1 k hk1]
      constructor
      · rintro (h1 | ⟨q, h1, h2⟩)
        · exact Or.inl h1
        · exact Or.inr ⟨q, List.mem_cons_of_mem _ h1, h2⟩
      · rintro (h1 | ⟨q, h1, h2⟩)
        · exact Or.inl h1
        · rcases List.mem_cons.1 h1 with e1 | e1
          · rw [e1] at h2; exact absurd h2 hkp
          · exact Or.inr ⟨q, e1, h2⟩
  · intro a h1 h2
    rw [hf2 a (by
      unfold Map.inFootprint at h2 ⊢
      rw [hd, hk]; exact h2)]
    exact h.2 a h1 h2

end CardMarks

end Heap

namespace Heap

open CollectionType

section MarkSteps

variable {B : Nat} {c0 c : Context} {G : Graph} {cp : List Nat}

theorem Inv.oldGen_eq (hi : Inv B c0 G c cp) : c.oldGen = c0.oldGen := by
  unfold Context.oldGen; rw [hi.mode_eq]

/-- A word a segment contains lies in the storage of the segment. -/
theorem Inv.contains_storage (hi : Inv B c0 G c cp) (g : Gen) (a : Nat)
    (h : (c.seg g).contains B a = true) : c0.inStorage B g a := by
  obtain ⟨-, h1, h2⟩ := (Segment.contains_iff B _ a).1 h
  have hp := (hi.pos g).2
  have hd := hi.seg_data g
  have hc := hi.seg_capacity g
  have := Nat.mul_le_mul_right B hp
  unfold Context.inStorage
  simp only [Nat.add_mul]
  rw [hd] at h1 h2; rw [hc] at this
  omega

/-- A word of a copy lies in the segment the object was copied into, and in no
other. -/
theorem Inv.contains_copy (hs : Start B c0 G) (hi : Inv B c0 G c cp) (y : Nat) (hy : y ∈ cp)
    (a : Nat) (h1 : c.mem y ≤ a) (h2 : a < c.mem y + (G.lay y).size * B) (g : Gen) :
    (c.seg g).contains B a = decide (dest B c0 G y = g) := by
  have hB := hs.B_pos
  obtain ⟨i, e, p1, p2⟩ := (hi.fwd y hy).1
  have hsz := (hs.obj_ok y (hi.cp_sub y hy).1).2.2.1
  by_cases hg : dest B c0 G y = g
  · rw [decide_eq_true hg, Segment.contains_iff]
    subst hg
    have : (i + (G.lay y).size) * B ≤ (c.seg (dest B c0 G y)).position * B :=
      Nat.mul_le_mul_right B p2
    rw [Nat.add_mul] at this
    exact ⟨by omega, by omega, by omega⟩
  · rw [decide_eq_false hg]
    by_contra hcon
    have hcon : (c.seg g).contains B a = true := by
      cases h : (c.seg g).contains B a
      · exact absurd h hcon
      · rfl
    have s1 := hi.contains_storage g a hcon
    have s2 := (IsCopy.storage hi _ _ _ (hi.fwd y hy).1 a h1 h2).1
    exact hs.stor_disj _ _ hg a s2 s1

/-- An object gen2 held at the start is not in destination space. -/
theorem Start.gen2_not_toSpace (hs : Start B c0 G) (a : Nat) (h : c0.gen2.contains B a = true) :
    ¬ c0.inToSpace B a := by
  obtain ⟨-, h1, h2⟩ := (Segment.contains_iff B _ a).1 h
  have hp := (hs.seg_ok Gen.gen2).2.1
  simp only [Context.seg] at hp
  have := Nat.mul_le_mul_right B hp
  have s1 : c0.inStorage B Gen.gen2 a := by
    unfold Context.inStorage
    simp only [Nat.add_mul, Context.seg]
    omega
  rintro (h3 | h3 | h3)
  · refine hs.stor_disj Gen.gen2 Gen.nextGen1 (by decide) a s1 ?_
    unfold Context.inStorage; simp only [Nat.add_mul, Context.seg]; omega
  · refine hs.stor_disj Gen.gen2 Gen.nextGen2 (by decide) a s1 ?_
    unfold Context.inStorage; simp only [Nat.add_mul, Context.seg]; omega
  · omega

/-- Outside destination space the old generation contains what it did at the
start. -/
theorem Inv.old_contains_out (hs : Start B c0 G) (hi : Inv B c0 G c cp) (a : Nat)
    (h : ¬ c0.inToSpace B a) :
    (c.seg c.oldGen).contains B a = (c0.seg c0.oldGen).contains B a := by
  rw [hi.oldGen_eq]
  rcases oldGen_cases c0 with e | e <;> rw [e]
  · exact hi.gen2_contains a h
  · have h0 : (c0.seg Gen.nextGen2).contains B a = false := by
      cases hc : (c0.seg Gen.nextGen2).contains B a
      · rfl
      · have := ((Segment.contains_iff B _ a).1 hc).1
        exact absurd hs.next_empty.2 this
    rw [h0]
    cases hc : (c.seg Gen.nextGen2).contains B a
    · rfl
    · exfalso
      apply h
      obtain ⟨-, h1, h2⟩ := (Segment.contains_iff B _ a).1 hc
      have hp := (hi.pos Gen.nextGen2).2
      have hd := hi.seg_data Gen.nextGen2
      have hk := hi.seg_capacity Gen.nextGen2
      have := Nat.mul_le_mul_right B hp
      simp only [Context.seg] at h1 h2 hd hk this
      right; left
      rw [hd] at h1 h2; rw [hk] at this
      omega

/-- What the old generation contains of the words settled: the words outside
destination space and the words of the copies. -/
theorem Inv.old_contains_eq (hs : Start B c0 G) (hi : Inv B c0 G c cp) {c1 : Context}
    {cp1 : List Nat} (hi1 : Inv B c0 G c1 cp1) (a : Nat)
    (h : ¬ c0.inToSpace B a ∨ ∃ y ∈ cp, y ∈ cp1 ∧ c1.mem y = c.mem y ∧ c.mem y ≤ a ∧
      a < c.mem y + (G.lay y).size * B) :
    (c1.seg c1.oldGen).contains B a = (c.seg c.oldGen).contains B a := by
  rcases h with h | ⟨y, hy, hy1, e, h1, h2⟩
  · rw [hi.old_contains_out hs a h, hi1.old_contains_out hs a h]
  · rw [hi.contains_copy hs y hy a h1 h2, hi1.contains_copy hs y hy1 a (by rw [e]; exact h1)
      (by rw [e]; exact h2), hi.oldGen_eq, hi1.oldGen_eq]

theorem movable_not_old (x : Nat) (h : movable B c0 x) : ¬ isOld B c0 x := by
  rintro ⟨h1, h2⟩
  rcases h with h | h
  · rw [h1] at h; exact absurd h (by decide)
  · rw [h2] at h; exact absurd h (by decide)

/-- The referent of a settled slot does not change. -/
theorem referent_eq {c1 : Context} (v0 : Nat)
    (h : mask B v0 = 0 ∨ isOld B c0 (mask B v0) ∨ c1.mem (mask B v0) = c.mem (mask B v0)) :
    referent B c0 c1 v0 = referent B c0 c v0 := by
  unfold referent
  rcases h with h | h | h
  · rw [if_pos h, if_pos h]
  · by_cases h0 : mask B v0 = 0
    · rw [if_pos h0, if_pos h0]
    · have h1 : c0.mode = MinorCollection ∧ c0.gen2.contains B (mask B v0) = true := h
      rw [if_neg h0, if_neg h0, if_pos h1, if_pos h1]
  · rw [h]

/-- The condition of a card mark does not change for a settled slot of a
copy. -/
theorem cardCond_eq (hs : Start B c0 G) (hi : Inv B c0 G c cp) {c1 : Context}
    {cp1 : List Nat} (hi1 : Inv B c0 G c1 cp1) (hsub : ∀ y ∈ cp, y ∈ cp1)
    (hfw : ∀ y ∈ cp, c1.mem y = c.mem y) (y : Nat) (hy : y ∈ cp) (j : Nat)
    (hj : j ∈ (G.lay y).slots) (v0 : Nat)
    (hv : mask B v0 = 0 ∨ isOld B c0 (mask B v0) ∨ mask B v0 ∈ cp) :
    (cardCond B c1 (c1.mem y + j * B) (referent B c0 c1 v0) ↔
      cardCond B c (c.mem y + j * B) (referent B c0 c v0)) := by
  have hB := hs.B_pos
  have hr : referent B c0 c1 v0 = referent B c0 c v0 := by
    apply referent_eq
    rcases hv with h | h | h
    · exact Or.inl h
    · exact Or.inr (Or.inl h)
    · exact Or.inr (Or.inr (hfw _ h))
  rw [hr, hfw y hy]
  have hp : (c1.seg c1.oldGen).contains B (c.mem y + j * B) =
      (c.seg c.oldGen).contains B (c.mem y + j * B) := by
    apply hi.old_contains_eq hs hi1
    have := hs.slot_lt y (hi.cp_sub y hy).1 j hj
    exact Or.inr ⟨y, hy, hsub y hy, hfw y hy, Nat.le_add_right _ _, by omega⟩
  unfold cardCond
  rw [hp]
  by_cases h0 : referent B c0 c v0 = 0
  · simp [h0]
  · have hq : (c1.seg c1.oldGen).contains B (referent B c0 c v0) =
        (c.seg c.oldGen).contains B (referent B c0 c v0) := by
      apply hi.old_contains_eq hs hi1
      unfold referent at h0 ⊢
      by_cases h1 : mask B v0 = 0
      · rw [if_pos h1] at h0; exact absurd rfl h0
      · rw [if_neg h1]
        by_cases h2 : c0.mode = MinorCollection ∧ c0.gen2.contains B (mask B v0) = true
        · rw [if_pos h2]
          exact Or.inl (hs.gen2_not_toSpace _ h2.2)
        · rw [if_neg h2]
          have hx : mask B v0 ∈ cp := by
            rcases hv with h | h | h
            · exact absurd h h1
            · exact absurd h h2
            · exact h
          have := Nat.mul_pos (hs.obj_ok _ (hi.cp_sub _ hx).1).2.2.1 hB
          exact Or.inr ⟨_, hx, hsub _ hx, hfw _ hx, Nat.le_refl _, by omega⟩
    rw [hq]

/-- One step of the traversal keeps the card marks. -/
theorem Marks.step (hs : Start B c0 G) (hi : Inv B c0 G c cp) {c1 : Context} {cp1 : List Nat}
    (hi1 : Inv B c0 G c1 cp1) (hsub : ∀ y ∈ cp, y ∈ cp1) (hfw : ∀ y ∈ cp, c1.mem y = c.mem y)
    {ms : Mem} {wks wk : List Nat} {p0 : Nat} {unv unv1 : Nat → List Nat} {mk mk1 : List Nat}
    (hwk : ∀ y ∈ wk, y ∈ cp) (h : Marks B c0 G ms wks p0 c wk unv mk)
    (hset : CardsSet B c0 ms c1.mem (· ∈ mk1)) (hmk : ∀ q ∈ mk, q ∈ mk1)
    (hsrc : ∀ q ∈ mk1, q ∉ mk → (c1.seg c1.oldGen).contains B q = true ∧
      (q = p0 ∨ ∃ y ∈ wk, y ∉ wks ∧ ∃ j ∈ (G.lay y).slots, q = c1.mem y + j * B ∧
        child B G y j ∈ G.objs ∧ movable B c0 (child B G y j) ∧
        dest B c0 G (child B G y j) ≠ c0.oldGen))
    (hp0 : (c.seg c.oldGen).contains B p0 = true → (c1.seg c1.oldGen).contains B p0 = true)
    (hall : ∀ y ∈ wk, y ∉ wks → ∀ j ∈ (G.lay y).slots, j ∉ unv1 y →
      (j ∉ unv y ∧ (mask B (G.m0 (y + j * B)) = 0 ∨ isOld B c0 (mask B (G.m0 (y + j * B))) ∨
        mask B (G.m0 (y + j * B)) ∈ cp)) ∨
      (cardCond B c1 (c1.mem y + j * B) (referent B c0 c1 (G.m0 (y + j * B))) →
        c1.mem y + j * B ∈ mk1)) :
    Marks B c0 G ms wks p0 c1 wk unv1 mk1 := by
  refine ⟨hset, ?_, ?_⟩
  · intro q hq
    by_cases hqm : q ∈ mk
    · obtain ⟨s1, s2⟩ := h.src q hqm
      rcases s2 with s2 | ⟨y, hy, hyw, j, hj, e, hyg⟩
      · exact ⟨by rw [s2] at s1 ⊢; exact hp0 s1, Or.inl s2⟩
      · have hyc := hwk y hy
        refine ⟨?_, Or.inr ⟨y, hy, hyw, j, hj, by rw [hfw y hyc]; exact e, hyg⟩⟩
        rw [← s1]
        apply hi.old_contains_eq hs hi1
        have := hs.slot_lt y (hi.cp_sub y hyc).1 j hj
        exact Or.inr ⟨y, hyc, hsub y hyc, hfw y hyc, by omega, by omega⟩
    · exact hsrc q hq hqm
  · intro y hy hyw j hj hju hcc
    rcases hall y hy hyw j hj hju with ⟨h1, h2⟩ | h1
    · have hyc := hwk y hy
      have := (cardCond_eq hs hi hi1 hsub hfw y hyc j hj _ h2).1 hcc
      have := h.all y hy hyw j hj h1 this
      rw [hfw y hyc]
      exact hmk _ this
    · exact h1 hcc

end MarkSteps

end Heap

namespace Heap

open CollectionType

section WalkHelpers

variable {B : Nat} {c0 c : Context} {G : Graph} {cp : List Nat}

theorem Segment.contains_mono (s s1 : Segment) (a : Nat) (hd : s1.data = s.data)
    (hp : s.position ≤ s1.position) (h : s.contains B a = true) : s1.contains B a = true := by
  rw [Segment.contains_iff] at h ⊢
  have := Nat.mul_le_mul_right B hp
  rw [hd]
  exact ⟨by omega, h.2.1, by omega⟩

theorem lookup_mem (st : List (Nat × List Nat)) (y : Nat) (l : List Nat)
    (h : st.lookup y = some l) : (y, l) ∈ st := by
  induction st with
  | nil => simp at h
  | cons f rest ih =>
    obtain ⟨a, b⟩ := f
    by_cases e : y = a
    · subst e
      simp only [List.lookup_cons, beq_self_eq_true] at h
      cases h
      exact List.mem_cons_self _ _
    · have : (y == a) = false := by simpa using e
      simp only [List.lookup_cons, this] at h
      exact List.mem_cons_of_mem _ (ih h)

theorem lookup_none (st : List (Nat × List Nat)) (y : Nat) (h : y ∉ st.map Prod.fst) :
    st.lookup y = none := by
  induction st with
  | nil => rfl
  | cons f rest ih =>
    obtain ⟨a, b⟩ := f
    simp only [List.map_cons, List.mem_cons, not_or] at h
    have : (y == a) = false := by simpa using h.1
    simp only [List.lookup_cons, this]
    exact ih h.2

theorem lookup_of_mem (st : List (Nat × List Nat)) (y : Nat) (l : List Nat)
    (hn : (st.map Prod.fst).Nodup) (h : (y, l) ∈ st) : st.lookup y = some l := by
  induction st with
  | nil => simp at h
  | cons f rest ih =>
    obtain ⟨a, b⟩ := f
    simp only [List.map_cons, List.nodup_cons] at hn
    rcases List.mem_cons.1 h with e | e
    · cases e
      simp only [List.lookup_cons, beq_self_eq_true]
    · have hne : y ≠ a := by
        intro e1
        subst e1
        exact hn.1 (List.mem_map.2 ⟨(y, l), e, rfl⟩)
      have : (y == a) = false := by simpa using hne
      simp only [List.lookup_cons, this]
      exact ih hn.2 e

/-- A pending offset of a frame leads to an object still to be descended
into. -/
theorem mem_pendOf_todo (st : List (Nat × List Nat)) (y j : Nat) (h : j ∈ pendOf st y) :
    child B G y j ∈ todoOf B G st := by
  unfold pendOf at h
  cases e : st.lookup y with
  | none => rw [e] at h; simp at h
  | some l =>
    rw [e] at h
    simp only [Option.getD_some] at h
    unfold todoOf
    rw [List.mem_bind]
    exact ⟨(y, l), lookup_mem st y l e, List.mem_map.2 ⟨j, h, rfl⟩⟩

theorem pendOf_cons (st : List (Nat × List Nat)) (o : Nat) (l : List Nat) :
    pendOf ((o, l) :: st) = Function.update (pendOf st) o l := by
  funext y
  unfold pendOf
  by_cases e : y = o
  · subst e
    simp [List.lookup_cons]
  · have : (y == o) = false := by simpa using e
    simp only [List.lookup_cons, this, Function.update_noteq e]

theorem pendOf_absent (st : List (Nat × List Nat)) (o : Nat) (h : o ∉ st.map Prod.fst) :
    pendOf st o = [] := by
  unfold pendOf
  rw [lookup_none st o h]
  rfl

theorem todoOf_cons (st : List (Nat × List Nat)) (o : Nat) (l : List Nat) :
    todoOf B G ((o, l) :: st) = l.map (child B G o) ++ todoOf B G st := by
  unfold todoOf
  simp [List.cons_bind]

theorem sorted_append_lt (l1 l2 : List Nat) (k : Nat) (h : (l1 ++ k :: l2).Sorted (· < ·)) :
    (∀ d ∈ l1, d < k) ∧ (∀ d ∈ l2, k < d) ∧ k ∉ l1 ∧ k ∉ l2 := by
  have h1 := List.pairwise_append.1 h
  have h2 := List.pairwise_cons.1 h1.2.1
  refine ⟨fun d hd => h1.2.2 d hd k (List.mem_cons_self _ _), fun d hd => h2.1 d hd, ?_, ?_⟩
  · intro hk
    exact absurd (h1.2.2 k hk k (List.mem_cons_self _ _)) (Nat.lt_irrefl _)
  · intro hk
    exact absurd (h2.1 k hk) (Nat.lt_irrefl _)

/-- The slots the walker has visited are settled: they held null, an object
left in place, or an object copied. -/
theorem Walking.walk_settled {ms : Mem} {wks wk : List Nat} {p0 par o : Nat}
    {st : List (Nat × List Nat)} {mk done rest N T : List Nat} {w : Walker}
    (hW : Walking B c0 G ms wks p0 c cp wk st par o mk done rest N T w) (y : Nat)
    (hy : y ∈ o :: wk) (j : Nat) (hj : j ∈ (G.lay y).slots) (hr : y = o → j ∉ rest) :
    mask B (G.m0 (y + j * B)) = 0 ∨ isOld B c0 (mask B (G.m0 (y + j * B))) ∨
      mask B (G.m0 (y + j * B)) ∈ cp := by
  by_cases hp : j ∈ Function.update (pendOf st) o (N ++ rest) y
  · have htd : child B G y j ∈ T.map (child B G o) ++ todoOf B G st := by
      by_cases e : y = o
      · subst e
        rw [Function.update_same] at hp
        rcases List.mem_append.1 hp with h | h
        · exact List.mem_append_left _ (List.mem_map.2 ⟨j, hW.sub_T j h, rfl⟩)
        · exact absurd h (hr rfl)
      · rw [Function.update_noteq e] at hp
        exact List.mem_append_right _ (mem_pendOf_todo st y j hp)
    exact Or.inr (Or.inr (hW.trav.todo_cp _ htd).1)
  · obtain ⟨-, h⟩ := hW.trav.slots.walked y hy j hj hp
    rcases h with h | h | h
    · exact Or.inl h.1
    · exact Or.inr (Or.inl h.1)
    · exact Or.inr (Or.inr h.1)

end WalkHelpers

end Heap

namespace Heap

open CollectionType

section WalkCopy

variable {B : Nat} {c0 c : Context} {G : Graph} {cp : List Nat}

theorem Copied.pos_le {c1 : Context} {x r : Nat} (hc : Copied B c0 G c c1 x r) (g : Gen) :
    (c.seg g).position ≤ (c1.seg g).position := by
  by_cases e : g = dest B c0 G x
  · subst e; rw [hc.pos]; exact Nat.le_add_right _ _
  · rw [hc.pos_other g e]

/-- A word of an object is not the first word of another object. -/
theorem Start.obj_word_ne (hs : Start B c0 G) (y x : Nat) (hy : y ∈ G.objs) (hx : x ∈ G.objs)
    (hne : x ≠ y) (a : Nat) (h1 : y ≤ a) (h2 : a < y + (G.lay y).size * B) : a ≠ x := by
  have hB := hs.B_pos
  have := Nat.mul_pos (hs.obj_ok x hx).2.2.1 hB
  intro e
  rcases hs.obj_disj y hy x hx (fun e1 => hne e1.symm) with h | h <;> omega

/-- The words of a new copy lie in destination space. -/
theorem Copied.copied_toSpace (hs : Start B c0 G) (hi : Inv B c0 G c cp) {c1 : Context} {x r : Nat}
    (hx : x ∈ G.objs) (hm : movable B c0 x) (hw : x ∉ cp) (hc : Copied B c0 G c c1 x r)
    (a : Nat) (h1 : r ≤ a) (h2 : a < r + (G.lay x).size * B) : c0.inToSpace B a := by
  have hi1 := hi.copy_step hs x r c1 hx hm hw hc
  have f := hi1.fwd x (List.mem_cons_self _ _)
  rw [hc.fwd] at f
  exact IsCopy.copy_toSpace hi1 _ (dest_ne_gen1 x) _ _ f.1 a h1 h2

/-- A copy leaves the words the traversals do not touch. -/
theorem Copied.untouched (hs : Start B c0 G) (hi : Inv B c0 G c cp) {c1 : Context} {x r : Nat}
    (hx : x ∈ G.objs) (hm : movable B c0 x) (hw : x ∉ cp) (hc : Copied B c0 G c c1 x r)
    (a : Nat) (h : ¬ Touched B c0 G (x :: cp) a) : c1.mem a = c.mem a := by
  have hB := hs.B_pos
  have hsz := Nat.mul_pos (hs.obj_ok x hx).2.2.1 hB
  apply hc.frame a
  · intro e
    exact h (Or.inr (Or.inr ⟨x, List.mem_cons_self _ _, by omega, by omega⟩))
  · by_contra hcon
    exact h (Or.inl (hc.copied_toSpace hs hi hx hm hw a (by omega) (by omega)))
  · intro f
    exact h (Or.inr (Or.inl (Or.inl f)))

theorem Touched.touched_mono (x : Nat) (a : Nat) (h : Touched B c0 G cp a) :
    Touched B c0 G (x :: cp) a := by
  rcases h with h | h | ⟨y, hy, h1, h2⟩
  · exact Or.inl h
  · exact Or.inr (Or.inl h)
  · exact Or.inr (Or.inr ⟨y, List.mem_cons_of_mem _ hy, h1, h2⟩)

/-- The bitset the walker keeps in the original lies inside the original. -/
theorem WalkRep.bits_inside (hs : Start B c0 G) {m : Mem} {bs : Nat} {done N : List Nat}
    {w : Walker} (hw : WalkRep B m bs done N w) (o : Nat) (ho : o ∈ G.objs)
    (hd : ∀ d ∈ done, d ∈ (G.lay o).slots) (h3 : 3 ≤ done.length) :
    (bitsetWords B w.last + 2) * B ≤ (G.lay o).size * B := by
  apply Nat.mul_le_mul_right
  obtain ⟨o1, o2, o3, o4, o5, o6⟩ := hs.obj_ok o ho
  have hlen : done.length ≤ (G.lay o).size :=
    sorted_lt_length _ _ hw.sorted (fun d h => o6 d (hd d h))
  apply bitsetWords_fit B hs.hB _ _ _ (by omega)
  rcases hw.last with h | h
  · rw [h]; omega
  · exact o6 _ (hd _ h)

/-- Copying the referent of the slot the walker is about to visit. -/
theorem Walking.walk_copied (hs : Start B c0 G) {ms : Mem} {wks wk : List Nat} {p0 par o : Nat}
    {st : List (Nat × List Nat)} {mk done rest N : List Nat} {w : Walker} {k : Nat}
    (hW : Walking B c0 G ms wks p0 c cp wk st par o mk done (k :: rest) N N w)
    {c1 : Context} {x r : Nat} (hx : x ∈ G.objs) (hm : movable B c0 x) (hw : x ∉ cp)
    (hxk : x = child B G o k) (hc : Copied B c0 G c c1 x r) :
    Walking B c0 G ms wks p0 c1 (x :: cp) wk st par o mk done (k :: rest) N (N ++ [k]) w := by
  have hB := hs.B_pos
  have hi := hW.trav.inv
  have hsl := hW.trav.slots
  have hi1 := hi.copy_step hs x r c1 hx hm hw hc
  obtain ⟨f1, f2, f3⟩ := hc.frames hs hi hx hm hw
  have hocp : o ∈ cp := hsl.wk_sub o (List.mem_cons_self _ _)
  have hoo : o ∈ G.objs := (hi.cp_sub o hocp).1
  have hfw : ∀ y ∈ cp, c1.mem y = c.mem y := by
    intro y hy
    have hyo := (hi.cp_sub y hy).1
    have := Nat.mul_pos (hs.obj_ok y hyo).2.2.1 hB
    exact f1 y hyo y (Nat.le_refl _) (by omega) (fun e => hw (e ▸ hy))
  have hscr : ∀ y ∈ cp, ∀ a, y + B ≤ a → a < y + (G.lay y).size * B → c1.mem a = c.mem a := by
    intro y hy a h1 h2
    have hyo := (hi.cp_sub y hy).1
    exact f1 y hyo a (by omega) h2
      (hs.obj_word_ne y x hyo hx (fun e => hw (e ▸ hy)) a (by omega) h2)
  have hxt : x ∉ List.map (child B G o) N ++ todoOf B G st :=
    fun h => hw (hW.trav.todo_cp x h).1
  have htodo : List.map (child B G o) (N ++ [k]) ++ todoOf B G st =
      List.map (child B G o) N ++ x :: todoOf B G st := by
    rw [List.map_append, List.append_assoc, hxk]; rfl
  refine
    { trav :=
        { inv := hi1
          slots := hsl.slots_copied hs hi hx hm hw hc
          wk_nodup := hW.trav.wk_nodup
          todo_nodup := ?_
          todo_cp := ?_
          cover := ?_ }
      sub_T := fun j hj => List.mem_append_left _ hj
      walk := ?_
      stack := ?_
      st_nodup := hW.st_nodup
      st_wk := hW.st_wk
      slots_eq := hW.slots_eq
      o_new := hW.o_new
      marks := ?_
      ext := ?_
      wks_sub := hW.wks_sub }
  · rw [htodo]
    exact (List.perm_middle.nodup_iff).2 (List.nodup_cons.2 ⟨hxt, hW.trav.todo_nodup⟩)
  · intro z hz
    rw [htodo] at hz
    rcases List.mem_append.1 hz with h | h
    · obtain ⟨q1, q2⟩ := hW.trav.todo_cp z (List.mem_append_left _ h)
      exact ⟨List.mem_cons_of_mem _ q1, q2⟩
    · rcases List.mem_cons.1 h with e | e
      · subst e
        exact ⟨List.mem_cons_self _ _, fun h1 => hw (hsl.wk_sub _ h1)⟩
      · obtain ⟨q1, q2⟩ := hW.trav.todo_cp z (List.mem_append_right _ e)
        exact ⟨List.mem_cons_of_mem _ q1, q2⟩
  · intro z hz
    rw [htodo]
    rcases List.mem_cons.1 hz with e | e
    · subst e
      exact Or.inr (List.mem_append_right _ (List.mem_cons_self _ _))
    · rcases hW.trav.cover z e with h | h
      · exact Or.inl h
      · right
        rcases List.mem_append.1 h with h1 | h1
        · exact List.mem_append_left _ h1
        · exact List.mem_append_right _ (List.mem_cons_of_mem _ h1)
  · apply hW.walk.walk_frame hB
    intro h3 a h1 h2
    have hin := hW.walk.bits_inside hs o hoo
      (fun d hd => by rw [hW.slots_eq]; exact List.mem_append_left _ hd) h3
    rw [Nat.add_mul] at hin
    exact hscr o hocp a (by have := Nat.le_mul_of_pos_right B (show 0 < 2 by decide); omega)
      (by rw [Nat.mul_comm B 2] at h1 h2; omega)
  · apply StackRep.stack_frame hs c.mem c1.mem st par hW.stack
    · intro f hf
      exact (hi.cp_sub _ (hsl.wk_sub _ (List.mem_cons_of_mem _ (hW.st_wk f hf)))).1
    · intro f hf a h1 h2
      exact hscr f.1 (hsl.wk_sub _ (List.mem_cons_of_mem _ (hW.st_wk f hf))) a h1 h2
  · apply Marks.step hs hi hi1 (fun y hy => List.mem_cons_of_mem _ hy) hfw hsl.wk_sub hW.marks
    · exact hW.marks.set.cards_congr hs f3
    · exact fun q hq => hq
    · intro q hq hqn
      exact absurd hq hqn
    · intro h
      rw [hi1.oldGen_eq, ← hi.oldGen_eq]
      exact Segment.contains_mono _ _ _ (by rw [hi1.seg_data, hi.seg_data]) (hc.pos_le _) h
    · intro y hy hyw j hj hju
      refine Or.inl ⟨hju, hW.walk_settled y hy j hj ?_⟩
      intro e hjr
      rw [e, Function.update_same] at hju
      exact hju hjr
  · intro a ha
    rw [hc.untouched hs hi hx hm hw a ha]
    exact hW.ext a (fun h => ha (h.touched_mono x a))

end WalkCopy

end Heap

namespace Heap

open CollectionType

section WalkRecord

variable {B : Nat} {c0 c : Context} {G : Graph} {cp : List Nat}

/-- The walker records the slot it has visited: the state of the traversal
after `Walker::visit`, given what `update` returned. -/
theorem Walking.recorded (hs : Start B c0 G) {ms : Mem} {wks wk : List Nat} {p0 par o : Nat}
    {st : List (Nat × List Nat)} {mk done rest N T : List Nat} {w : Walker} {k r : Nat}
    {nv : Bool} {m2 : Mem}
    (hW : Walking B c0 G ms wks p0 c cp wk st par o mk done (k :: rest) N T w)
    (hT : T = if nv then N ++ [k] else N)
    (hr : (mask B (G.m0 (o + k * B)) = 0 ∧ r = 0) ∨
      (isOld B c0 (mask B (G.m0 (o + k * B))) ∧ r = mask B (G.m0 (o + k * B))) ∨
      (mask B (G.m0 (o + k * B)) ∈ cp ∧ r = c.mem (mask B (G.m0 (o + k * B)))))
    (hfr : ∀ a, ¬ (c.mapOf c.oldGen).inFootprint B (c.seg c.oldGen) a → m2 a = c.mem a)
    (hcard : (¬ cardCond B c (c.mem o + k * B) r ∧ m2 = c.mem) ∨
      (cardCond B c (c.mem o + k * B) r ∧ (c.mapOf c.oldGen).AllLevels
        (fun l => l.RecordWritten B (c.seg c.oldGen) c.mem m2 (c.mem o + k * B) 1))) :
    ∃ mk1, Walking B c0 G ms wks p0
      { c with mem := (Walker.record B (c.mem o) (o + B * 2) m2 w k r nv).1 } cp wk st par o mk1
      (done ++ [k]) rest T T (Walker.record B (c.mem o) (o + B * 2) m2 w k r nv).2 ∧
      ∀ y ∈ cp, (Walker.record B (c.mem o) (o + B * 2) m2 w k r nv).1 y = c.mem y := by
  have hB := hs.B_pos
  have hi := hW.trav.inv
  have hsl := hW.trav.slots
  have hocp : o ∈ cp := hsl.wk_sub o (List.mem_cons_self _ _)
  have hoo : o ∈ G.objs := (hi.cp_sub o hocp).1
  obtain ⟨o1, o2, o3, o4, o5, o6⟩ := hs.obj_ok o hoo
  have hobjs : ∀ y ∈ cp, y ∈ G.objs := fun y hy => (hi.cp_sub y hy).1
  have hkslot : k ∈ (G.lay o).slots := by rw [hW.slots_eq]; simp
  have hsorted : (done ++ k :: rest).Sorted (· < ·) := hW.slots_eq ▸ o5
  obtain ⟨hdk, hkr, hkd, hkr2⟩ := sorted_append_lt done rest k hsorted
  have hksz : k < (G.lay o).size := o6 k hkslot
  have hlen : done.length + 1 + rest.length ≤ (G.lay o).size := by
    have := hs.slots_length o hoo
    rw [hW.slots_eq] at this
    simp only [List.length_append, List.length_cons] at this
    omega
  have hpts : c0.inToSpace B (c.mem o + k * B) := hi.slot_toSpace hs o hocp k hkslot
  have hpend : c.mem (c.mem o + k * B) = G.m0 (o + k * B) :=
    (hsl.pending o (List.mem_cons_self _ _) k (by rw [Function.update_same]; simp)).2
  have hm2 : ∀ a, ¬ c0.inCards B a → m2 a = c.mem a :=
    fun a ha => hfr a (fun h => ha ((hi.heapMap_ok hs).2.2.2 a h))
  have hobj_nc : ∀ y ∈ G.objs, ∀ a, y ≤ a → a < y + (G.lay y).size * B → ¬ c0.inCards B a :=
    fun y hy a h1 h2 h => (hs.obj_not_maps y hy a h1 h2).1 (Or.inr h)
  have hts_nc : ∀ a, c0.inToSpace B a → ¬ c0.inCards B a :=
    fun a h1 h => (hs.toSpace_not_maps a h1).1 (Or.inr h)
  have hfit : 3 ≤ done.length + 1 → (bitsetWords B k + 2) * B ≤ (G.lay o).size * B :=
    fun h3 => Nat.mul_le_mul_right B (bitsetWords_fit B hs.hB k _ hksz (by omega))
  have h2B : B * 2 = 2 * B := Nat.mul_comm _ _
  have hwalk2 : WalkRep B m2 (o + B * 2) done N w := by
    apply hW.walk.walk_frame hB
    intro h3 a h1 h2
    have hin := hW.walk.bits_inside hs o hoo
      (fun d hd => by rw [hW.slots_eq]; exact List.mem_append_left _ hd) h3
    rw [Nat.add_mul] at hin
    exact hm2 a (hobj_nc o hoo a (by omega) (by omega))
  have hb : k + BitsPerWord B * 2 + 1 < 2 ^ 32 := by
    rcases BitsPerWord_cases B hs.hB with e | e <;> rw [e] <;> omega
  have hsep : 3 ≤ done.length + 1 →
      (c.mem o + k * B < o + B * 2 ∨ o + B * 2 + bitsetWords B k * B ≤ c.mem o + k * B) := by
    intro h3
    by_contra hcon
    have := hfit h3
    rw [Nat.add_mul] at this
    exact hs.obj_not_toSpace o hoo _ (by omega) (by omega) hpts
  obtain ⟨F1, F2⟩ := Walker.record_frame B hs.hB m2 (c.mem o) (o + B * 2) done N w k r nv
    hwalk2 hdk hb hsep
  have hrep := Walker.record_rep B hs.hB m2 (c.mem o) (o + B * 2) done N w k r nv
    hwalk2 hdk hb hsep
  generalize (Walker.record B (c.mem o) (o + B * 2) m2 w k r nv).1 = m3 at F1 F2 hrep ⊢
  generalize (Walker.record B (c.mem o) (o + B * 2) m2 w k r nv).2 = w1 at hrep ⊢
  rw [← hT] at hrep
  have hF1 : ∀ a, a ≠ c.mem o + k * B → ¬ (o + B * 2 ≤ a ∧ a < o + (G.lay o).size * B) →
      m3 a = m2 a := by
    intro a h1 h2
    apply F1 a h1
    by_cases h3 : done.length + 1 < 3
    · exact Or.inl h3
    · have := hfit (by omega)
      rw [Nat.add_mul] at this
      right
      by_contra hcon
      exact h2 ⟨by omega, by omega⟩
  have hm3 : ∀ a, a ≠ c.mem o + k * B → ¬ c0.inCards B a →
      ¬ (o + B * 2 ≤ a ∧ a < o + (G.lay o).size * B) → m3 a = c.mem a :=
    fun a h1 h2 h3 => (hF1 a h1 h3).trans (hm2 a h2)
  have hcards3 : ∀ a, c0.inCards B a → m3 a = m2 a := by
    intro a ha
    apply hF1 a
    · intro e; exact hts_nc a (e ▸ hpts) ha
    · rintro ⟨h1, h2⟩
      exact hobj_nc o hoo a (by omega) h2 ha
  have hprot : ∀ a, Protected B c0 G cp a → m3 a = c.mem a := by
    intro a ha
    apply hm3 a
    · intro e; exact hs.toSpace_not_protected hobjs a (e ▸ hpts) ha
    · intro h; exact hs.cards_not_protected hobjs a h ha
    · rintro ⟨h1, h2⟩
      exact hs.scratch_not_protected hobjs o hocp a (by omega) h2 ha
  have hfw3 : ∀ y ∈ cp, m3 y = c.mem y := fun y hy => hprot y (Or.inr (Or.inl hy))
  have hscr3 : ∀ y ∈ cp, y ≠ o → ∀ a, y ≤ a → a < y + (G.lay y).size * B → m3 a = c.mem a := by
    intro y hy hne a h1 h2
    apply hm3 a
    · intro e; exact hs.obj_not_toSpace y (hobjs y hy) a h1 h2 (e ▸ hpts)
    · exact hobj_nc y (hobjs y hy) a h1 h2
    · rintro ⟨h3, h4⟩
      rcases hs.obj_disj y (hobjs y hy) o hoo hne with h | h <;> omega
  have hslot3 : ∀ y ∈ cp, ∀ j, j < (G.lay y).size → c.mem y + j * B ≠ c.mem o + k * B →
      m3 (c.mem y + j * B) = c.mem (c.mem y + j * B) := by
    intro y hy j hj hne
    have hts := hi.word_toSpace hs y hy j hj
    apply hm3 _ hne (hts_nc _ hts)
    rintro ⟨h1, h2⟩
    exact hs.obj_not_toSpace o hoo _ (by omega) h2 hts
  have hp2 : m2 (c.mem o + k * B) = c.mem (c.mem o + k * B) := hm2 _ (hts_nc _ hpts)
  have hi3 : Inv B c0 G { c with mem := m3 } cp := hi.inv_frame hs m3 hprot
  have hkN : k ∉ N := fun h => hkd (hW.walk.sub.subset h)
  -- the slots
  have hslots3 : Slots B c0 G { c with mem := m3 } cp (o :: wk)
      (Function.update (pendOf st) o (T ++ rest)) := by
    cases nv
    · -- the slot is written
      simp only [Bool.false_eq_true, if_false] at hT F2
      subst hT
      have hral : r % B = 0 := by
        rcases hr with h | h | h
        · rw [h.2]; exact Nat.zero_mod _
        · rw [h.2]; exact mask_mod _ _
        · rw [h.2]; exact IsCopy.aligned hs hi _ _ _ (hi.fwd _ h.1).1
      obtain ⟨s1, s2, s3, -⟩ := set_spec B hs.hB c.mem (c.mem o + k * B) r hral
      have hv : m3 (c.mem o + k * B) = set B c.mem (c.mem o + k * B) r (c.mem o + k * B) := by
        rw [F2, hp2]
        unfold set Mem.write
        rw [if_pos rfl]
      have hupd : Updated B c0 c cp (m3 (c.mem o + k * B)) (G.m0 (o + k * B)) := by
        rw [hv]
        refine ⟨by rw [s3, hpend], ?_⟩
        rw [s2]
        rcases hr with h | h | h
        · exact Or.inl ⟨h.1, h.2⟩
        · exact Or.inr (Or.inl ⟨h.1, h.2⟩)
        · exact Or.inr (Or.inr ⟨h.1, h.2⟩)
      exact Slots.slot_write hs hi hsl
        o k _ (List.mem_cons_self _ _) hkslot hupd
        (by
          intro i hi1
          rw [Function.update_same] at hi1 ⊢
          refine ⟨?_, ?_⟩
          · rcases List.mem_append.1 hi1 with h | h
            · exact List.mem_append_left _ h
            · exact List.mem_append_right _ (List.mem_cons_of_mem _ h)
          · rintro rfl
            rcases List.mem_append.1 hi1 with h | h
            · exact hkN h
            · exact hkr2 h)
        (by
          intro z hz
          rw [Function.update_noteq hz, Function.update_noteq hz])
        (by
          intro i hi1 hi2
          rw [Function.update_same] at hi2 ⊢
          by_cases e : i = k
          · exact Or.inl e
          · right
            intro h
            apply hi2
            rcases List.mem_append.1 h with h | h
            · exact List.mem_append_left _ h
            · rcases List.mem_cons.1 h with h | h
              · exact absurd h e
              · exact List.mem_append_right _ h)
        m3 rfl hfw3
        (by
          intro z hz i hi1 hne
          apply hslot3 z hz i hi1
          intro e
          obtain ⟨e1, e2⟩ := hi.word_inj hs o z hocp hz i k hi1 hksz e
          exact hne e1 e2)
    · -- the slot stays pending
      simp only [if_true] at hT F2
      subst hT
      rw [List.append_assoc]
      have hall3 : ∀ y ∈ cp, ∀ j, j < (G.lay y).size →
          m3 (c.mem y + j * B) = c.mem (c.mem y + j * B) := by
        intro y hy j hj
        by_cases e : c.mem y + j * B = c.mem o + k * B
        · show m3 _ = _
          rw [e, F2, hp2]
        · exact hslot3 y hy j hj e
      exact Slots.slots_frame hsl hfw3
        (fun y hy j hj => hall3 y hy j ((hs.obj_ok y (hobjs y hy)).2.2.2.2.2 j hj))
        (fun y hy j hj _ => hall3 y hy j hj)
  -- the marks
  have hmarks : ∃ mk1, Marks B c0 G ms wks p0 { c with mem := m3 } (o :: wk)
      (Function.update (fun _ => []) o rest) mk1 := by
    have hall : ∀ mk1 : List Nat, (cardCond B c (c.mem o + k * B) r → c.mem o + k * B ∈ mk1) →
        ∀ y ∈ o :: wk, y ∉ wks → ∀ j ∈ (G.lay y).slots,
          j ∉ Function.update (fun _ => ([] : List Nat)) o rest y →
        (j ∉ Function.update (fun _ => ([] : List Nat)) o (k :: rest) y ∧
          (mask B (G.m0 (y + j * B)) = 0 ∨ isOld B c0 (mask B (G.m0 (y + j * B))) ∨
            mask B (G.m0 (y + j * B)) ∈ cp)) ∨
        (cardCond B { c with mem := m3 } (m3 y + j * B)
            (referent B c0 { c with mem := m3 } (G.m0 (y + j * B))) → m3 y + j * B ∈ mk1) := by
      intro mk1 hin y hy hyw j hj hju
      by_cases e : y = o ∧ j = k
      · obtain ⟨rfl, rfl⟩ := e
        right
        intro hcc
        rw [hfw3 y hocp] at hcc ⊢
        apply hin
        have hre : referent B c0 { c with mem := m3 } (G.m0 (y + j * B)) = r := by
          unfold referent
          rcases hr with h | h | h
          · rw [if_pos h.1, h.2]
          · have h1 : c0.mode = MinorCollection ∧
                c0.gen2.contains B (mask B (G.m0 (y + j * B))) = true := h.1
            by_cases h0 : mask B (G.m0 (y + j * B)) = 0
            · rw [if_pos h0, h.2, h0]
            · rw [if_neg h0, if_pos h1, h.2]
          · have h0 : mask B (G.m0 (y + j * B)) ≠ 0 := (hs.obj_ok _ (hobjs _ h.1)).1
            have h1 : ¬ (c0.mode = MinorCollection ∧
                c0.gen2.contains B (mask B (G.m0 (y + j * B))) = true) :=
              movable_not_old _ (hi.cp_sub _ h.1).2
            rw [if_neg h0, if_neg h1, h.2]
            exact hfw3 _ h.1
        rw [hre] at hcc
        exact hcc
      · left
        refine ⟨?_, hW.walk_settled y hy j hj ?_⟩
        · by_cases e1 : y = o
          · subst e1
            rw [Function.update_same] at hju ⊢
            intro h
            rcases List.mem_cons.1 h with h | h
            · exact e ⟨rfl, h⟩
            · exact hju h
          · rw [Function.update_noteq e1] at hju ⊢
            exact hju
        · intro e1 h
          subst e1
          rw [Function.update_same] at hju
          rcases List.mem_cons.1 h with h | h
          · exact e ⟨rfl, h⟩
          · exact hju h
    rcases hcard with ⟨hn, e2⟩ | ⟨hcc, hw⟩
    · refine ⟨mk, ?_⟩
      apply Marks.step hs hi hi3 (fun y hy => hy) hfw3 hsl.wk_sub hW.marks
      · apply hW.marks.set.cards_congr hs
        intro a ha
        show m3 a = c.mem a
        rw [hcards3 a ha, e2]
      · exact fun q hq => hq
      · intro q hq hqn; exact absurd hq hqn
      · exact fun h => h
      · exact hall mk (fun h => absurd h hn)
    · have hyoung : child B G o k ∈ G.objs ∧ movable B c0 (child B G o k) ∧
          dest B c0 G (child B G o k) ≠ c0.oldGen := by
        unfold child
        rcases hr with h | h | h
        · exact absurd h.2 hcc.1
        · exfalso
          have h1 := hcc.2.2
          have hg : c.oldGen = Gen.gen2 := by
            rw [hi.oldGen_eq]; unfold Context.oldGen; rw [if_pos h.1.1]
          rw [hg, h.2] at h1
          have h2 : c.gen2.contains B (mask B (G.m0 (o + k * B))) = false := h1
          rw [hi.gen2_contains _ (hs.gen2_not_toSpace _ h.1.2), h.1.2] at h2
          exact absurd h2 (by decide)
        · obtain ⟨q1, q2⟩ := hi.cp_sub _ h.1
          refine ⟨q1, q2, fun e => ?_⟩
          have hcon := (hi.fwd _ h.1).1.contains hB _ _ _ (hs.obj_ok _ q1).2.2.1
          have h1 := hcc.2.2
          rw [hi.oldGen_eq, ← e, h.2, hcon] at h1
          exact absurd h1 (by decide)
      refine ⟨(c.mem o + k * B) :: mk, ?_⟩
      apply Marks.step hs hi hi3 (fun y hy => hy) hfw3 hsl.wk_sub hW.marks
      · exact (hW.marks.set.mark hs hi _ hw hfr).cards_congr hs hcards3
      · exact fun q hq => List.mem_cons_of_mem _ hq
      · intro q hq hqn
        rcases List.mem_cons.1 hq with e | e
        · subst e
          refine ⟨hcc.2.1, Or.inr ⟨o, List.mem_cons_self _ _, hW.o_new, k, hkslot, ?_, hyoung⟩⟩
          show _ = m3 o + k * B
          rw [hfw3 o hocp]
        · exact absurd e hqn
      · exact fun h => h
      · exact hall _ (fun _ => List.mem_cons_self _ _)
  obtain ⟨mk1, hmarks⟩ := hmarks
  refine ⟨mk1, ?_, hfw3⟩
  refine
    { trav :=
        { inv := hi3
          slots := hslots3
          wk_nodup := hW.trav.wk_nodup
          todo_nodup := hW.trav.todo_nodup
          todo_cp := hW.trav.todo_cp
          cover := hW.trav.cover }
      sub_T := fun j hj => hj
      walk := hrep
      stack := ?_
      st_nodup := hW.st_nodup
      st_wk := hW.st_wk
      slots_eq := by rw [hW.slots_eq]; simp
      o_new := hW.o_new
      marks := hmarks
      ext := ?_
      wks_sub := hW.wks_sub }
  · apply StackRep.stack_frame hs c.mem m3 st par hW.stack
    · intro f hf
      exact hobjs _ (hsl.wk_sub _ (List.mem_cons_of_mem _ (hW.st_wk f hf)))
    · intro f hf a h1 h2
      have hfw := hW.st_wk f hf
      have hne : f.1 ≠ o := by
        intro e
        have := (List.nodup_cons.1 hW.trav.wk_nodup).1
        exact this (e ▸ hfw)
      exact hscr3 f.1 (hsl.wk_sub _ (List.mem_cons_of_mem _ hfw)) hne a (by omega) h2
  · intro a ha
    show m3 a = ms a
    rw [← hW.ext a ha]
    apply hm3 a
    · intro e; exact ha (Or.inl (e ▸ hpts))
    · intro h; exact ha (Or.inr (Or.inl (Or.inr h)))
    · rintro ⟨h1, h2⟩
      exact ha (Or.inr (Or.inr ⟨o, hocp, by omega, h2⟩))

end WalkRecord

end Heap

namespace Heap

open CollectionType

section WalkVisit

variable {B : Nat} {c0 c : Context} {G : Graph} {cp : List Nat}

theorem Grows.refl (c : Context) (cp : List Nat) : Grows c cp c cp :=
  ⟨fun _ h => h, fun _ _ => rfl, fun _ => Nat.le_refl _⟩

theorem Grows.trans {c1 c2 : Context} {cp1 cp2 : List Nat} (h1 : Grows c cp c1 cp1)
    (h2 : Grows c1 cp1 c2 cp2) : Grows c cp c2 cp2 :=
  ⟨fun y hy => h2.sub y (h1.sub y hy),
   fun y hy => (h2.fwd y (h1.sub y hy)).trans (h1.fwd y hy),
   fun g => Nat.le_trans (h1.pos g) (h2.pos g)⟩

/-- Writes that leave the forwarding words keep the order of the contexts. -/
theorem Grows.write (c : Context) (cp : List Nat) (m1 : Mem) (h : ∀ y ∈ cp, m1 y = c.mem y) :
    Grows c cp { c with mem := m1 } cp :=
  ⟨fun _ h => h, h, fun g => by cases g <;> exact Nat.le_refl _⟩

/-- One call of `Walker::visit` in the descending walk of the copy of `o`. -/
theorem Walking.visit (hs : Start B c0 G) {ms : Mem} {wks wk : List Nat} {p0 par o : Nat}
    {st : List (Nat × List Nat)} {mk done rest N : List Nat} {w : Walker} {k : Nat}
    (hW : Walking B c0 G ms wks p0 c cp wk st par o mk done (k :: rest) N N w) :
    ∃ c1 w1 cp1 mk1 N1, Walker.visit B (c.mem o) (o + B * 2) c w k = some (c1, w1) ∧
      Walking B c0 G ms wks p0 c1 cp1 wk st par o mk1 (done ++ [k]) rest N1 N1 w1 ∧
      Grows c cp c1 cp1 := by
  have hB := hs.B_pos
  have hi := hW.trav.inv
  have hsl := hW.trav.slots
  have hocp : o ∈ cp := hsl.wk_sub o (List.mem_cons_self _ _)
  have hoo : o ∈ G.objs := (hi.cp_sub o hocp).1
  have hkslot : k ∈ (G.lay o).slots := by rw [hW.slots_eq]; simp
  have hpend : c.mem (c.mem o + k * B) = G.m0 (o + k * B) :=
    (hsl.pending o (List.mem_cons_self _ _) k (by rw [Function.update_same]; simp)).2
  have hv : mask B (c.mem (c.mem o + k * B)) = 0 ∨ mask B (c.mem (c.mem o + k * B)) ∈ G.objs := by
    rw [hpend]; exact hs.valid o hoo k hkslot
  obtain ⟨r, nv, c1, m2, hu, hfr, hcase, hcard⟩ := update_spec hs hi _ hv
  have hvis : Walker.visit B (c.mem o) (o + B * 2) c w k =
      some ({ c1 with mem := (Walker.record B (c.mem o) (o + B * 2) m2 w k r nv).1 },
        (Walker.record B (c.mem o) (o + B * 2) m2 w k r nv).2) := by
    unfold Walker.visit getp
    rw [hu]
  rw [hvis]
  rw [hpend] at hcase
  rcases hcase with ⟨h1, h2, h3⟩ | ⟨h1, h2, h3, h4, h5⟩
  · subst h1
    obtain rfl : c = c1 := h2.symm
    obtain ⟨mk1, hR, hf⟩ := hW.recorded hs (by rfl : N = if false then N ++ [k] else N) h3 hfr hcard
    exact ⟨_, _, cp, mk1, N, rfl, hR, Grows.write c cp _ hf⟩
  · subst h1
    have hWc := hW.walk_copied hs h2 h3 h4 rfl h5
    have hi1 := hWc.trav.inv
    have hfo : c1.mem o = c.mem o := by
      have := Nat.mul_pos (hs.obj_ok o hoo).2.2.1 hB
      exact (h5.frames hs hi h2 h3 h4).1 o hoo o (Nat.le_refl _) (by omega)
        (fun e => h4 (e ▸ hocp))
    rw [← hfo] at hcard ⊢
    obtain ⟨mk1, hR, hf⟩ := hWc.recorded hs (by rfl : N ++ [k] = if true then N ++ [k] else N)
      (Or.inr (Or.inr ⟨List.mem_cons_self _ _, h5.fwd.symm⟩)) hfr hcard
    refine ⟨_, _, _, mk1, N ++ [k], rfl, hR, ?_⟩
    refine Grows.trans (⟨fun y hy => List.mem_cons_of_mem _ hy, ?_, h5.pos_le⟩ :
      Grows c cp c1 (_ :: cp)) (Grows.write c1 _ _ hf)
    intro y hy
    have hyo := (hi.cp_sub y hy).1
    have := Nat.mul_pos (hs.obj_ok y hyo).2.2.1 hB
    exact (h5.frames hs hi h2 h3 h4).1 y hyo y (Nat.le_refl _) (by omega)
      (fun e => h4 (e ▸ hy))

end WalkVisit

end Heap

namespace Heap

open CollectionType

section WalkDown

variable {B : Nat} {c0 : Context} {G : Graph}

/-- The descending walk of the copy of `o` visits all its slots. -/
theorem Walking.walkDown (hs : Start B c0 G) {ms : Mem} {wks wk : List Nat} {p0 par o : Nat}
    {st : List (Nat × List Nat)} :
    ∀ (rest done N : List Nat) (w : Walker) (c : Context) (cp mk : List Nat),
      Walking B c0 G ms wks p0 c cp wk st par o mk done rest N N w →
      ∃ c1 w1 cp1 mk1 N1, walkDown B (c.mem o) (o + B * 2) rest c w = some (c1, w1) ∧
        Walking B c0 G ms wks p0 c1 cp1 wk st par o mk1 (done ++ rest) [] N1 N1 w1 ∧
        Grows c cp c1 cp1 := by
  intro rest
  induction rest with
  | nil =>
    intro done N w c cp mk hW
    refine ⟨c, w, cp, mk, N, rfl, ?_, Grows.refl c cp⟩
    rw [List.append_nil]; exact hW
  | cons k rest ih =>
    intro done N w c cp mk hW
    obtain ⟨c1, w1, cp1, mk1, N1, e1, hW1, g1⟩ := hW.visit hs
    have hocp : o ∈ cp := hW.trav.slots.wk_sub o (List.mem_cons_self _ _)
    obtain ⟨c2, w2, cp2, mk2, N2, e2, hW2, g2⟩ := ih _ _ _ _ _ _ hW1
    rw [g1.fwd o hocp] at e2
    refine ⟨c2, w2, cp2, mk2, N2, ?_, ?_, g1.trans g2⟩
    · unfold Heap.walkDown
      rw [e1]
      exact e2
    · rw [List.append_assoc] at hW2
      exact hW2

/-- At the head of the loop the walk of the copy of `o` starts: no slot has
been visited. -/
theorem AtVisit.start {ms : Mem} {wks wk : List Nat} {p0 par o : Nat}
    {st : List (Nat × List Nat)} {c : Context} {cp mk : List Nat}
    (hA : AtVisit B c0 G ms wks p0 c cp wk st par o mk) :
    Walking B c0 G ms wks p0 c cp wk st par o mk [] (G.lay o).slots [] []
      { first := 0, second := 0, last := 0, visits := 0, total := 0 } := by
  have ht := hA.trav
  obtain ⟨hocp, hown⟩ := ht.todo_cp o (List.mem_cons_self _ _)
  have hnd := List.nodup_cons.1 ht.todo_nodup
  refine
    { trav :=
        { inv := ht.inv
          slots := ⟨?_, ?_, ?_, ?_, ht.slots.body⟩
          wk_nodup := List.nodup_cons.2 ⟨hown, ht.wk_nodup⟩
          todo_nodup := hnd.2
          todo_cp := ?_
          cover := ?_ }
      sub_T := fun j hj => hj
      walk := ?_
      stack := hA.stack
      st_nodup := hA.st_nodup
      st_wk := hA.st_wk
      slots_eq := rfl
      o_new := fun h => hown (hA.wks_sub o h)
      marks := ⟨hA.marks.set, ?_, ?_⟩
      ext := hA.ext
      wks_sub := hA.wks_sub }
  · intro y hy
    rcases List.mem_cons.1 hy with e | e
    · rw [e]; exact hocp
    · exact ht.slots.wk_sub y e
  · intro y hy hyw k hk
    exact ht.slots.unwalked y hy (fun h => hyw (List.mem_cons_of_mem _ h)) k hk
  · intro y hy k hk hp
    rcases List.mem_cons.1 hy with e | e
    · subst e
      rw [Function.update_same] at hp
      exact absurd hk hp
    · have hne : y ≠ o := fun e1 => hown (e1 ▸ e)
      rw [Function.update_noteq hne] at hp
      exact ht.slots.walked y e k hk hp
  · intro y hy k hk
    rcases List.mem_cons.1 hy with e | e
    · subst e
      rw [Function.update_same] at hk
      exact ⟨hk, ht.slots.unwalked y hocp hown k hk⟩
    · have hne : y ≠ o := fun e1 => hown (e1 ▸ e)
      rw [Function.update_noteq hne] at hk
      exact ht.slots.pending y e k hk
  · intro x hx
    obtain ⟨q1, q2⟩ := ht.todo_cp x (List.mem_cons_of_mem _ hx)
    refine ⟨q1, ?_⟩
    intro h
    rcases List.mem_cons.1 h with e | e
    · exact hnd.1 (e ▸ hx)
    · exact q2 e
  · intro x hx
    rcases ht.cover x hx with h | h
    · exact Or.inl (List.mem_cons_of_mem _ h)
    · rcases List.mem_cons.1 h with e | e
      · exact Or.inl (e ▸ List.mem_cons_self _ _)
      · exact Or.inr e
  · exact
      { total := rfl
        visits := rfl
        first := fun x h => by simp at h
        sub := List.Sublist.refl _
        sorted := List.sorted_nil
        small := fun _ => ⟨rfl, rfl⟩
        big := fun h => by simp at h
        last := Or.inl rfl }
  · intro q hq
    obtain ⟨s1, s2⟩ := hA.marks.src q hq
    refine ⟨s1, ?_⟩
    rcases s2 with s2 | ⟨y, hy, r⟩
    · exact Or.inl s2
    · exact Or.inr ⟨y, List.mem_cons_of_mem _ hy, r⟩
  · intro y hy hyw j hj hju
    rcases List.mem_cons.1 hy with e | e
    · subst e
      rw [Function.update_same] at hju
      exact absurd hj hju
    · exact hA.marks.all y e hyw j hj (by simp)

end WalkDown

end Heap

namespace Heap

open CollectionType

section Rest

variable {B : Nat} {c0 c : Context} {G : Graph} {cp : List Nat}

theorem pendOf_push (y : Nat) (l : List Nat) (st : List (Nat × List Nat))
    (h : y ∉ st.map Prod.fst) : pendOf (pushFrame y l st) = Function.update (pendOf st) y l := by
  unfold pushFrame
  by_cases e : l = []
  · rw [if_pos e, e]
    funext z
    by_cases e1 : z = y
    · rw [e1, Function.update_same, pendOf_absent st y h]
    · rw [Function.update_noteq e1]
  · rw [if_neg e, pendOf_cons]

theorem todoOf_push (y : Nat) (l : List Nat) (st : List (Nat × List Nat)) :
    todoOf B G (pushFrame y l st) = l.map (child B G y) ++ todoOf B G st := by
  unfold pushFrame
  by_cases e : l = []
  · rw [if_pos e, e]; rfl
  · rw [if_neg e, todoOf_cons]

theorem push_mem (y : Nat) (l : List Nat) (st : List (Nat × List Nat)) (f : Nat × List Nat)
    (h : f ∈ pushFrame y l st) : f = (y, l) ∨ f ∈ st := by
  unfold pushFrame at h
  by_cases e : l = []
  · rw [if_pos e] at h; exact Or.inr h
  · rw [if_neg e] at h; exact List.mem_cons.1 h

theorem push_nodup (y : Nat) (l : List Nat) (st : List (Nat × List Nat))
    (h : y ∉ st.map Prod.fst) (hn : (st.map Prod.fst).Nodup) :
    ((pushFrame y l st).map Prod.fst).Nodup := by
  unfold pushFrame
  by_cases e : l = []
  · rw [if_pos e]; exact hn
  · rw [if_neg e]; exact List.nodup_cons.2 ⟨h, hn⟩

/-- The stack after a push. -/
theorem StackRep.push (m : Mem) (y top : Nat) (l : List Nat) (st : List (Nat × List Nat))
    (h0 : l = [] → StackRep B G m top st)
    (h1 : l ≠ [] → top = y ∧ FrameRep B G m y l ∧ StackRep B G m (m (y + B)) st) :
    StackRep B G m top (pushFrame y l st) := by
  unfold pushFrame
  by_cases e : l = []
  · rw [if_pos e]; exact h0 e
  · rw [if_neg e]; exact h1 e

/-- The slots of the walked copies are settled between two walks. -/
theorem Resting.rest_settled {ms : Mem} {wks wk : List Nat} {p0 : Nat} {pend : Nat → List Nat}
    {todo mk : List Nat} (hR : Resting B c0 G ms wks p0 c cp wk pend todo mk) (y : Nat)
    (hy : y ∈ wk) (j : Nat) (hj : j ∈ (G.lay y).slots) :
    mask B (G.m0 (y + j * B)) = 0 ∨ isOld B c0 (mask B (G.m0 (y + j * B))) ∨
      mask B (G.m0 (y + j * B)) ∈ cp := by
  by_cases hp : j ∈ pend y
  · exact Or.inr (Or.inr (hR.trav.todo_cp _ (hR.pend_todo y j hp)).1)
  · obtain ⟨-, h⟩ := hR.trav.slots.walked y hy j hj hp
    rcases h with h | h | h
    · exact Or.inl h.1
    · exact Or.inr (Or.inl h.1)
    · exact Or.inr (Or.inr h.1)

/-- When the walker has visited every slot the traversal rests. -/
theorem Walking.rest {ms : Mem} {wks wk : List Nat} {p0 par o : Nat}
    {st : List (Nat × List Nat)} {mk done N : List Nat} {w : Walker}
    (hW : Walking B c0 G ms wks p0 c cp wk st par o mk done [] N N w) :
    Resting B c0 G ms wks p0 c cp (o :: wk) (Function.update (pendOf st) o N)
      (N.map (child B G o) ++ todoOf B G st) mk := by
  have ht := hW.trav
  rw [List.append_nil] at ht
  refine ⟨ht, ?_, hW.ext, fun y hy => List.mem_cons_of_mem _ (hW.wks_sub y hy), ?_⟩
  · have : Function.update (fun _ => ([] : List Nat)) o [] = fun _ => [] := by
      funext z
      by_cases e : z = o
      · rw [e, Function.update_same]
      · rw [Function.update_noteq e]
    rw [← this]
    exact hW.marks
  · intro y j hj
    by_cases e : y = o
    · subst e
      rw [Function.update_same] at hj
      exact List.mem_append_left _ (List.mem_map.2 ⟨j, hj, rfl⟩)
    · rw [Function.update_noteq e] at hj
      exact List.mem_append_right _ (mem_pendOf_todo st y j hj)

/-- Writes into the words of the copied originals after the first keep the
resting state. -/
theorem Resting.scratch (hs : Start B c0 G) {ms : Mem} {wks wk : List Nat} {p0 : Nat}
    {pend : Nat → List Nat} {todo mk : List Nat}
    (hR : Resting B c0 G ms wks p0 c cp wk pend todo mk) (m1 : Mem)
    (hm : ∀ a, (∀ y ∈ cp, ¬ (y + B ≤ a ∧ a < y + (G.lay y).size * B)) → m1 a = c.mem a) :
    Resting B c0 G ms wks p0 { c with mem := m1 } cp wk pend todo mk ∧
      ∀ y ∈ cp, m1 y = c.mem y := by
  have hB := hs.B_pos
  have hi := hR.trav.inv
  have hobjs : ∀ y ∈ cp, y ∈ G.objs := fun y hy => (hi.cp_sub y hy).1
  have hprot : ∀ a, Protected B c0 G cp a → m1 a = c.mem a := by
    intro a ha
    apply hm a
    rintro y hy ⟨h1, h2⟩
    exact hs.scratch_not_protected hobjs y hy a h1 h2 ha
  have hfw : ∀ y ∈ cp, m1 y = c.mem y := fun y hy => hprot y (Or.inr (Or.inl hy))
  have hi1 : Inv B c0 G { c with mem := m1 } cp := hi.inv_frame hs m1 hprot
  have hts : ∀ a, c0.inToSpace B a → m1 a = c.mem a := by
    intro a ha
    apply hm a
    rintro y hy ⟨h1, h2⟩
    exact hs.obj_not_toSpace y (hobjs y hy) a (by omega) h2 ha
  refine ⟨⟨⟨hi1, ?_, hR.trav.wk_nodup, hR.trav.todo_nodup, hR.trav.todo_cp, hR.trav.cover⟩,
    ?_, ?_, hR.wks_sub, hR.pend_todo⟩, hfw⟩
  · exact Slots.slots_frame hR.trav.slots hfw
      (fun y hy j hj => hts _ (hi.slot_toSpace hs y hy j hj))
      (fun y hy j hj _ => hts _ (hi.word_toSpace hs y hy j hj))
  · apply Marks.step hs hi hi1 (fun y hy => hy) hfw hR.trav.slots.wk_sub hR.marks
    · apply hR.marks.set.cards_congr hs
      intro a ha
      apply hm a
      rintro y hy ⟨h1, h2⟩
      exact (hs.obj_not_maps y (hobjs y hy) a (by omega) h2).1 (Or.inr ha)
    · exact fun q hq => hq
    · intro q hq hqn; exact absurd hq hqn
    · exact fun h => h
    · intro y hy hyw j hj hju
      exact Or.inl ⟨hju, hR.rest_settled y hy j hj⟩
  · intro a ha
    rw [← hR.ext a ha]
    apply hm a
    rintro y hy ⟨h1, h2⟩
    exact ha (Or.inr (Or.inr ⟨y, hy, by omega, h2⟩))

end Rest

end Heap

namespace Heap

open CollectionType

section Resume

variable {B : Nat} {c0 c : Context} {G : Graph} {cp : List Nat}

/-- The traversal goes on with the first pending slot of the object `y`: the
slot gets the copy of its referent `x`, which is walked next. -/
theorem Resting.resume (hs : Start B c0 G) {ms : Mem} {wks wk : List Nat} {p0 : Nat}
    {pend : Nat → List Nat} {mk : List Nat} {st2 : List (Nat × List Nat)} {par2 y k1 x : Nat}
    (hR : Resting B c0 G ms wks p0 c cp wk pend (x :: todoOf B G st2) mk)
    (hy : y ∈ wk) (hx : x = child B G y k1)
    (hpend : pend = Function.update (pendOf st2) y (k1 :: pendOf st2 y))
    (hk1 : k1 ∉ pendOf st2 y)
    (hst : StackRep B G c.mem par2 st2) (hnd : (st2.map Prod.fst).Nodup)
    (hstwk : ∀ f ∈ st2, f.1 ∈ wk) :
    get B c.mem (c.mem y) k1 = x ∧ follow B c x = some (c.mem x) ∧
      AtVisit B c0 G ms wks p0 { c with mem := setAt B c.mem (c.mem y) k1 (c.mem x) } cp wk st2
        par2 x mk ∧
      ∀ z ∈ cp, setAt B c.mem (c.mem y) k1 (c.mem x) z = c.mem z := by
  have hB := hs.B_pos
  have hi := hR.trav.inv
  have hsl := hR.trav.slots
  have hobjs : ∀ y ∈ cp, y ∈ G.objs := fun y hy => (hi.cp_sub y hy).1
  have hycp : y ∈ cp := hsl.wk_sub y hy
  have hkp : k1 ∈ pend y := by rw [hpend, Function.update_same]; exact List.mem_cons_self _ _
  obtain ⟨hks, hval⟩ := hsl.pending y hy k1 hkp
  have hxcp : x ∈ cp := (hR.trav.todo_cp x (List.mem_cons_self _ _)).1
  have hpts : c0.inToSpace B (c.mem y + k1 * B) := hi.slot_toSpace hs y hycp k1 hks
  have hral : c.mem x % B = 0 := IsCopy.aligned hs hi _ _ _ (hi.fwd x hxcp).1
  obtain ⟨s1, s2, s3, s4⟩ := set_spec B hs.hB c.mem (c.mem y + k1 * B) (c.mem x) hral
  have hset : setAt B c.mem (c.mem y) k1 (c.mem x) = set B c.mem (c.mem y + k1 * B) (c.mem x) :=
    rfl
  rw [hset]
  generalize set B c.mem (c.mem y + k1 * B) (c.mem x) = m1 at s1 s2 s3 s4 ⊢
  have hprot : ∀ a, Protected B c0 G cp a → m1 a = c.mem a := by
    intro a ha
    apply s4 a
    intro e
    exact hs.toSpace_not_protected hobjs a (e ▸ hpts) ha
  have hfw : ∀ z ∈ cp, m1 z = c.mem z := fun z hz => hprot z (Or.inr (Or.inl hz))
  have hi1 : Inv B c0 G { c with mem := m1 } cp := hi.inv_frame hs m1 hprot
  have hobjw : ∀ z ∈ G.objs, ∀ a, z ≤ a → a < z + (G.lay z).size * B → m1 a = c.mem a := by
    intro z hz a h1 h2
    apply s4 a
    intro e
    exact hs.obj_not_toSpace z hz a h1 h2 (e ▸ hpts)
  refine ⟨?_, (hi.copied_wasCollected hs x hxcp).2, ?_, hfw⟩
  · unfold get
    rw [hval, hx]; rfl
  have hupd : Updated B c0 c cp (m1 (c.mem y + k1 * B)) (G.m0 (y + k1 * B)) := by
    refine ⟨by rw [s3, hval], Or.inr (Or.inr ⟨?_, ?_⟩)⟩
    · have : mask B (G.m0 (y + k1 * B)) = x := hx.symm
      rw [this]; exact hxcp
    · have : mask B (G.m0 (y + k1 * B)) = x := hx.symm
      rw [s2, this]
  have hslots : Slots B c0 G { c with mem := m1 } cp wk (pendOf st2) := by
    apply Slots.slot_write hs hi hsl y k1 _ hy hks hupd ?_ ?_ ?_ m1 rfl hfw
    · intro z hz i hi1 hne
      apply s4
      intro e
      obtain ⟨e1, e2⟩ := hi.word_inj hs y z hycp hz i k1 hi1
        ((hs.obj_ok y (hobjs y hycp)).2.2.2.2.2 k1 hks) e
      exact hne e1 e2
    · intro i hi1
      rw [hpend, Function.update_same]
      exact ⟨List.mem_cons_of_mem _ hi1, fun e => hk1 (e ▸ hi1)⟩
    · intro z hz
      rw [hpend, Function.update_noteq hz]
    · intro i _ hi2
      rw [hpend, Function.update_same]
      by_cases e : i = k1
      · exact Or.inl e
      · right
        intro h
        rcases List.mem_cons.1 h with h | h
        · exact e h
        · exact hi2 h
  refine
    { trav := ⟨hi1, hslots, hR.trav.wk_nodup, hR.trav.todo_nodup, hR.trav.todo_cp, hR.trav.cover⟩
      stack := ?_
      st_nodup := hnd
      st_wk := hstwk
      marks := ?_
      ext := ?_
      wks_sub := hR.wks_sub }
  · apply StackRep.stack_frame hs c.mem m1 st2 par2 hst
    · intro f hf
      exact hobjs _ (hsl.wk_sub _ (hstwk f hf))
    · intro f hf a h1 h2
      exact hobjw f.1 (hobjs _ (hsl.wk_sub _ (hstwk f hf))) a (by omega) h2
  · apply Marks.step hs hi hi1 (fun y hy => hy) hfw hsl.wk_sub hR.marks
    · apply hR.marks.set.cards_congr hs
      intro a ha
      apply s4 a
      intro e
      exact (hs.toSpace_not_maps a (e ▸ hpts)).1 (Or.inr ha)
    · exact fun q hq => hq
    · intro q hq hqn; exact absurd hq hqn
    · exact fun h => h
    · intro z hz hzw j hj hju
      exact Or.inl ⟨hju, hR.rest_settled z hz j hj⟩
  · intro a ha
    rw [← hR.ext a ha]
    apply s4 a
    intro e
    exact ha (Or.inl (e ▸ hpts))

end Resume

end Heap

namespace Heap

open CollectionType

section Descend

variable {B : Nat} {c0 c : Context} {G : Graph} {cp : List Nat}

theorem write_same (m : Mem) (a v : Nat) : m.write a v a = v := by
  unfold Mem.write; rw [if_pos rfl]

theorem write_other (m : Mem) (a v x : Nat) (h : x ≠ a) : m.write a v x = m x := by
  unfold Mem.write; rw [if_neg h]

/-- The frame the descending walk leaves in the original. -/
theorem WalkRep.frameRep (hs : Start B c0 G) {m : Mem} {o k1 : Nat} {done N1 : List Nat}
    {w : Walker} (hw : WalkRep B m (o + B * 2) done (k1 :: N1) w) (ho : o ∈ G.objs)
    (hd : (G.lay o).slots = done) (hne : N1 ≠ []) : FrameRep B G m o N1 := by
  obtain ⟨o1, o2, o3, o4, o5, o6⟩ := hs.obj_ok o ho
  have hsorted : (k1 :: N1).Sorted (· < ·) := List.Pairwise.sublist hw.sub hw.sorted
  have hlen : 2 ≤ (k1 :: N1).length := by
    cases N1 with
    | nil => exact absurd rfl hne
    | cons a l => simp
  have hle := hw.sub.length_le
  refine
    { ne := hne
      sorted := (List.pairwise_cons.1 hsorted).2
      sub := fun k hk => by rw [hd]; exact hw.sub.subset (List.mem_cons_of_mem _ hk)
      two := by rw [hd]; omega
      pair := ?_
      bits := ?_ }
  · intro h2
    rw [hd] at h2 ⊢
    have := hw.sub.eq_of_length (by omega)
    rw [← this]; rfl
  · intro h3
    rw [hd] at h3
    have hp := (hw.big h3).2
    have hsz := hs.slots_length o ho
    rw [hd] at hsz
    apply BitsetIn.of_growing B hs.hB m o _ _ w.last hp ?_ (by omega)
    rcases hw.last with h | h
    · rw [h]; omega
    · exact o6 _ (by rw [hd]; exact h)

/-- The descent: the walker has found slots to descend into; the original is
pushed on the stack if more than one is pending, and the traversal goes on with
the referent of the first. -/
theorem Walking.descend (hs : Start B c0 G) {ms : Mem} {wks wk : List Nat} {p0 par o : Nat}
    {st : List (Nat × List Nat)} {mk done N1 : List Nat} {w : Walker} {k1 : Nat}
    (hW : Walking B c0 G ms wks p0 c cp wk st par o mk done [] (k1 :: N1) (k1 :: N1) w) :
    ∃ c2 par2 st2,
      (if w.visits > 1 then
          (parent B c o).map fun pp => ({ c with mem := c.mem.write pp par }, o)
        else some (c, par)) = some (c2, par2) ∧
      w.visits ≠ 0 ∧ w.first = k1 ∧
      get B c2.mem (c.mem o) k1 = child B G o k1 ∧
      follow B c2 (child B G o k1) = some (c2.mem (child B G o k1)) ∧
      AtVisit B c0 G ms wks p0
        { c2 with mem := setAt B c2.mem (c.mem o) k1 (c2.mem (child B G o k1)) } cp (o :: wk) st2
        par2 (child B G o k1) mk ∧
      Grows c cp { c2 with mem := setAt B c2.mem (c.mem o) k1 (c2.mem (child B G o k1)) } cp := by
  have hB := hs.B_pos
  have hi := hW.trav.inv
  have hsl := hW.trav.slots
  have hocp : o ∈ cp := hsl.wk_sub o (List.mem_cons_self _ _)
  have hoo : o ∈ G.objs := (hi.cp_sub o hocp).1
  have hobjs : ∀ y ∈ cp, y ∈ G.objs := fun y hy => (hi.cp_sub y hy).1
  have hwr := hW.walk
  have hR := hW.rest
  have hown : o ∉ wk := (List.nodup_cons.1 hW.trav.wk_nodup).1
  have host : o ∉ st.map Prod.fst := by
    intro h
    obtain ⟨f, hf, e⟩ := List.mem_map.1 h
    exact hown (e ▸ hW.st_wk f hf)
  have hd : (G.lay o).slots = done := by rw [hW.slots_eq, List.append_nil]
  have hsorted : (k1 :: N1).Sorted (· < ·) := List.Pairwise.sublist hwr.sub hwr.sorted
  have hk1 : k1 ∉ N1 := fun h =>
    absurd ((List.pairwise_cons.1 hsorted).1 k1 h) (Nat.lt_irrefl _)
  have hvis : w.visits = N1.length + 1 := by rw [hwr.visits]; rfl
  have hpo : pendOf (pushFrame o N1 st) = Function.update (pendOf st) o N1 :=
    pendOf_push o N1 st host
  have hpe : Function.update (pendOf st) o (k1 :: N1) =
      Function.update (pendOf (pushFrame o N1 st)) o (k1 :: pendOf (pushFrame o N1 st) o) := by
    rw [hpo, Function.update_same, Function.update_idem]
  have htd : List.map (child B G o) (k1 :: N1) ++ todoOf B G st =
      child B G o k1 :: todoOf B G (pushFrame o N1 st) := by
    rw [todoOf_push]; rfl
  have hk1' : k1 ∉ pendOf (pushFrame o N1 st) o := by
    rw [hpo, Function.update_same]; exact hk1
  have hnd2 := push_nodup o N1 st host hW.st_nodup
  have hstwk2 : ∀ f ∈ pushFrame o N1 st, f.1 ∈ o :: wk := by
    intro f hf
    rcases push_mem o N1 st f hf with e | e
    · rw [e]; exact List.mem_cons_self _ _
    · exact List.mem_cons_of_mem _ (hW.st_wk f e)
  by_cases hN : N1 = []
  · -- one slot to descend into: nothing is pushed
    have hv1 : ¬ w.visits > 1 := by rw [hvis, hN]; simp
    rw [if_neg hv1]
    have hstk : StackRep B G c.mem par (pushFrame o N1 st) :=
      StackRep.push c.mem o par N1 st (fun _ => hW.stack) (fun h => absurd hN h)
    rw [hpe, htd] at hR
    obtain ⟨r1, r2, r3, r4⟩ := hR.resume hs (List.mem_cons_self _ _) rfl rfl hk1' hstk hnd2 hstwk2
    exact ⟨c, par, pushFrame o N1 st, rfl, by omega, hwr.first k1 rfl, r1, r2, r3,
      Grows.write c cp _ r4⟩
  · -- the original is pushed: its second word links to the frame below
    have hv1 : w.visits > 1 := by
      rw [hvis]
      cases N1 with
      | nil => exact absurd rfl hN
      | cons a l => simp
    have hpar : parent B c o = some (o + B) := by
      unfold parent
      rw [if_pos (hi.copied_wasCollected hs o hocp).1]
    rw [if_pos hv1, hpar]
    have hfr := hwr.frameRep hs hoo hd hN
    have hsz : 2 * B ≤ (G.lay o).size * B :=
      Nat.mul_le_mul_right B (Nat.le_trans hfr.two (hs.slots_length o hoo))
    obtain ⟨hR2, hfw2⟩ := hR.scratch hs (c.mem.write (o + B) par) (by
      intro a ha
      apply write_other
      intro e
      exact ha o hocp ⟨by omega, by omega⟩)
    have hstk : StackRep B G (c.mem.write (o + B) par) o (pushFrame o N1 st) := by
      apply StackRep.push _ o o N1 st (fun h => absurd h hN)
      intro _
      refine ⟨rfl, ?_, ?_⟩
      · apply hfr.rep_frame hB
        intro a h1 h2
        exact write_other _ _ _ _ (by omega)
      · rw [write_same]
        apply StackRep.stack_frame hs c.mem _ st par hW.stack
        · intro f hf
          exact hobjs _ (hsl.wk_sub _ (List.mem_cons_of_mem _ (hW.st_wk f hf)))
        · intro f hf a h1 h2
          apply write_other
          intro e
          have hfo := hobjs _ (hsl.wk_sub _ (List.mem_cons_of_mem _ (hW.st_wk f hf)))
          have hne : f.1 ≠ o := fun e1 => hown (e1 ▸ hW.st_wk f hf)
          rcases hs.obj_disj f.1 hfo o hoo hne with h | h <;> omega
    rw [hpe, htd] at hR2
    obtain ⟨r1, r2, r3, r4⟩ := hR2.resume hs (List.mem_cons_self _ _) rfl rfl hk1' hstk hnd2
      hstwk2
    have hfo : (c.mem.write (o + B) par) o = c.mem o := hfw2 o hocp
    simp only [Option.map_some']
    refine ⟨{ c with mem := c.mem.write (o + B) par }, o, pushFrame o N1 st, rfl, by omega,
      hwr.first k1 rfl, ?_, r2, ?_, ?_⟩
    · rw [← hfo]; exact r1
    · rw [← hfo]; exact r3
    · rw [← hfo]
      exact (Grows.write c cp _ hfw2).trans (Grows.write _ cp _ r4)

end Descend

end Heap

namespace Heap

open CollectionType

section Ascend

variable {B : Nat} {c0 c : Context} {G : Graph} {cp : List Nat}

theorem sorted_min (next : Nat) (tail : List Nat) (h : (next :: tail).Sorted (· < ·))
    (hne : (next :: tail).toFinset.Nonempty) : (next :: tail).toFinset.min' hne = next := by
  apply le_antisymm
  · exact Finset.min'_le _ _ (by simp)
  · apply Finset.le_min'
    intro y hy
    rw [List.mem_toFinset] at hy
    rcases List.mem_cons.1 hy with e | e
    · rw [e]
    · exact Nat.le_of_lt ((List.pairwise_cons.1 h).1 y e)

theorem sorted_erase (next : Nat) (tail : List Nat) (h : (next :: tail).Sorted (· < ·)) :
    (next :: tail).toFinset.erase next = tail.toFinset := by
  have hn : next ∉ tail := fun hm =>
    absurd ((List.pairwise_cons.1 h).1 next hm) (Nat.lt_irrefl _)
  rw [List.toFinset_cons, Finset.erase_insert]
  rw [List.mem_toFinset]; exact hn

/-- The ascending walk reads the next pending offset of the frame at the top
of the stack, and tells whether more are pending. -/
theorem FrameRep.pop (hB : B = 4 ∨ B = 8) (c : Context) (y next : Nat) (tail : List Nat)
    (hf : FrameRep B G c.mem y (next :: tail))
    (hlay : c.client.walk (c.mem y) = (G.lay y).slots)
    (hwc : ∀ m1 : Mem, (∀ x, (x < y + B * 2 ∨ y + (G.lay y).size * B ≤ x) → m1 x = c.mem x) →
      wasCollected B { c with mem := m1 } y = true) :
    ∃ total m2 r, walkUp B c.mem (y + B * 2) (c.client.walk (c.mem y)) = some (total, next, m2) ∧
      total > 1 ∧
      (if total = 3 then
          (bitset B { c with mem := m2 } y).map fun bs2 => bitsetHasMore B m2 bs2
        else some (false, m2)) = some r ∧
      (r.1 = true ↔ tail ≠ []) ∧
      (∀ x, (x < y + B * 2 ∨ y + (G.lay y).size * B ≤ x) → r.2 x = c.mem x) ∧
      (tail ≠ [] → FrameRep B G r.2 y tail) := by
  have hB0 : 0 < B := by rcases hB with rfl | rfl <;> decide
  rw [hlay]
  have h2 := hf.two
  have hsorted := hf.sorted
  have htail : tail.Sorted (· < ·) := (List.pairwise_cons.1 hsorted).2
  by_cases h3 : 3 ≤ (G.lay y).slots.length
  · have hb := hf.bits h3
    have hne : (next :: tail).toFinset.Nonempty := ⟨next, by simp⟩
    obtain ⟨m1, e1, b1, f1⟩ := hb.in_next B hB c.mem y _ _ hne
    rw [sorted_min next tail hsorted hne] at e1 b1
    rw [sorted_erase next tail hsorted] at b1
    obtain ⟨a1, a2, a3⟩ := b1.in_hasMore B hB m1 y _ _
    have hwu : walkUp B c.mem (y + B * 2) (G.lay y).slots = some (3, next, m1) := by
      match hsl : (G.lay y).slots with
      | [] => rw [hsl] at h3; simp at h3
      | [_] => rw [hsl] at h3; simp at h3
      | [_, _] => rw [hsl] at h3; simp at h3
      | _ :: _ :: _ :: _ =>
        unfold walkUp
        rw [e1]
    have hbs : bitset B { c with mem := m1 } y = some (y + B * 2) := by
      unfold bitset
      rw [if_pos (hwc m1 f1)]
    refine ⟨3, m1, bitsetHasMore B m1 (y + B * 2), hwu, by decide, ?_, ?_, ?_, ?_⟩
    · rw [if_pos rfl, hbs]; rfl
    · rw [a1]
      constructor
      · rintro ⟨z, hz⟩ e
        rw [e] at hz; simp at hz
      · intro e
        cases tail with
        | nil => exact absurd rfl e
        | cons a l => exact ⟨a, by simp⟩
    · intro x hx
      rw [a3 x hx, f1 x hx]
    · intro e
      exact
        { ne := e
          sorted := htail
          sub := fun k hk => hf.sub k (List.mem_cons_of_mem _ hk)
          two := h2
          pair := fun h => by omega
          bits := fun _ => a2 }
  · have hl2 : (G.lay y).slots.length = 2 := by omega
    have hp := hf.pair hl2
    match hsl : (G.lay y).slots with
    | [] => rw [hsl] at hl2; simp at hl2
    | [_] => rw [hsl] at hl2; simp at hl2
    | _ :: _ :: _ :: _ => rw [hsl] at hl2; simp at hl2
    | [a, b] =>
      rw [hsl] at hp
      simp only [List.tail_cons, List.cons.injEq] at hp
      obtain ⟨rfl, rfl⟩ := hp
      refine ⟨2, c.mem, (false, c.mem), rfl, by decide, ?_, ?_, fun _ _ => rfl,
        fun h => absurd rfl h⟩
      · rw [if_neg (by decide)]
      · simp

/-- The ascent: the walker has found no slot to descend into; the traversal
goes on with the next pending slot of the original at the top of the stack. -/
theorem Walking.ascend (hs : Start B c0 G) {ms : Mem} {wks wk : List Nat} {p0 par o : Nat}
    {st : List (Nat × List Nat)} {f : Nat × List Nat} {mk done : List Nat} {w : Walker}
    (hW : Walking B c0 G ms wks p0 c cp wk (f :: st) par o mk done [] [] [] w) :
    ∃ total next m2 r par2 st2 x,
      w.visits = 0 ∧ par ≠ 0 ∧ follow B c par = some (c.mem par) ∧
      bitset B c par = some (par + B * 2) ∧
      walkUp B c.mem (par + B * 2) (c.client.walk (c.mem par)) = some (total, next, m2) ∧
      total > 1 ∧
      (if total = 3 then
          (bitset B { c with mem := m2 } par).map fun bs2 => bitsetHasMore B m2 bs2
        else some (false, m2)) = some r ∧
      (if r.1 then some par
        else (parent B { c with mem := r.2 } par).map fun pp => r.2 pp) = some par2 ∧
      get B r.2 (c.mem par) next = x ∧
      follow B { c with mem := r.2 } x = some (r.2 x) ∧
      AtVisit B c0 G ms wks p0 { c with mem := setAt B r.2 (c.mem par) next (r.2 x) } cp
        (o :: wk) st2 par2 x mk ∧
      Grows c cp { c with mem := setAt B r.2 (c.mem par) next (r.2 x) } cp := by
  have hB := hs.B_pos
  have hi := hW.trav.inv
  have hsl := hW.trav.slots
  have hobjs : ∀ y ∈ cp, y ∈ G.objs := fun y hy => (hi.cp_sub y hy).1
  obtain ⟨y, pl⟩ := f
  obtain ⟨hpar, hfr, hstk⟩ := hW.stack
  simp only at hpar hfr hstk
  subst hpar
  have hyw : par ∈ wk := hW.st_wk (par, pl) (List.mem_cons_self _ _)
  have hycp : par ∈ cp := hsl.wk_sub _ (List.mem_cons_of_mem _ hyw)
  have hyo := hobjs par hycp
  have hown : o ∉ wk := (List.nodup_cons.1 hW.trav.wk_nodup).1
  have host : o ∉ ((par, pl) :: st).map Prod.fst := by
    intro h
    obtain ⟨g, hg, e⟩ := List.mem_map.1 h
    exact hown (e ▸ hW.st_wk g hg)
  have hnd := List.nodup_cons.1 (by simpa using hW.st_nodup : (par :: st.map Prod.fst).Nodup)
  cases pl with
  | nil => exact absurd rfl hfr.ne
  | cons next tail =>
  have hR := hW.rest
  have hpe0 : Function.update (pendOf ((par, next :: tail) :: st)) o [] =
      pendOf ((par, next :: tail) :: st) := by
    funext z
    by_cases e : z = o
    · rw [e, Function.update_same, pendOf_absent _ o host]
    · rw [Function.update_noteq e]
  rw [hpe0] at hR
  have hpo : pendOf (pushFrame par tail st) = Function.update (pendOf st) par tail :=
    pendOf_push par tail st hnd.1
  have hpe : pendOf ((par, next :: tail) :: st) =
      Function.update (pendOf (pushFrame par tail st)) par
        (next :: pendOf (pushFrame par tail st) par) := by
    rw [hpo, Function.update_same, Function.update_idem, pendOf_cons]
  have htd : List.map (child B G o) [] ++ todoOf B G ((par, next :: tail) :: st) =
      child B G par next :: todoOf B G (pushFrame par tail st) := by
    rw [todoOf_push, todoOf_cons]; rfl
  have hsorted := hfr.sorted
  have hk1 : next ∉ pendOf (pushFrame par tail st) par := by
    rw [hpo, Function.update_same]
    exact fun hm => absurd ((List.pairwise_cons.1 hsorted).1 next hm) (Nat.lt_irrefl _)
  have hnd2 := push_nodup par tail st hnd.1 hnd.2
  have hstwk2 : ∀ g ∈ pushFrame par tail st, g.1 ∈ o :: wk := by
    intro g hg
    rcases push_mem par tail st g hg with e | e
    · rw [e]; exact List.mem_cons_of_mem _ hyw
    · exact List.mem_cons_of_mem _ (hW.st_wk g (List.mem_cons_of_mem _ e))
  have hscr : ∀ m1 : Mem,
      (∀ x, (x < par + B * 2 ∨ par + (G.lay par).size * B ≤ x) → m1 x = c.mem x) →
      ∀ a, (∀ z ∈ cp, ¬ (z + B ≤ a ∧ a < z + (G.lay z).size * B)) → m1 a = c.mem a := by
    intro m1 hm a ha
    apply hm a
    by_contra hcon
    exact ha par hycp ⟨by omega, by omega⟩
  have hlay : c.client.walk (c.mem par) = (G.lay par).slots := by
    unfold Client.walk
    rw [(hi.fwd par hycp).2]
  obtain ⟨total, m2, r, e1, e2, e3, e4, e5, e6⟩ := hfr.pop hs.hB c par next tail hlay (by
    intro m1 hm
    obtain ⟨hR1, -⟩ := hR.scratch hs m1 (hscr m1 hm)
    exact (hR1.trav.inv.copied_wasCollected hs par hycp).1)
  obtain ⟨hR2, hfw2⟩ := hR.scratch hs r.2 (hscr r.2 e5)
  have hi2 := hR2.trav.inv
  have hlink : r.2 (par + B) = c.mem (par + B) := e5 _ (Or.inl (by omega))
  have hstk2 : StackRep B G r.2 (r.2 (par + B)) st := by
    rw [hlink]
    apply StackRep.stack_frame hs c.mem r.2 st _ hstk
    · intro g hg
      exact hobjs _ (hsl.wk_sub _ (List.mem_cons_of_mem _ (hW.st_wk g (List.mem_cons_of_mem _ hg))))
    · intro g hg a h1 h2
      apply e5 a
      have hgo := hobjs _ (hsl.wk_sub _ (List.mem_cons_of_mem _
        (hW.st_wk g (List.mem_cons_of_mem _ hg))))
      have hne : g.1 ≠ par := by
        intro e
        exact hnd.1 (e ▸ List.mem_map.2 ⟨g, hg, rfl⟩)
      rcases hs.obj_disj g.1 hgo par hyo hne with h | h
      · left; omega
      · right; omega
  have hpar2 : ∃ par2, (if r.1 then some par
        else (parent B { c with mem := r.2 } par).map fun pp => r.2 pp) = some par2 ∧
      StackRep B G r.2 par2 (pushFrame par tail st) := by
    by_cases hr : r.1 = true
    · refine ⟨par, by rw [if_pos hr], ?_⟩
      have ht := e4.1 hr
      exact StackRep.push r.2 par par tail st (fun h => absurd h ht)
        (fun _ => ⟨rfl, e6 ht, hstk2⟩)
    · have ht : tail = [] := by
        by_contra h
        exact hr (e4.2 h)
      have hpp : parent B { c with mem := r.2 } par = some (par + B) := by
        unfold parent
        rw [if_pos (hi2.copied_wasCollected hs par hycp).1]
      refine ⟨r.2 (par + B), by rw [if_neg hr, hpp]; rfl, ?_⟩
      exact StackRep.push r.2 par _ tail st (fun _ => hstk2) (fun h => absurd ht h)
  obtain ⟨par2, e7, hstk3⟩ := hpar2
  rw [hpe, htd] at hR2
  obtain ⟨r1, r2, r3, r4⟩ := hR2.resume hs (List.mem_cons_of_mem _ hyw) rfl rfl hk1 hstk3 hnd2
    hstwk2
  have hfy : r.2 par = c.mem par := hfw2 par hycp
  have hwv : w.visits = 0 := by rw [hW.walk.visits]; rfl
  have hbs : bitset B c par = some (par + B * 2) := by
    unfold bitset
    rw [if_pos (hi.copied_wasCollected hs par hycp).1]
  refine ⟨total, next, m2, r, par2, pushFrame par tail st, child B G par next, hwv,
    (hs.obj_ok par hyo).1, (hi.copied_wasCollected hs par hycp).2, hbs, e1, e2, e3, e7, ?_, r2,
    ?_, ?_⟩
  · rw [← hfy]; exact r1
  · rw [← hfy]; exact r3
  · rw [← hfy]
    exact (Grows.write c cp _ hfw2).trans (Grows.write _ cp _ r4)

end Ascend

end Heap

namespace Heap

open CollectionType

section Loop

variable {B : Nat} {c0 c : Context} {G : Graph} {cp : List Nat}

theorem pendOf_nil : pendOf [] = fun _ => ([] : List Nat) := by
  funext z; rfl

/-- One turn of the loop of the traversal: the copy of `o` is walked; then the
traversal is over, or goes on with another object copied. -/
theorem AtVisit.iterate (hs : Start B c0 G) {ms : Mem} {wks wk : List Nat} {p0 par o : Nat}
    {st : List (Nat × List Nat)} {mk : List Nat}
    (hA : AtVisit B c0 G ms wks p0 c cp wk st par o mk) :
    (∃ c1 cp1 mk1, (∀ n, collectVisit B (n + 1) c o par = some c1) ∧
      Resting B c0 G ms wks p0 c1 cp1 (o :: wk) (fun _ => []) [] mk1 ∧ Grows c cp c1 cp1) ∨
    (∃ c1 cp1 st1 par1 o1 mk1,
      (∀ n, collectVisit B (n + 1) c o par = collectVisit B n c1 o1 par1) ∧
      AtVisit B c0 G ms wks p0 c1 cp1 (o :: wk) st1 par1 o1 mk1 ∧ Grows c cp c1 cp1) := by
  have hi := hA.trav.inv
  obtain ⟨hocp, hown⟩ := hA.trav.todo_cp o (List.mem_cons_self _ _)
  obtain ⟨hwc, hfo⟩ := hi.copied_wasCollected hs o hocp
  have hbs : bitset B c o = some (o + B * 2) := by
    unfold bitset; rw [if_pos hwc]
  have hlay : c.client.walk (c.mem o) = (G.lay o).slots := by
    unfold Client.walk
    rw [(hi.fwd o hocp).2]
  obtain ⟨c1, w1, cp1, mk1, N1, e1, hW1, g1⟩ :=
    Walking.walkDown hs (G.lay o).slots [] [] _ c cp mk hA.start
  rw [List.nil_append] at hW1
  have hfo1 : c1.mem o = c.mem o := g1.fwd o hocp
  have hstep : ∀ n, collectVisit B (n + 1) c o par =
      if w1.visits ≠ 0 then
        match (if w1.visits > 1 then
                (parent B c1 o).map fun pp => ({ c1 with mem := c1.mem.write pp par }, o)
               else some (c1, par)) with
        | none => none
        | some (c2, par2) =>
          match follow B c2 (get B c2.mem (c.mem o) w1.first) with
          | none => none
          | some f =>
            collectVisit B n { c2 with mem := setAt B c2.mem (c.mem o) w1.first f }
              (get B c2.mem (c.mem o) w1.first) par2
      else
        if par ≠ 0 then
          match follow B c1 par, bitset B c1 par with
          | some pcopy, some pbs =>
            match walkUp B c1.mem pbs (c1.client.walk pcopy) with
            | none => none
            | some (total, next, m2) =>
              if total > 1 then
                match (if total = 3 then
                        (bitset B { c1 with mem := m2 } par).map fun bs2 => bitsetHasMore B m2 bs2
                       else some (false, m2)) with
                | none => none
                | some r =>
                  match (if r.1 then some par
                         else (parent B { c1 with mem := r.2 } par).map fun pp => r.2 pp) with
                  | none => none
                  | some par2 =>
                    match follow B { c1 with mem := r.2 } (get B r.2 pcopy next) with
                    | none => none
                    | some f =>
                      collectVisit B n { c1 with mem := setAt B r.2 pcopy next f }
                        (get B r.2 pcopy next) par2
              else none
          | _, _ => none
        else some c1 := by
    intro n
    rw [collectVisit, hfo, hbs]
    simp only [hlay, e1] <;> rfl
  cases N1 with
  | cons k1 N2 =>
    right
    obtain ⟨c2, par2, st2, d1, d2, d3, d4, d5, d6, d7⟩ := hW1.descend hs
    rw [hfo1] at d4 d6 d7
    refine ⟨_, cp1, st2, par2, child B G o k1, mk1, ?_, d6, g1.trans d7⟩
    intro n
    rw [hstep n, if_pos d2, d1]
    simp only [d3, d4, d5]
  | nil =>
    have hwv : w1.visits = 0 := by rw [hW1.walk.visits]; rfl
    cases st with
    | nil =>
      left
      have hp0 : par = 0 := hW1.stack
      have hR := hW1.rest
      have e0 : Function.update (pendOf []) o ([] : List Nat) = fun _ => [] := by
        funext z
        by_cases e : z = o
        · rw [e, Function.update_same]
        · rw [Function.update_noteq e]; rfl
      rw [e0] at hR
      refine ⟨c1, cp1, mk1, ?_, hR, g1⟩
      intro n
      rw [hstep n, if_neg (by rw [hwv]; simp), if_neg (by rw [hp0]; simp)]
    | cons f st1 =>
      right
      obtain ⟨total, next, m2, r, par2, st2, x, a1, a2, a3, a4, a5, a6, a7, a8, a9, a10, a11,
        a12⟩ := hW1.ascend hs
      refine ⟨_, cp1, st2, par2, x, mk1, ?_, a11, g1.trans a12⟩
      intro n
      rw [hstep n, if_neg (by rw [hwv]; simp), if_pos a2, a3, a4]
      simp only [a5, if_pos a6, a7, a8, a9, a10]

end Loop

end Heap

namespace Heap

open CollectionType

section Run

variable {B : Nat} {c0 : Context} {G : Graph}

theorem nodup_length_le (l l1 : List Nat) (hn : l.Nodup) (hs : ∀ x ∈ l, x ∈ l1) :
    l.length ≤ l1.length := by
  have h1 : l.toFinset ⊆ l1.toFinset := by
    intro x hx
    rw [List.mem_toFinset] at hx ⊢
    exact hs x hx
  have h2 := Finset.card_le_card h1
  rw [List.toFinset_card_of_nodup hn] at h2
  exact Nat.le_trans h2 (List.toFinset_card_le l1)

/-- The loop of the traversal ends: it takes one turn for each object it walks,
and leaves every object copied walked. -/
theorem AtVisit.run (hs : Start B c0 G) {ms : Mem} {wks : List Nat} {p0 : Nat} :
    ∀ (μ : Nat) (c : Context) (cp wk : List Nat) (st : List (Nat × List Nat)) (par o : Nat)
      (mk : List Nat), AtVisit B c0 G ms wks p0 c cp wk st par o mk →
      G.objs.length - wk.length ≤ μ →
      ∃ n c1 cp1 wk1 mk1,
        (∀ fuel, collectVisit B fuel c o par = if n ≤ fuel then some c1 else none) ∧
        Resting B c0 G ms wks p0 c1 cp1 wk1 (fun _ => []) [] mk1 ∧ Grows c cp c1 cp1 ∧
        wk1.length = wk.length + n ∧ (∀ y ∈ wk, y ∈ wk1) ∧ 1 ≤ n := by
  intro μ
  induction μ with
  | zero =>
    intro c cp wk st par o mk hA hμ
    exfalso
    obtain ⟨hocp, hown⟩ := hA.trav.todo_cp o (List.mem_cons_self _ _)
    have hlen := nodup_length_le (o :: wk) G.objs
      (List.nodup_cons.2 ⟨hown, hA.trav.wk_nodup⟩) (by
        intro x hx
        rcases List.mem_cons.1 hx with e | e
        · rw [e]; exact (hA.trav.inv.cp_sub o hocp).1
        · exact (hA.trav.inv.cp_sub x (hA.trav.slots.wk_sub x e)).1)
    simp only [List.length_cons] at hlen
    omega
  | succ μ ih =>
    intro c cp wk st par o mk hA hμ
    obtain ⟨hocp, hown⟩ := hA.trav.todo_cp o (List.mem_cons_self _ _)
    rcases hA.iterate hs with ⟨c1, cp1, mk1, e, hR, g⟩ | ⟨c1, cp1, st1, par1, o1, mk1, e, hA1, g⟩
    · refine ⟨1, c1, cp1, o :: wk, mk1, ?_, hR, g, rfl, fun y hy => List.mem_cons_of_mem _ hy,
        Nat.le_refl _⟩
      intro fuel
      cases fuel with
      | zero => rfl
      | succ n => rw [e n, if_pos (by omega)]
    · obtain ⟨n, c2, cp2, wk2, mk2, e2, hR, g2, hl, hsub, hn⟩ :=
        ih c1 cp1 (o :: wk) st1 par1 o1 mk1 hA1 (by simp only [List.length_cons]; omega)
      refine ⟨n + 1, c2, cp2, wk2, mk2, ?_, hR, g.trans g2, ?_,
        fun y hy => hsub y (List.mem_cons_of_mem _ hy), by omega⟩
      · intro fuel
        cases fuel with
        | zero => rw [if_neg (by omega)]; rfl
        | succ f =>
          rw [e f, e2 f]
          by_cases h : n ≤ f
          · rw [if_pos h, if_pos (by omega)]
          · rw [if_neg h, if_neg (by omega)]
      · rw [hl]; simp only [List.length_cons]; omega

end Run

end Heap

namespace Heap

open CollectionType

section Slot

variable {B : Nat} {c0 c : Context} {G : Graph} {cp : List Nat}

theorem Settable.not_protected (hs : Start B c0 G) (hi : Inv B c0 G c cp) {p : Nat}
    (hp : Settable B c0 G p) : ¬ Protected B c0 G cp p := by
  have hB := hs.B_pos
  rintro (⟨y, hy, -, hm, h1, h2⟩ | h | h | h)
  · exact hp.not_moved y hy hm ⟨h1, h2⟩
  · obtain ⟨h1, h2⟩ := hi.cp_sub p h
    have := Nat.mul_pos (hs.obj_ok p h1).2.2.1 hB
    exact hp.not_moved p h1 h2 ⟨Nat.le_refl _, by omega⟩
  · exact hp.not_ages h
  · exact hp.not_maps (Or.inl h)

theorem Settable.not_touched (hi : Inv B c0 G c cp) {p : Nat}
    (hp : Settable B c0 G p) : ¬ Touched B c0 G cp p := by
  rintro (h | h | ⟨y, hy, h1, h2⟩)
  · exact hp.not_toSpace h
  · exact hp.not_maps h
  · exact hp.not_moved y (hi.cp_sub y hy).1 (hi.cp_sub y hy).2 ⟨h1, h2⟩

/-- Writes into a settable slot and into the card maps keep the state of the
objects copied. -/
theorem Trav.extern (hs : Start B c0 G) {wk : List Nat} {pend : Nat → List Nat}
    {todo : List Nat} (hT : Trav B c0 G c cp wk pend todo) {p : Nat} (hp : Settable B c0 G p)
    (m1 : Mem) (hm : ∀ a, a ≠ p → ¬ c0.inCards B a → m1 a = c.mem a) :
    Trav B c0 G { c with mem := m1 } cp wk pend todo ∧ ∀ y ∈ cp, m1 y = c.mem y := by
  have hi := hT.inv
  have hobjs : ∀ y ∈ cp, y ∈ G.objs := fun y hy => (hi.cp_sub y hy).1
  have hprot : ∀ a, Protected B c0 G cp a → m1 a = c.mem a := by
    intro a ha
    apply hm a
    · intro e; exact hp.not_protected hs hi (e ▸ ha)
    · intro h; exact hs.cards_not_protected hobjs a h ha
  have hfw : ∀ y ∈ cp, m1 y = c.mem y := fun y hy => hprot y (Or.inr (Or.inl hy))
  refine ⟨⟨hi.inv_frame hs m1 hprot, ?_, hT.wk_nodup, hT.todo_nodup, hT.todo_cp, hT.cover⟩, hfw⟩
  have hall : ∀ y ∈ cp, ∀ j, j < (G.lay y).size →
      m1 (c.mem y + j * B) = c.mem (c.mem y + j * B) := by
    intro y hy j hj
    have hts := hi.word_toSpace hs y hy j hj
    apply hm
    · intro e; exact hp.not_toSpace (e ▸ hts)
    · intro h; exact (hs.toSpace_not_maps _ hts).1 (Or.inr h)
  exact Slots.slots_frame hT.slots hfw
    (fun y hy j hj => hall y hy j ((hs.obj_ok y (hobjs y hy)).2.2.2.2.2 j hj))
    (fun y hy j hj _ => hall y hy j hj)

end Slot

end Heap

namespace Heap

open CollectionType

section SlotSpec

variable {B : Nat} {c0 c : Context} {G : Graph} {cp : List Nat}

/-- The traversal `collect(c, p)` called for a settable slot between two
traversals: it ends after one turn of its loop for each object it walks, and
leaves every object copied walked and the slot updated. -/
theorem collectSlot_spec (hs : Start B c0 G) {wk : List Nat}
    (hT : Trav B c0 G c cp wk (fun _ => []) []) {p : Nat} (hp : Settable B c0 G p)
    (hv : mask B (c.mem p) = 0 ∨ mask B (c.mem p) ∈ G.objs) :
    ∃ n c1 cp1 wk1 mk1 r,
      (∀ fuel, collectSlot B fuel c p = if n ≤ fuel then some c1 else none) ∧
      Resting B c0 G (set B c.mem p r) wk p c1 cp1 wk1 (fun _ => []) [] mk1 ∧
      Grows c cp c1 cp1 ∧ wk1.length = wk.length + n ∧ (∀ y ∈ wk, y ∈ wk1) ∧
      Updated B c0 c1 cp1 (c1.mem p) (c.mem p) ∧ c1.mem p = set B c.mem p r p ∧
      (n = 0 ↔ (mask B (c.mem p) = 0 ∨ isOld B c0 (mask B (c.mem p)) ∨ mask B (c.mem p) ∈ cp)) := by
  have hB := hs.B_pos
  have hi := hT.inv
  have hobjs : ∀ y ∈ cp, y ∈ G.objs := fun y hy => (hi.cp_sub y hy).1
  have hmp : mask B p = p := mask_of_aligned B p hp.aligned
  obtain ⟨r, nv, c1, m2, hu, hfr, hcase, hcard⟩ := update_spec hs hi p hv
  have hcs : ∀ fuel, collectSlot B fuel c p =
      if nv then collectVisit B fuel { c1 with mem := set B m2 p r } (mask B (c.mem p)) 0
      else some { c1 with mem := set B m2 p r } := by
    intro fuel
    unfold collectSlot
    rw [hmp, hu]
  -- the state after the copy, if there is one
  obtain ⟨cp1, todo1, hT1, g1, hext1, hcards1, hrc, hnv⟩ : ∃ cp1 todo1,
      Trav B c0 G c1 cp1 wk (fun _ => []) todo1 ∧ Grows c cp c1 cp1 ∧
      (∀ a, ¬ Touched B c0 G cp1 a → c1.mem a = c.mem a) ∧
      (∀ a, c0.inCards B a → c1.mem a = c.mem a) ∧
      ((mask B (c.mem p) = 0 ∧ r = 0) ∨ (isOld B c0 (mask B (c.mem p)) ∧ r = mask B (c.mem p)) ∨
        (mask B (c.mem p) ∈ cp1 ∧ r = c1.mem (mask B (c.mem p)))) ∧
      ((nv = false ∧ todo1 = [] ∧
          (mask B (c.mem p) = 0 ∨ isOld B c0 (mask B (c.mem p)) ∨ mask B (c.mem p) ∈ cp)) ∨
        (nv = true ∧ todo1 = [mask B (c.mem p)] ∧ mask B (c.mem p) ∉ cp ∧
          movable B c0 (mask B (c.mem p)) ∧ mask B (c.mem p) ≠ 0)) := by
    rcases hcase with ⟨h1, h2, h3⟩ | ⟨h1, h2, h3, h4, h5⟩
    · obtain rfl : c = c1 := h2.symm
      refine ⟨cp, [], hT, Grows.refl c cp, fun _ _ => rfl, fun _ _ => rfl, h3,
        Or.inl ⟨h1, rfl, ?_⟩⟩
      rcases h3 with h | h | h
      · exact Or.inl h.1
      · exact Or.inr (Or.inl h.1)
      · exact Or.inr (Or.inr h.1)
    · obtain ⟨f1, f2, f3⟩ := h5.frames hs hi h2 h3 h4
      have hfw : ∀ y ∈ cp, c1.mem y = c.mem y := by
        intro y hy
        have := Nat.mul_pos (hs.obj_ok y (hobjs y hy)).2.2.1 hB
        exact f1 y (hobjs y hy) y (Nat.le_refl _) (by omega) (fun e => h4 (e ▸ hy))
      refine ⟨mask B (c.mem p) :: cp, [mask B (c.mem p)],
        ⟨hi.copy_step hs _ r c1 h2 h3 h4 h5, hT.slots.slots_copied hs hi h2 h3 h4 h5, hT.wk_nodup,
          List.nodup_singleton _, ?_, ?_⟩,
        ⟨fun y hy => List.mem_cons_of_mem _ hy, hfw, h5.pos_le⟩,
        fun a ha => h5.untouched hs hi h2 h3 h4 a ha, f3,
        Or.inr (Or.inr ⟨List.mem_cons_self _ _, h5.fwd.symm⟩),
        Or.inr ⟨h1, rfl, h4, h3, (hs.obj_ok _ h2).1⟩⟩
      · intro x hx
        rw [List.mem_singleton] at hx
        subst hx
        exact ⟨List.mem_cons_self _ _, fun h => h4 (hT.slots.wk_sub _ h)⟩
      · intro x hx
        rcases List.mem_cons.1 hx with e | e
        · exact Or.inr (by rw [e]; exact List.mem_singleton_self _)
        · rcases hT.cover x e with h | h
          · exact Or.inl h
          · simp at h
  have hi1 := hT1.inv
  have hpc : ¬ c0.inCards B p := fun h => hp.not_maps (Or.inr h)
  have hm2 : ∀ a, ¬ c0.inCards B a → m2 a = c1.mem a :=
    fun a ha => hfr a (fun h => ha ((hi1.heapMap_ok hs).2.2.2 a h))
  have hral : r % B = 0 := by
    rcases hrc with h | h | h
    · rw [h.2]; exact Nat.zero_mod _
    · rw [h.2]; exact mask_mod _ _
    · rw [h.2]; exact IsCopy.aligned hs hi1 _ _ _ (hi1.fwd _ h.1).1
  obtain ⟨s1, s2, s3, s4⟩ := set_spec B hs.hB m2 p r hral
  obtain ⟨t1, t2, t3, t4⟩ := set_spec B hs.hB c.mem p r hral
  have hm3 : ∀ a, a ≠ p → ¬ c0.inCards B a → set B m2 p r a = c1.mem a :=
    fun a h1 h2 => (s4 a h1).trans (hm2 a h2)
  have hp1 : c1.mem p = c.mem p := hext1 p (hp.not_touched hi1)
  have hp3 : set B m2 p r p = set B c.mem p r p := by
    rw [s1, t1, hm2 p hpc, hp1]
  obtain ⟨hT3, hfw3⟩ := hT1.extern hs hp (set B m2 p r) hm3
  have hi3 := hT3.inv
  have hext3 : ∀ a, ¬ Touched B c0 G cp1 a → set B m2 p r a = set B c.mem p r a := by
    intro a ha
    by_cases e : a = p
    · rw [e]; exact hp3
    · rw [hm3 a e (fun h => ha (Or.inr (Or.inl (Or.inr h)))), hext1 a ha, t4 a e]
  have hcards3 : ∀ a, c0.inCards B a → set B m2 p r a = m2 a :=
    fun a ha => s4 a (fun e => hpc (e ▸ ha))
  have hmarks : ∃ mk1, Marks B c0 G (set B c.mem p r) wk p { c1 with mem := set B m2 p r } wk
      (fun _ => []) mk1 := by
    have hinit : CardsSet B c0 (set B c.mem p r) c1.mem (· ∈ ([] : List Nat)) := by
      apply CardsSet.cards_init hs
      intro a ha
      rw [hcards1 a ha, t4 a (fun e => hpc (e ▸ ha))]
    rcases hcard with ⟨hn, e2⟩ | ⟨hcc, hw⟩
    · refine ⟨[], ?_, ?_, ?_⟩
      · apply hinit.cards_congr hs
        intro a ha
        show set B m2 p r a = c1.mem a
        rw [hcards3 a ha, e2]
      · intro q hq; simp at hq
      · intro y hy hyw; exact absurd hy hyw
    · refine ⟨[p], ?_, ?_, ?_⟩
      · exact (hinit.mark hs hi1 p hw hfr).cards_congr hs hcards3
      · intro q hq
        rw [List.mem_singleton] at hq
        subst hq
        exact ⟨hcc.2.1, Or.inl rfl⟩
      · intro y hy hyw; exact absurd hy hyw
  obtain ⟨mk1, hmarks⟩ := hmarks
  have hupd : ∀ (c2 : Context) (cp2 : List Nat), Grows { c1 with mem := set B m2 p r } cp1 c2 cp2 →
      c2.mem p = set B c.mem p r p → Updated B c0 c2 cp2 (c2.mem p) (c.mem p) := by
    intro c2 cp2 g e
    rw [e]
    refine ⟨t3, ?_⟩
    rw [t2]
    rcases hrc with h | h | h
    · exact Or.inl h
    · exact Or.inr (Or.inl h)
    · refine Or.inr (Or.inr ⟨g.sub _ h.1, ?_⟩)
      rw [g.fwd _ h.1]
      show r = set B m2 p r _
      rw [hfw3 _ h.1]
      exact h.2
  rcases hnv with ⟨h1, h2, h3⟩ | ⟨h1, h2, h3, h4, h5⟩
  · subst h1 h2
    refine ⟨0, _, cp1, wk, mk1, r, ?_, ⟨hT3, hmarks, hext3, fun y hy => hy, ?_⟩,
      g1.trans (Grows.write c1 cp1 _ hfw3), rfl, fun y hy => hy,
      hupd _ cp1 (Grows.refl _ _) hp3, hp3, ?_⟩
    · intro fuel
      rw [hcs fuel, if_pos (Nat.zero_le _)]
      rfl
    · intro y j hj; simp at hj
    · exact ⟨fun _ => h3, fun _ => rfl⟩
  · subst h1 h2
    have hA : AtVisit B c0 G (set B c.mem p r) wk p { c1 with mem := set B m2 p r } cp1 wk [] 0
        (mask B (c.mem p)) mk1 :=
      { trav := hT3
        stack := rfl
        st_nodup := List.nodup_nil
        st_wk := fun f hf => by simp at hf
        marks := hmarks
        ext := hext3
        wks_sub := fun y hy => hy }
    obtain ⟨n, c2, cp2, wk2, mk2, e, hR, g2, hl, hsub, hn⟩ :=
      AtVisit.run hs _ _ _ _ _ _ _ _ hA (Nat.le_refl _)
    have hp2 : c2.mem p = set B c.mem p r p := hR.ext p (hp.not_touched hR.trav.inv)
    refine ⟨n, c2, cp2, wk2, mk2, r, ?_, hR, (g1.trans (Grows.write c1 cp1 _ hfw3)).trans g2, hl,
      hsub, hupd c2 cp2 g2 hp2, hp2, ?_⟩
    · intro fuel
      rw [hcs fuel]
      exact e fuel
    · constructor
      · intro h0; omega
      · rintro (h | h | h)
        · exact absurd h h5
        · exact absurd h (movable_not_old _ h4)
        · exact absurd h h3

end SlotSpec

end Heap

namespace Heap

open CollectionType

section Closure

variable {B : Nat} {c0 c : Context} {G : Graph} {cp : List Nat}

/-- When the traversals start nothing is copied and the invariant holds. -/
theorem Trav.trav_init (hr : Ready B c0 G) : Trav B c0 G c0 [] [] (fun _ => []) [] := by
  have hs := hr.start
  refine
    { inv :=
        { shape := rfl
          pos := fun g => ⟨Nat.le_refl _, (hs.seg_ok g).2.1⟩
          lay_obj := hr.lay_eq
          white := fun o _ _ _ k _ => hr.mem_eq _
          cp_nodup := List.nodup_nil
          cp_sub := fun o ho => by simp at ho
          fwd := fun o ho => by simp at ho
          disj := fun o ho => by simp at ho
          base := Or.inl ⟨hs.base_top, rfl⟩
          age_frame := fun a _ => hr.mem_eq a
          room := hr.room
          ages := fun o ho => by simp at ho
          tenure := by
            unfold u32
            simp only [List.map_nil, List.sum_nil, Nat.add_zero]
            exact (Nat.mod_eq_of_lt hr.tenure).symm
          used := fun g => by simp }
      slots := ⟨fun o ho => by simp at ho, fun o ho => by simp at ho, fun o ho => by simp at ho,
        fun o ho => by simp at ho, fun o ho => by simp at ho⟩
      wk_nodup := List.nodup_nil
      todo_nodup := List.nodup_nil
      todo_cp := fun x hx => by simp at hx
      cover := fun x hx => by simp at hx }

end Closure

end Heap

namespace Heap

open CollectionType

/-! ## The cyclic heap -/

theorem cycle_storage (g : Gen) (a : Nat) :
    cycleContext.inStorage 4 g a ↔ g = Gen.nextGen1 ∧ 16777216 ≤ a ∧ a < 16777236 := by
  have f1 : (cycleContext.mapOf Gen.gen1).footprint 4 0 = 0 := by decide
  have f2 : (cycleContext.mapOf Gen.nextGen1).footprint 4 4 = 1 := by decide
  have f3 : (cycleContext.mapOf Gen.gen2).footprint 4 0 = 0 := by decide
  have f4 : (cycleContext.mapOf Gen.nextGen2).footprint 4 0 = 0 := by decide
  cases g
  · have d : cycleContext.seg Gen.gen1 = ⟨0, 0, 0, some (Map.leaf 2 1 false)⟩ := rfl
    unfold Context.inStorage
    rw [d]; simp only []; rw [f1]
    constructor
    · intro h; omega
    · rintro ⟨h, -⟩; exact absurd h (by decide)
  · have d : cycleContext.seg Gen.nextGen1 = ⟨16777216, 0, 4, some (Map.leaf 2 1 false)⟩ := rfl
    unfold Context.inStorage
    rw [d]; simp only []; rw [f2]
    constructor
    · intro h; exact ⟨trivial, by omega, by omega⟩
    · rintro ⟨-, h1, h2⟩; exact ⟨h1, by omega⟩
  · have d : (cycleContext.seg Gen.gen2).data = 0 ∧ (cycleContext.seg Gen.gen2).capacity = 0 :=
      ⟨rfl, rfl⟩
    unfold Context.inStorage
    rw [d.1, d.2, f3]
    constructor
    · intro h; omega
    · rintro ⟨h, -⟩; exact absurd h (by decide)
  · have d : (cycleContext.seg Gen.nextGen2).data = 0 ∧
        (cycleContext.seg Gen.nextGen2).capacity = 0 := ⟨rfl, rfl⟩
    unfold Context.inStorage
    rw [d.1, d.2, f4]
    constructor
    · intro h; omega
    · rintro ⟨h, -⟩; exact absurd h (by decide)

theorem cycle_toSpace (a : Nat) :
    cycleContext.inToSpace 4 a ↔ 16777216 ≤ a ∧ a < 16777232 := by
  unfold Context.inToSpace
  have d1 : cycleContext.nextGen1 = ⟨16777216, 0, 4, some (Map.leaf 2 1 false)⟩ := rfl
  have d2 : cycleContext.nextGen2.data = 0 ∧ cycleContext.nextGen2.capacity = 0 := ⟨rfl, rfl⟩
  have d3 : cycleContext.gen2.data = 0 ∧ cycleContext.gen2.capacity = 0 ∧
      cycleContext.gen2.position = 0 := ⟨rfl, rfl, rfl⟩
  rw [d1, d2.1, d2.2, d3.1, d3.2.1, d3.2.2]
  simp only []
  omega

theorem cycle_objs (o : Nat) : o ∈ cycleGraph.objs ↔ o = 1000 ∨ o = 1040 := by
  show o ∈ [1000, 1040] ↔ _
  simp

/-- The cyclic heap satisfies what the traversals assume. -/
theorem cycle_start : Start 4 cycleContext cycleGraph := by
  refine
    { hB := Or.inl rfl
      ageMap_eq := rfl
      nextAgeMap_eq := rfl
      heapMap_ok := ⟨⟨by decide, rfl⟩, ⟨by decide, rfl⟩, by decide, rfl⟩
      nextHeapMap_ok := ⟨⟨by decide, rfl⟩, ⟨by decide, rfl⟩, by decide, rfl⟩
      seg_ok := fun g => by cases g <;> decide
      next_empty := ⟨rfl, rfl⟩
      base_top := rfl
      stor_disj := ?_
      objs_nodup := by decide
      obj_ok := ?_
      obj_loc := ?_
      obj_disj := ?_
      valid := ?_
      first_word := ?_ }
  · intro g g1 hne a h1 h2
    rw [cycle_storage] at h1 h2
    exact hne (h1.1.trans h2.1.symm)
  · intro o ho
    rcases (cycle_objs o).1 ho with rfl | rfl <;> decide
  · intro o ho
    right; right
    intro g a h1 h2 h3
    rw [cycle_storage] at h3
    rcases (cycle_objs o).1 ho with rfl | rfl
    · have : (cycleGraph.lay 1000).size = 2 := rfl
      rw [this] at h2; omega
    · have : (cycleGraph.lay 1040).size = 2 := rfl
      rw [this] at h2; omega
  · intro o ho o1 ho1 hne
    have e1 : (cycleGraph.lay 1000).size = 2 := rfl
    have e2 : (cycleGraph.lay 1040).size = 2 := rfl
    rcases (cycle_objs o).1 ho with rfl | rfl <;> rcases (cycle_objs o1).1 ho1 with rfl | rfl
    · exact absurd rfl hne
    · left; rw [e1]; decide
    · right; rw [e1]; decide
    · exact absurd rfl hne
  · intro o ho k hk
    rcases (cycle_objs o).1 ho with rfl | rfl
    · have : k = 1 := by simpa using (show k ∈ [1] from hk)
      subst this
      right; decide
    · have : k = 1 := by simpa using (show k ∈ [1] from hk)
      subst this
      right; decide
  · intro o ho _
    rw [cycle_toSpace]
    rcases (cycle_objs o).1 ho with rfl | rfl
    · have : mask 4 (cycleGraph.m0 1000) = 0 := by decide
      rw [this]; omega
    · have : mask 4 (cycleGraph.m0 1040) = 0 := by decide
      rw [this]; omega

theorem cycle_ready : Ready 4 cycleContext cycleGraph :=
  { start := cycle_start
    mem_eq := fun _ => rfl
    lay_eq := fun _ _ => rfl
    room := fun g hg => by cases g <;> first | exact absurd rfl hg | decide
    tenure := by decide }

end Heap

namespace Heap

open CollectionType

end Heap

namespace Heap

open CollectionType

end Heap

namespace Heap

open CollectionType

theorem Map.AllLevels_head (Q : Map → Prop) (mp : Map) (h : mp.AllLevels Q) : Q mp := by
  cases mp with
  | leaf b sc c => exact h
  | node b sc c ch => exact h.1

/-- The bit of a word of the segment lies in the backing words of the map. -/
theorem Map.index_in_range (B : Nat) (hB : 0 < B) (s : Segment) (mp : Map) (W : Nat)
    (hW : W < s.capacity) (hs : 1 ≤ mp.scale) (hb : mp.bitsPerRecord = 1) :
    wordOf B (W / mp.scale) < mp.sizeNow B s := by
  have hmax : max s.capacity 1 = s.capacity := by omega
  have h1 : W / mp.scale < ceiling s.capacity mp.scale := lt_ceiling _ _ _ hs hW
  unfold Map.sizeNow Map.size wordOf
  rw [hmax, hb, Nat.mul_one]
  exact lt_ceiling _ _ _ (by unfold BitsPerWord; omega) h1

theorem Map.recordIndex_one (B : Nat) (s : Segment) (mp : Map) (p : Nat)
    (hb : mp.bitsPerRecord = 1) : mp.recordIndex B s p = (p - s.data) / B / mp.scale := by
  unfold Map.recordIndex Map.indexOfIndex
  rw [hb, Nat.mul_one]

/-- A record of one bit written with 1: its bit is set and the others stay. -/
theorem Map.RecordWritten.one (B : Nat) (s : Segment) (m m1 : Mem) (p : Nat) (l : Map)
    (h : l.RecordWritten B s m m1 p 1) (hb : l.bitsPerRecord = 1) (k : Nat)
    (hk : wordOf B k < l.sizeNow B s) :
    l.bit B s m1 k = if k = l.recordIndex B s p then true else l.bit B s m k := by
  rw [h k hk, hb]
  by_cases e : k = l.recordIndex B s p
  · rw [if_pos (by omega), if_pos e]
    have : l.recordIndex B s p + 1 - 1 - k = 0 := by omega
    rw [this]
    decide
  · rw [if_neg (by omega), if_neg e]

/-- Writing 1 into the records of an address at every level keeps the
hierarchy invariant. -/
theorem Map.written_covered (B : Nat) (hB : 0 < B) (s : Segment) (m m1 : Mem) (p : Nat) :
    ∀ mp : Map, mp.AllLevels (fun l => l.LevelOK s ∧ l.bitsPerRecord = 1) →
      mp.AllLevels (fun l => l.RecordWritten B s m m1 p 1) → mp.Nested →
      mp.Covered B s m → mp.Covered B s m1 := by
  intro mp
  induction mp with
  | leaf b sc c => intro _ _ _ _; trivial
  | node b sc c ch ih =>
    intro hok hw hn hc
    refine ⟨?_, ih hok.2 hw.2 hn.2 hc.2⟩
    intro W hW hbit
    have hok1 := hok.1
    have hokc := Map.AllLevels_head _ ch hok.2
    have hwc := Map.AllLevels_head _ ch hw.2
    have r1 := Map.index_in_range B hB s (Map.node b sc c ch) W hW hok1.1.2.2.1 hok1.2
    have r2 := Map.index_in_range B hB s ch W hW hokc.1.2.2.1 hokc.2
    have hsc : (Map.node b sc c ch).scale = sc := rfl
    rw [hsc] at r1
    rw [Map.RecordWritten.one B s m m1 p _ hw.1 hok1.2 _ r1]
    rw [Map.RecordWritten.one B s m m1 p _ hwc hokc.2 _ r2] at hbit
    by_cases e : W / ch.scale = ch.recordIndex B s p
    · rw [if_pos]
      rw [Map.recordIndex_one B s _ p hok1.2, hsc]
      rw [Map.recordIndex_one B s _ p hokc.2] at e
      obtain ⟨t, ht⟩ := hn.1
      rw [ht, ← Nat.div_div_eq_div_mul, ← Nat.div_div_eq_div_mul, e]
    · rw [if_neg e] at hbit
      have := hc.1 W hW hbit
      split
      · rfl
      · exact this

/-- C11: `mark(p)` for a slot address inside gen2.  At every level of the card
hierarchy the record covering `p` reads 1 afterwards and no other bit of the
level changes; the words outside the maps stay; and the hierarchy invariant (a
set bit of a child has the covering bit of its parent set) is kept. -/
theorem mark_sets_all_levels (B : Nat) (hB : 0 < B) (c : Context) (p : Nat)
    (hp : c.gen2.contains B p = true) (hpos : c.gen2.position ≤ c.gen2.capacity)
    (hok : c.heapMap.AllLevels (fun l => l.LevelOK c.gen2 ∧ l.bitsPerRecord = 1)) :
    ∃ m1, MyHeap.mark B c p = some { c with mem := m1 } ∧
      (∀ a, ¬ c.heapMap.inFootprint B c.gen2 a → m1 a = c.mem a) ∧
      c.heapMap.AllLevels (fun l => l.get B c.gen2 m1 p = some 1 ∧
        l.bit B c.gen2 m1 (l.recordIndex B c.gen2 p) = true ∧
        ∀ k, wordOf B k < l.sizeNow B c.gen2 → k ≠ l.recordIndex B c.gen2 p →
          l.bit B c.gen2 m1 k = l.bit B c.gen2 c.mem k) ∧
      (c.heapMap.Nested → c.heapMap.Covered B c.gen2 c.mem → c.heapMap.Covered B c.gen2 m1) := by
  have hok1 : c.heapMap.AllLevels (Map.LevelOK c.gen2) :=
    Map.AllLevels_mono _ _ _ (fun l h => h.1) hok
  have hv : c.heapMap.AllLevels (fun l => 1 < 2 ^ l.bitsPerRecord) :=
    Map.AllLevels_mono _ _ _ (fun l h => by rw [h.2]; decide) hok
  obtain ⟨m1, e, f, a⟩ := Map.map_set_spec B hB c.gen2 p 1 hp hpos c.heapMap c.mem hok1 hv
  have hw : c.heapMap.AllLevels (fun l => l.RecordWritten B c.gen2 c.mem m1 p 1) :=
    Map.AllLevels_mono _ _ _ (fun l h => h.1) a
  refine ⟨m1, ?_, f, ?_, Map.written_covered B hB c.gen2 c.mem m1 p _ hok hw⟩
  · unfold MyHeap.mark
    rw [e]; rfl
  · refine Map.AllLevels_mono _ _ _ ?_ (Map.AllLevels_and _ _ _ hok hw)
    rintro l ⟨⟨q1, q2⟩, q3⟩
    have hr := (Map.record_in_range B hB c.gen2 l p hp hpos q1 (l.recordIndex B c.gen2 p)
      (by omega)).1
    have hbit : l.bit B c.gen2 m1 (l.recordIndex B c.gen2 p) = true := by
      rw [Map.RecordWritten.one B _ _ _ p l q3 q2 _ hr, if_pos rfl]
    refine ⟨?_, hbit, ?_⟩
    · rw [Map.get_eq B c.gen2 l m1 p hp hpos q1, q2]
      simp only [Map.readBits, hbit, if_true]
    · intro k hk hne
      rw [Map.RecordWritten.one B _ _ _ p l q3 q2 _ hk, if_neg hne]

end Heap

namespace Heap

open CollectionType

/-- Witness of C11: the first word of a gen2 of ten words at address 1000, on
a 32 bit target with the three levels of the card hierarchy. -/
theorem mark_sets_all_levels_witness :
    (exampleGen2 (fun _ => 0)).gen2.contains 4 1000 = true ∧
    ∃ m1, MyHeap.mark 4 (exampleGen2 (fun _ => 0)) 1000 =
        some { exampleGen2 (fun _ => 0) with mem := m1 } ∧
      (∀ a, ¬ (exampleGen2 (fun _ => 0)).heapMap.inFootprint 4 (exampleGen2 (fun _ => 0)).gen2 a →
        m1 a = (exampleGen2 (fun _ => 0)).mem a) ∧
      (exampleGen2 (fun _ => 0)).heapMap.AllLevels (fun l =>
        l.get 4 (exampleGen2 (fun _ => 0)).gen2 m1 1000 = some 1 ∧
        l.bit 4 (exampleGen2 (fun _ => 0)).gen2 m1
          (l.recordIndex 4 (exampleGen2 (fun _ => 0)).gen2 1000) = true ∧
        ∀ k, wordOf 4 k < l.sizeNow 4 (exampleGen2 (fun _ => 0)).gen2 →
          k ≠ l.recordIndex 4 (exampleGen2 (fun _ => 0)).gen2 1000 →
          l.bit 4 (exampleGen2 (fun _ => 0)).gen2 m1 k =
            l.bit 4 (exampleGen2 (fun _ => 0)).gen2 (exampleGen2 (fun _ => 0)).mem k) ∧
      ((exampleGen2 (fun _ => 0)).heapMap.Nested →
        (exampleGen2 (fun _ => 0)).heapMap.Covered 4 (exampleGen2 (fun _ => 0)).gen2
          (exampleGen2 (fun _ => 0)).mem →
        (exampleGen2 (fun _ => 0)).heapMap.Covered 4 (exampleGen2 (fun _ => 0)).gen2 m1) :=
  ⟨by decide,
    mark_sets_all_levels 4 (by decide) (exampleGen2 (fun _ => 0)) 1000 (by decide) (by decide)
      ⟨⟨⟨by decide, by decide, by decide, by decide⟩, rfl⟩,
        ⟨⟨by decide, by decide, by decide, by decide⟩, rfl⟩,
        ⟨by decide, by decide, by decide, by decide⟩, rfl⟩⟩

end Heap

namespace Heap

open CollectionType

theorem Segment.allocate_some (B : Nat) (s : Segment) (n : Nat) (h : s.position + n < 2 ^ 32)
    (hn : n ≠ 0) (hc : s.position + n ≤ s.capacity) :
    s.allocate B n = some (s.data + s.position * B, { s with position := s.position + n }) := by
  unfold Segment.allocate u32
  rw [Nat.mod_eq_of_lt h, if_pos ⟨hn, hc⟩]

theorem Segment.allocate_inv (B : Nat) (s : Segment) (n : Nat) (h : s.position + n < 2 ^ 32)
    (a : Nat) (s1 : Segment) (e : s.allocate B n = some (a, s1)) :
    n ≠ 0 ∧ s.position + n ≤ s.capacity ∧ a = s.data + s.position * B ∧
      s1 = { s with position := s.position + n } := by
  unfold Segment.allocate u32 at e
  rw [Nat.mod_eq_of_lt h] at e
  by_cases hc : n ≠ 0 ∧ s.position + n ≤ s.capacity
  · rw [if_pos hc] at e
    simp only [Option.some.injEq, Prod.mk.injEq] at e
    exact ⟨hc.1, hc.2, e.1.symm, e.2.symm⟩
  · rw [if_neg hc] at e
    exact absurd e (by simp)

/-- Successive allocations lie one after the other above the position the
segment had. -/
theorem Segment.allocAll_spec (B : Nat) :
    ∀ (sizes : List Nat) (s : Segment) (l : List (Nat × Nat)) (s2 : Segment),
      s.position ≤ s.capacity → (∀ n ∈ sizes, n + s.capacity < 2 ^ 32) →
      Segment.allocAll B s sizes = some (l, s2) →
      l.Pairwise (fun x y => x.1 + x.2 * B ≤ y.1) ∧
      (∀ x ∈ l, s.data + s.position * B ≤ x.1 ∧ x.1 + x.2 * B ≤ s2.data + s2.position * B) ∧
      s.position ≤ s2.position ∧ s2.position ≤ s2.capacity ∧ s2.data = s.data ∧
      s2.capacity = s.capacity := by
  intro sizes
  induction sizes with
  | nil =>
    intro s l s2 hp _ e
    simp only [Segment.allocAll, Option.some.injEq, Prod.mk.injEq] at e
    obtain ⟨rfl, rfl⟩ := e
    exact ⟨List.Pairwise.nil, fun x hx => by simp at hx, Nat.le_refl _, hp, rfl, rfl⟩
  | cons n rest ih =>
    intro s l s2 hp hb e
    have hn := hb n (List.mem_cons_self _ _)
    unfold Segment.allocAll at e
    cases h1 : s.allocate B n with
    | none => rw [h1] at e; exact absurd e (by simp)
    | some r =>
      obtain ⟨a, s1⟩ := r
      rw [h1] at e
      dsimp only at e
      obtain ⟨q1, q2, q3, q4⟩ := Segment.allocate_inv B s n (by omega) a s1 h1
      cases h2 : Segment.allocAll B s1 rest with
      | none => rw [h2] at e; exact absurd e (by simp)
      | some r2 =>
        obtain ⟨l1, s3⟩ := r2
        rw [h2] at e
        dsimp only at e
        simp only [Option.some.injEq, Prod.mk.injEq] at e
        obtain ⟨rfl, rfl⟩ := e
        have hs1 : s1.position = s.position + n ∧ s1.capacity = s.capacity ∧ s1.data = s.data := by
          rw [q4]; exact ⟨rfl, rfl, rfl⟩
        obtain ⟨i1, i2, i3, i4, i5, i6⟩ := ih s1 l1 s3 (by rw [hs1.1, hs1.2.1]; exact q2)
          (fun k hk => by rw [hs1.2.1]; exact hb k (List.mem_cons_of_mem _ hk)) h2
        rw [hs1.1, hs1.2.2] at i2
        rw [hs1.1] at i3
        rw [hs1.2.2] at i5
        rw [hs1.2.1] at i6
        have hmul : (s.position + n) * B = s.position * B + n * B := Nat.add_mul _ _ _
        have hmul2 : (s.position + n) * B ≤ s3.position * B := Nat.mul_le_mul_right B i3
        refine ⟨List.pairwise_cons.2 ⟨?_, i1⟩, ?_, by omega, i4, i5, i6⟩
        · intro y hy
          have := (i2 y hy).1
          show a + n * B ≤ y.1
          omega
        · intro x hx
          rcases List.mem_cons.1 hx with e1 | e1
          · rw [e1]
            show s.data + s.position * B ≤ a ∧ a + n * B ≤ s3.data + s3.position * B
            rw [i5]; omega
          · have := i2 x e1
            omega

/-- Counterexample to C15 as stated: the sum `position + size` is computed on
the 32 bit type `unsigned`.  With position 5, capacity 16 and size 2^32 - 1 the
sum wraps to 4, the allocation succeeds although `position + size` exceeds the
capacity, and the position goes down to 4. -/
theorem allocate_wraps :
    (Segment.allocate 4 ⟨1000, 5, 16, none⟩ 4294967295).map (fun r => (r.1, r.2.position)) =
      some (1020, 4) ∧ ¬ (5 + 4294967295 ≤ 16) := by
  decide

/-- C15 (amended): `Segment::allocate(n)` when `position + n` fits the type
`unsigned`.  It succeeds exactly when `n > 0` and `position + n <= capacity`; on
success it returns the address `data + position`, the position grows by exactly
`n`, nothing else changes, and `position <= capacity` holds afterwards.
Successive allocations return word ranges that lie one after the other, so no
two of them share a word. -/
theorem allocate_spec (B : Nat) (s : Segment) (n : Nat) (h : s.position + n < 2 ^ 32) :
    ((s.allocate B n).isSome = true ↔ n ≠ 0 ∧ s.position + n ≤ s.capacity) ∧
    (∀ a s1, s.allocate B n = some (a, s1) →
      a = s.data + s.position * B ∧ s1 = { s with position := s.position + n } ∧
        s1.position ≤ s1.capacity) ∧
    (∀ (sizes : List Nat) (l : List (Nat × Nat)) (s2 : Segment), s.position ≤ s.capacity →
      (∀ k ∈ sizes, k + s.capacity < 2 ^ 32) → Segment.allocAll B s sizes = some (l, s2) →
      l.Pairwise (fun x y => x.1 + x.2 * B ≤ y.1) ∧ s2.position ≤ s2.capacity) := by
  refine ⟨⟨?_, ?_⟩, ?_, ?_⟩
  · intro hs
    obtain ⟨r, hr⟩ := Option.isSome_iff_exists.1 hs
    obtain ⟨q1, q2, -, -⟩ := Segment.allocate_inv B s n h r.1 r.2 hr
    exact ⟨q1, q2⟩
  · rintro ⟨h1, h2⟩
    rw [Segment.allocate_some B s n h h1 h2]; rfl
  · intro a s1 e
    obtain ⟨-, q2, q3, q4⟩ := Segment.allocate_inv B s n h a s1 e
    refine ⟨q3, q4, ?_⟩
    rw [q4]; exact q2
  · intro sizes l s2 hp hb e
    obtain ⟨i1, -, -, i4, -, -⟩ := Segment.allocAll_spec B sizes s l s2 hp hb e
    exact ⟨i1, i4⟩

/-- Witness of C15 (amended): two allocations of 4 and 6 words in a segment of
16 words at address 1000. -/
theorem allocate_spec_witness :
    ((Segment.allocate 4 ⟨1000, 0, 16, none⟩ 4).isSome = true ↔
      4 ≠ 0 ∧ (⟨1000, 0, 16, none⟩ : Segment).position + 4 ≤
        (⟨1000, 0, 16, none⟩ : Segment).capacity) ∧
    Segment.allocAll 4 ⟨1000, 0, 16, none⟩ [4, 6] =
      some ([(1000, 4), (1016, 6)], ⟨1000, 10, 16, none⟩) ∧
    [((1000 : Nat), (4 : Nat)), (1016, 6)].Pairwise (fun x y => x.1 + x.2 * 4 ≤ y.1) :=
  ⟨(allocate_spec 4 ⟨1000, 0, 16, none⟩ 4 (by decide)).1, by decide,
    ((allocate_spec 4 ⟨1000, 0, 16, none⟩ 4 (by decide)).2.2 [4, 6] [(1000, 4), (1016, 6)]
      ⟨1000, 10, 16, none⟩ (by decide) (by decide) (by decide)).1⟩

end Heap

namespace Heap

open CollectionType

theorem avg_between (minimum c : Nat) (h : minimum < c) :
    minimum ≤ avg minimum c ∧ avg minimum c < c := by
  unfold avg; omega

theorem capSeq_le (minimum c : Nat) (h : minimum ≤ c) :
    ∀ j, minimum ≤ capSeq minimum c j ∧ capSeq minimum c j ≤ c := by
  intro j
  induction j with
  | zero => exact ⟨h, Nat.le_refl _⟩
  | succ j ih =>
    show minimum ≤ avg minimum (capSeq minimum c j) ∧ avg minimum (capSeq minimum c j) ≤ c
    unfold avg
    omega

/-! ## `Map::init` on the type `unsigned` -/

theorem ceiling_pos (n d : Nat) (hn : 0 < n) (hd : 0 < d) : 0 < ceiling n d := by
  unfold ceiling
  apply Nat.div_pos _ hd
  omega

/-- What the retry loop returns, whatever the map: a capacity between
`minimum` and the first one tried, or the capacity 0 with no data, which needs
`minimum = 0`. -/
theorem Segment.allocLoop_sound (B : Nat) (t : Nat → Nat → Nat) (mp : Map) (minimum : Nat) :
    ∀ (fuel calls c d cap calls1 : Nat), minimum ≤ c →
      Segment.allocLoop B t mp minimum fuel calls c = some (d, cap, calls1) →
      minimum ≤ cap ∧ cap ≤ c := by
  intro fuel
  induction fuel with
  | zero => intro calls c d cap calls1 _ h; cases h
  | succ n ih =>
    intro calls c d cap calls1 hm h
    rw [Segment.allocLoop] at h
    cases hf : Exact.footprint B mp c with
    | none => rw [hf] at h; cases h
    | some f =>
      rw [hf] at h
      simp only at h
      by_cases h0 : t calls (u32 (u32 (c + f) * B)) = 0
      · rw [if_pos h0] at h
        by_cases h1 : c > minimum
        · rw [if_pos h1] at h
          by_cases h2 : avg minimum c = 0
          · rw [if_pos h2] at h
            simp only [Option.some.injEq, Prod.mk.injEq] at h
            obtain ⟨-, rfl, -⟩ := h
            have : minimum = 0 := by unfold avg at h2; omega
            omega
          · rw [if_neg h2] at h
            obtain ⟨a1, a2⟩ := avg_between minimum c h1
            have := ih (calls + 1) (avg minimum c) d cap calls1 a1 h
            omega
        · rw [if_neg h1] at h
          cases h
      · rw [if_neg h0] at h
        simp only [Option.some.injEq, Prod.mk.injEq] at h
        obtain ⟨-, rfl, -⟩ := h
        exact ⟨hm, Nat.le_refl _⟩

end Heap

namespace Heap

open CollectionType

end Heap

namespace Heap

open CollectionType

section UpdateCases

variable {B : Nat} {c0 c : Context} {G : Graph} {cp : List Nat}

/-- The card maps of the context after a step lie in the card maps of the
start. -/
theorem Inv.cards_sub (hs : Start B c0 G) (hi : Inv B c0 G c cp) (a : Nat)
    (h : ¬ c0.inCards B a) : ¬ (c.mapOf c.oldGen).inFootprint B (c.seg c.oldGen) a :=
  fun f => h ((hi.heapMap_ok hs).2.2.2 a f)

/-- C16: `update(c, p, needsVisit)` during a collection, for a slot that holds
null or a reference to an object, by cases on the masked referent `o`.  For
`o` null it returns null, `needsVisit = false`, and changes nothing.  Else, in
a Minor collection with `o` in gen2, it returns `o`, `needsVisit = false`, and
changes nothing.  Else, when `wasCollected(o)`, it returns the first word of
`o`, `needsVisit = false`, the context keeps its segments and the memory
changes at most in the card maps, so no word of an object changes.  Otherwise
the result is the one of `copy(c, o)` with `needsVisit = true`, again up to the
card maps. -/
theorem update_case_analysis (hs : Start B c0 G) (hi : Inv B c0 G c cp) (p : Nat)
    (hv : mask B (c.mem p) = 0 ∨ mask B (c.mem p) ∈ G.objs) :
    ∃ r nv c1 m2, update B c p = some (r, nv, { c1 with mem := m2 }) ∧
      (mask B (c.mem p) = 0 → r = 0 ∧ nv = false ∧ c1 = c ∧ m2 = c.mem) ∧
      (mask B (c.mem p) ≠ 0 →
        (c.mode = MinorCollection ∧ c.gen2.contains B (mask B (c.mem p)) = true) →
        r = mask B (c.mem p) ∧ nv = false ∧ c1 = c ∧ m2 = c.mem) ∧
      (mask B (c.mem p) ≠ 0 →
        ¬ (c.mode = MinorCollection ∧ c.gen2.contains B (mask B (c.mem p)) = true) →
        wasCollected B c (mask B (c.mem p)) = true →
        r = c.mem (mask B (c.mem p)) ∧ nv = false ∧ c1 = c ∧
          (∀ a, ¬ c0.inCards B a → m2 a = c.mem a) ∧
          ∀ y ∈ G.objs, ∀ k, k < (G.lay y).size → m2 (y + k * B) = c.mem (y + k * B)) ∧
      (mask B (c.mem p) ≠ 0 →
        ¬ (c.mode = MinorCollection ∧ c.gen2.contains B (mask B (c.mem p)) = true) →
        wasCollected B c (mask B (c.mem p)) = false →
        nv = true ∧ copy B c (mask B (c.mem p)) = some (r, c1) ∧
          ∀ a, ¬ c0.inCards B a → m2 a = c1.mem a) := by
  have hB := hs.B_pos
  by_cases h0 : mask B (c.mem p) = 0
  · refine ⟨0, false, c, c.mem, ?_, fun _ => ⟨rfl, rfl, rfl, rfl⟩, fun h => absurd h0 h,
      fun h => absurd h0 h, fun h => absurd h0 h⟩
    unfold update
    rw [if_pos h0]
  · have ho : mask B (c.mem p) ∈ G.objs := hv.resolve_left h0
    by_cases hold : c.mode = MinorCollection ∧ c.gen2.contains B (mask B (c.mem p)) = true
    · refine ⟨mask B (c.mem p), false, c, c.mem, ?_, fun h => absurd h h0,
        fun _ _ => ⟨rfl, rfl, rfl, rfl⟩, fun _ h => absurd hold h, fun _ h => absurd hold h⟩
      rw [update_eq B c p h0]
      have e : update2 B c (mask B (c.mem p)) = some (mask B (c.mem p), false, c) := by
        unfold update2; rw [if_pos hold]
      rw [e]
      simp only []
      have hg : c.oldGen = Gen.gen2 := by unfold Context.oldGen; rw [if_pos hold.1]
      have hn : ¬ (mask B (c.mem p) ≠ 0 ∧ (c.seg c.oldGen).contains B p = true ∧
          (c.seg c.oldGen).contains B (mask B (c.mem p)) = false) := by
        rintro ⟨-, -, h3⟩
        rw [hg] at h3
        have h4 : c.gen2.contains B (mask B (c.mem p)) = false := h3
        rw [hold.2] at h4
        exact absurd h4 (by decide)
      rw [if_neg hn]
    · by_cases hw : wasCollected B c (mask B (c.mem p)) = true
      · have e : update2 B c (mask B (c.mem p)) =
            some (c.mem (mask B (c.mem p)), false, c) := by
          unfold update2; rw [if_neg hold]
          unfold update3; rw [if_pos hw]
          unfold follow; rw [if_pos hw]; rfl
        obtain ⟨m2, e2, f2, -⟩ := card_spec hs hi p (c.mem (mask B (c.mem p))) false
        refine ⟨c.mem (mask B (c.mem p)), false, c, m2, ?_, fun h => absurd h h0,
          fun _ h => absurd h hold, fun _ _ _ => ⟨rfl, rfl, rfl, ?_, ?_⟩, fun _ _ h => ?_⟩
        · rw [update_eq B c p h0, e]; exact e2
        · intro a ha
          exact f2 a (hi.cards_sub hs a ha)
        · intro y hy k hk
          apply f2
          apply hi.cards_sub hs
          intro hc
          have := Nat.mul_lt_mul_of_pos_right hk hB
          exact (hs.obj_not_maps y hy (y + k * B) (Nat.le_add_right _ _) (by omega)).1
            (Or.inr hc)
        · rw [hw] at h; exact absurd h (by decide)
      · have hwf : wasCollected B c (mask B (c.mem p)) = false := by simpa using hw
        have hcp : mask B (c.mem p) ∉ cp := fun h => hw (hi.copied_wasCollected hs _ h).1
        obtain ⟨r, nv, c1, e, hr⟩ := update2_spec hs hi _ ho
        have e3 : update2 B c (mask B (c.mem p)) =
            (copy B c (mask B (c.mem p))).map fun rc => (rc.1, true, rc.2) := by
          unfold update2; rw [if_neg hold]
          unfold update3; rw [hwf]; rfl
        rcases hr with ⟨-, -, h3 | h3⟩ | ⟨h1, h2, h3, h4⟩
        · exfalso
          apply hold
          obtain ⟨q1, q2⟩ := h3.1
          have hnt : ¬ c0.inToSpace B (mask B (c.mem p)) :=
            hs.obj_not_toSpace _ ho _ (Nat.le_refl _)
              (by have := Nat.mul_pos (hs.obj_ok _ ho).2.2.1 hB; omega)
          exact ⟨by rw [hi.mode_eq]; exact q1, by rw [hi.gen2_contains _ hnt]; exact q2⟩
        · exact absurd h3.1 hcp
        · subst h1
          have e4 : copy B c (mask B (c.mem p)) = some (r, c1) := by
            rw [e3] at e
            cases hc : copy B c (mask B (c.mem p)) with
            | none => rw [hc] at e; exact absurd e (by simp)
            | some rc =>
              rw [hc] at e
              simp only [Option.map_some', Option.some.injEq, Prod.mk.injEq, true_and] at e
              obtain ⟨rfl, rfl⟩ := e
              rfl
          have hi1 := hi.copy_step hs _ r c1 ho h2 h3 h4
          obtain ⟨m2, e2, f2, -⟩ := card_spec hs hi1 p r true
          refine ⟨r, true, c1, m2, ?_, fun h => absurd h h0, fun _ h => absurd h hold,
            fun _ _ h => ?_, fun _ _ _ => ⟨rfl, e4, ?_⟩⟩
          · rw [update_eq B c p h0, e]; exact e2
          · rw [hwf] at h; exact absurd h (by decide)
          · intro a ha
            exact f2 a (hi1.cards_sub hs a ha)

end UpdateCases

end Heap

namespace Heap

open CollectionType

/-- Witness of C16: the root slot at 500 of the two object cycle refers to the
object at 1000, which is not forwarded: `update` copies it. -/
theorem update_case_analysis_witness :
    Start 4 cycleContext cycleGraph ∧ Inv 4 cycleContext cycleGraph cycleContext [] ∧
    (mask 4 (cycleContext.mem 500) = 0 ∨ mask 4 (cycleContext.mem 500) ∈ cycleGraph.objs) ∧
    ∃ (r : Nat) (c1 : Context) (m2 : Mem),
      update 4 cycleContext 500 = some (r, true, { c1 with mem := m2 }) ∧
        copy 4 cycleContext (mask 4 (cycleContext.mem 500)) = some (r, c1) := by
  refine ⟨cycle_start, (Trav.trav_init cycle_ready).inv, Or.inr (by decide), ?_⟩
  obtain ⟨r, nv, c1, m2, e, -, -, -, h4⟩ :=
    update_case_analysis cycle_start (Trav.trav_init cycle_ready).inv 500 (Or.inr (by decide))
  obtain ⟨rfl, h5, -⟩ := h4 (by decide) (by decide) (by decide)
  exact ⟨r, c1, m2, e, h5⟩

end Heap

namespace Heap

open CollectionType

section CopyForward

variable {B : Nat} {c0 c : Context} {G : Graph} {cp : List Nat}

/-- C17: `copy` installs the forwarding pointer.  For an object `o` of the heap
that the collection moves and has not copied yet, `o` is not fresh, `copy(c, o)`
returns some `r`, and afterwards the first word of `o` is `r`, `r` is fresh,
`wasCollected(o)` holds and `follow(o) = r`.  In every later state of the same
collection (the objects copied stay copied and keep their first word) `update`
of a slot that refers to `o` returns `r` with `needsVisit = false`, in the same
context up to card map words: nothing is allocated. -/
theorem copy_installs_forwarding (hs : Start B c0 G) (hi : Inv B c0 G c cp) (o : Nat)
    (ho : o ∈ G.objs) (hm : movable B c0 o) (hw : o ∉ cp) :
    fresh B c o = false ∧
    ∃ r c1, copy B c o = some (r, c1) ∧ c1.mem o = r ∧ fresh B c1 r = true ∧
      wasCollected B c1 o = true ∧ follow B c1 o = some r ∧
      ∀ (c2 : Context) (cp2 : List Nat) (p : Nat), Inv B c0 G c2 cp2 →
        Grows c1 (o :: cp) c2 cp2 → mask B (c2.mem p) = o →
        ∃ m2, update B c2 p = some (r, false, { c2 with mem := m2 }) ∧
          ∀ a, ¬ c0.inCards B a → m2 a = c2.mem a := by
  have hB := hs.B_pos
  obtain ⟨o1, o2, o3, o4, o5, o6⟩ := hs.obj_ok o ho
  have hnt : ¬ c0.inToSpace B o := hs.obj_not_toSpace o ho o (Nat.le_refl _)
    (by have := Nat.mul_pos o3 hB; omega)
  refine ⟨hi.not_fresh hs o hnt, ?_⟩
  obtain ⟨r, c1, e, hc⟩ := copy_spec hs hi o ho hm hw
  have hi1 := hi.copy_step hs o r c1 ho hm hw hc
  obtain ⟨w1, w2⟩ := hi1.copied_wasCollected hs o (List.mem_cons_self _ _)
  have hf : c1.mem o = r := hc.fwd
  obtain ⟨f1, -⟩ := hi1.fwd o (List.mem_cons_self _ _)
  have hfr := f1.is_fresh hs hi1 _ (@dest_ne_gen1 B c0 G o) _ _ o3
  rw [hf] at hfr w2
  refine ⟨r, c1, e, hf, hfr, w1, w2, ?_⟩
  intro c2 cp2 p hi2 hg hp
  have hcp2 : o ∈ cp2 := hg.sub o (List.mem_cons_self _ _)
  have hmem : c2.mem o = r := by rw [hg.fwd o (List.mem_cons_self _ _)]; exact hf
  have h0 : mask B (c2.mem p) ≠ 0 := by rw [hp]; exact o1
  obtain ⟨r2, nv, c3, e2, hr⟩ := update2_spec hs hi2 o ho
  have key : r2 = r ∧ nv = false ∧ c3 = c2 := by
    rcases hr with ⟨h1, h2, h3 | h3⟩ | ⟨-, -, h3, -⟩
    · exfalso
      rcases hm with hm | hm
      · rw [h3.1.1] at hm; exact absurd hm (by decide)
      · rw [h3.1.2] at hm; exact absurd hm (by decide)
    · exact ⟨by rw [h3.2, hmem], h1, h2⟩
    · exact absurd hcp2 h3
  obtain ⟨rfl, rfl, rfl⟩ := key
  obtain ⟨m2, e3, f3, -⟩ := card_spec hs hi2 p r2 false
  refine ⟨m2, ?_, fun a ha => f3 a (hi2.cards_sub hs a ha)⟩
  rw [update_eq B c3 p h0, hp, e2]
  exact e3

end CopyForward

/-- Witness of C17: the object at 1000 of the two object cycle. -/
theorem copy_installs_forwarding_witness :
    Start 4 cycleContext cycleGraph ∧ Inv 4 cycleContext cycleGraph cycleContext [] ∧
    1000 ∈ cycleGraph.objs ∧ movable 4 cycleContext 1000 ∧
    fresh 4 cycleContext 1000 = false ∧
    ∃ (r : Nat) (c1 : Context), copy 4 cycleContext 1000 = some (r, c1) ∧ c1.mem 1000 = r ∧
      fresh 4 c1 r = true ∧ wasCollected 4 c1 1000 = true ∧ follow 4 c1 1000 = some r ∧
      ∃ m2, update 4 c1 500 = some (r, false, { c1 with mem := m2 }) := by
  have hmv : movable 4 cycleContext 1000 := Or.inr (by decide)
  refine ⟨cycle_start, (Trav.trav_init cycle_ready).inv, by decide, hmv, ?_⟩
  obtain ⟨h1, r, c1, e, h2, h3, h4, h5, h6⟩ :=
    copy_installs_forwarding cycle_start (Trav.trav_init cycle_ready).inv 1000 (by decide) hmv
      (by simp)
  refine ⟨h1, r, c1, e, h2, h3, h4, h5, ?_⟩
  have hc : Copied 4 cycleContext cycleGraph cycleContext c1 1000 r := by
    obtain ⟨r1, c2, e1, hc⟩ := copy_spec cycle_start (Trav.trav_init cycle_ready).inv 1000
      (by decide) hmv (by simp)
    rw [e] at e1
    simp only [Option.some.injEq, Prod.mk.injEq] at e1
    obtain ⟨rfl, rfl⟩ := e1
    exact hc
  have hi1 := (Trav.trav_init cycle_ready).inv.copy_step cycle_start 1000 r c1 (by decide) hmv
    (by simp) hc
  have hp : mask 4 (c1.mem 500) = 1000 := by
    rw [hc.frame 500 (by decide) ?_ ?_]
    · decide
    · rw [hc.r_eq]
      left
      have hd : dest 4 cycleContext cycleGraph 1000 = Gen.nextGen1 := by decide
      rw [hd]
      decide
    · intro hf
      have := (inFootprint_storage Gen.nextGen1 500 hf).1
      revert this
      unfold Context.inStorage
      decide
  obtain ⟨m2, e2, -⟩ := h6 c1 [1000] 500 hi1 (Grows.refl _ _) hp
  exact ⟨m2, e2⟩

end Heap

namespace Heap

open CollectionType

theorem copy_split (B : Nat) (c c1 : Context) (o r : Nat) (h : copy B c o = some (r, c1)) :
    ∃ c2, copy2 B c o = some (r, c2) ∧ c1 = { c2 with mem := c2.mem.write o r } := by
  unfold copy at h
  cases h2 : copy2 B c o with
  | none => rw [h2] at h; exact absurd h (by simp)
  | some x =>
    obtain ⟨r1, c2⟩ := x
    rw [h2] at h
    simp only [Option.some.injEq, Prod.mk.injEq] at h
    obtain ⟨rfl, rfl⟩ := h
    exact ⟨c2, rfl, rfl⟩

section CopyDest

variable {B : Nat} {c0 c : Context} {G : Graph} {cp : List Nat}

/-- What `copy2` returns for an object not yet copied: the place, the positions,
the base of the tenured objects, the age and the tenure footprint. -/
theorem copy2_facts (hs : Start B c0 G) (hi : Inv B c0 G c cp) (o : Nat)
    (ho : o ∈ G.objs) (hm : movable B c0 o) (hw : o ∉ cp) :
    ∃ r c2, copy2 B c o = some (r, c2) ∧
      r = (c.seg (dest B c0 G o)).data + (c.seg (dest B c0 G o)).position * B ∧
      (c2.seg (dest B c0 G o)).position =
        (c.seg (dest B c0 G o)).position + (G.lay o).size ∧
      (∀ g, g ≠ dest B c0 G o → (c2.seg g).position = (c.seg g).position) ∧
      ((c2.gen2Base = c.gen2Base ∧ (dest B c0 G o = Gen.gen2 → c.gen2Base ≠ Top)) ∨
        (c.gen2Base = Top ∧ dest B c0 G o = Gen.gen2 ∧ c2.gen2Base = c.gen2.position)) ∧
      (dest B c0 G o = Gen.nextGen1 →
        c2.nextAgeMap.get B c2.nextGen1 c2.mem r = some (nextAge B c0 G o)) ∧
      c2.tenureFootprint = u32 (c.tenureFootprint + tenureGrowth B c0 G o) := by
  have hB := hs.B_pos
  obtain ⟨o1, o2, o3, o4, o5, o6⟩ := hs.obj_ok o ho
  obtain ⟨r, c1, e, hc⟩ := copy_spec hs hi o ho hm hw
  have hi1 := hi.copy_step hs o r c1 ho hm hw hc
  obtain ⟨c2, e2, rfl⟩ := copy_split B c c1 o r e
  have hseg : ∀ g, ({ c2 with mem := c2.mem.write o r } : Context).seg g = c2.seg g := by
    intro g; cases g <;> rfl
  refine ⟨r, c2, e2, hc.r_eq, ?_, ?_, hc.base, ?_, hc.tenure⟩
  · rw [← hseg]; exact hc.pos
  · intro g hg; rw [← hseg]; exact hc.pos_other g hg
  · intro hd
    have hage := hc.age hd
    have hf : ({ c2 with mem := c2.mem.write o r } : Context).mem o = r := hc.fwd
    obtain ⟨f1, -⟩ := hi1.fwd o (List.mem_cons_self _ _)
    have hcon := f1.contains hB _ _ _ o3
    rw [hd, hf] at hcon
    have := hi1.next_age_frame hs c2.mem r hcon (fun a ha => by
      show c2.mem a = c2.mem.write o r a
      rw [write_other]
      rintro rfl
      exact (hs.obj_not_maps a ho a (Nat.le_refl _)
        (by have := Nat.mul_pos o3 hB; omega)).1 (Or.inl ha))
    rw [← hage]
    exact this

/-- A word that gen1 contains is not in gen2. -/
theorem Inv.gen1_not_gen2 (hs : Start B c0 G) (hi : Inv B c0 G c cp) (o : Nat)
    (h : c.gen1.contains B o = true) : c.gen2.contains B o = false := by
  by_contra h2
  have h3 : c.gen2.contains B o = true := by simpa using h2
  exact hs.stor_disj Gen.gen1 Gen.gen2 (by decide) o (hi.contains_storage Gen.gen1 o h)
    (hi.contains_storage Gen.gen2 o h3)

end CopyDest

end Heap

namespace Heap

open CollectionType

section CopyDest

variable {B : Nat} {c0 c : Context} {G : Graph} {cp : List Nat}

/-- C18: destination and accounting of `copy2`, for an object `o` of the heap
that the collection moves and has not copied yet; `size` is the copied size of
`o`.  For `o` in gen1 with age `TenureThreshold` the copy is placed at the
position of gen2 in a Minor collection, `gen2Base` becoming the old position of
gen2 if it was `Top`, and at the position of nextGen2 in a Major collection;
`tenureFootprint` stays.  For `o` in gen1 with a smaller age the copy is placed
at the position of nextGen1, the age map of nextGen1 records `age + 1` for it,
and `tenureFootprint` grows by `size` (on the type `unsigned`) exactly when
`age + 1 = TenureThreshold`.  For `o` in gen2 the collection is Major and the
copy is placed at the position of nextGen2.  For `o` in neither the copy is
placed at the position of nextGen1 with recorded age 0.  The position of the
destination grows by `size`. -/
theorem copy2_destination (hs : Start B c0 G) (hi : Inv B c0 G c cp) (o : Nat)
    (ho : o ∈ G.objs) (hm : movable B c0 o) (hw : o ∉ cp) :
    ∃ r c2, copy2 B c o = some (r, c2) ∧
      (c.gen1.contains B o = true →
        c.ageMap.get B c.gen1 c.mem o = some TenureThreshold →
        (c.mode = MinorCollection →
          r = c.gen2.data + c.gen2.position * B ∧
          c2.gen2.position = c.gen2.position + c.client.copiedSizeInWords o ∧
          c2.gen2Base = (if c.gen2Base = Top then c.gen2.position else c.gen2Base)) ∧
        (c.mode = MajorCollection →
          r = c.nextGen2.data + c.nextGen2.position * B ∧
          c2.nextGen2.position = c.nextGen2.position + c.client.copiedSizeInWords o) ∧
        c2.tenureFootprint = c.tenureFootprint) ∧
      (c.gen1.contains B o = true → ∀ age,
        c.ageMap.get B c.gen1 c.mem o = some age → age < TenureThreshold →
        r = c.nextGen1.data + c.nextGen1.position * B ∧
        c2.nextGen1.position = c.nextGen1.position + c.client.copiedSizeInWords o ∧
        c2.nextAgeMap.get B c2.nextGen1 c2.mem r = some (age + 1) ∧
        c2.tenureFootprint =
          (if age + 1 = TenureThreshold then
            u32 (c.tenureFootprint + c.client.copiedSizeInWords o)
           else c.tenureFootprint)) ∧
      (c.gen2.contains B o = true →
        c.mode = MajorCollection ∧ r = c.nextGen2.data + c.nextGen2.position * B ∧
        c2.nextGen2.position = c.nextGen2.position + c.client.copiedSizeInWords o) ∧
      (c.gen1.contains B o = false → c.gen2.contains B o = false →
        r = c.nextGen1.data + c.nextGen1.position * B ∧
        c2.nextGen1.position = c.nextGen1.position + c.client.copiedSizeInWords o ∧
        c2.nextAgeMap.get B c2.nextGen1 c2.mem r = some 0) := by
  obtain ⟨p1, -, -, -, p5, -⟩ := hi.copy_pre hs o ho hm hw
  obtain ⟨r, c2, e, q1, q2, q3, q4, q5, q6⟩ := copy2_facts hs hi o ho hm hw
  have hg1 : c.gen1 = c0.gen1 := hi.gen1_eq
  have hmode : c.mode = c0.mode := hi.mode_eq
  rw [p1]
  refine ⟨r, c2, e, ?_, ?_, ?_, ?_⟩
  · intro h1 ha
    have h2 : ¬ c0.gen2.contains B o = true := by
      rw [← p5, hi.gen1_not_gen2 hs o h1]; decide
    rw [hg1] at h1
    obtain ⟨a, -, ha2, ha3⟩ := hi.age_eq hs o h1
    rw [ha] at ha3
    obtain rfl : TenureThreshold = a := Option.some.inj ha3
    have hne : dest B c0 G o ≠ Gen.nextGen1 := by
      unfold dest
      rw [if_neg h2, if_pos h1, if_pos ha2]
      split <;> decide
    refine ⟨?_, ?_, ?_⟩
    · intro hmin
      have hd : dest B c0 G o = Gen.gen2 := by
        unfold dest
        rw [if_neg h2, if_pos h1, if_pos ha2, if_pos (by rw [← hmode]; exact hmin)]
      rw [hd] at q1 q2 q4
      refine ⟨q1, q2, ?_⟩
      rcases q4 with ⟨b1, b2⟩ | ⟨b1, -, b2⟩
      · rw [if_neg (b2 rfl)]; exact b1
      · rw [if_pos b1]; exact b2
    · intro hmaj
      have hd : dest B c0 G o = Gen.nextGen2 := by
        unfold dest
        rw [if_neg h2, if_pos h1, if_pos ha2,
          if_neg (by rw [← hmode, hmaj]; decide)]
      rw [hd] at q1 q2
      exact ⟨q1, q2⟩
    · rw [q6]
      exact (hi.tenure_same o (tenureGrowth_zero o hne)).symm
  · intro h1 age ha hlt
    have h2 : ¬ c0.gen2.contains B o = true := by
      rw [← p5, hi.gen1_not_gen2 hs o h1]; decide
    rw [hg1] at h1
    obtain ⟨a, -, ha2, ha3⟩ := hi.age_eq hs o h1
    rw [ha] at ha3
    obtain rfl : age = a := Option.some.inj ha3
    have hd : dest B c0 G o = Gen.nextGen1 := by
      unfold dest
      rw [if_neg h2, if_pos h1, if_neg (by rw [ha2]; simp only [Option.some.injEq]; omega)]
    have hna : nextAge B c0 G o = age + 1 := by
      unfold nextAge
      rw [if_pos h1, ha2]
    have q5 := q5 hd
    rw [hd] at q1 q2
    rw [hna] at q5
    refine ⟨q1, q2, q5, ?_⟩
    rw [q6]
    unfold tenureGrowth
    rw [hna]
    by_cases ht : age + 1 = TenureThreshold
    · rw [if_pos ⟨hd, h1, ht⟩, if_pos ht]
    · rw [if_neg (fun h => ht h.2.2), if_neg ht]
      have := hi.tenure
      rw [Nat.add_zero, this]
      unfold u32
      rw [Nat.mod_mod]
  · intro h2
    have h2c : c0.gen2.contains B o = true := by rw [← p5]; exact h2
    have hd : dest B c0 G o = Gen.nextGen2 := by unfold dest; rw [if_pos h2c]
    have hmaj : c.mode = MajorCollection := by
      rw [hmode]
      rcases hm with h | h
      · exact h
      · rw [h2c] at h; exact absurd h (by decide)
    rw [hd] at q1 q2
    exact ⟨hmaj, q1, q2⟩
  · intro h1 h2
    have h2c : ¬ c0.gen2.contains B o = true := by rw [← p5, h2]; decide
    have h1c : ¬ c0.gen1.contains B o = true := by rw [← hg1, h1]; decide
    have hd : dest B c0 G o = Gen.nextGen1 := by
      unfold dest
      rw [if_neg h2c, if_neg h1c]
    have hna : nextAge B c0 G o = 0 := by
      unfold nextAge
      rw [if_neg h1c]
    have q5 := q5 hd
    rw [hd] at q1 q2
    rw [hna] at q5
    exact ⟨q1, q2, q5⟩

end CopyDest

end Heap

namespace Heap

open CollectionType

/-- Witness of C18: the object at 1000 of the two object cycle lies in no
segment; its copy is placed at the start of nextGen1 with age 0. -/
theorem copy2_destination_witness :
    Start 4 cycleContext cycleGraph ∧ Inv 4 cycleContext cycleGraph cycleContext [] ∧
    1000 ∈ cycleGraph.objs ∧ movable 4 cycleContext 1000 ∧
    ∃ (r : Nat) (c2 : Context), copy2 4 cycleContext 1000 = some (r, c2) ∧
      r = 16777216 ∧ c2.nextGen1.position = 2 ∧
      c2.nextAgeMap.get 4 c2.nextGen1 c2.mem r = some 0 := by
  have hmv : movable 4 cycleContext 1000 := Or.inr (by decide)
  refine ⟨cycle_start, (Trav.trav_init cycle_ready).inv, by decide, hmv, ?_⟩
  obtain ⟨r, c2, e, -, -, -, h4⟩ :=
    copy2_destination cycle_start (Trav.trav_init cycle_ready).inv 1000 (by decide) hmv
      (by simp)
  obtain ⟨h5, h6, h7⟩ := h4 (by decide) (by decide)
  exact ⟨r, c2, e, by rw [h5]; decide, by rw [h6]; decide, h7⟩

end Heap

namespace Heap

open CollectionType

/-- C19, evaluation at a failing input: the slot at 1004 of gen2 holds null and
its bit is set at the three levels of the card hierarchy.  The card scan of a
Minor collection over gen2 (four words) ends with `dirty = true`, the slot still
holds null, and its pointerMap bit is set again; `needsMark` answers false for
the same slot. -/
theorem leaf_scan_marks_null :
    (markedNull.map fun c =>
      (c.pointerMap.get 4 c.gen2 c.mem 1004, c.pageMap.get 4 c.gen2 c.mem 1004,
        c.heapMap.get 4 c.gen2 c.mem 1004, c.mem 1004, c.mode)) =
      some (some 1, some 1, some 1, 0, MinorCollection) ∧
    ((markedNull.bind fun c => collectMap 4 10 c.heapMap false c 0 4 false).map fun r =>
      (r.2, r.1.pointerMap.get 4 r.1.gen2 r.1.mem 1004, mask 4 (r.1.mem 1004),
        MyHeap.needsMark 4 r.1 1004)) = some (true, some 1, 0, false) := by
  constructor
  · decide!
  · decide!

end Heap

namespace Heap

open CollectionType

/-- The inner loop of `hasMore`: the first set bit of the word from `bit`
upwards that is below the limit. -/
theorem Iterator.scanWord_spec (B w word wordLimit bitLimit : Nat) :
    ∀ n bit, BitsPerWord B ≤ bit + n →
      (∀ b, Iterator.scanWord B w word wordLimit bitLimit n bit = some b →
        bit ≤ b ∧ b < BitsPerWord B ∧ (word < wordLimit ∨ b < bitLimit) ∧
          w.testBit b = true ∧ ∀ j, bit ≤ j → j < b → w.testBit j = false) ∧
      (Iterator.scanWord B w word wordLimit bitLimit n bit = none →
        ∀ j, bit ≤ j → j < BitsPerWord B → (word < wordLimit ∨ j < bitLimit) →
          w.testBit j = false) := by
  intro n
  induction n with
  | zero =>
    intro bit h
    refine ⟨fun b e => ?_, fun _ j h1 h2 _ => ?_⟩
    · simp [Iterator.scanWord] at e
    · omega
  | succ n ih =>
    intro bit h
    unfold Iterator.scanWord
    by_cases hc : bit < BitsPerWord B ∧ (word < wordLimit ∨ bit < bitLimit)
    · rw [if_pos hc]
      by_cases ht : w &&& (1 <<< bit) ≠ 0
      · rw [if_pos ht]
        refine ⟨fun b e => ?_, fun e => absurd e (by simp)⟩
        obtain rfl : bit = b := Option.some.inj e
        exact ⟨Nat.le_refl _, hc.1, hc.2, (and_one_shiftLeft_ne_zero _ _).1 ht,
          fun j h1 h2 => by omega⟩
      · rw [if_neg ht]
        have hf : w.testBit bit = false := by
          cases h3 : w.testBit bit
          · rfl
          · exact absurd ((and_one_shiftLeft_ne_zero _ _).2 h3) ht
        obtain ⟨i1, i2⟩ := ih (bit + 1) (by omega)
        refine ⟨fun b e => ?_, fun e j h1 h2 h3 => ?_⟩
        · obtain ⟨q1, q2, q3, q4, q5⟩ := i1 b e
          refine ⟨by omega, q2, q3, q4, fun j h1 h2 => ?_⟩
          by_cases hj : j = bit
          · rw [hj]; exact hf
          · exact q5 j (by omega) h2
        · by_cases hj : j = bit
          · rw [hj]; exact hf
          · exact i2 e j (by omega) h2 h3
    · rw [if_neg hc]
      refine ⟨fun b e => absurd e (by simp), fun _ j h1 h2 h3 => ?_⟩
      exfalso
      apply hc
      exact ⟨by omega, h3.elim Or.inl (fun h4 => Or.inr (by omega))⟩

theorem index_split (W j word : Nat) (hW : 0 < W) (h1 : word * W ≤ j) (h2 : j < (word + 1) * W) :
    j / W = word ∧ j % W = j - word * W := by
  have h3 : j = word * W + (j - word * W) := by omega
  have h4 : j - word * W < W := by rw [Nat.add_mul] at h2; omega
  constructor
  · rw [h3]; exact mul_add_div_eq W word _ h4
  · conv_lhs => rw [h3]
    exact mul_add_mod_eq W word _ h4

/-- The outer loop of `hasMore`: the first set bit of the map from the bit
`bit` of the word `word` upwards that is below the limit. -/
theorem Iterator.scan_spec (B : Nat) (hW : 0 < BitsPerWord B) (s : Segment) (mp : Map) (m : Mem)
    (wordLimit bitLimit : Nat) (hbl : bitLimit < BitsPerWord B) :
    ∀ n word bit, bit < BitsPerWord B → wordLimit + 1 ≤ word + n →
      (∀ k, Iterator.scan B s mp m wordLimit bitLimit n word bit = some k →
        indexOf B word bit ≤ k ∧ k < indexOf B wordLimit bitLimit ∧ mp.bit B s m k = true ∧
          ∀ j, indexOf B word bit ≤ j → j < k → mp.bit B s m j = false) ∧
      (Iterator.scan B s mp m wordLimit bitLimit n word bit = none →
        ∀ j, indexOf B word bit ≤ j → j < indexOf B wordLimit bitLimit →
          mp.bit B s m j = false) := by
  intro n
  induction n with
  | zero =>
    intro word bit hb h
    refine ⟨fun k e => ?_, fun _ j h1 h2 => ?_⟩
    · simp [Iterator.scan] at e
    · exfalso
      unfold indexOf at h1 h2
      have : (wordLimit + 1) * BitsPerWord B ≤ word * BitsPerWord B :=
        Nat.mul_le_mul_right _ (by omega)
      rw [Nat.add_mul] at this
      omega
  | succ n ih =>
    intro word bit hb h
    unfold Iterator.scan
    by_cases hc : word ≤ wordLimit ∧ (word < wordLimit ∨ bit < bitLimit)
    · rw [if_pos hc]
      obtain ⟨i1, i2⟩ := ih (word + 1) 0 hW (by omega)
      have hnext : indexOf B (word + 1) 0 = (word + 1) * BitsPerWord B := by
        unfold indexOf; omega
      -- the bits of the word `word` from `bit` upwards
      have hword : ∀ j, indexOf B word bit ≤ j → j < (word + 1) * BitsPerWord B →
          mp.bit B s m j = (wordAt B m (mp.data B s) word).testBit (j - word * BitsPerWord B) ∧
            bit ≤ j - word * BitsPerWord B ∧ j - word * BitsPerWord B < BitsPerWord B ∧
            j = indexOf B word (j - word * BitsPerWord B) := by
        intro j h1 h2
        unfold indexOf at h1
        obtain ⟨d1, d2⟩ := index_split (BitsPerWord B) j word hW (by omega) h2
        unfold Map.bit wordOf bitOf
        rw [d1, d2]
        rw [Nat.add_mul] at h2
        exact ⟨rfl, by omega, by omega, by unfold indexOf; omega⟩
      have hlim : ∀ b, b < BitsPerWord B → (indexOf B word b < indexOf B wordLimit bitLimit ↔
          (word < wordLimit ∨ b < bitLimit)) := by
        intro b hb2
        unfold indexOf
        constructor
        · intro h3
          by_cases h4 : word < wordLimit
          · exact Or.inl h4
          · have : word = wordLimit := by omega
            subst this
            exact Or.inr (by omega)
        · intro h3
          rcases h3 with h4 | h4
          · have : (word + 1) * BitsPerWord B ≤ wordLimit * BitsPerWord B :=
              Nat.mul_le_mul_right _ h4
            rw [Nat.add_mul] at this
            omega
          · have : word * BitsPerWord B ≤ wordLimit * BitsPerWord B :=
              Nat.mul_le_mul_right _ hc.1
            omega
      cases hs : (if wordAt B m (mp.data B s) word ≠ 0 then
          Iterator.scanWord B (wordAt B m (mp.data B s) word) word wordLimit bitLimit
            (BitsPerWord B - bit) bit
        else none) with
      | some b =>
        simp only []
        have hs2 : Iterator.scanWord B (wordAt B m (mp.data B s) word) word wordLimit bitLimit
            (BitsPerWord B - bit) bit = some b := by
          by_cases hz : wordAt B m (mp.data B s) word ≠ 0
          · rw [if_pos hz] at hs; exact hs
          · rw [if_neg hz] at hs; exact absurd hs (by simp)
        obtain ⟨q1, q2, q3, q4, q5⟩ :=
          (Iterator.scanWord_spec B _ word wordLimit bitLimit _ bit (by omega)).1 b hs2
        refine ⟨fun k e => ?_, fun e => absurd e (by simp)⟩
        obtain rfl : indexOf B word b = k := Option.some.inj e
        refine ⟨by unfold indexOf; omega, (hlim b q2).2 q3, ?_, ?_⟩
        · unfold Map.bit wordOf bitOf indexOf
          rw [mul_add_div_eq _ _ _ q2, mul_add_mod_eq _ _ _ q2]
          exact q4
        · intro j h1 h2
          have h3 : j < (word + 1) * BitsPerWord B := by
            unfold indexOf at h2; rw [Nat.add_mul]; omega
          obtain ⟨e1, e2, e3, e4⟩ := hword j h1 h3
          rw [e1]
          apply q5 _ e2
          clear e4
          unfold indexOf at h1 h2
          omega
      | none =>
        simp only []
        have hnone : ∀ j, indexOf B word bit ≤ j → j < (word + 1) * BitsPerWord B →
            j < indexOf B wordLimit bitLimit → mp.bit B s m j = false := by
          intro j h1 h2 h3
          obtain ⟨e1, e2, e3, e4⟩ := hword j h1 h2
          rw [e1]
          by_cases hz : wordAt B m (mp.data B s) word ≠ 0
          · rw [if_pos hz] at hs
            rw [e4] at h3
            exact (Iterator.scanWord_spec B _ word wordLimit bitLimit _ bit (by omega)).2 hs _
              e2 e3 ((hlim _ e3).1 h3)
          · have hz2 : wordAt B m (mp.data B s) word = 0 := by
              by_contra h4; exact hz h4
            rw [hz2]
            exact Nat.zero_testBit _
        have hle : indexOf B word bit ≤ indexOf B (word + 1) 0 := by
          unfold indexOf; rw [Nat.add_mul]; omega
        refine ⟨fun k e => ?_, fun e j h1 h2 => ?_⟩
        · obtain ⟨q1, q2, q3, q4⟩ := i1 k e
          refine ⟨by omega, q2, q3, fun j h1 h2 => ?_⟩
          by_cases h3 : j < (word + 1) * BitsPerWord B
          · exact hnone j h1 h3 (by omega)
          · exact q4 j (by omega) h2
        · by_cases h3 : j < (word + 1) * BitsPerWord B
          · exact hnone j h1 h3 h2
          · exact i2 e j (by omega) h2
    · rw [if_neg hc]
      refine ⟨fun k e => absurd e (by simp), fun _ j h1 h2 => ?_⟩
      exfalso
      apply hc
      unfold indexOf at h1 h2
      have hw : word ≤ wordLimit := by
        by_contra h3
        have : (wordLimit + 1) * BitsPerWord B ≤ word * BitsPerWord B :=
          Nat.mul_le_mul_right _ (by omega)
        rw [Nat.add_mul] at this
        omega
      refine ⟨hw, ?_⟩
      by_cases h4 : word < wordLimit
      · exact Or.inl h4
      · have : word = wordLimit := by omega
        subst this
        exact Or.inr (by omega)

end Heap

namespace Heap

open CollectionType

theorem indexOf_word_bit (B k : Nat) : indexOf B (wordOf B k) (bitOf B k) = k := by
  unfold indexOf wordOf bitOf
  exact Nat.div_add_mod' k (BitsPerWord B)

/-- `hasMore` moves the index to the first set bit below the limit, or to the
limit when there is none. -/
theorem Iterator.hasMore_spec (B : Nat) (hW : 0 < BitsPerWord B) (s : Segment) (mp : Map)
    (m : Mem) (it : Iterator) :
    ((it.hasMore B s mp m).1 = true →
      it.index ≤ (it.hasMore B s mp m).2.index ∧ (it.hasMore B s mp m).2.index < it.limit ∧
        mp.bit B s m (it.hasMore B s mp m).2.index = true ∧
        (∀ j, it.index ≤ j → j < (it.hasMore B s mp m).2.index → mp.bit B s m j = false) ∧
        (it.hasMore B s mp m).2.limit = it.limit) ∧
    ((it.hasMore B s mp m).1 = false →
      ∀ j, it.index ≤ j → j < it.limit → mp.bit B s m j = false) := by
  have hsp := Iterator.scan_spec B hW s mp m (wordOf B it.limit) (bitOf B it.limit)
    (Nat.mod_lt _ hW) (wordOf B it.limit + 1 - wordOf B it.index) (wordOf B it.index)
    (bitOf B it.index) (Nat.mod_lt _ hW) (by omega)
  rw [indexOf_word_bit, indexOf_word_bit] at hsp
  unfold Iterator.hasMore
  cases h : Iterator.scan B s mp m (wordOf B it.limit) (bitOf B it.limit)
      (wordOf B it.limit + 1 - wordOf B it.index) (wordOf B it.index) (bitOf B it.index) with
  | some k =>
    simp only []
    obtain ⟨q1, q2, q3, q4⟩ := hsp.1 k h
    exact ⟨fun _ => ⟨q1, q2, q3, q4, trivial⟩, fun e => absurd e (by simp)⟩
  | none =>
    simp only []
    exact ⟨fun e => absurd e (by simp), fun _ => hsp.2 h⟩

/-- The values `next` returns from an iterator on, for a map with positive
scale whose record indices fit the type `unsigned`. -/
theorem Iterator.run_spec (B : Nat) (hW : 0 < BitsPerWord B) (s : Segment) (mp : Map) (m : Mem)
    (hsc : 1 ≤ mp.scale) :
    ∀ (d : Nat) (it : Iterator), it.limit - it.index ≤ d →
      (∀ k, k < it.limit → k * mp.scale + 1 < 2 ^ 32) →
      ∃ l, (∀ fuel, d < fuel → Iterator.run B s mp m fuel it = some l) ∧ l.Sorted (· < ·) ∧
        ∀ x, x ∈ l ↔ ∃ k, it.index ≤ k ∧ k < it.limit ∧ mp.bit B s m k = true ∧
          x = k * mp.scale := by
  intro d
  induction d with
  | zero =>
    intro it h1 _
    have hf : (it.hasMore B s mp m).1 = false := by
      cases h : (it.hasMore B s mp m).1
      · rfl
      · have := (Iterator.hasMore_spec B hW s mp m it).1 h
        omega
    refine ⟨[], ?_, List.sorted_nil, fun x => ⟨fun h => absurd h (List.not_mem_nil _), ?_⟩⟩
    · intro fuel h2
      obtain ⟨n, rfl⟩ : ∃ n, fuel = n + 1 := ⟨fuel - 1, by omega⟩
      unfold Iterator.run
      rw [hf]; rfl
    · rintro ⟨k, k1, k2, -, -⟩
      omega
  | succ d ih =>
    intro it h1 hb
    cases h : (it.hasMore B s mp m).1 with
    | false =>
      have hn := (Iterator.hasMore_spec B hW s mp m it).2 h
      refine ⟨[], ?_, List.sorted_nil, fun x => ⟨fun h => absurd h (List.not_mem_nil _), ?_⟩⟩
      · intro fuel h2
        obtain ⟨n, rfl⟩ : ∃ n, fuel = n + 1 := ⟨fuel - 1, by omega⟩
        unfold Iterator.run
        rw [h]; rfl
      · rintro ⟨k, k1, k2, k3, -⟩
        rw [hn k k1 k2] at k3
        exact absurd k3 (by decide)
    | true =>
      obtain ⟨q1, q2, q3, q4, q5⟩ := (Iterator.hasMore_spec B hW s mp m it).1 h
      -- `next` calls `hasMore` again, which stays at the bit found
      have hagain : ((it.hasMore B s mp m).2.hasMore B s mp m).1 = true ∧
          ((it.hasMore B s mp m).2.hasMore B s mp m).2.index = (it.hasMore B s mp m).2.index ∧
          ((it.hasMore B s mp m).2.hasMore B s mp m).2.limit = it.limit := by
        have hsp := Iterator.hasMore_spec B hW s mp m (it.hasMore B s mp m).2
        cases h2 : ((it.hasMore B s mp m).2.hasMore B s mp m).1 with
        | false =>
          have := hsp.2 h2 _ (Nat.le_refl _) (by rw [q5]; exact q2)
          rw [q3] at this
          exact absurd this (by decide)
        | true =>
          obtain ⟨r1, r2, r3, r4, r5⟩ := hsp.1 h2
          refine ⟨rfl, ?_, by rw [r5, q5]⟩
          by_contra hne
          have := r4 _ (Nat.le_refl _) (by omega)
          rw [q3] at this
          exact absurd this (by decide)
      obtain ⟨a1, a2, a3⟩ := hagain
      have hk := hb _ q2
      have hk1 : (it.hasMore B s mp m).2.index + 1 < 2 ^ 32 := by
        have : (it.hasMore B s mp m).2.index * 1 ≤ (it.hasMore B s mp m).2.index * mp.scale :=
          Nat.mul_le_mul_left _ hsc
        omega
      have hnext : (it.hasMore B s mp m).2.next B s mp m =
          some ((it.hasMore B s mp m).2.index * mp.scale,
            { index := (it.hasMore B s mp m).2.index + 1, limit := it.limit }) := by
        unfold Iterator.next
        simp only [a1, if_true, a2]
        unfold u32
        rw [Nat.mod_eq_of_lt (by omega), Nat.mod_eq_of_lt hk1]
        congr 2
        cases hh : (it.hasMore B s mp m).2.hasMore B s mp m with
        | mk b it2 =>
          rw [hh] at a2 a3
          cases it2 with
          | mk i2 l2 =>
            simp only at a2 a3
            simp only [a3]
      obtain ⟨l, e, hsrt, hmem⟩ := ih
        { index := (it.hasMore B s mp m).2.index + 1, limit := it.limit }
        (by simp only; omega) hb
      simp only at hmem
      refine ⟨(it.hasMore B s mp m).2.index * mp.scale :: l, ?_, ?_, ?_⟩
      · intro fuel h2
        obtain ⟨n, rfl⟩ : ∃ n, fuel = n + 1 := ⟨fuel - 1, by omega⟩
        unfold Iterator.run
        rw [h, if_pos rfl, hnext]
        simp only []
        rw [e n (by omega)]; rfl
      · apply List.sorted_cons.2
        refine ⟨fun x hx => ?_, hsrt⟩
        obtain ⟨k, k1, -, -, rfl⟩ := (hmem x).1 hx
        exact Nat.mul_lt_mul_of_pos_right (by omega) (by omega)
      · intro x
        rw [List.mem_cons, hmem x]
        constructor
        · rintro (rfl | ⟨k, k1, k2, k3, rfl⟩)
          · exact ⟨_, q1, q2, q3, rfl⟩
          · exact ⟨k, by omega, k2, k3, rfl⟩
        · rintro ⟨k, k1, k2, k3, rfl⟩
          by_cases hkk : k = (it.hasMore B s mp m).2.index
          · left; rw [hkk]
          · right
            refine ⟨k, ?_, k2, k3, rfl⟩
            by_contra hlt
            have := q4 k k1 (by omega)
            rw [k3] at this
            exact absurd this (by decide)

end Heap

namespace Heap

open CollectionType

/-- Counterexample to C20 as stated: scale 4, start 2, end 6 in a segment of
eight words whose records 0 and 1 are set.  The slice of record 1, the words 4
to 7, overlaps the words 2 to 5, but the iterator returns the record 0 only:
the limit is computed from `(end - start) % scale`. -/
theorem iterator_unaligned_start :
    ∃ it, Iterator.new iterSegment iterMap 2 6 = some it ∧
      Iterator.run 4 iterSegment iterMap iterMem 9 it = some [0] ∧
      iterMap.bit 4 iterSegment iterMem 1 = true ∧
      1 * iterMap.scale < min 6 iterSegment.position ∧ 2 < (1 + 1) * iterMap.scale :=
  ⟨⟨0, 1⟩, by decide, by decide, by decide, by decide, by decide⟩

/-- C20 (amended): for a map with `bitsPerRecord = 1`, a start that is a
multiple of the scale with `start <= position`, and `end >= start`, the loop
that calls `hasMore` and then `next` on `Iterator(map, start, end)` until
`hasMore` answers false ends, and the values returned are strictly ascending
and are exactly the segment word indices `i * scale` of the records `i` whose
bit is set and whose slice `[i * scale, (i + 1) * scale)` overlaps
`[start, min(end, position))`.  The result depends on the bits only, so the skip
of zero backing words does not change it. -/
theorem iterator_yields_set_records (B : Nat) (hB : B = 4 ∨ B = 8) (s : Segment) (mp : Map)
    (m : Mem) (start e : Nat) (hb : mp.bitsPerRecord = 1) (hsc : 1 ≤ mp.scale)
    (hpos : s.position < 2 ^ 32) (hst : start ≤ s.position) (hal : start % mp.scale = 0)
    (hend : start ≤ e) :
    ∃ it l, Iterator.new s mp start e = some it ∧
      (∀ fuel, s.position < fuel → Iterator.run B s mp m fuel it = some l) ∧
      l.Sorted (· < ·) ∧
      ∀ x, x ∈ l ↔ ∃ i, x = i * mp.scale ∧ mp.bit B s m i = true ∧
        i * mp.scale < min e s.position ∧ start < (i + 1) * mp.scale := by
  have hW : 0 < BitsPerWord B := by
    unfold BitsPerWord; rcases hB with h | h <;> omega
  obtain ⟨t, ht⟩ : ∃ t, start = mp.scale * t := ⟨start / mp.scale, by
    have := Nat.div_add_mod start mp.scale
    omega⟩
  -- the end after clamping
  obtain ⟨e1, he1, hmin⟩ : ∃ e1, e1 = (if e > s.position then s.position else e) ∧
      e1 = min e s.position := by
    refine ⟨_, rfl, ?_⟩
    split <;> omega
  have hse : start ≤ e1 := by rw [hmin]; omega
  have hlt : e1 < 2 ^ 32 := by rw [hmin]; omega
  have hle : e1 ≤ s.position := by rw [hmin]; omega
  have hmod : usub e1 start % mp.scale = e1 % mp.scale := by
    rw [usub_small _ _ hse hlt, ht]
    exact Nat.sub_mul_mod (by rw [← ht]; exact hse)
  have hstart : mp.indexOfIndex start = t := by
    unfold Map.indexOfIndex
    rw [hb, Nat.mul_one, ht, Nat.mul_div_cancel_left _ (by omega)]
  have hlim : mp.indexOfIndex e1 = e1 / mp.scale := by
    unfold Map.indexOfIndex
    rw [hb, Nat.mul_one]
  -- the records below the limit
  have hrange : ∀ k, k < (if e1 % mp.scale ≠ 0 then u32 (e1 / mp.scale + 1) else e1 / mp.scale) ↔
      k * mp.scale < e1 := by
    intro k
    have hdm := Nat.div_add_mod e1 mp.scale
    have hml := Nat.mod_lt e1 (show 0 < mp.scale by omega)
    by_cases hz : e1 % mp.scale ≠ 0
    · rw [if_pos hz]
      have hdiv : e1 / mp.scale ≤ e1 := Nat.div_le_self _ _
      have h2 : 2 ≤ mp.scale := by
        by_contra h3
        have : mp.scale = 1 := by omega
        rw [this, Nat.mod_one] at hz
        exact hz rfl
      have hhalf : e1 / mp.scale * 2 ≤ e1 := by
        have : e1 / mp.scale * 2 ≤ e1 / mp.scale * mp.scale := Nat.mul_le_mul_left _ h2
        have := Nat.div_mul_le_self e1 mp.scale
        omega
      unfold u32
      rw [Nat.mod_eq_of_lt (by omega)]
      constructor
      · intro h
        have : k * mp.scale ≤ e1 / mp.scale * mp.scale := Nat.mul_le_mul_right _ (by omega)
        rw [Nat.mul_comm (e1 / mp.scale)] at this
        omega
      · intro h
        have : k ≤ e1 / mp.scale := (Nat.le_div_iff_mul_le (by omega)).2 (by omega)
        omega
    · rw [if_neg hz]
      have hz2 : e1 % mp.scale = 0 := by
        by_contra h3; exact hz h3
      constructor
      · intro h
        have : (k + 1) * mp.scale ≤ e1 / mp.scale * mp.scale := Nat.mul_le_mul_right _ (by omega)
        rw [Nat.mul_comm (e1 / mp.scale), Nat.add_mul] at this
        omega
      · intro h
        exact (Nat.lt_div_iff_mul_lt (Nat.dvd_of_mod_eq_zero hz2) _).2
          (by rw [Nat.mul_comm]; exact h)
  have hnew : Iterator.new s mp start e = some
      { index := t
        limit := if e1 % mp.scale ≠ 0 then u32 (e1 / mp.scale + 1) else e1 / mp.scale } := by
    unfold Iterator.new
    rw [if_pos ⟨hb, hst⟩]
    simp only []
    rw [← he1, hmod, hstart, hlim]
  have hbound : ∀ k, k < (if e1 % mp.scale ≠ 0 then u32 (e1 / mp.scale + 1) else e1 / mp.scale) →
      k * mp.scale + 1 < 2 ^ 32 := by
    intro k hk
    have := (hrange k).1 hk
    omega
  have hlimle : (if e1 % mp.scale ≠ 0 then u32 (e1 / mp.scale + 1) else e1 / mp.scale)
      ≤ s.position := by
    by_contra h
    have h1 := (hrange s.position).1 (by omega)
    have : s.position * 1 ≤ s.position * mp.scale := Nat.mul_le_mul_left _ hsc
    omega
  obtain ⟨l, hrun, hsrt, hmem⟩ := Iterator.run_spec B hW s mp m hsc s.position
    { index := t
      limit := if e1 % mp.scale ≠ 0 then u32 (e1 / mp.scale + 1) else e1 / mp.scale }
    (by simp only; omega) hbound
  refine ⟨_, l, hnew, hrun, hsrt, ?_⟩
  · intro x
    rw [hmem x]
    simp only []
    constructor
    · rintro ⟨k, k1, k2, k3, rfl⟩
      refine ⟨k, rfl, k3, by rw [← hmin]; exact (hrange k).1 k2, ?_⟩
      rw [ht, Nat.mul_comm]
      exact Nat.mul_lt_mul_of_pos_right (by omega) (by omega)
    · rintro ⟨k, rfl, k3, k2, k1⟩
      refine ⟨k, ?_, (hrange k).2 (by rw [hmin]; exact k2), k3, rfl⟩
      rw [ht, Nat.mul_comm] at k1
      have := Nat.lt_of_mul_lt_mul_right k1
      omega

/-- Witness of C20 (amended): scale 4, start 0, end 6 in a segment of eight
words whose records 0 and 1 are set: the iterator returns 0 and 4. -/
theorem iterator_yields_set_records_witness :
    Iterator.run 4 iterSegment iterMap iterMem 9 ⟨0, 2⟩ = some [0, 4] ∧
    ∃ it l, Iterator.new iterSegment iterMap 0 6 = some it ∧
      (∀ fuel, iterSegment.position < fuel →
        Iterator.run 4 iterSegment iterMap iterMem fuel it = some l) ∧
      l.Sorted (· < ·) ∧
      ∀ x, x ∈ l ↔ ∃ i, x = i * iterMap.scale ∧ iterMap.bit 4 iterSegment iterMem i = true ∧
        i * iterMap.scale < min 6 iterSegment.position ∧ 0 < (i + 1) * iterMap.scale :=
  ⟨by decide,
    iterator_yields_set_records 4 (Or.inl rfl) iterSegment iterMap iterMem 0 6 (by decide)
      (by decide) (by decide) (by decide) (by decide) (by decide)⟩

end Heap

namespace Heap

open CollectionType

section CardSteps

variable {nodes : List Map} {lf : Map} {bt bt1 : Map → Nat → Bool} {A : List Map}
  {s w P0 P : Nat}

/-- Moving the scan forward and a growing segment keep the state of the cards. -/
theorem CardInv.advance (h : CardInv nodes lf bt A s w P0 P) {w1 P1 : Nat} (hw : w ≤ w1)
    (hP : P ≤ P1) : CardInv nodes lf bt A s w1 P0 P1 := by
  refine ⟨h.cov, ?_, fun k hk => Nat.lt_of_lt_of_le (h.below k hk) hP⟩
  intro a ha i hi
  obtain ⟨k, k1, k2, k3⟩ := h.wc a ha i hi
  refine ⟨k, k1, k2, fun h1 h2 => ?_⟩
  rcases k3 h1 h2 with h3 | h3
  · exact Or.inl (by omega)
  · exact Or.inr h3

/-- The card marks of a traversal keep the state of the cards: the marks set the
bit of a slot at every level, and the slots marked are the slot the traversal
was called for or slots allocated since the scan started. -/
theorem CardInv.marks (h : CardInv nodes lf bt A s w P0 P)
    (Mk : Nat → Prop) {w1 P1 : Nat} (hw : w ≤ w1) (hP : P ≤ P1)
    (hn : ∀ a ∈ nodes, ∀ i, bt1 a i = true ↔ (bt a i = true ∨ ∃ k, Mk k ∧ i = k / a.scale))
    (hl : ∀ k, bt1 lf k = true ↔ (bt lf k = true ∨ Mk k))
    (hm : ∀ k, Mk k → k < P1 ∧ (k < w1 ∨ P0 ≤ k)) :
    CardInv nodes lf bt1 A s w1 P0 P1 := by
  refine ⟨?_, ?_, ?_⟩
  · intro a ha k hk hno
    rcases (hl k).1 hk with h1 | h1
    · exact (hn a ha _).2 (Or.inl (h.cov a ha k h1 hno))
    · exact (hn a ha _).2 (Or.inr ⟨k, h1, rfl⟩)
  · intro a ha i hi
    rcases (hn a ha i).1 hi with h1 | ⟨k, h1, h2⟩
    · obtain ⟨k, k1, k2, k3⟩ := h.wc a ha i h1
      refine ⟨k, (hl k).2 (Or.inl k1), k2, fun q1 q2 => ?_⟩
      rcases k3 q1 q2 with h3 | h3
      · exact Or.inl (by omega)
      · exact Or.inr h3
    · exact ⟨k, (hl k).2 (Or.inr h1), h2.symm, fun _ _ => (hm k h1).2⟩
  · intro k hk
    rcases (hl k).1 hk with h1 | h1
    · exact Nat.lt_of_lt_of_le (h.below k h1) hP
    · exact (hm k h1).1

/-- One step of the scan of the leaf level, on the word `k0`: its bit is cleared,
a traversal may mark slots, and the bit may be set again. -/
theorem CardInv.leaf_step (h : CardInv nodes lf bt A s w P0 P) (Mk : Nat → Prop) {k0 P1 : Nat}
    (hA : ∀ a ∈ nodes, a ∈ A ∧ k0 / a.scale = s / a.scale) (hw : w ≤ k0) (hP : P ≤ P1)
    (hn : ∀ a ∈ nodes, ∀ i, bt1 a i = true ↔ (bt a i = true ∨ ∃ k, Mk k ∧ i = k / a.scale))
    (hl : ∀ k, k ≠ k0 → (bt1 lf k = true ↔ (bt lf k = true ∨ Mk k)))
    (hk0 : bt1 lf k0 = true → k0 < P1)
    (hm : ∀ k, Mk k → k < P1 ∧ (k = k0 ∨ P0 ≤ k))
    (hmk : Mk k0 → bt1 lf k0 = true)
    (hnew : P0 ≤ k0 → bt lf k0 = true → bt1 lf k0 = true) :
    CardInv nodes lf bt1 A s (k0 + 1) P0 P1 := by
  refine ⟨?_, ?_, ?_⟩
  · intro a ha k hk hno
    by_cases e : k = k0
    · subst e; exact absurd (hA a ha) hno
    · rcases (hl k e).1 hk with h1 | h1
      · exact (hn a ha _).2 (Or.inl (h.cov a ha k h1 hno))
      · exact (hn a ha _).2 (Or.inr ⟨k, h1, rfl⟩)
  · intro a ha i hi
    obtain ⟨hAa, hAk⟩ := hA a ha
    rcases (hn a ha i).1 hi with h1 | ⟨k, h1, h2⟩
    · obtain ⟨k, k1, k2, k3⟩ := h.wc a ha i h1
      by_cases e : k = k0
      · subst e
        have hi2 : i = s / a.scale := by rw [← k2, hAk]
        rcases k3 hAa hi2 with h3 | h3
        · omega
        · exact ⟨k, hnew h3 k1, k2, fun _ _ => Or.inr h3⟩
      · refine ⟨k, (hl k e).2 (Or.inl k1), k2, fun q1 q2 => ?_⟩
        rcases k3 q1 q2 with h3 | h3
        · exact Or.inl (by omega)
        · exact Or.inr h3
    · by_cases e : k = k0
      · subst e
        exact ⟨k, hmk h1, h2.symm, fun _ _ => Or.inl (by omega)⟩
      · refine ⟨k, (hl k e).2 (Or.inr h1), h2.symm, fun _ _ => ?_⟩
        rcases (hm k h1).2 with h3 | h3
        · exact absurd h3 e
        · exact Or.inr h3
  · intro k hk
    by_cases e : k = k0
    · subst e; exact hk0 hk
    · rcases (hl k e).1 hk with h1 | h1
      · exact Nat.lt_of_lt_of_le (h.below k h1) hP
      · exact (hm k h1).1

/-- The scan of a level with a child starts a record: its bit is cleared and the
scan of the child takes over. -/
theorem CardInv.open_record (h : CardInv nodes lf bt A s w P0 P) {l : Map} {i0 : Nat}
    (hlA : l ∉ A) (hw : w ≤ i0 * l.scale) (hsc : 0 < l.scale)
    (hreg : ∀ a ∈ A, (i0 * l.scale) / a.scale = s / a.scale)
    (hlf : ∀ k, bt1 lf k = bt lf k)
    (hn : ∀ a ∈ nodes, ∀ i, bt1 a i = if a = l ∧ i = i0 then false else bt a i) :
    CardInv nodes lf bt1 (A ++ [l]) (i0 * l.scale) (i0 * l.scale) P0 P := by
  have hdiv : i0 * l.scale / l.scale = i0 := Nat.mul_div_cancel _ hsc
  refine ⟨?_, ?_, ?_⟩
  · intro a ha k hk hno
    rw [hlf] at hk
    rw [hn a ha]
    by_cases e : a = l
    · subst e
      have hne : k / a.scale ≠ i0 := by
        intro e2
        exact hno ⟨List.mem_append_right _ (List.mem_singleton_self _), by rw [e2, hdiv]⟩
      rw [if_neg (fun h2 => hne h2.2)]
      exact h.cov a ha k hk (fun h2 => hlA h2.1)
    · rw [if_neg (fun h2 => e h2.1)]
      apply h.cov a ha k hk
      rintro ⟨h1, h2⟩
      exact hno ⟨List.mem_append_left _ h1, by rw [h2, hreg a h1]⟩
  · intro a ha i hi
    rw [hn a ha] at hi
    by_cases e : a = l ∧ i = i0
    · rw [if_pos e] at hi; exact absurd hi (by decide)
    · rw [if_neg e] at hi
      obtain ⟨k, k1, k2, k3⟩ := h.wc a ha i hi
      refine ⟨k, by rw [hlf]; exact k1, k2, fun q1 q2 => ?_⟩
      rcases List.mem_append.1 q1 with q3 | q3
      · rcases k3 q3 (by rw [q2, hreg a q3]) with h3 | h3
        · exact Or.inl (by omega)
        · exact Or.inr h3
      · rw [List.mem_singleton] at q3
        exact absurd ⟨q3, by rw [q2, q3, hdiv]⟩ e
  · intro k hk
    rw [hlf] at hk
    exact h.below k hk

/-- The scan of a level with a child ends a record: its bit is set again if the
scan of the child reported dirty. -/
theorem CardInv.close_record {l : Map} {i0 e : Nat} {d : Bool}
    (h : CardInv nodes lf bt (A ++ [l]) (i0 * l.scale) e P0 P)
    (hlA : l ∉ A) (hsc : 0 < l.scale) (he : e = (i0 + 1) * l.scale)
    (hreg : ∀ a ∈ A, (i0 * l.scale) / a.scale = s / a.scale)
    (hlf : ∀ k, bt1 lf k = bt lf k)
    (hn : ∀ a ∈ nodes, ∀ i, bt1 a i = if a = l ∧ i = i0 then (bt a i || d) else bt a i)
    (hd1 : d = true → ∃ k, i0 * l.scale ≤ k ∧ k < e ∧ bt lf k = true)
    (hd2 : ∀ k, i0 * l.scale ≤ k → k < e → bt lf k = true → d = true ∨ bt l i0 = true) :
    CardInv nodes lf bt1 A s e P0 P := by
  have hdiv : i0 * l.scale / l.scale = i0 := Nat.mul_div_cancel _ hsc
  have hin : ∀ k, k / l.scale = i0 ↔ (i0 * l.scale ≤ k ∧ k < e) := by
    intro k
    rw [he]
    constructor
    · intro e1
      have h1 := Nat.div_mul_le_self k l.scale
      have h2 := Nat.lt_mul_div_succ k hsc
      rw [e1] at h1 h2
      rw [Nat.mul_comm] at h2
      exact ⟨h1, h2⟩
    · rintro ⟨h1, h2⟩
      have h3 : i0 ≤ k / l.scale := (Nat.le_div_iff_mul_le hsc).2 h1
      have h4 : k / l.scale < i0 + 1 := (Nat.div_lt_iff_lt_mul hsc).2 h2
      omega
  refine ⟨?_, ?_, ?_⟩
  · intro a ha k hk hno
    rw [hlf] at hk
    rw [hn a ha]
    by_cases e1 : a = l
    · subst e1
      by_cases e2 : k / a.scale = i0
      · rw [if_pos ⟨rfl, e2⟩]
        obtain ⟨q1, q2⟩ := (hin k).1 e2
        rcases hd2 k q1 q2 hk with h3 | h3
        · rw [h3]; simp
        · rw [e2, h3]; simp
      · rw [if_neg (fun h2 => e2 h2.2)]
        apply h.cov a ha k hk
        rintro ⟨-, h2⟩
        rw [hdiv] at h2
        exact e2 h2
    · rw [if_neg (fun h2 => e1 h2.1)]
      apply h.cov a ha k hk
      rintro ⟨h1, h2⟩
      rcases List.mem_append.1 h1 with q3 | q3
      · exact hno ⟨q3, by rw [h2, hreg a q3]⟩
      · rw [List.mem_singleton] at q3
        exact e1 q3
  · intro a ha i hi
    rw [hn a ha] at hi
    by_cases e1 : a = l ∧ i = i0
    · obtain ⟨rfl, rfl⟩ := e1
      rw [if_pos ⟨rfl, rfl⟩] at hi
      by_cases hb : bt a i = true
      · obtain ⟨k, k1, k2, -⟩ := h.wc a ha i hb
        exact ⟨k, by rw [hlf]; exact k1, k2, fun q1 => absurd q1 hlA⟩
      · have hdt : d = true := by
          cases hbb : bt a i
          · rw [hbb] at hi; simpa using hi
          · exact absurd hbb hb
        obtain ⟨k, k1, k2, k3⟩ := hd1 hdt
        exact ⟨k, by rw [hlf]; exact k3, (hin k).2 ⟨k1, k2⟩, fun q1 => absurd q1 hlA⟩
    · rw [if_neg e1] at hi
      obtain ⟨k, k1, k2, k3⟩ := h.wc a ha i hi
      refine ⟨k, by rw [hlf]; exact k1, k2, fun q1 q2 => ?_⟩
      exact k3 (List.mem_append_left _ q1) (by rw [q2, hreg a q1])
  · intro k hk
    rw [hlf] at hk
    exact h.below k hk

end CardSteps

end Heap

namespace Heap

open CollectionType

/-! ## The levels of a hierarchy -/

theorem Map.mem_levels_self (mp : Map) : mp ∈ mp.levels := by
  cases mp <;> simp [Map.levels]

theorem Map.nodeLevels_sub (mp : Map) : ∀ a ∈ mp.nodeLevels, a ∈ mp.levels := by
  induction mp with
  | leaf b s c => intro a ha; simp [Map.nodeLevels] at ha
  | node b s c ch ih =>
    intro a ha
    simp only [Map.nodeLevels, List.mem_cons] at ha
    simp only [Map.levels, List.mem_cons]
    rcases ha with h | h
    · exact Or.inl h
    · exact Or.inr (ih a h)

theorem Map.leafLevel_mem (mp : Map) : mp.leafLevel ∈ mp.levels := by
  induction mp with
  | leaf b s c => simp [Map.levels, Map.leafLevel]
  | node b s c ch ih =>
    simp only [Map.levels, Map.leafLevel, List.mem_cons]
    exact Or.inr ih

theorem Map.leafLevel_not_node (mp : Map) : ∀ a ∈ mp.nodeLevels, a ≠ mp.leafLevel := by
  have h1 : ∀ mp : Map, ∃ b s c, mp.leafLevel = Map.leaf b s c := by
    intro mp
    induction mp with
    | leaf b s c => exact ⟨b, s, c, rfl⟩
    | node b s c ch ih => exact ih
  have h2 : ∀ mp : Map, ∀ a ∈ mp.nodeLevels, ∃ b s c ch, a = Map.node b s c ch := by
    intro mp
    induction mp with
    | leaf b s c => intro a ha; simp [Map.nodeLevels] at ha
    | node b s c ch ih =>
      intro a ha
      simp only [Map.nodeLevels, List.mem_cons] at ha
      rcases ha with h | h
      · exact ⟨b, s, c, ch, h⟩
      · exact ih a h
  intro a ha e
  obtain ⟨b, s, c, h3⟩ := h1 mp
  obtain ⟨b1, s1, c1, ch1, h4⟩ := h2 mp a ha
  rw [e, h3] at h4
  cases h4

theorem Map.levels_cases (mp : Map) : ∀ l ∈ mp.levels, l ∈ mp.nodeLevels ∨ l = mp.leafLevel := by
  induction mp with
  | leaf b s c =>
    intro l hl
    simp only [Map.levels, List.mem_singleton] at hl
    exact Or.inr hl
  | node b s c ch ih =>
    intro l hl
    simp only [Map.levels, List.mem_cons] at hl
    simp only [Map.nodeLevels, List.mem_cons, Map.leafLevel]
    rcases hl with h | h
    · exact Or.inl (Or.inl h)
    · rcases ih l h with h1 | h1
      · exact Or.inl (Or.inr h1)
      · exact Or.inr h1

theorem Map.AllLevels_mem (Q : Map → Prop) (mp : Map) (h : mp.AllLevels Q) :
    ∀ l ∈ mp.levels, Q l := by
  induction mp with
  | leaf b s c =>
    intro l hl
    simp only [Map.levels, List.mem_singleton] at hl
    rw [hl]; exact h
  | node b s c ch ih =>
    intro l hl
    simp only [Map.levels, List.mem_cons] at hl
    rcases hl with e | e
    · rw [e]; exact h.1
    · exact ih h.2 l e

theorem Map.AllLevels_of_mem (Q : Map → Prop) (mp : Map) (h : ∀ l ∈ mp.levels, Q l) :
    mp.AllLevels Q := by
  induction mp with
  | leaf b s c => exact h _ (by simp [Map.levels])
  | node b s c ch ih =>
    exact ⟨h _ (by simp [Map.levels]),
      ih (fun l hl => h l (by simp only [Map.levels, List.mem_cons]; exact Or.inr hl))⟩

/-- The backing words of a level lie in the backing words of the hierarchy. -/
theorem Map.level_inFootprint (B : Nat) (s : Segment) (hcap : 1 ≤ s.capacity) (mp : Map) :
    ∀ l ∈ mp.levels, ∀ a, l.inArea B s a → mp.inFootprint B s a :=
  Map.AllLevels_mem _ mp (Map.levels_inFootprint B s hcap mp)

/-- Two levels of a hierarchy have no backing word in common. -/
theorem Map.levels_apart (B : Nat) (s : Segment) (hcap : 1 ≤ s.capacity) (mp : Map) :
    ∀ l ∈ mp.levels, ∀ a ∈ mp.levels, l ≠ a → ∀ x, l.inArea B s x → ¬ a.inArea B s x := by
  induction mp with
  | leaf b sc c =>
    intro l hl a ha hne
    simp only [Map.levels, List.mem_singleton] at hl ha
    exact absurd (hl.trans ha.symm) hne
  | node b sc c ch ih =>
    intro l hl a ha hne x hx hax
    simp only [Map.levels, List.mem_cons] at hl ha
    rcases hl with e1 | e1 <;> rcases ha with e2 | e2
    · exact hne (e1.trans e2.symm)
    · rw [e1] at hx
      exact Map.inArea_not_child B s b sc c ch x hx
        (Map.level_inFootprint B s hcap ch a e2 x hax)
    · rw [e2] at hax
      exact Map.inArea_not_child B s b sc c ch x hax
        (Map.level_inFootprint B s hcap ch l e1 x hx)
    · exact ih l e1 a e2 hne x hx hax

/-! ## Card bits -/

/-- The word of the bit of a record that covers words of the segment lies in
the backing words of the level. -/
theorem record_in_words (B : Nat) (hB : 0 < B) (s : Segment) (l : Map) (i : Nat)
    (hsc : 1 ≤ l.scale) (hb : l.bitsPerRecord = 1) (h : i * l.scale < s.capacity) :
    wordOf B i < l.sizeNow B s ∧ wordOf B i < l.size B s.capacity := by
  have h1 := Map.index_in_range B hB s l (i * l.scale) h hsc hb
  rw [Nat.mul_div_cancel _ (by omega)] at h1
  refine ⟨h1, ?_⟩
  unfold Map.sizeNow at h1
  rw [Nat.max_eq_left (by omega)] at h1
  exact h1

/-- The card bits of a level depend on its backing words only. -/
theorem cardBit_congr (B : Nat) (hB : 0 < B) (s : Segment) (l : Map) (m m1 : Mem)
    (hsc : 1 ≤ l.scale) (hb : l.bitsPerRecord = 1)
    (h : ∀ a, l.inArea B s a → m1 a = m a) (i : Nat) : cardBit B s m1 l i = cardBit B s m l i := by
  unfold cardBit
  by_cases hi : i * l.scale < s.capacity
  · rw [Map.bit_congr B hB s l m m1 h i (record_in_words B hB s l i hsc hb hi).1]
  · simp [hi]

theorem cardBit_seg (B : Nat) (s s1 : Segment) (m : Mem) (l : Map) (i : Nat)
    (hd : s1.data = s.data) (hk : s1.capacity = s.capacity) :
    cardBit B s1 m l i = cardBit B s m l i := by
  unfold cardBit
  rw [Map.bit_seg B s s1 l m i hd hk, hk]

theorem cardBit_true (B : Nat) (s : Segment) (m : Mem) (l : Map) (i : Nat) :
    cardBit B s m l i = true ↔ (i * l.scale < s.capacity ∧ l.bit B s m i = true) := by
  unfold cardBit
  simp

end Heap

namespace Heap

open CollectionType

section ScanHeap

variable {B : Nat} {c0 c : Context} {G : Graph} {cp : List Nat}

/-- Writes into the card maps keep the state of the objects copied. -/
theorem Trav.cards_write (hs : Start B c0 G) {wk : List Nat} {pend : Nat → List Nat}
    {todo : List Nat} (hT : Trav B c0 G c cp wk pend todo) (m1 : Mem)
    (hm : ∀ a, ¬ c0.inCards B a → m1 a = c.mem a) :
    Trav B c0 G { c with mem := m1 } cp wk pend todo ∧ ∀ y ∈ cp, m1 y = c.mem y := by
  have hi := hT.inv
  have hobjs : ∀ y ∈ cp, y ∈ G.objs := fun y hy => (hi.cp_sub y hy).1
  have hprot : ∀ a, Protected B c0 G cp a → m1 a = c.mem a := by
    intro a ha
    apply hm a
    intro h; exact hs.cards_not_protected hobjs a h ha
  have hfw : ∀ y ∈ cp, m1 y = c.mem y := fun y hy => hprot y (Or.inr (Or.inl hy))
  refine ⟨⟨hi.inv_frame hs m1 hprot, ?_, hT.wk_nodup, hT.todo_nodup, hT.todo_cp, hT.cover⟩, hfw⟩
  have hall : ∀ y ∈ cp, ∀ j, j < (G.lay y).size →
      m1 (c.mem y + j * B) = c.mem (c.mem y + j * B) := by
    intro y hy j hj
    have hts := hi.word_toSpace hs y hy j hj
    apply hm
    intro h; exact (hs.toSpace_not_maps _ hts).1 (Or.inr h)
  exact Slots.slots_frame hT.slots hfw
    (fun y hy j hj => hall y hy j ((hs.obj_ok y (hobjs y hy)).2.2.2.2.2 j hj))
    (fun y hy j hj _ => hall y hy j hj)

/-- In a Minor collection an object that moves is copied into gen2 or into
nextGen1. -/
theorem dest_minor (hmin : c0.mode = MinorCollection) (x : Nat) (hx : movable B c0 x) :
    dest B c0 G x = Gen.gen2 ∨ dest B c0 G x = Gen.nextGen1 := by
  have h2 : ¬ c0.gen2.contains B x = true := by
    rcases hx with h | h
    · rw [hmin] at h; exact absurd h (by decide)
    · rw [h]; decide
  unfold dest
  rw [if_neg h2]
  by_cases h1 : c0.gen1.contains B x = true
  · rw [if_pos h1]
    by_cases h3 : c0.ageMap.get B c0.gen1 G.m0 x = some TenureThreshold
    · rw [if_pos h3, if_pos hmin]; exact Or.inl rfl
    · rw [if_neg h3]; exact Or.inr rfl
  · rw [if_neg h1]; exact Or.inr rfl

theorem oldGen_minor (hmin : c0.mode = MinorCollection) : c0.oldGen = Gen.gen2 := by
  unfold Context.oldGen; rw [if_pos hmin]

/-- The slot of a walked copy that refers to an object copied into nextGen1
holds an address of nextGen1. -/
theorem YoungSlot.young_in_next (hs : Start B c0 G) {wk : List Nat}
    (hT : Trav B c0 G c cp wk (fun _ => []) []) {k : Nat} (h : YoungSlot B c0 G c wk k) :
    c.nextGen1.contains B (c.mem (c0.gen2.data + k * B)) = true := by
  have hB := hs.B_pos
  have hi := hT.inv
  obtain ⟨y, hy, j, hj, e, h1, h2, h3⟩ := h
  rw [e]
  have hu := hT.slots.walked y hy j hj (by simp)
  obtain ⟨-, hu⟩ := hu
  have hch : mask B (G.m0 (y + j * B)) = child B G y j := rfl
  rw [hch] at hu
  rcases hu with hu | hu | hu
  · exact absurd hu.1 (hs.obj_ok _ h1).1
  · exact absurd hu.1 (movable_not_old _ h2)
  · have hsz := (hs.obj_ok _ h1).2.2.1
    have hl := mask_le B (c.mem (c.mem y + j * B))
    have hu2 := lt_mask_add B (c.mem (c.mem y + j * B)) hB
    have hmul : 1 * B ≤ (G.lay (child B G y j)).size * B := Nat.mul_le_mul_right B hsz
    have := hi.contains_copy hs _ hu.1 (c.mem (c.mem y + j * B)) (by rw [← hu.2]; exact hl)
      (by rw [← hu.2]; omega) Gen.nextGen1
    rw [decide_eq_true h3] at this
    exact this

theorem YoungSlot.grows {wk wk1 : List Nat} {c1 : Context} {k : Nat}
    (h : YoungSlot B c0 G c wk k) (hwk : ∀ y ∈ wk, y ∈ wk1) (hfw : ∀ y ∈ wk, c1.mem y = c.mem y) :
    YoungSlot B c0 G c1 wk1 k := by
  obtain ⟨y, hy, j, hj, e, h1⟩ := h
  exact ⟨y, hwk y hy, j, hj, by rw [hfw y hy]; exact e, h1⟩

/-- A word of gen2 below the position the scan started with is a slot a
traversal may be called for. -/
theorem old_slot_settable (hs : Start B c0 G) (hmin : c0.mode = MinorCollection) (k : Nat)
    (hk : k < c0.gen2.position) : Settable B c0 G (c0.gen2.data + k * B) := by
  have hB := hs.B_pos
  have hseg := hs.seg_ok Gen.gen2
  simp only [Context.seg] at hseg
  have hlt : k * B < c0.gen2.position * B := Nat.mul_lt_mul_of_pos_right hk hB
  have hcap : c0.gen2.position * B ≤ c0.gen2.capacity * B := Nat.mul_le_mul_right B hseg.2.1
  have hcon : c0.gen2.contains B (c0.gen2.data + k * B) = true := by
    rw [Segment.contains_iff]
    exact ⟨by omega, by omega, by omega⟩
  have hst : c0.inStorage B Gen.gen2 (c0.gen2.data + k * B) := by
    unfold Context.inStorage
    simp only [Context.seg, Nat.add_mul]
    omega
  have hnf : ∀ g1, ¬ (c0.mapOf g1).inFootprint B (c0.seg g1) (c0.gen2.data + k * B) :=
    fun g1 => hs.not_footprint Gen.gen2 g1 _ hst (by simp only [Context.seg]; omega)
  refine ⟨?_, hs.gen2_not_toSpace _ hcon, ?_, hnf Gen.gen1, ?_⟩
  · rw [Nat.add_mul_mod_self_right]; exact hseg.1
  · rintro (h | h | h)
    · exact hnf Gen.nextGen1 h
    · exact hnf Gen.gen2 h
    · exact hnf Gen.nextGen2 h
  · rintro y hy hm ⟨h1, h2⟩
    have hy2 : c0.gen2.contains B y = false := by
      rcases hm with h | h
      · rw [hmin] at h; exact absurd h (by decide)
      · exact h
    have hsz := (hs.obj_ok y hy).2.2.1
    have hmul : 1 * B ≤ (G.lay y).size * B := Nat.mul_le_mul_right B hsz
    rcases hs.obj_loc y hy with hl | hl | hl
    · unfold Context.holds at hl
      have hp1 := (hs.seg_ok Gen.gen1).2.1
      have := Nat.mul_le_mul_right B hp1
      refine hs.stor_disj Gen.gen1 Gen.gen2 (by decide) _ ?_ hst
      unfold Context.inStorage
      simp only [Nat.add_mul]
      omega
    · unfold Context.holds at hl
      simp only [Context.seg] at hl
      have : c0.gen2.contains B y = true := by
        rw [Segment.contains_iff]
        exact ⟨by omega, hl.1, by omega⟩
      rw [hy2] at this
      exact absurd this (by decide)
    · exact hl Gen.gen2 _ h1 h2 hst

/-- The slots a traversal of the scan marks: the slot it was called for, or a
slot of gen2 allocated since the scan started that refers to nextGen1. -/
theorem Marks.young (hs : Start B c0 G) (hmin : c0.mode = MinorCollection) {c1 : Context}
    {cp1 : List Nat} (hi1 : Inv B c0 G c1 cp1) {ms : Mem} {wks wk1 : List Nat} {p : Nat}
    {unv : Nat → List Nat} {mk1 : List Nat} (hwk : ∀ y ∈ wk1, y ∈ cp1)
    (hM : Marks B c0 G ms wks p c1 wk1 unv mk1) (q : Nat) (hq : q ∈ mk1) :
    c1.gen2.contains B q = true ∧
      (q = p ∨ ∃ k, q = c0.gen2.data + k * B ∧ c0.gen2.position ≤ k ∧
        YoungSlot B c0 G c1 wk1 k) := by
  have hB := hs.B_pos
  obtain ⟨s1, s2⟩ := hM.src q hq
  have hg : c1.oldGen = Gen.gen2 := by rw [hi1.oldGen_eq]; exact oldGen_minor hmin
  rw [hg] at s1
  have s1 : c1.gen2.contains B q = true := s1
  refine ⟨s1, ?_⟩
  rcases s2 with s2 | ⟨y, hy, -, j, hj, e, h1, h2, h3⟩
  · exact Or.inl s2
  · right
    have hyc := hwk y hy
    have hts := hi1.slot_toSpace hs y hyc j hj
    rw [← e] at hts
    have hst := hi1.contains_storage Gen.gen2 q s1
    have hd : c0.gen2.data % B = 0 := (hs.seg_ok Gen.gen2).1
    have hal : c1.mem y % B = 0 := (hi1.fwd y hyc).1.aligned hs hi1
    have hqal : q % B = 0 := by
      rw [e, Nat.add_mul_mod_self_right]; exact hal
    have hlow : c0.gen2.data + c0.gen2.position * B ≤ q := by
      rcases hts with h | h | h
      · exfalso
        refine hs.stor_disj Gen.gen2 Gen.nextGen1 (by decide) q hst ?_
        unfold Context.inStorage; simp only [Nat.add_mul, Context.seg]; omega
      · exfalso
        refine hs.stor_disj Gen.gen2 Gen.nextGen2 (by decide) q hst ?_
        unfold Context.inStorage; simp only [Nat.add_mul, Context.seg]; omega
      · exact h.1
    have hdq : c0.gen2.data ≤ q := by omega
    have hqk : q = c0.gen2.data + (q - c0.gen2.data) / B * B := by
      have h4 : (q - c0.gen2.data) % B = 0 := by
        have h5 := Nat.div_add_mod q B
        have h6 := Nat.div_add_mod c0.gen2.data B
        rw [hqal] at h5
        rw [hd] at h6
        have h7 : q - c0.gen2.data = B * (q / B - c0.gen2.data / B) := by
          rw [Nat.mul_sub]; omega
        rw [h7, Nat.mul_mod_right]
      have h8 := Nat.div_add_mod (q - c0.gen2.data) B
      rw [h4, Nat.mul_comm] at h8
      omega
    refine ⟨(q - c0.gen2.data) / B, hqk, ?_, ?_⟩
    · apply (Nat.le_div_iff_mul_le hB).2
      omega
    · refine ⟨y, hy, j, hj, by rw [← hqk]; exact e, h1, h2, ?_⟩
      rcases dest_minor hmin _ h2 with h | h
      · rw [oldGen_minor hmin] at h3; exact absurd h h3
      · exact h

end ScanHeap

end Heap

namespace Heap

open CollectionType

/-! ## Iterators of the scan -/

/-- The iterator the scan builds for a range that starts at a multiple of the
scale: it starts at the record of `start` and its limit is the first record that
begins at or after the end of the range, clamped to the position. -/
theorem Iterator.new_spec (s : Segment) (mp : Map) (start e : Nat) (hb : mp.bitsPerRecord = 1)
    (hsc : 1 ≤ mp.scale) (hpos : s.position < 2 ^ 32) (hst : start ≤ s.position)
    (hal : start % mp.scale = 0) (hend : start ≤ e) :
    ∃ it, Iterator.new s mp start e = some it ∧ it.index * mp.scale = start ∧
      ∀ k, k < it.limit ↔ k * mp.scale < min e s.position := by
  obtain ⟨t, ht⟩ : ∃ t, start = mp.scale * t := ⟨start / mp.scale, by
    have := Nat.div_add_mod start mp.scale
    omega⟩
  obtain ⟨e1, he1, hmin⟩ : ∃ e1, e1 = (if e > s.position then s.position else e) ∧
      e1 = min e s.position := by
    refine ⟨_, rfl, ?_⟩
    split <;> omega
  have hse : start ≤ e1 := by rw [hmin]; omega
  have hlt : e1 < 2 ^ 32 := by rw [hmin]; omega
  have hmod : usub e1 start % mp.scale = e1 % mp.scale := by
    rw [usub_small _ _ hse hlt, ht]
    exact Nat.sub_mul_mod (by rw [← ht]; exact hse)
  have hstart : mp.indexOfIndex start = t := by
    unfold Map.indexOfIndex
    rw [hb, Nat.mul_one, ht, Nat.mul_div_cancel_left _ (by omega)]
  have hlim : mp.indexOfIndex e1 = e1 / mp.scale := by
    unfold Map.indexOfIndex
    rw [hb, Nat.mul_one]
  have hrange : ∀ k, k < (if e1 % mp.scale ≠ 0 then u32 (e1 / mp.scale + 1) else e1 / mp.scale) ↔
      k * mp.scale < e1 := by
    intro k
    have hdm := Nat.div_add_mod e1 mp.scale
    have hml := Nat.mod_lt e1 (show 0 < mp.scale by omega)
    by_cases hz : e1 % mp.scale ≠ 0
    · rw [if_pos hz]
      have h2 : 2 ≤ mp.scale := by
        by_contra h3
        have : mp.scale = 1 := by omega
        rw [this, Nat.mod_one] at hz
        exact hz rfl
      have hhalf : e1 / mp.scale * 2 ≤ e1 := by
        have : e1 / mp.scale * 2 ≤ e1 / mp.scale * mp.scale := Nat.mul_le_mul_left _ h2
        have := Nat.div_mul_le_self e1 mp.scale
        omega
      unfold u32
      rw [Nat.mod_eq_of_lt (by omega)]
      constructor
      · intro h
        have : k * mp.scale ≤ e1 / mp.scale * mp.scale := Nat.mul_le_mul_right _ (by omega)
        rw [Nat.mul_comm (e1 / mp.scale)] at this
        omega
      · intro h
        have : k ≤ e1 / mp.scale := (Nat.le_div_iff_mul_le (by omega)).2 (by omega)
        omega
    · rw [if_neg hz]
      have hz2 : e1 % mp.scale = 0 := by
        by_contra h3; exact hz h3
      constructor
      · intro h
        have : (k + 1) * mp.scale ≤ e1 / mp.scale * mp.scale := Nat.mul_le_mul_right _ (by omega)
        rw [Nat.mul_comm (e1 / mp.scale), Nat.add_mul] at this
        omega
      · intro h
        exact (Nat.lt_div_iff_mul_lt (Nat.dvd_of_mod_eq_zero hz2) _).2
          (by rw [Nat.mul_comm]; exact h)
  refine ⟨{ index := t
            limit := if e1 % mp.scale ≠ 0 then u32 (e1 / mp.scale + 1) else e1 / mp.scale },
    ?_, by rw [ht, Nat.mul_comm], ?_⟩
  · unfold Iterator.new
    rw [if_pos ⟨hb, hst⟩]
    simp only []
    rw [← he1, hmod, hstart, hlim]
  · intro k
    rw [← hmin]
    exact hrange k

/-- After `hasMore` has answered true, `next` returns the word index of the
record found and moves past it. -/
theorem Iterator.next_spec (B : Nat) (hW : 0 < BitsPerWord B) (s : Segment) (mp : Map) (m : Mem)
    (hsc : 1 ≤ mp.scale) (it : Iterator) (h : (it.hasMore B s mp m).1 = true)
    (hb : (it.hasMore B s mp m).2.index * mp.scale + 1 < 2 ^ 32) :
    (it.hasMore B s mp m).2.next B s mp m =
      some ((it.hasMore B s mp m).2.index * mp.scale,
        { index := (it.hasMore B s mp m).2.index + 1, limit := it.limit }) := by
  obtain ⟨q1, q2, q3, q4, q5⟩ := (Iterator.hasMore_spec B hW s mp m it).1 h
  have hagain : ((it.hasMore B s mp m).2.hasMore B s mp m).1 = true ∧
      ((it.hasMore B s mp m).2.hasMore B s mp m).2.index = (it.hasMore B s mp m).2.index ∧
      ((it.hasMore B s mp m).2.hasMore B s mp m).2.limit = it.limit := by
    have hsp := Iterator.hasMore_spec B hW s mp m (it.hasMore B s mp m).2
    cases h2 : ((it.hasMore B s mp m).2.hasMore B s mp m).1 with
    | false =>
      have := hsp.2 h2 _ (Nat.le_refl _) (by rw [q5]; exact q2)
      rw [q3] at this
      exact absurd this (by decide)
    | true =>
      obtain ⟨r1, r2, r3, r4, r5⟩ := hsp.1 h2
      refine ⟨rfl, ?_, by rw [r5, q5]⟩
      by_contra hne
      have := r4 _ (Nat.le_refl _) (by omega)
      rw [q3] at this
      exact absurd this (by decide)
  obtain ⟨a1, a2, a3⟩ := hagain
  have hk1 : (it.hasMore B s mp m).2.index + 1 < 2 ^ 32 := by
    have : (it.hasMore B s mp m).2.index * 1 ≤ (it.hasMore B s mp m).2.index * mp.scale :=
      Nat.mul_le_mul_left _ hsc
    omega
  unfold Iterator.next
  simp only [a1, if_true, a2]
  unfold u32
  rw [Nat.mod_eq_of_lt (by omega), Nat.mod_eq_of_lt hk1]
  congr 2
  cases hh : (it.hasMore B s mp m).2.hasMore B s mp m with
  | mk b it2 =>
    rw [hh] at a2 a3
    cases it2 with
    | mk i2 l2 =>
      simp only at a2 a3
      simp only [a3]

/-! ## Writing one record of a level -/

/-- `clearOnly(segmentIndex)` on a level with one bit per record. -/
theorem Map.clearOnlyAt_spec (B : Nat) (hB : 0 < B) (s : Segment) (l : Map) (m : Mem) (i0 : Nat)
    (hb : l.bitsPerRecord = 1) (hsc : 1 ≤ l.scale) (h : i0 * l.scale < s.capacity) :
    ∃ m1, l.clearOnlyAt B s m (i0 * l.scale) = some m1 ∧
      (∀ a, ¬ l.inArea B s a → m1 a = m a) ∧
      (∀ k, l.bit B s m1 k = if k = i0 then false else l.bit B s m k) := by
  have hw := (record_in_words B hB s l i0 hsc hb h).1
  obtain ⟨m1, e, f, b⟩ := Map.clearBits_spec B hB s l 1 m i0 (fun j h1 h2 => by
    have : j = i0 := by omega
    rw [this]; exact hw)
  refine ⟨m1, ?_, f, ?_⟩
  · unfold Map.clearOnlyAt Map.clearOnlyIndex Map.indexOfIndex
    rw [hb, Nat.mul_one, Nat.mul_div_cancel _ (by omega)]
    exact e
  · intro k
    rw [b k]
    by_cases hk : k = i0
    · rw [if_pos (by omega), if_pos hk]
    · rw [if_neg (by omega), if_neg hk]

/-- `setOnly(segmentIndex)` on a level with one bit per record. -/
theorem Map.setOnlyAt_spec (B : Nat) (hB : 0 < B) (s : Segment) (l : Map) (m : Mem) (i0 : Nat)
    (hb : l.bitsPerRecord = 1) (hsc : 1 ≤ l.scale) (h : i0 * l.scale < s.capacity)
    (hK : s.capacity < 2 ^ 31) :
    ∃ m1, l.setOnlyAt B s m (i0 * l.scale) 1 = some m1 ∧
      (∀ a, ¬ l.inArea B s a → m1 a = m a) ∧
      (∀ k, l.bit B s m1 k = if k = i0 then true else l.bit B s m k) := by
  have hw := (record_in_words B hB s l i0 hsc hb h).1
  have hi0 : i0 < 2 ^ 31 := by
    have : i0 * 1 ≤ i0 * l.scale := Nat.mul_le_mul_left _ hsc
    omega
  obtain ⟨m1, e, f, b⟩ := Map.setBits_spec B hB s l i0 1 m i0 1 (Nat.le_refl _) (by omega)
    (fun j h1 h2 => by
      have : j = i0 := by omega
      rw [this]; exact hw)
  have e1 : usub (u32 (i0 + 1)) 1 = i0 := by
    have : u32 (i0 + 1) = i0 + 1 := Nat.mod_eq_of_lt (by omega)
    rw [this, usub_small _ _ (by omega) (by omega)]
    omega
  refine ⟨m1, ?_, f, ?_⟩
  · unfold Map.setOnlyAt Map.setOnlyIndex Map.indexOfIndex
    rw [hb, Nat.mul_one, Nat.mul_div_cancel _ (by omega), e1]
    exact e
  · intro k
    rw [b k]
    by_cases hk : k = i0
    · rw [if_pos (by omega), if_pos hk, hk, Nat.sub_self]
      decide
    · rw [if_neg (by omega), if_neg hk]

theorem Map.inArea_seg (B : Nat) (s s1 : Segment) (l : Map) (a : Nat) (hd : s1.data = s.data)
    (hk : s1.capacity = s.capacity) : l.inArea B s1 a ↔ l.inArea B s a := by
  unfold Map.inArea Map.data Map.sizeNow
  rw [hd, hk]

section CardBits

variable {B : Nat} {c0 c : Context} {G : Graph} {cp : List Nat}

theorem Start.level_ok (hs : Start B c0 G) (l : Map) (hl : l ∈ c0.heapMap.levels) :
    1 ≤ l.scale ∧ l.bitsPerRecord = 1 :=
  Map.AllLevels_mem _ _ hs.heapMap_ok l hl

/-- Writing one bit of one level changes that card bit and no other. -/
theorem level_write_bits (hs : Start B c0 G) (S : Segment) (hd : S.data = c0.gen2.data)
    (hk : S.capacity = c0.gen2.capacity) (l0 : Map) (hl0 : l0 ∈ c0.heapMap.levels) (m m1 : Mem)
    (i0 : Nat) (v : Bool) (hfr : ∀ a, ¬ l0.inArea B S a → m1 a = m a)
    (hbit : ∀ k, l0.bit B S m1 k = if k = i0 then v else l0.bit B S m k) :
    ∀ l ∈ c0.heapMap.levels, ∀ i, cardBit B c0.gen2 m1 l i =
      if l = l0 ∧ i = i0 then (decide (i0 * l0.scale < c0.gen2.capacity) && v)
      else cardBit B c0.gen2 m l i := by
  have hB := hs.B_pos
  intro l hl i
  by_cases e : l = l0
  · subst e
    by_cases e2 : i = i0
    · subst e2
      rw [if_pos ⟨rfl, rfl⟩]
      unfold cardBit
      rw [← Map.bit_seg B c0.gen2 S l m1 i hd hk, hbit, if_pos rfl]
    · rw [if_neg (fun h => e2 h.2)]
      unfold cardBit
      rw [← Map.bit_seg B c0.gen2 S l m1 i hd hk, hbit, if_neg e2,
        Map.bit_seg B c0.gen2 S l m i hd hk]
  · rw [if_neg (fun h => e h.1)]
    by_cases hcap : 1 ≤ c0.gen2.capacity
    · obtain ⟨q1, q2⟩ := hs.level_ok l hl
      apply cardBit_congr B hB c0.gen2 l m m1 q1 q2
      intro a ha
      apply hfr
      intro h2
      rw [Map.inArea_seg B c0.gen2 S l0 a hd hk] at h2
      exact Map.levels_apart B c0.gen2 hcap c0.heapMap l hl l0 hl0 e a ha h2
    · unfold cardBit
      have : ¬ i * l.scale < c0.gen2.capacity := by omega
      simp [this]

/-- The card bits after a traversal: those before and the bits, at every level,
of the slots marked. -/
theorem CardsSet.card_bits (hs : Start B c0 G) (hmin : c0.mode = MinorCollection) {ms m1 : Mem}
    {Pm : Nat → Prop} (h : CardsSet B c0 ms m1 Pm) (l : Map) (hl : l ∈ c0.heapMap.levels)
    (i : Nat) :
    cardBit B c0.gen2 m1 l i = true ↔ (cardBit B c0.gen2 ms l i = true ∨
      (i * l.scale < c0.gen2.capacity ∧ ∃ p, Pm p ∧ i = l.recordIndex B c0.gen2 p)) := by
  have hB := hs.B_pos
  have h1 := h.1
  rw [oldGen_minor hmin] at h1
  have h2 : c0.heapMap.AllLevels (fun l => ∀ k, wordOf B k < l.size B c0.gen2.capacity →
      (l.bit B c0.gen2 m1 k = true ↔
        (l.bit B c0.gen2 ms k = true ∨ ∃ p, Pm p ∧ k = l.recordIndex B c0.gen2 p))) := h1
  have h3 := Map.AllLevels_mem _ _ h2 l hl
  obtain ⟨q1, q2⟩ := hs.level_ok l hl
  rw [cardBit_true, cardBit_true]
  constructor
  · rintro ⟨r1, r2⟩
    rcases (h3 i (record_in_words B hB c0.gen2 l i q1 q2 r1).2).1 r2 with h4 | h4
    · exact Or.inl ⟨r1, h4⟩
    · exact Or.inr ⟨r1, h4⟩
  · rintro (⟨r1, r2⟩ | ⟨r1, r2⟩)
    · exact ⟨r1, (h3 i (record_in_words B hB c0.gen2 l i q1 q2 r1).2).2 (Or.inl r2)⟩
    · exact ⟨r1, (h3 i (record_in_words B hB c0.gen2 l i q1 q2 r1).2).2 (Or.inr r2)⟩

end CardBits

end Heap

namespace Heap

open CollectionType

/-- The record of the word `k0` of the segment in a level of scale 1. -/
theorem leaf_record (B : Nat) (hB : 0 < B) (s : Segment) (l : Map) (k0 : Nat)
    (hb : l.bitsPerRecord = 1) (hsc : l.scale = 1) :
    l.recordIndex B s (s.data + k0 * B) = k0 := by
  unfold Map.recordIndex Map.indexOfIndex
  rw [hb, hsc, Nat.add_sub_cancel_left, Nat.mul_div_cancel _ hB, Nat.div_one, Nat.mul_one]

theorem word_contained (B : Nat) (hB : 0 < B) (s : Segment) (k0 : Nat) (h : k0 < s.position) :
    s.contains B (s.data + k0 * B) = true := by
  rw [Segment.contains_iff]
  have := Nat.mul_lt_mul_of_pos_right h hB
  exact ⟨by omega, by omega, by omega⟩

/-- `clearOnly(p)` on the leaf level, for the word `k0` of the segment. -/
theorem leaf_clear (B : Nat) (hB : 0 < B) (s : Segment) (l : Map) (m : Mem) (k0 : Nat)
    (hb : l.bitsPerRecord = 1) (hsc : l.scale = 1) (h : k0 < s.position)
    (hc : s.position ≤ s.capacity) (hK : s.capacity < 2 ^ 31) :
    ∃ m1, l.clearOnly B s m (s.data + k0 * B) = some m1 ∧
      (∀ a, ¬ l.inArea B s a → m1 a = m a) ∧
      (∀ k, l.bit B s m1 k = if k = k0 then false else l.bit B s m k) := by
  have hok : l.LevelOK s := ⟨by omega, by omega, by omega, by rw [hb]; omega⟩
  obtain ⟨m1, e, f, b⟩ := Map.clearOnly_spec B hB s l m _ (word_contained B hB s k0 h) hc hok
  refine ⟨m1, e, f, fun k => ?_⟩
  rw [b k, leaf_record B hB s l k0 hb hsc, hb]
  by_cases hk : k = k0
  · rw [if_pos (by omega), if_pos hk]
  · rw [if_neg (by omega), if_neg hk]

/-- `setOnly(p)` on the leaf level, for the word `k0` of the segment. -/
theorem leaf_set (B : Nat) (hB : 0 < B) (s : Segment) (l : Map) (m : Mem) (k0 : Nat)
    (hb : l.bitsPerRecord = 1) (hsc : l.scale = 1) (h : k0 < s.position)
    (hc : s.position ≤ s.capacity) (hK : s.capacity < 2 ^ 31) :
    ∃ m1, l.setOnly B s m (s.data + k0 * B) 1 = some m1 ∧
      (∀ a, ¬ l.inArea B s a → m1 a = m a) ∧
      (∀ k, l.bit B s m1 k = if k = k0 then true else l.bit B s m k) := by
  have hok : l.LevelOK s := ⟨by omega, by omega, by omega, by rw [hb]; omega⟩
  obtain ⟨m1, e, f, b⟩ := Map.setOnly_spec B hB s l m _ 1 (word_contained B hB s k0 h) hc hok
  refine ⟨m1, e, f, fun k => ?_⟩
  rw [b k, leaf_record B hB s l k0 hb hsc, hb]
  by_cases hk : k = k0
  · rw [if_pos (by omega), if_pos hk, hk]
    have : k0 + 1 - 1 - k0 = 0 := by omega
    rw [this]
    decide
  · rw [if_neg (by omega), if_neg hk]

section LeafStep

variable {B : Nat} {c0 c : Context} {G : Graph} {cp : List Nat}

/-- The backing words of a level of the card hierarchy of gen2 are card
words. -/
theorem level_inCards (S : Segment) (hd : S.data = c0.gen2.data)
    (hk : S.capacity = c0.gen2.capacity) (hcap : 1 ≤ c0.gen2.capacity) (l : Map)
    (hl : l ∈ c0.heapMap.levels) (a : Nat) (h : l.inArea B S a) : c0.inCards B a := by
  rw [Map.inArea_seg B c0.gen2 S l a hd hk] at h
  exact Or.inl (Map.level_inFootprint B c0.gen2 hcap c0.heapMap l hl a h)

end LeafStep

end Heap

namespace Heap

open CollectionType

section LeafStep

variable {B : Nat} {c0 c : Context} {G : Graph} {cp : List Nat}

theorem ScanRel.same (A : List Map) (w : Nat) (c : Context) : ScanRel B c0 A w c c :=
  ⟨Nat.le_refl _, fun _ _ _ h => h, fun _ h => Or.inl h, fun _ _ h => h⟩

theorem word_not_cards (hs : Start B c0 G) (k : Nat) (hk : k < c0.gen2.capacity) :
    ¬ c0.inCards B (c0.gen2.data + k * B) := by
  intro h
  have hB := hs.B_pos
  have hlt := Nat.mul_lt_mul_of_pos_right hk hB
  have hst : c0.inStorage B Gen.gen2 (c0.gen2.data + k * B) := by
    unfold Context.inStorage
    simp only [Context.seg, Nat.add_mul]
    omega
  rcases h with h | h
  · exact hs.not_footprint Gen.gen2 Gen.gen2 _ hst (by simp only [Context.seg]; omega) h
  · exact hs.not_footprint Gen.gen2 Gen.nextGen2 _ hst (by simp only [Context.seg]; omega) h

/-- What the scan knows of the slots of gen2 stays true when card words are
written without a change of the leaf bits. -/
theorem ScanInv.sound_write (hs : Start B c0 G) {wk : List Nat} {A : List Map} {s w : Nat}
    (hI : ScanInv B c0 G c cp wk A s w) (m1 : Mem)
    (hm : ∀ a, ¬ c0.inCards B a → m1 a = c.mem a)
    (hlfb : ∀ k, cardBit B c0.gen2 m1 c0.heapMap.leafLevel k =
      cardBit B c0.gen2 c.mem c0.heapMap.leafLevel k) :
    (∀ k, k < c0.gen2.position →
      (m1 (c0.gen2.data + k * B) = c0.mem (c0.gen2.data + k * B) ∧
        (cardBit B c0.gen2 c0.mem c0.heapMap.leafLevel k = true →
          cardBit B c0.gen2 m1 c0.heapMap.leafLevel k = true)) ∨
      (Updated B c0 { c with mem := m1 } cp (m1 (c0.gen2.data + k * B))
          (c0.mem (c0.gen2.data + k * B)) ∧
        (c.gen2.contains B (m1 (c0.gen2.data + k * B)) = false →
          cardBit B c0.gen2 m1 c0.heapMap.leafLevel k = true))) ∧
    (∀ y ∈ wk, ∀ j ∈ (G.lay y).slots,
      cardCond B { c with mem := m1 } (m1 y + j * B)
        (referent B c0 { c with mem := m1 } (G.m0 (y + j * B))) →
      cardBit B c0.gen2 m1 c0.heapMap.leafLevel ((m1 y + j * B - c0.gen2.data) / B) = true) ∧
    OldSeen B c0 { c with mem := m1 } cp w := by
  obtain ⟨hT, hfw⟩ := hI.trav.cards_write hs m1 hm
  have hseg := (hs.seg_ok Gen.gen2).2.1
  simp only [Context.seg] at hseg
  refine ⟨?_, ?_, ?_⟩
  · intro k hk
    have hq := hm _ (word_not_cards hs k (by omega))
    rw [hq, hlfb]
    rcases hI.olds k hk with h | h
    · exact Or.inl h
    · exact Or.inr ⟨Updated.upd_mono _ _ h.1 (fun _ h => h) hfw, h.2⟩
  · intro y hy j hj hcc
    have hyc := hI.trav.slots.wk_sub y hy
    have hv := hI.trav.slots.walked y hy j hj (List.not_mem_nil _)
    have hv2 : mask B (G.m0 (y + j * B)) = 0 ∨ isOld B c0 (mask B (G.m0 (y + j * B))) ∨
        mask B (G.m0 (y + j * B)) ∈ cp := by
      rcases hv.2 with h | h | h
      · exact Or.inl h.1
      · exact Or.inr (Or.inl h.1)
      · exact Or.inr (Or.inr h.1)
    have hce := (cardCond_eq hs hI.trav.inv hT.inv (fun _ h => h) hfw y hyc j hj _ hv2).1 hcc
    rw [hlfb, hfw y hyc]
    exact hI.news y hy j hj hce
  · intro k h1 h2 h3
    show Updated B c0 { c with mem := m1 } cp (m1 _) _
    rw [hm _ (word_not_cards hs k (by omega))]
    exact Updated.upd_mono _ _ (hI.seen k h1 h2 h3) (fun _ h => h) hfw

/-- The state of the scan does not depend on the card words other than through
the card bits, nor on the position of the segment other than through the
bound on the leaf bits. -/
theorem ScanInv.cards_same (hs : Start B c0 G) {wk : List Nat} {A : List Map} {s w : Nat}
    (hI : ScanInv B c0 G c cp wk A s w) (m1 : Mem)
    (hm : ∀ a, ¬ c0.inCards B a → m1 a = c.mem a)
    (hbits : ∀ l ∈ c0.heapMap.levels, ∀ i, cardBit B c0.gen2 m1 l i = cardBit B c0.gen2 c.mem l i) :
    ScanInv B c0 G { c with mem := m1 } cp wk A s w := by
  obtain ⟨hT, hfw⟩ := hI.trav.cards_write hs m1 hm
  have hlf := Map.leafLevel_mem c0.heapMap
  have hnc : ∀ k, k < c0.gen2.capacity → ¬ c0.inCards B (c0.gen2.data + k * B) := by
    intro k hk h
    have hB := hs.B_pos
    have hlt := Nat.mul_lt_mul_of_pos_right hk hB
    have hst : c0.inStorage B Gen.gen2 (c0.gen2.data + k * B) := by
      unfold Context.inStorage
      simp only [Context.seg, Nat.add_mul]
      omega
    rcases h with h | h
    · exact hs.not_footprint Gen.gen2 Gen.gen2 _ hst (by simp only [Context.seg]; omega) h
    · exact hs.not_footprint Gen.gen2 Gen.nextGen2 _ hst (by simp only [Context.seg]; omega) h
  have hseg := (hs.seg_ok Gen.gen2).2.1
  simp only [Context.seg] at hseg
  obtain ⟨so, sn, ss⟩ := hI.sound_write hs m1 hm (hbits _ hlf)
  refine ⟨hT, ?_, ?_, so, ss, sn, ?_, ?_⟩
  · intro k h1 h2
    obtain ⟨o1, o2⟩ := hI.oldmem k h1 h2
    refine ⟨?_, ?_⟩
    · show m1 _ = _
      rw [hm _ (hnc k (by omega))]; exact o1
    · show cardBit B c0.gen2 m1 _ k = _
      rw [hbits _ hlf]; exact o2
  · intro a ha hg
    show m1 a = _
    rw [hm a (fun h => ha.not_maps (h.elim (fun h => Or.inr (Or.inl h))
      (fun h => Or.inr (Or.inr h))))]
    exact hI.outside a ha hg
  · intro k h1 h2
    have h3 : cardBit B c0.gen2 c.mem c0.heapMap.leafLevel k = true := by
      rw [← hbits _ hlf]; exact h2
    exact (hI.newbits k h1 h3).grows (fun _ h => h)
      (fun y hy => hfw y (hI.trav.slots.wk_sub y hy))
  · have hcd := hI.cards
    refine ⟨?_, ?_, ?_⟩
    · intro a ha k hk hno
      show cardBit B c0.gen2 m1 a _ = true
      have hk2 : cardBit B c0.gen2 m1 c0.heapMap.leafLevel k = true := hk
      rw [hbits _ hlf] at hk2
      rw [hbits _ (Map.nodeLevels_sub _ a ha)]
      exact hcd.cov a ha k hk2 hno
    · intro a ha i hi
      have hi2 : cardBit B c0.gen2 m1 a i = true := hi
      rw [hbits _ (Map.nodeLevels_sub _ a ha)] at hi2
      obtain ⟨k, k1, k2, k3⟩ := hcd.wc a ha i hi2
      refine ⟨k, ?_, k2, k3⟩
      show cardBit B c0.gen2 m1 _ k = true
      rw [hbits _ hlf]; exact k1
    · intro k hk
      have hk2 : cardBit B c0.gen2 m1 c0.heapMap.leafLevel k = true := hk
      rw [hbits _ hlf] at hk2
      exact hcd.below k hk2

end LeafStep

end Heap

namespace Heap

open CollectionType

section SlotCards

variable {B : Nat} {c0 c : Context} {G : Graph} {cp : List Nat}

theorem ScanInv.forward {wk : List Nat} {A : List Map} {s w w1 : Nat}
    (hI : ScanInv B c0 G c cp wk A s w) (hw : w ≤ w1)
    (hsk : ∀ k, w ≤ k → k < w1 → k < c0.gen2.position →
      cardBit B c0.gen2 c.mem c0.heapMap.leafLevel k = false ∨
        Updated B c0 c cp (c.mem (c0.gen2.data + k * B)) (c0.mem (c0.gen2.data + k * B))) :
    ScanInv B c0 G c cp wk A s w1 := by
  refine ⟨hI.trav, fun k h1 h2 => hI.oldmem k (by omega) h2, hI.outside, hI.olds, ?_, hI.news,
    hI.newbits, hI.cards.advance hw (Nat.le_refl _)⟩
  intro k h1 h2 h3
  by_cases hk : k < w
  · exact hI.seen k hk h2 h3
  · rcases hsk k (by omega) h1 h2 with h | h
    · rw [(hI.oldmem k (by omega) h2).2, h3] at h
      exact absurd h (by simp)
    · exact h

theorem Settable.not_cards {p : Nat} (hp : Settable B c0 G p) : ¬ c0.inCards B p := by
  intro h
  apply hp.not_maps
  rcases h with h | h
  · exact Or.inr (Or.inl h)
  · exact Or.inr (Or.inr h)

/-- The cards after one call of `collect(c, p)` of a Minor collection: the bits
set before, and at every level the bits of the words of gen2 marked; a word
marked is the slot `p` itself or a slot, in the part of gen2 filled by this
collection, that refers to nextGen1. -/
theorem collectSlot_cards (hs : Start B c0 G) (hmin : c0.mode = MinorCollection)
    {wk : List Nat}
    (hT : Trav B c0 G c cp wk (fun _ => []) []) {p : Nat} (hp : Settable B c0 G p)
    (hv : mask B (c.mem p) = 0 ∨ mask B (c.mem p) ∈ G.objs) :
    ∃ n c1 cp1 wk1, ∃ Mk : Nat → Prop,
      (∀ fuel, collectSlot B fuel c p = if n ≤ fuel then some c1 else none) ∧
      Trav B c0 G c1 cp1 wk1 (fun _ => []) [] ∧ Grows c cp c1 cp1 ∧ (∀ y ∈ wk, y ∈ wk1) ∧
      (∀ a, Settable B c0 G a → a ≠ p → c1.mem a = c.mem a) ∧
      (∀ l ∈ c0.heapMap.levels, ∀ i, cardBit B c0.gen2 c1.mem l i = true ↔
        (cardBit B c0.gen2 c.mem l i = true ∨ ∃ k, Mk k ∧ i = k / l.scale)) ∧
      (∀ k, Mk k → k < c1.gen2.position ∧
        (c0.gen2.data + k * B = p ∨ (c0.gen2.position ≤ k ∧ YoungSlot B c0 G c1 wk1 k))) ∧
      Updated B c0 c1 cp1 (c1.mem p) (c.mem p) ∧
      (∀ y ∈ wk1, y ∉ wk → ∀ j ∈ (G.lay y).slots,
        cardCond B c1 (c1.mem y + j * B) (referent B c0 c1 (G.m0 (y + j * B))) →
        Mk ((c1.mem y + j * B - c0.gen2.data) / B)) := by
  have hB := hs.B_pos
  obtain ⟨n, c1, cp1, wk1, mk1, r, hrun, hR, hG, -, hwk, hupd, -, -⟩ :=
    collectSlot_spec hs hT hp hv
  have hi1 := hR.trav.inv
  have hd1 : c1.gen2.data = c0.gen2.data := hi1.seg_data Gen.gen2
  have hk1 : c1.gen2.capacity = c0.gen2.capacity := hi1.seg_capacity Gen.gen2
  have hp1 : c1.gen2.position ≤ c1.gen2.capacity := (hi1.pos Gen.gen2).2
  have hdal : c0.gen2.data % B = 0 := (hs.seg_ok Gen.gen2).1
  have hyoung := Marks.young hs hmin hi1 hR.trav.slots.wk_sub hR.marks
  refine ⟨n, c1, cp1, wk1, fun k => ∃ q ∈ mk1, k = (q - c0.gen2.data) / B, hrun, hR.trav, hG, hwk,
    ?_, ?_, ?_, hupd, fun y hy hyw j hj hcc =>
      ⟨_, hR.marks.all y hy hyw j hj (List.not_mem_nil _) hcc, rfl⟩⟩
  · intro a ha hne
    rw [hR.ext a (ha.not_touched hi1)]
    unfold set Mem.write
    rw [if_neg hne]
  · intro l hl i
    obtain ⟨q1, q2⟩ := hs.level_ok l hl
    rw [CardsSet.card_bits hs hmin hR.marks.set l hl i]
    have e1 : cardBit B c0.gen2 (set B c.mem p r) l i = cardBit B c0.gen2 c.mem l i := by
      by_cases hcap : 1 ≤ c0.gen2.capacity
      · apply cardBit_congr B hB c0.gen2 l _ _ q1 q2
        intro a ha
        have hne : a ≠ p := by
          rintro rfl
          exact hp.not_cards (level_inCards c0.gen2 rfl rfl hcap l hl a ha)
        unfold set Mem.write
        rw [if_neg hne]
      · unfold cardBit
        have : ¬ i * l.scale < c0.gen2.capacity := by omega
        simp [this]
    rw [e1]
    constructor
    · rintro (h | ⟨-, q, hq, e⟩)
      · exact Or.inl h
      · refine Or.inr ⟨(q - c0.gen2.data) / B, ⟨q, hq, rfl⟩, ?_⟩
        rw [e, Map.recordIndex_one B c0.gen2 l q q2]
    · rintro (h | ⟨k, ⟨q, hq, rfl⟩, e⟩)
      · exact Or.inl h
      · refine Or.inr ⟨?_, q, hq, ?_⟩
        · have h1 := Segment.index_lt B hB c1.gen2 q (hyoung q hq).1
          rw [hd1] at h1
          have h2 := Nat.div_mul_le_self ((q - c0.gen2.data) / B) l.scale
          rw [e]
          omega
        · rw [e, Map.recordIndex_one B c0.gen2 l q q2]
  · rintro k ⟨q, hq, rfl⟩
    obtain ⟨h1, h2⟩ := hyoung q hq
    have h3 := Segment.index_lt B hB c1.gen2 q h1
    rw [hd1] at h3
    refine ⟨h3, ?_⟩
    rcases h2 with rfl | ⟨k, rfl, h4, h5⟩
    · left
      obtain ⟨-, h6, -⟩ := (Segment.contains_iff B c1.gen2 q).1 h1
      rw [hd1] at h6
      have h7 := hp.aligned
      have h8 : (q - c0.gen2.data) % B = 0 := by
        have := Nat.sub_mod_eq_zero_of_mod_eq (m := q) (n := c0.gen2.data) (k := B)
          (by rw [h7, hdal])
        exact this
      have h9 := Nat.div_mul_cancel (Nat.dvd_of_mod_eq_zero h8)
      omega
    · right
      have e : (c0.gen2.data + k * B - c0.gen2.data) / B = k := by
        rw [Nat.add_sub_cancel_left, Nat.mul_div_cancel _ hB]
      rw [e]
      exact ⟨h4, h5⟩

end SlotCards

end Heap

namespace Heap

open CollectionType

section LeafStep2

variable {B : Nat} {c0 c : Context} {G : Graph} {cp : List Nat}

/-- A slot of a copy that lies in gen2 lies in the words of gen2 filled by this
collection. -/
theorem copy_slot_index (hs : Start B c0 G) (hi : Inv B c0 G c cp) (y : Nat) (hy : y ∈ cp)
    (j : Nat) (hj : j ∈ (G.lay y).slots) (hcon : c.gen2.contains B (c.mem y + j * B) = true) :
    c0.gen2.position ≤ (c.mem y + j * B - c0.gen2.data) / B := by
  have hB := hs.B_pos
  have hts := hi.slot_toSpace hs y hy j hj
  have hst := hi.contains_storage Gen.gen2 _ hcon
  have hlow : c0.gen2.data + c0.gen2.position * B ≤ c.mem y + j * B := by
    rcases hts with h | h | h
    · exfalso
      refine hs.stor_disj Gen.gen2 Gen.nextGen1 (by decide) _ hst ?_
      unfold Context.inStorage; simp only [Nat.add_mul, Context.seg]; omega
    · exfalso
      refine hs.stor_disj Gen.gen2 Gen.nextGen2 (by decide) _ hst ?_
      unfold Context.inStorage; simp only [Nat.add_mul, Context.seg]; omega
    · exact h.1
  apply (Nat.le_div_iff_mul_le hB).2
  omega

/-- One turn of the loop of the scan of the leaf level, unfolded. -/
theorem leaf_loop_eq (B fuel : Nat) (lf : Map) (hsc : lf.scale = 1) (ex : Bool) (n : Nat)
    (c : Context) (it : Iterator) (wd d : Bool) (k0 : Nat) (it1 : Iterator)
    (hmore : (it.hasMore B c.gen2 lf c.mem).1 = true)
    (hnext : (it.hasMore B c.gen2 lf c.mem).2.next B c.gen2 lf c.mem = some (k0, it1))
    (hk0 : k0 ≤ c.gen2.position) :
    collectMapLoop B fuel lf none ex (n + 1) c it wd d =
      (match lf.clearOnly B c.gen2 c.mem (c.gen2.data + k0 * B) with
        | none => none
        | some m1 =>
          if c.nextGen1.contains B (m1 (c.gen2.data + k0 * B)) then
            match lf.setOnly B c.gen2 m1 (c.gen2.data + k0 * B) 1 with
            | none => none
            | some m2 => collectMapLoop B fuel lf none ex n { c with mem := m2 } it1 true true
          else
            match collectSlot B fuel { c with mem := m1 } (c.gen2.data + k0 * B) with
            | none => none
            | some c2 =>
              if c2.gen2.contains B (c2.mem (c.gen2.data + k0 * B)) = false then
                match lf.setOnly B c2.gen2 c2.mem (c.gen2.data + k0 * B) 1 with
                | none => none
                | some m3 =>
                  collectMapLoop B fuel lf none ex n { c2 with mem := m3 } it1 true true
              else collectMapLoop B fuel lf none ex n c2 it1 true d) := by
  rw [collectMapLoop]
  simp only [hmore, if_true, hnext, hsc]
  unfold Segment.get
  rw [if_pos hk0] <;> rfl

end LeafStep2

end Heap

namespace Heap

open CollectionType

section LeafStep3

variable {B : Nat} {c0 c : Context} {G : Graph} {cp : List Nat}

/-- One turn of the loop of the scan of the leaf level: the next word whose bit
is set is found, its slot is updated and what it refers to traversed, and the
bit is set again or left cleared. -/
theorem scan_leaf_step (hs : Start B c0 G) (hc : CardsReady B c0 G)
    {wk : List Nat} {A : List Map} {s : Nat} {it : Iterator}
    (hI : ScanInv B c0 G c cp wk A s it.index)
    (hA : ∀ a ∈ c0.heapMap.nodeLevels, a ∈ A)
    (hAsub : ∀ a ∈ A, a ∈ c0.heapMap.nodeLevels)
    (hreg : ∀ a ∈ A, ∀ x, it.index ≤ x → x < it.limit → x / a.scale = s / a.scale)
    (hlim : it.limit ≤ c.gen2.position)
    (hmore : (it.hasMore B c.gen2 c0.heapMap.leafLevel c.mem).1 = true) :
    ∃ N c1 cp1 wk1 d1 k0, it.index ≤ k0 ∧ k0 < it.limit ∧
      (∀ fuel, N ≤ fuel → ∀ n ex wd d,
        collectMapLoop B fuel c0.heapMap.leafLevel none ex (n + 1) c it wd d =
          collectMapLoop B fuel c0.heapMap.leafLevel none ex n c1 ⟨k0 + 1, it.limit⟩ true
            (d || d1)) ∧
      ScanInv B c0 G c1 cp1 wk1 A s (k0 + 1) ∧
      StepOut B c0 A it.index k0 (k0 + 1) c c1 d1 := by
  have hB := hs.B_pos
  have hW : 0 < BitsPerWord B := by unfold BitsPerWord; omega
  have hmin := hc.minor
  have hi := hI.trav.inv
  have hd : c.gen2.data = c0.gen2.data := hi.seg_data Gen.gen2
  have hk : c.gen2.capacity = c0.gen2.capacity := hi.seg_capacity Gen.gen2
  have hpc : c.gen2.position ≤ c.gen2.capacity := (hi.pos Gen.gen2).2
  have hK : c0.gen2.capacity * 2 < 2 ^ 32 := (hs.seg_ok Gen.gen2).2.2
  have hlf := Map.leafLevel_mem c0.heapMap
  have hlsc := hc.shape.leaf_scale
  have hlb := hc.shape.bits _ hlf
  obtain ⟨q1, q2, q3, q4, -⟩ :=
    (Iterator.hasMore_spec B hW c.gen2 c0.heapMap.leafLevel c.mem it).1 hmore
  have hnext := Iterator.next_spec B hW c.gen2 c0.heapMap.leafLevel c.mem (by omega) it hmore
    (by rw [hlsc]; omega)
  generalize hk0 : (it.hasMore B c.gen2 c0.heapMap.leafLevel c.mem).2.index = k0 at q1 q2 q3 q4 hnext
  rw [hlsc, Nat.mul_one] at hnext
  have hcap : 1 ≤ c0.gen2.capacity := by omega
  have hloop := fun fuel ex n wd d => leaf_loop_eq B fuel c0.heapMap.leafLevel hlsc ex n c it wd d
    k0 _ hmore hnext (by omega)
  rw [hd] at hloop
  have hbit0 : cardBit B c0.gen2 c.mem c0.heapMap.leafLevel k0 = true := by
    rw [cardBit_true, ← Map.bit_seg B c0.gen2 c.gen2 _ _ _ hd hk, hlsc]
    exact ⟨by omega, q3⟩
  have hskip : ∀ k, it.index ≤ k → k < k0 →
      cardBit B c0.gen2 c.mem c0.heapMap.leafLevel k = false := by
    intro k h1 h2
    unfold cardBit
    rw [← Map.bit_seg B c0.gen2 c.gen2 _ _ _ hd hk, q4 k h1 h2, Bool.and_false]
  obtain ⟨m1, hm1, hfr1, hb1⟩ := leaf_clear B hB c.gen2 c0.heapMap.leafLevel c.mem k0 hlb hlsc
    (by omega) hpc (by omega)
  rw [hd] at hm1
  have w1 := level_write_bits hs c.gen2 hd hk _ hlf c.mem m1 k0 false hfr1 hb1
  have hfc1 : ∀ a, ¬ c0.inCards B a → m1 a = c.mem a := fun a ha =>
    hfr1 a (fun h => ha (level_inCards c.gen2 hd hk hcap _ hlf a h))
  have hm1p : m1 (c0.gen2.data + k0 * B) = c.mem (c0.gen2.data + k0 * B) :=
    hfc1 _ (word_not_cards hs k0 (by omega))
  by_cases hA1 : c.nextGen1.contains B (m1 (c0.gen2.data + k0 * B)) = true
  · -- the slot refers to nextGen1: the bit is set again
    obtain ⟨m2, hm2, hfr2, hb2⟩ := leaf_set B hB c.gen2 c0.heapMap.leafLevel m1 k0 hlb hlsc
      (by omega) hpc (by omega)
    rw [hd] at hm2
    have w2 := level_write_bits hs c.gen2 hd hk _ hlf m1 m2 k0 true hfr2 hb2
    have hbits : ∀ l ∈ c0.heapMap.levels, ∀ i,
        cardBit B c0.gen2 m2 l i = cardBit B c0.gen2 c.mem l i := by
      intro l hl i
      rw [w2 l hl i, w1 l hl i]
      by_cases e : l = c0.heapMap.leafLevel ∧ i = k0
      · rw [if_pos e]
        obtain ⟨rfl, rfl⟩ := e
        rw [hbit0, hlsc]
        simp only [Bool.and_true, decide_eq_true_eq]
        omega
      · rw [if_neg e, if_neg e]
    have hfc2 : ∀ a, ¬ c0.inCards B a → m2 a = c.mem a := fun a ha => by
      rw [hfr2 a (fun h => ha (level_inCards c.gen2 hd hk hcap _ hlf a h)), hfc1 a ha]
    have hfw2 : ScanInv B c0 G { c with mem := m2 } cp wk A s (k0 + 1) := by
      apply (hI.cards_same hs m2 hfc2 hbits).forward (by omega)
      intro k k1 k2 k3
      show cardBit B c0.gen2 m2 _ k = false ∨ Updated B c0 { c with mem := m2 } cp (m2 _) _
      by_cases hk : k < k0
      · left
        rw [hbits _ hlf]
        exact hskip k k1 hk
      · right
        obtain rfl : k = k0 := by omega
        obtain ⟨o1, o2⟩ := hI.oldmem k q1 k3
        have hval := hc.valid k k3 (by rw [← o2]; exact hbit0)
        rw [hfc2 _ (word_not_cards hs k (by omega)), o1]
        have h0 : mask B (c0.mem (c0.gen2.data + k * B)) = 0 := by
          rcases hval with h | h
          · exact h
          · exfalso
            have e1 : c.nextGen1.data = c0.nextGen1.data := hi.seg_data Gen.nextGen1
            have e0 : c0.nextGen1.data % B = 0 := (hs.seg_ok Gen.nextGen1).1
            rw [hm1p, o1, ← Segment.contains_mask B hB c.nextGen1 (by rw [e1]; exact e0)] at hA1
            obtain ⟨-, a1, a2⟩ := (Segment.contains_iff B c.nextGen1 _).1 hA1
            have hsz := (hs.obj_ok _ h).2.2.1
            have hmul : 1 * B ≤ (G.lay (mask B (c0.mem (c0.gen2.data + k * B)))).size * B :=
              Nat.mul_le_mul_right B hsz
            apply hs.obj_not_toSpace _ h _ (Nat.le_refl _) (by omega)
            left
            have e2 : c.nextGen1.capacity = c0.nextGen1.capacity := hi.seg_capacity Gen.nextGen1
            have e3 := Nat.mul_le_mul_right B (hi.pos Gen.nextGen1).2
            simp only [Context.seg] at e3
            rw [e1] at a1 a2
            rw [e2] at e3
            exact ⟨a1, by omega⟩
        exact ⟨rfl, Or.inl ⟨h0, h0⟩⟩
    refine ⟨0, { c with mem := m2 }, cp, wk, true, k0, q1, q2, ?_,
      hfw2, ⟨⟨Nat.le_refl _, ?_, ?_, ?_⟩, hskip, ?_, ?_⟩⟩
    · intro fuel _ n ex wd d
      rw [hloop, hm1]
      simp only []
      rw [if_pos hA1, hm2, Bool.or_true]
    · intro a ha i h
      show cardBit B c0.gen2 m2 a i = true
      rw [hbits a (Map.nodeLevels_sub _ a (hAsub a ha))]; exact h
    · intro k h
      left
      rw [← hbits _ hlf]; exact h
    · intro k _ h
      show cardBit B c0.gen2 m2 _ k = true
      rw [hbits _ hlf]; exact h
    · intro _
      refine ⟨k0, Nat.le_refl _, by omega, ?_⟩
      show cardBit B c0.gen2 m2 _ k0 = true
      rw [hbits _ hlf]; exact hbit0
    · intro _ _ _ _
      exact Or.inl rfl
  · -- the slot is updated
    have hk0P : k0 < c0.gen2.position := by
      by_contra hge
      have hy := hI.newbits k0 (by omega) hbit0
      have := hy.young_in_next hs hI.trav
      rw [hm1p] at hA1
      exact hA1 this
    obtain ⟨o1, o2⟩ := hI.oldmem k0 q1 hk0P
    have hv : mask B (m1 (c0.gen2.data + k0 * B)) = 0 ∨
        mask B (m1 (c0.gen2.data + k0 * B)) ∈ G.objs := by
      rw [hm1p, o1]
      exact hc.valid k0 hk0P (by rw [← o2]; exact hbit0)
    obtain ⟨hT1, hfw1⟩ := hI.trav.cards_write hs m1 hfc1
    obtain ⟨n, c1, cp1, wk1, Mk, hrun, hT2, hG, hwk, hmem, hbits, hMk, hupd, hall⟩ :=
      collectSlot_cards hs hmin hT1 (old_slot_settable hs hmin k0 hk0P) hv
    have hi2 := hT2.inv
    have hd2 : c1.gen2.data = c0.gen2.data := hi2.seg_data Gen.gen2
    have hk2 : c1.gen2.capacity = c0.gen2.capacity := hi2.seg_capacity Gen.gen2
    have hpc2 : c1.gen2.position ≤ c1.gen2.capacity := (hi2.pos Gen.gen2).2
    have hP : c.gen2.position ≤ c1.gen2.position := hG.pos Gen.gen2
    have hMk2 : ∀ k, Mk k → k < c1.gen2.position ∧ (k = k0 ∨ c0.gen2.position ≤ k) := by
      intro k h
      obtain ⟨h1, h2⟩ := hMk k h
      refine ⟨h1, ?_⟩
      rcases h2 with h2 | h2
      · left
        have := Nat.eq_of_mul_eq_mul_right hB (Nat.add_left_cancel h2)
        exact this
      · exact Or.inr h2.1
    have hc1k0 : cardBit B c0.gen2 c1.mem c0.heapMap.leafLevel k0 = true ↔ Mk k0 := by
      rw [hbits _ hlf k0]
      show (cardBit B c0.gen2 m1 _ k0 = true ∨ _) ↔ _
      rw [w1 _ hlf k0, if_pos ⟨rfl, rfl⟩, hlsc]
      simp only [Bool.and_false, Nat.div_one, false_or, Bool.false_eq_true]
      constructor
      · rintro ⟨k, h1, rfl⟩; exact h1
      · intro h; exact ⟨k0, h, rfl⟩
    have hg2 : ∀ {c2 : Context} {cp2 : List Nat}, Inv B c0 G c2 cp2 → c2.seg c2.oldGen = c2.gen2 := by
      intro c2 cp2 h
      rw [h.oldGen_eq, oldGen_minor hmin]
      rfl
    have key : ∀ (m3 : Mem) (v : Bool),
        (c1.gen2.contains B (c1.mem (c0.gen2.data + k0 * B)) = false → v = true) →
        (∀ a, ¬ c0.inCards B a → m3 a = c1.mem a) →
        (∀ l ∈ c0.heapMap.levels, ∀ i, cardBit B c0.gen2 m3 l i =
          if l = c0.heapMap.leafLevel ∧ i = k0 then
            (cardBit B c0.gen2 c1.mem c0.heapMap.leafLevel k0 || v)
          else cardBit B c0.gen2 c1.mem l i) →
        ScanInv B c0 G { c1 with mem := m3 } cp1 wk1 A s (k0 + 1) ∧
        StepOut B c0 A it.index k0 (k0 + 1) c { c1 with mem := m3 } v := by
      intro m3 v hv3 hfr3 hb3
      obtain ⟨hT3, hfw3⟩ := hT2.cards_write hs m3 hfr3
      have hcpfw : ∀ y ∈ cp, m3 y = c.mem y := by
        intro y hy
        rw [hfw3 y (hG.sub y hy), hG.fwd y hy]
        exact hfw1 y hy
      have hcapP : c0.gen2.position ≤ c0.gen2.capacity := by
        have := (hs.seg_ok Gen.gen2).2.1
        simp only [Context.seg] at this
        exact this
      have holdw : ∀ k, k < c0.gen2.position → k ≠ k0 →
          m3 (c0.gen2.data + k * B) = c.mem (c0.gen2.data + k * B) := by
        intro k hk hne
        have hnc := word_not_cards hs k (by omega)
        rw [hfr3 _ hnc, hmem _ (old_slot_settable hs hmin k hk)
          (fun h => hne (Nat.eq_of_mul_eq_mul_right hB (Nat.add_left_cancel h)))]
        exact hfc1 _ hnc
      have hn : ∀ a ∈ c0.heapMap.nodeLevels, ∀ i, cardBit B c0.gen2 m3 a i = true ↔
          (cardBit B c0.gen2 c.mem a i = true ∨ ∃ k, Mk k ∧ i = k / a.scale) := by
        intro a ha i
        have hne := Map.leafLevel_not_node _ a ha
        have hal := Map.nodeLevels_sub _ a ha
        rw [hb3 a hal i, if_neg (fun h => hne h.1), hbits a hal i]
        show (cardBit B c0.gen2 m1 a i = true ∨ _) ↔ _
        rw [w1 a hal i, if_neg (fun h => hne h.1)]
      have hl : ∀ k, k ≠ k0 → (cardBit B c0.gen2 m3 c0.heapMap.leafLevel k = true ↔
          (cardBit B c0.gen2 c.mem c0.heapMap.leafLevel k = true ∨ Mk k)) := by
        intro k hne
        rw [hb3 _ hlf k, if_neg (fun h => hne h.2), hbits _ hlf k]
        show (cardBit B c0.gen2 m1 _ k = true ∨ _) ↔ _
        rw [w1 _ hlf k, if_neg (fun h => hne h.2), hlsc]
        simp only [Nat.div_one]
        constructor
        · rintro (h | ⟨k1, h1, rfl⟩)
          · exact Or.inl h
          · exact Or.inr h1
        · rintro (h | h)
          · exact Or.inl h
          · exact Or.inr ⟨k, h, rfl⟩
      have hlk0 := hb3 _ hlf k0
      rw [if_pos ⟨rfl, rfl⟩] at hlk0
      have hcards : CardInv c0.heapMap.nodeLevels c0.heapMap.leafLevel (cardBit B c0.gen2 m3) A s
          (k0 + 1) c0.gen2.position c1.gen2.position := by
        apply hI.cards.leaf_step Mk (fun a ha => ⟨hA a ha, hreg a (hA a ha) k0 q1 q2⟩) q1 hP hn hl
          (fun _ => by omega) hMk2
        · intro h
          rw [hlk0, hc1k0.2 h, Bool.true_or]
        · intro h
          omega
      have hupd0 : Updated B c0 { c1 with mem := m3 } cp1 (c1.mem (c0.gen2.data + k0 * B))
          (c0.mem (c0.gen2.data + k0 * B)) := by
        have hu2 : Updated B c0 c1 cp1 (c1.mem (c0.gen2.data + k0 * B))
            (c0.mem (c0.gen2.data + k0 * B)) := by
          have := hupd
          rw [show ({ c with mem := m1 } : Context).mem (c0.gen2.data + k0 * B) =
            m1 (c0.gen2.data + k0 * B) from rfl, hm1p, o1] at this
          exact this
        exact Updated.upd_mono _ _ hu2 (fun _ h => h) hfw3
      refine ⟨⟨hT3, ?_, ?_, ?_, ?_, ?_, ?_, hcards⟩, ⟨⟨hP, ?_, ?_, ?_⟩, hskip, ?_, ?_⟩⟩
      · intro k h1 h2
        obtain ⟨p1, p2⟩ := hI.oldmem k (by omega) h2
        have hne : k ≠ k0 := by omega
        refine ⟨?_, ?_⟩
        · show m3 _ = _
          have hnc := word_not_cards hs k (by have := (hs.seg_ok Gen.gen2).2.1; simp only [Context.seg] at this; omega)
          rw [hfr3 _ hnc, hmem _ (old_slot_settable hs hmin k h2)
            (fun h => hne (Nat.eq_of_mul_eq_mul_right hB (Nat.add_left_cancel h)))]
          show m1 _ = _
          rw [hfc1 _ hnc]
          exact p1
        · show cardBit B c0.gen2 m3 _ k = _
          rw [← p2, Bool.eq_iff_iff, hl k hne]
          constructor
          · rintro (h | h)
            · exact h
            · have := (hMk2 k h).2
              omega
          · exact fun h => Or.inl h
      · intro a ha hg
        show m3 a = _
        have hne : a ≠ c0.gen2.data + k0 * B := by
          rintro rfl
          apply hg
          have hlt := Nat.mul_lt_mul_of_pos_right (show k0 < c0.gen2.capacity by omega) hB
          unfold Context.inStorage
          simp only [Context.seg, Nat.add_mul]
          omega
        rw [hfr3 a ha.not_cards, hmem a ha hne]
        show m1 a = _
        rw [hfc1 a ha.not_cards]
        exact hI.outside a ha hg
      · intro k hk
        show (m3 _ = _ ∧ (_ → cardBit B c0.gen2 m3 _ k = true)) ∨
          (Updated B c0 { c1 with mem := m3 } cp1 (m3 _) _ ∧
            (c1.gen2.contains B (m3 _) = false → cardBit B c0.gen2 m3 _ k = true))
        by_cases hne : k = k0
        · right
          rw [hne, hfr3 _ (word_not_cards hs k0 (by omega))]
          refine ⟨hupd0, ?_⟩
          intro hcon
          rw [hlk0, hv3 hcon, Bool.or_true]
        · rw [holdw k hk hne]
          rcases hI.olds k hk with h | h
          · exact Or.inl ⟨h.1, fun hb => (hl k hne).2 (Or.inl (h.2 hb))⟩
          · right
            refine ⟨Updated.upd_mono _ _ h.1 hG.sub hcpfw, ?_⟩
            intro hcon
            apply (hl k hne).2
            left
            apply h.2
            cases hcc : c.gen2.contains B (c.mem (c0.gen2.data + k * B)) with
            | false => rfl
            | true =>
              have := Segment.contains_mono c.gen2 c1.gen2 _ (by rw [hd2, hd]) hP hcc
              rw [hcon] at this
              exact absurd this (by simp)
      · intro k h1 h2 h3
        show Updated B c0 { c1 with mem := m3 } cp1 (m3 _) _
        by_cases hne : k = k0
        · rw [hne, hfr3 _ (word_not_cards hs k0 (by omega))]
          exact hupd0
        · rw [holdw k h2 hne]
          by_cases hki : k < it.index
          · exact Updated.upd_mono _ _ (hI.seen k hki h2 h3) hG.sub hcpfw
          · exfalso
            have := hskip k (by omega) (by omega)
            rw [(hI.oldmem k (by omega) h2).2, h3] at this
            exact absurd this (by simp)
      · intro y hy j hj hcc
        have hcc2 : cardCond B { c1 with mem := m3 } (m3 y + j * B)
            (referent B c0 { c1 with mem := m3 } (G.m0 (y + j * B))) := hcc
        show cardBit B c0.gen2 m3 _ ((m3 y + j * B - c0.gen2.data) / B) = true
        by_cases hyw : y ∈ wk
        · have hyc := hI.trav.slots.wk_sub y hyw
          have hv := hI.trav.slots.walked y hyw j hj (List.not_mem_nil _)
          have hv2 : mask B (G.m0 (y + j * B)) = 0 ∨ isOld B c0 (mask B (G.m0 (y + j * B))) ∨
              mask B (G.m0 (y + j * B)) ∈ cp := by
            rcases hv.2 with h | h | h
            · exact Or.inl h.1
            · exact Or.inr (Or.inl h.1)
            · exact Or.inr (Or.inr h.1)
          have hce := (cardCond_eq hs hi hT3.inv hG.sub hcpfw y hyc j hj _ hv2).1 hcc2
          have hbit := hI.news y hyw j hj hce
          have hcon : c.gen2.contains B (c.mem y + j * B) = true := by
            have := hce.2.1
            rw [hg2 hi] at this
            exact this
          have hidx := copy_slot_index hs hi y hyc j hj hcon
          rw [hcpfw y hyc]
          exact (hl _ (by omega)).2 (Or.inl hbit)
        · have hcc3 : cardCond B c1 (c1.mem y + j * B) (referent B c0 c1 (G.m0 (y + j * B))) := by
            have hyc := hT2.slots.wk_sub y hy
            have hv := hT2.slots.walked y hy j hj (List.not_mem_nil _)
            have hv2 : mask B (G.m0 (y + j * B)) = 0 ∨ isOld B c0 (mask B (G.m0 (y + j * B))) ∨
                mask B (G.m0 (y + j * B)) ∈ cp1 := by
              rcases hv.2 with h | h | h
              · exact Or.inl h.1
              · exact Or.inr (Or.inl h.1)
              · exact Or.inr (Or.inr h.1)
            exact (cardCond_eq hs hi2 hT3.inv (fun _ h => h) hfw3 y hyc j hj _ hv2).1 hcc2
          have hmk := hall y hy hyw j hj hcc3
          rw [hfw3 y (hT2.slots.wk_sub y hy)]
          by_cases hne : (c1.mem y + j * B - c0.gen2.data) / B = k0
          · rw [hne, hlk0, hc1k0.2 (hne ▸ hmk), Bool.true_or]
          · exact (hl _ hne).2 (Or.inr hmk)
      · intro k h1 h2
        have h3 : cardBit B c0.gen2 m3 c0.heapMap.leafLevel k = true := h2
        have hne : k ≠ k0 := by omega
        rcases (hl k hne).1 h3 with h | h
        · exact ((hI.newbits k h1 h).grows hwk (fun y hy =>
            (hG.fwd y (hI.trav.slots.wk_sub y hy)).trans (hfw1 y (hI.trav.slots.wk_sub y hy)))).grows
            (fun _ h => h) (fun y hy => hfw3 y (hT2.slots.wk_sub y hy))
        · rcases (hMk k h).2 with h4 | h4
          · exact absurd (Nat.eq_of_mul_eq_mul_right hB (Nat.add_left_cancel h4)) hne
          · exact h4.2.grows (fun _ h => h) (fun y hy => hfw3 y (hT2.slots.wk_sub y hy))
      · intro a ha i h
        exact (hn a (hAsub a ha) i).2 (Or.inl h)
      · intro k h
        have h3 : cardBit B c0.gen2 m3 c0.heapMap.leafLevel k = true := h
        by_cases hne : k = k0
        · left; rw [hne]; exact hbit0
        · rcases (hl k hne).1 h3 with h | h
          · exact Or.inl h
          · right
            intro a ha
            exact (hn a (hAsub a ha) _).2 (Or.inr ⟨k, h, rfl⟩)
      · intro k h1 h
        have hne : k ≠ k0 := by omega
        exact (hl k hne).2 (Or.inl h)
      · intro hv
        refine ⟨k0, Nat.le_refl _, by omega, ?_⟩
        show cardBit B c0.gen2 m3 _ k0 = true
        rw [hlk0, hv, Bool.or_true]
      · intro k h1 h2 h
        obtain rfl : k = k0 := by omega
        have h3 : cardBit B c0.gen2 m3 c0.heapMap.leafLevel k = true := h
        rw [hlk0] at h3
        cases v with
        | true => exact Or.inl rfl
        | false =>
          right
          rw [Bool.or_false] at h3
          intro a ha
          exact (hn a (hAsub a ha) _).2 (Or.inr ⟨k, hc1k0.1 h3, rfl⟩)
    by_cases hv2 : c1.gen2.contains B (c1.mem (c0.gen2.data + k0 * B)) = false
    · obtain ⟨m3, hm3, hfr3, hb3⟩ := leaf_set B hB c1.gen2 c0.heapMap.leafLevel c1.mem k0 hlb hlsc
        (by omega) hpc2 (by omega)
      rw [hd2] at hm3
      have w3 := level_write_bits hs c1.gen2 hd2 hk2 _ hlf c1.mem m3 k0 true hfr3 hb3
      obtain ⟨r1, r2⟩ := key m3 true (fun _ => rfl)
        (fun a ha => hfr3 a (fun h => ha (level_inCards c1.gen2 hd2 hk2 hcap _ hlf a h)))
        (by
          intro l hl i
          rw [w3 l hl i]
          by_cases e : l = c0.heapMap.leafLevel ∧ i = k0
          · rw [if_pos e, if_pos e, hlsc, Bool.or_true]
            simp only [Bool.and_true, decide_eq_true_eq]
            omega
          · rw [if_neg e, if_neg e])
      refine ⟨n, { c1 with mem := m3 }, cp1, wk1, true, k0, q1, q2, ?_, r1, r2⟩
      intro fuel hf n ex wd d
      rw [hloop, hm1]
      simp only []
      rw [if_neg hA1, hrun fuel, if_pos hf]
      simp only []
      rw [if_pos hv2, hm3, Bool.or_true]
    · obtain ⟨r1, r2⟩ := key c1.mem false (fun h => absurd h hv2) (fun _ _ => rfl)
        (by
          intro l hl i
          by_cases e : l = c0.heapMap.leafLevel ∧ i = k0
          · rw [if_pos e, Bool.or_false, e.1, e.2]
          · rw [if_neg e])
      refine ⟨n, c1, cp1, wk1, false, k0, q1, q2, ?_, r1, r2⟩
      intro fuel hf n ex wd d
      rw [hloop, hm1]
      simp only []
      rw [if_neg hA1, hrun fuel, if_pos hf]
      simp only []
      rw [if_neg hv2, Bool.or_false]

end LeafStep3

end Heap

namespace Heap

open CollectionType

section ScanLoop

variable {B : Nat} {c0 c : Context} {G : Graph} {cp : List Nat}

/-- The state of the scan after the card words have been written without a
change of the leaf bits, given the state of the bits. -/
theorem ScanInv.rebits (hs : Start B c0 G) {wk : List Nat} {A A1 : List Map} {s w s1 w1 : Nat}
    (hI : ScanInv B c0 G c cp wk A s w) (m1 : Mem)
    (hm : ∀ a, ¬ c0.inCards B a → m1 a = c.mem a)
    (hlfb : ∀ k, cardBit B c0.gen2 m1 c0.heapMap.leafLevel k =
      cardBit B c0.gen2 c.mem c0.heapMap.leafLevel k)
    (hw : w ≤ w1)
    (hsk : ∀ k, w ≤ k → k < w1 → k < c0.gen2.position →
      cardBit B c0.gen2 c.mem c0.heapMap.leafLevel k = false)
    (hcards : CardInv c0.heapMap.nodeLevels c0.heapMap.leafLevel (cardBit B c0.gen2 m1) A1 s1 w1
      c0.gen2.position c.gen2.position) :
    ScanInv B c0 G { c with mem := m1 } cp wk A1 s1 w1 := by
  obtain ⟨hT, hfw⟩ := hI.trav.cards_write hs m1 hm
  have hseg := (hs.seg_ok Gen.gen2).2.1
  simp only [Context.seg] at hseg
  obtain ⟨so, sn, ss⟩ := hI.sound_write hs m1 hm hlfb
  have hseen : OldSeen B c0 { c with mem := m1 } cp w1 := by
    intro k h1 h2 h3
    by_cases hk : k < w
    · exact ss k hk h2 h3
    · exfalso
      have := hsk k (by omega) h1 h2
      rw [(hI.oldmem k (by omega) h2).2, h3] at this
      exact absurd this (by simp)
  refine ⟨hT, ?_, ?_, so, hseen, sn, ?_, hcards⟩
  · intro k h1 h2
    obtain ⟨o1, o2⟩ := hI.oldmem k (by omega) h2
    refine ⟨?_, ?_⟩
    · show m1 _ = _
      rw [hm _ (word_not_cards hs k (by omega))]; exact o1
    · show cardBit B c0.gen2 m1 _ k = _
      rw [hlfb]; exact o2
  · intro a ha hg
    show m1 a = _
    rw [hm a ha.not_cards]
    exact hI.outside a ha hg
  · intro k h1 h2
    have h3 : cardBit B c0.gen2 c.mem c0.heapMap.leafLevel k = true := by
      rw [← hlfb]; exact h2
    exact (hI.newbits k h1 h3).grows (fun _ h => h)
      (fun y hy => hfw y (hI.trav.slots.wk_sub y hy))

/-- Two stretches of the scan, one after the other. -/
theorem StepOut.comp {A : List Map} {w lo w1 L : Nat} {c1 c2 : Context} {d1 d2 : Bool}
    (h1 : StepOut B c0 A w lo w1 c c1 d1) (h2 : StepOut B c0 A w1 w1 L c1 c2 d2)
    (hw : w ≤ lo) (hl : lo ≤ w1) (hL : w1 ≤ L) :
    StepOut B c0 A w w L c c2 (d1 || d2) := by
  refine ⟨⟨Nat.le_trans h1.rel.pos h2.rel.pos, ?_, ?_, ?_⟩, ?_, ?_, ?_⟩
  · intro a ha i h
    exact h2.rel.anc a ha i (h1.rel.anc a ha i h)
  · intro k h
    rcases h2.rel.leaf_new k h with h3 | h3
    · rcases h1.rel.leaf_new k h3 with h4 | h4
      · exact Or.inl h4
      · exact Or.inr fun a ha => h2.rel.anc a ha _ (h4 a ha)
    · exact Or.inr h3
  · intro k hk h
    exact h2.rel.leaf_keep k (by omega) (h1.rel.leaf_keep k hk h)
  · intro k h3 h4
    omega
  · intro hd
    rcases Bool.or_eq_true_iff.1 hd with h | h
    · obtain ⟨k, k1, k2, k3⟩ := h1.wit h
      exact ⟨k, by omega, by omega, h2.rel.leaf_keep k k2 k3⟩
    · obtain ⟨k, k1, k2, k3⟩ := h2.wit h
      exact ⟨k, by omega, k2, k3⟩
  · intro k k1 k2 h
    by_cases hk : w1 ≤ k
    · rcases h2.d2 k hk k2 h with h3 | h3
      · left; rw [h3, Bool.or_true]
      · exact Or.inr h3
    · rcases h2.rel.leaf_new k h with h3 | h3
      · by_cases hk2 : lo ≤ k
        · rcases h1.d2 k hk2 (by omega) h3 with h4 | h4
          · left; rw [h4, Bool.true_or]
          · exact Or.inr fun a ha => h2.rel.anc a ha _ (h4 a ha)
        · rcases h1.rel.leaf_new k h3 with h4 | h4
          · rw [h1.skip k k1 (by omega)] at h4
            exact absurd h4 (by simp)
          · exact Or.inr fun a ha => h2.rel.anc a ha _ (h4 a ha)
      · exact Or.inr h3

/-- The loop of the scan of one level, given what one turn does: it ends, with
every record up to the limit scanned. -/
theorem scan_loop (hs : Start B c0 G) (mp : Map)
    (child : Nat → Option (Context → Nat → Nat → Option (Context × Bool))) (A : List Map)
    (sA limit i00 : Nat) (hsc : 0 < mp.scale)
    (hcov : ∀ c cp wk w, ScanInv B c0 G c cp wk A sA w → ∀ k,
      cardBit B c0.gen2 c.mem c0.heapMap.leafLevel k = true →
        cardBit B c0.gen2 c.mem mp (k / mp.scale) = true)
    (hstep : ∀ c cp wk index, i00 ≤ index → ScanInv B c0 G c cp wk A sA (index * mp.scale) →
      (∀ i, i < limit → i * mp.scale < c.gen2.position) →
      ((⟨index, limit⟩ : Iterator).hasMore B c.gen2 mp c.mem).1 = true →
      ∃ N c1 cp1 wk1 d1 i0, index ≤ i0 ∧ i0 < limit ∧
        (∀ fuel, N ≤ fuel → ∀ n ex wd d,
          collectMapLoop B fuel mp (child fuel) ex (n + 1) c ⟨index, limit⟩ wd d =
            collectMapLoop B fuel mp (child fuel) ex n c1 ⟨i0 + 1, limit⟩ true (d || d1)) ∧
        ScanInv B c0 G c1 cp1 wk1 A sA ((i0 + 1) * mp.scale) ∧
        StepOut B c0 A (index * mp.scale) (i0 * mp.scale) ((i0 + 1) * mp.scale) c c1 d1) :
    ∀ m index c cp wk, limit - index ≤ m → index ≤ limit → i00 ≤ index →
      ScanInv B c0 G c cp wk A sA (index * mp.scale) →
      (∀ i, i < limit → i * mp.scale < c.gen2.position) →
      ∃ N c1 cp1 wk1 d1,
        (∀ fuel, N ≤ fuel → ∀ n, m < n → ∀ ex wd d,
          (wd = true ∨ ex = false ∨
            ∃ i, index ≤ i ∧ i < limit ∧ mp.bit B c.gen2 c.mem i = true) →
          collectMapLoop B fuel mp (child fuel) ex n c ⟨index, limit⟩ wd d = some (c1, d || d1)) ∧
        ScanInv B c0 G c1 cp1 wk1 A sA (limit * mp.scale) ∧
        StepOut B c0 A (index * mp.scale) (index * mp.scale) (limit * mp.scale) c c1 d1 := by
  have hB := hs.B_pos
  have hW : 0 < BitsPerWord B := by unfold BitsPerWord; omega
  have hdone : ∀ m index c cp wk, index ≤ limit →
      ScanInv B c0 G c cp wk A sA (index * mp.scale) →
      (∀ i, i < limit → i * mp.scale < c.gen2.position) →
      ((⟨index, limit⟩ : Iterator).hasMore B c.gen2 mp c.mem).1 = false →
      ∃ N c1 cp1 wk1 d1,
        (∀ fuel, N ≤ fuel → ∀ n, m < n → ∀ ex wd d,
          (wd = true ∨ ex = false ∨
            ∃ i, index ≤ i ∧ i < limit ∧ mp.bit B c.gen2 c.mem i = true) →
          collectMapLoop B fuel mp (child fuel) ex n c ⟨index, limit⟩ wd d = some (c1, d || d1)) ∧
        ScanInv B c0 G c1 cp1 wk1 A sA (limit * mp.scale) ∧
        StepOut B c0 A (index * mp.scale) (index * mp.scale) (limit * mp.scale) c c1 d1 := by
    intro m index c cp wk hil hI hlim hmore
    have hno := (Iterator.hasMore_spec B hW c.gen2 mp c.mem ⟨index, limit⟩).2 hmore
    have hi := hI.trav.inv
    have hd : c.gen2.data = c0.gen2.data := hi.seg_data Gen.gen2
    have hk : c.gen2.capacity = c0.gen2.capacity := hi.seg_capacity Gen.gen2
    have hno2 : ∀ k, index * mp.scale ≤ k → k < limit * mp.scale →
        cardBit B c0.gen2 c.mem c0.heapMap.leafLevel k = false := by
      intro k k1 k2
      cases hb : cardBit B c0.gen2 c.mem c0.heapMap.leafLevel k with
      | false => rfl
      | true =>
        exfalso
        have h3 := (cardBit_true B c0.gen2 c.mem mp _).1 (hcov c cp wk _ hI k hb)
        rw [← Map.bit_seg B c0.gen2 c.gen2 _ _ _ hd hk] at h3
        have h4 : index ≤ k / mp.scale := (Nat.le_div_iff_mul_le hsc).2 k1
        have h5 : k / mp.scale < limit := (Nat.div_lt_iff_lt_mul hsc).2 k2
        rw [hno _ h4 h5] at h3
        exact absurd h3.2 (by simp)
    refine ⟨0, c, cp, wk, false, ?_, hI.forward (Nat.mul_le_mul_right _ hil)
        (fun k k1 k2 _ => Or.inl (hno2 k k1 k2)),
      ⟨ScanRel.same A _ c, ?_, ?_, ?_⟩⟩
    · intro fuel _ n hn ex wd d hex
      obtain ⟨n, rfl⟩ : ∃ n1, n = n1 + 1 := ⟨n - 1, by omega⟩
      rw [collectMapLoop]
      simp only [hmore, Bool.false_eq_true, if_false, Bool.or_false]
      have hwe : wd = true ∨ ex = false := by
        rcases hex with h | h | ⟨i, i1, i2, i3⟩
        · exact Or.inl h
        · exact Or.inr h
        · rw [hno i i1 i2] at i3
          exact absurd i3 (by simp)
      rw [if_pos hwe]
    · intro k h1 h2
      omega
    · intro h
      exact absurd h (by simp)
    · intro k k1 k2 h
      rw [hno2 k k1 k2] at h
      exact absurd h (by simp)
  intro m
  induction m with
  | zero =>
    intro index c cp wk hm hil h00 hI hlim
    cases hmore : ((⟨index, limit⟩ : Iterator).hasMore B c.gen2 mp c.mem).1 with
    | false => exact hdone 0 index c cp wk hil hI hlim hmore
    | true =>
      obtain ⟨N, c1, cp1, wk1, d1, i0, h1, h2, -⟩ := hstep c cp wk index h00 hI hlim hmore
      omega
  | succ m ih =>
    intro index c cp wk hm hil h00 hI hlim
    cases hmore : ((⟨index, limit⟩ : Iterator).hasMore B c.gen2 mp c.mem).1 with
    | false => exact hdone (m + 1) index c cp wk hil hI hlim hmore
    | true =>
      obtain ⟨N1, c1, cp1, wk1, d1, i0, h1, h2, hrun1, hI1, hO1⟩ :=
        hstep c cp wk index h00 hI hlim hmore
      obtain ⟨N2, c2, cp2, wk2, d2, hrun2, hI2, hO2⟩ := ih (i0 + 1) c1 cp1 wk1 (by omega) (by omega)
        (by omega) hI1 (fun i hi => Nat.lt_of_lt_of_le (hlim i hi) hO1.rel.pos)
      refine ⟨max N1 N2, c2, cp2, wk2, d1 || d2, ?_, hI2, ?_⟩
      · intro fuel hf n hn ex wd d _
        obtain ⟨n, rfl⟩ : ∃ n1, n = n1 + 1 := ⟨n - 1, by omega⟩
        rw [hrun1 fuel (by omega), hrun2 fuel (by omega) n (by omega) ex true _ (Or.inl rfl),
          Bool.or_assoc]
      · exact hO1.comp hO2 (Nat.mul_le_mul_right _ h1)
          (Nat.mul_le_mul_right _ (Nat.le_succ _))
          (Nat.mul_le_mul_right _ (by omega))

end ScanLoop

end Heap

namespace Heap

open CollectionType

section ScanWith

variable {B : Nat} {c0 c : Context} {G : Graph} {cp : List Nat}

/-- The stretch a `StepOut` speaks of may be made longer by words whose leaf bit
was not set at its start. -/
theorem StepOut.extend {A : List Map} {w L E : Nat} {c1 : Context} {d1 : Bool}
    (h : StepOut B c0 A w w L c c1 d1) (hE : L ≤ E)
    (hno : ∀ k, L ≤ k → k < E → cardBit B c0.gen2 c.mem c0.heapMap.leafLevel k = false) :
    StepOut B c0 A w w E c c1 d1 := by
  refine ⟨h.rel, h.skip, ?_, ?_⟩
  · intro hd
    obtain ⟨k, k1, k2, k3⟩ := h.wit hd
    exact ⟨k, k1, by omega, k3⟩
  · intro k k1 k2 hk
    by_cases hl : k < L
    · exact h.d2 k k1 hl hk
    · rcases h.rel.leaf_new k hk with h3 | h3
      · rw [hno k (by omega) k2] at h3
        exact absurd h3 (by simp)
      · exact Or.inr h3

/-- One call of the scan on a level, given what one turn of its loop does. -/
theorem scan_with (hs : Start B c0 G) (mp : Map)
    (child : Nat → Option (Context → Nat → Nat → Option (Context × Bool))) (A : List Map)
    (hsc : 0 < mp.scale) (hb : mp.bitsPerRecord = 1) {wk : List Nat} {sA start e : Nat}
    (hcov : ∀ c cp wk w, ScanInv B c0 G c cp wk A sA w → ∀ k,
      cardBit B c0.gen2 c.mem c0.heapMap.leafLevel k = true →
        cardBit B c0.gen2 c.mem mp (k / mp.scale) = true)
    (hI : ScanInv B c0 G c cp wk A sA start) (hal : start % mp.scale = 0)
    (hst : start ≤ c.gen2.position) (hse : start ≤ e)
    (hreg : ∀ a ∈ A, ∀ x, start ≤ x → x / mp.scale * mp.scale < e →
      x / a.scale = sA / a.scale)
    (hstep : ∀ limit c cp wk index, ScanInv B c0 G c cp wk A sA (index * mp.scale) →
      (∀ i, i < limit → i * mp.scale < c.gen2.position) →
      (∀ a ∈ A, ∀ x, index * mp.scale ≤ x → x / mp.scale < limit →
        x / a.scale = sA / a.scale) →
      ((⟨index, limit⟩ : Iterator).hasMore B c.gen2 mp c.mem).1 = true →
      ∃ N c1 cp1 wk1 d1 i0, index ≤ i0 ∧ i0 < limit ∧
        (∀ fuel, N ≤ fuel → ∀ n ex wd d,
          collectMapLoop B fuel mp (child fuel) ex (n + 1) c ⟨index, limit⟩ wd d =
            collectMapLoop B fuel mp (child fuel) ex n c1 ⟨i0 + 1, limit⟩ true (d || d1)) ∧
        ScanInv B c0 G c1 cp1 wk1 A sA ((i0 + 1) * mp.scale) ∧
        StepOut B c0 A (index * mp.scale) (i0 * mp.scale) ((i0 + 1) * mp.scale) c c1 d1) :
    ∃ N c1 cp1 wk1 d1 E, e ≤ E ∧ (e % mp.scale = 0 → E = e) ∧
      (∀ fuel, N ≤ fuel → ∀ ex d,
        (ex = false ∨ ∃ i, start ≤ i * mp.scale ∧ i * mp.scale < min e c.gen2.position ∧
          mp.bit B c.gen2 c.mem i = true) →
        collectMapWith B fuel mp (child fuel) ex c start e d = some (c1, d || d1)) ∧
      ScanInv B c0 G c1 cp1 wk1 A sA E ∧ StepOut B c0 A start start E c c1 d1 := by
  have hi := hI.trav.inv
  have hk : c.gen2.capacity = c0.gen2.capacity := hi.seg_capacity Gen.gen2
  have hpc : c.gen2.position ≤ c.gen2.capacity := (hi.pos Gen.gen2).2
  have hK : c0.gen2.capacity * 2 < 2 ^ 32 := (hs.seg_ok Gen.gen2).2.2
  obtain ⟨⟨index, limit⟩, hnew, hidx, hlimiff⟩ :=
    Iterator.new_spec c.gen2 mp start e hb hsc (by omega) hst hal hse
  simp only [] at hidx hlimiff
  have hnl : ¬ limit * mp.scale < min e c.gen2.position := fun h =>
    Nat.lt_irrefl _ ((hlimiff limit).2 h)
  have hil : index ≤ limit := by
    by_contra hlt
    have h1 : (limit + 1) * mp.scale ≤ index * mp.scale := Nat.mul_le_mul_right _ (by omega)
    rw [Nat.add_mul, Nat.one_mul] at h1
    have h2 : limit * mp.scale < min e c.gen2.position := by omega
    exact hnl h2
  obtain ⟨N, c1, cp1, wk1, d1, hrun, hI1, hO1⟩ := scan_loop hs mp child A sA limit index hsc hcov
    (fun c cp wk i hi hI hlim hmore => hstep limit c cp wk i hI hlim (by
      intro a ha x x1 x2
      apply hreg a ha x
      · have := Nat.mul_le_mul_right mp.scale hi
        omega
      · have := (hlimiff _).1 x2
        omega) hmore)
    (limit - index) index c cp wk (Nat.le_refl _) hil (Nat.le_refl _) (by rw [hidx]; exact hI)
    (fun i hi => by have := (hlimiff i).1 hi; omega)
  rw [hidx] at hO1
  have hEl : e % mp.scale = 0 → limit * mp.scale ≤ e := by
    intro he
    by_contra hgt
    obtain ⟨q, hq⟩ : ∃ q, e = q * mp.scale := ⟨e / mp.scale, by
      have := Nat.div_add_mod e mp.scale
      rw [Nat.mul_comm]; omega⟩
    have h1 : q < limit := by
      by_contra h2
      have := Nat.mul_le_mul_right mp.scale (Nat.le_of_not_lt h2)
      omega
    have h3 := (hlimiff (limit - 1)).1 (by omega)
    have h4 : q * mp.scale ≤ (limit - 1) * mp.scale := Nat.mul_le_mul_right _ (by omega)
    omega
  have hP0 : c0.gen2.position ≤ c.gen2.position := (hi.pos Gen.gen2).1
  refine ⟨N, c1, cp1, wk1, d1, max e (limit * mp.scale), Nat.le_max_left _ _, ?_, ?_,
    hI1.forward (Nat.le_max_right _ _) (fun k k1 k2 k3 => by omega),
    hO1.extend (Nat.le_max_right _ _) ?_⟩
  · intro he
    have := hEl he
    omega
  · intro fuel hf ex d hex
    unfold collectMapWith
    rw [hnew]
    simp only []
    apply hrun fuel hf _ (by omega)
    rcases hex with h | ⟨i, i1, i2, i3⟩
    · exact Or.inr (Or.inl h)
    · refine Or.inr (Or.inr ⟨i, ?_, (hlimiff i).2 i2, i3⟩)
      rw [← hidx] at i1
      exact Nat.le_of_mul_le_mul_right i1 hsc
  · intro k k1 k2
    cases hb : cardBit B c0.gen2 c.mem c0.heapMap.leafLevel k with
    | false => rfl
    | true =>
      have := hI.cards.below k hb
      omega

end ScanWith

end Heap

namespace Heap

open CollectionType

section LeafCall

variable {B : Nat} {c0 c : Context} {G : Graph} {cp : List Nat}

/-- The scan of the leaf level, all the levels above it being under way. -/
theorem scan_leaf_call (hs : Start B c0 G) (hc : CardsReady B c0 G) (A : List Map)
    (hA : ∀ a ∈ c0.heapMap.nodeLevels, a ∈ A) (hAsub : ∀ a ∈ A, a ∈ c0.heapMap.nodeLevels)
    {wk : List Nat} {sA start e : Nat}
    (hI : ScanInv B c0 G c cp wk A sA start)
    (hst : start ≤ c.gen2.position) (hse : start ≤ e)
    (hreg : ∀ a ∈ A, ∀ x, start ≤ x → x / c0.heapMap.leafLevel.scale * c0.heapMap.leafLevel.scale < e →
      x / a.scale = sA / a.scale) :
    ∃ N c1 cp1 wk1 d1 E, e ≤ E ∧ (e % c0.heapMap.leafLevel.scale = 0 → E = e) ∧
      (∀ fuel, N ≤ fuel → ∀ ex d,
        (ex = false ∨ ∃ i, start ≤ i * c0.heapMap.leafLevel.scale ∧
          i * c0.heapMap.leafLevel.scale < min e c.gen2.position ∧
          c0.heapMap.leafLevel.bit B c.gen2 c.mem i = true) →
        collectMapWith B fuel c0.heapMap.leafLevel none ex c start e d = some (c1, d || d1)) ∧
      ScanInv B c0 G c1 cp1 wk1 A sA E ∧ StepOut B c0 A start start E c c1 d1 := by
  have hlf := Map.leafLevel_mem c0.heapMap
  have hlsc := hc.shape.leaf_scale
  have hlb := hc.shape.bits _ hlf
  apply scan_with hs c0.heapMap.leafLevel (fun _ => none) A (by omega) hlb ?_ hI
    (by rw [hlsc]; exact Nat.mod_one _) hst hse hreg
  · intro limit c cp wk index hI hlim hreg hmore
    rw [hlsc, Nat.mul_one] at hI
    have hl2 : limit ≤ c.gen2.position := by
      by_contra hgt
      have := hlim (limit - 1) (by omega)
      rw [hlsc] at this
      omega
    have hI2 : ScanInv B c0 G c cp wk A sA (Iterator.index ⟨index, limit⟩) := hI
    obtain ⟨N, c1, cp1, wk1, d1, k0, h1, h2, h3, h4, h5⟩ :=
      scan_leaf_step hs hc hI2 hA hAsub (by
        intro a ha x x1 x2
        apply hreg a ha x
        · rw [hlsc]; simp only [] at x1; omega
        · rw [hlsc, Nat.div_one]; exact x2) hl2 hmore
    refine ⟨N, c1, cp1, wk1, d1, k0, h1, h2, h3, ?_, ?_⟩
    · rw [hlsc, Nat.mul_one]; exact h4
    · rw [hlsc, Nat.mul_one, Nat.mul_one, Nat.mul_one]; exact h5
  · intro c cp wk w _ k h
    rw [hlsc, Nat.div_one]; exact h

/-- One turn of the loop of the scan of a level with a child, unfolded. -/
theorem node_loop_eq (B fuel : Nat) (l : Map) (hsc : 1 < l.scale)
    (scan : Context → Nat → Nat → Option (Context × Bool)) (ex : Bool) (n : Nat)
    (c : Context) (it : Iterator) (wd d : Bool) (s : Nat) (it1 : Iterator)
    (hmore : (it.hasMore B c.gen2 l c.mem).1 = true)
    (hnext : (it.hasMore B c.gen2 l c.mem).2.next B c.gen2 l c.mem = some (s, it1)) :
    collectMapLoop B fuel l (some scan) ex (n + 1) c it wd d =
      (match l.clearOnlyAt B c.gen2 c.mem s with
        | none => none
        | some m1 =>
          match scan { c with mem := m1 } s (u32 (s + l.scale)) with
          | none => none
          | some (c2, childDirty) =>
            if childDirty then
              match l.setOnlyAt B c2.gen2 c2.mem s 1 with
              | none => none
              | some m3 =>
                collectMapLoop B fuel l (some scan) ex n { c2 with mem := m3 } it1 true true
            else collectMapLoop B fuel l (some scan) ex n c2 it1 true d) := by
  rw [collectMapLoop]
  simp only [hmore, if_true, hnext]
  rw [if_pos hsc] <;> rfl

end LeafCall

end Heap

namespace Heap

open CollectionType

section NodeStep

variable {B : Nat} {c0 c : Context} {G : Graph} {cp : List Nat}

theorem record_div (i0 sc x : Nat) (hsc : 0 < sc) (h1 : i0 * sc ≤ x) (h2 : x < (i0 + 1) * sc) :
    x / sc = i0 := by
  have a1 := (Nat.div_lt_iff_lt_mul hsc).2 h2
  have a2 := (Nat.le_div_iff_mul_le hsc).2 h1
  omega

theorem record_sub (i0 x cs t : Nat) (hcs : 0 < cs) (h : x / cs * cs < (i0 + 1) * (cs * t)) :
    x < (i0 + 1) * (cs * t) := by
  have e : (i0 + 1) * (cs * t) = ((i0 + 1) * t) * cs := by
    rw [Nat.mul_comm cs t, Nat.mul_assoc]
  rw [e] at h ⊢
  exact (Nat.div_lt_iff_lt_mul hcs).1 (Nat.lt_of_mul_lt_mul_right h)

theorem record_start (i0 k cs t : Nat) (hcs : 0 < cs) (h : i0 * (cs * t) ≤ k) :
    i0 * (cs * t) ≤ k / cs * cs := by
  have e : i0 * (cs * t) = (i0 * t) * cs := by
    rw [Nat.mul_comm cs t, Nat.mul_assoc]
  rw [e] at h ⊢
  exact Nat.mul_le_mul_right _ ((Nat.le_div_iff_mul_le hcs).2 h)

/-- One turn of the loop of the scan of a level with a child: the next record
whose bit is set is found, its bit is cleared, the child level is scanned over
the words of the record, and the bit is set again if that scan reports dirty. -/
theorem scan_node_step (hs : Start B c0 G) (hc : CardsReady B c0 G) {A : List Map} {sA : Nat}
    (l ch : Map) (hl : l ∈ c0.heapMap.nodeLevels) (hlA : l ∉ A)
    (hAsub : ∀ a ∈ A, a ∈ c0.heapMap.nodeLevels)
    (hdiv : ch.scale ∣ l.scale) (hcs : 0 < ch.scale)
    (hchcov : (ch = c0.heapMap.leafLevel ∧ ch.scale = 1) ∨
      (ch ∈ c0.heapMap.nodeLevels ∧ ch ∉ A ∧ ch ≠ l))
    (hchild : ScanCall B c0 G ch (A ++ [l]))
    {wk : List Nat} {index limit : Nat}
    (hI : ScanInv B c0 G c cp wk A sA (index * l.scale))
    (hlim : ∀ i, i < limit → i * l.scale < c.gen2.position)
    (hreg : ∀ a ∈ A, ∀ x, index * l.scale ≤ x → x / l.scale < limit →
      x / a.scale = sA / a.scale)
    (hmore : ((⟨index, limit⟩ : Iterator).hasMore B c.gen2 l c.mem).1 = true) :
    ∃ N c1 cp1 wk1 d1 i0, index ≤ i0 ∧ i0 < limit ∧
      (∀ fuel, N ≤ fuel → ∀ n ex wd d,
        collectMapLoop B fuel l (some fun c1 s1 e1 => collectMap B fuel ch true c1 s1 e1 false)
            ex (n + 1) c ⟨index, limit⟩ wd d =
          collectMapLoop B fuel l (some fun c1 s1 e1 => collectMap B fuel ch true c1 s1 e1 false)
            ex n c1 ⟨i0 + 1, limit⟩ true (d || d1)) ∧
      ScanInv B c0 G c1 cp1 wk1 A sA ((i0 + 1) * l.scale) ∧
      StepOut B c0 A (index * l.scale) (i0 * l.scale) ((i0 + 1) * l.scale) c c1 d1 := by
  have hB := hs.B_pos
  have hW : 0 < BitsPerWord B := by unfold BitsPerWord; omega
  have hmin := hc.minor
  have hi := hI.trav.inv
  have hd : c.gen2.data = c0.gen2.data := hi.seg_data Gen.gen2
  have hk : c.gen2.capacity = c0.gen2.capacity := hi.seg_capacity Gen.gen2
  have hpc : c.gen2.position ≤ c.gen2.capacity := (hi.pos Gen.gen2).2
  have hK : c0.gen2.capacity * 2 < 2 ^ 32 := (hs.seg_ok Gen.gen2).2.2
  have hll := Map.nodeLevels_sub _ l hl
  have hlf := Map.leafLevel_mem c0.heapMap
  have hlne := Map.leafLevel_not_node _ l hl
  obtain ⟨hsc1, hsc2⟩ := hc.shape.node_scale l hl
  have hsc : 0 < l.scale := by omega
  have hlb := hc.shape.bits _ hll
  obtain ⟨t, ht⟩ := hdiv
  obtain ⟨q1, q2, q3, q4, -⟩ := (Iterator.hasMore_spec B hW c.gen2 l c.mem ⟨index, limit⟩).1 hmore
  simp only [] at q1 q2
  have hip := hlim _ q2
  have hnext := Iterator.next_spec B hW c.gen2 l c.mem (by omega) ⟨index, limit⟩ hmore (by omega)
  simp only [] at hnext
  generalize hi0 : ((⟨index, limit⟩ : Iterator).hasMore B c.gen2 l c.mem).2.index = i0
    at q1 q2 q3 q4 hnext hip
  have hcap : 1 ≤ c0.gen2.capacity := by omega
  have hloop := fun fuel ex n wd d => node_loop_eq B fuel l hsc1
    (fun c1 s1 e1 => collectMap B fuel ch true c1 s1 e1 false) ex n c ⟨index, limit⟩ wd d
    _ _ hmore hnext
  have hbit0 : cardBit B c0.gen2 c.mem l i0 = true := by
    rw [cardBit_true, ← Map.bit_seg B c0.gen2 c.gen2 _ _ _ hd hk]
    exact ⟨by omega, q3⟩
  have hu32 : u32 (i0 * l.scale + l.scale) = (i0 + 1) * l.scale := by
    unfold u32
    rw [Nat.mod_eq_of_lt (by omega), Nat.add_mul, Nat.one_mul]
  have hregA : ∀ a ∈ A, (i0 * l.scale) / a.scale = sA / a.scale := fun a ha =>
    hreg a ha _ (Nat.mul_le_mul_right _ q1) (by rw [Nat.mul_div_cancel _ hsc]; exact q2)
  have hneA : ∀ a ∈ A, a ≠ l := fun a ha e => hlA (e ▸ ha)
  -- the bit of the record is cleared
  obtain ⟨m1, hm1, hfr1, hb1⟩ := Map.clearOnlyAt_spec B hB c.gen2 l c.mem i0 hlb (by omega)
    (by omega)
  have w1 := level_write_bits hs c.gen2 hd hk _ hll c.mem m1 i0 false hfr1 hb1
  have hfc1 : ∀ a, ¬ c0.inCards B a → m1 a = c.mem a := fun a ha =>
    hfr1 a (fun h => ha (level_inCards c.gen2 hd hk hcap _ hll a h))
  have hlf1 : ∀ k, cardBit B c0.gen2 m1 c0.heapMap.leafLevel k =
      cardBit B c0.gen2 c.mem c0.heapMap.leafLevel k := by
    intro k
    rw [w1 _ hlf k, if_neg (fun h => hlne h.1.symm)]
  have hskipN : ∀ k, index * l.scale ≤ k → k < i0 * l.scale →
      cardBit B c0.gen2 c.mem c0.heapMap.leafLevel k = false := by
    intro k k1 k2
    cases hb : cardBit B c0.gen2 c.mem c0.heapMap.leafLevel k with
    | false => rfl
    | true =>
      exfalso
      have h3 := (cardBit_true B c0.gen2 c.mem l _).1
        (hI.cards.cov l hl k hb (fun h => hlA h.1))
      rw [← Map.bit_seg B c0.gen2 c.gen2 _ _ _ hd hk] at h3
      have h4 : index ≤ k / l.scale := (Nat.le_div_iff_mul_le hsc).2 k1
      have h5 : k / l.scale < i0 := (Nat.div_lt_iff_lt_mul hsc).2 k2
      rw [q4 _ h4 h5] at h3
      exact absurd h3.2 (by simp)
  have hI1 : ScanInv B c0 G { c with mem := m1 } cp wk (A ++ [l]) (i0 * l.scale)
      (i0 * l.scale) := by
    apply hI.rebits hs m1 hfc1 hlf1 (Nat.mul_le_mul_right _ q1)
      (fun k k1 k2 _ => hskipN k k1 k2)
    apply hI.cards.open_record hlA (Nat.mul_le_mul_right _ q1) hsc hregA hlf1
    intro a ha i
    rw [w1 a (Map.nodeLevels_sub _ a ha) i, Bool.and_false]
  -- the record holds a set bit of the child level
  obtain ⟨kw, kw1, kw2, -⟩ := hI.cards.wc l hl i0 hbit0
  have kw3 := hI.cards.below kw kw1
  have kw4 : i0 * l.scale ≤ kw := by
    have := Nat.div_mul_le_self kw l.scale
    rw [kw2] at this
    exact this
  have kw5 : kw < (i0 + 1) * l.scale := by
    have := Nat.lt_mul_div_succ kw hsc
    rw [kw2, Nat.mul_comm] at this
    exact this
  have hcovch : cardBit B c0.gen2 m1 ch (kw / ch.scale) = true := by
    rcases hchcov with ⟨h1, h2⟩ | ⟨h1, h2, h3⟩
    · rw [h2, Nat.div_one, h1, hlf1]
      exact kw1
    · rw [w1 ch (Map.nodeLevels_sub _ ch h1) _, if_neg (fun h => h3 h.1)]
      exact hI.cards.cov ch h1 kw kw1 (fun h => h2 h.1)
  -- the scan of the child level
  obtain ⟨N, c2, cp2, wk2, d1, E, -, hE, hrun, hI2, hO2⟩ := hchild { c with mem := m1 } cp wk
    (i0 * l.scale) (i0 * l.scale) ((i0 + 1) * l.scale) hI1
    (by rw [ht, ← Nat.mul_assoc, Nat.mul_comm _ ch.scale, Nat.mul_assoc]
        exact Nat.mul_mod_right _ _)
    (by show _ ≤ c.gen2.position; omega)
    (Nat.mul_le_mul_right _ (Nat.le_succ _))
    (by
      intro a ha x x1 x2
      rw [ht] at x2
      have x3 := record_sub i0 x ch.scale t hcs x2
      rw [← ht] at x3
      have x4 := record_div i0 l.scale x hsc x1 x3
      rcases List.mem_append.1 ha with ha | ha
      · rw [hregA a ha]
        exact hreg a ha x (Nat.le_trans (Nat.mul_le_mul_right _ q1) x1) (by rw [x4]; exact q2)
      · rw [List.mem_singleton.1 ha, x4, Nat.mul_div_cancel _ hsc])
  obtain rfl : E = (i0 + 1) * l.scale := hE (by
    rw [ht, ← Nat.mul_assoc, Nat.mul_comm _ ch.scale, Nat.mul_assoc]
    exact Nat.mul_mod_right _ _)
  have hrun2 : ∀ fuel, N ≤ fuel →
      collectMap B fuel ch true { c with mem := m1 } (i0 * l.scale) ((i0 + 1) * l.scale) false =
        some (c2, d1) := by
    intro fuel hf
    rw [hrun fuel hf true false (Or.inr ⟨kw / ch.scale, ?_, ?_, ?_⟩), Bool.false_or]
    · rw [ht] at kw4 ⊢
      exact record_start i0 kw ch.scale t hcs kw4
    · have := Nat.div_mul_le_self kw ch.scale
      show _ < min _ c.gen2.position
      omega
    · have := ((cardBit_true B c0.gen2 m1 ch _).1 hcovch).2
      rw [← Map.bit_seg B c0.gen2 c.gen2 _ _ _ hd hk] at this
      exact this
  have hi2 := hI2.trav.inv
  have hd2 : c2.gen2.data = c0.gen2.data := hi2.seg_data Gen.gen2
  have hk2 : c2.gen2.capacity = c0.gen2.capacity := hi2.seg_capacity Gen.gen2
  have hP : c.gen2.position ≤ c2.gen2.position := hO2.rel.pos
  have key : ∀ (m3 : Mem), (∀ a, ¬ c0.inCards B a → m3 a = c2.mem a) →
      (∀ a ∈ c0.heapMap.levels, ∀ i, cardBit B c0.gen2 m3 a i =
        if a = l ∧ i = i0 then (cardBit B c0.gen2 c2.mem a i || d1)
        else cardBit B c0.gen2 c2.mem a i) →
      ScanInv B c0 G { c2 with mem := m3 } cp2 wk2 A sA ((i0 + 1) * l.scale) ∧
      StepOut B c0 A (index * l.scale) (i0 * l.scale) ((i0 + 1) * l.scale) c
        { c2 with mem := m3 } d1 := by
    intro m3 hfr3 hb3
    have hlf3 : ∀ k, cardBit B c0.gen2 m3 c0.heapMap.leafLevel k =
        cardBit B c0.gen2 c2.mem c0.heapMap.leafLevel k := by
      intro k
      rw [hb3 _ hlf k, if_neg (fun h => hlne h.1.symm)]
    have hA3 : ∀ a ∈ A, ∀ i, cardBit B c0.gen2 m3 a i = cardBit B c0.gen2 c2.mem a i := by
      intro a ha i
      rw [hb3 a (Map.nodeLevels_sub _ a (hAsub a ha)) i, if_neg (fun h => hneA a ha h.1)]
    have hA1 : ∀ a ∈ A, ∀ i, cardBit B c0.gen2 m1 a i = cardBit B c0.gen2 c.mem a i := by
      intro a ha i
      rw [w1 a (Map.nodeLevels_sub _ a (hAsub a ha)) i, if_neg (fun h => hneA a ha h.1)]
    refine ⟨?_, ⟨⟨hP, ?_, ?_, ?_⟩, ?_, ?_, ?_⟩⟩
    · apply hI2.rebits hs m3 hfr3 hlf3 (Nat.le_refl _) (fun k k1 k2 _ => by omega)
      apply hI2.cards.close_record hlA hsc rfl hregA hlf3
        (fun a ha i => hb3 a (Map.nodeLevels_sub _ a ha) i) hO2.wit
      intro k k1 k2 hk
      rcases hO2.d2 k k1 k2 hk with h | h
      · exact Or.inl h
      · right
        have := h l (List.mem_append.2 (Or.inr (List.mem_singleton.2 rfl)))
        rw [record_div i0 l.scale k hsc k1 k2] at this
        exact this
    · intro a ha i h
      show cardBit B c0.gen2 m3 a i = true
      rw [hA3 a ha]
      apply hO2.rel.anc a (List.mem_append.2 (Or.inl ha))
      show cardBit B c0.gen2 m1 a i = true
      rw [hA1 a ha]; exact h
    · intro k h
      have h3 : cardBit B c0.gen2 m3 c0.heapMap.leafLevel k = true := h
      rw [hlf3] at h3
      rcases hO2.rel.leaf_new k h3 with h4 | h4
      · left
        rw [← hlf1]; exact h4
      · right
        intro a ha
        show cardBit B c0.gen2 m3 a _ = true
        rw [hA3 a ha]
        exact h4 a (List.mem_append.2 (Or.inl ha))
    · intro k k1 h
      show cardBit B c0.gen2 m3 _ k = true
      rw [hlf3]
      apply hO2.rel.leaf_keep k (Nat.lt_of_lt_of_le k1 (Nat.mul_le_mul_right _ q1))
      show cardBit B c0.gen2 m1 _ k = true
      rw [hlf1]; exact h
    · exact hskipN
    · intro hd1
      obtain ⟨k, k1, k2, k3⟩ := hO2.wit hd1
      refine ⟨k, k1, k2, ?_⟩
      show cardBit B c0.gen2 m3 _ k = true
      rw [hlf3]; exact k3
    · intro k k1 k2 h
      have h3 : cardBit B c0.gen2 m3 c0.heapMap.leafLevel k = true := h
      rw [hlf3] at h3
      rcases hO2.d2 k k1 k2 h3 with h4 | h4
      · exact Or.inl h4
      · right
        intro a ha
        show cardBit B c0.gen2 m3 a _ = true
        rw [hA3 a ha]
        exact h4 a (List.mem_append.2 (Or.inl ha))
  cases hd1 : d1 with
  | true =>
    obtain ⟨m3, hm3, hfr3, hb3⟩ := Map.setOnlyAt_spec B hB c2.gen2 l c2.mem i0 hlb (by omega)
      (by omega) (by omega)
    have w3 := level_write_bits hs c2.gen2 hd2 hk2 _ hll c2.mem m3 i0 true hfr3 hb3
    obtain ⟨r1, r2⟩ := key m3
      (fun a ha => hfr3 a (fun h => ha (level_inCards c2.gen2 hd2 hk2 hcap _ hll a h)))
      (by
        intro a ha i
        rw [w3 a ha i, hd1]
        by_cases e : a = l ∧ i = i0
        · rw [if_pos e, if_pos e, Bool.or_true]
          simp only [Bool.and_true, decide_eq_true_eq]
          omega
        · rw [if_neg e, if_neg e])
    rw [hd1] at r2
    refine ⟨N, { c2 with mem := m3 }, cp2, wk2, true, i0, q1, q2, ?_, r1, r2⟩
    intro fuel hf n ex wd d
    rw [hloop, hm1]
    simp only []
    rw [hu32, hrun2 fuel hf, hd1]
    simp only [if_true]
    rw [hm3, Bool.or_true]
  | false =>
    obtain ⟨r1, r2⟩ := key c2.mem (fun _ _ => rfl)
      (by
        intro a ha i
        rw [hd1]
        by_cases e : a = l ∧ i = i0
        · rw [if_pos e, Bool.or_false]
        · rw [if_neg e])
    rw [hd1] at r2
    refine ⟨N, c2, cp2, wk2, false, i0, q1, q2, ?_, r1, r2⟩
    intro fuel hf n ex wd d
    rw [hloop, hm1]
    simp only []
    rw [hu32, hrun2 fuel hf, hd1]
    simp only [Bool.false_eq_true, if_false, Bool.or_false]

end NodeStep

end Heap

namespace Heap

open CollectionType

section ScanCallProof

variable {B : Nat} {c0 c : Context} {G : Graph} {cp : List Nat}

theorem Map.levels_size (mp : Map) : ∀ a ∈ mp.levels, sizeOf a ≤ sizeOf mp := by
  induction mp with
  | leaf b s cl =>
    intro a ha
    simp only [Map.levels, List.mem_singleton] at ha
    rw [ha]
  | node b s cl ch ih =>
    intro a ha
    simp only [Map.levels, List.mem_cons] at ha
    rcases ha with rfl | ha
    · exact Nat.le_refl _
    · have := ih a ha
      simp only [Map.node.sizeOf_spec]
      omega

theorem Map.nodeLevels_nodup (mp : Map) : mp.nodeLevels.Nodup := by
  induction mp with
  | leaf b s cl => exact List.nodup_nil
  | node b s cl ch ih =>
    simp only [Map.nodeLevels]
    refine List.nodup_cons.2 ⟨?_, ih⟩
    intro h
    have := Map.levels_size ch _ (Map.nodeLevels_sub ch _ h)
    simp only [Map.node.sizeOf_spec] at this
    omega

theorem Map.node_mem_nodeLevels (b s : Nat) (cl : Bool) (ch : Map) :
    Map.node b s cl ch ∈ (Map.node b s cl ch).nodeLevels := by
  simp only [Map.nodeLevels, List.mem_cons, true_or]

/-- The scan of a level of the card hierarchy of gen2 does what `ScanCall`
says, the levels above it being under way. -/
theorem scan_call (hs : Start B c0 G) (hc : CardsReady B c0 G) :
    ∀ (mp : Map) (A : List Map), c0.heapMap.nodeLevels = A ++ mp.nodeLevels →
      mp.leafLevel = c0.heapMap.leafLevel → mp.Nested → ScanCall B c0 G mp A := by
  intro mp
  induction mp with
  | leaf b s cl =>
    intro A hA hlf _
    simp only [Map.nodeLevels, List.append_nil] at hA
    simp only [Map.leafLevel] at hlf
    have hcm : ∀ fuel ex c start e d, collectMap B fuel (Map.leaf b s cl) ex c start e d =
        collectMapWith B fuel c0.heapMap.leafLevel none ex c start e d := by
      intro fuel ex c start e d
      rw [collectMap, hlf]
    intro c cp wk sA start e hI hal hst hse hreg
    simp only [hcm]
    rw [hlf] at hreg ⊢
    exact scan_leaf_call hs hc A (by rw [hA]; exact fun a h => h) (by rw [hA]; exact fun a h => h)
      hI hst hse hreg
  | node b sc cl ch ih =>
    intro A hA hlf hn
    have hl : Map.node b sc cl ch ∈ c0.heapMap.nodeLevels := by
      rw [hA]
      exact List.mem_append.2 (Or.inr (Map.node_mem_nodeLevels b sc cl ch))
    have hnd := Map.nodeLevels_nodup c0.heapMap
    rw [hA] at hnd
    simp only [Map.nodeLevels] at hnd
    obtain ⟨-, hnd2, hnd3⟩ := List.nodup_append.1 hnd
    have hlA : Map.node b sc cl ch ∉ A := fun h => hnd3 h (List.mem_cons_self _ _)
    have hAsub : ∀ a ∈ A, a ∈ c0.heapMap.nodeLevels := by
      intro a ha
      rw [hA]
      exact List.mem_append.2 (Or.inl ha)
    have hchl : ch ∈ c0.heapMap.levels ∧ ((ch = c0.heapMap.leafLevel ∧ ch.scale = 1) ∨
        (ch ∈ c0.heapMap.nodeLevels ∧ ch ∉ A ∧ ch ≠ Map.node b sc cl ch)) := by
      cases ch with
      | leaf b1 s1 cl1 =>
        simp only [Map.leafLevel] at hlf
        rw [hlf]
        exact ⟨Map.leafLevel_mem _, Or.inl ⟨rfl, hc.shape.leaf_scale⟩⟩
      | node b1 s1 cl1 ch1 =>
        have h1 : Map.node b1 s1 cl1 ch1 ∈ c0.heapMap.nodeLevels := by
          rw [hA]
          simp only [Map.nodeLevels, List.mem_append, List.mem_cons, true_or, or_true]
        have h2 : Map.node b1 s1 cl1 ch1 ∈
            Map.node b sc cl (Map.node b1 s1 cl1 ch1) :: (Map.node b1 s1 cl1 ch1).nodeLevels :=
          List.mem_cons_of_mem _ (Map.node_mem_nodeLevels b1 s1 cl1 ch1)
        refine ⟨Map.nodeLevels_sub _ _ h1, Or.inr ⟨h1, fun h => hnd3 h h2, ?_⟩⟩
        intro h
        have := (List.nodup_cons.1 hnd2).1
        rw [← h] at this
        exact this (Map.node_mem_nodeLevels b1 s1 cl1 ch1)
    have hchild := ih (A ++ [Map.node b sc cl ch]) (by
      rw [hA, List.append_assoc]
      rfl) hlf hn.2
    have hcm : ∀ fuel ex c start e d, collectMap B fuel (Map.node b sc cl ch) ex c start e d =
        collectMapWith B fuel (Map.node b sc cl ch)
          (some fun c1 s1 e1 => collectMap B fuel ch true c1 s1 e1 false) ex c start e d := by
      intro fuel ex c start e d
      rw [collectMap]
    obtain ⟨hsc1, -⟩ := hc.shape.node_scale _ hl
    have hcs := (hs.level_ok ch hchl.1).1
    intro c cp wk sA start e hI hal hst hse hreg
    simp only [hcm]
    exact scan_with hs (Map.node b sc cl ch)
      (fun fuel => some fun c1 s1 e1 => collectMap B fuel ch true c1 s1 e1 false) A (by omega)
      (hc.shape.bits _ (Map.nodeLevels_sub _ _ hl))
      (fun c cp wk w hI k h => hI.cards.cov _ hl k h (fun h => hlA h.1))
      hI hal hst hse hreg
      (fun limit c cp wk index hI hlim hreg hmore =>
        scan_node_step hs hc (Map.node b sc cl ch) ch hl hlA hAsub hn.1 (by omega) hchl.2 hchild
          hI hlim hreg hmore)

end ScanCallProof

end Heap

namespace Heap

open CollectionType

section Roots

variable {B : Nat} {c0 c : Context} {G : Graph} {cp : List Nat}

/-- While no level is under way the state of the card bits does not depend on
the cursor of the scan. -/
theorem CardInv.idle {nodes : List Map} {lf : Map} {bt : Map → Nat → Bool} {s w P0 P : Nat}
    (h : CardInv nodes lf bt [] s w P0 P) (s1 w1 P1 : Nat) :
    CardInv nodes lf bt [] s1 w1 P1 P :=
  ⟨fun a ha k hk _ => h.cov a ha k hk (fun h2 => absurd h2.1 (List.not_mem_nil _)),
    fun a ha i hi => by
      obtain ⟨k, k1, k2, -⟩ := h.wc a ha i hi
      exact ⟨k, k1, k2, fun h2 => absurd h2 (List.not_mem_nil _)⟩,
    h.below⟩

/-- The state of the scan when a Minor collection starts. -/
theorem ScanInv.init (hr : Ready B c0 G) (hc : CardsReady B c0 G) :
    ScanInv B c0 G c0 [] [] [] 0 0 := by
  refine ⟨Trav.trav_init hr, fun _ _ _ => ⟨rfl, rfl⟩, fun _ _ _ => rfl,
    fun _ _ => Or.inl ⟨rfl, fun h => h⟩, fun k h => absurd h (Nat.not_lt_zero k),
    fun _ h => absurd h (List.not_mem_nil _), ?_, hc.cards⟩
  intro k h1 h2
  have := hc.cards.below k h2
  omega

/-- A traversal called for a slot outside gen2 keeps what the collection knows
of the slots of gen2. -/
theorem sound_step (hs : Start B c0 G) (hc : CardsReady B c0 G) {wk : List Nat}
    (hT : Trav B c0 G c cp wk (fun _ => []) []) {p : Nat}
    (hg : ¬ c0.inStorage B Gen.gen2 p) (ho : OldSound B c0 c cp) (hn : NewSound B c0 G c wk)
    {w : Nat} (hse : OldSeen B c0 c cp w) {c1 : Context} {cp1 wk1 : List Nat} {Mk : Nat → Prop}
    (hT1 : Trav B c0 G c1 cp1 wk1 (fun _ => []) []) (hG : Grows c cp c1 cp1)
    (hmem : ∀ a, Settable B c0 G a → a ≠ p → c1.mem a = c.mem a)
    (hbits : ∀ l ∈ c0.heapMap.levels, ∀ i, cardBit B c0.gen2 c1.mem l i = true ↔
      (cardBit B c0.gen2 c.mem l i = true ∨ ∃ k, Mk k ∧ i = k / l.scale))
    (hall : ∀ y ∈ wk1, y ∉ wk → ∀ j ∈ (G.lay y).slots,
      cardCond B c1 (c1.mem y + j * B) (referent B c0 c1 (G.m0 (y + j * B))) →
      Mk ((c1.mem y + j * B - c0.gen2.data) / B)) :
    OldSound B c0 c1 cp1 ∧ NewSound B c0 G c1 wk1 ∧ OldSeen B c0 c1 cp1 w := by
  have hB := hs.B_pos
  have hmin := hc.minor
  have hlf := Map.leafLevel_mem c0.heapMap
  have hlsc := hc.shape.leaf_scale
  have hi := hT.inv
  have hi1 := hT1.inv
  have hseg := hs.seg_ok Gen.gen2
  simp only [Context.seg] at hseg
  have hd : c.gen2.data = c0.gen2.data := hi.seg_data Gen.gen2
  have hd1 : c1.gen2.data = c0.gen2.data := hi1.seg_data Gen.gen2
  have hmono : ∀ k, cardBit B c0.gen2 c.mem c0.heapMap.leafLevel k = true →
      cardBit B c0.gen2 c1.mem c0.heapMap.leafLevel k = true :=
    fun k h => (hbits _ hlf k).2 (Or.inl h)
  have hnep : ∀ k, k < c0.gen2.position → c0.gen2.data + k * B ≠ p := by
    intro k hk
    rintro rfl
    apply hg
    have hlt := Nat.mul_lt_mul_of_pos_right (show k < c0.gen2.capacity by omega) hB
    unfold Context.inStorage
    simp only [Context.seg, Nat.add_mul]
    omega
  refine ⟨?_, ?_, ?_⟩
  rotate_left 2
  · intro k h1 h2 h3
    rw [hmem _ (old_slot_settable hs hmin k h2) (hnep k h2)]
    exact Updated.upd_mono _ _ (hse k h1 h2 h3) hG.sub hG.fwd
  · intro k hk
    have hne := hnep k hk
    rw [hmem _ (old_slot_settable hs hmin k hk) hne]
    rcases ho k hk with h | h
    · exact Or.inl ⟨h.1, fun hb => hmono k (h.2 hb)⟩
    · right
      refine ⟨Updated.upd_mono _ _ h.1 hG.sub hG.fwd, ?_⟩
      intro hcon
      apply hmono
      apply h.2
      cases hcc : c.gen2.contains B (c.mem (c0.gen2.data + k * B)) with
      | false => rfl
      | true =>
        have := Segment.contains_mono c.gen2 c1.gen2 _ (by rw [hd1, hd]) (hG.pos Gen.gen2) hcc
        rw [hcon] at this
        exact absurd this (by simp)
  · intro y hy j hj hcc
    by_cases hyw : y ∈ wk
    · have hyc := hT.slots.wk_sub y hyw
      have hv := hT.slots.walked y hyw j hj (List.not_mem_nil _)
      have hv2 : mask B (G.m0 (y + j * B)) = 0 ∨ isOld B c0 (mask B (G.m0 (y + j * B))) ∨
          mask B (G.m0 (y + j * B)) ∈ cp := by
        rcases hv.2 with h | h | h
        · exact Or.inl h.1
        · exact Or.inr (Or.inl h.1)
        · exact Or.inr (Or.inr h.1)
      have hce := (cardCond_eq hs hi hi1 hG.sub hG.fwd y hyc j hj _ hv2).1 hcc
      rw [hG.fwd y hyc]
      exact hmono _ (hn y hyw j hj hce)
    · apply (hbits _ hlf _).2
      right
      exact ⟨_, hall y hy hyw j hj hcc, by rw [hlsc, Nat.div_one]⟩

/-- The root visit of `collect2` in a Minor collection, for root slots outside
gen2 that hold null or a reference to an object, each named once: the
traversals end, every root slot is updated, and the state of the card bits and
what is known of the slots of gen2 hold again. -/
theorem visit_roots (hs : Start B c0 G) (hc : CardsReady B c0 G) :
    ∀ (roots : List Nat) (c : Context) (cp wk : List Nat), roots.Nodup →
      (∀ p ∈ roots, Settable B c0 G p ∧ ¬ c0.inStorage B Gen.gen2 p ∧
        (mask B (c.mem p) = 0 ∨ mask B (c.mem p) ∈ G.objs)) →
      Trav B c0 G c cp wk (fun _ => []) [] →
      CardInv c0.heapMap.nodeLevels c0.heapMap.leafLevel (cardBit B c0.gen2 c.mem) [] 0 0
        c0.gen2.position c.gen2.position →
      OldSound B c0 c cp → NewSound B c0 G c wk → ∀ w, OldSeen B c0 c cp w →
      ∃ N c1 cp1 wk1, (∀ fuel, N ≤ fuel → visitRoots B fuel roots c = some c1) ∧
        Trav B c0 G c1 cp1 wk1 (fun _ => []) [] ∧ Grows c cp c1 cp1 ∧
        CardInv c0.heapMap.nodeLevels c0.heapMap.leafLevel (cardBit B c0.gen2 c1.mem) [] 0 0
          c0.gen2.position c1.gen2.position ∧
        OldSound B c0 c1 cp1 ∧ NewSound B c0 G c1 wk1 ∧ OldSeen B c0 c1 cp1 w ∧
        (∀ p ∈ roots, Updated B c0 c1 cp1 (c1.mem p) (c.mem p)) ∧
        (∀ a, Settable B c0 G a → a ∉ roots → c1.mem a = c.mem a) := by
  have hlf := Map.leafLevel_mem c0.heapMap
  have hlsc := hc.shape.leaf_scale
  intro roots
  induction roots with
  | nil =>
    intro c cp wk _ _ hT hC ho hn w hse
    exact ⟨0, c, cp, wk, fun _ _ => rfl, hT, Grows.refl c cp, hC, ho, hn, hse,
      fun _ h => absurd h (List.not_mem_nil _), fun _ _ _ => rfl⟩
  | cons p rest ih =>
    intro c cp wk hnd hrs hT hC ho hn w hse
    obtain ⟨hp, hg, hv⟩ := hrs p (List.mem_cons_self _ _)
    obtain ⟨n, c1, cp1, wk1, Mk, hrun, hT1, hG, -, hmem, hbits, hMk, hupd, hall⟩ :=
      collectSlot_cards hs hc.minor hT hp hv
    have hC0 : CardInv c0.heapMap.nodeLevels c0.heapMap.leafLevel (cardBit B c0.gen2 c1.mem) []
        0 c1.gen2.position c0.gen2.position c1.gen2.position := by
      apply hC.marks Mk (Nat.zero_le _) (hG.pos Gen.gen2)
        (fun a ha i => hbits a (Map.nodeLevels_sub _ a ha) i)
      · intro k
        rw [hbits _ hlf k, hlsc]
        simp only [Nat.div_one]
        constructor
        · rintro (h | ⟨k1, h1, rfl⟩)
          · exact Or.inl h
          · exact Or.inr h1
        · rintro (h | h)
          · exact Or.inl h
          · exact Or.inr ⟨k, h, rfl⟩
      · intro k hk
        exact ⟨(hMk k hk).1, Or.inl (hMk k hk).1⟩
    have hC1 := hC0.idle 0 0 c0.gen2.position
    obtain ⟨ho1, hn1, hse1⟩ := sound_step hs hc hT hg ho hn hse hT1 hG hmem hbits hall
    have hnd2 := List.nodup_cons.1 hnd
    obtain ⟨N, c2, cp2, wk2, hrun2, hT2, hG2, hC2, ho2, hn2, hse2, hup2, hfr2⟩ :=
      ih c1 cp1 wk1 hnd2.2 (by
        intro q hq
        obtain ⟨hq1, hq2, hq3⟩ := hrs q (List.mem_cons_of_mem _ hq)
        refine ⟨hq1, hq2, ?_⟩
        rw [hmem q hq1 (fun h => hnd2.1 (h ▸ hq))]
        exact hq3) hT1 hC1 ho1 hn1 w hse1
    refine ⟨max n N, c2, cp2, wk2, ?_, hT2, hG.trans hG2, hC2, ho2, hn2, hse2, ?_, ?_⟩
    · intro fuel hf
      rw [visitRoots, hrun fuel, if_pos (by omega)]
      exact hrun2 fuel (by omega)
    · intro q hq
      rcases List.mem_cons.1 hq with rfl | hq
      · rw [hfr2 q hp hnd2.1]
        exact Updated.upd_mono _ _ hupd hG2.sub hG2.fwd
      · have := hup2 q hq
        rw [hmem q (hrs q (List.mem_cons_of_mem _ hq)).1 (fun h => hnd2.1 (h ▸ hq))] at this
        exact this
    · intro a ha hna
      rw [hfr2 a ha (fun h => hna (List.mem_cons_of_mem _ h)),
        hmem a ha (fun h => hna (h ▸ List.mem_cons_self _ _))]

/-- Card completeness follows from the state of the card bits between two
scans. -/
theorem CardInv.complete (B : Nat) (sg : Segment) (m : Mem) (top : Map) (hsh : CardShape top)
    {s w P0 P : Nat}
    (h : CardInv top.nodeLevels top.leafLevel (cardBit B sg m) [] s w P0 P) :
    ∀ mp : Map, (∀ a ∈ mp.nodeLevels, a ∈ top.nodeLevels) → mp.leafLevel = top.leafLevel →
      mp.Nested → (∀ a ∈ mp.levels, 0 < a.scale) → Map.Complete B sg m mp := by
  intro mp
  induction mp with
  | leaf b sc cl =>
    intro _ _ _ _
    trivial
  | node b sc cl ch ih =>
    intro hsub hlf hn hpos
    have hl := hsub _ (Map.node_mem_nodeLevels b sc cl ch)
    have hcs : 0 < ch.scale := hpos ch (List.mem_cons_of_mem _ (Map.mem_levels_self ch))
    have hsc : 0 < sc := hpos (Map.node b sc cl ch) (List.mem_cons_self _ _)
    refine ⟨?_, ih (fun a ha => hsub a (List.mem_cons_of_mem _ ha)) hlf hn.2
      (fun a ha => hpos a (List.mem_cons_of_mem _ ha))⟩
    intro i hi
    obtain ⟨k, k1, k2, -⟩ := h.wc _ hl i hi
    have k2 : k / sc = i := k2
    have k3 : i * sc ≤ k := by
      have := Nat.div_mul_le_self k sc
      rw [k2] at this
      exact this
    have k4 : k < (i + 1) * sc := by
      have := Nat.lt_mul_div_succ k hsc
      rw [k2, Nat.mul_comm] at this
      exact this
    obtain ⟨t, ht⟩ := hn.1
    refine ⟨k / ch.scale, ?_, ?_, ?_⟩
    · cases ch with
      | leaf b1 s1 cl1 =>
        simp only [Map.leafLevel] at hlf
        have hs1 : (Map.leaf b1 s1 cl1).scale = 1 := by rw [hlf]; exact hsh.leaf_scale
        rw [hs1, Nat.div_one, hlf]
        exact k1
      | node b1 s1 cl1 ch1 =>
        exact h.cov _ (hsub _ (List.mem_cons_of_mem _ (Map.node_mem_nodeLevels b1 s1 cl1 ch1)))
          k k1 (fun h2 => absurd h2.1 (List.not_mem_nil _))
    · rw [ht] at k3 ⊢
      exact record_start i k ch.scale t hcs k3
    · have := Nat.div_mul_le_self k ch.scale
      omega

end Roots

end Heap

namespace Heap

open CollectionType

section Collect2Cards

variable {B : Nat} {c0 c : Context} {G : Graph}

/-- The scan and the root visit of `collect2` in a Minor collection: they end,
the traversals are closed and the state of the card bits holds again. -/
theorem collect2_cards
    (hent : c0 = { c with gen2Base := Top, tenureFootprint := 0, gen1padding := 0,
                          gen2padding := 0 })
    (hr : Ready B c0 G) (hc : CardsReady B c0 G) (hnd : c0.client.roots.Nodup)
    (hrs : ∀ p ∈ c0.client.roots, Settable B c0 G p ∧ ¬ c0.inStorage B Gen.gen2 p ∧
      (mask B (c0.mem p) = 0 ∨ mask B (c0.mem p) ∈ G.objs)) :
    ∃ N c1 cp1 wk1, (∀ fuel, N ≤ fuel → collect2 B fuel c = some c1) ∧
      Trav B c0 G c1 cp1 wk1 (fun _ => []) [] ∧
      CardInv c0.heapMap.nodeLevels c0.heapMap.leafLevel (cardBit B c0.gen2 c1.mem) [] 0 0
        c0.gen2.position c1.gen2.position ∧
      OldSound B c0 c1 cp1 ∧ NewSound B c0 G c1 wk1 ∧
      (∀ p ∈ c0.client.roots, Updated B c0 c1 cp1 (c1.mem p) (c0.mem p)) ∧
      OldSeen B c0 c1 cp1 c0.gen2.position := by
  have hs := hr.start
  have hcol : ∀ fuel, collect2 B fuel c =
      match (if c0.mode = MinorCollection ∧ c0.gen2.position ≠ 0 then
          (collectMap B fuel c0.heapMap false c0 0 (u32 (0 + c0.gen2.position)) false).map
            fun r => r.1
         else some c0) with
      | none => none
      | some c2 => visitRoots B fuel c2.client.roots c2 := by
    intro fuel
    rw [hent]
    rfl
  have hI0 := ScanInv.init hr hc
  have hseg := hs.seg_ok Gen.gen2
  simp only [Context.seg] at hseg
  by_cases hpos : c0.gen2.position = 0
  · obtain ⟨N, c2, cp2, wk2, hrun, hT2, -, hC2, ho2, hn2, hse2, hu2, -⟩ :=
      visit_roots hs hc c0.client.roots c0 [] [] hnd hrs hI0.trav hI0.cards hI0.olds hI0.news
        c0.gen2.position (fun k _ h => absurd h (by omega))
    refine ⟨N, c2, cp2, wk2, ?_, hT2, hC2, ho2, hn2, hu2, hse2⟩
    intro fuel hf
    rw [hcol, if_neg (fun h => h.2 hpos)]
    exact hrun fuel hf
  · obtain ⟨N1, c1, cp1, wk1, d1, E, hE, -, hrun1, hI1, -⟩ :=
      scan_call hs hc c0.heapMap [] rfl rfl hc.shape.nested c0 [] [] 0 0 c0.gen2.position hI0
        (Nat.zero_mod _) (Nat.zero_le _) (Nat.zero_le _)
        (fun a ha => absurd ha (List.not_mem_nil _))
    have hroots : c1.client.roots = c0.client.roots := congrArg Shape.roots hI1.trav.inv.shape
    obtain ⟨N2, c2, cp2, wk2, hrun2, hT2, -, hC2, ho2, hn2, hse2, hu2, -⟩ :=
      visit_roots hs hc c0.client.roots c1 cp1 wk1
        hnd (fun p hp => ⟨(hrs p hp).1, (hrs p hp).2.1, by
          rw [hI1.outside p (hrs p hp).1 (hrs p hp).2.1]
          exact (hrs p hp).2.2⟩) hI1.trav (hI1.cards.idle 0 0 c0.gen2.position) hI1.olds hI1.news
        c0.gen2.position (fun k h1 h2 h3 => hI1.seen k (Nat.lt_of_lt_of_le h1 hE) h2 h3)
    refine ⟨max N1 N2, c2, cp2, wk2, ?_, hT2, hC2, ho2, hn2, fun p hp => by
      have := hu2 p hp
      rw [hI1.outside p (hrs p hp).1 (hrs p hp).2.1] at this
      exact this, hse2⟩
    intro fuel hf
    have hu : u32 (0 + c0.gen2.position) = c0.gen2.position := by
      unfold u32
      rw [Nat.zero_add, Nat.mod_eq_of_lt (by omega)]
    rw [hcol, if_pos ⟨hc.minor, hpos⟩, hu, hrun1 fuel (by omega) false false (Or.inl rfl)]
    simp only [Option.map_some']
    rw [hroots]
    exact hrun2 fuel (by omega)

end Collect2Cards

/-- C12: card completeness after a Minor collection.  `collect2` is entered
with the context `c`; `c0` is `c` after its first four assignments.  Assume the
heap is ready for the traversals (`Ready`), the card hierarchy of gen2 has the
shape the scan accepts and is in the state the collector and `mark` keep between
collections (`CardsReady`: a set pointerMap bit has its pageMap and heapMap
bits set, a set heapMap or pageMap bit covers a set pointerMap bit, set bits
lie below the position, marked slots hold null or a reference), and the root
slots are named once, lie outside gen2 and hold null or a reference.  Then with
enough fuel `collect2` returns, and in the context it returns every set bit of
a level with a child (heapMap, pageMap) has a set bit of the child level
(pageMap, pointerMap) among the records of the child that it covers. -/
theorem minor_cards_complete {B : Nat} {c0 c : Context} {G : Graph}
    (hent : c0 = { c with gen2Base := Top, tenureFootprint := 0, gen1padding := 0,
                          gen2padding := 0 })
    (hr : Ready B c0 G) (hc : CardsReady B c0 G) (hnd : c0.client.roots.Nodup)
    (hrs : ∀ p ∈ c0.client.roots, Settable B c0 G p ∧ ¬ c0.inStorage B Gen.gen2 p ∧
      (mask B (c0.mem p) = 0 ∨ mask B (c0.mem p) ∈ G.objs)) :
    ∃ N, ∀ fuel, N ≤ fuel → ∃ c1, collect2 B fuel c = some c1 ∧
      Map.Complete B c1.gen2 c1.mem c1.heapMap := by
  obtain ⟨N, c1, cp1, wk1, hrun, hT, hC, -, -, -, -⟩ := collect2_cards hent hr hc hnd hrs
  refine ⟨N, fun fuel hf => ⟨c1, hrun fuel hf, ?_⟩⟩
  have hi := hT.inv
  have hm : c1.heapMap = c0.heapMap := congrArg Shape.heapMap hi.shape
  have hb : cardBit B c1.gen2 c1.mem = cardBit B c0.gen2 c1.mem := by
    funext l i
    exact cardBit_seg B c0.gen2 c1.gen2 c1.mem l i (hi.seg_data Gen.gen2)
      (hi.seg_capacity Gen.gen2)
  rw [← hb] at hC
  rw [hm]
  exact CardInv.complete B c1.gen2 c1.mem c0.heapMap hc.shape hC c0.heapMap (fun _ h => h) rfl
    hc.shape.nested (fun a ha => (hr.start.level_ok a ha).1)

end Heap

namespace Heap

open CollectionType

/-! ## The heap with a marked card -/

theorem card_storage (g : Gen) (a : Nat) :
    cardContext.inStorage 4 g a ↔ (g = Gen.nextGen1 ∧ 16777216 ≤ a ∧ a < 16777236) ∨
      (g = Gen.gen2 ∧ 2000 ≤ a ∧ a < 2076) := by
  have f1 : (cardContext.mapOf Gen.gen1).footprint 4 0 = 0 := by decide
  have f2 : (cardContext.mapOf Gen.nextGen1).footprint 4 4 = 1 := by decide
  have f3 : (cardContext.mapOf Gen.gen2).footprint 4 16 = 3 := by decide
  have f4 : (cardContext.mapOf Gen.nextGen2).footprint 4 0 = 0 := by decide
  cases g
  · have d : cardContext.seg Gen.gen1 = ⟨0, 0, 0, some (Map.leaf 2 1 false)⟩ := rfl
    unfold Context.inStorage
    rw [d]; simp only []; rw [f1]
    constructor
    · intro h; omega
    · rintro (⟨h, -⟩ | ⟨h, -⟩) <;> exact absurd h (by decide)
  · have d : cardContext.seg Gen.nextGen1 = ⟨16777216, 0, 4, some (Map.leaf 2 1 false)⟩ := rfl
    unfold Context.inStorage
    rw [d]; simp only []; rw [f2]
    constructor
    · intro h; exact Or.inl ⟨trivial, by omega, by omega⟩
    · rintro (⟨-, h1, h2⟩ | ⟨h, -⟩)
      · exact ⟨h1, by omega⟩
      · exact absurd h (by decide)
  · have d : (cardContext.seg Gen.gen2).data = 2000 ∧ (cardContext.seg Gen.gen2).capacity = 16 :=
      ⟨rfl, rfl⟩
    unfold Context.inStorage
    rw [d.1, d.2, f3]
    constructor
    · intro h; exact Or.inr ⟨rfl, by omega, by omega⟩
    · rintro (⟨h, -⟩ | ⟨-, h1, h2⟩)
      · exact absurd h (by decide)
      · exact ⟨h1, by omega⟩
  · have d : (cardContext.seg Gen.nextGen2).data = 0 ∧
        (cardContext.seg Gen.nextGen2).capacity = 0 := ⟨rfl, rfl⟩
    unfold Context.inStorage
    rw [d.1, d.2, f4]
    constructor
    · intro h; omega
    · rintro (⟨h, -⟩ | ⟨h, -⟩) <;> exact absurd h (by decide)

theorem card_toSpace (a : Nat) :
    cardContext.inToSpace 4 a ↔ (16777216 ≤ a ∧ a < 16777232) ∨ (2016 ≤ a ∧ a < 2064) := by
  unfold Context.inToSpace
  have d1 : cardContext.nextGen1 = ⟨16777216, 0, 4, some (Map.leaf 2 1 false)⟩ := rfl
  have d2 : cardContext.nextGen2.data = 0 ∧ cardContext.nextGen2.capacity = 0 := ⟨rfl, rfl⟩
  have d3 : cardContext.gen2.data = 2000 ∧ cardContext.gen2.capacity = 16 ∧
      cardContext.gen2.position = 4 := ⟨rfl, rfl, rfl⟩
  rw [d1, d2.1, d2.2, d3.1, d3.2.1, d3.2.2]
  simp only []
  omega

theorem card_objs (o : Nat) : o ∈ cardGraph.objs ↔ o = 1000 := by
  show o ∈ [1000] ↔ _
  simp

/-- The heap with a marked card satisfies what the traversals assume. -/
theorem card_start : Start 4 cardContext cardGraph := by
  refine
    { hB := Or.inl rfl
      ageMap_eq := rfl
      nextAgeMap_eq := rfl
      heapMap_ok := ⟨⟨by decide, rfl⟩, ⟨by decide, rfl⟩, by decide, rfl⟩
      nextHeapMap_ok := ⟨⟨by decide, rfl⟩, ⟨by decide, rfl⟩, by decide, rfl⟩
      seg_ok := fun g => by cases g <;> decide
      next_empty := ⟨rfl, rfl⟩
      base_top := rfl
      stor_disj := ?_
      objs_nodup := by decide
      obj_ok := ?_
      obj_loc := ?_
      obj_disj := ?_
      valid := ?_
      first_word := ?_ }
  · intro g g1 hne a h1 h2
    rw [card_storage] at h1 h2
    rcases h1 with h1 | h1 <;> rcases h2 with h2 | h2
    · exact hne (h1.1.trans h2.1.symm)
    · omega
    · omega
    · exact hne (h1.1.trans h2.1.symm)
  · intro o ho
    obtain rfl := (card_objs o).1 ho
    decide
  · intro o ho
    right; right
    intro g a h1 h2 h3
    rw [card_storage] at h3
    obtain rfl := (card_objs o).1 ho
    have : (cardGraph.lay 1000).size = 2 := rfl
    rw [this] at h2; omega
  · intro o ho o1 ho1 hne
    obtain rfl := (card_objs o).1 ho
    obtain rfl := (card_objs o1).1 ho1
    exact absurd rfl hne
  · intro o ho k hk
    obtain rfl := (card_objs o).1 ho
    have : k = 1 := by simpa using (show k ∈ [1] from hk)
    subst this
    left; decide
  · intro o ho _
    rw [card_toSpace]
    obtain rfl := (card_objs o).1 ho
    have : mask 4 (cardGraph.m0 1000) = 0 := by decide
    rw [this]; omega

theorem card_ready : Ready 4 cardContext cardGraph :=
  { start := card_start
    mem_eq := fun _ => rfl
    lay_eq := fun _ _ => rfl
    room := fun g hg => by cases g <;> first | exact absurd rfl hg | decide
    tenure := by decide }

theorem card_settable : Settable 4 cardContext cardGraph 500 := by
  refine ⟨by decide, ?_, ?_, ?_, ?_⟩
  · rw [card_toSpace]; omega
  · rintro (h | h | h)
    · have := (@inFootprint_storage 4 cardContext Gen.nextGen1 500 h).1
      rw [card_storage] at this; omega
    · have := (@inFootprint_storage 4 cardContext Gen.gen2 500 h).1
      rw [card_storage] at this; omega
    · have := (@inFootprint_storage 4 cardContext Gen.nextGen2 500 h).1
      rw [card_storage] at this
      rcases this with h | h <;> exact absurd h.1 (by decide)
  · intro h
    have := (@inFootprint_storage 4 cardContext Gen.gen1 500 h).1
    rw [card_storage] at this
    rcases this with h | h <;> exact absurd h.1 (by decide)
  · intro y hy _ h
    obtain rfl := (card_objs y).1 hy
    omega

theorem card_leaf_bits (i : Nat) :
    cardBit 4 cardContext.gen2 cardContext.mem cardContext.heapMap.leafLevel i = true ↔ i = 1 := by
  constructor
  · intro h
    have h1 := ((cardBit_true 4 _ _ _ _).1 h).1
    have h2 : i < 16 := by
      have e : cardContext.heapMap.leafLevel.scale = 1 := rfl
      have e2 : cardContext.gen2.capacity = 16 := rfl
      rw [e, e2] at h1
      omega
    interval_cases i <;> first | rfl | exact absurd h (by decide)
  · rintro rfl
    decide

theorem card_node_bits (a : Map) (ha : a ∈ cardContext.heapMap.nodeLevels) (i : Nat) :
    1024 ≤ a.scale ∧ (cardBit 4 cardContext.gen2 cardContext.mem a i = true ↔ i = 0) := by
  have hn : cardContext.heapMap.nodeLevels =
      [Map.node 1 1048576 true (Map.node 1 1024 true (Map.leaf 1 1 true)),
        Map.node 1 1024 true (Map.leaf 1 1 true)] := rfl
  rw [hn] at ha
  simp only [List.mem_cons, List.mem_singleton, List.not_mem_nil, or_false] at ha
  have e2 : cardContext.gen2.capacity = 16 := rfl
  rcases ha with rfl | rfl
  · refine ⟨by decide, ?_, ?_⟩
    · intro h
      have h1 := ((cardBit_true 4 _ _ _ _).1 h).1
      have e : (Map.node 1 1048576 true (Map.node 1 1024 true (Map.leaf 1 1 true))).scale =
          1048576 := rfl
      rw [e, e2] at h1
      omega
    · rintro rfl
      decide
  · refine ⟨by decide, ?_, ?_⟩
    · intro h
      have h1 := ((cardBit_true 4 _ _ _ _).1 h).1
      have e : (Map.node 1 1024 true (Map.leaf 1 1 true)).scale = 1024 := rfl
      rw [e, e2] at h1
      omega
    · rintro rfl
      decide

/-- The cards of the heap with a marked card are in the state the scan
assumes. -/
theorem card_cards : CardsReady 4 cardContext cardGraph := by
  refine
    { minor := rfl
      shape := ⟨?_, ?_, rfl, ⟨by decide, by decide, trivial⟩⟩
      cards := ⟨?_, ?_, ?_⟩
      valid := ?_ }
  · intro l hl
    have hn : cardContext.heapMap.levels =
        [Map.node 1 1048576 true (Map.node 1 1024 true (Map.leaf 1 1 true)),
          Map.node 1 1024 true (Map.leaf 1 1 true), Map.leaf 1 1 true] := rfl
    rw [hn] at hl
    simp only [List.mem_cons, List.mem_singleton, List.not_mem_nil, or_false] at hl
    rcases hl with rfl | rfl | rfl <;> rfl
  · intro a ha
    have hn : cardContext.heapMap.nodeLevels =
        [Map.node 1 1048576 true (Map.node 1 1024 true (Map.leaf 1 1 true)),
          Map.node 1 1024 true (Map.leaf 1 1 true)] := rfl
    rw [hn] at ha
    simp only [List.mem_cons, List.mem_singleton, List.not_mem_nil, or_false] at ha
    rcases ha with rfl | rfl <;> decide
  · intro a ha k hk _
    obtain rfl := (card_leaf_bits k).1 hk
    obtain ⟨h1, h2⟩ := card_node_bits a ha (1 / a.scale)
    exact h2.2 (Nat.div_eq_of_lt (by omega))
  · intro a ha i hi
    obtain ⟨h1, h2⟩ := card_node_bits a ha i
    obtain rfl := h2.1 hi
    exact ⟨1, (card_leaf_bits 1).2 rfl, Nat.div_eq_of_lt (by omega), fun h => absurd h
      (List.not_mem_nil _)⟩
  · intro k hk
    obtain rfl := (card_leaf_bits k).1 hk
    decide
  · intro k _ hk
    obtain rfl := (card_leaf_bits k).1 hk
    right
    decide

end Heap

namespace Heap

open CollectionType

/-- Witness of C12: the heap with a marked card.  The scan finds the bit of the
heapMap, the bit of the pageMap under it and the bit of the pointerMap of the
slot at 2004; the object the slot holds is copied to nextGen1, and the three
bits are set again: with fuel 1 the words of the three maps are 1, 1 and 2 as
before. -/
theorem minor_cards_complete_witness :
    Ready 4 cardContext cardGraph ∧ CardsReady 4 cardContext cardGraph ∧
    (∃ N, ∀ fuel, N ≤ fuel → ∃ c1, collect2 4 fuel cardContext = some c1 ∧
      Map.Complete 4 c1.gen2 c1.mem c1.heapMap) ∧
    (collect2 4 1 cardContext).map (fun c => (c.mem 2072, c.mem 2068, c.mem 2064, c.mem 2004)) =
      some (1, 1, 2, 16777216) := by
  refine ⟨card_ready, card_cards,
    @minor_cards_complete 4 cardContext cardContext cardGraph rfl card_ready card_cards
      (by decide) ?_, by decide!⟩
  intro p hp
  obtain rfl : p = 500 := by simpa using (show p ∈ [500] from hp)
  refine ⟨card_settable, ?_, Or.inr (by decide)⟩
  rw [card_storage]
  omega

end Heap

namespace Heap

open CollectionType

section Soundness

variable {B : Nat} {c0 c : Context} {G : Graph} {cp : List Nat}

/-- The referent of an updated slot. -/
theorem Updated.referent (hs : Start B c0 G) (hi : Inv B c0 G c cp) {v v0 : Nat}
    (h : Updated B c0 c cp v v0) : mask B v = referent B c0 c v0 := by
  unfold Heap.referent
  rcases h.2 with ⟨h1, h2⟩ | ⟨h1, h2⟩ | ⟨h1, h2⟩
  · rw [if_pos h1, h2]
  · by_cases h0 : mask B v0 = 0
    · rw [if_pos h0, h2, h0]
    · have h3 : c0.mode = MinorCollection ∧ c0.gen2.contains B (mask B v0) = true := h1
      rw [if_neg h0, if_pos h3, h2]
  · obtain ⟨q1, q2⟩ := hi.cp_sub _ h1
    have h3 : ¬ (c0.mode = MinorCollection ∧ c0.gen2.contains B (mask B v0) = true) :=
      movable_not_old _ q2
    rw [if_neg (hs.obj_ok _ q1).1, if_neg h3, h2]

/-- In a Minor collection, between two scans, a word of gen2 whose leaf bit is
set has the records that cover it set at every level. -/
theorem Marked.of_leaf (hs : Start B c0 G) (hc : CardsReady B c0 G) {c1 : Context}
    {cp1 : List Nat} (hi1 : Inv B c0 G c1 cp1) {s w P0 P : Nat}
    (hC : CardInv c0.heapMap.nodeLevels c0.heapMap.leafLevel (cardBit B c0.gen2 c1.mem) [] s w
      P0 P) (k : Nat)
    (hk : cardBit B c0.gen2 c1.mem c0.heapMap.leafLevel k = true) :
    Marked B c1 c1.mem (c0.gen2.data + k * B) := by
  have hB := hs.B_pos
  have ho : c1.oldGen = Gen.gen2 := by rw [hi1.oldGen_eq]; exact oldGen_minor hc.minor
  have hm : c1.mapOf Gen.gen2 = c0.heapMap := hi1.mapOf_eq Gen.gen2
  have hd : c1.gen2.data = c0.gen2.data := hi1.seg_data Gen.gen2
  have hcap : c1.gen2.capacity = c0.gen2.capacity := hi1.seg_capacity Gen.gen2
  unfold Marked
  rw [ho, hm]
  intro l hl
  show l.bit B c1.gen2 c1.mem (l.recordIndex B c1.gen2 (c0.gen2.data + k * B)) = true
  rw [Map.recordIndex_one B c1.gen2 l _ (hc.shape.bits l hl), hd, Nat.add_sub_cancel_left,
    Nat.mul_div_cancel _ hB, Map.bit_seg B c0.gen2 c1.gen2 l c1.mem _ hd hcap]
  rcases Map.levels_cases _ l hl with h | h
  · exact ((cardBit_true B _ _ _ _).1
      (hC.cov l h k hk (fun h2 => absurd h2.1 (List.not_mem_nil _)))).2
  · rw [h, hc.shape.leaf_scale, Nat.div_one]
    exact ((cardBit_true B _ _ _ _).1 hk).2

/-- Card soundness after the scan and the root visit of a Minor collection,
from what the collection knows of the slots of gen2. -/
theorem minor_sound (hs : Start B c0 G) (hc : CardsReady B c0 G) {c1 : Context}
    {cp1 wk1 : List Nat} (hT : Trav B c0 G c1 cp1 wk1 (fun _ => []) [])
    (hC : CardInv c0.heapMap.nodeLevels c0.heapMap.leafLevel (cardBit B c0.gen2 c1.mem) [] 0 0
      c0.gen2.position c1.gen2.position)
    (ho : OldSound B c0 c1 cp1) (hn : NewSound B c0 G c1 wk1) (S : Nat → Prop)
    (hpre : ∀ k, k < c0.gen2.position → S k → Young B c0 (c0.mem (c0.gen2.data + k * B)) →
      cardBit B c0.gen2 c0.mem c0.heapMap.leafLevel k = true) :
    (∀ k, k < c0.gen2.position → S k → Young B c1 (c1.mem (c0.gen2.data + k * B)) →
      Marked B c1 c1.mem (c0.gen2.data + k * B)) ∧
    (∀ y ∈ cp1, ∀ j ∈ (G.lay y).slots,
      (c1.seg c1.oldGen).contains B (c1.mem y + j * B) = true →
      Young B c1 (c1.mem (c1.mem y + j * B)) → Marked B c1 c1.mem (c1.mem y + j * B)) := by
  have hB := hs.B_pos
  have hi1 := hT.inv
  have hmin := hc.minor
  have ho1 : c1.oldGen = Gen.gen2 := by rw [hi1.oldGen_eq]; exact oldGen_minor hmin
  have ho0 : c0.oldGen = Gen.gen2 := oldGen_minor hmin
  have hd : c1.gen2.data = c0.gen2.data := hi1.seg_data Gen.gen2
  have hdal : c0.gen2.data % B = 0 := (hs.seg_ok Gen.gen2).1
  refine ⟨?_, ?_⟩
  · intro k hk hS hy
    apply Marked.of_leaf hs hc hi1 hC
    have hy2 : c1.gen2.contains B (mask B (c1.mem (c0.gen2.data + k * B))) = false := by
      have := hy.2
      rw [ho1] at this
      exact this
    rcases ho k hk with h | h
    · apply h.2
      apply hpre k hk hS
      refine ⟨by rw [← h.1]; exact hy.1, ?_⟩
      rw [ho0, ← h.1]
      show c0.gen2.contains B _ = false
      cases hcc : c0.gen2.contains B (mask B (c1.mem (c0.gen2.data + k * B))) with
      | false => rfl
      | true =>
        have := Segment.contains_mono c0.gen2 c1.gen2 _ hd (hi1.pos Gen.gen2).1 hcc
        rw [hy2] at this
        exact absurd this (by simp)
    · apply h.2
      rw [← Segment.contains_mask B hB c1.gen2 (by rw [hd]; exact hdal)]
      exact hy2
  · intro y hy j hj hcon hyg
    have hyw : y ∈ wk1 := by
      rcases hT.cover y hy with h | h
      · exact h
      · exact absurd h (List.not_mem_nil _)
    have hu := hT.slots.walked y hyw j hj (List.not_mem_nil _)
    have hr := hu.referent hs hi1
    have hcc : cardCond B c1 (c1.mem y + j * B) (referent B c0 c1 (G.m0 (y + j * B))) := by
      rw [← hr]
      exact ⟨hyg.1, hcon, hyg.2⟩
    have hbit := hn y hyw j hj hcc
    have hcon2 : c1.gen2.contains B (c1.mem y + j * B) = true := by
      rw [ho1] at hcon
      exact hcon
    have hal : c1.mem y % B = 0 := (hi1.fwd y hy).1.aligned hs hi1
    obtain ⟨-, hge, -⟩ := (Segment.contains_iff B c1.gen2 _).1 hcon2
    rw [hd] at hge
    have hqk : c1.mem y + j * B =
        c0.gen2.data + (c1.mem y + j * B - c0.gen2.data) / B * B := by
      have h4 : (c1.mem y + j * B - c0.gen2.data) % B = 0 := by
        apply Nat.sub_mod_eq_zero_of_mod_eq
        rw [Nat.add_mul_mod_self_right, hal, hdal]
      have h8 := Nat.div_add_mod (c1.mem y + j * B - c0.gen2.data) B
      rw [h4, Nat.mul_comm] at h8
      omega
    have := Marked.of_leaf hs hc hi1 hC _ hbit
    rw [← hqk] at this
    exact this

end Soundness

end Heap

namespace Heap

open CollectionType

section AllLevels

variable {B : Nat} {c0 c : Context} {G : Graph} {cp : List Nat}

/-- The card hierarchy of the old generation is the same in every context of a
collection, and so is what `Marked` says. -/
theorem Marked.base (hi : Inv B c0 G c cp) (m : Mem) (p : Nat) :
    Marked B c m p ↔ Marked B c0 m p := by
  have ho : c.oldGen = c0.oldGen := hi.oldGen_eq
  have hd := hi.seg_data c0.oldGen
  have hk := hi.seg_capacity c0.oldGen
  unfold Marked
  rw [ho, hi.mapOf_eq]
  constructor
  · intro h l hl
    have := h l hl
    rw [Map.bit_seg B (c0.seg c0.oldGen) (c.seg c0.oldGen) l m _ hd hk] at this
    unfold Map.recordIndex at this ⊢
    rw [hd] at this
    exact this
  · intro h l hl
    have := h l hl
    rw [Map.bit_seg B (c0.seg c0.oldGen) (c.seg c0.oldGen) l m _ hd hk]
    unfold Map.recordIndex at this ⊢
    rw [hd]
    exact this

/-- One traversal, in a collection of either kind: it ends, the slot is
updated, and the slots of the copies it has walked that lie in the old
generation and refer outside it are marked at every level. -/
theorem collectSlot_marks (hs : Start B c0 G) {wk : List Nat}
    (hT : Trav B c0 G c cp wk (fun _ => []) []) {p : Nat} (hp : Settable B c0 G p)
    (hv : mask B (c.mem p) = 0 ∨ mask B (c.mem p) ∈ G.objs) (hn : NewAll B c0 G c wk) :
    ∃ n c1 cp1 wk1,
      (∀ fuel, collectSlot B fuel c p = if n ≤ fuel then some c1 else none) ∧
      Trav B c0 G c1 cp1 wk1 (fun _ => []) [] ∧ Grows c cp c1 cp1 ∧
      (∀ a, Settable B c0 G a → a ≠ p → c1.mem a = c.mem a) ∧
      Updated B c0 c1 cp1 (c1.mem p) (c.mem p) ∧ NewAll B c0 G c1 wk1 := by
  have hB := hs.B_pos
  obtain ⟨n, c1, cp1, wk1, mk1, r, hrun, hR, hG, -, hwk, hupd, -, -⟩ :=
    collectSlot_spec hs hT hp hv
  have hi := hT.inv
  have hi1 := hR.trav.inv
  have ho1 : c1.oldGen = c0.oldGen := hi1.oldGen_eq
  have hd1 := hi1.seg_data c0.oldGen
  have hk1 := hi1.seg_capacity c0.oldGen
  have hp1 := (hi1.pos c0.oldGen).2
  have hok := Map.AllLevels_mem _ _ hs.cards_ok
  have hset := Map.AllLevels_mem _ _ hR.marks.set.1
  refine ⟨n, c1, cp1, wk1, hrun, hR.trav, hG, ?_, hupd, ?_⟩
  · intro a ha hne
    rw [hR.ext a (ha.not_touched hi1)]
    unfold set Mem.write
    rw [if_neg hne]
  · have key : ∀ q, (c1.seg c1.oldGen).contains B q = true →
        ∀ l ∈ (c0.mapOf c0.oldGen).levels,
          (l.bit B (c0.seg c0.oldGen) c.mem (l.recordIndex B (c0.seg c0.oldGen) q) = true ∨
            q ∈ mk1) →
          l.bit B (c0.seg c0.oldGen) c1.mem (l.recordIndex B (c0.seg c0.oldGen) q) = true := by
      intro q hq l hl hor
      obtain ⟨q1, q2⟩ := hok l hl
      rw [ho1] at hq
      have hidx := Segment.index_lt B hB _ q hq
      rw [hd1] at hidx
      have hcapW : (q - (c0.seg c0.oldGen).data) / B < (c0.seg c0.oldGen).capacity := by
        rw [← hk1]; omega
      have hcap1 : 1 ≤ (c0.seg c0.oldGen).capacity := Nat.lt_of_le_of_lt (Nat.zero_le _) hcapW
      have hrange := Map.index_in_range B hB (c0.seg c0.oldGen) l _ hcapW q1 q2
      rw [← Map.recordIndex_one B (c0.seg c0.oldGen) l q q2] at hrange
      have hrange2 : wordOf B (l.recordIndex B (c0.seg c0.oldGen) q) <
          l.size B (c0.seg c0.oldGen).capacity := by
        unfold Map.sizeNow at hrange
        rw [Nat.max_eq_left hcap1] at hrange
        exact hrange
      apply (hset l hl _ hrange2).2
      rcases hor with h | h
      · left
        rw [Map.bit_congr B hB (c0.seg c0.oldGen) l c.mem (set B c.mem p r) ?_ _ hrange]
        · exact h
        · intro a ha
          have hne : a ≠ p := by
            rintro rfl
            exact hp.not_cards (oldGen_inCards _
              (Map.level_inFootprint B _ hcap1 _ l hl _ ha))
          unfold set Mem.write
          rw [if_neg hne]
      · exact Or.inr ⟨q, h, rfl⟩
    intro y hy j hj hcc l hl
    by_cases hyw : y ∈ wk
    · have hyc := hT.slots.wk_sub y hyw
      have hv := hT.slots.walked y hyw j hj (List.not_mem_nil _)
      have hv2 : mask B (G.m0 (y + j * B)) = 0 ∨ isOld B c0 (mask B (G.m0 (y + j * B))) ∨
          mask B (G.m0 (y + j * B)) ∈ cp := by
        rcases hv.2 with h | h | h
        · exact Or.inl h.1
        · exact Or.inr (Or.inl h.1)
        · exact Or.inr (Or.inr h.1)
      have hce := (cardCond_eq hs hi hi1 hG.sub hG.fwd y hyc j hj _ hv2).1 hcc
      have := hn y hyw j hj hce l hl
      rw [← hG.fwd y hyc] at this
      exact key _ hcc.2.1 l hl (Or.inl this)
    · exact key _ hcc.2.1 l hl (Or.inr (hR.marks.all y hy hyw j hj (List.not_mem_nil _) hcc))

/-- The root visit of `collect2` in a collection of either kind, for root slots
that hold null or a reference to an object, each named once. -/
theorem visit_roots_all (hs : Start B c0 G) :
    ∀ (roots : List Nat) (c : Context) (cp wk : List Nat), roots.Nodup →
      (∀ p ∈ roots, Settable B c0 G p ∧ (mask B (c.mem p) = 0 ∨ mask B (c.mem p) ∈ G.objs)) →
      Trav B c0 G c cp wk (fun _ => []) [] → NewAll B c0 G c wk →
      ∃ N c1 cp1 wk1, (∀ fuel, N ≤ fuel → visitRoots B fuel roots c = some c1) ∧
        Trav B c0 G c1 cp1 wk1 (fun _ => []) [] ∧ Grows c cp c1 cp1 ∧
        NewAll B c0 G c1 wk1 ∧
        (∀ p ∈ roots, Updated B c0 c1 cp1 (c1.mem p) (c.mem p)) ∧
        (∀ a, Settable B c0 G a → a ∉ roots → c1.mem a = c.mem a) := by
  intro roots
  induction roots with
  | nil =>
    intro c cp wk _ _ hT hn
    exact ⟨0, c, cp, wk, fun _ _ => rfl, hT, Grows.refl c cp, hn,
      fun _ h => absurd h (List.not_mem_nil _), fun _ _ _ => rfl⟩
  | cons p rest ih =>
    intro c cp wk hnd hrs hT hn
    obtain ⟨hp, hv⟩ := hrs p (List.mem_cons_self _ _)
    obtain ⟨n, c1, cp1, wk1, hrun, hT1, hG, hmem, hupd, hn1⟩ := collectSlot_marks hs hT hp hv hn
    have hnd2 := List.nodup_cons.1 hnd
    obtain ⟨N, c2, cp2, wk2, hrun2, hT2, hG2, hn2, hup2, hfr2⟩ :=
      ih c1 cp1 wk1 hnd2.2 (by
        intro q hq
        obtain ⟨hq1, hq3⟩ := hrs q (List.mem_cons_of_mem _ hq)
        refine ⟨hq1, ?_⟩
        rw [hmem q hq1 (fun h => hnd2.1 (h ▸ hq))]
        exact hq3) hT1 hn1
    refine ⟨max n N, c2, cp2, wk2, ?_, hT2, hG.trans hG2, hn2, ?_, ?_⟩
    · intro fuel hf
      rw [visitRoots, hrun fuel, if_pos (by omega)]
      exact hrun2 fuel (by omega)
    · intro q hq
      rcases List.mem_cons.1 hq with rfl | hq
      · rw [hfr2 q hp hnd2.1]
        exact Updated.upd_mono _ _ hupd hG2.sub hG2.fwd
      · have := hup2 q hq
        rw [hmem q (hrs q (List.mem_cons_of_mem _ hq)).1 (fun h => hnd2.1 (h ▸ hq))] at this
        exact this
    · intro a ha hna
      rw [hfr2 a ha (fun h => hna (List.mem_cons_of_mem _ h)),
        hmem a ha (fun h => hna (h ▸ List.mem_cons_self _ _))]

/-- The root visit of `collect2` in a Major collection: there is no scan. -/
theorem collect2_major
    (hent : c0 = { c with gen2Base := Top, tenureFootprint := 0, gen1padding := 0,
                          gen2padding := 0 })
    (hr : Ready B c0 G) (hmaj : c0.mode = MajorCollection) (hnd : c0.client.roots.Nodup)
    (hrs : ∀ p ∈ c0.client.roots, Settable B c0 G p ∧
      (mask B (c0.mem p) = 0 ∨ mask B (c0.mem p) ∈ G.objs)) :
    ∃ N c1 cp1 wk1, (∀ fuel, N ≤ fuel → collect2 B fuel c = some c1) ∧
      Trav B c0 G c1 cp1 wk1 (fun _ => []) [] ∧ NewAll B c0 G c1 wk1 ∧
      (∀ p ∈ c0.client.roots, Updated B c0 c1 cp1 (c1.mem p) (c0.mem p)) ∧
      (∀ a, Settable B c0 G a → a ∉ c0.client.roots → c1.mem a = c0.mem a) := by
  have hcol : ∀ fuel, collect2 B fuel c =
      match (if c0.mode = MinorCollection ∧ c0.gen2.position ≠ 0 then
          (collectMap B fuel c0.heapMap false c0 0 (u32 (0 + c0.gen2.position)) false).map
            fun r => r.1
         else some c0) with
      | none => none
      | some c2 => visitRoots B fuel c2.client.roots c2 := by
    intro fuel
    rw [hent]
    rfl
  obtain ⟨N, c2, cp2, wk2, hrun, hT2, -, hn2, hu2, hf2⟩ :=
    visit_roots_all hr.start c0.client.roots c0 [] [] hnd hrs (Trav.trav_init hr)
      (fun _ h => absurd h (List.not_mem_nil _))
  refine ⟨N, c2, cp2, wk2, ?_, hT2, hn2, hu2, hf2⟩
  intro fuel hf
  rw [hcol, if_neg (fun h => by rw [hmaj] at h; exact absurd h.1 (by decide))]
  exact hrun fuel hf

end AllLevels

end Heap

namespace Heap

open CollectionType

section UpdateMarks

variable {B : Nat} {c0 c : Context} {G : Graph} {cp : List Nat}

/-- `update` marks the slot at every level when the slot lies in the old
generation and the referent it returns is not null and does not. -/
theorem update_marks (hs : Start B c0 G) (hi : Inv B c0 G c cp) (p : Nat)
    (hv : mask B (c.mem p) = 0 ∨ mask B (c.mem p) ∈ G.objs) :
    ∃ r nv c1, update B c p = some (r, nv, c1) ∧
      (r ≠ 0 → (c1.seg c1.oldGen).contains B p = true →
        (c1.seg c1.oldGen).contains B r = false → Marked B c1 c1.mem p) := by
  have hB := hs.B_pos
  obtain ⟨r, nv, c1, m2, e, -, hcase, hcard⟩ := update_spec hs hi p hv
  refine ⟨r, nv, { c1 with mem := m2 }, e, ?_⟩
  intro h1 h2 h3
  have hcc : cardCond B c1 p r := ⟨h1, h2, h3⟩
  rcases hcard with ⟨h, -⟩ | ⟨-, hw⟩
  · exact absurd hcc h
  · obtain ⟨cp1, hi1⟩ : ∃ cp1, Inv B c0 G c1 cp1 := by
      rcases hcase with ⟨-, h5, -⟩ | ⟨-, h5, h6, h7, h8⟩
      · exact ⟨cp, h5 ▸ hi⟩
      · exact ⟨_, hi.copy_step hs _ r c1 h5 h6 h7 h8⟩
    obtain ⟨k1, -, k3, -⟩ := hi1.heapMap_ok hs
    have hbits : ∀ l ∈ (c1.mapOf c1.oldGen).levels, l.bitsPerRecord = 1 := by
      rw [hi1.oldGen_eq, hi1.mapOf_eq]
      exact fun l hl => (Map.AllLevels_mem _ _ hs.cards_ok l hl).2
    intro l hl
    have hl1 : l ∈ (c1.mapOf c1.oldGen).levels := hl
    have hb := hbits l hl1
    have hok := Map.AllLevels_mem _ _ k1 l hl1
    have hrange := (Map.record_in_range B hB (c1.seg c1.oldGen) l p h2 k3 hok
      (l.recordIndex B (c1.seg c1.oldGen) p) (by omega)).1
    have := (Map.AllLevels_mem _ _ hw l hl1).one B _ _ _ _ _ hb _ hrange
    rw [if_pos rfl] at this
    exact this

end UpdateMarks

/-- C3: card soundness.  `collect2` is entered with the context `c`; `c0` is
`c` after its first four assignments, the heap is ready for the traversals
(`Ready`) and the root slots are named once and hold null or a reference.  `S`
is any set of words of gen2 (the reference slots of the objects that lie there).
In a Minor collection assume moreover the card state `CardsReady`, root slots
outside gen2, and that every word of `S` that refers to young space (`Young`:
the referent is not null and not in gen2) has the records that cover it set at
every level (`Marked`: heapMap, pageMap, pointerMap).  Then with enough fuel
`collect2` returns, and in the context it returns: in a Minor collection every
word of `S` that refers to young space is marked at every level; and, in a
collection of either kind, every reference slot of the copy of an object that
lies in the old generation (gen2, or nextGen2 in a Major collection, which
becomes gen2) and refers to young space is marked at every level.  Moreover
`update`, called for a slot that holds null or a reference in any state of the
collection, returns, and has marked the slot at every level when the slot lies
in the old generation and the referent returned is not null and does not. -/
theorem card_soundness {B : Nat} {c0 c : Context} {G : Graph} (S : Nat → Prop)
    (hent : c0 = { c with gen2Base := Top, tenureFootprint := 0, gen1padding := 0,
                          gen2padding := 0 })
    (hr : Ready B c0 G) (hnd : c0.client.roots.Nodup)
    (hrs : ∀ p ∈ c0.client.roots, Settable B c0 G p ∧
      (mask B (c0.mem p) = 0 ∨ mask B (c0.mem p) ∈ G.objs))
    (hmin : c0.mode = MinorCollection → CardsReady B c0 G ∧
      (∀ p ∈ c0.client.roots, ¬ c0.inStorage B Gen.gen2 p) ∧
      (∀ k, k < c0.gen2.position → S k → Young B c0 (c0.mem (c0.gen2.data + k * B)) →
        Marked B c0 c0.mem (c0.gen2.data + k * B))) :
    (∃ N, ∀ fuel, N ≤ fuel → ∃ c1, collect2 B fuel c = some c1 ∧
      (c0.mode = MinorCollection → ∀ k, k < c0.gen2.position → S k →
        Young B c1 (c1.mem (c0.gen2.data + k * B)) →
        Marked B c1 c1.mem (c0.gen2.data + k * B)) ∧
      (∀ y ∈ G.objs, movable B c0 y → wasCollected B c1 y = true → ∀ j ∈ (G.lay y).slots,
        (c1.seg c1.oldGen).contains B (c1.mem y + j * B) = true →
        Young B c1 (c1.mem (c1.mem y + j * B)) → Marked B c1 c1.mem (c1.mem y + j * B))) ∧
    (∀ (c2 : Context) (cp2 : List Nat) (p : Nat), Inv B c0 G c2 cp2 →
      (mask B (c2.mem p) = 0 ∨ mask B (c2.mem p) ∈ G.objs) →
      ∃ r nv c3, update B c2 p = some (r, nv, c3) ∧
        (r ≠ 0 → (c3.seg c3.oldGen).contains B p = true →
          (c3.seg c3.oldGen).contains B r = false → Marked B c3 c3.mem p)) := by
  have hs := hr.start
  have hB := hs.B_pos
  refine ⟨?_, fun c2 cp2 p hi hv => update_marks hs hi p hv⟩
  have hcp : ∀ {c1 : Context} {cp1 : List Nat}, Inv B c0 G c1 cp1 → ∀ y ∈ G.objs,
      movable B c0 y → wasCollected B c1 y = true → y ∈ cp1 := by
    intro c1 cp1 hi1 y hy hm hw
    by_contra hn
    rw [hi1.white_not_collected hs y hy hm hn] at hw
    exact absurd hw (by simp)
  by_cases hmode : c0.mode = MinorCollection
  · obtain ⟨hc, hout, hpre⟩ := hmin hmode
    obtain ⟨N, c1, cp1, wk1, hrun, hT, hC, ho, hn, -, -⟩ := collect2_cards hent hr hc hnd
      (fun p hp => ⟨(hrs p hp).1, hout p hp, (hrs p hp).2⟩)
    have hseg := (hs.seg_ok Gen.gen2).2.1
    simp only [Context.seg] at hseg
    obtain ⟨h1, h2⟩ := minor_sound hs hc hT hC ho hn S (by
      intro k hk hS hy
      have hm := hpre k hk hS hy c0.heapMap.leafLevel (by
        rw [oldGen_minor hmode]
        exact Map.leafLevel_mem c0.heapMap)
      rw [oldGen_minor hmode] at hm
      have hm2 : c0.heapMap.leafLevel.bit B c0.gen2 c0.mem
          (c0.heapMap.leafLevel.recordIndex B c0.gen2 (c0.gen2.data + k * B)) = true := hm
      rw [Map.recordIndex_one B c0.gen2 _ _ (hc.shape.bits _ (Map.leafLevel_mem _)),
        Nat.add_sub_cancel_left, Nat.mul_div_cancel _ hB, hc.shape.leaf_scale,
        Nat.div_one] at hm2
      rw [cardBit_true, hc.shape.leaf_scale]
      exact ⟨by omega, hm2⟩)
    exact ⟨N, fun fuel hf => ⟨c1, hrun fuel hf, fun _ => h1,
      fun y hy hm hw => h2 y (hcp hT.inv y hy hm hw)⟩⟩
  · have hmaj : c0.mode = MajorCollection := by
      cases h : c0.mode with
      | MinorCollection => exact absurd h hmode
      | MajorCollection => rfl
    obtain ⟨N, c1, cp1, wk1, hrun, hT, hn, -, -⟩ := collect2_major hent hr hmaj hnd hrs
    refine ⟨N, fun fuel hf => ⟨c1, hrun fuel hf, fun h => absurd h hmode, ?_⟩⟩
    intro y hy hm hw j hj hcon hyg
    have hi1 := hT.inv
    have hyc := hcp hi1 y hy hm hw
    have hyw : y ∈ wk1 := by
      rcases hT.cover y hyc with h | h
      · exact h
      · exact absurd h (List.not_mem_nil _)
    have hu := hT.slots.walked y hyw j hj (List.not_mem_nil _)
    have hrf := hu.referent hs hi1
    have hcc : cardCond B c1 (c1.mem y + j * B) (referent B c0 c1 (G.m0 (y + j * B))) := by
      rw [← hrf]
      exact ⟨hyg.1, hcon, hyg.2⟩
    exact (Marked.base hi1 _ _).2 (hn y hyw j hj hcc)

end Heap

namespace Heap

open CollectionType

/-- Witness of C3: the heap with a marked card, in a Minor collection.  The
word 1 of gen2 (the slot at 2004) refers to the young object at 1000 and is
marked at the three levels; after the collection it holds the copy of the
object in nextGen1, at 16777216, and is marked at the three levels. -/
theorem card_soundness_witness :
    Ready 4 cardContext cardGraph ∧ CardsReady 4 cardContext cardGraph ∧
    Young 4 cardContext (cardContext.mem 2004) ∧ Marked 4 cardContext cardContext.mem 2004 ∧
    (∃ N, ∀ fuel, N ≤ fuel → ∃ c1, collect2 4 fuel cardContext = some c1 ∧
      (Young 4 c1 (c1.mem 2004) → Marked 4 c1 c1.mem 2004)) ∧
    (collect2 4 1 cardContext).map (fun c => (c.mem 2004, decide (Young 4 c (c.mem 2004)))) =
      some (16777216, true) := by
  have hmk : Marked 4 cardContext cardContext.mem 2004 := by decide
  refine ⟨card_ready, card_cards, by decide, hmk, ?_, by decide!⟩
  obtain ⟨N, h⟩ := (@card_soundness 4 cardContext cardContext cardGraph (fun k => k = 1) rfl
    card_ready (by decide) (by
      intro p hp
      obtain rfl : p = 500 := by simpa using (show p ∈ [500] from hp)
      exact ⟨card_settable, Or.inr (by decide)⟩)
    (fun _ => ⟨card_cards, by
      intro p hp
      obtain rfl : p = 500 := by simpa using (show p ∈ [500] from hp)
      rw [card_storage]
      omega, by
      intro k _ hk _
      obtain rfl : k = 1 := hk
      exact hmk⟩)).1
  refine ⟨N, fun fuel hf => ?_⟩
  obtain ⟨c1, h1, h2, -⟩ := h fuel hf
  exact ⟨c1, h1, h2 rfl 1 (by decide) rfl⟩

end Heap

namespace Heap

open CollectionType

section Graph1

variable {B : Nat} {c0 c : Context} {G : Graph} {cp : List Nat}

theorem referent_mask (B : Nat) (c0 c : Context) (v : Nat) :
    referent B c0 c (mask B v) = referent B c0 c v := by
  unfold referent
  rw [mask_of_aligned B (mask B v) (mask_mod B v)]

/-- Destination space lies in the storage of the segments. -/
theorem toSpace_storage (B : Nat) (c0 : Context) (a : Nat) (h : c0.inToSpace B a) :
    ∃ g, c0.inStorage B g a := by
  rcases h with h | h | h
  · refine ⟨Gen.nextGen1, ?_⟩
    unfold Context.inStorage
    simp only [Context.seg, Nat.add_mul]
    omega
  · refine ⟨Gen.nextGen2, ?_⟩
    unfold Context.inStorage
    simp only [Context.seg, Nat.add_mul]
    omega
  · refine ⟨Gen.gen2, ?_⟩
    unfold Context.inStorage
    simp only [Context.seg, Nat.add_mul]
    omega

/-- An object of gen2 lies in the words of gen2 in use. -/
theorem Start.old_holds (hs : Start B c0 G) (y : Nat) (hy : y ∈ G.objs)
    (hold : c0.gen2.contains B y = true) : c0.holds B Gen.gen2 y (G.lay y).size := by
  have hB := hs.B_pos
  obtain ⟨-, h1, h2⟩ := (Segment.contains_iff B _ y).1 hold
  have hseg := hs.seg_ok Gen.gen2
  simp only [Context.seg] at hseg
  have hcap : c0.gen2.position * B ≤ c0.gen2.capacity * B := Nat.mul_le_mul_right B hseg.2.1
  have hst : c0.inStorage B Gen.gen2 y := by
    unfold Context.inStorage
    simp only [Context.seg, Nat.add_mul]
    omega
  obtain ⟨-, -, o3, -, -, -⟩ := hs.obj_ok y hy
  have hsz : 0 < (G.lay y).size * B := Nat.mul_pos (by omega) hB
  rcases hs.obj_loc y hy with h | h | h
  · exfalso
    have hseg1 := hs.seg_ok Gen.gen1
    have hcap1 : (c0.seg Gen.gen1).position * B ≤ (c0.seg Gen.gen1).capacity * B :=
      Nat.mul_le_mul_right B hseg1.2.1
    apply hs.stor_disj Gen.gen1 Gen.gen2 (by decide) y _ hst
    unfold Context.holds at h
    unfold Context.inStorage
    simp only [Nat.add_mul]
    omega
  · exact h
  · exact absurd hst (h Gen.gen2 y (Nat.le_refl _) (by omega))

/-- The image of an object the collection has left in place or copied is not
null. -/
theorem referent_ne_zero (hs : Start B c0 G) (hi : Inv B c0 G c cp)
    (hnull : ∀ g, ¬ c0.inStorage B g 0) (o : Nat) (ho : o ∈ G.objs)
    (h : isOld B c0 o ∨ o ∈ cp) : referent B c0 c o ≠ 0 := by
  have hB := hs.B_pos
  obtain ⟨o1, o2, o3, -, -, -⟩ := hs.obj_ok o ho
  unfold referent
  rw [mask_of_aligned B o o2, if_neg o1]
  split
  · exact o1
  · rename_i hn
    rcases h with h | h
    · exact absurd h hn
    · obtain ⟨f1, -⟩ := hi.fwd o h
      intro h0
      have hsz : 0 < (G.lay o).size * B := Nat.mul_pos (by omega) hB
      have ht := IsCopy.copy_toSpace hi _ (dest_ne_gen1 o) _ _ f1 (c.mem o) (Nat.le_refl _)
        (by omega)
      obtain ⟨g, hg⟩ := toSpace_storage B c0 _ ht
      rw [h0] at hg
      exact hnull g hg

/-- The referent of an updated slot lies neither in the storage of gen1 nor, in
a Major collection, in the storage of gen2. -/
theorem Updated.forwarded (hs : Start B c0 G) (hi : Inv B c0 G c cp)
    (hnull : ∀ g, ¬ c0.inStorage B g 0) {v v0 : Nat} (h : Updated B c0 c cp v v0) :
    Forwarded B c0 c v v0 := by
  have hB := hs.B_pos
  refine ⟨h.1, h.referent hs hi, ?_⟩
  rcases h.2 with ⟨-, h2⟩ | ⟨h1, h2⟩ | ⟨h1, h2⟩
  · rw [h2]
    exact ⟨hnull _, fun _ => hnull _⟩
  · rw [h2]
    have hst : c0.inStorage B Gen.gen2 (mask B v0) := by
      obtain ⟨-, q1, q2⟩ := (Segment.contains_iff B _ _).1 h1.2
      have hseg := hs.seg_ok Gen.gen2
      simp only [Context.seg] at hseg
      have hcap : c0.gen2.position * B ≤ c0.gen2.capacity * B :=
        Nat.mul_le_mul_right B hseg.2.1
      unfold Context.inStorage
      simp only [Context.seg, Nat.add_mul]
      omega
    refine ⟨fun hg => hs.stor_disj Gen.gen1 Gen.gen2 (by decide) _ hg hst, fun hm => ?_⟩
    rw [h1.1] at hm
    exact absurd hm (by decide)
  · rw [h2]
    obtain ⟨f1, -⟩ := hi.fwd _ h1
    obtain ⟨q1, -⟩ := hi.cp_sub _ h1
    obtain ⟨-, -, o3, -, -, -⟩ := hs.obj_ok _ q1
    have hsz : 0 < (G.lay (mask B v0)).size * B := Nat.mul_pos (by omega) hB
    have hst := (IsCopy.storage hi _ _ _ f1 (c.mem (mask B v0)) (Nat.le_refl _) (by omega)).1
    refine ⟨fun hg => hs.stor_disj Gen.gen1 _ (Ne.symm (dest_ne_gen1 _)) _ hg hst, fun hm hg => ?_⟩
    by_cases hd : dest B c0 G (mask B v0) = Gen.gen2
    · have := dest_gen2_minor _ hd
      rw [hm] at this
      exact absurd this (by decide)
    · exact hs.stor_disj Gen.gen2 _ (Ne.symm hd) _ hg hst

end Graph1

end Heap

namespace Heap

open CollectionType

section Graph2

variable {B : Nat} {c0 c : Context} {G : Graph}

/-- After the scan and the root visit of a Minor collection the reference slots
of the objects of gen2 are updated, when every slot of such an object that
referred to young space was marked. -/
theorem old_slot_updated (hs : Start B c0 G) (hc : CardsReady B c0 G) {c1 : Context}
    {cp1 : List Nat} (ho : OldSound B c0 c1 cp1) (hse : OldSeen B c0 c1 cp1 c0.gen2.position)
    (hbar : ∀ y ∈ G.objs, c0.gen2.contains B y = true → ∀ j ∈ (G.lay y).slots,
      Young B c0 (c0.mem (y + j * B)) → Marked B c0 c0.mem (y + j * B))
    (y : Nat) (hy : y ∈ G.objs) (hold : c0.gen2.contains B y = true) (j : Nat)
    (hj : j ∈ (G.lay y).slots) :
    Updated B c0 c1 cp1 (c1.mem (y + j * B)) (c0.mem (y + j * B)) := by
  have hB := hs.B_pos
  have hmin := hc.minor
  obtain ⟨-, o2, o3, -, -, o6⟩ := hs.obj_ok y hy
  have hjs := o6 j hj
  have hh := hs.old_holds y hy hold
  unfold Context.holds at hh
  simp only [Context.seg] at hh
  have hseg := hs.seg_ok Gen.gen2
  simp only [Context.seg] at hseg
  obtain ⟨i, hi⟩ : ∃ i, y = c0.gen2.data + i * B := by
    refine ⟨(y - c0.gen2.data) / B, ?_⟩
    have h1 : (y - c0.gen2.data) % B = 0 := by
      have := Nat.sub_mod_eq_zero_of_mod_eq (show y % B = c0.gen2.data % B by rw [o2, hseg.1])
      exact this
    have h2 := Nat.div_add_mod (y - c0.gen2.data) B
    rw [h1, Nat.mul_comm] at h2
    omega
  have hk : i + j < c0.gen2.position := by
    have h1 : (i + (G.lay y).size) * B ≤ c0.gen2.position * B := by
      rw [Nat.add_mul]; omega
    have := Nat.le_of_mul_le_mul_right h1 hB
    omega
  have hadr : y + j * B = c0.gen2.data + (i + j) * B := by
    rw [hi, Nat.add_mul]; omega
  rw [hadr]
  rcases ho (i + j) hk with ⟨h1, -⟩ | ⟨h1, -⟩
  · by_cases hbit : cardBit B c0.gen2 c0.mem c0.heapMap.leafLevel (i + j) = true
    · exact hse (i + j) hk hk hbit
    · rw [h1]
      refine ⟨rfl, ?_⟩
      by_cases h0 : mask B (c0.mem (c0.gen2.data + (i + j) * B)) = 0
      · exact Or.inl ⟨h0, h0⟩
      · by_cases hg : c0.gen2.contains B (mask B (c0.mem (c0.gen2.data + (i + j) * B))) = true
        · exact Or.inr (Or.inl ⟨⟨hmin, hg⟩, rfl⟩)
        · exfalso
          apply hbit
          have hyg : Young B c0 (c0.mem (y + j * B)) := by
            rw [hadr]
            refine ⟨h0, ?_⟩
            rw [oldGen_minor hmin]
            simpa using hg
          have hm := hbar y hy hold j hj hyg c0.heapMap.leafLevel (by
            rw [oldGen_minor hmin]
            exact Map.leafLevel_mem c0.heapMap)
          rw [oldGen_minor hmin, hadr] at hm
          have hm2 : c0.heapMap.leafLevel.bit B c0.gen2 c0.mem
              (c0.heapMap.leafLevel.recordIndex B c0.gen2 (c0.gen2.data + (i + j) * B)) = true := hm
          rw [Map.recordIndex_one B c0.gen2 _ _ (hc.shape.bits _ (Map.leafLevel_mem _)),
            Nat.add_sub_cancel_left, Nat.mul_div_cancel _ hB, hc.shape.leaf_scale,
            Nat.div_one] at hm2
          rw [cardBit_true, hc.shape.leaf_scale]
          exact ⟨by omega, hm2⟩
  · exact h1

/-- The traversals of `collect2`, in a collection of either kind: they end,
every object copied has been walked, the root slots are updated and so are the
reference slots of the objects a Minor collection leaves in gen2. -/
theorem collect2_graph
    (hent : c0 = { c with gen2Base := Top, tenureFootprint := 0, gen1padding := 0,
                          gen2padding := 0 })
    (hr : Ready B c0 G) (hnd : c0.client.roots.Nodup)
    (hrs : ∀ p ∈ c0.client.roots, Settable B c0 G p ∧
      (mask B (c0.mem p) = 0 ∨ mask B (c0.mem p) ∈ G.objs))
    (hmin : c0.mode = MinorCollection → CardsReady B c0 G ∧
      (∀ p ∈ c0.client.roots, ¬ c0.inStorage B Gen.gen2 p) ∧
      (∀ y ∈ G.objs, c0.gen2.contains B y = true → ∀ j ∈ (G.lay y).slots,
        Young B c0 (c0.mem (y + j * B)) → Marked B c0 c0.mem (y + j * B))) :
    ∃ N c1 cp1 wk1, (∀ fuel, N ≤ fuel → collect2 B fuel c = some c1) ∧
      Trav B c0 G c1 cp1 wk1 (fun _ => []) [] ∧
      (∀ p ∈ c0.client.roots, Updated B c0 c1 cp1 (c1.mem p) (c0.mem p)) ∧
      (∀ y ∈ G.objs, isOld B c0 y → ∀ j ∈ (G.lay y).slots,
        Updated B c0 c1 cp1 (c1.mem (y + j * B)) (c0.mem (y + j * B))) := by
  have hs := hr.start
  by_cases hmode : c0.mode = MinorCollection
  · obtain ⟨hc, hout, hbar⟩ := hmin hmode
    obtain ⟨N, c1, cp1, wk1, hrun, hT, -, ho, -, hu, hse⟩ := collect2_cards hent hr hc hnd
      (fun p hp => ⟨(hrs p hp).1, hout p hp, (hrs p hp).2⟩)
    exact ⟨N, c1, cp1, wk1, hrun, hT, hu,
      fun y hy hold j hj => old_slot_updated hs hc ho hse hbar y hy hold.2 j hj⟩
  · have hmaj : c0.mode = MajorCollection := by
      cases h : c0.mode with
      | MinorCollection => exact absurd h hmode
      | MajorCollection => rfl
    obtain ⟨N, c1, cp1, wk1, hrun, hT, -, hu, -⟩ := collect2_major hent hr hmaj hnd hrs
    exact ⟨N, c1, cp1, wk1, hrun, hT, hu, fun y _ hold => absurd hold.1 hmode⟩

end Graph2

end Heap

namespace Heap

open CollectionType

section Graph3

variable {B : Nat} {c0 c : Context} {G : Graph} {cp : List Nat}

theorem referent_old (hs : Start B c0 G) (c : Context) (o : Nat) (ho : o ∈ G.objs)
    (h : isOld B c0 o) : referent B c0 c o = o := by
  obtain ⟨o1, o2, -⟩ := hs.obj_ok o ho
  have h3 : c0.mode = MinorCollection ∧ c0.gen2.contains B o = true := h
  unfold referent
  rw [mask_of_aligned B o o2, if_neg o1, if_pos h3]

theorem referent_moved (hs : Start B c0 G) (c : Context) (o : Nat) (ho : o ∈ G.objs)
    (h : ¬ isOld B c0 o) : referent B c0 c o = c.mem o := by
  obtain ⟨o1, o2, -⟩ := hs.obj_ok o ho
  have h3 : ¬ (c0.mode = MinorCollection ∧ c0.gen2.contains B o = true) := h
  unfold referent
  rw [mask_of_aligned B o o2, if_neg o1, if_neg h3]

/-- The reference slots of the image of an object left in place or copied are
updated once the traversals are closed. -/
theorem image_slot_updated (hr : Ready B c0 G) {c1 : Context} {cp1 wk1 : List Nat}
    (hT : Trav B c0 G c1 cp1 wk1 (fun _ => []) [])
    (hold : ∀ y ∈ G.objs, isOld B c0 y → ∀ j ∈ (G.lay y).slots,
      Updated B c0 c1 cp1 (c1.mem (y + j * B)) (c0.mem (y + j * B)))
    (o : Nat) (ho : o ∈ G.objs) (h : isOld B c0 o ∨ o ∈ cp1) (j : Nat)
    (hj : j ∈ (G.lay o).slots) :
    Updated B c0 c1 cp1 (c1.mem (referent B c0 c1 o + j * B)) (c0.mem (o + j * B)) := by
  have hs := hr.start
  by_cases h1 : isOld B c0 o
  · rw [referent_old hs c1 o ho h1]
    exact hold o ho h1 j hj
  · rw [referent_moved hs c1 o ho h1]
    rcases h with h | h
    · exact absurd h h1
    · have hw : o ∈ wk1 := by
        rcases hT.cover o h with h2 | h2
        · exact h2
        · exact absurd h2 (List.not_mem_nil _)
      have := hT.slots.walked o hw j hj (List.not_mem_nil _)
      rw [hr.mem_eq]
      exact this

/-- The layout of the image of an object left in place or copied is that of the
object. -/
theorem image_layout (hr : Ready B c0 G) {c1 : Context} {cp1 : List Nat}
    (hi : Inv B c0 G c1 cp1) (o : Nat) (ho : o ∈ G.objs) (h : isOld B c0 o ∨ o ∈ cp1) :
    c1.client.layout (referent B c0 c1 o) = c0.client.layout o := by
  have hs := hr.start
  rw [hr.lay_eq o ho]
  by_cases h1 : isOld B c0 o
  · rw [referent_old hs c1 o ho h1]
    exact hi.lay_obj o ho
  · rw [referent_moved hs c1 o ho h1]
    rcases h with h | h
    · exact absurd h h1
    · exact (hi.fwd o h).2

/-- An updated slot that referred to an object refers to an object left in
place or copied. -/
theorem Updated.target {c1 : Context} {cp1 : List Nat} {v v0 : Nat}
    (h : Updated B c0 c1 cp1 v v0) (h0 : mask B v0 ≠ 0) :
    isOld B c0 (mask B v0) ∨ mask B v0 ∈ cp1 := by
  rcases h.2 with ⟨h1, -⟩ | ⟨h1, -⟩ | ⟨h1, -⟩
  · exact absurd h1 h0
  · exact Or.inl h1
  · exact Or.inr h1

/-- Every object reached from the roots when the traversals start is an object
of the graph, is left in place or copied, and its image is reached from the
roots when they are closed and lies in none of the storage the collection
vacates. -/
theorem reach_image (hr : Ready B c0 G) (hnull : ∀ g, ¬ c0.inStorage B g 0)
    (hrs : ∀ p ∈ c0.client.roots, mask B (c0.mem p) = 0 ∨ mask B (c0.mem p) ∈ G.objs)
    {c1 : Context} {cp1 wk1 : List Nat}
    (hT : Trav B c0 G c1 cp1 wk1 (fun _ => []) [])
    (hu : ∀ p ∈ c0.client.roots, Updated B c0 c1 cp1 (c1.mem p) (c0.mem p))
    (hold : ∀ y ∈ G.objs, isOld B c0 y → ∀ j ∈ (G.lay y).slots,
      Updated B c0 c1 cp1 (c1.mem (y + j * B)) (c0.mem (y + j * B)))
    (o : Nat) (h : Reach B c0.client.layout c0.mem c0.client.roots o) :
    o ∈ G.objs ∧ (isOld B c0 o ∨ o ∈ cp1) ∧
      Reach B c1.client.layout c1.mem c1.client.roots (referent B c0 c1 o) ∧
      ¬ c0.inStorage B Gen.gen1 (referent B c0 c1 o) ∧
      (c0.mode = MajorCollection → ¬ c0.inStorage B Gen.gen2 (referent B c0 c1 o)) := by
  have hs := hr.start
  have hi := hT.inv
  have hroots : c1.client.roots = c0.client.roots := congrArg Shape.roots hi.shape
  induction h with
  | root p hp h0 =>
    have ho : mask B (c0.mem p) ∈ G.objs := by
      rcases hrs p hp with h | h
      · exact absurd h h0
      · exact h
    have hup := hu p hp
    have htg := hup.target h0
    have hf := hup.forwarded hs hi hnull
    have hne := referent_ne_zero hs hi hnull _ ho htg
    rw [referent_mask] at hne ⊢
    rw [← hf.2.1] at hne ⊢
    exact ⟨ho, htg, Reach.root p (by rw [hroots]; exact hp) hne, hf.2.2⟩
  | step y j _ hj h0 ih =>
    obtain ⟨hy, hyc, hry, -, -⟩ := ih
    rw [hr.lay_eq y hy] at hj
    have ho : mask B (c0.mem (y + j * B)) ∈ G.objs := by
      have := hs.valid y hy j hj
      rw [← hr.mem_eq] at this
      rcases this with h | h
      · exact absurd h h0
      · exact h
    have hup := image_slot_updated hr hT hold y hy hyc j hj
    have htg := hup.target h0
    have hf := hup.forwarded hs hi hnull
    have hne := referent_ne_zero hs hi hnull _ ho htg
    rw [referent_mask] at hne ⊢
    rw [← hf.2.1] at hne ⊢
    refine ⟨ho, htg, Reach.step _ j hry ?_ hne, hf.2.2⟩
    rw [image_layout hr hi y hy hyc, hr.lay_eq y hy]
    exact hj

end Graph3

end Heap

namespace Heap

open CollectionType

/-! ## The heap with an old and a young object -/

theorem link_storage (g : Gen) (a : Nat) :
    linkContext.inStorage 4 g a ↔ (g = Gen.nextGen1 ∧ 16777216 ≤ a ∧ a < 16777236) ∨
      (g = Gen.gen2 ∧ 2000 ≤ a ∧ a < 2076) := by
  have f1 : (linkContext.mapOf Gen.gen1).footprint 4 0 = 0 := by decide
  have f2 : (linkContext.mapOf Gen.nextGen1).footprint 4 4 = 1 := by decide
  have f3 : (linkContext.mapOf Gen.gen2).footprint 4 16 = 3 := by decide
  have f4 : (linkContext.mapOf Gen.nextGen2).footprint 4 0 = 0 := by decide
  cases g
  · have d : linkContext.seg Gen.gen1 = ⟨0, 0, 0, some (Map.leaf 2 1 false)⟩ := rfl
    unfold Context.inStorage
    rw [d]; simp only []; rw [f1]
    constructor
    · intro h; omega
    · rintro (⟨h, -⟩ | ⟨h, -⟩) <;> exact absurd h (by decide)
  · have d : linkContext.seg Gen.nextGen1 = ⟨16777216, 0, 4, some (Map.leaf 2 1 false)⟩ := rfl
    unfold Context.inStorage
    rw [d]; simp only []; rw [f2]
    constructor
    · intro h; exact Or.inl ⟨trivial, by omega, by omega⟩
    · rintro (⟨-, h1, h2⟩ | ⟨h, -⟩)
      · exact ⟨h1, by omega⟩
      · exact absurd h (by decide)
  · have d : (linkContext.seg Gen.gen2).data = 2000 ∧ (linkContext.seg Gen.gen2).capacity = 16 :=
      ⟨rfl, rfl⟩
    unfold Context.inStorage
    rw [d.1, d.2, f3]
    constructor
    · intro h; exact Or.inr ⟨rfl, by omega, by omega⟩
    · rintro (⟨h, -⟩ | ⟨-, h1, h2⟩)
      · exact absurd h (by decide)
      · exact ⟨h1, by omega⟩
  · have d : (linkContext.seg Gen.nextGen2).data = 0 ∧
        (linkContext.seg Gen.nextGen2).capacity = 0 := ⟨rfl, rfl⟩
    unfold Context.inStorage
    rw [d.1, d.2, f4]
    constructor
    · intro h; omega
    · rintro (⟨h, -⟩ | ⟨h, -⟩) <;> exact absurd h (by decide)

theorem link_toSpace (a : Nat) :
    linkContext.inToSpace 4 a ↔ (16777216 ≤ a ∧ a < 16777232) ∨ (2016 ≤ a ∧ a < 2064) := by
  unfold Context.inToSpace
  have d1 : linkContext.nextGen1 = ⟨16777216, 0, 4, some (Map.leaf 2 1 false)⟩ := rfl
  have d2 : linkContext.nextGen2.data = 0 ∧ linkContext.nextGen2.capacity = 0 := ⟨rfl, rfl⟩
  have d3 : linkContext.gen2.data = 2000 ∧ linkContext.gen2.capacity = 16 ∧
      linkContext.gen2.position = 4 := ⟨rfl, rfl, rfl⟩
  rw [d1, d2.1, d2.2, d3.1, d3.2.1, d3.2.2]
  simp only []
  omega

theorem link_objs (o : Nat) : o ∈ linkGraph.objs ↔ o = 1000 ∨ o = 2000 := by
  show o ∈ [1000, 2000] ↔ _
  simp

/-- The heap with an old and a young object satisfies what the traversals assume. -/
theorem link_start : Start 4 linkContext linkGraph := by
  refine
    { hB := Or.inl rfl
      ageMap_eq := rfl
      nextAgeMap_eq := rfl
      heapMap_ok := ⟨⟨by decide, rfl⟩, ⟨by decide, rfl⟩, by decide, rfl⟩
      nextHeapMap_ok := ⟨⟨by decide, rfl⟩, ⟨by decide, rfl⟩, by decide, rfl⟩
      seg_ok := fun g => by cases g <;> decide
      next_empty := ⟨rfl, rfl⟩
      base_top := rfl
      stor_disj := ?_
      objs_nodup := by decide
      obj_ok := ?_
      obj_loc := ?_
      obj_disj := ?_
      valid := ?_
      first_word := ?_ }
  · intro g g1 hne a h1 h2
    rw [link_storage] at h1 h2
    rcases h1 with h1 | h1 <;> rcases h2 with h2 | h2
    · exact hne (h1.1.trans h2.1.symm)
    · omega
    · omega
    · exact hne (h1.1.trans h2.1.symm)
  · intro o ho
    rcases (link_objs o).1 ho with rfl | rfl <;> decide
  · intro o ho
    rcases (link_objs o).1 ho with rfl | rfl
    · right; right
      intro g a h1 h2 h3
      rw [link_storage] at h3
      have : (linkGraph.lay 1000).size = 2 := rfl
      rw [this] at h2; omega
    · right; left
      unfold Context.holds
      decide
  · intro o ho o1 ho1 hne
    rcases (link_objs o).1 ho with rfl | rfl <;> rcases (link_objs o1).1 ho1 with rfl | rfl
    · exact absurd rfl hne
    · decide
    · decide
    · exact absurd rfl hne
  · intro o ho k hk
    rcases (link_objs o).1 ho with rfl | rfl
    · have : k = 1 := by simpa using (show k ∈ [1] from hk)
      subst this
      right; decide
    · have : k = 1 := by simpa using (show k ∈ [1] from hk)
      subst this
      right; decide
  · intro o ho _
    rw [link_toSpace]
    rcases (link_objs o).1 ho with rfl | rfl
    · have : mask 4 (linkGraph.m0 1000) = 0 := by decide
      rw [this]; omega
    · have : mask 4 (linkGraph.m0 2000) = 0 := by decide
      rw [this]; omega

theorem link_ready : Ready 4 linkContext linkGraph :=
  { start := link_start
    mem_eq := fun _ => rfl
    lay_eq := fun _ _ => rfl
    room := fun g hg => by cases g <;> first | exact absurd rfl hg | decide
    tenure := by decide }

end Heap

namespace Heap

open CollectionType

/-- `collect(Context*, unsigned)` is its three parts in a row. -/
theorem collect_parts (B P fuel : Nat) (c : Context) (footprint : Nat) :
    collect B P fuel c footprint =
      (collectInit B P c footprint).bind fun c2 => (collect2 B fuel c2).bind collectFinish := by
  unfold collect collectInit collectFinish
  generalize (if c.tenureFootprint > c.gen2.remaining then { c with mode := MajorCollection }
    else c) = c0
  dsimp only
  cases h1 : initNextGen1 B c0 footprint with
  | none => rfl
  | some c1 =>
    dsimp only
    by_cases hm : c1.mode = MajorCollection
    · rw [if_pos hm]
      cases h2 : initNextGen2 B P c1 with
      | none => rfl
      | some c2 =>
        dsimp only
        rw [Option.some_bind]
        cases h3 : collect2 B fuel c2 with
        | none => rfl
        | some c3 => rfl
    · rw [if_neg hm]
      dsimp only
      rw [Option.some_bind]
      cases h3 : collect2 B fuel c1 with
      | none => rfl
      | some c3 => rfl

end Heap

namespace Heap

open CollectionType

/-- A segment the constructor returns is empty and has at least the minimum
capacity, unless no capacity was desired. -/
theorem Segment.new_capacity (B : Nat) (sys : System) (m : Mem) (mp : Map) (desired minimum : Nat)
    (s : Segment) (sys1 : System) (m1 : Mem)
    (h : Segment.new B sys m mp desired minimum = some (s, sys1, m1)) :
    s.position = 0 ∧ (minimum ≤ s.capacity ∨ (desired = 0 ∧ s.capacity = 0)) := by
  unfold Segment.new at h
  by_cases hd : desired ≠ 0
  · rw [if_pos hd] at h
    by_cases hm : desired ≥ minimum
    · rw [if_pos hm] at h
      cases hl : Segment.allocLoop B sys.tryAllocate mp minimum (desired + 1) sys.calls desired
        with
      | none => rw [hl] at h; cases h
      | some r =>
        obtain ⟨d, cap, calls1⟩ := r
        have hb := Segment.allocLoop_sound B sys.tryAllocate mp minimum (desired + 1) sys.calls
          desired d cap calls1 hm hl
        rw [hl] at h
        dsimp only at h
        split at h
        · exact absurd h (by simp)
        · simp only [Option.some.injEq, Prod.mk.injEq] at h
          obtain ⟨rfl, -, -⟩ := h
          exact ⟨rfl, Or.inl hb.1⟩
    · rw [if_neg hm] at h
      exact absurd h (by simp)
  · rw [if_neg hd] at h
    simp only [Option.some.injEq, Prod.mk.injEq] at h
    obtain ⟨rfl, -, -⟩ := h
    exact ⟨rfl, Or.inr ⟨by omega, rfl⟩⟩

/-- What `initNextGen1` leaves: all but nextGen1, its map, the system and the
memory; nextGen1 is empty and has at least the minimum capacity. -/
theorem initNextGen1_spec (B : Nat) (c c1 : Context) (footprint : Nat)
    (h : initNextGen1 B c footprint = some c1) :
    c1.gen1 = c.gen1 ∧ c1.gen2 = c.gen2 ∧ c1.nextGen2 = c.nextGen2 ∧ c1.mode = c.mode ∧
    c1.tenureFootprint = c.tenureFootprint ∧ c1.gen1padding = c.gen1padding ∧
    c1.gen2padding = c.gen2padding ∧ c1.client = c.client ∧ c1.ageMap = c.ageMap ∧
    c1.heapMap = c.heapMap ∧ c1.pageMap = c.pageMap ∧ c1.nextHeapMap = c.nextHeapMap ∧
    c1.nextGen1.position = 0 ∧
    u32 (u32 (usub c.gen1.position c.tenureFootprint + footprint) + c.gen1padding) ≤
      c1.nextGen1.capacity := by
  unfold initNextGen1 at h
  dsimp only at h
  split at h
  · exact absurd h (by simp)
  · rename_i s sys m hn
    simp only [Option.some.injEq] at h
    subst h
    obtain ⟨q1, q2⟩ := Segment.new_capacity B _ _ _ _ _ _ _ _ hn
    refine ⟨rfl, rfl, rfl, rfl, rfl, rfl, rfl, rfl, rfl, rfl, rfl, rfl, q1, ?_⟩
    rcases q2 with q | ⟨q, -⟩
    · exact q
    · show _ ≤ s.capacity
      rw [q]; exact Nat.zero_le _

/-- What `initNextGen2` leaves: all but nextGen2, its maps, the system and the
memory; nextGen2 is empty and has at least the minimum capacity. -/
theorem initNextGen2_spec (B P : Nat) (hB : B = 4 ∨ B = 8) (c c1 : Context)
    (h : initNextGen2 B P c = some c1) :
    c1.gen1 = c.gen1 ∧ c1.gen2 = c.gen2 ∧ c1.nextGen1 = c.nextGen1 ∧ c1.mode = c.mode ∧
    c1.tenureFootprint = c.tenureFootprint ∧ c1.gen1padding = c.gen1padding ∧
    c1.gen2padding = c.gen2padding ∧ c1.client = c.client ∧ c1.ageMap = c.ageMap ∧
    c1.heapMap = c.heapMap ∧ c1.pageMap = c.pageMap ∧ c1.nextAgeMap = c.nextAgeMap ∧
    c1.nextGen2.position = 0 ∧
    u32 (u32 (c.gen2.position + c.tenureFootprint) + c.gen2padding) ≤ c1.nextGen2.capacity := by
  unfold initNextGen2 at h
  dsimp only at h
  split at h
  · exact absurd h (by simp)
  · rename_i s sys m hn
    simp only [Option.some.injEq] at h
    subst h
    obtain ⟨q1, q2⟩ := Segment.new_capacity B _ _ _ _ _ _ _ _ hn
    refine ⟨rfl, rfl, rfl, rfl, rfl, rfl, rfl, rfl, rfl, rfl, rfl, rfl, q1, ?_⟩
    rcases q2 with q | ⟨q, -⟩
    · exact q
    · exfalso
      have h1 : InitialGen2CapacityInBytes / B ≤ 0 := by
        rw [← q]; exact Nat.le_max_right _ _
      rcases hB with rfl | rfl <;> exact absurd h1 (by decide)

end Heap

namespace Heap

open CollectionType

/-- Disjoint ranges inside a range: their sizes add up to at most its size. -/
theorem packing (B : Nat) (sz : Nat → Nat) (l : List Nat) (D hi : Nat) (hn : l.Nodup)
    (hin : ∀ x ∈ l, D ≤ x ∧ x + sz x * B ≤ hi)
    (hd : ∀ x ∈ l, ∀ y ∈ l, x ≠ y → x + sz x * B ≤ y ∨ y + sz y * B ≤ x) :
    (l.map sz).sum * B ≤ hi - D := by
  have hdisj : ∀ x ∈ l.toFinset, ∀ y ∈ l.toFinset, x ≠ y →
      Disjoint (Finset.Ico x (x + sz x * B)) (Finset.Ico y (y + sz y * B)) := by
    intro x hx y hy hne
    rw [Finset.disjoint_left]
    intro a ha hb
    rw [Finset.mem_Ico] at ha hb
    rcases hd x (List.mem_toFinset.1 hx) y (List.mem_toFinset.1 hy) hne with h | h <;> omega
  have hcard := Finset.card_biUnion hdisj
  have hsub : l.toFinset.biUnion (fun x => Finset.Ico x (x + sz x * B)) ⊆ Finset.Ico D hi := by
    intro a ha
    rw [Finset.mem_biUnion] at ha
    obtain ⟨x, hx, hax⟩ := ha
    rw [Finset.mem_Ico] at hax ⊢
    have := hin x (List.mem_toFinset.1 hx)
    omega
  have hle := Finset.card_le_card hsub
  rw [hcard, Nat.card_Ico] at hle
  have hsum : ∑ u ∈ l.toFinset, (Finset.Ico u (u + sz u * B)).card =
      (l.map sz).sum * B := by
    rw [← List.sum_map_mul_right, ← List.sum_toFinset _ hn]
    apply Finset.sum_congr rfl
    intro x _
    rw [Nat.card_Ico, Nat.add_sub_cancel_left]
  rw [hsum] at hle
  exact hle

/-- A sum over the elements that satisfy `p` is at most the sums over those
that satisfy `q1` and over those that satisfy `q2` when `p` implies one of the
two. -/
theorem sum_filter_le_add (f : Nat → Nat) (p q1 q2 : Nat → Bool) :
    ∀ l : List Nat, (∀ x ∈ l, p x = true → q1 x = true ∨ q2 x = true) →
      ((l.filter p).map f).sum ≤ ((l.filter q1).map f).sum + ((l.filter q2).map f).sum := by
  intro l
  induction l with
  | nil => intro _; simp
  | cons a l ih =>
    intro h
    have ih2 := ih (fun x hx => h x (List.mem_cons_of_mem _ hx))
    have ha := h a (List.mem_cons_self _ _)
    simp only [List.filter_cons]
    cases hp : p a <;> cases h1 : q1 a <;> cases h2 : q2 a <;>
      simp only [hp, h1, h2, Bool.false_eq_true, if_false, if_true, List.map_cons,
        List.sum_cons] at ha ⊢ <;> first | omega | (exfalso; simpa using ha)

/-- A sum over the elements that satisfy `p` and the sum over those that do not
add up to the sum over all. -/
theorem sum_filter_split (f : Nat → Nat) (p : Nat → Bool) (l : List Nat) :
    ((l.filter p).map f).sum + ((l.filter fun x => !p x).map f).sum = (l.map f).sum := by
  induction l with
  | nil => simp
  | cons a l ih =>
    simp only [List.filter_cons]
    cases hp : p a <;>
      simp only [hp, Bool.not_false, Bool.not_true, Bool.false_eq_true, if_false, if_true,
        List.map_cons, List.sum_cons] <;> omega

/-- The sum over a list without duplicates is at most the sum over a list that
has all its elements. -/
theorem sum_le_of_subset (f : Nat → Nat) (l1 l2 : List Nat) (h1 : l1.Nodup) (h2 : l2.Nodup)
    (hsub : ∀ x ∈ l1, x ∈ l2) : (l1.map f).sum ≤ (l2.map f).sum := by
  rw [← List.sum_toFinset f h1, ← List.sum_toFinset f h2]
  apply Finset.sum_le_sum_of_subset
  intro x hx
  exact List.mem_toFinset.2 (hsub x (List.mem_toFinset.1 hx))

end Heap

namespace Heap

open CollectionType

/-- What the statements of `collect` before the call of `collect2` leave: gen1,
gen2, the client, the maps of the old segments and the scalars; the mode is
Major when it was or when the tenure footprint exceeds the room left in gen2;
the destination segments built are empty and have at least their minimum
capacity. -/
theorem collectInit_spec (B P : Nat) (hB : B = 4 ∨ B = 8) (e c : Context) (footprint : Nat)
    (h : collectInit B P e footprint = some c) :
    c.gen1 = e.gen1 ∧ c.gen2 = e.gen2 ∧ c.client = e.client ∧ c.ageMap = e.ageMap ∧
    c.heapMap = e.heapMap ∧ c.tenureFootprint = e.tenureFootprint ∧
    (c.mode = MajorCollection ↔
      (e.mode = MajorCollection ∨ e.tenureFootprint > e.gen2.remaining)) ∧
    c.nextGen1.position = 0 ∧
    u32 (u32 (usub e.gen1.position e.tenureFootprint + footprint) + e.gen1padding) ≤
      c.nextGen1.capacity ∧
    (c.mode = MajorCollection → c.nextGen2.position = 0 ∧
      u32 (u32 (e.gen2.position + e.tenureFootprint) + e.gen2padding) ≤ c.nextGen2.capacity) ∧
    (c.mode ≠ MajorCollection → c.nextGen2 = e.nextGen2) := by
  unfold collectInit at h
  dsimp only at h
  have key : ∀ e0 : Context, e0.gen1 = e.gen1 → e0.gen2 = e.gen2 → e0.client = e.client →
      e0.ageMap = e.ageMap → e0.heapMap = e.heapMap → e0.tenureFootprint = e.tenureFootprint →
      e0.gen1padding = e.gen1padding → e0.gen2padding = e.gen2padding →
      e0.nextGen2 = e.nextGen2 →
      (match initNextGen1 B e0 footprint with
        | none => none
        | some c1 => if c1.mode = MajorCollection then initNextGen2 B P c1 else some c1) = some c →
      c.gen1 = e.gen1 ∧ c.gen2 = e.gen2 ∧ c.client = e.client ∧ c.ageMap = e.ageMap ∧
      c.heapMap = e.heapMap ∧ c.tenureFootprint = e.tenureFootprint ∧ c.mode = e0.mode ∧
      c.nextGen1.position = 0 ∧
      u32 (u32 (usub e.gen1.position e.tenureFootprint + footprint) + e.gen1padding) ≤
        c.nextGen1.capacity ∧
      (c.mode = MajorCollection → c.nextGen2.position = 0 ∧
        u32 (u32 (e.gen2.position + e.tenureFootprint) + e.gen2padding) ≤ c.nextGen2.capacity) ∧
      (c.mode ≠ MajorCollection → c.nextGen2 = e.nextGen2) := by
    intro e0 g1 g2 g3 g4 g5 g6 g7 g8 g9 h0
    cases h1 : initNextGen1 B e0 footprint with
    | none => rw [h1] at h0; exact absurd h0 (by simp)
    | some c1 =>
      rw [h1] at h0
      dsimp only at h0
      obtain ⟨a1, a2, a3, a4, a5, a6, a7, a8, a9, a10, a11, a12, a13, a14⟩ :=
        initNextGen1_spec B e0 c1 footprint h1
      rw [g1, g6, g7] at a14
      by_cases hm : c1.mode = MajorCollection
      · rw [if_pos hm] at h0
        obtain ⟨b1, b2, b3, b4, b5, b6, b7, b8, b9, b10, b11, b12, b13, b14⟩ :=
          initNextGen2_spec B P hB c1 c h0
        rw [a2, a5, a7, g2, g6, g8] at b14
        refine ⟨by rw [b1, a1, g1], by rw [b2, a2, g2], by rw [b8, a8, g3], by rw [b9, a9, g4],
          by rw [b10, a10, g5], by rw [b5, a5, g6], by rw [b4, a4], by rw [b3]; exact a13,
          by rw [b3]; exact a14, fun _ => ⟨b13, b14⟩, fun hn => absurd (by rw [b4]; exact hm) hn⟩
      · rw [if_neg hm] at h0
        simp only [Option.some.injEq] at h0
        subst h0
        exact ⟨by rw [a1, g1], by rw [a2, g2], by rw [a8, g3], by rw [a9, g4],
          by rw [a10, g5], by rw [a5, g6], a4, a13, a14, fun h => absurd h hm,
          fun _ => by rw [a3, g9]⟩
  by_cases ht : e.tenureFootprint > e.gen2.remaining
  · rw [if_pos ht] at h
    obtain ⟨k1, k2, k3, k4, k5, k6, k7, k8, k9, k10, k11⟩ :=
      key { e with mode := MajorCollection } rfl rfl rfl rfl rfl rfl rfl rfl rfl h
    exact ⟨k1, k2, k3, k4, k5, k6, ⟨fun _ => Or.inr ht, fun _ => k7⟩, k8, k9, k10, k11⟩
  · rw [if_neg ht] at h
    obtain ⟨k1, k2, k3, k4, k5, k6, k7, k8, k9, k10, k11⟩ :=
      key e rfl rfl rfl rfl rfl rfl rfl rfl rfl h
    refine ⟨k1, k2, k3, k4, k5, k6, ⟨fun hm => Or.inl (by rw [← k7]; exact hm), fun hm => ?_⟩,
      k8, k9, k10, k11⟩
    rcases hm with hm | hm
    · rw [k7]; exact hm
    · exact absurd hm ht

end Heap

namespace Heap

open CollectionType

section Room

variable {B P : Nat} {e c : Context} {G : Graph} {X : List Nat} {footprint : Nat}

/-- From the sizing of the destination segments: each of them has room for the
objects the collection copies into it. -/
theorem room_of_sized (hinit : collectInit B P e footprint = some c)
    (hs : Start B c.enter G) (hlay : ∀ o ∈ G.objs, c.enter.client.layout o = G.lay o)
    (hz : Sized B e G X footprint) :
    ∀ g, g ≠ Gen.gen1 →
      (c.enter.seg g).position + need B c.enter G [] g ≤ (c.enter.seg g).capacity := by
  have hB := hs.B_pos
  obtain ⟨s1, s2, s3, s4, s5, s6, s7, s8, s9, s10, s11⟩ :=
    collectInit_spec B P hs.hB e c footprint hinit
  have hg1 : c.enter.gen1 = e.gen1 := s1
  have hg2 : c.enter.gen2 = e.gen2 := s2
  have hcl : c.enter.client = e.client := s3
  have ham : c.enter.ageMap = e.ageMap := s4
  have hmode : c.enter.mode = c.mode := rfl
  -- the objects of gen1
  have hpackX : (X.map fun x => (e.client.layout x).size).sum ≤ e.gen1.position := by
    have := packing B (fun x => (e.client.layout x).size) X e.gen1.data
      (e.gen1.data + e.gen1.position * B) hz.nodup (fun x hx => hz.inside x hx) hz.disj
    rw [Nat.add_sub_cancel_left] at this
    exact Nat.le_of_mul_le_mul_right this hB
  have hsplit := sum_filter_split (fun x => (e.client.layout x).size)
    (fun x => decide (e.ageMap.get B e.gen1 G.m0 x = some TenureThreshold)) X
  rw [← hz.tenure] at hsplit
  have hszG : ∀ (q : Nat → Bool),
      ((G.objs.filter q).map fun o => (G.lay o).size).sum =
        ((G.objs.filter q).map fun x => (e.client.layout x).size).sum := by
    intro q
    congr 1
    apply List.map_congr_left
    intro o ho
    rw [← hlay o (List.mem_filter.1 ho).1, hcl]
  have hA : ((G.objs.filter fun o => e.gen1.contains B o &&
      decide (e.ageMap.get B e.gen1 G.m0 o = some TenureThreshold)).map
        fun o => (G.lay o).size).sum ≤ e.tenureFootprint := by
    rw [hszG, hz.tenure]
    apply sum_le_of_subset _ _ _ (hs.objs_nodup.filter _) (hz.nodup.filter _)
    intro o ho
    obtain ⟨h1, h2⟩ := List.mem_filter.1 ho
    simp only [Bool.and_eq_true, decide_eq_true_eq] at h2
    exact List.mem_filter.2 ⟨hz.all o h1 h2.1, by simpa using h2.2⟩
  have hBn : ((G.objs.filter fun o => e.gen1.contains B o &&
      !decide (e.ageMap.get B e.gen1 G.m0 o = some TenureThreshold)).map
        fun o => (G.lay o).size).sum + e.tenureFootprint ≤ e.gen1.position := by
    have : ((G.objs.filter fun o => e.gen1.contains B o &&
        !decide (e.ageMap.get B e.gen1 G.m0 o = some TenureThreshold)).map
          fun o => (G.lay o).size).sum ≤
        ((X.filter fun x => !decide (e.ageMap.get B e.gen1 G.m0 x = some TenureThreshold)).map
          fun x => (e.client.layout x).size).sum := by
      rw [hszG]
      apply sum_le_of_subset _ _ _ (hs.objs_nodup.filter _) (hz.nodup.filter _)
      intro o ho
      obtain ⟨h1, h2⟩ := List.mem_filter.1 ho
      simp only [Bool.and_eq_true] at h2
      exact List.mem_filter.2 ⟨hz.all o h1 h2.1, h2.2⟩
    omega
  -- the objects of gen2
  have hG2 : ((G.objs.filter fun o => e.gen2.contains B o).map fun o => (G.lay o).size).sum ≤
      e.gen2.position := by
    have := packing B (fun x => (G.lay x).size) (G.objs.filter fun o => e.gen2.contains B o)
      e.gen2.data (e.gen2.data + e.gen2.position * B) (hs.objs_nodup.filter _)
      (fun x hx => by
        obtain ⟨h1, h2⟩ := List.mem_filter.1 hx
        have := hs.old_holds x h1 (by rw [hg2]; exact h2)
        unfold Context.holds at this
        rw [show c.enter.seg Gen.gen2 = e.gen2 from hg2] at this
        exact this)
      (fun x hx y hy hne => hs.obj_disj x (List.mem_filter.1 hx).1 y (List.mem_filter.1 hy).1 hne)
    rw [Nat.add_sub_cancel_left] at this
    exact Nat.le_of_mul_le_mul_right this hB
  have hzero : ((G.objs.filter fun _ => false).map fun o => (G.lay o).size).sum = 0 := by
    simp
  have hseg1 := hs.seg_ok Gen.gen1
  have hseg2 := hs.seg_ok Gen.gen2
  rw [show c.enter.seg Gen.gen1 = e.gen1 from hg1] at hseg1
  rw [show c.enter.seg Gen.gen2 = e.gen2 from hg2] at hseg2
  have hdest : ∀ o, dest B c.enter G o =
      if e.gen2.contains B o then Gen.nextGen2
      else if e.gen1.contains B o then
        if e.ageMap.get B e.gen1 G.m0 o = some TenureThreshold then
          (if c.mode = MinorCollection then Gen.gen2 else Gen.nextGen2)
        else Gen.nextGen1
      else Gen.nextGen1 := by
    intro o
    unfold dest
    rw [hg1, hg2, ham, hmode]
  intro g hg
  unfold need
  cases g with
  | gen1 => exact absurd rfl hg
  | nextGen1 =>
    have hle := sum_filter_le_add (fun o => (G.lay o).size)
      (fun o => decide (c.enter.mode = MajorCollection ∨ c.enter.gen2.contains B o = false) &&
        decide (o ∉ ([] : List Nat)) && decide (dest B c.enter G o = Gen.nextGen1))
      (fun o => e.gen1.contains B o &&
        !decide (e.ageMap.get B e.gen1 G.m0 o = some TenureThreshold))
      (fun o => !e.gen1.contains B o && !e.gen2.contains B o) G.objs (by
        intro o _ hp
        simp only [Bool.and_eq_true, decide_eq_true_eq] at hp
        have hd := hp.2
        rw [hdest] at hd
        by_cases h2 : e.gen2.contains B o = true
        · rw [if_pos h2] at hd; exact absurd hd (by decide)
        · rw [if_neg h2] at hd
          by_cases h1 : e.gen1.contains B o = true
          · rw [if_pos h1] at hd
            by_cases h3 : e.ageMap.get B e.gen1 G.m0 o = some TenureThreshold
            · rw [if_pos h3] at hd
              split at hd <;> exact absurd hd (by decide)
            · left; simp [h1, h3]
          · right; simp [h1, h2])
    have hmin : e.gen1.position - e.tenureFootprint + footprint + e.gen1padding ≤
        c.nextGen1.capacity := by
      have hw := hz.no_wrap1
      have h1 : usub e.gen1.position e.tenureFootprint = e.gen1.position - e.tenureFootprint :=
        usub_small _ _ (by omega) (by omega)
      rw [h1] at s9
      unfold u32 at s9
      rw [Nat.mod_eq_of_lt (by omega), Nat.mod_eq_of_lt (by omega)] at s9
      exact s9
    have hout := hz.outside
    have hpos : (c.enter.seg Gen.nextGen1).position = 0 := hs.next_empty.1
    rw [hpos]
    show 0 + _ ≤ c.nextGen1.capacity
    omega
  | gen2 =>
    show c.enter.gen2.position + _ ≤ c.enter.gen2.capacity
    rw [congrArg Segment.position hg2, congrArg Segment.capacity hg2]
    by_cases hmaj : c.mode = MajorCollection
    · have hle := sum_filter_le_add (fun o => (G.lay o).size)
        (fun o => decide (c.enter.mode = MajorCollection ∨ c.enter.gen2.contains B o = false) &&
          decide (o ∉ ([] : List Nat)) && decide (dest B c.enter G o = Gen.gen2))
        (fun _ => false) (fun _ => false) G.objs (by
          intro o _ hp
          simp only [Bool.and_eq_true, decide_eq_true_eq] at hp
          have := dest_gen2_minor o hp.2
          rw [hmode, hmaj] at this
          exact absurd this (by decide))
      rw [hzero] at hle
      omega
    · have hle := sum_filter_le_add (fun o => (G.lay o).size)
        (fun o => decide (c.enter.mode = MajorCollection ∨ c.enter.gen2.contains B o = false) &&
          decide (o ∉ ([] : List Nat)) && decide (dest B c.enter G o = Gen.gen2))
        (fun o => e.gen1.contains B o &&
          decide (e.ageMap.get B e.gen1 G.m0 o = some TenureThreshold))
        (fun _ => false) G.objs (by
          intro o _ hp
          simp only [Bool.and_eq_true, decide_eq_true_eq] at hp
          have hd := hp.2
          rw [hdest] at hd
          by_cases h2 : e.gen2.contains B o = true
          · rw [if_pos h2] at hd; exact absurd hd (by decide)
          · rw [if_neg h2] at hd
            by_cases h1 : e.gen1.contains B o = true
            · rw [if_pos h1] at hd
              by_cases h3 : e.ageMap.get B e.gen1 G.m0 o = some TenureThreshold
              · left; simp [h1, h3]
              · rw [if_neg h3] at hd; exact absurd hd (by decide)
            · rw [if_neg h1] at hd; exact absurd hd (by decide))
      rw [hzero] at hle
      have hnt : ¬ e.tenureFootprint > e.gen2.remaining := fun h => hmaj (s7.2 (Or.inr h))
      unfold Segment.remaining at hnt
      rw [usub_small _ _ hseg2.2.1 (by omega)] at hnt
      omega
  | nextGen2 =>
    have hpos : (c.enter.seg Gen.nextGen2).position = 0 := hs.next_empty.2
    rw [hpos]
    show 0 + _ ≤ c.nextGen2.capacity
    by_cases hmaj : c.mode = MajorCollection
    · have hle := sum_filter_le_add (fun o => (G.lay o).size)
        (fun o => decide (c.enter.mode = MajorCollection ∨ c.enter.gen2.contains B o = false) &&
          decide (o ∉ ([] : List Nat)) && decide (dest B c.enter G o = Gen.nextGen2))
        (fun o => e.gen2.contains B o)
        (fun o => e.gen1.contains B o &&
          decide (e.ageMap.get B e.gen1 G.m0 o = some TenureThreshold)) G.objs (by
          intro o _ hp
          simp only [Bool.and_eq_true, decide_eq_true_eq] at hp
          have hd := hp.2
          rw [hdest] at hd
          by_cases h2 : e.gen2.contains B o = true
          · exact Or.inl h2
          · rw [if_neg h2] at hd
            by_cases h1 : e.gen1.contains B o = true
            · rw [if_pos h1] at hd
              by_cases h3 : e.ageMap.get B e.gen1 G.m0 o = some TenureThreshold
              · right; simp [h1, h3]
              · rw [if_neg h3] at hd; exact absurd hd (by decide)
            · rw [if_neg h1] at hd; exact absurd hd (by decide))
      have hw := hz.no_wrap2 (s7.1 hmaj)
      have hmin := (s10 hmaj).2
      unfold u32 at hmin
      rw [Nat.mod_eq_of_lt (by omega), Nat.mod_eq_of_lt (by omega)] at hmin
      omega
    · have hminor : c.mode = MinorCollection := by
        cases h : c.mode with
        | MinorCollection => rfl
        | MajorCollection => exact absurd h hmaj
      have hle := sum_filter_le_add (fun o => (G.lay o).size)
        (fun o => decide (c.enter.mode = MajorCollection ∨ c.enter.gen2.contains B o = false) &&
          decide (o ∉ ([] : List Nat)) && decide (dest B c.enter G o = Gen.nextGen2))
        (fun _ => false) (fun _ => false) G.objs (by
          intro o _ hp
          simp only [Bool.and_eq_true, decide_eq_true_eq] at hp
          have hd := hp.2
          have hmv := hp.1.1
          rw [hdest] at hd
          rw [hmode, hg2] at hmv
          exfalso
          by_cases h2 : e.gen2.contains B o = true
          · rcases hmv with h | h
            · exact hmaj h
            · rw [h2] at h; exact absurd h (by decide)
          · rw [if_neg h2] at hd
            by_cases h1 : e.gen1.contains B o = true
            · rw [if_pos h1] at hd
              by_cases h3 : e.ageMap.get B e.gen1 G.m0 o = some TenureThreshold
              · rw [if_pos h3, if_pos hminor] at hd; exact absurd hd (by decide)
              · rw [if_neg h3] at hd; exact absurd hd (by decide)
            · rw [if_neg h1] at hd; exact absurd hd (by decide))
      rw [hzero] at hle
      omega

end Room

end Heap

namespace Heap

open CollectionType

/-- When the scan is skipped and `update` fails for the first root slot,
`collect2` fails, whatever the fuel. -/
theorem collect2_root_fails (B : Nat) (c : Context) (p : Nat) (rest : List Nat)
    (hroots : c.enter.client.roots = p :: rest)
    (hscan : ¬ (c.enter.mode = MinorCollection ∧ c.enter.gen2.position ≠ 0))
    (hupd : update B c.enter (mask B p) = none) (fuel : Nat) : collect2 B fuel c = none := by
  have hcol : collect2 B fuel c =
      match (if c.enter.mode = MinorCollection ∧ c.enter.gen2.position ≠ 0 then
          (collectMap B fuel c.enter.heapMap false c.enter 0 (u32 (0 + c.enter.gen2.position))
            false).map fun r => r.1
         else some c.enter) with
      | none => none
      | some c2 => visitRoots B fuel c2.client.roots c2 := rfl
  rw [hcol, if_neg hscan]
  dsimp only
  rw [hroots]
  unfold visitRoots collectSlot
  rw [hupd]

/-- C9, counterexample: the sizing of nextGen1 wraps around.  After its first
collection the example has its object of four words, held by the root slot at
500, in gen1 (position 4), with tenure footprint 0 and no padding.  For a
Minor collection with the footprint 2^32 - 4 the minimum computed on the type
`unsigned` is 0; the constructor succeeds with that capacity, the mode stays
Minor, and the first `copyTo`, for the object, finds no room in nextGen1:
`collect` fails whatever the fuel. -/
theorem room_wraps :
    (exampleRun 0).map (fun c =>
      (c.gen1.contains 4 (c.mem 500), c.client.copiedSizeInWords (c.mem 500), c.gen1.position,
        c.tenureFootprint, c.gen1padding,
        u32 (u32 (usub c.gen1.position c.tenureFootprint + 4294967292) + c.gen1padding))) =
      some (true, 4, 4, 0, 0, 0) ∧
    wrapContext.map (fun c2 =>
      (c2.nextGen1.capacity, c2.nextGen1.remaining, decide (c2.mode = MinorCollection),
        dest 4 c2.enter ⟨[c2.mem 500], c2.client.layout, c2.mem⟩ (c2.mem 500),
        (copyTo 4 c2.enter Gen.nextGen1 (c2.mem 500) 4).isSome)) =
      some (0, 0, true, Gen.nextGen1, false) ∧
    ∀ fuel, ((exampleRun 0).bind fun c =>
      MyHeap.collect 4 4096 fuel c MinorCollection c.client 4294967292).isSome = false := by
  refine ⟨by decide!, by decide!, ?_⟩
  intro fuel
  have key : wrapContext.map (fun c2 =>
      (c2.enter.client.roots, decide (c2.enter.mode = MinorCollection ∧ c2.enter.gen2.position ≠ 0),
        (update 4 c2.enter (mask 4 500)).isNone)) = some ([500], false, true) := by decide!
  unfold wrapContext at key
  cases h : exampleRun 0 with
  | none => rfl
  | some c =>
    rw [h] at key
    rw [Option.some_bind] at key ⊢
    unfold MyHeap.collect
    rw [collect_parts]
    cases h2 : collectInit 4 4096 { c with mode := MinorCollection, client := c.client }
        4294967292 with
    | none => rfl
    | some c2 =>
      rw [h2] at key
      simp only [Option.map_some', Option.some.injEq, Prod.mk.injEq, decide_eq_false_iff_not,
        Option.isNone_iff_eq_none] at key
      rw [Option.some_bind, collect2_root_fails 4 c2 500 [] key.1 key.2.1 key.2.2 fuel]
      rfl

end Heap

namespace Heap

open CollectionType

/-- C9, amended: destination room.  `collect` is entered with the context `e`
and the footprint given, and the construction of the destination segments
succeeds and gives the context `c` that `collect2` is called with.  Assume the
heap `collect2` starts its traversals with is well formed (`Start`: aligned
disjoint segments, a finite set of well-formed disjoint objects in gen1, in
gen2 or outside the segments, with the sizes the client reports), and what the
sizing relies on (`Sized`): the objects that lie in gen1 occupy disjoint
ranges of their sizes, the tenure footprint is the total size of those whose
recorded age is `TenureThreshold`, the objects outside gen1 and gen2 have a
total size of at most the footprint, and the sums that size the segments do not
wrap around.  Then each destination segment has room for all the objects the
collection copies into it; hence in every state of the collection (`Inv`) the
destination of an object not yet copied has `remaining()` of at least its size
and `copy` returns; and, the roots being named once and holding null or a
reference to an object and the cards being in the state the scan accepts, with
enough fuel `collect2` returns: no assertion fails. -/
theorem destination_room {B P : Nat} {e c : Context} {G : Graph} {X : List Nat}
    {footprint : Nat} (hinit : collectInit B P e footprint = some c)
    (hs : Start B c.enter G) (hmem : ∀ a, c.enter.mem a = G.m0 a)
    (hlay : ∀ o ∈ G.objs, c.enter.client.layout o = G.lay o)
    (hz : Sized B e G X footprint) (hnd : c.enter.client.roots.Nodup)
    (hrs : ∀ p ∈ c.enter.client.roots, Settable B c.enter G p ∧
      (mask B (c.enter.mem p) = 0 ∨ mask B (c.enter.mem p) ∈ G.objs))
    (hmin : c.enter.mode = MinorCollection → CardsReady B c.enter G ∧
      ∀ p ∈ c.enter.client.roots, ¬ c.enter.inStorage B Gen.gen2 p) :
    (∀ g, g ≠ Gen.gen1 →
      (c.enter.seg g).position + need B c.enter G [] g ≤ (c.enter.seg g).capacity) ∧
    (∀ (c2 : Context) (cp2 : List Nat) (o : Nat), Inv B c.enter G c2 cp2 → o ∈ G.objs →
      movable B c.enter o → o ∉ cp2 →
      (c2.seg (dest B c.enter G o)).remaining ≥ c2.client.copiedSizeInWords o ∧
      ∃ r c3, copy B c2 o = some (r, c3)) ∧
    ∃ N, ∀ fuel, N ≤ fuel → ∃ c1, collect2 B fuel c = some c1 := by
  have hroom := room_of_sized hinit hs hlay hz
  have hr : Ready B c.enter G :=
    { start := hs, mem_eq := hmem, lay_eq := hlay, room := hroom
      tenure := by show (0 : Nat) < 2 ^ 32; decide }
  refine ⟨hroom, ?_, ?_⟩
  · intro c2 cp2 o hi ho hm hw
    obtain ⟨p1, p2, p3, -⟩ := hi.copy_pre hs o ho hm hw
    obtain ⟨r, c3, h3, -⟩ := copy_spec hs hi o ho hm hw
    refine ⟨?_, r, c3, h3⟩
    unfold Segment.remaining
    rw [p1, usub_small _ _ (by omega) p3]
    omega
  · by_cases hmode : c.enter.mode = MinorCollection
    · obtain ⟨hc, hout⟩ := hmin hmode
      obtain ⟨N, c1, -, -, hrun, -⟩ := collect2_cards rfl hr hc hnd
        (fun p hp => ⟨(hrs p hp).1, hout p hp, (hrs p hp).2⟩)
      exact ⟨N, fun fuel hf => ⟨c1, hrun fuel hf⟩⟩
    · have hmaj : c.enter.mode = MajorCollection := by
        cases h : c.enter.mode with
        | MinorCollection => exact absurd h hmode
        | MajorCollection => rfl
      obtain ⟨N, c1, -, -, hrun, -⟩ := collect2_major rfl hr hmaj hnd hrs
      exact ⟨N, fun fuel hf => ⟨c1, hrun fuel hf⟩⟩

end Heap

namespace Heap

open CollectionType

/-- What `Segment::replaceWith` returns: the receiver has the data, the position
and the capacity of the argument, and the argument is empty. -/
theorem Segment.replaceWith_spec (t s g n : Segment) (h : t.replaceWith s = some (g, n)) :
    g.data = s.data ∧ g.position = s.position ∧ g.capacity = s.capacity ∧ n.position = 0 := by
  unfold Segment.replaceWith at h
  split at h
  · split at h
    · split at h
      · simp only [Option.some.injEq, Prod.mk.injEq] at h
        obtain ⟨rfl, rfl⟩ := h
        exact ⟨rfl, rfl, rfl, rfl⟩
      · exact absurd h (by simp)
    · exact absurd h (by simp)
  · simp only [Option.some.injEq, Prod.mk.injEq] at h
    obtain ⟨rfl, rfl⟩ := h
    exact ⟨rfl, rfl, rfl, rfl⟩

/-- What the statements of `collect` after the call of `collect2` do: gen1 is
nextGen1, which is left empty, and in a Major collection gen2 is nextGen2; the
memory, the maps and the mode stay. -/
theorem collectFinish_spec (c3 c4 : Context) (h : collectFinish c3 = some c4) :
    c4.mem = c3.mem ∧ c4.ageMap = c3.ageMap ∧ c4.mode = c3.mode ∧
    c4.gen1.data = c3.nextGen1.data ∧ c4.gen1.position = c3.nextGen1.position ∧
    c4.gen1.capacity = c3.nextGen1.capacity ∧ c4.nextGen1.position = 0 ∧
    (c3.mode = MajorCollection → c4.gen2.data = c3.nextGen2.data ∧
      c4.gen2.position = c3.nextGen2.position ∧ c4.gen2.capacity = c3.nextGen2.capacity) ∧
    (c3.mode ≠ MajorCollection → c4.gen2 = c3.gen2) := by
  unfold collectFinish at h
  cases h1 : c3.gen1.replaceWith c3.nextGen1 with
  | none => rw [h1] at h; exact absurd h (by simp)
  | some r =>
    obtain ⟨g1, ng1⟩ := r
    rw [h1] at h
    obtain ⟨a1, a2, a3, a4⟩ := Segment.replaceWith_spec _ _ _ _ h1
    dsimp only at h
    by_cases hm : c3.mode = MajorCollection
    · rw [if_pos hm] at h
      cases h2 : c3.gen2.replaceWith c3.nextGen2 with
      | none => rw [h2] at h; exact absurd h (by simp)
      | some r2 =>
        obtain ⟨g2, ng2⟩ := r2
        rw [h2] at h
        obtain ⟨b1, b2, b3, -⟩ := Segment.replaceWith_spec _ _ _ _ h2
        simp only [Option.some.injEq] at h
        subst h
        exact ⟨rfl, rfl, rfl, a1, a2, a3, a4, fun _ => ⟨b1, b2, b3⟩, fun hn => absurd hm hn⟩
    · rw [if_neg hm] at h
      simp only [Option.some.injEq] at h
      subst h
      exact ⟨rfl, rfl, rfl, a1, a2, a3, a4, fun h => absurd h hm, fun _ => rfl⟩

end Heap

namespace Heap

open CollectionType

section Stage

variable {B : Nat} {c0 : Context} {G : Graph}

theorem stageOf_gen2 (B : Nat) (c : Context) (o : Nat) (h : c.gen2.contains B o = true) :
    stageOf B c o = TenureThreshold + 2 := by
  unfold stageOf
  rw [if_pos h]

theorem stageOf_gen1 (B : Nat) (c : Context) (o a : Nat) (h2 : c.gen2.contains B o = false)
    (h1 : c.gen1.contains B o = true) (ha : c.ageMap.get B c.gen1 c.mem o = some a) :
    stageOf B c o = a + 1 := by
  unfold stageOf
  rw [if_neg (by rw [h2]; decide), if_pos h1, ha]

theorem stageOf_outside (B : Nat) (c : Context) (o : Nat) (h2 : c.gen2.contains B o = false)
    (h1 : c.gen1.contains B o = false) : stageOf B c o = 0 := by
  unfold stageOf
  rw [if_neg (by rw [h2]; decide), if_neg (by rw [h1]; decide)]

/-- A segment with the same data and position contains the same addresses. -/
theorem Segment.contains_congr (B : Nat) (s s1 : Segment) (p : Nat) (hd : s1.data = s.data)
    (hp : s1.position = s.position) : s1.contains B p = s.contains B p := by
  unfold Segment.contains
  rw [hd, hp]

/-- After the segments are replaced, gen2 contains what was copied into gen2 in
a Minor collection and into nextGen2 in a Major one. -/
theorem finish_gen2 (hr : Ready B c0 G) {c3 c4 : Context} {cp1 : List Nat}
    (hi : Inv B c0 G c3 cp1) (hfin : collectFinish c3 = some c4) (r : Nat)
    (h : (c0.mode = MinorCollection ∧ c3.gen2.contains B r = true) ∨
      (c0.mode = MajorCollection ∧ c3.nextGen2.contains B r = true)) :
    c4.gen2.contains B r = true := by
  obtain ⟨f1, f2, f3, f4, f5, f6, f7, f8, f9⟩ := collectFinish_spec c3 c4 hfin
  rcases h with ⟨hm, hc⟩ | ⟨hm, hc⟩
  · rw [f9 (by rw [hi.mode_eq, hm]; decide)]
    exact hc
  · obtain ⟨b1, b2, -⟩ := f8 (by rw [hi.mode_eq, hm])
    rw [Segment.contains_congr B c3.nextGen2 c4.gen2 r b1 b2]
    exact hc

/-- After the segments are replaced, a copy made in nextGen1 lies in gen1 and
not in gen2, with the age recorded in the age map of nextGen1. -/
theorem finish_gen1 (hr : Ready B c0 G) {c3 c4 : Context} {cp1 : List Nat}
    (hi : Inv B c0 G c3 cp1) (hfin : collectFinish c3 = some c4) (r size : Nat)
    (hsz : 1 ≤ size) (h : IsCopy B c0 c3 Gen.nextGen1 r size) :
    c4.gen2.contains B r = false ∧ c4.gen1.contains B r = true ∧
      c4.ageMap.get B c4.gen1 c4.mem r = c3.nextAgeMap.get B c3.nextGen1 c3.mem r := by
  have hs := hr.start
  have hB := hs.B_pos
  obtain ⟨f1, f2, f3, f4, f5, f6, f7, f8, f9⟩ := collectFinish_spec c3 c4 hfin
  have hcon : c3.nextGen1.contains B r = true := IsCopy.contains hB Gen.nextGen1 r size hsz h
  have hcon4 : c4.gen1.contains B r = true := by
    rw [Segment.contains_congr B c3.nextGen1 c4.gen1 r f4 f5]
    exact hcon
  have hst := (IsCopy.storage hi Gen.nextGen1 r size h r (Nat.le_refl _)
    (by have := Nat.mul_pos hsz hB; omega)).1
  refine ⟨?_, hcon4, ?_⟩
  · cases hc : c4.gen2.contains B r with
    | false => rfl
    | true =>
      exfalso
      by_cases hm : c3.mode = MajorCollection
      · obtain ⟨b1, b2, -⟩ := f8 hm
        rw [Segment.contains_congr B c3.nextGen2 c4.gen2 r b1 b2] at hc
        exact hs.stor_disj Gen.nextGen1 Gen.nextGen2 (by decide) r hst
          (hi.contains_storage Gen.nextGen2 r hc)
      · rw [f9 hm] at hc
        exact hs.stor_disj Gen.nextGen1 Gen.gen2 (by decide) r hst
          (hi.contains_storage Gen.gen2 r hc)
  · have e1 : c3.ageMap = c0.ageMap := congrArg Shape.ageMap hi.shape
    have e2 : c3.nextAgeMap = c0.nextAgeMap := congrArg Shape.nextAgeMap hi.shape
    rw [f2, f1, e1, e2, hs.ageMap_eq, hs.nextAgeMap_eq]
    have hok := ageMap_ok hs Gen.nextGen1
    have hcap := hi.seg_capacity Gen.nextGen1
    simp only [Context.seg] at hok hcap
    have hok3 : (Map.leaf 2 1 false).LevelOK c3.nextGen1 := by
      unfold Map.LevelOK at hok ⊢
      rw [hcap]; exact hok
    have hp3 := (hi.pos Gen.nextGen1).2
    simp only [Context.seg] at hp3
    exact Map.get_seg B c3.nextGen1 c4.gen1 _ c3.mem r f4 f6 hcon hcon4 hp3
      (by rw [f5, f6]; exact hp3) hok3

/-- One collection moves an object one stage on: an object outside gen1 and
gen2 is copied into gen1 with age 0, an object of gen1 whose age is less than
`TenureThreshold` is copied into gen1 with the next age, an object of gen1 of
age `TenureThreshold` is copied into gen2, and an object of gen2 stays in
gen2. -/
theorem stage_step (hr : Ready B c0 G) {c3 c4 : Context} {cp1 wk1 : List Nat}
    (hT : Trav B c0 G c3 cp1 wk1 (fun _ => []) []) (hfin : collectFinish c3 = some c4)
    (o : Nat) (ho : o ∈ G.objs) (hoc : isOld B c0 o ∨ o ∈ cp1) :
    stageOf B c4 (referent B c0 c3 o) = min (stageOf B c0 o + 1) (TenureThreshold + 2) ∧
      (c4.gen2.contains B (referent B c0 c3 o) = true ∨
        stageOf B c4 (referent B c0 c3 o) ≤ TenureThreshold + 1) := by
  have hs := hr.start
  have hB := hs.B_pos
  have hi := hT.inv
  have hmem : c0.mem = G.m0 := funext hr.mem_eq
  obtain ⟨o1, o2, o3, -, -, -⟩ := hs.obj_ok o ho
  by_cases hold : isOld B c0 o
  · rw [referent_old hs c3 o ho hold, stageOf_gen2 B c0 o hold.2]
    have hc3 : c3.gen2.contains B o = true := by
      have hd := hi.seg_data Gen.gen2
      have hp := (hi.pos Gen.gen2).1
      simp only [Context.seg] at hd hp
      obtain ⟨q1, q2, q3⟩ := (Segment.contains_iff B _ o).1 hold.2
      have := Nat.mul_le_mul_right B hp
      rw [Segment.contains_iff, hd]
      exact ⟨by omega, q2, by omega⟩
    have hg := finish_gen2 hr hi hfin o (Or.inl ⟨hold.1, hc3⟩)
    rw [stageOf_gen2 B c4 o hg]
    exact ⟨by omega, Or.inl hg⟩
  · have hcp : o ∈ cp1 := by
      rcases hoc with h | h
      · exact absurd h hold
      · exact h
    rw [referent_moved hs c3 o ho hold]
    obtain ⟨fw, -⟩ := hi.fwd o hcp
    have hmaj_of : c0.mode ≠ MinorCollection → c0.mode = MajorCollection := by
      intro h
      cases hm : c0.mode with
      | MinorCollection => exact absurd hm h
      | MajorCollection => rfl
    by_cases h2 : c0.gen2.contains B o = true
    · have hmaj : c0.mode = MajorCollection := hmaj_of (fun h => hold ⟨h, h2⟩)
      have hd : dest B c0 G o = Gen.nextGen2 := by unfold dest; rw [if_pos h2]
      rw [hd] at fw
      have hc := IsCopy.contains hB Gen.nextGen2 _ _ o3 fw
      have hg := finish_gen2 hr hi hfin _ (Or.inr ⟨hmaj, hc⟩)
      rw [stageOf_gen2 B c0 o h2, stageOf_gen2 B c4 _ hg]
      exact ⟨by omega, Or.inl hg⟩
    · have h2f : c0.gen2.contains B o = false := by simpa using h2
      by_cases h1 : c0.gen1.contains B o = true
      · obtain ⟨a, ha, hget0, -⟩ := hi.age_eq hs o h1
        have hst0 : stageOf B c0 o = a + 1 :=
          stageOf_gen1 B c0 o a h2f h1 (by rw [hmem]; exact hget0)
        rw [hst0]
        by_cases ht : a = TenureThreshold
        · have hin : (c0.mode = MinorCollection ∧ c3.gen2.contains B (c3.mem o) = true) ∨
              (c0.mode = MajorCollection ∧ c3.nextGen2.contains B (c3.mem o) = true) := by
            by_cases hm : c0.mode = MinorCollection
            · have hd : dest B c0 G o = Gen.gen2 := by
                unfold dest
                rw [if_neg h2, if_pos h1, hget0, ht, if_pos rfl, if_pos hm]
              rw [hd] at fw
              exact Or.inl ⟨hm, IsCopy.contains hB Gen.gen2 _ _ o3 fw⟩
            · have hd : dest B c0 G o = Gen.nextGen2 := by
                unfold dest
                rw [if_neg h2, if_pos h1, hget0, ht, if_pos rfl, if_neg hm]
              rw [hd] at fw
              exact Or.inr ⟨hmaj_of hm, IsCopy.contains hB Gen.nextGen2 _ _ o3 fw⟩
          have hg := finish_gen2 hr hi hfin _ hin
          rw [stageOf_gen2 B c4 _ hg, ht]
          exact ⟨by omega, Or.inl hg⟩
        · have hd : dest B c0 G o = Gen.nextGen1 := by
            unfold dest
            rw [if_neg h2, if_pos h1, hget0, if_neg (by simpa using ht)]
          have hag := hi.ages o hcp hd
          rw [hd] at fw
          obtain ⟨g1, g2, g3⟩ := finish_gen1 hr hi hfin _ _ o3 fw
          have hna : nextAge B c0 G o = a + 1 := by
            unfold nextAge
            rw [if_pos h1, hget0]
          rw [stageOf_gen1 B c4 _ (a + 1) g1 g2 (by rw [g3, hag, hna])]
          exact ⟨by omega, Or.inr (by omega)⟩
      · have h1f : c0.gen1.contains B o = false := by simpa using h1
        have hd : dest B c0 G o = Gen.nextGen1 := by
          unfold dest
          rw [if_neg h2, if_neg h1]
        have hag := hi.ages o hcp hd
        rw [hd] at fw
        obtain ⟨g1, g2, g3⟩ := finish_gen1 hr hi hfin _ _ o3 fw
        have hna : nextAge B c0 G o = 0 := by
          unfold nextAge
          rw [if_neg h1]
        rw [stageOf_outside B c0 o h2f h1f, stageOf_gen1 B c4 _ 0 g1 g2 (by rw [g3, hag, hna])]
        unfold TenureThreshold
        exact ⟨by omega, Or.inr (by omega)⟩

end Stage

end Heap

namespace Heap

open CollectionType

theorem referent_mem (B : Nat) (c0 c c1 : Context) (v : Nat) (h : c1.mem = c.mem) :
    referent B c0 c1 v = referent B c0 c v := by
  unfold referent
  rw [h]

/-- The image of an object left in place or copied is word aligned. -/
theorem referent_aligned {B : Nat} {c0 c : Context} {G : Graph} {cp : List Nat}
    (hs : Start B c0 G) (hi : Inv B c0 G c cp) (o : Nat) (ho : o ∈ G.objs)
    (h : isOld B c0 o ∨ o ∈ cp) : referent B c0 c o % B = 0 := by
  by_cases h1 : isOld B c0 o
  · rw [referent_old hs c o ho h1]
    exact (hs.obj_ok o ho).2.1
  · rw [referent_moved hs c o ho h1]
    rcases h with h | h
    · exact absurd h h1
    · exact IsCopy.aligned hs hi _ _ _ (hi.fwd o h).1

/-- `status` of an address of gen2 after a collection executed as Minor. -/
theorem status_tenured (B : Nat) (c : Context) (p : Nat) (h0 : p ≠ 0) (hm : mask B p = p)
    (h1 : c.nextGen1.contains B p = false) (h2 : c.gen2.contains B p = true)
    (hmode : c.mode = MinorCollection) : MyHeap.status B c p = Status.Tenured := by
  unfold MyHeap.status
  simp only [hm, h1, h2, hmode, if_neg h0, Bool.false_eq_true, if_false, decide_True,
    Bool.true_or, Bool.and_true, Bool.or_true, if_true]

/-- What one collection does to an object that survives it: the object moves
one stage on; at the last stage it lies in gen2; it lies at a word aligned
address that is not null and not in nextGen1, which is empty. -/
theorem Collected.outcome {B P o s : Nat} {c4 : Context} {o1 : Nat}
    (h : Collected B P o s c4 o1) :
    stageOf B c4 o1 = min (s + 1) (TenureThreshold + 2) ∧
      (c4.gen2.contains B o1 = true ∨ stageOf B c4 o1 ≤ TenureThreshold + 1) ∧
      c4.nextGen1.contains B o1 = false ∧ o1 ≠ 0 ∧ mask B o1 = o1 := by
  obtain ⟨e, c, fp, G, hinit, hpre, hreach, hst, ⟨N, hrun⟩, ho1⟩ := h
  have hs := hpre.ready.start
  obtain ⟨N2, c3, cp1, wk1, hrun2, hT, hu, hold⟩ :=
    @collect2_graph B c.enter c G rfl hpre.ready hpre.roots_nodup hpre.roots_ok hpre.minor
  have hfin : collectFinish c3 = some c4 := by
    have h1 := hrun (max N N2) (le_max_left _ _)
    rw [collect_parts, hinit, Option.some_bind, hrun2 (max N N2) (le_max_right _ _),
      Option.some_bind] at h1
    exact h1
  obtain ⟨ho, hoc, -, -, -⟩ := reach_image hpre.ready hpre.no_null
    (fun p hp => (hpre.roots_ok p hp).2) hT hu hold o hreach
  obtain ⟨f1, -, -, -, -, -, f7, -, -⟩ := collectFinish_spec c3 c4 hfin
  have he : o1 = referent B c.enter c3 o := by rw [ho1, referent_mem B c.enter c3 c4 o f1]
  obtain ⟨g1, g2⟩ := stage_step hpre.ready hT hfin o ho hoc
  rw [he, ← hst]
  refine ⟨g1, g2, ?_, referent_ne_zero hs hT.inv hpre.no_null o ho hoc, ?_⟩
  · unfold Segment.contains
    rw [f7]
    simp
  · exact mask_of_aligned B _ (referent_aligned hs hT.inv o ho hoc)

/-- The last of some collections in a row is a collection. -/
theorem Run.last {B P n s : Nat} {c : Context} {o : Nat} (h : Run B P n s c o) :
    ∃ o0 s0, Collected B P o0 s0 c o := by
  cases h with
  | first o0 s c o1 h1 => exact ⟨o0, s, h1⟩
  | next n s c0 o0 c1 o1 _ h2 => exact ⟨o0, _, h2⟩

/-- Each of some collections in a row moves an object that survives them one
stage on. -/
theorem Run.stage {B P n s : Nat} {c : Context} {o : Nat} (h : Run B P n s c o) :
    1 ≤ n ∧ stageOf B c o = min (s + n) (TenureThreshold + 2) := by
  induction h with
  | first o0 s c o1 h1 => exact ⟨Nat.le_refl _, h1.outcome.1⟩
  | next n s c0 o0 c1 o1 _ h2 ih =>
    obtain ⟨i1, i2⟩ := ih
    refine ⟨by omega, ?_⟩
    rw [h2.outcome.1, i2]
    omega

/-- An object at a stage of gen1 lies in gen1, not in gen2, with the age of the
stage. -/
theorem stageOf_young (B : Nat) (c : Context) (o k : Nat) (h : stageOf B c o = k + 1)
    (hk : k ≤ TenureThreshold) :
    c.gen1.contains B o = true ∧ c.gen2.contains B o = false ∧
      c.ageMap.get B c.gen1 c.mem o = some k := by
  unfold stageOf at h
  by_cases h2 : c.gen2.contains B o = true
  · rw [if_pos h2] at h; omega
  · rw [if_neg h2] at h
    by_cases h1 : c.gen1.contains B o = true
    · rw [if_pos h1] at h
      cases hg : c.ageMap.get B c.gen1 c.mem o with
      | none => rw [hg] at h; simp only [] at h; omega
      | some a =>
        rw [hg] at h
        simp only [] at h
        exact ⟨h1, by simpa using h2, by rw [show a = k by omega]⟩
    · rw [if_neg h1] at h; omega

end Heap

namespace Heap

open CollectionType

/-- C5: the tenuring count.  An object that stands at stage 0 (it lies neither
in gen1 nor in gen2) when the first of `n` collections in a row starts its
traversals, and that is reached from the roots in each of them, lies in gen1
and not in gen2 after each of the first `TenureThreshold + 1` collections, with
the recorded age `n - 1` after the `n`-th, and lies in gen2 after the
collection number `TenureThreshold + 2` and after every later one: with
`TenureThreshold = 3` the fifth collection it survives is the one that moves it
to gen2. -/
theorem tenuring_count {B P n : Nat} {c : Context} {o : Nat} (h : Run B P n 0 c o) :
    (n ≤ TenureThreshold + 1 → c.gen1.contains B o = true ∧ c.gen2.contains B o = false ∧
      c.ageMap.get B c.gen1 c.mem o = some (n - 1)) ∧
    (TenureThreshold + 2 ≤ n → c.gen2.contains B o = true) := by
  obtain ⟨h1, h2⟩ := h.stage
  constructor
  · intro hn
    apply stageOf_young B c o (n - 1) _ (by omega)
    rw [h2]
    omega
  · intro hn
    obtain ⟨o0, s0, hc⟩ := h.last
    rcases hc.outcome.2.1 with h3 | h3
    · exact h3
    · rw [h2] at h3
      omega

/-- C6, counterexample: `TenureThreshold - a` collections do not tenure an
object of age `a`.  After its first collection the example has its object of
four words, held by the root slot at 500, in gen1 with the recorded age 0.
After three more collections, all requested as Minor, the object lies in gen1
with the recorded age 3; gen2 is empty and `status` does not return Tenured.
The next collection moves the object to gen2. -/
theorem tenure_needs_more :
    (exampleRun 0).map (fun c =>
      (c.gen1.contains 4 (c.mem 500), c.ageMap.get 4 c.gen1 c.mem (c.mem 500),
        c.client.copiedSizeInWords (c.mem 500))) = some (true, some 0, 4) ∧
    (exampleRun 3).map (fun c =>
      (c.gen1.contains 4 (c.mem 500), c.ageMap.get 4 c.gen1 c.mem (c.mem 500),
        c.gen2.contains 4 (c.mem 500), c.gen2.position,
        decide (MyHeap.status 4 c (c.mem 500) = Status.Tenured))) =
      some (true, some 3, false, 0, false) ∧
    (exampleRun 4).map (fun c =>
      (c.gen1.contains 4 (c.mem 500), c.gen2.contains 4 (c.mem 500), c.gen2.position)) =
      some (false, true, 4) := by
  refine ⟨by decide!, by decide!, by decide!⟩

/-- C6, amended: an object that lies in gen1 with the recorded age `a`, less
than `TenureThreshold`, when the first of `n` collections in a row starts its
traversals, and that is reached from the roots in each of them, lies in gen1
and not in gen2 with the recorded age `a + n` after the `n`-th collection as
long as `n` is at most `TenureThreshold - a`, and lies in gen2 after the
collection number `TenureThreshold - a + 1` and after every later one; `status`
of its address then returns Tenured when the last collection was executed as
Minor. -/
theorem tenure_from_age {B P n a : Nat} {c : Context} {o : Nat} (ha : a < TenureThreshold)
    (h : Run B P n (a + 1) c o) :
    (n ≤ TenureThreshold - a → c.gen1.contains B o = true ∧ c.gen2.contains B o = false ∧
      c.ageMap.get B c.gen1 c.mem o = some (a + n)) ∧
    (TenureThreshold - a + 1 ≤ n → c.gen2.contains B o = true ∧
      (c.mode = MinorCollection → MyHeap.status B c o = Status.Tenured)) := by
  obtain ⟨h1, h2⟩ := h.stage
  obtain ⟨o0, s0, hc⟩ := h.last
  obtain ⟨-, k2, k3, k4, k5⟩ := hc.outcome
  constructor
  · intro hn
    apply stageOf_young B c o (a + n) _ (by omega)
    rw [h2]
    omega
  · intro hn
    have hg : c.gen2.contains B o = true := by
      rcases k2 with h3 | h3
      · exact h3
      · rw [h2] at h3
        omega
    exact ⟨hg, fun hm => status_tenured B c o k4 k5 k3 hg hm⟩

end Heap

namespace Heap

open CollectionType

/-! ## The example on its way to gen2 -/

theorem tour_object_ge (k : Nat) : 1000 ≤ tourObject k := by
  unfold tourObject
  split <;> omega

theorem tour_object_mod (k : Nat) : tourObject k % 4 = 0 := by
  unfold tourObject
  split <;> omega

theorem tour_lay (k : Nat) : (tourGraph k).lay (tourObject k) = ⟨4, []⟩ := by
  show (if tourObject k = tourObject k then (⟨4, []⟩ : Layout) else ⟨0, []⟩) = _
  rw [if_pos rfl]

theorem tour_objs (k o : Nat) : o ∈ (tourGraph k).objs ↔ o = tourObject k := by
  show o ∈ [tourObject k] ↔ _
  simp

theorem tour_storage (k : Nat) (g : Gen) (a : Nat) :
    (tourContext k).enter.inStorage 4 g a ↔
      (g = Gen.gen1 ∧ k ≠ 0 ∧ 16777216 * k ≤ a ∧ a < 16777216 * k + 20) ∨
      (g = Gen.nextGen1 ∧ 16777216 * (k + 1) ≤ a ∧ a < 16777216 * (k + 1) + 20) ∨
      (g = Gen.gen2 ∧ 2000 ≤ a ∧ a < 2076) := by
  have f0 : (Map.leaf 2 1 false).footprint 4 0 = 0 := by decide
  have f1 : (Map.leaf 2 1 false).footprint 4 4 = 1 := by decide
  have m3 : (tourContext k).enter.mapOf Gen.gen2 =
      Map.node 1 (4096 / 4 * 1024) true (Map.node 1 (4096 / 4) true (Map.leaf 1 1 true)) := rfl
  have m4 : (tourContext k).enter.mapOf Gen.nextGen2 =
      Map.node 1 (4096 / 4 * 1024) true (Map.node 1 (4096 / 4) true (Map.leaf 1 1 true)) := rfl
  have f3 : (Map.node 1 (4096 / 4 * 1024) true
      (Map.node 1 (4096 / 4) true (Map.leaf 1 1 true))).footprint 4 16 = 3 := by decide
  have f4 : (Map.node 1 (4096 / 4 * 1024) true
      (Map.node 1 (4096 / 4) true (Map.leaf 1 1 true))).footprint 4 0 = 0 := by decide
  have m1 : (tourContext k).enter.mapOf Gen.gen1 = Map.leaf 2 1 false := rfl
  have m2 : (tourContext k).enter.mapOf Gen.nextGen1 = Map.leaf 2 1 false := rfl
  cases g
  · have d : (tourContext k).enter.seg Gen.gen1 =
        if k = 0 then ⟨0, 0, 0, some (Map.leaf 2 1 false)⟩
        else ⟨16777216 * k, 4, 4, some (Map.leaf 2 1 false)⟩ := rfl
    unfold Context.inStorage
    rw [d, m1]
    by_cases hk : k = 0
    · rw [if_pos hk]
      simp only []
      rw [f0]
      constructor
      · intro h; omega
      · rintro (⟨-, h, -⟩ | ⟨h, -⟩ | ⟨h, -⟩)
        · exact absurd hk h
        · exact absurd h (by decide)
        · exact absurd h (by decide)
    · rw [if_neg hk]
      simp only []
      rw [f1]
      constructor
      · intro h; exact Or.inl ⟨trivial, hk, by omega, by omega⟩
      · rintro (⟨-, -, h1, h2⟩ | ⟨h, -⟩ | ⟨h, -⟩)
        · exact ⟨h1, by omega⟩
        · exact absurd h (by decide)
        · exact absurd h (by decide)
  · have d : (tourContext k).enter.seg Gen.nextGen1 =
        ⟨16777216 * (k + 1), 0, 4, some (Map.leaf 2 1 false)⟩ := rfl
    unfold Context.inStorage
    rw [d, m2]
    simp only []
    rw [f1]
    constructor
    · intro h; exact Or.inr (Or.inl ⟨trivial, by omega, by omega⟩)
    · rintro (⟨h, -⟩ | ⟨-, h1, h2⟩ | ⟨h, -⟩)
      · exact absurd h (by decide)
      · exact ⟨h1, by omega⟩
      · exact absurd h (by decide)
  · have d : ((tourContext k).enter.seg Gen.gen2).data = 2000 ∧
        ((tourContext k).enter.seg Gen.gen2).capacity = 16 := ⟨rfl, rfl⟩
    unfold Context.inStorage
    rw [d.1, d.2, m3, f3]
    constructor
    · intro h; exact Or.inr (Or.inr ⟨rfl, by omega, by omega⟩)
    · rintro (⟨h, -⟩ | ⟨h, -⟩ | ⟨-, h1, h2⟩)
      · exact absurd h (by decide)
      · exact absurd h (by decide)
      · exact ⟨h1, by omega⟩
  · have d : ((tourContext k).enter.seg Gen.nextGen2).data = 0 ∧
        ((tourContext k).enter.seg Gen.nextGen2).capacity = 0 := ⟨rfl, rfl⟩
    unfold Context.inStorage
    rw [d.1, d.2, m4, f4]
    constructor
    · intro h; omega
    · rintro (⟨h, -⟩ | ⟨h, -⟩ | ⟨h, -⟩) <;> exact absurd h (by decide)

theorem tour_toSpace (k : Nat) (a : Nat) :
    (tourContext k).enter.inToSpace 4 a ↔
      (16777216 * (k + 1) ≤ a ∧ a < 16777216 * (k + 1) + 16) ∨ (2000 ≤ a ∧ a < 2064) := by
  unfold Context.inToSpace
  have d1 : (tourContext k).enter.nextGen1 =
      ⟨16777216 * (k + 1), 0, 4, some (Map.leaf 2 1 false)⟩ := rfl
  have d2 : (tourContext k).enter.nextGen2.data = 0 ∧
      (tourContext k).enter.nextGen2.capacity = 0 := ⟨rfl, rfl⟩
  have d3 : (tourContext k).enter.gen2.data = 2000 ∧ (tourContext k).enter.gen2.capacity = 16 ∧
      (tourContext k).enter.gen2.position = 0 := ⟨rfl, rfl, rfl⟩
  rw [d1, d2.1, d2.2, d3.1, d3.2.1, d3.2.2]
  simp only []
  omega

/-- The example satisfies, before each collection, what the traversals
assume. -/
theorem tour_start (k : Nat) : Start 4 (tourContext k).enter (tourGraph k) := by
  have hge := tour_object_ge k
  have hmod := tour_object_mod k
  have hlay := tour_lay k
  refine
    { hB := Or.inl rfl
      ageMap_eq := rfl
      nextAgeMap_eq := rfl
      heapMap_ok := ⟨⟨by decide, rfl⟩, ⟨by decide, rfl⟩, by decide, rfl⟩
      nextHeapMap_ok := ⟨⟨by decide, rfl⟩, ⟨by decide, rfl⟩, by decide, rfl⟩
      seg_ok := ?_
      next_empty := ⟨rfl, rfl⟩
      base_top := rfl
      stor_disj := ?_
      objs_nodup := List.nodup_singleton _
      obj_ok := ?_
      obj_loc := ?_
      obj_disj := ?_
      valid := ?_
      first_word := ?_ }
  · intro g
    cases g
    · have d : (tourContext k).enter.seg Gen.gen1 =
          if k = 0 then ⟨0, 0, 0, some (Map.leaf 2 1 false)⟩
          else ⟨16777216 * k, 4, 4, some (Map.leaf 2 1 false)⟩ := rfl
      rw [d]
      split
      · decide
      · simp only []
        refine ⟨by omega, by omega, by decide⟩
    · have d : (tourContext k).enter.seg Gen.nextGen1 =
          ⟨16777216 * (k + 1), 0, 4, some (Map.leaf 2 1 false)⟩ := rfl
      rw [d]
      simp only []
      refine ⟨by omega, by omega, by decide⟩
    · have d : (tourContext k).enter.seg Gen.gen2 = ⟨2000, 0, 16, some (Map.node 1
          (4096 / 4 * 1024) true (Map.node 1 (4096 / 4) true (Map.leaf 1 1 true)))⟩ := rfl
      rw [d]
      decide
    · have d : (tourContext k).enter.seg Gen.nextGen2 = ⟨0, 0, 0, some (Map.node 1
          (4096 / 4 * 1024) true (Map.node 1 (4096 / 4) true (Map.leaf 1 1 true)))⟩ := rfl
      rw [d]
      decide
  · intro g g1 hne a h1 h2
    rw [tour_storage] at h1 h2
    rcases h1 with h1 | h1 | h1 <;> rcases h2 with h2 | h2 | h2
    · exact hne (h1.1.trans h2.1.symm)
    · omega
    · omega
    · omega
    · exact hne (h1.1.trans h2.1.symm)
    · omega
    · omega
    · omega
    · exact hne (h1.1.trans h2.1.symm)
  · intro o ho
    obtain rfl := (tour_objs k o).1 ho
    rw [hlay]
    refine ⟨by omega, hmod, by decide, by decide, by simp, by simp⟩
  · intro o ho
    obtain rfl := (tour_objs k o).1 ho
    rw [hlay]
    by_cases hk : k = 0
    · right; right
      intro g a h1 h2 h3
      rw [tour_storage] at h3
      have e : tourObject k = 1000 := by unfold tourObject; rw [if_pos hk]
      rw [e] at h1 h2
      simp only [] at h2
      omega
    · left
      have e : tourObject k = 16777216 * k := by unfold tourObject; rw [if_neg hk]
      have d : (tourContext k).enter.seg Gen.gen1 =
          ⟨16777216 * k, 4, 4, some (Map.leaf 2 1 false)⟩ := by
        show (if k = 0 then _ else _) = _
        rw [if_neg hk]
      unfold Context.holds
      rw [d, e]
      simp only []
      omega
  · intro o ho o1 ho1 hne
    obtain rfl := (tour_objs k o).1 ho
    obtain rfl := (tour_objs k o1).1 ho1
    exact absurd rfl hne
  · intro o ho j hj
    obtain rfl := (tour_objs k o).1 ho
    rw [hlay] at hj
    exact absurd hj (List.not_mem_nil _)
  · intro o ho _
    obtain rfl := (tour_objs k o).1 ho
    rw [tour_toSpace]
    have hm : (tourGraph k).m0 (tourObject k) = 77 := by
      show (if tourObject k = 500 then _ else if tourObject k = tourObject k then 77 else _) = _
      rw [if_neg (by omega), if_pos rfl]
    rw [hm]
    have : mask 4 77 = 76 := by decide
    rw [this]
    omega

theorem tour_settable (k : Nat) : Settable 4 (tourContext k).enter (tourGraph k) 500 := by
  have hge := tour_object_ge k
  refine ⟨by decide, ?_, ?_, ?_, ?_⟩
  · rw [tour_toSpace]; omega
  · rintro (h | h | h)
    · have := (@inFootprint_storage 4 (tourContext k).enter Gen.nextGen1 500 h).1
      rw [tour_storage] at this; omega
    · have := (@inFootprint_storage 4 (tourContext k).enter Gen.gen2 500 h).1
      rw [tour_storage] at this; omega
    · have := (@inFootprint_storage 4 (tourContext k).enter Gen.nextGen2 500 h).1
      rw [tour_storage] at this; omega
  · intro h
    have := (@inFootprint_storage 4 (tourContext k).enter Gen.gen1 500 h).1
    rw [tour_storage] at this; omega
  · intro y hy _ h
    obtain rfl := (tour_objs k y).1 hy
    omega

end Heap

namespace Heap

open CollectionType

theorem tour_levels (k : Nat) : (tourContext k).enter.heapMap.levels =
    [Map.node 1 1048576 true (Map.node 1 1024 true (Map.leaf 1 1 true)),
      Map.node 1 1024 true (Map.leaf 1 1 true), Map.leaf 1 1 true] := rfl

/-- No card bit of the example is set. -/
theorem tour_bits (k : Nat) (hk : k ≤ 4) (l : Map) (hl : l ∈ (tourContext k).enter.heapMap.levels)
    (i : Nat) :
    cardBit 4 (tourContext k).enter.gen2 (tourContext k).enter.mem l i = false := by
  rw [tour_levels] at hl
  simp only [List.mem_cons, List.mem_singleton, List.not_mem_nil, or_false] at hl
  have e2 : (tourContext k).enter.gen2.capacity = 16 := rfl
  cases hb : cardBit 4 (tourContext k).enter.gen2 (tourContext k).enter.mem l i with
  | false => rfl
  | true =>
    exfalso
    have h1 := ((cardBit_true 4 _ _ _ _).1 hb).1
    rw [e2] at h1
    rcases hl with rfl | rfl | rfl
    · have e : (Map.node 1 1048576 true (Map.node 1 1024 true (Map.leaf 1 1 true))).scale =
          1048576 := rfl
      rw [e] at h1
      obtain rfl : i = 0 := by omega
      interval_cases k <;> exact absurd hb (by decide)
    · have e : (Map.node 1 1024 true (Map.leaf 1 1 true)).scale = 1024 := rfl
      rw [e] at h1
      obtain rfl : i = 0 := by omega
      interval_cases k <;> exact absurd hb (by decide)
    · have e : (Map.leaf 1 1 true).scale = 1 := rfl
      rw [e] at h1
      have h2 : i < 16 := by omega
      interval_cases k <;> interval_cases i <;> exact absurd hb (by decide)

/-- The cards of the example are in the state the scan assumes. -/
theorem tour_cards (k : Nat) (hk : k ≤ 4) : CardsReady 4 (tourContext k).enter (tourGraph k) := by
  have hnl : ∀ a ∈ (tourContext k).enter.heapMap.nodeLevels,
      a ∈ (tourContext k).enter.heapMap.levels := by
    intro a ha
    have hn : (tourContext k).enter.heapMap.nodeLevels =
        [Map.node 1 1048576 true (Map.node 1 1024 true (Map.leaf 1 1 true)),
          Map.node 1 1024 true (Map.leaf 1 1 true)] := rfl
    rw [hn] at ha
    rw [tour_levels]
    simp only [List.mem_cons, List.mem_singleton, List.not_mem_nil, or_false] at ha ⊢
    rcases ha with h | h
    · exact Or.inl h
    · exact Or.inr (Or.inl h)
  have hlf : (tourContext k).enter.heapMap.leafLevel ∈ (tourContext k).enter.heapMap.levels :=
    Map.leafLevel_mem _
  refine
    { minor := rfl
      shape := ⟨?_, ?_, rfl, ⟨by decide, by decide, trivial⟩⟩
      cards := ⟨?_, ?_, ?_⟩
      valid := ?_ }
  · intro l hl
    rw [tour_levels] at hl
    simp only [List.mem_cons, List.mem_singleton, List.not_mem_nil, or_false] at hl
    rcases hl with rfl | rfl | rfl <;> rfl
  · intro a ha
    have hn : (tourContext k).enter.heapMap.nodeLevels =
        [Map.node 1 1048576 true (Map.node 1 1024 true (Map.leaf 1 1 true)),
          Map.node 1 1024 true (Map.leaf 1 1 true)] := rfl
    rw [hn] at ha
    simp only [List.mem_cons, List.mem_singleton, List.not_mem_nil, or_false] at ha
    rcases ha with rfl | rfl <;> decide
  · intro a _ j hj _
    rw [tour_bits k hk _ hlf j] at hj
    exact absurd hj (by decide)
  · intro a ha i hi
    rw [tour_bits k hk a (hnl a ha) i] at hi
    exact absurd hi (by decide)
  · intro j hj
    rw [tour_bits k hk _ hlf j] at hj
    exact absurd hj (by decide)
  · intro j hj
    exact absurd hj (Nat.not_lt_zero j)

theorem tour_ready (k : Nat) (hk : k ≤ 4) : Ready 4 (tourContext k).enter (tourGraph k) :=
  { start := tour_start k
    mem_eq := fun _ => rfl
    lay_eq := fun _ _ => rfl
    room := by
      intro g hg
      interval_cases k <;> cases g <;> first | exact absurd rfl hg | decide!
    tenure := by show (0 : Nat) < 2 ^ 32; decide }

/-- The example satisfies, before each collection, what the collector
assumes. -/
theorem tour_pre (k : Nat) (hk : k ≤ 4) : Pre 4 (tourContext k).enter (tourGraph k) := by
  have hge := tour_object_ge k
  have hroots : ∀ p ∈ (tourContext k).enter.client.roots, p = 500 := by
    intro p hp
    simpa using (show p ∈ [500] from hp)
  refine
    { ready := tour_ready k hk
      roots_nodup := List.nodup_singleton _
      roots_ok := ?_
      no_null := ?_
      minor := fun _ => ⟨tour_cards k hk, ?_, ?_⟩ }
  · intro p hp
    obtain rfl := hroots p hp
    refine ⟨tour_settable k, Or.inr ?_⟩
    have hm : (tourContext k).enter.mem 500 = tourObject k := rfl
    rw [hm, mask_of_aligned 4 _ (tour_object_mod k)]
    exact (tour_objs k _).2 rfl
  · intro g h
    rw [tour_storage] at h
    omega
  · intro p hp
    obtain rfl := hroots p hp
    rw [tour_storage]
    omega
  · intro y _ hold
    have : (tourContext k).enter.gen2.contains 4 y = false := by
      unfold Segment.contains
      have hp : (tourContext k).enter.gen2.position = 0 := rfl
      rw [hp]
      simp
    rw [this] at hold
    exact absurd hold (by decide)

theorem tour_reach (k : Nat) :
    Reach 4 (tourContext k).enter.client.layout (tourContext k).enter.mem
      (tourContext k).enter.client.roots (tourObject k) := by
  have hm : mask 4 ((tourContext k).enter.mem 500) = tourObject k := by
    have : (tourContext k).enter.mem 500 = tourObject k := rfl
    rw [this, mask_of_aligned 4 _ (tour_object_mod k)]
  have := @Reach.root 4 (tourContext k).enter.client.layout (tourContext k).enter.mem
    (tourContext k).enter.client.roots 500
    (by show 500 ∈ [500]; simp) (by rw [hm]; have := tour_object_ge k; omega)
  rw [hm] at this
  exact this

end Heap

namespace Heap

open CollectionType

/-- In a Minor collection the replacement of gen1 succeeds when the age maps
of gen1 and nextGen1 have the same shape. -/
theorem collectFinish_minor (c3 : Context) (tm sm : Map) (h1 : c3.gen1.map = some tm)
    (h2 : c3.nextGen1.map = some sm) (h3 : tm.replaceWith sm = true)
    (hm : c3.mode = MinorCollection) : ∃ c4, collectFinish c3 = some c4 := by
  unfold collectFinish Segment.replaceWith
  rw [h1, h2]
  simp only [h3, if_true]
  rw [if_neg (by rw [hm]; decide)]
  exact ⟨_, rfl⟩

section Returns

variable {B P : Nat} {e c : Context} {G : Graph} {footprint : Nat}

/-- A collection whose traversals start from a heap that satisfies what the
collector assumes, and whose segment replacement succeeds, returns: with enough
fuel `collect` gives the context `c4`, the traversals having ended with the
context `c3`, every object copied walked, and every object reached from the
roots left in place or copied. -/
theorem collect_of_pre (hinit : collectInit B P e footprint = some c) (hpre : Pre B c.enter G)
    (hfin : ∀ c3, c3.shape = c.enter.shape → ∃ c4, collectFinish c3 = some c4) :
    ∃ c3 cp1 wk1 c4 N, (∀ fuel, N ≤ fuel → collect B P fuel e footprint = some c4) ∧
      Trav B c.enter G c3 cp1 wk1 (fun _ => []) [] ∧ collectFinish c3 = some c4 ∧
      ∀ o, Reach B c.enter.client.layout c.enter.mem c.enter.client.roots o →
        o ∈ G.objs ∧ (isOld B c.enter o ∨ o ∈ cp1) := by
  obtain ⟨N, c3, cp1, wk1, hrun, hT, hu, hold⟩ :=
    @collect2_graph B c.enter c G rfl hpre.ready hpre.roots_nodup hpre.roots_ok hpre.minor
  obtain ⟨c4, h4⟩ := hfin c3 hT.inv.shape
  refine ⟨c3, cp1, wk1, c4, N, ?_, hT, h4, ?_⟩
  · intro fuel hf
    rw [collect_parts, hinit, Option.some_bind, hrun fuel hf, Option.some_bind]
    exact h4
  · intro o ho
    obtain ⟨q1, q2, -⟩ := reach_image hpre.ready hpre.no_null
      (fun p hp => (hpre.roots_ok p hp).2) hT hu hold o ho
    exact ⟨q1, q2⟩

end Returns

/-- A copy that fills its destination segment lies at the start of it. -/
theorem copy_at_data {B : Nat} {c0 c3 : Context} {G : Graph} {cp1 : List Nat}
    (hs : Start B c0 G) (hi : Inv B c0 G c3 cp1) (o : Nat) (ho : o ∈ cp1)
    (hcap : (c0.seg (dest B c0 G o)).capacity = (G.lay o).size) :
    c3.mem o = (c0.seg (dest B c0 G o)).data := by
  obtain ⟨⟨i, e, -, p2⟩, -⟩ := hi.fwd o ho
  have hp := (hi.pos (dest B c0 G o)).2
  rw [hi.seg_capacity] at hp
  have hi0 : i = 0 := by omega
  rw [e, hi0, hi.seg_data]
  omega

/-- One collection of the example: the object, at the stage `k` when the
collection number `k + 1` starts its traversals, survives it; after each of the
first four it lies at the start of the segment the allocator placed. -/
theorem tour_step (k : Nat) (hk : k ≤ 4) :
    ∃ c4 o1, Collected 4 4096 (tourObject k) k c4 o1 ∧ c4.mode = MinorCollection ∧
      (k < 4 → o1 = tourObject (k + 1)) := by
  have hinit : collectInit 4 4096 (tourEntry k) (tourFootprint k) = some (tourContext k) := by
    interval_cases k <;> rfl
  have hpre := tour_pre k hk
  have hs := hpre.ready.start
  obtain ⟨c3, cp1, wk1, c4, N, hrun, hT, hfin, hreach⟩ := collect_of_pre hinit hpre (by
    intro c3 hsh
    have h1 : c3.gen1 = (tourContext k).enter.gen1 := congrArg Shape.gen1 hsh
    have h2 : c3.nextGen1.map = (tourContext k).enter.nextGen1.map :=
      congrArg (fun s => s.nextGen1.2.2) hsh
    have hm : c3.mode = (tourContext k).enter.mode := congrArg Shape.mode hsh
    apply collectFinish_minor c3 (Map.leaf 2 1 false) (Map.leaf 2 1 false) _ h2 (by decide) hm
    rw [h1]
    show (if k = 0 then _ else _ : Segment).map = _
    split <;> rfl)
  have hst : stageOf 4 (tourContext k).enter (tourObject k) = k := by
    interval_cases k <;> decide!
  refine ⟨c4, referent 4 (tourContext k).enter c4 (tourObject k),
    ⟨tourEntry k, tourContext k, tourFootprint k, tourGraph k, hinit, hpre, tour_reach k, hst,
      ⟨N, hrun⟩, rfl⟩, ?_, ?_⟩
  · rw [(collectFinish_spec c3 c4 hfin).2.2.1, hT.inv.mode_eq]
    rfl
  intro hk4
  obtain ⟨ho, hoc⟩ := hreach _ (tour_reach k)
  have hnold : ¬ isOld 4 (tourContext k).enter (tourObject k) := by
    rintro ⟨-, h⟩
    have : (tourContext k).enter.gen2.contains 4 (tourObject k) = false := by
      unfold Segment.contains
      have hp : (tourContext k).enter.gen2.position = 0 := rfl
      rw [hp]
      simp
    rw [this] at h
    exact absurd h (by decide)
  have hcp : tourObject k ∈ cp1 := by
    rcases hoc with h | h
    · exact absurd h hnold
    · exact h
  obtain ⟨f1, -⟩ := collectFinish_spec c3 c4 hfin
  rw [referent_mem 4 _ c3 c4 _ f1, referent_moved hs c3 _ ho hnold]
  have hd : dest 4 (tourContext k).enter (tourGraph k) (tourObject k) = Gen.nextGen1 := by
    interval_cases k <;> decide!
  rw [copy_at_data hs hT.inv _ hcp (by rw [hd, tour_lay]; rfl), hd]
  show 16777216 * (k + 1) = _
  unfold tourObject
  rw [if_neg (by omega)]

/-- Collections of the example in a row, from the collection number `s + 1`
on. -/
theorem tour_run (s : Nat) : ∀ n, 1 ≤ n → s + n ≤ 5 →
    ∃ c o, Run 4 4096 n s c o ∧ c.mode = MinorCollection ∧
      (s + n ≤ 4 → o = tourObject (s + n)) := by
  intro n
  induction n with
  | zero => intro h; omega
  | succ n ih =>
    intro _ hn
    by_cases h0 : n = 0
    · subst h0
      obtain ⟨c4, o1, h1, hm, h2⟩ := tour_step s (by omega)
      exact ⟨c4, o1, Run.first _ _ _ _ h1, hm, fun h => h2 (by omega)⟩
    · obtain ⟨c, o, hr, -, ho⟩ := ih (by omega) (by omega)
      obtain rfl := ho (by omega)
      obtain ⟨c4, o1, h1, hm, h2⟩ := tour_step (s + n) (by omega)
      have hst := hr.stage.2
      rw [show min (s + n) (TenureThreshold + 2) = s + n from by
        unfold TenureThreshold; omega] at hst
      have h3 : Collected 4 4096 (tourObject (s + n)) (stageOf 4 c (tourObject (s + n))) c4
          o1 := by
        rw [hst]
        exact h1
      exact ⟨c4, o1, Run.next _ _ _ _ _ _ hr h3, hm, fun h => h2 (by omega)⟩

end Heap

namespace Heap

open CollectionType

/-- Witness of C5: the example on its way to gen2.  The object, outside the
segments before the first collection, survives five collections in a row.
After the first it lies in gen1 with the recorded age 0, after the fourth in
gen1 with the recorded age 3, and after the fifth in gen2.  With fuel 10 the
five collections leave the object at 16, 32, 48 and 64 MiB and at 2000, at the
stages 1 to 5. -/
theorem tenuring_count_witness :
    (∃ c o, Run 4 4096 1 0 c o ∧ c.gen1.contains 4 o = true ∧ c.gen2.contains 4 o = false ∧
      c.ageMap.get 4 c.gen1 c.mem o = some 0) ∧
    (∃ c o, Run 4 4096 4 0 c o ∧ c.gen1.contains 4 o = true ∧ c.gen2.contains 4 o = false ∧
      c.ageMap.get 4 c.gen1 c.mem o = some 3) ∧
    (∃ c o, Run 4 4096 5 0 c o ∧ c.gen2.contains 4 o = true) ∧
    (List.range 5).map (fun k =>
      (collect 4 4096 10 (tourEntry k) (tourFootprint k)).map
        (fun c => (c.mem 500, stageOf 4 c (c.mem 500)))) =
      [some (16777216, 1), some (33554432, 2), some (50331648, 3), some (67108864, 4),
        some (2000, 5)] := by
  refine ⟨?_, ?_, ?_, by decide!⟩
  · obtain ⟨c, o, h, -, -⟩ := tour_run 0 1 (by decide) (by decide)
    exact ⟨c, o, h, (tenuring_count h).1 (by decide)⟩
  · obtain ⟨c, o, h, -, -⟩ := tour_run 0 4 (by decide) (by decide)
    exact ⟨c, o, h, (tenuring_count h).1 (by decide)⟩
  · obtain ⟨c, o, h, -, -⟩ := tour_run 0 5 (by decide) (by decide)
    exact ⟨c, o, h, (tenuring_count h).2 (by decide)⟩

/-- Witness of C6, amended: the example on its way to gen2, from its second
collection on.  The object lies in gen1 with the recorded age 0 when the
second collection starts.  After three collections in a row it lies in gen1
with the recorded age 3; after four it lies in gen2, and `status` returns
Tenured, the fourth having been executed as Minor. -/
theorem tenure_from_age_witness :
    (∃ c o, Run 4 4096 3 (0 + 1) c o ∧ c.gen1.contains 4 o = true ∧
      c.gen2.contains 4 o = false ∧ c.ageMap.get 4 c.gen1 c.mem o = some (0 + 3)) ∧
    (∃ c o, Run 4 4096 4 (0 + 1) c o ∧ c.gen2.contains 4 o = true ∧
      MyHeap.status 4 c o = Status.Tenured) := by
  constructor
  · obtain ⟨c, o, h, -, -⟩ := tour_run 1 3 (by decide) (by decide)
    exact ⟨c, o, h, (tenure_from_age (by decide) h).1 (by decide)⟩
  · obtain ⟨c, o, h, hm, -⟩ := tour_run 1 4 (by decide) (by decide)
    obtain ⟨h1, h2⟩ := (tenure_from_age (by decide) h).2 (by decide)
    exact ⟨c, o, h, h1, h2 hm⟩

/-- Witness of C9, amended: the fifth collection of the example on its way to
gen2, entered with the footprint 4.  gen1 holds the object of four words with
the recorded age 3, and the tenure footprint is 4.  nextGen1 gets the minimum of
4 - 4 + 4 words, and gen2 has sixteen words free: the object has room in
gen2. -/
theorem destination_room_witness :
    collectInit 4 4096 (tourEntry 4) (tourFootprint 4) = some (tourContext 4) ∧
    Start 4 (tourContext 4).enter (tourGraph 4) ∧
    Sized 4 (tourEntry 4) (tourGraph 4) [tourObject 4] (tourFootprint 4) ∧
    dest 4 (tourContext 4).enter (tourGraph 4) (tourObject 4) = Gen.gen2 ∧
    ((tourContext 4).enter.seg Gen.gen2).position +
        need 4 (tourContext 4).enter (tourGraph 4) [] Gen.gen2 ≤
      ((tourContext 4).enter.seg Gen.gen2).capacity ∧
    need 4 (tourContext 4).enter (tourGraph 4) [] Gen.gen2 = 4 ∧
    ∃ N, ∀ fuel, N ≤ fuel → ∃ c1, collect2 4 fuel (tourContext 4) = some c1 := by
  have hinit : collectInit 4 4096 (tourEntry 4) (tourFootprint 4) = some (tourContext 4) := rfl
  have hpre := tour_pre 4 (by decide)
  have hz : Sized 4 (tourEntry 4) (tourGraph 4) [tourObject 4] (tourFootprint 4) :=
    { nodup := List.nodup_singleton _
      inside := by
        intro x hx
        obtain rfl : x = tourObject 4 := by simpa using hx
        unfold Context.holds
        decide
      disj := by
        intro x hx y hy hne
        obtain rfl : x = tourObject 4 := by simpa using hx
        obtain rfl : y = tourObject 4 := by simpa using hy
        exact absurd rfl hne
      all := by
        intro o ho _
        obtain rfl := (tour_objs 4 o).1 ho
        simp
      tenure := by decide!
      outside := by decide!
      no_wrap1 := by decide
      no_wrap2 := fun _ => by decide }
  obtain ⟨h1, -, h3⟩ := destination_room hinit hpre.ready.start hpre.ready.mem_eq
    hpre.ready.lay_eq hz hpre.roots_nodup hpre.roots_ok
    (fun hm => ⟨(hpre.minor hm).1, (hpre.minor hm).2.1⟩)
  exact ⟨hinit, hpre.ready.start, hz, by decide!, h1 Gen.gen2 (by decide), by decide!, h3⟩

end Heap

namespace Heap

/-! ## Records of any width -/

theorem Map.readBits_mod (B : Nat) (s : Segment) (mp : Map) (m : Mem) :
    ∀ (n i v w : Nat), v % 2 ^ 32 = w % 2 ^ 32 →
      mp.readBits B s m n i v % 2 ^ 32 = mp.readBits B s m n i w % 2 ^ 32 := by
  intro n
  induction n with
  | zero => intro i v w h; exact h
  | succ n ih =>
    intro i v w h
    unfold Map.readBits
    apply ih
    have hb : (if mp.bit B s m i then 1 else 0) ≤ 1 := by split <;> omega
    omega

/-- The loop of `Map::get` reads the bits as a binary number, reduced to the
width of the type `unsigned`. -/
theorem Map.getBits_mod (B : Nat) (s : Segment) (mp : Map) (m : Mem) :
    ∀ (n i v : Nat), v < 2 ^ 32 →
      mp.getBits B s m n i v = mp.readBits B s m n i v % 2 ^ 32 := by
  intro n
  induction n with
  | zero => intro i v hv; exact (Nat.mod_eq_of_lt hv).symm
  | succ n ih =>
    intro i v hv
    unfold Map.getBits Map.readBits
    have hbit : (wordAt B m (mp.data B s) (wordOf B i) &&& (1 <<< bitOf B i)) >>> bitOf B i
        = if mp.bit B s m i then 1 else 0 := and_shift_bit _ _
    rw [hbit]
    have e1 : u32 (v <<< 1) = (v % 2 ^ 31) <<< 1 := by
      unfold u32
      rw [Nat.shiftLeft_eq, Nat.shiftLeft_eq, Nat.pow_one]
      omega
    rw [e1, shl_or_bit]
    have hb : (if mp.bit B s m i then 1 else 0) ≤ 1 := by split <;> omega
    have e2 : u32 (2 * (v % 2 ^ 31) + (if mp.bit B s m i then 1 else 0))
        = 2 * (v % 2 ^ 31) + (if mp.bit B s m i then 1 else 0) := by
      unfold u32
      apply Nat.mod_eq_of_lt
      omega
    rw [e2, ih _ _ (by omega)]
    apply Map.readBits_mod
    omega

/-- The bits of the record of an address in the segment lie in the backing
words of the map, for a record of any width. -/
theorem Map.record_fits (B : Nat) (hB : 0 < B) (s : Segment) (mp : Map) (p : Nat)
    (h : s.contains B p = true) (hc : s.position ≤ s.capacity) (hb1 : 1 ≤ mp.bitsPerRecord)
    (hs1 : 1 ≤ mp.scale) (hcap : ceiling s.capacity mp.scale * mp.bitsPerRecord < 2 ^ 32) (j : Nat)
    (hj : j < mp.recordIndex B s p + mp.bitsPerRecord) :
    wordOf B j < mp.sizeNow B s ∧ mp.recordIndex B s p + mp.bitsPerRecord < 2 ^ 32 := by
  have hidx := Segment.index_lt B hB s p h
  have hpos : s.position ≠ 0 := ((Segment.contains_iff B s p).1 h).1
  have hmax : max s.capacity 1 = s.capacity := by omega
  have h1 : (p - s.data) / B / mp.scale < ceiling s.capacity mp.scale :=
    lt_ceiling _ _ _ hs1 (by omega)
  have h2 : mp.recordIndex B s p + mp.bitsPerRecord
      ≤ ceiling s.capacity mp.scale * mp.bitsPerRecord := by
    unfold Map.recordIndex Map.indexOfIndex
    have := Nat.mul_le_mul_right mp.bitsPerRecord h1
    rw [Nat.succ_mul] at this
    exact this
  constructor
  · unfold Map.sizeNow Map.size wordOf
    rw [hmax]
    exact lt_ceiling _ _ _ (by unfold BitsPerWord; omega) (by omega)
  · omega

/-- `setOnly` on an address of the segment, for a record of any width. -/
theorem Map.setOnly_wide (B : Nat) (hB : 0 < B) (s : Segment) (mp : Map) (m : Mem) (p v : Nat)
    (h : s.contains B p = true) (hc : s.position ≤ s.capacity) (hb1 : 1 ≤ mp.bitsPerRecord)
    (hs1 : 1 ≤ mp.scale) (hcap : ceiling s.capacity mp.scale * mp.bitsPerRecord < 2 ^ 32) :
    ∃ m1, mp.setOnly B s m p v = some m1 ∧
      (∀ a, ¬ mp.inArea B s a → m1 a = m a) ∧
      (∀ k, mp.bit B s m1 k =
        if mp.recordIndex B s p ≤ k ∧ k < mp.recordIndex B s p + mp.bitsPerRecord then
          decide (v / 2 ^ (mp.recordIndex B s p + mp.bitsPerRecord - 1 - k) % 2 = 1)
        else mp.bit B s m k) := by
  have hr := fun j hj => Map.record_fits B hB s mp p h hc hb1 hs1 hcap j hj
  have hlt := (hr (mp.recordIndex B s p) (by omega)).2
  have e1 : usub (u32 (mp.recordIndex B s p + mp.bitsPerRecord)) 1
      = mp.recordIndex B s p + mp.bitsPerRecord - 1 := by
    have : u32 (mp.recordIndex B s p + mp.bitsPerRecord)
        = mp.recordIndex B s p + mp.bitsPerRecord := Nat.mod_eq_of_lt hlt
    rw [this, usub_small _ _ (by omega) hlt]
  obtain ⟨m1, e, f, b⟩ := Map.setBits_spec B hB s mp (mp.recordIndex B s p) mp.bitsPerRecord m
    (mp.recordIndex B s p + mp.bitsPerRecord - 1) v (by omega) (by omega)
    (fun j _ h2 => (hr j (by omega)).1)
  refine ⟨m1, ?_, f, ?_⟩
  · unfold Map.setOnly Map.setOnlyIndex
    rw [Map.map_indexOf_contains B s mp p h hc]
    simp only [e1, e]
  · intro k
    rw [b]
    by_cases hk : mp.recordIndex B s p ≤ k ∧ k < mp.recordIndex B s p + mp.bitsPerRecord
    · rw [if_pos (by omega), if_pos hk]
    · rw [if_neg (by omega), if_neg hk]

/-- `clearOnly` on an address of the segment, for a record of any width. -/
theorem Map.clearOnly_wide (B : Nat) (hB : 0 < B) (s : Segment) (mp : Map) (m : Mem) (p : Nat)
    (h : s.contains B p = true) (hc : s.position ≤ s.capacity) (hb1 : 1 ≤ mp.bitsPerRecord)
    (hs1 : 1 ≤ mp.scale) (hcap : ceiling s.capacity mp.scale * mp.bitsPerRecord < 2 ^ 32) :
    ∃ m1, mp.clearOnly B s m p = some m1 ∧
      (∀ a, ¬ mp.inArea B s a → m1 a = m a) ∧
      (∀ k, mp.bit B s m1 k =
        if mp.recordIndex B s p ≤ k ∧ k < mp.recordIndex B s p + mp.bitsPerRecord then false
        else mp.bit B s m k) := by
  have hr := fun j hj => Map.record_fits B hB s mp p h hc hb1 hs1 hcap j hj
  obtain ⟨m1, e, f, b⟩ := Map.clearBits_spec B hB s mp mp.bitsPerRecord m (mp.recordIndex B s p)
    (fun j _ h2 => (hr j h2).1)
  refine ⟨m1, ?_, f, b⟩
  unfold Map.clearOnly Map.clearOnlyIndex
  rw [Map.map_indexOf_contains B s mp p h hc]
  simp only [e]

/-- `get` on an address of the segment reads the record as a binary number,
reduced to the width of the type `unsigned`. -/
theorem Map.get_wide (B : Nat) (s : Segment) (mp : Map) (m : Mem) (p : Nat)
    (h : s.contains B p = true) (hc : s.position ≤ s.capacity) :
    mp.get B s m p =
      some (mp.readBits B s m mp.bitsPerRecord (mp.recordIndex B s p) 0 % 2 ^ 32) := by
  unfold Map.get
  rw [Map.map_indexOf_contains B s mp p h hc]
  simp only [Option.map_some', Option.some.injEq]
  exact Map.getBits_mod B s mp m _ _ 0 (by decide)

/-- The records of two addresses with different record indices share no bit. -/
theorem Map.records_apart (B : Nat) (s : Segment) (mp : Map) (p q : Nat)
    (hne : mp.recordIndex B s q ≠ mp.recordIndex B s p) (t : Nat) (ht : t < mp.bitsPerRecord) :
    ¬ (mp.recordIndex B s p ≤ mp.recordIndex B s q + t ∧
      mp.recordIndex B s q + t < mp.recordIndex B s p + mp.bitsPerRecord) := by
  unfold Map.recordIndex Map.indexOfIndex at hne ⊢
  generalize (p - s.data) / B / mp.scale = x at hne ⊢
  generalize (q - s.data) / B / mp.scale = y at hne ⊢
  rintro ⟨h1, h2⟩
  rcases Nat.lt_trichotomy x y with h | h | h
  · have := Nat.mul_le_mul_right mp.bitsPerRecord (Nat.succ_le_of_lt h)
    rw [Nat.succ_mul] at this
    omega
  · exact hne (by rw [h])
  · have := Nat.mul_le_mul_right mp.bitsPerRecord (Nat.succ_le_of_lt h)
    rw [Nat.succ_mul] at this
    omega

/-- Writing the bits of the record of `p` leaves what `get` returns for an
address with another record index. -/
theorem Map.get_other (B : Nat) (s : Segment) (mp : Map) (m m1 : Mem) (p q : Nat)
    (X : Nat → Bool) (hq : s.contains B q = true) (hc : s.position ≤ s.capacity)
    (hne : mp.recordIndex B s q ≠ mp.recordIndex B s p)
    (hb : ∀ k, mp.bit B s m1 k =
      if mp.recordIndex B s p ≤ k ∧ k < mp.recordIndex B s p + mp.bitsPerRecord then X k
      else mp.bit B s m k) :
    mp.get B s m1 q = mp.get B s m q := by
  rw [Map.get_wide B s mp m1 q hq hc, Map.get_wide B s mp m q hq hc]
  congr 2
  apply Map.readBits_congr
  intro t ht
  rw [hb, if_neg (Map.records_apart B s mp p q hne t ht)]

/-- The round trip of a record on natural numbers: for a map with at least one
bit per record and a scale of at least 1 on a segment for which the product
`ceiling(capacity, scale) * bitsPerRecord` fits the type `unsigned`, an address
`p` of the segment and a value `v < 2 ^ bitsPerRecord` of type `unsigned`. -/
theorem Map.round_trip_nat (B : Nat) (hB : 0 < B) (s : Segment) (mp : Map) (m : Mem) (p v : Nat)
    (hp : s.contains B p = true) (hc : s.position ≤ s.capacity) (hb1 : 1 ≤ mp.bitsPerRecord)
    (hs1 : 1 ≤ mp.scale) (hcap : ceiling s.capacity mp.scale * mp.bitsPerRecord < 2 ^ 32)
    (hv : v < 2 ^ mp.bitsPerRecord) (hv32 : v < 2 ^ 32) :
    ∃ m1 m2, mp.setOnly B s m p v = some m1 ∧ mp.clearOnly B s m p = some m2 ∧
      mp.get B s m1 p = some v ∧ mp.get B s m2 p = some 0 ∧
      ∀ q, s.contains B q = true → mp.recordIndex B s q ≠ mp.recordIndex B s p →
        mp.get B s m1 q = mp.get B s m q ∧ mp.get B s m2 q = mp.get B s m q := by
  obtain ⟨m1, e1, -, b1⟩ := Map.setOnly_wide B hB s mp m p v hp hc hb1 hs1 hcap
  obtain ⟨m2, e2, -, b2⟩ := Map.clearOnly_wide B hB s mp m p hp hc hb1 hs1 hcap
  refine ⟨m1, m2, e1, e2, ?_, ?_, ?_⟩
  · rw [Map.get_wide B s mp m1 p hp hc]
    have := Map.readBits_digits B s mp m1 v mp.bitsPerRecord (mp.recordIndex B s p) 0
      (fun t ht => by
        rw [b1, if_pos (by omega)]
        have : mp.recordIndex B s p + mp.bitsPerRecord - 1 - (mp.recordIndex B s p + t)
            = mp.bitsPerRecord - 1 - t := by omega
        rw [this])
    rw [this, Nat.zero_mul, Nat.zero_add, Nat.mod_eq_of_lt hv, Nat.mod_eq_of_lt hv32]
  · rw [Map.get_wide B s mp m2 p hp hc]
    have := Map.readBits_digits B s mp m2 0 mp.bitsPerRecord (mp.recordIndex B s p) 0
      (fun t ht => by
        rw [b2, if_pos (by omega)]
        simp)
    rw [this]
    simp
  · intro q hq hne
    exact ⟨Map.get_other B s mp m m1 p q _ hq hc hne b1,
      Map.get_other B s mp m m2 p q _ hq hc hne b2⟩

end Heap

namespace Heap

open CollectionType

/-! ## Replacing a segment -/

theorem Map.levels_ne_nil (mp : Map) : mp.levels ≠ [] := by
  cases mp <;> simp [Map.levels]

/-- Two hierarchies with the same record widths and scales, level by level,
pass the assertions of `Map::replaceWith`. -/
theorem Map.replaceWith_levels : ∀ (tm sm : Map),
    tm.levels.map (fun l => (l.bitsPerRecord, l.scale)) =
      sm.levels.map (fun l => (l.bitsPerRecord, l.scale)) →
    tm.replaceWith sm = true := by
  intro tm
  induction tm with
  | leaf b sc c =>
    intro sm h
    cases sm with
    | leaf b1 sc1 c1 =>
      simp only [Map.levels, List.map_cons, List.map_nil, List.cons.injEq, Prod.mk.injEq,
        Map.bitsPerRecord, Map.scale, and_true] at h
      simp [Map.replaceWith, Map.bitsPerRecord, Map.scale, h.1, h.2]
    | node b1 sc1 c1 ch1 =>
      simp only [Map.levels, List.map_cons, List.map_nil, List.cons.injEq] at h
      exact absurd h.2.symm (by simpa using Map.levels_ne_nil ch1)
  | node b sc c ch ih =>
    intro sm h
    cases sm with
    | leaf b1 sc1 c1 =>
      simp only [Map.levels, List.map_cons, List.map_nil, List.cons.injEq] at h
      exact absurd h.2 (by simpa using Map.levels_ne_nil ch)
    | node b1 sc1 c1 ch1 =>
      simp only [Map.levels, List.map_cons, List.cons.injEq, Prod.mk.injEq,
        Map.bitsPerRecord, Map.scale] at h
      simp [Map.replaceWith, Map.bitsPerRecord, Map.scale, Map.child, h.1.1, h.1.2, ih ch1 h.2]

/-- Two hierarchies with the same record widths and scales, level by level,
have the same footprint. -/
theorem Map.footprint_levels (B : Nat) (capacity : Nat) : ∀ (tm sm : Map),
    tm.levels.map (fun l => (l.bitsPerRecord, l.scale)) =
      sm.levels.map (fun l => (l.bitsPerRecord, l.scale)) →
    tm.footprint B capacity = sm.footprint B capacity := by
  intro tm
  induction tm with
  | leaf b sc c =>
    intro sm h
    cases sm with
    | leaf b1 sc1 c1 =>
      simp only [Map.levels, List.map_cons, List.map_nil, List.cons.injEq, Prod.mk.injEq,
        Map.bitsPerRecord, Map.scale, and_true] at h
      simp [Map.footprint, Map.size, Map.bitsPerRecord, Map.scale, h.1, h.2]
    | node b1 sc1 c1 ch1 =>
      simp only [Map.levels, List.map_cons, List.map_nil, List.cons.injEq] at h
      exact absurd h.2.symm (by simpa using Map.levels_ne_nil ch1)
  | node b sc c ch ih =>
    intro sm h
    cases sm with
    | leaf b1 sc1 c1 =>
      simp only [Map.levels, List.map_cons, List.map_nil, List.cons.injEq] at h
      exact absurd h.2 (by simpa using Map.levels_ne_nil ch)
    | node b1 sc1 c1 ch1 =>
      simp only [Map.levels, List.map_cons, List.cons.injEq, Prod.mk.injEq,
        Map.bitsPerRecord, Map.scale] at h
      simp [Map.footprint, Map.size, Map.bitsPerRecord, Map.scale, h.1.1, h.1.2, ih ch1 h.2]

/-- A level of a hierarchy is the hierarchy of the levels from it down. -/
theorem Map.levels_drop : ∀ (mp : Map) (i : Nat) (l : Map),
    mp.levels[i]? = some l → l.levels = mp.levels.drop i := by
  intro mp
  induction mp with
  | leaf b sc c =>
    intro i l h
    cases i with
    | zero =>
      simp only [Map.levels, List.getElem?_cons_zero, Option.some.injEq] at h
      rw [← h]
      rfl
    | succ i => simp [Map.levels] at h
  | node b sc c ch ih =>
    intro i l h
    cases i with
    | zero =>
      simp only [Map.levels, List.getElem?_cons_zero, Option.some.injEq] at h
      rw [← h]
      rfl
    | succ i =>
      simp only [Map.levels, List.getElem?_cons_succ] at h
      rw [ih i l h]
      rfl

theorem Map.getBits_data (B : Nat) (s s1 : Segment) (mp mp1 : Map) (m : Mem)
    (hd : mp1.data B s1 = mp.data B s) :
    ∀ (n i v : Nat), mp1.getBits B s1 m n i v = mp.getBits B s m n i v := by
  intro n
  induction n with
  | zero => intro i v; rfl
  | succ n ih =>
    intro i v
    unfold Map.getBits
    rw [hd, ih]

/-- What `get` returns depends on the storage of the segment, on the width and
the scale of the level and on the footprint of the levels below it. -/
theorem Map.get_levels (B : Nat) (s s1 : Segment) (lt ls : Map) (m : Mem) (p : Nat)
    (hd : s1.data = s.data) (hp : s1.position = s.position) (hk : s1.capacity = s.capacity)
    (h : lt.levels.map (fun l => (l.bitsPerRecord, l.scale)) =
      ls.levels.map (fun l => (l.bitsPerRecord, l.scale))) :
    lt.get B s1 m p = ls.get B s m p := by
  have hb : lt.bitsPerRecord = ls.bitsPerRecord ∧ lt.scale = ls.scale := by
    cases lt <;> cases ls <;>
      simp only [Map.levels, List.map_cons, List.cons.injEq, Prod.mk.injEq] at h <;>
      exact h.1
  have hoff : lt.offset B s.capacity = ls.offset B s.capacity := by
    have hf := Map.footprint_levels B s.capacity lt ls h
    rw [Map.footprint_eq, Map.footprint_eq] at hf
    have hsz : lt.size B s.capacity = ls.size B s.capacity := by
      unfold Map.size
      rw [hb.1, hb.2]
    omega
  have hdata : lt.data B s1 = ls.data B s := by
    unfold Map.data
    rw [hd, hk, hoff]
  have hidx : lt.indexOf B s1 p = ls.indexOf B s p := by
    unfold Map.indexOf Segment.indexOf Segment.almostContains Segment.contains
      Map.indexOfIndex
    rw [hd, hp, hk, hb.1, hb.2]
  unfold Map.get
  rw [hidx, hb.1]
  congr 1
  funext index
  exact Map.getBits_data B s s1 ls lt m hdata _ _ _

theorem collectFinish_maps (c3 c4 : Context) (h : collectFinish c3 = some c4) :
    c4.heapMap = c3.heapMap := by
  unfold collectFinish at h
  cases h1 : c3.gen1.replaceWith c3.nextGen1 with
  | none => rw [h1] at h; exact absurd h (by simp)
  | some r =>
    obtain ⟨g1, ng1⟩ := r
    rw [h1] at h
    simp only at h
    split at h
    · cases h2 : c3.gen2.replaceWith c3.nextGen2 with
      | none => rw [h2] at h; exact absurd h (by simp)
      | some r2 =>
        obtain ⟨g2, ng2⟩ := r2
        rw [h2] at h
        simp only [Option.some.injEq] at h
        rw [← h]
    · simp only [Option.some.injEq] at h
      rw [← h]

/-- C22: `Segment::replaceWith`.  For segments `t` and `s` whose map
hierarchies have the same `bitsPerRecord` and the same `scale` level by level,
`t.replaceWith(s)` returns; afterwards `t` has the data, the position and the
capacity `s` had and keeps its map, `s` has no data, position 0, capacity 0 and
no map, and every level of the map of `t` returns for every address what the
corresponding level of the map of `s` returned before, a value when `t`
contains the address and the position of `s` did not exceed its capacity.  In
`collect`, where gen1 is replaced with nextGen1 and, in a Major collection,
gen2 with nextGen2: the age map of gen1 then returns the ages written through
`nextAgeMap`, and the card maps of gen2 return the bits written through the
maps of nextGen2. -/
theorem segment_replaceWith (B : Nat) :
    (∀ (t s : Segment) (tm sm : Map) (m : Mem), t.map = some tm → s.map = some sm →
      tm.levels.map (fun l => (l.bitsPerRecord, l.scale)) =
        sm.levels.map (fun l => (l.bitsPerRecord, l.scale)) →
      ∃ t1 s1, t.replaceWith s = some (t1, s1) ∧
        t1.data = s.data ∧ t1.position = s.position ∧ t1.capacity = s.capacity ∧
        t1.map = some tm ∧
        s1.data = 0 ∧ s1.position = 0 ∧ s1.capacity = 0 ∧ s1.map = none ∧
        ∀ (i : Nat) (lt ls : Map), tm.levels[i]? = some lt → sm.levels[i]? = some ls →
          ∀ p, lt.get B t1 m p = ls.get B s m p ∧
            (t1.contains B p = true → s.position ≤ s.capacity →
              ∃ v, lt.get B t1 m p = some v)) ∧
    (∀ (c3 c4 : Context), collectFinish c3 = some c4 →
      (c3.ageMap.levels.map (fun l => (l.bitsPerRecord, l.scale)) =
          c3.nextAgeMap.levels.map (fun l => (l.bitsPerRecord, l.scale)) →
        ∀ p, c4.ageMap.get B c4.gen1 c4.mem p = c3.nextAgeMap.get B c3.nextGen1 c3.mem p) ∧
      (c3.mode = MajorCollection →
        c3.heapMap.levels.map (fun l => (l.bitsPerRecord, l.scale)) =
          c3.nextHeapMap.levels.map (fun l => (l.bitsPerRecord, l.scale)) →
        ∀ (i : Nat) (lt ls : Map), c4.heapMap.levels[i]? = some lt → c3.nextHeapMap.levels[i]? = some ls →
          ∀ p, lt.get B c4.gen2 c4.mem p = ls.get B c3.nextGen2 c3.mem p)) := by
  have sub : ∀ (tm sm : Map) (i : Nat) (lt ls : Map),
      tm.levels.map (fun l => (l.bitsPerRecord, l.scale)) =
        sm.levels.map (fun l => (l.bitsPerRecord, l.scale)) →
      tm.levels[i]? = some lt → sm.levels[i]? = some ls →
      lt.levels.map (fun l => (l.bitsPerRecord, l.scale)) =
        ls.levels.map (fun l => (l.bitsPerRecord, l.scale)) := by
    intro tm sm i lt ls hlv h1 h2
    rw [Map.levels_drop tm i lt h1, Map.levels_drop sm i ls h2, List.map_drop,
      List.map_drop, hlv]
  constructor
  · intro t s tm sm m ht hs hlv
    refine ⟨⟨s.data, s.position, s.capacity, some tm⟩, ⟨0, 0, 0, none⟩, ?_, rfl, rfl, rfl, rfl,
      rfl, rfl, rfl, rfl, ?_⟩
    · unfold Segment.replaceWith
      rw [hs, ht]
      simp only [Map.replaceWith_levels tm sm hlv, if_true]
    · intro i lt ls h1 h2 p
      have hg := Map.get_levels B s ⟨s.data, s.position, s.capacity, some tm⟩ lt ls m p rfl rfl
        rfl (sub tm sm i lt ls hlv h1 h2)
      refine ⟨hg, ?_⟩
      intro hp hc
      refine ⟨_, Map.get_wide B _ lt m p hp hc⟩
  · intro c3 c4 hfin
    obtain ⟨f1, f2, f3, f4, f5, f6, f7, f8, f9⟩ := collectFinish_spec c3 c4 hfin
    constructor
    · intro hlv p
      rw [f1, f2]
      exact Map.get_levels B c3.nextGen1 c4.gen1 _ _ c3.mem p f4 f5 f6 hlv
    · intro hm hlv i lt ls h1 h2 p
      obtain ⟨g1, g2, g3⟩ := f8 hm
      rw [collectFinish_maps c3 c4 hfin] at h1
      rw [f1]
      exact Map.get_levels B c3.nextGen2 c4.gen2 lt ls c3.mem p g1 g2 g3
        (sub _ _ i lt ls hlv h1 h2)

/-- Witness of C22: a segment of four words at address 1000 is replaced with
one at address 2000 that holds three words, both with a map of two bits per
record; the age 2 recorded for the second word of the argument is what the map
of the receiver returns afterwards. -/
theorem segment_replaceWith_witness :
    (∃ t1 s1,
      Segment.replaceWith ⟨1000, 2, 4, some (Map.leaf 2 1 false)⟩
        ⟨2000, 3, 4, some (Map.leaf 2 1 true)⟩ = some (t1, s1) ∧
      t1.data = 2000 ∧ t1.position = 3 ∧ t1.capacity = 4 ∧
      t1.map = some (Map.leaf 2 1 false) ∧
      s1.data = 0 ∧ s1.position = 0 ∧ s1.capacity = 0 ∧ s1.map = none ∧
      ∀ (i : Nat) (lt ls : Map), (Map.leaf 2 1 false).levels[i]? = some lt →
        (Map.leaf 2 1 true).levels[i]? = some ls →
        ∀ p, lt.get 4 t1 (fun a => if a = 2016 then 4 else 0) p =
            ls.get 4 ⟨2000, 3, 4, some (Map.leaf 2 1 true)⟩
              (fun a => if a = 2016 then 4 else 0) p ∧
          (t1.contains 4 p = true → 3 ≤ 4 →
            ∃ v, lt.get 4 t1 (fun a => if a = 2016 then 4 else 0) p = some v)) ∧
    (Segment.replaceWith ⟨1000, 2, 4, some (Map.leaf 2 1 false)⟩
        ⟨2000, 3, 4, some (Map.leaf 2 1 true)⟩).map
      (fun r => (r.1, r.2, (Map.leaf 2 1 false).get 4 r.1
        (fun a => if a = 2016 then 4 else 0) 2004)) =
      some (⟨2000, 3, 4, some (Map.leaf 2 1 false)⟩, ⟨0, 0, 0, none⟩, some 2) ∧
    (Map.leaf 2 1 true).get 4 ⟨2000, 3, 4, some (Map.leaf 2 1 true)⟩
      (fun a => if a = 2016 then 4 else 0) 2004 = some 2 :=
  ⟨(segment_replaceWith 4).1 ⟨1000, 2, 4, some (Map.leaf 2 1 false)⟩
      ⟨2000, 3, 4, some (Map.leaf 2 1 true)⟩ (Map.leaf 2 1 false) (Map.leaf 2 1 true)
      (fun a => if a = 2016 then 4 else 0) rfl rfl (by decide),
    by decide, by decide⟩

end Heap

namespace Heap

/-! ## The layout of the maps of a segment -/

theorem Map.footprint_sum (B capacity : Nat) : ∀ mp : Map,
    mp.footprint B capacity =
      (mp.levels.map fun l =>
        ceiling (ceiling capacity l.scale * l.bitsPerRecord) (BitsPerWord B)).sum := by
  intro mp
  induction mp with
  | leaf b sc c => simp [Map.levels, Map.footprint, Map.size]
  | node b sc c ch ih =>
    simp only [Map.levels, Map.footprint, List.map_cons, List.sum_cons, ← ih]
    rfl

/-- The footprint of a level, with the levels below it, is at most the
footprint of the hierarchy. -/
theorem Map.footprint_level_le (B capacity : Nat) : ∀ (mp l : Map), l ∈ mp.levels →
    l.footprint B capacity ≤ mp.footprint B capacity := by
  intro mp
  induction mp with
  | leaf b sc c =>
    intro l hl
    simp only [Map.levels, List.mem_singleton] at hl
    rw [hl]
  | node b sc c ch ih =>
    intro l hl
    simp only [Map.levels, List.mem_cons] at hl
    rcases hl with hl | hl
    · rw [hl]
    · have := ih l hl
      simp only [Map.footprint]
      omega

/-- The backing words of a level lie after those of every level below it. -/
theorem Map.levels_stacked (B capacity : Nat) : ∀ mp : Map,
    mp.levels.Pairwise fun l1 l2 =>
      l2.offset B capacity + l2.size B capacity ≤ l1.offset B capacity := by
  intro mp
  induction mp with
  | leaf b sc c => simp [Map.levels]
  | node b sc c ch ih =>
    simp only [Map.levels, List.pairwise_cons]
    refine ⟨?_, ih⟩
    intro l hl
    have h1 := Map.footprint_level_le B capacity ch l hl
    rw [Map.footprint_eq] at h1
    show l.offset B capacity + l.size B capacity ≤ ch.footprint B capacity
    omega

/-- The layout of the maps on natural numbers: the footprint is the sum of the
level sizes, the backing words of the levels lie in the map words of the
segment and are disjoint, and the bits of the record of an address lie in the
backing words of their level. -/
theorem Map.layout_nat (B : Nat) (hB : 0 < B) (mp : Map) (capacity : Nat) (hcap : 1 ≤ capacity) :
    mp.footprint B capacity =
      (mp.levels.map fun l =>
        ceiling (ceiling capacity l.scale * l.bitsPerRecord) (BitsPerWord B)).sum ∧
    (∀ l ∈ mp.levels, capacity ≤ capacity + l.offset B capacity ∧
      capacity + l.offset B capacity + l.size B capacity ≤
        capacity + mp.footprint B capacity) ∧
    (mp.levels.Pairwise fun l1 l2 => ∀ w,
      ¬ ((capacity + l1.offset B capacity ≤ w ∧
          w < capacity + l1.offset B capacity + l1.size B capacity) ∧
        (capacity + l2.offset B capacity ≤ w ∧
          w < capacity + l2.offset B capacity + l2.size B capacity))) ∧
    (∀ l ∈ mp.levels, ∀ w, capacity + l.offset B capacity ≤ w →
      w < capacity + l.offset B capacity + l.size B capacity → ¬ w < capacity) ∧
    (∀ (s : Segment) (m : Mem) (p : Nat), s.capacity = capacity → s.position ≤ s.capacity →
      s.contains B p = true → ∀ l ∈ mp.levels, 1 ≤ l.bitsPerRecord → 1 ≤ l.scale →
      ceiling s.capacity l.scale * l.bitsPerRecord < 2 ^ 32 →
      l.indexOf B s p = some (l.recordIndex B s p) ∧
      ∀ j, l.recordIndex B s p ≤ j → j < l.recordIndex B s p + l.bitsPerRecord →
        wordOf B j < l.size B capacity ∧
        s.data + (capacity + l.offset B capacity) * B ≤ l.data B s + wordOf B j * B ∧
        l.data B s + wordOf B j * B <
          s.data + (capacity + l.offset B capacity + l.size B capacity) * B ∧
        ∃ m1 m2, l.setBit B s m j = some m1 ∧ l.clearBit B s m j = some m2 ∧
          ∀ a, (a < s.data + (capacity + l.offset B capacity) * B ∨
              s.data + (capacity + l.offset B capacity + l.size B capacity) * B ≤ a) →
            m1 a = m a ∧ m2 a = m a) := by
  refine ⟨Map.footprint_sum B capacity mp, ?_, ?_, ?_, ?_⟩
  · intro l hl
    have := Map.footprint_level_le B capacity mp l hl
    rw [Map.footprint_eq] at this
    omega
  · refine (Map.levels_stacked B capacity mp).imp ?_
    intro l1 l2 h w
    omega
  · intro l _ w h1 _
    omega
  · intro s m p hs hc hp l _ hb1 hs1 hfit
    refine ⟨Map.map_indexOf_contains B s l p hp hc, ?_⟩
    intro j _ hj
    have hmax : max s.capacity 1 = s.capacity := by omega
    have hw := (Map.record_fits B hB s l p hp hc hb1 hs1 hfit j hj).1
    have hsz : l.sizeNow B s = l.size B capacity := by
      unfold Map.sizeNow
      rw [hmax, hs]
    have hd : l.data B s = s.data + (capacity + l.offset B capacity) * B := by
      unfold Map.data
      rw [hs]
    have hin := Map.inArea_word B s l _ hw hB
    unfold Map.inArea at hin
    rw [hsz, hd] at hin
    have hlt : s.data + (capacity + l.offset B capacity) * B + wordOf B j * B <
        s.data + (capacity + l.offset B capacity + l.size B capacity) * B := by
      have := hin.2
      rw [Nat.add_mul (capacity + l.offset B capacity)]
      omega
    obtain ⟨m1, e1, f1, -⟩ := Map.writeBit_spec B hB s l m j true hw
    obtain ⟨m2, e2, f2, -⟩ := Map.writeBit_spec B hB s l m j false hw
    simp only [if_true] at e1
    simp only [Bool.false_eq_true, if_false] at e2
    refine ⟨by rw [← hsz]; exact hw, by rw [hd]; omega, by rw [hd]; exact hlt, m1, m2, e1, e2, ?_⟩
    intro a ha
    have hna : ¬ l.inArea B s a := by
      unfold Map.inArea
      rw [hsz, hd]
      rw [Nat.add_mul (capacity + l.offset B capacity)] at ha
      omega
    exact ⟨f1 a hna, f2 a hna⟩

end Heap

namespace Heap

open CollectionType

/-! ## The tenure footprint and the occupancy of young space -/

end Heap

namespace Heap

/-! ## The bitset protocol of the descending walk -/

/-- Recording an ascending list of offsets keeps the bitset in the state the
walker builds: it holds the offsets recorded, whatever the words after the one
of the last offset hold. -/
theorem bitsetRecord_partial (B : Nat) (hB : B = 4 ∨ B = 8) (p : Nat) :
    ∀ (l : List Nat) (m : Mem) (S : Finset Nat) (last : Nat),
      BitsetPartial B m p S last → (last :: l).Sorted (· ≤ ·) →
      (∀ i ∈ l, i + BitsPerWord B * 2 + 1 < 2 ^ 32) →
      ∃ last1, BitsetPartial B (l.foldl (bitsetRecord B p) (m, last)).1 p
        (S ∪ l.toFinset) last1 := by
  intro l
  induction l with
  | nil =>
    intro m S last h _ _
    exact ⟨last, by simpa using h⟩
  | cons o rest ih =>
    intro m S last h hs hb
    have hlo : last ≤ o := List.rel_of_sorted_cons hs o (List.mem_cons_self _ _)
    have h1 := h.clear B hB m p S last o hlo (hb o (List.mem_cons_self _ _))
    have h2 := h1.grow_set B hB _ p S o o (Nat.le_refl _)
    obtain ⟨last1, h3⟩ := ih (bitsetSet B (bitsetClear B m p last o) p o true) (insert o S) o h2
      hs.of_cons (fun i hi => hb i (List.mem_cons_of_mem _ hi))
    refine ⟨last1, ?_⟩
    have e : S ∪ (o :: rest).toFinset = insert o S ∪ rest.toFinset := by
      ext x
      simp only [List.toFinset_cons, Finset.mem_union, Finset.mem_insert]
      tauto
    rw [e]
    exact h3

/-- C25 (amended): the bitset protocol of the traversal does not depend on
what the memory held.  For arbitrary contents of the memory and every strictly
ascending list of offsets `o` such that `o + 2 * BitsPerWord + 1` fits the type
`unsigned`: after `bitsetInit` and, for each offset in turn,
`bitsetClear(p, last, o)`, `last = o`, `bitsetSet(p, o, true)`, repeated
`bitsetNext` returns exactly the offsets recorded, in ascending order, and then
`bitsetHasMore` returns false; which is what the same calls return when all the
memory was zero beforehand. -/
theorem bitset_protocol (B : Nat) (hB : B = 4 ∨ B = 8) (m : Mem) (p : Nat) (l : List Nat)
    (hs : l.Sorted (· < ·)) (hb : ∀ i ∈ l, i + BitsPerWord B * 2 + 1 < 2 ^ 32) :
    (∃ m1, bitsetDrain B p l.length (bitsetRecordAll B p m l) = some (l, m1) ∧
      (bitsetHasMore B m1 p).1 = false) ∧
    (bitsetDrain B p l.length (bitsetRecordAll B p m l)).map Prod.fst =
      (bitsetDrain B p l.length (bitsetRecordAll B p (fun _ => 0) l)).map Prod.fst := by
  have main : ∀ m : Mem, ∃ m1, bitsetDrain B p l.length (bitsetRecordAll B p m l) = some (l, m1) ∧
      (bitsetHasMore B m1 p).1 = false := by
    intro m
    have hle : (0 :: l).Sorted (· ≤ ·) := by
      exact List.sorted_cons.2 ⟨fun b _ => Nat.zero_le b, hs.imp (fun h => Nat.le_of_lt h)⟩
    obtain ⟨last1, hp⟩ := bitsetRecord_partial B hB p l (bitsetInit B m p) ∅ 0
      (BitsetPartial.grow_init B hB m p) hle hb
    rw [Finset.empty_union] at hp
    have hrep := hp.grow_rep B hB _ p _ last1
    have hcard : l.toFinset.card = l.length := List.toFinset_card_of_nodup hs.nodup
    obtain ⟨m1, h1, h2⟩ := BitsetRep.drain B hB p l.length l.toFinset _ hcard hrep
    have hsort : l.toFinset.sort (· ≤ ·) = l := by
      apply List.eq_of_perm_of_sorted (r := (· ≤ ·)) _ (Finset.sort_sorted _ _)
        (hs.imp (fun h => Nat.le_of_lt h))
      rw [List.perm_ext_iff_of_nodup (Finset.sort_nodup _ _) hs.nodup]
      intro a
      rw [Finset.mem_sort, List.mem_toFinset]
    rw [hsort] at h1
    refine ⟨m1, h1, ?_⟩
    have := (h2.hasMore B hB m1 p ∅).1
    cases hc : (bitsetHasMore B m1 p).1
    · rfl
    · have := this.1 hc
      simp at this
  refine ⟨main m, ?_⟩
  obtain ⟨m1, h1, -⟩ := main m
  obtain ⟨m2, h2, -⟩ := main (fun _ => 0)
  rw [show bitsetDrain B p l.length (bitsetRecordAll B p m l) = some (l, m1) from h1,
    show bitsetDrain B p l.length (bitsetRecordAll B p (fun _ => 0) l) = some (l, m2) from h2]
  rfl

/-- Witness of C25: on a 32 bit target, in a memory whose bits are all set, the
offsets 0, 5, 40, 100 recorded in turn are returned as 0, 5, 40, 100, as they
are when the memory was all zero. -/
theorem bitset_protocol_witness :
    ((∃ m1, bitsetDrain 4 1000 [0, 5, 40, 100].length
        (bitsetRecordAll 4 1000 (fun _ => 4294967295) [0, 5, 40, 100])
          = some ([0, 5, 40, 100], m1) ∧
      (bitsetHasMore 4 m1 1000).1 = false) ∧
    (bitsetDrain 4 1000 [0, 5, 40, 100].length
        (bitsetRecordAll 4 1000 (fun _ => 4294967295) [0, 5, 40, 100])).map Prod.fst =
      (bitsetDrain 4 1000 [0, 5, 40, 100].length
        (bitsetRecordAll 4 1000 (fun _ => 0) [0, 5, 40, 100])).map Prod.fst) ∧
    (bitsetDrain 4 1000 4
      (bitsetRecordAll 4 1000 (fun _ => 4294967295) [0, 5, 40, 100])).map Prod.fst
      = some [0, 5, 40, 100] ∧
    (bitsetDrain 4 1000 4
      (bitsetRecordAll 4 1000 (fun _ => 0) [0, 5, 40, 100])).map Prod.fst
      = some [0, 5, 40, 100] :=
  ⟨bitset_protocol 4 (Or.inl rfl) (fun _ => 4294967295) 1000 [0, 5, 40, 100] (by decide)
      (by decide),
    by decide, by decide⟩

/-- Counterexample to C25 as stated (every ascending sequence of offsets): on
a 32 bit target the offset `2 ^ 32 - 65` wraps around in `bitsetClear` and in
`bitsetSet`, and `bitsetNext` returns 0. -/
theorem bitset_protocol_wraps :
    (bitsetDrain 4 1000 1
      (bitsetRecordAll 4 1000 (fun _ => 4294967295) [4294967231])).map Prod.fst
      = some [0] := by decide

end Heap

namespace Heap

/-! ## The maps on the type `unsigned` and on natural numbers -/

theorem Exact.size_nat (B : Nat) (hB : 0 < B) (mp : Map) (capacity : Nat) (hc : 1 ≤ capacity)
    (hb : 1 ≤ mp.bitsPerRecord) (hs : 1 ≤ mp.scale)
    (hfit : ceiling capacity mp.scale * mp.bitsPerRecord < 2 ^ 32) :
    Exact.size B mp capacity = some (mp.size B capacity) := by
  unfold Exact.size Map.size
  have h1 : u32 (ceiling capacity mp.scale * mp.bitsPerRecord)
      = ceiling capacity mp.scale * mp.bitsPerRecord := Nat.mod_eq_of_lt hfit
  have h2 : 0 < ceiling capacity mp.scale := ceiling_pos _ _ hc hs
  have h3 : 0 < ceiling capacity mp.scale * mp.bitsPerRecord := Nat.mul_pos h2 hb
  have h4 := ceiling_pos _ (BitsPerWord B) h3 (by unfold BitsPerWord; omega)
  simp only [h1]
  rw [if_pos (by omega)]

theorem Map.levels_sub : ∀ (mp l : Map), l ∈ mp.levels → ∀ x ∈ l.levels, x ∈ mp.levels := by
  intro mp
  induction mp with
  | leaf b sc c =>
    intro l hl x hx
    simp only [Map.levels, List.mem_singleton] at hl
    rw [hl] at hx
    exact hx
  | node b sc c ch ih =>
    intro l hl x hx
    simp only [Map.levels, List.mem_cons] at hl
    rcases hl with hl | hl
    · rw [hl] at hx
      exact hx
    · exact List.mem_cons_of_mem _ (ih l hl x hx)

theorem Map.levels_self (mp : Map) : mp ∈ mp.levels := by
  cases mp with
  | leaf b sc c => simp [Map.levels]
  | node b sc c ch => simp [Map.levels]

/-- For a hierarchy whose products and whose sum fit the type `unsigned` and
whose levels have at least one bit per record, `footprint` returns, and returns
the footprint on natural numbers. -/
theorem Exact.footprint_nat (B : Nat) (hB : 0 < B) (capacity : Nat) (hc : 1 ≤ capacity) :
    ∀ mp : Map,
      (∀ l ∈ mp.levels, 1 ≤ l.bitsPerRecord ∧ 1 ≤ l.scale ∧
        ceiling capacity l.scale * l.bitsPerRecord < 2 ^ 32) →
      mp.footprint B capacity < 2 ^ 32 →
      Exact.footprint B mp capacity = some (mp.footprint B capacity) := by
  intro mp
  induction mp with
  | leaf b sc c =>
    intro hl _
    obtain ⟨h1, h2, h3⟩ := hl _ (Map.levels_self _)
    exact Exact.size_nat B hB _ capacity hc h1 h2 h3
  | node b sc c ch ih =>
    intro hl hf
    obtain ⟨h1, h2, h3⟩ := hl _ (Map.levels_self _)
    have hf2 : (Map.node b sc c ch).size B capacity + ch.footprint B capacity < 2 ^ 32 := hf
    unfold Exact.footprint
    rw [Exact.size_nat B hB _ capacity hc h1 h2 h3]
    simp only
    rw [ih (fun l h => hl l (List.mem_cons_of_mem _ h)) (by omega)]
    simp only
    have : u32 ((Map.node b sc c ch).size B capacity + ch.footprint B capacity)
        = (Map.node b sc c ch).size B capacity + ch.footprint B capacity :=
      Nat.mod_eq_of_lt hf2
    rw [this]
    rfl

theorem Exact.offset_nat (B : Nat) (hB : 0 < B) (capacity : Nat) (hc : 1 ≤ capacity) (mp : Map)
    (hl : ∀ l ∈ mp.levels, 1 ≤ l.bitsPerRecord ∧ 1 ≤ l.scale ∧
      ceiling capacity l.scale * l.bitsPerRecord < 2 ^ 32)
    (hf : mp.footprint B capacity < 2 ^ 32) :
    Exact.offset B mp capacity = some (mp.offset B capacity) := by
  cases mp with
  | leaf b sc c => rfl
  | node b sc c ch =>
    have hf2 : (Map.node b sc c ch).size B capacity + ch.footprint B capacity < 2 ^ 32 := hf
    unfold Exact.offset Map.offset
    simp only [Map.child]
    rw [Exact.footprint_nat B hB capacity hc ch (fun l h => hl l (List.mem_cons_of_mem _ h))
      (by omega)]
    simp only [Option.map_some', Nat.zero_add]
    have : u32 (ch.footprint B capacity) = ch.footprint B capacity :=
      Nat.mod_eq_of_lt (by omega)
    rw [this]

/-! ### The operations -/

theorem Exact.setBit_nat (B : Nat) (s : Segment) (mp : Map) (s2 : Segment) (mp2 : Map)
    (hd : Exact.data B s mp = some (mp2.data B s2))
    (hz : Exact.sizeNow B s mp = some (mp2.sizeNow B s2)) (m : Mem) (i : Nat) :
    Exact.setBit B s mp m i = mp2.setBit B s2 m i := by
  unfold Exact.setBit Map.setBit
  simp only [hz, hd]

theorem Exact.clearBit_nat (B : Nat) (s : Segment) (mp : Map) (s2 : Segment) (mp2 : Map)
    (hd : Exact.data B s mp = some (mp2.data B s2))
    (hz : Exact.sizeNow B s mp = some (mp2.sizeNow B s2)) (m : Mem) (i : Nat) :
    Exact.clearBit B s mp m i = mp2.clearBit B s2 m i := by
  unfold Exact.clearBit Map.clearBit
  simp only [hz, hd]

theorem Exact.clearBits_nat (B : Nat) (s : Segment) (mp : Map) (s2 : Segment) (mp2 : Map)
    (hd : Exact.data B s mp = some (mp2.data B s2))
    (hz : Exact.sizeNow B s mp = some (mp2.sizeNow B s2)) :
    ∀ (n : Nat) (m : Mem) (i : Nat),
      Exact.clearBits B s mp (i + n) n m i = mp2.clearBits B s2 n m i := by
  intro n
  induction n with
  | zero => intro m i; rfl
  | succ n ih =>
    intro m i
    unfold Exact.clearBits Map.clearBits
    rw [if_pos (by omega), Exact.clearBit_nat B s mp s2 mp2 hd hz]
    cases mp2.clearBit B s2 m i with
    | none => rfl
    | some m1 =>
      simp only
      have : i + (n + 1) = i + 1 + n := by omega
      rw [this]
      exact ih m1 (i + 1)

theorem Exact.setBits_nat (B : Nat) (s : Segment) (mp : Map) (s2 : Segment) (mp2 : Map)
    (hd : Exact.data B s mp = some (mp2.data B s2))
    (hz : Exact.sizeNow B s mp = some (mp2.sizeNow B s2)) (index : Nat) :
    ∀ (n : Nat) (m : Mem) (i v : Nat), index ≤ i → i < 2 ^ 32 →
      Exact.setBits B s mp index n m i v = mp2.setBits B s2 index n m i v := by
  intro n
  induction n with
  | zero => intro m i v _ _; rfl
  | succ n ih =>
    intro m i v h1 h2
    unfold Exact.setBits Map.setBits
    rw [Exact.setBit_nat B s mp s2 mp2 hd hz, Exact.clearBit_nat B s mp s2 mp2 hd hz]
    cases (if v % 2 = 1 then mp2.setBit B s2 m i else mp2.clearBit B s2 m i) with
    | none => rfl
    | some m1 =>
      simp only
      by_cases hi : i = index
      · rw [if_pos hi, if_pos hi]
      · rw [if_neg hi, if_neg hi, usub_small i 1 (by omega) h2]
        exact ih m1 (i - 1) (v / 2) (by omega) (by omega)

theorem Exact.getBits_nat (B : Nat) (s : Segment) (mp : Map) (s2 : Segment) (mp2 : Map)
    (hd : Exact.data B s mp = some (mp2.data B s2)) (m : Mem) :
    ∀ (n i v : Nat),
      Exact.getBits B s mp m (i + n) n i v = some (mp2.getBits B s2 m n i v) := by
  intro n
  induction n with
  | zero => intro i v; rfl
  | succ n ih =>
    intro i v
    unfold Exact.getBits Map.getBits
    rw [if_pos (by omega)]
    simp only [hd]
    have : i + (n + 1) = i + 1 + n := by omega
    rw [this]
    exact ih (i + 1) _

theorem Exact.setOnly_nat (B : Nat) (s : Segment) (mp : Map) (s2 : Segment) (mp2 : Map)
    (hd : Exact.data B s mp = some (mp2.data B s2))
    (hz : Exact.sizeNow B s mp = some (mp2.sizeNow B s2))
    (hb : mp2.bitsPerRecord = mp.bitsPerRecord) (hb1 : 1 ≤ mp.bitsPerRecord)
    (m : Mem) (p p2 v idx : Nat)
    (hi1 : Exact.indexOf B s mp p = some idx) (hi2 : mp2.indexOf B s2 p2 = some idx)
    (hlt : idx + mp.bitsPerRecord < 2 ^ 32) :
    Exact.setOnly B s mp m p v = mp2.setOnly B s2 m p2 v := by
  unfold Exact.setOnly Map.setOnly
  rw [hi1, hi2]
  simp only
  unfold Exact.setOnlyIndex Map.setOnlyIndex
  rw [hb]
  have e0 : u32 (idx + mp.bitsPerRecord) = idx + mp.bitsPerRecord := Nat.mod_eq_of_lt hlt
  have e1 : usub (idx + mp.bitsPerRecord) 1 = idx + mp.bitsPerRecord - 1 :=
    usub_small _ _ (by omega) hlt
  have e2 : usub (idx + mp.bitsPerRecord - 1) idx = mp.bitsPerRecord - 1 := by
    rw [usub_small _ _ (by omega) (by omega)]
    omega
  have e3 : mp.bitsPerRecord - 1 + 1 = mp.bitsPerRecord := by omega
  rw [e0, e1, e2, e3]
  exact Exact.setBits_nat B s mp s2 mp2 hd hz idx _ m _ v (by omega) (by omega)

theorem Exact.clearOnly_nat (B : Nat) (s : Segment) (mp : Map) (s2 : Segment) (mp2 : Map)
    (hd : Exact.data B s mp = some (mp2.data B s2))
    (hz : Exact.sizeNow B s mp = some (mp2.sizeNow B s2))
    (hb : mp2.bitsPerRecord = mp.bitsPerRecord)
    (m : Mem) (p p2 idx : Nat)
    (hi1 : Exact.indexOf B s mp p = some idx) (hi2 : mp2.indexOf B s2 p2 = some idx)
    (hlt : idx + mp.bitsPerRecord < 2 ^ 32) :
    Exact.clearOnly B s mp m p = mp2.clearOnly B s2 m p2 := by
  unfold Exact.clearOnly Map.clearOnly
  rw [hi1, hi2]
  simp only
  unfold Exact.clearOnlyIndex Map.clearOnlyIndex
  rw [hb]
  have e0 : u32 (idx + mp.bitsPerRecord) = idx + mp.bitsPerRecord := Nat.mod_eq_of_lt hlt
  rw [e0, Nat.add_sub_cancel_left]
  exact Exact.clearBits_nat B s mp s2 mp2 hd hz _ m idx

theorem Exact.get_nat (B : Nat) (s : Segment) (mp : Map) (s2 : Segment) (mp2 : Map)
    (hd : Exact.data B s mp = some (mp2.data B s2))
    (hb : mp2.bitsPerRecord = mp.bitsPerRecord)
    (m : Mem) (p p2 idx : Nat)
    (hi1 : Exact.indexOf B s mp p = some idx) (hi2 : mp2.indexOf B s2 p2 = some idx)
    (hlt : idx + mp.bitsPerRecord < 2 ^ 32) :
    Exact.get B s mp m p = mp2.get B s2 m p2 := by
  unfold Exact.get Map.get
  rw [hi1, hi2]
  simp only [Option.map_some']
  rw [hb]
  have e0 : u32 (idx + mp.bitsPerRecord) = idx + mp.bitsPerRecord := Nat.mod_eq_of_lt hlt
  rw [e0, Nat.add_sub_cancel_left]
  exact Exact.getBits_nat B s mp s2 mp2 hd m _ idx 0

/-- The first bit of the record of an address of the segment, where the product
of `Map::size` fits the type `unsigned`. -/
theorem Exact.indexOf_contains (B : Nat) (hB : 0 < B) (s : Segment) (mp : Map) (p : Nat)
    (hp : s.contains B p = true) (hc : s.position ≤ s.capacity) (hb1 : 1 ≤ mp.bitsPerRecord)
    (hs1 : 1 ≤ mp.scale) (hfit : ceiling s.capacity mp.scale * mp.bitsPerRecord < 2 ^ 32) :
    Exact.indexOf B s mp p = some (mp.recordIndex B s p) := by
  have hpos : s.position ≠ 0 := ((Segment.contains_iff B s p).1 hp).1
  have hlt := (Map.record_fits B hB s mp p hp hc hb1 hs1 hfit (mp.recordIndex B s p)
    (by omega)).2
  unfold Exact.indexOf
  rw [if_pos ⟨by unfold Segment.almostContains; simp [hp], by omega⟩,
    Segment.seg_indexOf_contains B s p hp]
  simp only [Option.map_some', Option.some.injEq]
  unfold Exact.indexOfIndex
  have : (p - s.data) / B / mp.scale * mp.bitsPerRecord = mp.recordIndex B s p := rfl
  rw [this]
  exact Nat.mod_eq_of_lt (by omega)

end Heap

namespace Heap

/-! ## The round trip of a record on the type `unsigned` -/

/-- C21 (amended): map record round trip.  For a map with `bitsPerRecord = b >= 1`
and a scale of at least 1 (as `Map::init` asserts) on a segment for which the
product `ceiling(capacity, scale) * b` of `Map::size` fits the type `unsigned`
and whose `data()` passes the assertions of the levels below, every address `p`
the segment contains and every value `v < 2 ^ b` of type `unsigned`:
`setOnly(p, v)` and `clearOnly(p)` return, `get(p)` returns `v` after the first
and 0 after the second, and for every address `q` of the segment whose record
starts at another bit than that of `p`, `get(q)` returns after either what it
returned before.  In particular every age from 0 to `TenureThreshold` written
into the age map, whose records have `log(TenureThreshold)` bits, of a segment
of less than 2^31 words is read back. -/
theorem map_record_round_trip (B : Nat) (hB : 0 < B) (s : Segment) (m : Mem) (p : Nat)
    (hp : s.contains B p = true) (hc : s.position ≤ s.capacity) :
    (∀ (mp : Map) (v : Nat), 1 ≤ mp.bitsPerRecord → 1 ≤ mp.scale →
      ceiling s.capacity mp.scale * mp.bitsPerRecord < 2 ^ 32 →
      (Exact.data B s mp).isSome = true → v < 2 ^ mp.bitsPerRecord → v < 2 ^ 32 →
      ∃ m1 m2, Exact.setOnly B s mp m p v = some m1 ∧ Exact.clearOnly B s mp m p = some m2 ∧
        Exact.get B s mp m1 p = some v ∧ Exact.get B s mp m2 p = some 0 ∧
        ∀ q, s.contains B q = true → Exact.indexOf B s mp q ≠ Exact.indexOf B s mp p →
          Exact.get B s mp m1 q = Exact.get B s mp m q ∧
          Exact.get B s mp m2 q = Exact.get B s mp m q) ∧
    (s.capacity * 2 < 2 ^ 32 → ∀ age, age ≤ TenureThreshold →
      ∃ m1, Exact.setOnly B s (Map.leaf (log TenureThreshold) 1 false) m p age = some m1 ∧
        Exact.get B s (Map.leaf (log TenureThreshold) 1 false) m1 p = some age) := by
  have main : ∀ (mp : Map) (v : Nat), 1 ≤ mp.bitsPerRecord → 1 ≤ mp.scale →
      ceiling s.capacity mp.scale * mp.bitsPerRecord < 2 ^ 32 →
      (Exact.data B s mp).isSome = true → v < 2 ^ mp.bitsPerRecord → v < 2 ^ 32 →
      ∃ m1 m2, Exact.setOnly B s mp m p v = some m1 ∧ Exact.clearOnly B s mp m p = some m2 ∧
        Exact.get B s mp m1 p = some v ∧ Exact.get B s mp m2 p = some 0 ∧
        ∀ q, s.contains B q = true → Exact.indexOf B s mp q ≠ Exact.indexOf B s mp p →
          Exact.get B s mp m1 q = Exact.get B s mp m q ∧
          Exact.get B s mp m2 q = Exact.get B s mp m q := by
    intro mp v hb1 hs1 hfit hd hv hv32
    have hpos : s.position ≠ 0 := ((Segment.contains_iff B s p).1 hp).1
    have hmax : max s.capacity 1 = s.capacity := by omega
    cases hoff : Exact.offset B mp s.capacity with
    | none =>
      unfold Exact.data at hd
      rw [hoff] at hd
      cases hd
    | some off =>
      have hd2 : Exact.data B s mp = some
          ((Map.leaf mp.bitsPerRecord mp.scale mp.clearNewData).data B
            ⟨s.data + off * B, s.position, s.capacity, s.map⟩) := by
        unfold Exact.data
        rw [hoff]
        simp only [Option.map_some', Option.some.injEq]
        show s.data + (s.capacity + off) * B = s.data + off * B + (s.capacity + 0) * B
        rw [Nat.add_mul, Nat.add_zero]
        omega
      have hz2 : Exact.sizeNow B s mp = some
          ((Map.leaf mp.bitsPerRecord mp.scale mp.clearNewData).sizeNow B
            ⟨s.data + off * B, s.position, s.capacity, s.map⟩) := by
        show Exact.size B mp (max s.capacity 1) = some (mp.size B (max s.capacity 1))
        rw [hmax]
        exact Exact.size_nat B hB mp s.capacity (by omega) hb1 hs1 hfit
      have hidx : ∀ q, s.contains B q = true →
          Segment.contains B ⟨s.data + off * B, s.position, s.capacity, s.map⟩ (q + off * B)
            = true ∧
          (Map.leaf mp.bitsPerRecord mp.scale mp.clearNewData).recordIndex B
            ⟨s.data + off * B, s.position, s.capacity, s.map⟩ (q + off * B)
            = mp.recordIndex B s q := by
        intro q hq
        obtain ⟨q1, q2, q3⟩ := (Segment.contains_iff B s q).1 hq
        constructor
        · apply (Segment.contains_iff B _ _).2
          exact ⟨q1, by show s.data + off * B ≤ q + off * B; omega,
            by show q + off * B < s.data + off * B + s.position * B; omega⟩
        · show Map.indexOfIndex (Map.leaf mp.bitsPerRecord mp.scale mp.clearNewData)
              ((q + off * B - (s.data + off * B)) / B) = Map.indexOfIndex mp ((q - s.data) / B)
          have : q + off * B - (s.data + off * B) = q - s.data := by omega
          rw [this]
          rfl
      have hi1 : ∀ q, s.contains B q = true →
          Exact.indexOf B s mp q = some (mp.recordIndex B s q) :=
        fun q hq => Exact.indexOf_contains B hB s mp q hq hc hb1 hs1 hfit
      have hi2 : ∀ q, s.contains B q = true →
          (Map.leaf mp.bitsPerRecord mp.scale mp.clearNewData).indexOf B
            ⟨s.data + off * B, s.position, s.capacity, s.map⟩ (q + off * B)
            = some (mp.recordIndex B s q) := by
        intro q hq
        rw [Map.map_indexOf_contains B _ _ _ (hidx q hq).1 hc, (hidx q hq).2]
      have hlt : ∀ q, s.contains B q = true →
          mp.recordIndex B s q + mp.bitsPerRecord < 2 ^ 32 :=
        fun q hq => (Map.record_fits B hB s mp q hq hc hb1 hs1 hfit (mp.recordIndex B s q)
          (by omega)).2
      have hget : ∀ (m0 : Mem) (q : Nat), s.contains B q = true →
          Exact.get B s mp m0 q =
            (Map.leaf mp.bitsPerRecord mp.scale mp.clearNewData).get B
              ⟨s.data + off * B, s.position, s.capacity, s.map⟩ m0 (q + off * B) :=
        fun m0 q hq => Exact.get_nat B s mp _ _ hd2 rfl m0 q _ _ (hi1 q hq) (hi2 q hq) (hlt q hq)
      obtain ⟨m1, m2, e1, e2, g1, g2, hoth⟩ :=
        Map.round_trip_nat B hB ⟨s.data + off * B, s.position, s.capacity, s.map⟩
          (Map.leaf mp.bitsPerRecord mp.scale mp.clearNewData) m (p + off * B) v
          (hidx p hp).1 hc hb1 hs1 hfit hv hv32
      refine ⟨m1, m2, ?_, ?_, ?_, ?_, ?_⟩
      · rw [Exact.setOnly_nat B s mp _ _ hd2 hz2 rfl hb1 m p _ v _ (hi1 p hp) (hi2 p hp)
          (hlt p hp)]
        exact e1
      · rw [Exact.clearOnly_nat B s mp _ _ hd2 hz2 rfl m p _ _ (hi1 p hp) (hi2 p hp)
          (hlt p hp)]
        exact e2
      · rw [hget m1 p hp]
        exact g1
      · rw [hget m2 p hp]
        exact g2
      · intro q hq hne
        rw [hi1 q hq, hi1 p hp] at hne
        have hne2 : (Map.leaf mp.bitsPerRecord mp.scale mp.clearNewData).recordIndex B
            ⟨s.data + off * B, s.position, s.capacity, s.map⟩ (q + off * B) ≠
            (Map.leaf mp.bitsPerRecord mp.scale mp.clearNewData).recordIndex B
              ⟨s.data + off * B, s.position, s.capacity, s.map⟩ (p + off * B) := by
          rw [(hidx q hq).2, (hidx p hp).2]
          intro h
          exact hne (by rw [h])
        obtain ⟨o1, o2⟩ := hoth (q + off * B) (hidx q hq).1 hne2
        rw [hget m1 q hq, hget m2 q hq, hget m q hq]
        exact ⟨o1, o2⟩
  refine ⟨main, ?_⟩
  intro hcap age hage
  have hl : log TenureThreshold = 2 := by decide
  have ha : age < 2 ^ 2 := by
    have : TenureThreshold = 3 := rfl
    omega
  have hce : ceiling s.capacity 1 = s.capacity := by
    unfold ceiling
    simp
  obtain ⟨m1, -, e1, -, g1, -⟩ := main (Map.leaf (log TenureThreshold) 1 false) age
    (by rw [hl]; decide) (by decide)
    (by
      show ceiling s.capacity 1 * log TenureThreshold < 2 ^ 32
      rw [hl, hce]
      exact hcap)
    rfl (by rw [hl]; exact ha) (by omega)
  exact ⟨m1, e1, g1⟩

/-- Witness of C21: a segment of eight words at address 1000 on a 32 bit
target, in a memory whose bits are all set.  With the age map (two bits per
record) the value 2 written for the second word is read back, `clearOnly` makes
it 0, and the third word reads 3 as before; the ages 0 to 3 are read back.  In
the upper level of a hierarchy of two levels (one bit per four words over one
bit per word), whose backing words follow those of the lower level, the value 0
written for the sixth word is read back. -/
theorem map_record_round_trip_witness :
    (∃ m1 m2,
      Exact.setOnly 4 ⟨1000, 8, 8, some (Map.leaf 2 1 false)⟩ (Map.leaf 2 1 false)
        (fun _ => 4294967295) 1004 2 = some m1 ∧
      Exact.clearOnly 4 ⟨1000, 8, 8, some (Map.leaf 2 1 false)⟩ (Map.leaf 2 1 false)
        (fun _ => 4294967295) 1004 = some m2 ∧
      Exact.get 4 ⟨1000, 8, 8, some (Map.leaf 2 1 false)⟩ (Map.leaf 2 1 false) m1 1004
        = some 2 ∧
      Exact.get 4 ⟨1000, 8, 8, some (Map.leaf 2 1 false)⟩ (Map.leaf 2 1 false) m2 1004
        = some 0 ∧
      ∀ q, Segment.contains 4 ⟨1000, 8, 8, some (Map.leaf 2 1 false)⟩ q = true →
        Exact.indexOf 4 ⟨1000, 8, 8, some (Map.leaf 2 1 false)⟩ (Map.leaf 2 1 false) q ≠
          Exact.indexOf 4 ⟨1000, 8, 8, some (Map.leaf 2 1 false)⟩ (Map.leaf 2 1 false) 1004 →
        Exact.get 4 ⟨1000, 8, 8, some (Map.leaf 2 1 false)⟩ (Map.leaf 2 1 false) m1 q =
          Exact.get 4 ⟨1000, 8, 8, some (Map.leaf 2 1 false)⟩ (Map.leaf 2 1 false)
            (fun _ => 4294967295) q ∧
        Exact.get 4 ⟨1000, 8, 8, some (Map.leaf 2 1 false)⟩ (Map.leaf 2 1 false) m2 q =
          Exact.get 4 ⟨1000, 8, 8, some (Map.leaf 2 1 false)⟩ (Map.leaf 2 1 false)
            (fun _ => 4294967295) q) ∧
    (∀ age, age ≤ TenureThreshold →
      ∃ m1, Exact.setOnly 4 ⟨1000, 8, 8, some (Map.leaf 2 1 false)⟩
          (Map.leaf (log TenureThreshold) 1 false) (fun _ => 4294967295) 1004 age = some m1 ∧
        Exact.get 4 ⟨1000, 8, 8, some (Map.leaf 2 1 false)⟩
          (Map.leaf (log TenureThreshold) 1 false) m1 1004 = some age) ∧
    ((Exact.setOnly 4 ⟨1000, 8, 8, some (Map.leaf 2 1 false)⟩ (Map.leaf 2 1 false)
        (fun _ => 4294967295) 1004 2).bind fun m1 =>
      Exact.get 4 ⟨1000, 8, 8, some (Map.leaf 2 1 false)⟩ (Map.leaf 2 1 false) m1 1004)
      = some 2 ∧
    ((Exact.clearOnly 4 ⟨1000, 8, 8, some (Map.leaf 2 1 false)⟩ (Map.leaf 2 1 false)
        (fun _ => 4294967295) 1004).bind fun m2 =>
      Exact.get 4 ⟨1000, 8, 8, some (Map.leaf 2 1 false)⟩ (Map.leaf 2 1 false) m2 1008)
      = some 3 ∧
    Exact.data 4 ⟨1000, 8, 8, none⟩ (Map.node 1 4 true (Map.leaf 1 1 true)) = some 1036 ∧
    ((Exact.setOnly 4 ⟨1000, 8, 8, none⟩ (Map.node 1 4 true (Map.leaf 1 1 true))
        (fun _ => 4294967295) 1020 0).bind fun m1 =>
      Exact.get 4 ⟨1000, 8, 8, none⟩ (Map.node 1 4 true (Map.leaf 1 1 true)) m1 1020)
      = some 0 :=
  ⟨(map_record_round_trip 4 (by decide) ⟨1000, 8, 8, some (Map.leaf 2 1 false)⟩
      (fun _ => 4294967295) 1004 (by decide) (by decide)).1 (Map.leaf 2 1 false) 2
      (by decide) (by decide) (by decide) rfl (by decide) (by decide),
    (map_record_round_trip 4 (by decide) ⟨1000, 8, 8, some (Map.leaf 2 1 false)⟩
      (fun _ => 4294967295) 1004 (by decide) (by decide)).2 (by decide),
    by decide, by decide, by decide, by decide⟩

/-- Counterexample to C21 as stated: the age map (two bits per record) of a
segment of 2^31 + 16 words on a 64 bit target.  `Map::size` computes the
product (2^31 + 16) * 2 on the type `unsigned`, which gives 32, so the map has
one backing word.  For the address 4608 of the word 64, which the segment
contains, `setOnly` fails the assertion of `setBit` (the bit 129 is in the word
2): it does not return.  For the address of the word 2^31 the product of
`indexOf` wraps to the bit 0, the first bit of the record of the word 0:
`setOnly` returns and changes what `get` returns for the word 0, whose record
index is another. -/
theorem map_record_wraps :
    Segment.contains 8 ⟨4096, 2147483664, 2147483664, some (Map.leaf 2 1 false)⟩ 4608 = true ∧
    Exact.sizeNow 8 ⟨4096, 2147483664, 2147483664, some (Map.leaf 2 1 false)⟩
      (Map.leaf 2 1 false) = some 1 ∧
    Exact.indexOf 8 ⟨4096, 2147483664, 2147483664, some (Map.leaf 2 1 false)⟩
      (Map.leaf 2 1 false) 4608 = some 128 ∧
    Exact.setOnly 8 ⟨4096, 2147483664, 2147483664, some (Map.leaf 2 1 false)⟩
      (Map.leaf 2 1 false) (fun _ => 0) 4608 3 = none ∧
    Segment.contains 8 ⟨4096, 2147483664, 2147483664, some (Map.leaf 2 1 false)⟩
      17179873280 = true ∧
    Segment.indexOf 8 ⟨4096, 2147483664, 2147483664, some (Map.leaf 2 1 false)⟩
      17179873280 = some 2147483648 ∧
    Segment.indexOf 8 ⟨4096, 2147483664, 2147483664, some (Map.leaf 2 1 false)⟩ 4096 = some 0 ∧
    Exact.indexOf 8 ⟨4096, 2147483664, 2147483664, some (Map.leaf 2 1 false)⟩
      (Map.leaf 2 1 false) 17179873280 = some 0 ∧
    Exact.get 8 ⟨4096, 2147483664, 2147483664, some (Map.leaf 2 1 false)⟩
      (Map.leaf 2 1 false) (fun _ => 0) 4096 = some 0 ∧
    ((Exact.setOnly 8 ⟨4096, 2147483664, 2147483664, some (Map.leaf 2 1 false)⟩
        (Map.leaf 2 1 false) (fun _ => 0) 17179873280 3).bind fun m1 =>
      Exact.get 8 ⟨4096, 2147483664, 2147483664, some (Map.leaf 2 1 false)⟩
        (Map.leaf 2 1 false) m1 4096) = some 3 := by
  refine ⟨by decide, by decide, by decide, rfl, by decide, by decide, by decide, by decide,
    by decide, by decide⟩

end Heap

namespace Heap

/-! ## The layout of the maps on the type `unsigned` -/

/-- C23 (amended): map layout.  For a capacity of at least 1 and a map hierarchy
whose levels have at least one bit per record and a scale of at least 1 (as
`Map::init` asserts), whose products `ceiling(capacity, scale) * bitsPerRecord`
fit the type `unsigned` and for which the sum over the levels of
`ceiling(ceiling(capacity, scale) * bitsPerRecord, BitsPerWord)` fits it too:
`footprint(capacity)` returns that sum; for every level `offset(capacity)` and
`size(capacity)` return, the size being the term of the level, and the backing
words of the level, from word `capacity + offset(capacity)` of the segment up to
`size(capacity)` words further, lie in the words from `capacity` up to
`capacity + footprint(capacity)` and none of them is a data word, the data words
being those below `capacity`; no word belongs to the backing words of two
levels.  For a segment of that capacity, an address `p` it contains and a level:
`data()` and `size()` return, `indexOf(p)` is the first bit of the record of
`p`, and for every bit `j` of that record, which are the bits `setOnly`,
`clearOnly` and `get` touch, the word `wordOf(j)` lies below `size(capacity)`,
the word of `data()` that holds the bit lies in the backing words of the level,
`setBit` and `clearBit` return and both write no word outside the backing words
of the level. -/
theorem map_layout (B : Nat) (hB : 0 < B) (mp : Map) (capacity : Nat) (hcap : 1 ≤ capacity)
    (hlev : ∀ l ∈ mp.levels, 1 ≤ l.bitsPerRecord ∧ 1 ≤ l.scale ∧
      ceiling capacity l.scale * l.bitsPerRecord < 2 ^ 32)
    (hsum : (mp.levels.map fun l =>
      ceiling (ceiling capacity l.scale * l.bitsPerRecord) (BitsPerWord B)).sum < 2 ^ 32) :
    ∃ f, Exact.footprint B mp capacity = some f ∧
    f = (mp.levels.map fun l =>
        ceiling (ceiling capacity l.scale * l.bitsPerRecord) (BitsPerWord B)).sum ∧
    (∀ l ∈ mp.levels, ∃ off sz, Exact.offset B l capacity = some off ∧
      Exact.size B l capacity = some sz ∧
      sz = ceiling (ceiling capacity l.scale * l.bitsPerRecord) (BitsPerWord B) ∧
      capacity ≤ capacity + off ∧ capacity + off + sz ≤ capacity + f ∧
      ∀ w, capacity + off ≤ w → w < capacity + off + sz → ¬ w < capacity) ∧
    (mp.levels.Pairwise fun l1 l2 => ∀ off1 sz1 off2 sz2,
      Exact.offset B l1 capacity = some off1 → Exact.size B l1 capacity = some sz1 →
      Exact.offset B l2 capacity = some off2 → Exact.size B l2 capacity = some sz2 →
      ∀ w, ¬ ((capacity + off1 ≤ w ∧ w < capacity + off1 + sz1) ∧
        (capacity + off2 ≤ w ∧ w < capacity + off2 + sz2))) ∧
    (∀ (s : Segment) (m : Mem) (p : Nat), s.capacity = capacity → s.position ≤ s.capacity →
      s.contains B p = true → ∀ l ∈ mp.levels,
      ∃ off sz d, Exact.offset B l capacity = some off ∧ Exact.size B l capacity = some sz ∧
        Exact.data B s l = some d ∧ Exact.sizeNow B s l = some sz ∧
        d = s.data + (capacity + off) * B ∧
        Exact.indexOf B s l p = some (((p - s.data) / B / l.scale) * l.bitsPerRecord) ∧
        ∀ j, ((p - s.data) / B / l.scale) * l.bitsPerRecord ≤ j →
          j < ((p - s.data) / B / l.scale) * l.bitsPerRecord + l.bitsPerRecord →
          wordOf B j < sz ∧
          s.data + (capacity + off) * B ≤ d + wordOf B j * B ∧
          d + wordOf B j * B < s.data + (capacity + off + sz) * B ∧
          ∃ m1 m2, Exact.setBit B s l m j = some m1 ∧ Exact.clearBit B s l m j = some m2 ∧
            ∀ a, (a < s.data + (capacity + off) * B ∨
                s.data + (capacity + off + sz) * B ≤ a) →
              m1 a = m a ∧ m2 a = m a) := by
  obtain ⟨n1, n2, n3, n4, n5⟩ := Map.layout_nat B hB mp capacity hcap
  rw [← n1] at hsum
  have hl : ∀ l ∈ mp.levels,
      (∀ x ∈ l.levels, 1 ≤ x.bitsPerRecord ∧ 1 ≤ x.scale ∧
        ceiling capacity x.scale * x.bitsPerRecord < 2 ^ 32) ∧
      l.footprint B capacity < 2 ^ 32 := by
    intro l h
    exact ⟨fun x hx => hlev x (Map.levels_sub mp l h x hx),
      Nat.lt_of_le_of_lt (Map.footprint_level_le B capacity mp l h) hsum⟩
  have hoff : ∀ l ∈ mp.levels, Exact.offset B l capacity = some (l.offset B capacity) :=
    fun l h => Exact.offset_nat B hB capacity hcap l (hl l h).1 (hl l h).2
  have hsz : ∀ l ∈ mp.levels, Exact.size B l capacity = some (l.size B capacity) := by
    intro l h
    obtain ⟨h1, h2, h3⟩ := hlev l h
    exact Exact.size_nat B hB l capacity hcap h1 h2 h3
  refine ⟨mp.footprint B capacity,
    Exact.footprint_nat B hB capacity hcap mp hlev hsum, n1, ?_, ?_, ?_⟩
  · intro l h
    exact ⟨_, _, hoff l h, hsz l h, rfl, (n2 l h).1, (n2 l h).2, n4 l h⟩
  · have hp : mp.levels.Pairwise fun l1 l2 => l1 ∈ mp.levels ∧ l2 ∈ mp.levels :=
      List.pairwise_of_forall_mem_list fun a ha b hb => ⟨ha, hb⟩
    refine (n3.and hp).imp ?_
    rintro l1 l2 ⟨h, h1, h2⟩ off1 sz1 off2 sz2 e1 e2 e3 e4
    rw [hoff l1 h1] at e1
    rw [hsz l1 h1] at e2
    rw [hoff l2 h2] at e3
    rw [hsz l2 h2] at e4
    cases e1
    cases e2
    cases e3
    cases e4
    exact h
  · intro s m p hs hc hp l h
    obtain ⟨h1, h2, h3⟩ := hlev l h
    have hfit : ceiling s.capacity l.scale * l.bitsPerRecord < 2 ^ 32 := by rw [hs]; exact h3
    obtain ⟨-, k⟩ := n5 s m p hs hc hp l h h1 h2 hfit
    have hmax : max s.capacity 1 = s.capacity := by omega
    have hd : Exact.data B s l = some (l.data B s) := by
      unfold Exact.data Map.data
      rw [hs, hoff l h]
      rfl
    have hz : Exact.sizeNow B s l = some (l.sizeNow B s) := by
      unfold Exact.sizeNow Map.sizeNow
      rw [hmax, hs]
      exact hsz l h
    have hz2 : l.sizeNow B s = l.size B capacity := by
      unfold Map.sizeNow
      rw [hmax, hs]
    refine ⟨_, _, _, hoff l h, hsz l h, hd, by rw [hz, hz2], ?_, ?_, ?_⟩
    · unfold Map.data
      rw [hs]
    · exact Exact.indexOf_contains B hB s l p hp hc h1 h2 hfit
    · intro j j1 j2
      obtain ⟨k1, k2, k3, m1, m2, k4, k5, k6⟩ := k j j1 j2
      exact ⟨k1, k2, k3, m1, m2,
        by rw [Exact.setBit_nat B s l s l hd hz]; exact k4,
        by rw [Exact.clearBit_nat B s l s l hd hz]; exact k5, k6⟩

/-- Witness of C23: a hierarchy of two levels (one bit per four words over one
bit per word) on a 32 bit target with a capacity of eight words.  Each level
takes one word, the footprint is 2; the lower level has the word 8 and the
upper level the word 9 of the segment; for the sixth word of a segment at
address 1000 the bit 5 of the lower level lies in word 0 of its backing words,
at address 1032. -/
theorem map_layout_witness :
    (∃ f, Exact.footprint 4 (Map.node 1 4 true (Map.leaf 1 1 true)) 8 = some f ∧
      f = ((Map.node 1 4 true (Map.leaf 1 1 true)).levels.map fun l =>
        ceiling (ceiling 8 l.scale * l.bitsPerRecord) (BitsPerWord 4)).sum) ∧
    Exact.footprint 4 (Map.node 1 4 true (Map.leaf 1 1 true)) 8 = some 2 ∧
    Exact.offset 4 (Map.node 1 4 true (Map.leaf 1 1 true)) 8 = some 1 ∧
    Exact.offset 4 (Map.leaf 1 1 true) 8 = some 0 ∧
    Exact.size 4 (Map.node 1 4 true (Map.leaf 1 1 true)) 8 = some 1 ∧
    Exact.size 4 (Map.leaf 1 1 true) 8 = some 1 ∧
    Exact.data 4 ⟨1000, 8, 8, none⟩ (Map.leaf 1 1 true) = some 1032 ∧
    Exact.data 4 ⟨1000, 8, 8, none⟩ (Map.node 1 4 true (Map.leaf 1 1 true)) = some 1036 ∧
    Exact.indexOf 4 ⟨1000, 8, 8, none⟩ (Map.leaf 1 1 true) 1020 = some 5 ∧
    wordOf 4 5 = 0 ∧
    ((Exact.setBit 4 ⟨1000, 8, 8, none⟩ (Map.leaf 1 1 true) (fun _ => 0) 5).map fun m1 =>
      (m1 1028, m1 1032, m1 1036)) = some (0, 32, 0) :=
  ⟨(map_layout 4 (by decide) (Map.node 1 4 true (Map.leaf 1 1 true)) 8 (by decide)
      (by decide) (by decide)).imp fun _ h => ⟨h.1, h.2.1⟩,
    by decide, by decide, by decide, by decide, by decide, by decide, by decide, by decide,
    by decide, by decide⟩

/-- Counterexample to C23 as stated: the age map (two bits per record) on a 32
bit target.  At the capacity 2^31 the product 2^31 * 2 is 0 on the type
`unsigned` and `footprint` fails the assertion of `Map::size`: it does not
return.  At the capacity 2^31 + 16 the product is 32 and `footprint` returns 1,
while the sum the claim gives is 2^27 + 1. -/
theorem map_layout_wraps :
    Exact.footprint 4 (Map.leaf 2 1 false) 2147483648 = none ∧
    Exact.footprint 4 (Map.leaf 2 1 false) 2147483664 = some 1 ∧
    ((Map.leaf 2 1 false).levels.map fun l =>
      ceiling (ceiling 2147483664 l.scale * l.bitsPerRecord) (BitsPerWord 4)).sum
        = 134217729 := by
  refine ⟨by decide, by decide, by decide⟩

end Heap

namespace Heap

open CollectionType

/-! ## The memory the construction of the destination segments leaves -/

end Heap

namespace Heap

open CollectionType

/-! ## What `collect` does to the object graph -/

section Entry

variable {B : Nat} {c0 : Context} {G : Graph}

end Entry

end Heap

namespace Heap

open CollectionType

end Heap

